import Mathlib

/-!
# OSCD file system core: block allocator, inodes, directories, paths, pipes, files, block cache

A shallow embedding of `fs.c`, `file.c`, `pipe.c`, `bio.c` and `ide.c` (with
the constants of `fs.h`, `file.h`, `param.h`, `stat.h`, `buf.h`) and theorems
about them.

Conventions of the embedding.

* C `uint` values are natural numbers; where the C arithmetic can wrap the
  definition reduces modulo `2^32` explicitly.  C `int` values are integers,
  brought back into range by `int32` where they can leave it.
* A block, a user buffer and any other byte array is a function from the byte
  offset to the byte stored there.  A pointer into a NUL-terminated string is
  the list of the bytes up to the terminator.
* A call of `panic` is the error branch of `Except Panic`.
* The layer of `fs.c` sees the disk through the block cache: `bread` hands out
  the cached image of a block, a store into `bp->data` that is followed by
  `log_write(bp); brelse(bp)` updates that image.  The cache itself (`bget`,
  the LRU list, reference counts) is embedded in namespace `Bio`.  In this
  view a `bread` is always served: the panic of `bget` is left out.
* Namespace `Cached` puts the two together for the allocators: `readsb`,
  `bzero`, `balloc`, `bfree` and `ialloc` run on the cache of `Bio`, with the
  panic of `bget` and the pin of `log_write`, and are shown to compute what the
  view computes whenever `bget` finds a buffer.
* The inode functions of the view leave the sleep-lock `ip->lock` out.
  Namespace `Sleep` has `ilock`, `iput` and `dirlink` with it: a call that has
  to wait for a lock has not returned.
* Code that sleeps (`pipewrite`, `piperead`) is embedded as the runs between
  two sleeps, each run atomic under the lock it holds.
-/

namespace OSCD

/-! ## Constants -/

/-- Block size, `fs.h`. -/
def BSIZE : Nat := 512
/-- Number of direct block addresses in an inode, `fs.h`. -/
def NDIRECT : Nat := 12
/-- Number of addresses in the indirect block, `BSIZE / sizeof(uint)`. -/
def NINDIRECT : Nat := BSIZE / 4
/-- Largest file in blocks, `fs.h`. -/
def MAXFILE : Nat := NDIRECT + NINDIRECT
/-- Size in bytes of `struct dinode`: four shorts, one uint, `NDIRECT+1` uints. -/
def DINODE_SIZE : Nat := 4 * 2 + 4 + (NDIRECT + 1) * 4
/-- Inodes per block, `fs.h`. -/
def IPB : Nat := BSIZE / DINODE_SIZE
/-- Bitmap bits per block, `fs.h`. -/
def BPB : Nat := BSIZE * 8
/-- Size of the file system image in blocks, `param.h`. -/
def FSSIZE : Nat := 1000
/-- Maximum major device number, `param.h`. -/
def NDEV : Int := 10
/-- Directory, `stat.h`. -/
def T_DIR : Int := 1
/-- File, `stat.h`. -/
def T_FILE : Int := 2
/-- Device, `stat.h`. -/
def T_DEV : Int := 3
/-- Two to the 32: the modulus of `uint` arithmetic. -/
def U32 : Nat := 4294967296

/-- The reasons for which the embedded code calls `panic`; `diverged` marks a
loop of the model that used up its iteration budget (shown unreachable), and
`notHolder` a step of an interleaving by a caller that uses a buffer or an
inode reference it does not hold (a use outside the interface, which the code
does not check). -/
inductive Panic where
  | ballocOutOfBlocks
  | freeingFreeBlock
  | bmapOutOfRange
  | ideIncorrectBlockno
  | ideDiskAbsent
  | bgetNoBuffers
  | brelseNotLocked
  | bwriteNotLocked
  | iderwNothingToDo
  | iallocNoInodes
  | igetNoInodes
  | ilockNoRef
  | ilockNoType
  | dirlookupNotDir
  | dirlookupRead
  | dirlinkRead
  | dirlinkShortWrite
  | iunlock
  | shortFilewrite
  | filewrite
  | notHolder
  | diverged
  deriving DecidableEq, Repr

/-- A byte array: offset to byte. -/
abbrev Mem := Nat → Nat

/-- The C conversion of a `uint` to `int` (two's complement, 32 bits). -/
def toInt32 (n : Nat) : Int :=
  if n % U32 < 2147483648 then ((n % U32 : Nat) : Int) else ((n % U32 : Nat) : Int) - 4294967296

/-- The result of `memmove(dst + d, src + s, m)`. -/
def memmove (dst : Mem) (d : Nat) (src : Mem) (s m : Nat) : Mem :=
  fun i => if d ≤ i ∧ i < d + m then src (s + (i - d)) else dst i

/-- The result of `memset(dst + d, c, m)`. -/
def memset (dst : Mem) (d c m : Nat) : Mem :=
  fun i => if d ≤ i ∧ i < d + m then c else dst i

/-- Read of the little-endian `uint` number `i` of a byte array, `((uint*)data)[i]`. -/
def getU32 (data : Mem) (i : Nat) : Nat :=
  data (4 * i) + 256 * data (4 * i + 1) + 65536 * data (4 * i + 2) + 16777216 * data (4 * i + 3)

/-- Byte `j` (0 to 3) of the little-endian image of the `uint` `v`. -/
def encU32 (v j : Nat) : Nat := v / 256 ^ j % 256

/-- Store `((uint*)data)[i] = v`. -/
def setU32 (data : Mem) (i v : Nat) : Mem :=
  fun k => if 4 * i ≤ k ∧ k < 4 * i + 4 then encU32 v (k - 4 * i) else data k

/-- Read of a little-endian `short` at byte offset `o`. -/
def getShort (data : Mem) (o : Nat) : Int :=
  let u := data o + 256 * data (o + 1)
  if u < 32768 then (u : Int) else (u : Int) - 65536

/-- Byte `j` (0 or 1) of the little-endian image of the `short` `x`. -/
def encShort (x : Int) (j : Nat) : Nat := (x % 65536).toNat / 256 ^ j % 256

/-! ## Data model -/

/-- The super block, `struct superblock` of `fs.h`. -/
structure SuperBlock where
  size : Nat
  nblocks : Nat
  ninodes : Nat
  nlog : Nat
  logstart : Nat
  inodestart : Nat
  bmapstart : Nat
  deriving DecidableEq, Repr

/-- The in-memory inode, `struct inode` of `file.h` (the sleep-lock left out). -/
structure Inode where
  dev : Nat
  inum : Nat
  ref : Int
  valid : Int
  type : Int
  major : Int
  minor : Int
  nlink : Int
  size : Nat
  addrs : Nat → Nat

/-- One entry of the device switch, `struct devsw` of `file.h`: the two function
pointers, null or a function of the inode, the user buffer and the count. -/
structure Devsw where
  read : Option (Inode → Mem → Int → Int × Mem)
  write : Option (Inode → Mem → Int → Int)

/-- The state `fs.c` works on: the global `sb`, the disk as seen through the
block cache (device, block number, byte offset), the `havedisk1` flag of
`ide.c` and the `devsw` table. -/
structure FS where
  sb : SuperBlock
  disk : Nat → Nat → Mem
  havedisk1 : Bool
  devsw : Nat → Devsw

/-- Block containing inode `i`, the macro `IBLOCK` of `fs.h`. -/
def IBLOCK (i : Nat) (sb : SuperBlock) : Nat := (i / IPB + sb.inodestart) % U32

/-- Block of the free map containing the bit for block `b`, the macro `BBLOCK`. -/
def BBLOCK (b : Nat) (sb : SuperBlock) : Nat := (b / BPB + sb.bmapstart) % U32

/-- The super block held in the first 28 bytes of a block (seven `uint`s). -/
def decodeSb (data : Mem) : SuperBlock :=
  { size := getU32 data 0, nblocks := getU32 data 1, ninodes := getU32 data 2,
    nlog := getU32 data 3, logstart := getU32 data 4, inodestart := getU32 data 5,
    bmapstart := getU32 data 6 }

/-- Replace the image of block `(dev, b)`. -/
def FS.setBlock (st : FS) (dev b : Nat) (data : Mem) : FS :=
  { st with disk := fun d k => if d = dev ∧ k = b then data else st.disk d k }

/-! ## Block access as seen from `fs.c` -/

/-- Modelled from the spec: `log_write(bp)` of the log (`log.c` is not among the
sources), followed by `brelse(bp)`.  The spec says that `log_write` "replaces
`bwrite` for filesystem mutations; the buffer is pinned until commit": the
data stored into `bp->data` stays the cached image of block `(dev, blockno)`,
which is what a later `bread` of that block hands out. -/
@[reducible] def log_write (st : FS) (dev blockno : Nat) (data : Mem) : FS :=
  st.setBlock dev blockno data

/-- The call `bread(dev, blockno)` of `bio.c` as seen by its caller when `bget`
finds a buffer: the image of the block.  A block that has to be loaded goes
through `iderw` and `idestart` of `ide.c`, which panic for a device other than
0 when disk 1 is absent and for a block number of `FSSIZE` or more; such a
block is never in the cache.  The panic of `bget` ("bget: no buffers") is left
out here; `Bio.bread` has it, and `Cached` runs the allocators on it. -/
def bread (st : FS) (dev blockno : Nat) : Except Panic Mem :=
  if dev ≠ 0 ∧ st.havedisk1 = false then .error .ideDiskAbsent
  else if FSSIZE ≤ blockno then .error .ideIncorrectBlockno
  else .ok (st.disk dev blockno)

/-- Read the super block, `readsb(dev, &sb)` applied to the global `sb`. -/
def readsb (st : FS) (dev : Nat) : Except Panic FS := do
  let data ← bread st dev 1
  pure { st with sb := decodeSb data }

/-- Zero a block, `bzero`. -/
def bzero (st : FS) (dev bno : Nat) : Except Panic FS := do
  let data ← bread st dev bno
  pure (log_write st dev bno (memset data 0 0 BSIZE))

/-! ## Blocks: `balloc` and `bfree` -/

/-- The inner loop of `balloc` over the bits `bi` of one bitmap block, with `k`
the number of iterations left before `bi` reaches `BPB`: the first `bi` with
`bi < BPB && b + bi < sb.size` whose bit is clear. -/
def ballocScan (data : Mem) (size b : Nat) : Nat → Nat → Option Nat
  | 0, _ => none
  | k + 1, bi =>
    if bi < BPB ∧ b + bi < size then
      if data (bi / 8) &&& (1 <<< (bi % 8)) = 0 then some bi
      else ballocScan data size b k (bi + 1)
    else none

/-- The outer loop of `balloc` over the bitmap blocks, `b` stepping by `BPB`,
with `k` the number of bitmap blocks left. -/
def ballocLoop (st : FS) (dev : Nat) : Nat → Nat → Except Panic (Nat × FS)
  | 0, _ => .error .ballocOutOfBlocks
  | k + 1, b =>
    if b < st.sb.size then do
      let data ← bread st dev (BBLOCK b st.sb)
      match ballocScan data st.sb.size b BPB 0 with
      | some bi =>
        let m := 1 <<< (bi % 8)
        let st1 := log_write st dev (BBLOCK b st.sb)
          (fun i => if i = bi / 8 then (data (bi / 8) ||| m) % 256 else data i)
        let st2 ← bzero st1 dev (b + bi)
        pure (b + bi, st2)
      | none => ballocLoop st dev k (b + BPB)
    else .error .ballocOutOfBlocks

/-- Allocate a zeroed disk block, `balloc`. -/
def balloc (st : FS) (dev : Nat) : Except Panic (Nat × FS) :=
  ballocLoop st dev (st.sb.size / BPB + 1) 0

/-- Free a disk block, `bfree`. -/
def bfree (st : FS) (dev b : Nat) : Except Panic FS := do
  let st1 ← readsb st dev
  let data ← bread st1 dev (BBLOCK b st1.sb)
  let bi := b % BPB
  let m := 1 <<< (bi % 8)
  if data (bi / 8) &&& m = 0 then .error .freeingFreeBlock
  else pure (log_write st1 dev (BBLOCK b st1.sb)
    (fun i => if i = bi / 8 then (data (bi / 8) &&& (U32 - 1 - m)) % 256 else data i))

/-! ## Inode content: `iupdate`, `bmap`, `readi`, `writei` -/

/-- Byte `k` (below 64) of the on-disk record `struct dinode` of an inode. -/
def dinodeByte (ip : Inode) (k : Nat) : Nat :=
  if k < 2 then encShort ip.type k
  else if k < 4 then encShort ip.major (k - 2)
  else if k < 6 then encShort ip.minor (k - 4)
  else if k < 8 then encShort ip.nlink (k - 6)
  else if k < 12 then encU32 ip.size (k - 8)
  else encU32 (ip.addrs ((k - 12) / 4)) ((k - 12) % 4)

/-- Copy a modified in-memory inode to disk, `iupdate`. -/
def iupdate (st : FS) (ip : Inode) : Except Panic FS := do
  let data ← bread st ip.dev (IBLOCK ip.inum st.sb)
  let o := DINODE_SIZE * (ip.inum % IPB)
  pure (log_write st ip.dev (IBLOCK ip.inum st.sb)
    (fun i => if o ≤ i ∧ i < o + DINODE_SIZE then dinodeByte ip (i - o) else data i))

/-- The inode with `addrs[i] = a`. -/
def Inode.setAddr (ip : Inode) (i a : Nat) : Inode :=
  { ip with addrs := fun j => if j = i then a else ip.addrs j }

/-- Return the disk block address of the nth block in inode ip, allocating one
if there is none: `bmap`. -/
def bmap (st : FS) (ip : Inode) (bn : Nat) : Except Panic (Nat × FS × Inode) :=
  if bn < NDIRECT then
    if ip.addrs bn = 0 then do
      let (addr, st1) ← balloc st ip.dev
      pure (addr, st1, ip.setAddr bn addr)
    else pure (ip.addrs bn, st, ip)
  else
    let bn1 := bn - NDIRECT
    if bn1 < NINDIRECT then do
      let (addr, st1, ip1) ←
        (if ip.addrs NDIRECT = 0 then do
          let (a, s) ← balloc st ip.dev
          pure (a, s, ip.setAddr NDIRECT a)
        else pure (ip.addrs NDIRECT, st, ip) : Except Panic (Nat × FS × Inode))
      let data ← bread st1 ip.dev addr
      if getU32 data bn1 = 0 then do
        let (addr2, st2) ← balloc st1 ip.dev
        pure (addr2, log_write st2 ip.dev addr (setU32 (st2.disk ip.dev addr) bn1 addr2), ip1)
      else pure (getU32 data bn1, st1, ip1)
    else .error .bmapOutOfRange

/-- The copy loop of `readi`; `dst` is the caller's buffer, `tot` the bytes
copied so far, and `k` bounds the iterations left (each copies a byte or more). -/
def readiLoop (n : Nat) : Nat → FS → Inode → Mem → Nat → Nat → Except Panic (FS × Inode × Mem)
  | 0, st, ip, dst, tot, _ => if tot < n then .error .diverged else .ok (st, ip, dst)
  | k + 1, st, ip, dst, tot, off =>
    if tot < n then do
      let (addr, st1, ip1) ← bmap st ip (off / BSIZE)
      let data ← bread st1 ip1.dev addr
      let m := min (n - tot) (BSIZE - off % BSIZE)
      readiLoop n k st1 ip1 (memmove dst tot data (off % BSIZE) m) (tot + m) (off + m)
    else .ok (st, ip, dst)

/-- Read data from inode, `readi`: the returned `int`, the state, the inode and
the caller's buffer after the call. -/
def readi (st : FS) (ip : Inode) (dst : Mem) (off n : Nat) :
    Except Panic (Int × FS × Inode × Mem) :=
  if ip.type = T_DEV then
    if ip.major < 0 ∨ ip.major ≥ NDEV then .ok (-1, st, ip, dst)
    else match (st.devsw ip.major.toNat).read with
      | none => .ok (-1, st, ip, dst)
      | some f => let r := f ip dst (toInt32 n); .ok (r.1, st, ip, r.2)
  else if off > ip.size ∨ (off + n) % U32 < off then .ok (-1, st, ip, dst)
  else
    let n1 := if (off + n) % U32 > ip.size then ip.size - off else n
    do
      let (st1, ip1, dst1) ← readiLoop n1 n1 st ip dst 0 off
      pure (toInt32 n1, st1, ip1, dst1)

/-- The copy loop of `writei`; it also returns the final value of `off`. -/
def writeiLoop (src : Mem) (n : Nat) :
    Nat → FS → Inode → Nat → Nat → Except Panic (FS × Inode × Nat)
  | 0, st, ip, tot, off => if tot < n then .error .diverged else .ok (st, ip, off)
  | k + 1, st, ip, tot, off =>
    if tot < n then do
      let (addr, st1, ip1) ← bmap st ip (off / BSIZE)
      let data ← bread st1 ip1.dev addr
      let m := min (n - tot) (BSIZE - off % BSIZE)
      writeiLoop src n k (log_write st1 ip1.dev addr (memmove data (off % BSIZE) src tot m)) ip1
        (tot + m) (off + m)
    else .ok (st, ip, off)

/-- Write data to inode, `writei`: the returned `int`, the state and the inode
after the call. -/
def writei (st : FS) (ip : Inode) (src : Mem) (off n : Nat) :
    Except Panic (Int × FS × Inode) :=
  if ip.type = T_DEV then
    if ip.major < 0 ∨ ip.major ≥ NDEV then .ok (-1, st, ip)
    else match (st.devsw ip.major.toNat).write with
      | none => .ok (-1, st, ip)
      | some f => .ok (f ip src (toInt32 n), st, ip)
  else if off > ip.size ∨ (off + n) % U32 < off then .ok (-1, st, ip)
  else if (off + n) % U32 > MAXFILE * BSIZE then .ok (-1, st, ip)
  else do
    let (st1, ip1, off1) ← writeiLoop src n n st ip 0 off
    if n > 0 ∧ off1 > ip1.size then
      let ip2 := { ip1 with size := off1 }
      let st2 ← iupdate st1 ip2
      pure (toInt32 n, st2, ip2)
    else pure (toInt32 n, st1, ip1)

/-! ## Specification vocabulary for the file system layer -/

/-- The bitmap bit of block `b` is set: byte `(b % BPB) / 8`, bit `b % 8`, of
block `BBLOCK b`. -/
def bitSet (st : FS) (dev b : Nat) : Prop :=
  st.disk dev (BBLOCK b st.sb) (b % BPB / 8) &&& (1 <<< (b % 8)) ≠ 0

instance (st : FS) (dev b : Nat) : Decidable (bitSet st dev b) := by
  unfold bitSet; infer_instance

/-- First block after the bitmap: the boot block, the super block, the log, the
inode blocks and the bitmap blocks all lie below it. -/
def dataStart (sb : SuperBlock) : Nat := sb.bmapstart + sb.size / BPB + 1

/-- The bitmap after block `r` has been marked in use (the store of `balloc`). -/
def markUsed (st : FS) (dev r : Nat) : FS :=
  st.setBlock dev (BBLOCK r st.sb)
    (fun i => if i = r % BPB / 8
      then (st.disk dev (BBLOCK r st.sb) (r % BPB / 8) ||| (1 <<< (r % 8))) % 256
      else st.disk dev (BBLOCK r st.sb) i)

/-- The state `balloc` leaves when it hands out block `r`: bit set, block zeroed. -/
def allocated (st : FS) (dev r : Nat) : FS :=
  (markUsed st dev r).setBlock dev r (memset ((markUsed st dev r).disk dev r) 0 0 BSIZE)

/-- A well-formed file system on device `dev`: the disk is there, the image has
at most `FSSIZE` blocks, the layout is boot, super, log, inodes, bitmap, data,
the in-memory super block is the one on disk, the bitmap marks every non-data
block as in use, and the bitmap blocks hold bytes. -/
structure FsOk (st : FS) (dev : Nat) : Prop where
  disk_present : dev = 0 ∨ st.havedisk1 = true
  size_le : st.sb.size ≤ FSSIZE
  inodes_after_super : 2 ≤ st.sb.inodestart
  bitmap_after_inodes : st.sb.inodestart ≤ st.sb.bmapstart
  data_in_image : dataStart st.sb ≤ st.sb.size
  sb_on_disk : decodeSb (st.disk dev 1) = st.sb
  meta_used : ∀ b, b < dataStart st.sb → bitSet st dev b
  bitmap_bytes : ∀ k i, k ≤ st.sb.size / BPB → st.disk dev (st.sb.bmapstart + k) i < 256

/-- The address of logical block `bn` of the inode as the block map records it,
zero when the block is not mapped (what `bmap` finds before it allocates). -/
def blockAt (st : FS) (ip : Inode) (bn : Nat) : Nat :=
  if bn < NDIRECT then ip.addrs bn
  else if ip.addrs NDIRECT = 0 then 0
  else getU32 (st.disk ip.dev (ip.addrs NDIRECT)) (bn - NDIRECT)

/-- Byte `pos` of the file: block `blockAt (pos / BSIZE)`, offset `pos % BSIZE`. -/
def fileByte (st : FS) (ip : Inode) (pos : Nat) : Nat :=
  st.disk ip.dev (blockAt st ip (pos / BSIZE)) (pos % BSIZE)

/-- A well-formed regular inode in a well-formed file system: its record lies in
the inode area, its size is at most `MAXFILE * BSIZE`, the blocks it references
are data blocks marked in use, no block is referenced twice, and the indirect
block is not one of the content blocks. -/
structure InodeOk (st : FS) (ip : Inode) : Prop where
  fs : FsOk st ip.dev
  record_in_area : ip.inum / IPB + st.sb.inodestart < st.sb.bmapstart
  size_le : ip.size ≤ MAXFILE * BSIZE
  ind_data : ip.addrs NDIRECT ≠ 0 →
    dataStart st.sb ≤ ip.addrs NDIRECT ∧ ip.addrs NDIRECT < st.sb.size ∧
      bitSet st ip.dev (ip.addrs NDIRECT)
  blk_data : ∀ bn, bn < MAXFILE → blockAt st ip bn ≠ 0 →
    dataStart st.sb ≤ blockAt st ip bn ∧ blockAt st ip bn < st.sb.size ∧
      bitSet st ip.dev (blockAt st ip bn)
  blk_inj : ∀ bn bn2, bn < MAXFILE → bn2 < MAXFILE → blockAt st ip bn ≠ 0 →
    blockAt st ip bn = blockAt st ip bn2 → bn = bn2
  blk_ne_ind : ∀ bn, bn < MAXFILE → blockAt st ip bn ≠ 0 → blockAt st ip bn ≠ ip.addrs NDIRECT

/-- The state `bfree` leaves when it frees block `b`: the bit of `b` cleared. -/
def markFree (st : FS) (dev b : Nat) : FS :=
  st.setBlock dev (BBLOCK b st.sb)
    (fun i => if i = b % BPB / 8
      then (st.disk dev (BBLOCK b st.sb) (b % BPB / 8) &&& (U32 - 1 - (1 <<< (b % 8)))) % 256
      else st.disk dev (BBLOCK b st.sb) i)

/-- Block `r` is a data block marked in use that the inode does not reference:
the situation right after `balloc` returned `r`. -/
structure Fresh (st : FS) (ip : Inode) (r : Nat) : Prop where
  data : dataStart st.sb ≤ r
  lt_size : r < st.sb.size
  used : bitSet st ip.dev r
  not_blk : ∀ bn, bn < MAXFILE → blockAt st ip bn ≠ r
  not_ind : ip.addrs NDIRECT ≠ r

/-- The state after `a[i] = v` in the indirect block `ind` of device `dev`. -/
def setEntry (st : FS) (dev ind i v : Nat) : FS :=
  st.setBlock dev ind (setU32 (st.disk dev ind) i v)

/-- Block `b` is referenced by the inode in the second state and its place in
the block map (a logical block or the indirect address) was empty in the first:
the inode acquired `b` in between. -/
def newlyOwned (st : FS) (ip : Inode) (st2 : FS) (ip2 : Inode) (b : Nat) : Prop :=
  b ≠ 0 ∧ ((∃ x, x < MAXFILE ∧ blockAt st ip x = 0 ∧ blockAt st2 ip2 x = b) ∨
    (ip.addrs NDIRECT = 0 ∧ ip2.addrs NDIRECT = b))

/-- What a successful `bmap(ip, bn)` returning `a` establishes on a well-formed
inode: block `bn` is mapped to `a`, the other logical blocks are mapped as
before, only the addresses of the inode changed, no content block of the file
changed, an already mapped block changes nothing, and a new block is zeroed. -/
structure BmapPost (st : FS) (ip : Inode) (bn a : Nat) (st2 : FS) (ip2 : Inode) : Prop where
  ok : InodeOk st2 ip2
  addr : blockAt st2 ip2 bn = a
  addr_ne : a ≠ 0
  others : ∀ x, x < MAXFILE → x ≠ bn → blockAt st2 ip2 x = blockAt st ip x
  fields : ip2 = { ip with addrs := ip2.addrs }
  sb : st2.sb = st.sb
  content : ∀ x, x < MAXFILE → blockAt st ip x ≠ 0 →
    st2.disk ip.dev (blockAt st ip x) = st.disk ip.dev (blockAt st ip x)
  mapped : blockAt st ip bn ≠ 0 → st2 = st ∧ ip2 = ip
  zeroed : blockAt st ip bn = 0 → ∀ i, i < BSIZE → st2.disk ip.dev a i = 0
  ind_kept : ip.addrs NDIRECT ≠ 0 → ip2.addrs NDIRECT = ip.addrs NDIRECT
  ind_direct : bn < NDIRECT → ip2.addrs NDIRECT = ip.addrs NDIRECT
  bits : ∀ b, b < st.sb.size →
    (bitSet st2 ip.dev b ↔ (bitSet st ip.dev b ∨ newlyOwned st ip st2 ip2 b))

/-- What a successful run of the copy loop of `writei` establishes, started
with `tot` bytes done at file offset `off`: the remaining bytes of `src` are in
the file, blocks mapped before are mapped to the same address, blocks outside
the written range are mapped as before, the file content outside the written
range is as before, and only the addresses of the inode changed. -/
structure WritePost (st : FS) (ip : Inode) (src : Mem) (tot off n : Nat)
    (st2 : FS) (ip2 : Inode) (off2 : Nat) : Prop where
  ok : InodeOk st2 ip2
  off_eq : off2 = off + (n - tot)
  fields : ip2 = { ip with addrs := ip2.addrs }
  sb : st2.sb = st.sb
  written : ∀ i, tot ≤ i → i < n →
    blockAt st2 ip2 ((off + (i - tot)) / BSIZE) ≠ 0 ∧ fileByte st2 ip2 (off + (i - tot)) = src i
  kept_map : ∀ x, x < MAXFILE → blockAt st ip x ≠ 0 → blockAt st2 ip2 x = blockAt st ip x
  outside_map : ∀ x, x < MAXFILE → (∀ i, tot ≤ i → i < n → (off + (i - tot)) / BSIZE ≠ x) →
    blockAt st2 ip2 x = blockAt st ip x
  kept_data : ∀ p, p < MAXFILE * BSIZE → (p < off ∨ off + (n - tot) ≤ p) →
    blockAt st ip (p / BSIZE) ≠ 0 → fileByte st2 ip2 p = fileByte st ip p
  ind_direct : off + (n - tot) ≤ NDIRECT * BSIZE → ip2.addrs NDIRECT = ip.addrs NDIRECT
  ind_kept : ip.addrs NDIRECT ≠ 0 → ip2.addrs NDIRECT = ip.addrs NDIRECT
  bits : ∀ b, b < st.sb.size →
    (bitSet st2 ip.dev b ↔ (bitSet st ip.dev b ∨ newlyOwned st ip st2 ip2 b))
  nothing : n ≤ tot → st2 = st ∧ ip2 = ip

/-- What a call of `writei` that did not fail its bounds checks establishes on
a well-formed regular inode: the size is the larger of the old size and the
end of the write, the bytes of `src` are in the file, blocks mapped before are
mapped to the same address, blocks outside the written range are mapped as
before, and the file content outside the written range is as before. -/
structure WriteiPost (st : FS) (ip : Inode) (src : Mem) (off n : Nat)
    (st2 : FS) (ip2 : Inode) : Prop where
  ok : InodeOk st2 ip2
  size : ip2.size = max ip.size (off + n)
  fields : ip2 = { ip with addrs := ip2.addrs, size := ip2.size }
  sb : st2.sb = st.sb
  written : ∀ i, i < n →
    blockAt st2 ip2 ((off + i) / BSIZE) ≠ 0 ∧ fileByte st2 ip2 (off + i) = src i
  kept_map : ∀ x, x < MAXFILE → blockAt st ip x ≠ 0 → blockAt st2 ip2 x = blockAt st ip x
  outside_map : ∀ x, x < MAXFILE → (∀ i, i < n → (off + i) / BSIZE ≠ x) →
    blockAt st2 ip2 x = blockAt st ip x
  kept_data : ∀ p, p < MAXFILE * BSIZE → (p < off ∨ off + n ≤ p) →
    blockAt st ip (p / BSIZE) ≠ 0 → fileByte st2 ip2 p = fileByte st ip p
  ind_direct : off + n ≤ NDIRECT * BSIZE → ip2.addrs NDIRECT = ip.addrs NDIRECT
  ind_kept : ip.addrs NDIRECT ≠ 0 → ip2.addrs NDIRECT = ip.addrs NDIRECT
  bits : ∀ b, b < st.sb.size →
    (bitSet st2 ip.dev b ↔ (bitSet st ip.dev b ∨ newlyOwned st ip st2 ip2 b))
  nothing : n = 0 → st2 = st ∧ ip2 = ip

/-- The file has no holes: every logical block below the end of the file is
mapped. -/
def NoHoles (st : FS) (ip : Inode) : Prop :=
  ∀ bn, bn * BSIZE < ip.size → blockAt st ip bn ≠ 0

/-- The `int` a call returned, when it returned. -/
def retOf {α : Type} : Except Panic (Int × α) → Option Int
  | .ok (r, _) => some r
  | .error _ => none

/-- The panics a call of `bmap` with a block number below `MAXFILE` can end
in: no free block, or the two panics of the disk driver. -/
def IoPanic (e : Panic) : Prop :=
  e = Panic.ballocOutOfBlocks ∨ e = Panic.ideIncorrectBlockno ∨ e = Panic.ideDiskAbsent

/-- A sequence of `writei` calls on one inode, each given by its source buffer,
offset and count; the returned values are dropped. -/
def writeiSeq (st : FS) (ip : Inode) : List (Mem × Nat × Nat) → Except Panic (FS × Inode)
  | [] => .ok (st, ip)
  | c :: cs => do
    let (_, st1, ip1) ← writei st ip c.1 c.2.1 c.2.2
    writeiSeq st1 ip1 cs

/-! ## A sample file system image

The image `mkfs` builds for `FSSIZE = 1000` blocks and 200 inodes: 59 blocks
of boot block, super block, log, inodes and bitmap, all marked in use, and 941
free data blocks. -/

/-- The super block of the sample image. -/
def sb0 : SuperBlock :=
  { size := 1000, nblocks := 941, ninodes := 200, nlog := 30, logstart := 2,
    inodestart := 32, bmapstart := 58 }

/-- The 28 bytes of a super block, little-endian. -/
def encodeSb (sb : SuperBlock) : Mem := fun i =>
  if i < 4 then encU32 sb.size i
  else if i < 8 then encU32 sb.nblocks (i - 4)
  else if i < 12 then encU32 sb.ninodes (i - 8)
  else if i < 16 then encU32 sb.nlog (i - 12)
  else if i < 20 then encU32 sb.logstart (i - 16)
  else if i < 24 then encU32 sb.inodestart (i - 20)
  else if i < 28 then encU32 sb.bmapstart (i - 24)
  else 0

/-- The disk of the sample image: super block in block 1, bitmap in block 58
with bits 0 to 58 set, zeroes elsewhere. -/
def disk0 : Nat → Nat → Mem := fun _ b =>
  if b = 1 then encodeSb sb0
  else if b = 58 then (fun i => if i < 7 then 255 else if i = 7 then 7 else 0)
  else fun _ => 0

/-- The sample file system state. -/
def fs0 : FS :=
  { sb := sb0, disk := disk0, havedisk1 := true, devsw := fun _ => ⟨none, none⟩ }

/-- A fresh regular file on device 1: size 0, all addresses zero. -/
def freshFile (inum : Nat) : Inode :=
  { dev := 1, inum := inum, ref := 1, valid := 1, type := T_FILE, major := 0, minor := 0,
    nlink := 1, size := 0, addrs := fun _ => 0 }

/-- The user buffer holding the bytes of a list, zero beyond it. -/
def memOf (l : List Nat) : Mem := fun i => l.getD i 0

/-- The sample image after "hello" has been written at offset 0 of the fresh
inode 2: the state and the inode. -/
def helloFile : FS × Inode :=
  match writei fs0 (freshFile 2) (memOf [104, 101, 108, 108, 111]) 0 5 with
  | .ok (_, st, ip) => (st, ip)
  | .error _ => (fs0, freshFile 2)

/-- Whether a call returned, with a result on which the test `p` holds. -/
def okAnd {α : Type} (p : α → Bool) : Except Panic α → Bool
  | .ok a => p a
  | .error _ => false

/-! ## The inode cache: `iget`, `idup`, `ilock`, `iput`, `ialloc` -/

/-- Maximum number of active i-nodes, `param.h`. -/
def NINODE : Nat := 50

/-- An `int` value reduced to 32 bits, two's complement: the result of `ref++`
and `ref--`. -/
def int32 (x : Int) : Int := (x + 2147483648) % 4294967296 - 2147483648

/-- The array `icache.inode`: slot number to in-memory inode.  A pointer
`struct inode*` into the cache is a slot number. -/
abbrev ICache := Nat → Inode

/-- Replace slot `i`. -/
def ICache.set (ic : ICache) (i : Nat) (ip : Inode) : ICache :=
  fun j => if j = i then ip else ic j

/-- The scan of `iget` over the slots `i`, `i + 1`, ... with `k` slots to go and
`empty` the first empty slot seen so far: the slot that holds `(dev, inum)`,
or else the value of `empty` at the end. -/
def igetScan (ic : ICache) (dev inum : Nat) : Nat → Nat → Option Nat → Nat ⊕ Option Nat
  | 0, _, empty => .inr empty
  | k + 1, i, empty =>
    if (ic i).ref > 0 ∧ (ic i).dev = dev ∧ (ic i).inum = inum then .inl i
    else igetScan ic dev inum k (i + 1)
      (if empty = none ∧ (ic i).ref = 0 then some i else empty)

/-- Find the inode with number `inum` on device `dev` and return its in-memory
copy, `iget`: the slot and the cache after the call. -/
def iget (ic : ICache) (dev inum : Nat) : Except Panic (Nat × ICache) :=
  match igetScan ic dev inum NINODE 0 none with
  | .inl i => .ok (i, ic.set i { ic i with ref := int32 ((ic i).ref + 1) })
  | .inr none => .error .igetNoInodes
  | .inr (some i) => .ok (i, ic.set i { ic i with dev := dev, inum := inum, ref := 1, valid := 0 })

/-- Increment the reference count, `idup`. -/
def idup (ic : ICache) (i : Nat) : ICache :=
  ic.set i { ic i with ref := int32 ((ic i).ref + 1) }

/-- Lock the given inode and read it from disk if necessary, `ilock` (the
sleep-lock left out). -/
def ilock (st : FS) (ip : Inode) : Except Panic Inode :=
  if ip.ref < 1 then .error .ilockNoRef
  else if ip.valid = 0 then do
    let data ← bread st ip.dev (IBLOCK ip.inum st.sb)
    let o := DINODE_SIZE * (ip.inum % IPB)
    let ip1 : Inode :=
      { ip with type := getShort data o, major := getShort data (o + 2),
                minor := getShort data (o + 4), nlink := getShort data (o + 6),
                size := getU32 data ((o + 8) / 4),
                addrs := fun i => if i ≤ NDIRECT then getU32 data ((o + 12) / 4 + i)
                                  else ip.addrs i,
                valid := 1 }
    if ip1.type = 0 then .error .ilockNoType else pure ip1
  else pure ip

/-- The first loop of `itrunc`, over the direct addresses `i`, `i + 1`, ...
with `k` of them to go. -/
def itruncDirect : Nat → FS → Inode → Nat → Except Panic (FS × Inode)
  | 0, st, ip, _ => .ok (st, ip)
  | k + 1, st, ip, i =>
    if ip.addrs i ≠ 0 then do
      let st1 ← bfree st ip.dev (ip.addrs i)
      itruncDirect k st1 (ip.setAddr i 0) (i + 1)
    else itruncDirect k st ip (i + 1)

/-- The second loop of `itrunc`, over the entries `j`, `j + 1`, ... of the
indirect block `ind` held in `bp`, with `k` of them to go. -/
def itruncIndirect (dev ind : Nat) : Nat → FS → Nat → Except Panic FS
  | 0, st, _ => .ok st
  | k + 1, st, j =>
    if getU32 (st.disk dev ind) j ≠ 0 then do
      let st1 ← bfree st dev (getU32 (st.disk dev ind) j)
      itruncIndirect dev ind k st1 (j + 1)
    else itruncIndirect dev ind k st (j + 1)

/-- Truncate inode (discard contents), `itrunc`. -/
def itrunc (st : FS) (ip : Inode) : Except Panic (FS × Inode) := do
  let (st1, ip1) ← itruncDirect NDIRECT st ip 0
  let (st2, ip2) ←
    (if ip1.addrs NDIRECT ≠ 0 then do
      let _ ← bread st1 ip1.dev (ip1.addrs NDIRECT)
      let s2 ← itruncIndirect ip1.dev (ip1.addrs NDIRECT) NINDIRECT st1 0
      let s3 ← bfree s2 ip1.dev (ip1.addrs NDIRECT)
      pure (s3, ip1.setAddr NDIRECT 0)
    else pure (st1, ip1) : Except Panic (FS × Inode))
  let ip3 := { ip2 with size := 0 }
  let st3 ← iupdate st2 ip3
  pure (st3, ip3)

/-- Drop a reference to the in-memory inode in slot `i`, `iput`, once it has the
sleep-lock: what it does between `acquiresleep(&ip->lock)` and the end.  The
wait for the lock is left out here; `Sleep.iput` has it. -/
def iput (st : FS) (ic : ICache) (i : Nat) : Except Panic (FS × ICache) := do
  let ip := ic i
  let (st1, ip1) ←
    (if ip.valid ≠ 0 ∧ ip.nlink = 0 then
      if ip.ref = 1 then do
        let (st2, ip2) ← itrunc st ip
        let ip3 := { ip2 with type := 0 }
        let st3 ← iupdate st2 ip3
        pure (st3, { ip3 with valid := 0 })
      else pure (st, ip)
    else pure (st, ip) : Except Panic (FS × Inode))
  pure (st1, ic.set i { ip1 with ref := int32 (ip1.ref - 1) })

/-- The block of inode `inum` after `memset(dip, 0, sizeof(*dip)); dip->type =
type`. -/
def claimDinode (data : Mem) (inum : Nat) (type : Int) : Mem :=
  let o := DINODE_SIZE * (inum % IPB)
  fun i => if o ≤ i ∧ i < o + DINODE_SIZE then (if i < o + 2 then encShort type (i - o) else 0)
           else data i

/-- The loop of `ialloc` from inode number `inum` on, with `k` bounding the
iterations left: the number of the first free inode and the state after it
was marked allocated. -/
def iallocLoop (st : FS) (dev : Nat) (type : Int) : Nat → Nat → Except Panic (Nat × FS)
  | 0, _ => .error .diverged
  | k + 1, inum =>
    if inum < st.sb.ninodes then do
      let data ← bread st dev (IBLOCK inum st.sb)
      if getShort data (DINODE_SIZE * (inum % IPB)) = 0 then
        pure (inum, log_write st dev (IBLOCK inum st.sb) (claimDinode data inum type))
      else iallocLoop st dev type k (inum + 1)
    else .error .iallocNoInodes

/-- Allocate an inode on device `dev` and mark it as allocated by giving it
type `type`, `ialloc`: the slot of the inode, the state and the cache. -/
def ialloc (st : FS) (ic : ICache) (dev : Nat) (type : Int) :
    Except Panic (Nat × FS × ICache) := do
  let (inum, st1) ← iallocLoop st dev type (st.sb.ninodes + 1) 1
  let (i, ic1) ← iget ic dev inum
  pure (i, st1, ic1)

/-! ## Directories: `namecmp`, `dirlookup`, `dirlink` -/

/-- Length of a name in a directory entry, `fs.h`. -/
def DIRSIZ : Nat := 14
/-- Size in bytes of `struct dirent`: a `ushort` and `DIRSIZ` characters. -/
def DIRENT_SIZE : Nat := 2 + DIRSIZ

/-- Modelled from the spec: `strncmp` of `string.c`, which is not among the
sources ("Name comparison: strncmp over 14 bytes").  The strings are compared
from index `i` on, at most `n` characters and no further than the first NUL of
`p`; the result is 0 or the difference of the first two characters that
differ. -/
def strncmp (p q : Mem) : Nat → Nat → Int
  | 0, _ => 0
  | n + 1, i =>
    if p i ≠ 0 ∧ p i = q i then strncmp p q n (i + 1)
    else ((p i % 256 : Nat) : Int) - ((q i % 256 : Nat) : Int)

/-- Compare two names, `namecmp`. -/
def namecmp (s t : Mem) : Int := strncmp s t DIRSIZ 0

/-- Modelled from the spec: `strncpy(dst + d, src, n)` of `string.c`, which is
not among the sources ("names longer than 14 are truncated by callers when
copying in").  The characters of `src` up to its first NUL, `n` at most, then
NULs up to `n` characters. -/
def strncpy (dst : Mem) (d : Nat) (src : Mem) (n : Nat) : Mem :=
  fun i => if d ≤ i ∧ i < d + n then
      (if (List.range (i - d + 1)).all (fun j => decide (src j ≠ 0)) then src (i - d) else 0)
    else dst i

/-- The field `inum` of the `struct dirent` held in `de`. -/
def deInum (de : Mem) : Nat := de 0 + 256 * de 1

/-- The field `name` of the `struct dirent` held in `de`. -/
def deName (de : Mem) : Mem := fun i => de (2 + i)

/-- The `struct dirent` with `de.inum = inum` (a `ushort`). -/
def setDeInum (de : Mem) (inum : Nat) : Mem :=
  fun i => if i = 0 then inum % 256 else if i = 1 then inum / 256 % 256 else de i

/-- The loop of `dirlookup` from offset `off` on, with `k` bounding the
iterations left and `de` the local `struct dirent`: the offset and the inode
number of the first entry in use with the name, when there is one. -/
def dirlookupLoop (name : Mem) :
    Nat → FS → Inode → Mem → Nat → Except Panic (Option (Nat × Nat) × FS × Inode)
  | 0, _, _, _, _ => .error .diverged
  | k + 1, st, dp, de, off =>
    if off < dp.size then do
      let (r, st1, dp1, de1) ← readi st dp de off DIRENT_SIZE
      if r ≠ (DIRENT_SIZE : Int) then .error .dirlookupRead
      else if deInum de1 = 0 then dirlookupLoop name k st1 dp1 de1 ((off + DIRENT_SIZE) % U32)
      else if namecmp name (deName de1) = 0 then pure (some (off, deInum de1), st1, dp1)
      else dirlookupLoop name k st1 dp1 de1 ((off + DIRENT_SIZE) % U32)
    else pure (none, st, dp)

/-- Look for a directory entry in the directory in slot `d`, `dirlookup`: the
slot of the inode found and the value stored through `poff`. -/
def dirlookup (st : FS) (ic : ICache) (d : Nat) (name : Mem) :
    Except Panic (Option (Nat × Nat) × FS × ICache) :=
  if (ic d).type ≠ T_DIR then .error .dirlookupNotDir
  else do
    let (r, st1, dp1) ← dirlookupLoop name ((ic d).size / DIRENT_SIZE + 2) st (ic d) (fun _ => 0) 0
    let ic1 := ic.set d dp1
    match r with
    | none => pure (none, st1, ic1)
    | some (off, inum) => do
      let (i, ic2) ← iget ic1 dp1.dev inum
      pure (some (i, off), st1, ic2)

/-- The loop of `dirlink` that looks for an empty `struct dirent`, from offset
`off` on, with `k` bounding the iterations left: the final `off` and `de`. -/
def dirlinkScan : Nat → FS → Inode → Mem → Nat → Except Panic (FS × Inode × Mem × Nat)
  | 0, _, _, _, _ => .error .diverged
  | k + 1, st, dp, de, off =>
    if off < dp.size then do
      let (r, st1, dp1, de1) ← readi st dp de off DIRENT_SIZE
      if r ≠ (DIRENT_SIZE : Int) then .error .dirlinkRead
      else if deInum de1 = 0 then pure (st1, dp1, de1, off)
      else dirlinkScan k st1 dp1 de1 ((off + DIRENT_SIZE) % U32)
    else pure (st, dp, de, off)

/-- Write a new directory entry `(name, inum)` into the directory in slot `d`,
`dirlink`. -/
def dirlink (st : FS) (ic : ICache) (d : Nat) (name : Mem) (inum : Nat) :
    Except Panic (Int × FS × ICache) := do
  let (r, st1, ic1) ← dirlookup st ic d name
  match r with
  | some (i, _) => do
    let (st2, ic2) ← iput st1 ic1 i
    pure (-1, st2, ic2)
  | none => do
    let (st2, dp2, de, off) ←
      dirlinkScan ((ic1 d).size / DIRENT_SIZE + 2) st1 (ic1 d) (fun _ => 0) 0
    let de1 := setDeInum (strncpy de 2 name DIRSIZ) inum
    let (w, st3, dp3) ← writei st2 dp2 de1 off DIRENT_SIZE
    if w ≠ (DIRENT_SIZE : Int) then .error .dirlinkShortWrite
    else pure (0, st3, ic1.set d dp3)

/-! ## Callers of the inode cache -/

/-- The file system, the inode cache and the references handed out by `iget`,
`idup` and not yet given back through `iput`: the slot of each. -/
structure ISys where
  fs : FS
  ic : ICache
  held : List Nat

/-- The calls into the inode cache: `iget(dev, inum)`, and `idup`, `ilock` and
`iput` on a slot. -/
inductive IEv where
  | iget (dev inum : Nat)
  | idup (i : Nat)
  | ilock (i : Nat)
  | iput (i : Nat)

/-- One call.  `idup`, `ilock` and `iput` are made on a reference the caller
holds. -/
def istep (s : ISys) : IEv → Except Panic ISys
  | .iget dev inum => do
    let (i, ic) ← iget s.ic dev inum
    pure { fs := s.fs, ic := ic, held := i :: s.held }
  | .idup i =>
    if i ∈ s.held then .ok { fs := s.fs, ic := idup s.ic i, held := i :: s.held }
    else .error .notHolder
  | .ilock i =>
    if i ∈ s.held then do
      let ip ← ilock s.fs (s.ic i)
      pure { fs := s.fs, ic := s.ic.set i ip, held := s.held }
    else .error .notHolder
  | .iput i =>
    if i ∈ s.held then do
      let (st, ic) ← iput s.fs s.ic i
      pure { fs := st, ic := ic, held := s.held.erase i }
    else .error .notHolder

/-- A sequence of calls. -/
def irun (s : ISys) : List IEv → Except Panic ISys
  | [] => .ok s
  | e :: es => do
    let s1 ← istep s e
    irun s1 es

/-- The invariant of the inode cache: references are to slots of the cache,
the `ref` of a slot is the number of references to it, and no two slots in use
hold the same inode. -/
structure IInv (s : ISys) : Prop where
  slots : ∀ i, i ∈ s.held → i < NINODE
  count : ∀ i, i < NINODE → (s.ic i).ref = (s.held.count i : Int)
  uniq : ∀ i j, i < NINODE → j < NINODE → i ≠ j → 0 < (s.ic i).ref → 0 < (s.ic j).ref →
    ¬ ((s.ic i).dev = (s.ic j).dev ∧ (s.ic i).inum = (s.ic j).inum)

/-- The inode cache before any call: the zero-initialised static array. -/
def icache0 : ICache := fun _ =>
  { dev := 0, inum := 0, ref := 0, valid := 0, type := 0, major := 0, minor := 0, nlink := 0,
    size := 0, addrs := fun _ => 0 }

/-! ## Specification vocabulary for the inode layer -/

/-- The fields of an on-disk inode, `struct dinode` of `fs.h`. -/
structure Dinode where
  type : Int
  major : Int
  minor : Int
  nlink : Int
  size : Nat
  addrs : Nat → Nat

/-- The on-disk inode `inum` of device `dev` as `ilock` reads it through the
block cache. -/
def readDinode (st : FS) (dev inum : Nat) : Dinode :=
  let data := st.disk dev (IBLOCK inum st.sb)
  let o := DINODE_SIZE * (inum % IPB)
  { type := getShort data o, major := getShort data (o + 2), minor := getShort data (o + 4),
    nlink := getShort data (o + 6), size := getU32 data ((o + 8) / 4),
    addrs := fun i => if i ≤ NDIRECT then getU32 data ((o + 12) / 4 + i) else 0 }

/-- The inode blocks lie between the super block and the bitmap: every inode
number below `sb.ninodes` has its record in front of the bitmap. -/
def InodeArea (st : FS) : Prop :=
  ∀ inum, inum < st.sb.ninodes → inum / IPB + st.sb.inodestart < st.sb.bmapstart

/-- The state `ialloc` leaves when it claims inode `inum`: its record zeroed
and given the type. -/
def claimed (st : FS) (dev inum : Nat) (type : Int) : FS :=
  st.setBlock dev (IBLOCK inum st.sb) (claimDinode (st.disk dev (IBLOCK inum st.sb)) inum type)

/-- An inode cache with no empty slot: slot `i` holds a reference to inode
`100 + i` of device 1. -/
def icacheFull : ICache := fun i =>
  { dev := 1, inum := 100 + i, ref := 1, valid := 0, type := 0, major := 0, minor := 0,
    nlink := 0, size := 0, addrs := fun _ => 0 }

/-! ## Specification vocabulary for `itrunc` and `iput` -/

/-- What freeing the blocks in `S` makes of state `st`: a well-formed file
system with the same super block in which the bitmap bits of the blocks in `S`
are clear, every other bit is as before, and every block that is not a bitmap
block is as before. -/
structure Freed (st : FS) (dev : Nat) (S : Nat → Prop) (st2 : FS) : Prop where
  fs : FsOk st2 dev
  sb : st2.sb = st.sb
  bits : ∀ b, b / BPB ≤ st.sb.size / BPB → (bitSet st2 dev b ↔ (bitSet st dev b ∧ ¬ S b))
  other : ∀ x, (∀ k, k ≤ st.sb.size / BPB → x ≠ st.sb.bmapstart + k) →
    st2.disk dev x = st.disk dev x

/-- Block `b` is referenced by the inode: a non-zero direct entry, a non-zero
entry of the indirect block, or the indirect block itself. -/
def refersTo (st : FS) (ip : Inode) (b : Nat) : Prop :=
  b ≠ 0 ∧ ((∃ bn, bn < MAXFILE ∧ blockAt st ip bn = b) ∨ ip.addrs NDIRECT = b)

/-- The cache holding in slot 0 the inode of the sample file "hello", with its
last link removed. -/
def unlinkedHello : ICache := icache0.set 0 { helloFile.2 with nlink := 0 }

/-! ## The in-memory inode and its disk record -/

/-- The in-memory inode mirrors its disk record: type, major, minor, nlink,
size and the thirteen addresses equal the fields of the on-disk inode. -/
def Mirror (st : FS) (ip : Inode) : Prop :=
  ip.type = (readDinode st ip.dev ip.inum).type ∧
  ip.major = (readDinode st ip.dev ip.inum).major ∧
  ip.minor = (readDinode st ip.dev ip.inum).minor ∧
  ip.nlink = (readDinode st ip.dev ip.inum).nlink ∧
  ip.size = (readDinode st ip.dev ip.inum).size ∧
  ∀ i, i < NDIRECT + 1 → ip.addrs i = (readDinode st ip.dev ip.inum).addrs i

instance (st : FS) (ip : Inode) : Decidable (Mirror st ip) := by
  unfold Mirror; infer_instance

/-- The fields `type`, `major`, `minor` and `nlink` of the in-memory inode
hold values of a C `short`. -/
def ShortFields (ip : Inode) : Prop :=
  (-32768 ≤ ip.type ∧ ip.type < 32768) ∧ (-32768 ≤ ip.major ∧ ip.major < 32768) ∧
  (-32768 ≤ ip.minor ∧ ip.minor < 32768) ∧ (-32768 ≤ ip.nlink ∧ ip.nlink < 32768)

instance (ip : Inode) : Decidable (ShortFields ip) := by
  unfold ShortFields; infer_instance

/-- The sample image with one more inode on disk: inode 2 is a regular file
with one link and size 512 whose thirteen addresses are all zero, so that its
only block is not mapped.  Its record is at byte 128 of block 32. -/
def holeyFs : FS :=
  fs0.setBlock 1 32 (fun i => if i = 128 then 2 else if i = 134 then 1 else if i = 137 then 2
    else 0)

/-- The slot of the inode cache as `iget(1, 2)` leaves it: one reference, not
yet read from disk. -/
def holeyRef : Inode :=
  { dev := 1, inum := 2, ref := 1, valid := 0, type := 0, major := 0, minor := 0, nlink := 0,
    size := 0, addrs := fun _ => 0 }

/-! ## Specification vocabulary for directories -/

/-- The directory entry at byte offset `off` of the directory: its 16 bytes. -/
def dirent (st : FS) (dp : Inode) (off : Nat) : Mem :=
  fun i => if i < DIRENT_SIZE then fileByte st dp (off + i) else 0

/-- The entry at offset `off` is in use and carries the name: `dirlookup`
stops at it. -/
def entNamed (st : FS) (dp : Inode) (name : Mem) (off : Nat) : Prop :=
  deInum (dirent st dp off) ≠ 0 ∧ namecmp name (deName (dirent st dp off)) = 0

/-- Offset `off` is where `dirlink` writes the new entry: the first entry with
`inum == 0`, or the end of the directory when every entry is in use. -/
def firstFree (st : FS) (dp : Inode) (off : Nat) : Prop :=
  off % DIRENT_SIZE = 0 ∧ off ≤ dp.size ∧
    (off < dp.size → deInum (dirent st dp off) = 0) ∧
    ∀ o, o % DIRENT_SIZE = 0 → o < off → deInum (dirent st dp o) ≠ 0

/-- A well-formed directory: a well-formed inode of type `T_DIR` without
holes whose size is a multiple of the size of an entry. -/
structure DirOk (st : FS) (dp : Inode) : Prop where
  ok : InodeOk st dp
  noHoles : NoHoles st dp
  isDir : dp.type = T_DIR
  whole : dp.size % DIRENT_SIZE = 0

/-- The bytes of a name, NUL-terminated. -/
def nameOf (l : List Nat) : Mem := fun i => l.getD i 0

/-- A fresh empty directory, inode 1 of device 1. -/
def freshDir : Inode :=
  { dev := 1, inum := 1, ref := 1, valid := 1, type := T_DIR, major := 0, minor := 0,
    nlink := 1, size := 0, addrs := fun _ => 0 }

/-- The name "foo". -/
def fooName : Mem := nameOf [102, 111, 111]

/-- The cache with the fresh directory in slot 0 and nothing else. -/
def dirCache : ICache := icache0.set 0 freshDir

/-- The sample image and cache after `dirlink(d, "foo", 7)` on the fresh
directory in slot 0. -/
def fooDir : FS × ICache :=
  match dirlink fs0 dirCache 0 fooName 7 with
  | .ok (_, st, ic) => (st, ic)
  | .error _ => (fs0, dirCache)

/-! ## Paths: `skipelem`, `namex`

A `char*` into a NUL-terminated string is the list of the bytes from the
pointer up to the terminator: `*path` is the head of the list, or 0 when the
list is empty, and `path++` is the tail. -/

/-- The character `*path`. -/
def charAt (path : List Nat) : Nat := path.headD 0

/-- The loop `while(*path == '/') path++;`. -/
def skipSlashes : List Nat → List Nat
  | [] => []
  | c :: cs => if c = 47 then skipSlashes cs else c :: cs

/-- The loop `while(*path != '/' && *path != 0) path++;`. -/
def skipName : List Nat → List Nat
  | [] => []
  | c :: cs => if c ≠ 47 ∧ c ≠ 0 then skipName cs else c :: cs

/-- Copy the next path element from path into name, `skipelem`: the pointer
returned (`none` for the null pointer) and the bytes at `name` after the call.
`len = path - s` is an `int`; a negative `len` cannot arise from a string
shorter than 2^31 bytes. -/
def skipelem (path : List Nat) (name : Mem) : Option (List Nat) × Mem :=
  let p1 := skipSlashes path
  if charAt p1 = 0 then (none, name)
  else
    let s := p1
    let p2 := skipName p1
    let len := toInt32 (s.length - p2.length)
    let name1 :=
      if len ≥ (DIRSIZ : Int) then memmove name 0 (fun i => s.getD i 0) 0 DIRSIZ
      else fun i =>
        if i = len.toNat then 0 else memmove name 0 (fun i => s.getD i 0) 0 len.toNat i
    (some (skipSlashes p2), name1)

/-- Unlock the given inode, `iunlock` (the sleep-lock left out, as in `ilock`:
the callers embedded here hold the lock they release). -/
def iunlock (ip : Inode) : Except Panic Unit :=
  if ip.ref < 1 then .error .iunlock else .ok ()

/-- Common idiom: unlock, then put, `iunlockput`. -/
def iunlockput (st : FS) (ic : ICache) (i : Nat) : Except Panic (FS × ICache) := do
  iunlock (ic i)
  iput st ic i

/-- Device number of the file system root disk, `param.h`. -/
def ROOTDEV : Nat := 1
/-- Root i-number, `fs.h`. -/
def ROOTINO : Nat := 1

/-- The loop `while((path = skipelem(path, name)) != 0)` of `namex` and what
follows it, with `k` bounding the iterations left and `ip` the slot of the
current inode: the slot returned (`none` for the null pointer), the state, the
cache and the bytes at `name`. -/
def namexLoop (nameiparent : Int) :
    Nat → FS → ICache → Nat → List Nat → Mem → Except Panic (Option Nat × FS × ICache × Mem)
  | 0, _, _, _, _, _ => .error .diverged
  | k + 1, st, ic, ip, path, name =>
    match skipelem path name with
    | (none, name1) =>
      if nameiparent ≠ 0 then do
        let (st1, ic1) ← iput st ic ip
        pure (none, st1, ic1, name1)
      else pure (some ip, st, ic, name1)
    | (some path1, name1) => do
      let ip1 ← ilock st (ic ip)
      let ic1 := ic.set ip ip1
      if ip1.type ≠ T_DIR then do
        let (st2, ic2) ← iunlockput st ic1 ip
        pure (none, st2, ic2, name1)
      else if nameiparent ≠ 0 ∧ charAt path1 = 0 then do
        iunlock ip1
        pure (some ip, st, ic1, name1)
      else do
        let (r, st2, ic2) ← dirlookup st ic1 ip name1
        match r with
        | none => do
          let (st3, ic3) ← iunlockput st2 ic2 ip
          pure (none, st3, ic3, name1)
        | some (next, _) => do
          let (st3, ic3) ← iunlockput st2 ic2 ip
          namexLoop nameiparent k st3 ic3 next path1 name1

/-- Look up and return the inode for a path name, `namex`; `cwd` is the slot
`myproc()->cwd` points to. -/
def namex (st : FS) (ic : ICache) (cwd : Nat) (path : List Nat) (nameiparent : Int)
    (name : Mem) : Except Panic (Option Nat × FS × ICache × Mem) :=
  if charAt path = 47 then do
    let (ip, ic1) ← iget ic ROOTDEV ROOTINO
    namexLoop nameiparent (path.length + 1) st ic1 ip path name
  else
    namexLoop nameiparent (path.length + 1) st (idup ic cwd) cwd path name

/-- The call `namei(path)`; `name` is what the local array `name[DIRSIZ]`
holds on entry. -/
def namei (st : FS) (ic : ICache) (cwd : Nat) (path : List Nat) (name : Mem) :
    Except Panic (Option Nat × FS × ICache × Mem) :=
  namex st ic cwd path 0 name

/-- The call `nameiparent(path, name)`. -/
def nameiparent (st : FS) (ic : ICache) (cwd : Nat) (path : List Nat) (name : Mem) :
    Except Panic (Option Nat × FS × ICache × Mem) :=
  namex st ic cwd path 1 name

/-! ### Specification vocabulary for path resolution -/

/-- The elements of a path after `cur` (reversed) was read of the current
element. -/
def elemsAux : List Nat → List Nat → List (List Nat)
  | [], cur => if cur = [] then [] else [cur.reverse]
  | c :: cs, cur =>
    if c = 47 then (if cur = [] then elemsAux cs [] else cur.reverse :: elemsAux cs [])
    else elemsAux cs (c :: cur)

/-- The elements of a path: its maximal runs without '/', in order. -/
def elems (path : List Nat) : List (List Nat) := elemsAux path []

/-- The inode `inum` of device `dev` as its on-disk record gives it. -/
def diskInode (st : FS) (dev inum : Nat) : Inode :=
  { dev := dev, inum := inum, ref := 1, valid := 1,
    type := (readDinode st dev inum).type, major := (readDinode st dev inum).major,
    minor := (readDinode st dev inum).minor, nlink := (readDinode st dev inum).nlink,
    size := (readDinode st dev inum).size, addrs := (readDinode st dev inum).addrs }

/-- The inode number in the first entry in use at or after offset `off` whose
name compares equal to `name`, `k` bounding the entries looked at. -/
def dscan (st : FS) (dp : Inode) (name : Mem) : Nat → Nat → Option Nat
  | 0, _ => none
  | k + 1, off =>
    if off < dp.size then
      if deInum (dirent st dp off) ≠ 0 ∧ namecmp name (deName (dirent st dp off)) = 0 then
        some (deInum (dirent st dp off))
      else dscan st dp name k (off + DIRENT_SIZE)
    else none

/-- The inode number that the directory gives for the name, if any. -/
def dfind (st : FS) (dp : Inode) (name : Mem) : Option Nat :=
  dscan st dp name (dp.size / DIRENT_SIZE + 1) 0

/-- The inode reached from inode `inum` of the root device by looking up the
names one after the other, each in a directory. -/
def resolve (st : FS) : Nat → List Mem → Option Nat
  | inum, [] => some inum
  | inum, e :: es =>
    if (readDinode st ROOTDEV inum).type ≠ T_DIR then none
    else match dfind st (diskInode st ROOTDEV inum) e with
      | none => none
      | some i => resolve st i es

/-- The inode reached from inode `inum` by looking up all names but the last,
when it is a directory; nothing when there is no name. -/
def resolveParent (st : FS) : Nat → List Mem → Option Nat
  | _, [] => none
  | inum, [_] => if (readDinode st ROOTDEV inum).type ≠ T_DIR then none else some inum
  | inum, e :: e2 :: es =>
    if (readDinode st ROOTDEV inum).type ≠ T_DIR then none
    else match dfind st (diskInode st ROOTDEV inum) e with
      | none => none
      | some i => resolveParent st i (e2 :: es)

/-- The on-disk inode `inum` of the root device is in use and sound: its block
can be read, it has a type and a link, and if it is a directory it is a
well-formed one. -/
structure NodeOk (st : FS) (inum : Nat) : Prop where
  block : IBLOCK inum st.sb < FSSIZE
  type : (readDinode st ROOTDEV inum).type ≠ 0
  nlink : (readDinode st ROOTDEV inum).nlink ≠ 0
  dir : (readDinode st ROOTDEV inum).type = T_DIR → DirOk st (diskInode st ROOTDEV inum)

/-- Every inode visited when the names are looked up from inode `inum` on is in
use and sound. -/
def WalkOk (st : FS) : Nat → List Mem → Prop
  | inum, [] => NodeOk st inum
  | inum, e :: es => NodeOk st inum ∧
    ∀ i, (readDinode st ROOTDEV inum).type = T_DIR →
      dfind st (diskInode st ROOTDEV inum) e = some i → WalkOk st i es

/-- The cache agrees with the disk: every slot in use whose inode was read has
the fields of the on-disk record. -/
def CacheOk (st : FS) (ic : ICache) : Prop :=
  ∀ j, 0 < (ic j).ref → (ic j).valid ≠ 0 → Mirror st (ic j)

/-- The sample tree on the sample image: inode 1 is the root directory with
the entries "a" (inode 2) and "f" (inode 3) in block 59, inode 2 is a directory
with the entry "b" (inode 9) in block 60, inodes 3 and 9 are empty regular
files; blocks 59 and 60 are marked in use. -/
def treeFs : FS :=
  ((((fs0.setBlock 1 32 (fun i =>
      if i = 64 then 1 else if i = 70 then 1 else if i = 72 then 32 else if i = 76 then 59
      else if i = 128 then 1 else if i = 134 then 1 else if i = 136 then 16
      else if i = 140 then 60
      else if i = 192 then 2 else if i = 198 then 1 else 0)).setBlock 1 33 (fun i =>
      if i = 64 then 2 else if i = 70 then 1 else 0)).setBlock 1 58 (fun i =>
      if i < 7 then 255 else if i = 7 then 31 else 0)).setBlock 1 59 (fun i =>
      if i = 0 then 2 else if i = 2 then 97 else if i = 16 then 3 else if i = 18 then 102
      else 0)).setBlock 1 60 (fun i => if i = 0 then 9 else if i = 2 then 98 else 0)

/-- The field `inum` of the slot returned, and what is left in `name[0..2]`. -/
def namexSummary : Except Panic (Option Nat × FS × ICache × Mem) →
    Option (Option (Nat × Nat) × List Nat)
  | .ok (r, _, ic, name) =>
    some (r.map (fun s => ((ic s).dev, (ic s).inum)), (List.range 3).map name)
  | .error _ => none

/-- The state of the loop of `namex` when it is entered: the reference counts
are the counts `r0` with one more on the slot `ip` of the current inode, the
cache agrees with the disk, and the current inode is inode `cur` of the root
device. -/
structure Walking (st : FS) (r0 : Nat → Int) (ic : ICache) (ip cur : Nat) : Prop where
  bal : ∀ j, (ic j).ref = r0 j + (if j = ip then 1 else 0)
  cache : CacheOk st ic
  dev : (ic ip).dev = ROOTDEV
  inum : (ic ip).inum = cur

/-- The cache has room for the next inode of the walk: two slots are empty, or
one is and the current inode will leave its slot when it is put. -/
def Room (ic : ICache) (ip : Nat) : Prop :=
  (∃ z1 z2, z1 < NINODE ∧ z2 < NINODE ∧ z1 ≠ z2 ∧ (ic z1).ref = 0 ∧ (ic z2).ref = 0) ∨
  (ip < NINODE ∧ (ic ip).ref = 1 ∧ ∃ z, z < NINODE ∧ (ic z).ref = 0)

/-- The bytes at `name` hold the element `e`: its first `min(|e|, DIRSIZ)`
characters, and a terminator when `|e| < DIRSIZ`. -/
def HoldsName (name : Mem) (e : List Nat) : Prop :=
  (∀ i, i < min e.length DIRSIZ → name i = e.getD i 0) ∧ (e.length < DIRSIZ → name e.length = 0)

/-- What a return of `namex` is to be, the walk starting at inode `cur` of the
root device: the slot returned holds an inode of the root device; for `namei`
it is the inode that the elements of the path resolve to, null if they resolve
to none; for `nameiparent` it is the directory that the elements but the last
resolve to, and then `name` holds the last element. -/
def Resolved (st : FS) (np : Int) (cur : Nat) (path : List Nat) (r : Option Nat)
    (ic2 : ICache) (name2 : Mem) : Prop :=
  (∀ s, r = some s → (ic2 s).dev = ROOTDEV) ∧
  (np = 0 → r.map (fun s => (ic2 s).inum) = resolve st cur ((elems path).map nameOf)) ∧
  (np ≠ 0 → r.map (fun s => (ic2 s).inum) = resolveParent st cur ((elems path).map nameOf) ∧
    (r ≠ none → ∀ ek, (elems path).getLast? = some ek → HoldsName name2 ek))

/-! ## Pipes, `pipe.c`

A call of `pipewrite` or `piperead` holds `p->lock` except while it sleeps, so
a call is a sequence of runs, each from the start or from a wake-up to the
return or the next `sleep`; only between runs can another process touch the
pipe. -/

/-- Size of the buffer of a pipe, `pipe.c`. -/
def PIPESIZE : Nat := 512

/-- A pipe, `struct pipe` (the spin-lock left out). -/
structure Pipe where
  data : Mem
  nread : Nat
  nwrite : Nat
  readopen : Int
  writeopen : Int

/-- The pipe that a successful `pipealloc` sets up in the page `kalloc`
returned, whose content is `data`. -/
def pipealloc (data : Mem) : Pipe :=
  { data := data, nread := 0, nwrite := 0, readopen := 1, writeopen := 1 }

/-- Close one end of the pipe, `pipeclose`. -/
def pipeclose (p : Pipe) (writable : Int) : Pipe :=
  if writable ≠ 0 then { p with writeopen := 0 } else { p with readopen := 0 }

/-- How a run of `pipewrite` ends: it returns `r`, or it sleeps in
`sleep(&p->nwrite, &p->lock)`; `p` is the pipe and `i` the value of the local
`i`, the number of bytes of the caller stored so far. -/
inductive WriteEnd where
  | ret (r : Int) (p : Pipe) (i : Nat)
  | sleep (p : Pipe) (i : Nat)

/-- A run of the loop `for(i = 0; i < n; i++)` of `pipewrite` from `i` on, with
`k = n - i` iterations to go; `killed` is `myproc()->killed`.  A run woken up
from `sleep` starts here again, at the test of the `while`. -/
def pipewriteFrom (addr : Mem) (n : Int) (killed : Bool) : Nat → Pipe → Nat → WriteEnd
  | 0, p, i => .ret n p i
  | k + 1, p, i =>
    if p.nwrite = (p.nread + PIPESIZE) % U32 then
      if p.readopen = 0 ∨ killed = true then .ret (-1) p i
      else .sleep p i
    else
      pipewriteFrom addr n killed k
        { p with data := fun j => if j = p.nwrite % PIPESIZE then addr i else p.data j,
                 nwrite := (p.nwrite + 1) % U32 } (i + 1)

/-- The first run of `pipewrite(p, addr, n)`. -/
def pipewrite (p : Pipe) (addr : Mem) (n : Int) (killed : Bool) : WriteEnd :=
  pipewriteFrom addr n killed n.toNat p 0

/-- How a run of `piperead` ends: it returns `r` with the pipe and the buffer
of the caller, or it sleeps in `sleep(&p->nread, &p->lock)`. -/
inductive ReadEnd where
  | ret (r : Int) (p : Pipe) (addr : Mem)
  | sleep (p : Pipe)

/-- The copy loop `for(i = 0; i < n; i++)` of `piperead` from `i` on, with
`k = n - i` iterations to go: the pipe, the buffer and the final `i`. -/
def pipereadCopy : Nat → Pipe → Mem → Nat → Pipe × Mem × Nat
  | 0, p, addr, i => (p, addr, i)
  | k + 1, p, addr, i =>
    if p.nread = p.nwrite then (p, addr, i)
    else
      pipereadCopy k { p with nread := (p.nread + 1) % U32 }
        (fun j => if j = i then p.data (p.nread % PIPESIZE) else addr j) (i + 1)

/-- A run of `piperead(p, addr, n)`, from the start or from a wake-up. -/
def piperead (p : Pipe) (addr : Mem) (n : Int) (killed : Bool) : ReadEnd :=
  if p.nread = p.nwrite ∧ p.writeopen ≠ 0 then
    if killed = true then .ret (-1) p addr else .sleep p
  else
    let r := pipereadCopy n.toNat p addr 0
    .ret (r.2.2 : Int) r.1 r.2.1

/-! ## Interleavings on one pipe -/

/-- A pipe together with the bytes that writers stored into it and the bytes
that readers were handed, both in order, since `pipealloc`. -/
structure PSys where
  pipe : Pipe
  stored : List Nat
  delivered : List Nat

/-- A step of an interleaving: a run of `pipewrite(p, addr, n)` from byte `i`
on (`i = 0` is the start of the call), a run of `piperead(p, addr, n)`, or a
`pipeclose`. -/
inductive PEv where
  | write (addr : Mem) (n : Int) (i : Nat) (killed : Bool)
  | read (addr : Mem) (n : Int) (killed : Bool)
  | close (writable : Int)

/-- The pipe and the count `i` at the end of a run of `pipewrite`. -/
def WriteEnd.pipe : WriteEnd → Pipe
  | .ret _ p _ => p
  | .sleep p _ => p

/-- The count `i` at the end of a run of `pipewrite`. -/
def WriteEnd.count : WriteEnd → Nat
  | .ret _ _ i => i
  | .sleep _ i => i

/-- The bytes `addr[i], ..., addr[j - 1]`. -/
def bytesOf (addr : Mem) (i j : Nat) : List Nat := (List.range (j - i)).map (fun k => addr (i + k))

/-- One step of an interleaving. -/
def pstep (s : PSys) : PEv → PSys
  | .write addr n i killed =>
    let e := pipewriteFrom addr n killed (n.toNat - i) s.pipe i
    { s with pipe := e.pipe, stored := s.stored ++ bytesOf addr i e.count }
  | .read addr n killed =>
    match piperead s.pipe addr n killed with
    | .ret r p addr1 => { s with pipe := p, delivered := s.delivered ++ bytesOf addr1 0 r.toNat }
    | .sleep p => { s with pipe := p }
  | .close writable => { s with pipe := pipeclose s.pipe writable }

/-- A sequence of steps. -/
def prun (s : PSys) : List PEv → PSys
  | [] => s
  | e :: es => prun (pstep s e) es

/-- The pipe right after `pipealloc`. -/
def pinit (data : Mem) : PSys := { pipe := pipealloc data, stored := [], delivered := [] }

/-- The invariant of a pipe: the counters are the numbers of bytes stored and
delivered modulo 2^32, at most `PIPESIZE` bytes are buffered, the bytes
delivered are the first of the bytes stored, and the buffered ones lie in the
ring at their index modulo `PIPESIZE`. -/
structure PInv (s : PSys) : Prop where
  nwrite : s.pipe.nwrite = s.stored.length % U32
  nread : s.pipe.nread = s.delivered.length % U32
  le : s.delivered.length ≤ s.stored.length
  room : s.stored.length ≤ s.delivered.length + PIPESIZE
  fifo : s.delivered = s.stored.take s.delivered.length
  ring : ∀ j, s.delivered.length ≤ j → j < s.stored.length →
    s.pipe.data (j % PIPESIZE) = s.stored.getD j 0

/-- The pipe a call of `piperead` leaves. -/
def ReadEnd.pipe : ReadEnd → Pipe
  | .ret _ p _ => p
  | .sleep p => p

/-- What a call of `piperead` that returned hands to its caller: the return
value and the bytes `addr[0 .. r-1]`. -/
def ReadEnd.result : ReadEnd → Option (Int × List Nat)
  | .ret r _ addr => some (r, bytesOf addr 0 r.toNat)
  | .sleep _ => none

/-- What a call of `pipewrite` returned, if it returned. -/
def WriteEnd.result : WriteEnd → Option Int
  | .ret r _ _ => some r
  | .sleep _ _ => none

/-- The sample buffer that holds "abcdefghij". -/
def abcBuf : Mem := fun i => if i < 10 then 97 + i else 0

/-- A buffer of zero bytes. -/
def zeroBuf : Mem := fun _ => 0

/-- The sample run in which a writer stores one byte and a reader takes it,
`k` times over. -/
def pingPong : Nat → List PEv
  | 0 => []
  | k + 1 => .write zeroBuf 1 0 false :: .read zeroBuf 1 false :: pingPong k

/-- The sample run that passes 2^32 - 1 bytes through a pipe one at a time and
then stores one more byte. -/
def wrapRun : List PEv := pingPong 4294967295 ++ [.write zeroBuf 1 0 false]

/-- The sample pipe after "abcdefghij" was written and the write end closed. -/
def abcPipe : Pipe := pipeclose (pipewrite (pipealloc zeroBuf) abcBuf 10 false).pipe 1

/-- The sample pipe after a read of 4 bytes. -/
def abcPipe1 : Pipe := (piperead abcPipe zeroBuf 4 false).pipe

/-- The sample pipe after a further read of 10 bytes. -/
def abcPipe2 : Pipe := (piperead abcPipe1 zeroBuf 10 false).pipe

/-! ## Files, `file.c` -/

/-- Max number of blocks any FS op writes, `param.h`. -/
def MAXOPBLOCKS : Int := 10

/-- The kinds of open file, the `enum` of `struct file`. -/
inductive FdType where
  | FD_NONE
  | FD_PIPE
  | FD_INODE
  deriving DecidableEq, Repr

/-- An open file, `struct file` of `file.h`.  The pointer `ip` is a slot of the
inode cache, the pointer `pipe` is given by the pipe it points to, and `off` is
a `uint`. -/
structure File where
  type : FdType
  ref : Int
  readable : Int
  writable : Int
  pipe : Pipe
  ip : Nat
  off : Nat

/-- What `filewrite` did to the inode, in order.  Modelled from the spec:
`begin_op` and `end_op` of `log.c`, which is not among the sources
("`begin_op()` joins or begins a transaction", "`end_op()` releases the
transaction"), are recorded as the two ends of a transaction and have no other
effect here; between them stands the call `writei(f->ip, addr + i, off, n1)`
with the value `r` it returned. -/
inductive FwEv where
  | beginOp
  | writei (off n1 : Nat) (r : Int)
  | endOp
  deriving DecidableEq, Repr

/-- The state `filewrite` works on: the disk, the inode cache, the open file,
and the record of the transactions so far. -/
structure FwState where
  st : FS
  ic : ICache
  f : File
  trace : List FwEv

/-- How a call of `filewrite` ends, short of a panic: it returns `r`, or it
sleeps in `pipewrite` after `i` bytes. -/
inductive FwEnd where
  | ret (r : Int) (s : FwState)
  | asleep (s : FwState) (i : Nat)

/-- The state a call of `filewrite` leaves. -/
def FwEnd.state : FwEnd → FwState
  | .ret _ s => s
  | .asleep s _ => s

/-- The local `max` of `filewrite`. -/
def fwMax : Int := ((MAXOPBLOCKS - 1 - 1 - 2) / 2) * 512

/-- The loop `while(i < n)` of `filewrite` with `k` bounding the iterations
left: the value `filewrite` returns and the state. -/
def filewriteLoop (addr : Mem) (n : Int) : Nat → FwState → Int → Except Panic (Int × FwState)
  | 0, _, _ => .error .diverged
  | k + 1, s, i =>
    if i < n then do
      let n1 := if int32 (n - i) > fwMax then fwMax else int32 (n - i)
      let ip ← ilock s.st (s.ic s.f.ip)
      let (r, st1, ip1) ← writei s.st ip (fun j => addr (i.toNat + j)) s.f.off (n1 % U32).toNat
      let off1 := if r > 0 then ((s.f.off + r) % U32).toNat else s.f.off
      iunlock ip1
      let s1 : FwState :=
        { st := st1, ic := s.ic.set s.f.ip ip1, f := { s.f with off := off1 },
          trace := s.trace ++ [.beginOp, .writei s.f.off (n1 % U32).toNat r, .endOp] }
      if r < 0 then pure (if i = n then n else -1, s1)
      else if r ≠ n1 then .error .shortFilewrite
      else filewriteLoop addr n k s1 (int32 (i + r))
    else pure (if i = n then n else -1, s)

/-- Write to file f, `filewrite`; `killed` is `myproc()->killed`, which
`pipewrite` reads. -/
def filewrite (s : FwState) (addr : Mem) (n : Int) (killed : Bool) : Except Panic FwEnd :=
  if s.f.writable = 0 then .ok (.ret (-1) s)
  else if s.f.type = .FD_PIPE then
    match pipewrite s.f.pipe addr n killed with
    | .ret r p _ => .ok (.ret r { s with f := { s.f with pipe := p } })
    | .sleep p i => .ok (.asleep { s with f := { s.f with pipe := p } } i)
  else if s.f.type = .FD_INODE then do
    let (r, s1) ← filewriteLoop addr n (n.toNat + 1) s 0
    pure (.ret r s1)
  else .error .filewrite

/-- The record `tr` consists of transactions `begin_op`, one `writei` of at
most 1536 bytes at the current offset, `end_op`, the offset advancing from
`off` by what each `writei` returned when that is positive: the offset at the
end, if so. -/
def chunksFrom : Nat → List FwEv → Option Nat
  | off, [] => some off
  | off, .beginOp :: .writei o n1 r :: .endOp :: rest =>
    if o = off ∧ n1 ≤ 1536 then
      chunksFrom (if r > 0 then ((off + r) % U32).toNat else off) rest
    else none
  | _, _ => none

/-- The sample open file: inode-backed, writable, on slot 0, at offset 0. -/
def file0 : File :=
  { type := .FD_INODE, ref := 1, readable := 1, writable := 1, pipe := pipealloc zeroBuf,
    ip := 0, off := 0 }

/-- The sample state: the sample image, the fresh regular inode 2 in slot 0,
the sample open file and no transaction yet. -/
def fw0 : FwState :=
  { st := fs0, ic := icache0.set 0 (freshFile 2), f := file0, trace := [] }

/-- What a call of `filewrite` that returned shows: the value returned, the
record of the transactions and the offset of the file. -/
def fwSummary : Except Panic FwEnd → Option (Int × List FwEv × Nat)
  | .ok (.ret r s) => some (r, s.trace, s.f.off)
  | _ => none

/-! ## The buffer cache, `bio.c`

The doubly-linked list threaded through the buffers is the list of buffer
indices met from `head.next` along `next` (most recently used first); walking
`prev` from `head.prev` is walking the reversed list.  The disk driver is the
contract of `iderw` stated in `ide.c`: "If B_DIRTY is set, write buf to disk,
clear B_DIRTY, set B_VALID.  Else if B_VALID is not set, read buf from disk,
set B_VALID." -/

namespace Bio

/-- Size of the disk block cache, `MAXOPBLOCKS*3` of `param.h`. -/
def NBUF : Nat := 30
/-- Buffer has been read from disk, `buf.h`. -/
def B_VALID : Nat := 2
/-- Buffer needs to be written to disk, `buf.h`. -/
def B_DIRTY : Nat := 4

/-- The buffer `struct buf` of `buf.h`, without the sleep-lock and the list
pointers. -/
structure Buf where
  flags : Nat
  dev : Nat
  blockno : Nat
  refcnt : Nat
  data : Mem

/-- The cache `bcache` of `bio.c` (array of buffers and list order), together
with the disk the driver reads and writes and the flag `havedisk1` of `ide.c`.
The field `loads` is not a variable of the code: it counts the read commands
the driver has completed. -/
structure BCache where
  buf : Nat → Buf
  lru : List Nat
  disk : Nat → Nat → Mem
  havedisk1 : Bool
  loads : Nat

/-- Replace buffer `i`. -/
def BCache.setBuf (c : BCache) (i : Nat) (b : Buf) : BCache :=
  { c with buf := fun j => if j = i then b else c.buf j }

/-- The loop of `binit`: buffer `b`, then `b + 1`, ... each inserted at the head
of the list, `k` buffers to go. -/
def binitLoop : Nat → Nat → List Nat → List Nat
  | 0, _, l => l
  | k + 1, b, l => binitLoop k (b + 1) (b :: l)

/-- The cache after `binit`: the buffers are the zero-initialised static array,
linked with the last one at the head. -/
def binit (disk : Nat → Nat → Mem) (havedisk1 : Bool) : BCache :=
  { buf := fun _ => { flags := 0, dev := 0, blockno := 0, refcnt := 0, data := fun _ => 0 },
    lru := binitLoop NBUF 0 [],
    disk := disk, havedisk1 := havedisk1, loads := 0 }

/-- The test `b->dev == dev && b->blockno == blockno` of `bget` on buffer `i`. -/
def names (c : BCache) (dev blockno i : Nat) : Bool :=
  decide ((c.buf i).dev = dev ∧ (c.buf i).blockno = blockno)

/-- The test `b->refcnt == 0 && (b->flags & B_DIRTY) == 0` of `bget` on buffer `i`. -/
def reclaimable (c : BCache) (i : Nat) : Bool :=
  decide ((c.buf i).refcnt = 0 ∧ (c.buf i).flags &&& B_DIRTY = 0)

/-- Look through the buffer cache for a block, else recycle an unused buffer:
the critical section of `bget` under `bcache.lock`, returning the buffer.  The
first scan follows `next` from `head.next`, the second `prev` from `head.prev`. -/
def bget (c : BCache) (dev blockno : Nat) : Except Panic (Nat × BCache) :=
  match c.lru.find? (names c dev blockno) with
  | some i => .ok (i, c.setBuf i { c.buf i with refcnt := ((c.buf i).refcnt + 1) % U32 })
  | none =>
    match c.lru.reverse.find? (reclaimable c) with
    | some i =>
      .ok (i, c.setBuf i { c.buf i with dev := dev, blockno := blockno, flags := 0, refcnt := 1 })
    | none => .error .bgetNoBuffers

/-- Sync buffer `i` with the disk, `iderw` with `idestart` and `ideintr`: the
checks of `iderw` and `idestart`, then the transfer and the flags set by
`ideintr`.  The drive is selected by `dev & 1`. -/
def iderw (c : BCache) (i : Nat) : Except Panic BCache :=
  let b := c.buf i
  if b.flags &&& (B_VALID ||| B_DIRTY) = B_VALID then .error .iderwNothingToDo
  else if b.dev ≠ 0 ∧ c.havedisk1 = false then .error .ideDiskAbsent
  else if FSSIZE ≤ b.blockno then .error .ideIncorrectBlockno
  else if b.flags &&& B_DIRTY ≠ 0 then
    .ok { (c.setBuf i { b with flags := (b.flags ||| B_VALID) &&& (U32 - 1 - B_DIRTY) }) with
          disk := fun d k => if d = b.dev % 2 ∧ k = b.blockno then b.data else c.disk d k }
  else
    .ok { (c.setBuf i { b with flags := (b.flags ||| B_VALID) &&& (U32 - 1 - B_DIRTY),
                               data := c.disk (b.dev % 2) b.blockno }) with
          loads := c.loads + 1 }

/-- Return a buffer with the contents of the indicated block, `bread`. -/
def bread (c : BCache) (dev blockno : Nat) : Except Panic (Nat × BCache) := do
  let (i, c1) ← bget c dev blockno
  if (c1.buf i).flags &&& B_VALID = 0 then do
    let c2 ← iderw c1 i
    pure (i, c2)
  else pure (i, c1)

/-- Write the buffer's contents to disk, `bwrite`, called by the holder of the
buffer. -/
def bwrite (c : BCache) (i : Nat) : Except Panic BCache :=
  iderw (c.setBuf i { c.buf i with flags := (c.buf i).flags ||| B_DIRTY }) i

/-- Release a buffer and move it to the head of the list when nobody holds it:
the critical section of `brelse` under `bcache.lock`. -/
def brelse (c : BCache) (i : Nat) : BCache :=
  let c1 := c.setBuf i { c.buf i with refcnt := ((c.buf i).refcnt + U32 - 1) % U32 }
  if (c1.buf i).refcnt = 0 then { c1 with lru := i :: c1.lru.erase i } else c1

/-- A call of `bread` that has not been released yet: the device and block it
asked for and the buffer it received. -/
structure Hold where
  dev : Nat
  blockno : Nat
  idx : Nat
  deriving DecidableEq

/-- The steps of the interleaving: the critical section of a `bread(dev,
blockno)` (with the load that follows when the buffer is not valid); a store
of new contents into `b->data` by a caller that got `b` from an unreleased
`bread`; a `bwrite(b)` by such a caller; and the `brelse` that ends an
unreleased `bread`. -/
inductive Ev where
  | bread (dev blockno : Nat)
  | store (h : Hold) (data : Mem)
  | bwrite (h : Hold)
  | brelse (h : Hold)

/-- The cache together with the `bread` calls not yet released. -/
structure Sys where
  cache : BCache
  held : List Hold

/-- One step.  `bwrite` and `brelse` panic when their caller does not hold the
sleep-lock of the buffer; the callers that hold it or wait for it are the
unreleased `bread` calls. -/
def step (s : Sys) : Ev → Except Panic Sys
  | .bread dev blockno => do
    let (i, c) ← bread s.cache dev blockno
    pure { cache := c, held := { dev := dev, blockno := blockno, idx := i } :: s.held }
  | .store h data =>
    if h ∈ s.held then
      .ok { cache := s.cache.setBuf h.idx { s.cache.buf h.idx with data := data },
            held := s.held }
    else .error .notHolder
  | .bwrite h =>
    if h ∈ s.held then do
      let c ← bwrite s.cache h.idx
      pure { cache := c, held := s.held }
    else .error .bwriteNotLocked
  | .brelse h =>
    if h ∈ s.held then .ok { cache := brelse s.cache h.idx, held := s.held.erase h }
    else .error .brelseNotLocked

/-- A sequence of steps. -/
def run (s : Sys) : List Ev → Except Panic Sys
  | [] => .ok s
  | e :: es => do
    let s1 ← step s e
    run s1 es

/-- The system after `binit`. -/
def init (disk : Nat → Nat → Mem) (havedisk1 : Bool) : Sys :=
  { cache := binit disk havedisk1, held := [] }

/-- The number of unreleased `bread` calls for `(dev, blockno)`. -/
def holders (s : Sys) (dev blockno : Nat) : Nat :=
  s.held.countP (fun h => decide (h.dev = dev ∧ h.blockno = blockno))

/-- The invariant of the interleaving: the list holds every buffer once; an
unreleased `bread` holds the first buffer of the list that names its block;
the reference count of a buffer is the number of unreleased `bread` calls that
hold it. -/
structure Inv (s : Sys) : Prop where
  nodup : s.cache.lru.Nodup
  holds : ∀ h, h ∈ s.held → h.idx ∈ s.cache.lru ∧
    s.cache.lru.find? (names s.cache h.dev h.blockno) = some h.idx
  count : ∀ i, i ∈ s.cache.lru →
    (s.cache.buf i).refcnt = s.held.countP (fun h => decide (h.idx = i))

/-- The unreleased calls and the list order a run ended with, when it did not
panic. -/
def outcome : Except Panic Sys → Option (List Hold × List Nat)
  | .ok s => some (s.held, s.cache.lru)
  | .error _ => none

/-- Buffers `i` and `j` name the same `(dev, blockno)`. -/
def sameBlock (c : BCache) (i j : Nat) : Prop :=
  (c.buf i).dev = (c.buf j).dev ∧ (c.buf i).blockno = (c.buf j).blockno

/-- Buffer `i` is as `binit` left it: `bget` has never handed it out. -/
def untouched (c : BCache) (i : Nat) : Prop :=
  (c.buf i).flags = 0 ∧ (c.buf i).refcnt = 0 ∧ (c.buf i).dev = 0 ∧ (c.buf i).blockno = 0

/-- The invariant behind the uniqueness of cached blocks: the list holds the
`NBUF` buffers; a buffer held by an unreleased `bread` is valid; a buffer is
valid or untouched; of two buffers that name the same block, the one further
from the head of the list is not valid. -/
structure Uniq (s : Sys) : Prop where
  perm : s.cache.lru.Perm (List.range NBUF)
  held : ∀ h, h ∈ s.held → h.idx ∈ s.cache.lru ∧ (s.cache.buf h.idx).flags &&& B_VALID ≠ 0
  fresh : ∀ i, i ∈ s.cache.lru →
    (s.cache.buf i).flags &&& B_VALID ≠ 0 ∨ untouched s.cache i
  order : s.cache.lru.Pairwise
    (fun i j => sameBlock s.cache i j → (s.cache.buf j).flags &&& B_VALID = 0)

/-- The call `bread(dev, blockno)` followed at once by the `brelse` of the
buffer it returned. -/
def touch (c : BCache) (b : Nat × Nat) : Except Panic BCache := do
  let (i, c1) ← bread c b.1 b.2
  pure (brelse c1 i)

/-- The blocks of a list touched in order. -/
def touchAll (c : BCache) : List (Nat × Nat) → Except Panic BCache
  | [] => .ok c
  | b :: bs => do
    let c1 ← touch c b
    touchAll c1 bs

/-- Some buffer of the cache names block `b`. -/
def cached (c : BCache) (b : Nat × Nat) : Prop :=
  ∃ i, i < NBUF ∧ (c.buf i).dev = b.1 ∧ (c.buf i).blockno = b.2

/-- Some valid buffer of the cache names block `b`. -/
def cachedValid (c : BCache) (b : Nat × Nat) : Prop :=
  ∃ i, i < NBUF ∧ (c.buf i).dev = b.1 ∧ (c.buf i).blockno = b.2 ∧
    (c.buf i).flags &&& B_VALID ≠ 0

/-- The block `b` exists on a disk: the driver takes a request for it. -/
def onDisk (havedisk1 : Bool) (b : Nat × Nat) : Prop :=
  b.2 < FSSIZE ∧ (b.1 = 0 ∨ havedisk1 = true)

instance (havedisk1 : Bool) (b : Nat × Nat) : Decidable (onDisk havedisk1 b) := by
  unfold onDisk
  infer_instance

/-- A cache that nobody holds: the list is `A ++ P`, the buffers of `A` are
valid, clean and released and name the blocks `N` in this order, the buffers
of `P` are untouched. -/
structure Quiet (c : BCache) (hd : Bool) (A P : List Nat) (N : List (Nat × Nat)) : Prop where
  lru : c.lru = A ++ P
  perm : c.lru.Perm (List.range NBUF)
  disk1 : c.havedisk1 = hd
  names : A.map (fun i => ((c.buf i).dev, (c.buf i).blockno)) = N
  valid : ∀ i, i ∈ A → (c.buf i).flags &&& B_VALID ≠ 0 ∧ (c.buf i).flags &&& B_DIRTY = 0 ∧
    (c.buf i).refcnt = 0
  fresh : ∀ i, i ∈ P → untouched c i

/-- The interleaving with a clock: `released i` is the time of the latest
`brelse` of buffer `i`, and 0 when it was never released.  The clock and the
times are not variables of the code. -/
structure Timed where
  sys : Sys
  clock : Nat
  released : Nat → Nat

/-- The times of release after a step: a `brelse` is recorded at the new time. -/
def stamp (t : Timed) : Ev → Nat → Nat
  | .brelse h => fun i => if i = h.idx then t.clock + 1 else t.released i
  | _ => t.released

/-- One step of the interleaving, the clock advanced and a `brelse` recorded. -/
def tstep (t : Timed) (e : Ev) : Except Panic Timed := do
  let s ← step t.sys e
  pure { sys := s, clock := t.clock + 1, released := stamp t e }

/-- A sequence of steps with the clock. -/
def trun (t : Timed) : List Ev → Except Panic Timed
  | [] => .ok t
  | e :: es => do
    let t1 ← tstep t e
    trun t1 es

/-- The system after `binit`, at time 0. -/
def tinit (disk : Nat → Nat → Mem) (havedisk1 : Bool) : Timed :=
  { sys := init disk havedisk1, clock := 0, released := fun _ => 0 }

/-- The order of the list by the times of release: a released buffer nobody
holds was released before every buffer in front of it. -/
structure Aged (t : Timed) : Prop where
  past : ∀ i, t.released i ≤ t.clock
  order : t.sys.cache.lru.Pairwise (fun i j => (t.sys.cache.buf j).refcnt = 0 →
    t.released j = 0 ∨ t.released j < t.released i)

/-- No buffer is dirty.  Between two steps of the interleaving this holds:
`bwrite` sets `B_DIRTY` and `iderw` clears it before it returns. -/
def Clean (c : BCache) : Prop := ∀ i, (c.buf i).flags &&& B_DIRTY = 0

/-- Block `k` of device `dev` reads as `D`: the sector of the disk that backs
it holds `D`, and so does every valid buffer of the list that names it. -/
structure ReadsAs (c : BCache) (dev k : Nat) (D : Mem) : Prop where
  disk : c.disk (dev % 2) k = D
  bufs : ∀ i, i ∈ c.lru → (c.buf i).dev = dev → (c.buf i).blockno = k →
    (c.buf i).flags &&& B_VALID ≠ 0 → (c.buf i).data = D

/-- The step changes the contents of block `k` of the disk that backs device
`dev`: a store into a buffer got for that sector, or a `bwrite` of one. -/
def writesBlock (dev k : Nat) : Ev → Prop
  | .store g _ => g.blockno = k ∧ g.dev % 2 = dev % 2
  | .bwrite g => g.blockno = k ∧ g.dev % 2 = dev % 2
  | _ => False

end Bio

/-! ## `fs.c` on top of the buffer cache

The block allocator and `ialloc` once more, with every `bread`, `log_write` and
`brelse` they make carried out on the cache of `bio.c`: a call can end in the
panic of `bget`, and a buffer that went through `log_write` stays out of reach
of `bget`. -/

namespace Cached

/-- The state `fs.c` works on, with the buffer cache in place of the disk seen
through it: the global `sb`, the cache `bcache` with the disk behind it, and the
`devsw` table. -/
structure State where
  sb : SuperBlock
  cache : Bio.BCache
  devsw : Nat → Devsw

/-- The image of block `(dev, blockno)` that `bread` hands out: the data of the
first buffer of the list that names the block when that buffer is valid, and
the sector of the disk when it is not or when no buffer names the block. -/
def image (c : Bio.BCache) (dev blockno : Nat) : Mem :=
  match c.lru.find? (Bio.names c dev blockno) with
  | some i =>
    if (c.buf i).flags &&& Bio.B_VALID = 0 then c.disk (dev % 2) blockno else (c.buf i).data
  | none => c.disk (dev % 2) blockno

/-- The state without the cache: every block as `bread` hands it out. -/
def State.fs (s : State) : FS :=
  { sb := s.sb, disk := image s.cache, havedisk1 := s.cache.havedisk1, devsw := s.devsw }

/-- Modelled from the spec: `log_write(bp)` of `log.c`, which is not among the
sources ("`log_write(buf)` is idempotent within a transaction and replaces
`bwrite` for filesystem mutations; the buffer is pinned until commit").  The
pin is the flag `B_DIRTY`, which `bget` of `bio.c` tests: "Even if refcnt==0,
B_DIRTY indicates a buffer is in use because log.c has modified it but not yet
committed it." -/
def log_write (c : Bio.BCache) (i : Nat) : Bio.BCache :=
  c.setBuf i { c.buf i with flags := (c.buf i).flags ||| Bio.B_DIRTY }

/-- A store of new contents into `bp->data` of buffer `i`. -/
def store (c : Bio.BCache) (i : Nat) (data : Mem) : Bio.BCache :=
  c.setBuf i { c.buf i with data := data }

/-- Read the super block, `readsb(dev, &sb)` applied to the global `sb`. -/
def readsb (s : State) (dev : Nat) : Except Panic State := do
  let (i, c1) ← Bio.bread s.cache dev 1
  pure { s with sb := decodeSb (c1.buf i).data, cache := Bio.brelse c1 i }

/-- Zero a block, `bzero`. -/
def bzero (c : Bio.BCache) (dev bno : Nat) : Except Panic Bio.BCache := do
  let (i, c1) ← Bio.bread c dev bno
  let c2 := store c1 i (memset (c1.buf i).data 0 0 BSIZE)
  pure (Bio.brelse (log_write c2 i) i)

/-- The outer loop of `balloc` over the bitmap blocks, `b` stepping by `BPB`,
with `k` the number of bitmap blocks left; the inner loop is `ballocScan` on
the data of the buffer. -/
def ballocLoop (sb : SuperBlock) (dev : Nat) :
    Nat → Nat → Bio.BCache → Except Panic (Nat × Bio.BCache)
  | 0, _, _ => .error .ballocOutOfBlocks
  | k + 1, b, c =>
    if b < sb.size then do
      let (i, c1) ← Bio.bread c dev (BBLOCK b sb)
      match ballocScan (c1.buf i).data sb.size b BPB 0 with
      | some bi =>
        let m := 1 <<< (bi % 8)
        let c2 := store c1 i
          (fun j => if j = bi / 8 then ((c1.buf i).data (bi / 8) ||| m) % 256
            else (c1.buf i).data j)
        let c3 := Bio.brelse (log_write c2 i) i
        let c4 ← bzero c3 dev (b + bi)
        pure (b + bi, c4)
      | none => ballocLoop sb dev k (b + BPB) (Bio.brelse c1 i)
    else .error .ballocOutOfBlocks

/-- Allocate a zeroed disk block, `balloc`. -/
def balloc (s : State) (dev : Nat) : Except Panic (Nat × State) := do
  let (b, c) ← ballocLoop s.sb dev (s.sb.size / BPB + 1) 0 s.cache
  pure (b, { s with cache := c })

/-- Free a disk block, `bfree`. -/
def bfree (s : State) (dev b : Nat) : Except Panic State := do
  let s1 ← readsb s dev
  let (i, c1) ← Bio.bread s1.cache dev (BBLOCK b s1.sb)
  let bi := b % BPB
  let m := 1 <<< (bi % 8)
  if (c1.buf i).data (bi / 8) &&& m = 0 then .error .freeingFreeBlock
  else
    let c2 := store c1 i
      (fun j => if j = bi / 8 then ((c1.buf i).data (bi / 8) &&& (U32 - 1 - m)) % 256
        else (c1.buf i).data j)
    pure { s1 with cache := Bio.brelse (log_write c2 i) i }

/-- The loop of `ialloc` from inode number `inum` on, with `k` bounding the
iterations left: the number of the first free inode and the cache after it was
marked allocated. -/
def iallocLoop (sb : SuperBlock) (dev : Nat) (type : Int) :
    Nat → Nat → Bio.BCache → Except Panic (Nat × Bio.BCache)
  | 0, _, _ => .error .diverged
  | k + 1, inum, c =>
    if inum < sb.ninodes then do
      let (i, c1) ← Bio.bread c dev (IBLOCK inum sb)
      if getShort (c1.buf i).data (DINODE_SIZE * (inum % IPB)) = 0 then
        let c2 := store c1 i (claimDinode (c1.buf i).data inum type)
        pure (inum, Bio.brelse (log_write c2 i) i)
      else iallocLoop sb dev type k (inum + 1) (Bio.brelse c1 i)
    else .error .iallocNoInodes

/-- Allocate an inode on device `dev` and mark it as allocated by giving it
type `type`, `ialloc`: the slot of the inode, the state and the inode cache. -/
def ialloc (s : State) (ic : ICache) (dev : Nat) (type : Int) :
    Except Panic (Nat × State × ICache) := do
  let (inum, c1) ← iallocLoop s.sb dev type (s.sb.ninodes + 1) 1 s.cache
  let (i, ic1) ← iget ic dev inum
  pure (i, { s with cache := c1 }, ic1)

/-! ### Specification vocabulary for the cache under `fs.c` -/

/-- A cache in good order, with the unreleased `bread` calls of the caller: the
invariant `Uniq` of the cache holds (the list holds the `NBUF` buffers, a held
buffer is valid, of two buffers that name the same block the one further from
the head is not valid); a valid buffer that is not dirty holds what the disk
holds; a dirty buffer is valid; a valid buffer names a block of a disk that is
there. -/
structure Kept (s : Bio.Sys) : Prop where
  uniq : Bio.Uniq s
  clean : ∀ i, i ∈ s.cache.lru → (s.cache.buf i).flags &&& Bio.B_VALID ≠ 0 →
    (s.cache.buf i).flags &&& Bio.B_DIRTY = 0 →
    (s.cache.buf i).data = s.cache.disk ((s.cache.buf i).dev % 2) (s.cache.buf i).blockno
  dirty : ∀ i, i ∈ s.cache.lru → (s.cache.buf i).flags &&& Bio.B_DIRTY ≠ 0 →
    (s.cache.buf i).flags &&& Bio.B_VALID ≠ 0
  ondisk : ∀ i, i ∈ s.cache.lru → (s.cache.buf i).flags &&& Bio.B_VALID ≠ 0 →
    Bio.onDisk s.cache.havedisk1 ((s.cache.buf i).dev, (s.cache.buf i).blockno)

/-- A cache in good order between two calls of `fs.c`, when the caller holds
no buffer. -/
def Sound (c : Bio.BCache) : Prop := Kept { cache := c, held := [] }

/-- Buffer `k` is there for `bget` to recycle: on the list, not referenced, not
dirty. -/
def spare (c : Bio.BCache) (k : Nat) : Prop :=
  k ∈ c.lru ∧ Bio.reclaimable c k = true

/-- The cache after `n` calls `bread(1, 100)`, `bread(1, 101)`, ... by other
processes, none of them released yet. -/
def pin (c : Bio.BCache) : Nat → Bio.BCache
  | 0 => c
  | n + 1 =>
    match Bio.bread (pin c n) 1 (100 + n) with
    | .ok (_, c1) => c1
    | .error _ => pin c n

/-- The sample image after boot: super block read, the cache as `binit` left
it. -/
def boot : State :=
  { sb := sb0, cache := Bio.binit disk0 true, devsw := fun _ => ⟨none, none⟩ }

/-- The sample image with `n` buffers of the cache held by other processes. -/
def busy (n : Nat) : State := { boot with cache := pin boot.cache n }

/-- The panic a call ended in, when it did. -/
def panicOf {α : Type} : Except Panic α → Option Panic
  | .ok _ => none
  | .error e => some e

end Cached

/-! ## The sleep-locks of the inodes

`ilock`, `iput` and `dirlink` once more, with the sleep-lock `ip->lock` of
every slot of the inode cache.  A call that has to wait for a lock has not
returned: its result is `none`. -/

namespace Sleep

/-- The field `lock.locked` of every slot of the inode cache: whether a process
holds the sleep-lock of the slot. -/
abbrev Locks := Nat → Bool

/-- Modelled from the spec: `acquiresleep(&ip->lock)` of `sleeplock.c`, which is
not among the sources ("Sleep-locks guard individual long-lived resources
(buffer, inode)", "For a single inode, all mutations are serialized by its
sleep-lock; concurrent readers serialize too").  On a free lock the call takes
the lock and returns.  On a held lock the caller sleeps until the holder
releases the lock, and has not returned: `none`. -/
def acquiresleep (lk : Locks) (i : Nat) : Option Locks :=
  if lk i = true then none else some (fun j => if j = i then true else lk j)

/-- Modelled from the spec: `releasesleep(&ip->lock)` of `sleeplock.c`, which is
not among the sources ("`iunlock(ip)`: release the sleep-lock"). -/
def releasesleep (lk : Locks) (i : Nat) : Locks :=
  fun j => if j = i then false else lk j

/-- Lock the inode in slot `i`, `ilock`: the check of `ref`, then
`acquiresleep`, then the read from disk as in `OSCD.ilock`. -/
def ilock (lk : Locks) (st : FS) (ic : ICache) (i : Nat) :
    Option (Except Panic (ICache × Locks)) :=
  if (ic i).ref < 1 then some (.error .ilockNoRef)
  else
    match acquiresleep lk i with
    | none => none
    | some lk1 => some (do
      let ip ← OSCD.ilock st (ic i)
      pure (ic.set i ip, lk1))

/-- Drop a reference to the in-memory inode in slot `i`, `iput`, between its
`acquiresleep(&ip->lock)` and `releasesleep(&ip->lock)`. -/
def iput (lk : Locks) (st : FS) (ic : ICache) (i : Nat) :
    Option (Except Panic (FS × ICache × Locks)) :=
  match acquiresleep lk i with
  | none => none
  | some lk1 => some (do
    let ip := ic i
    let (st1, ip1) ←
      (if ip.valid ≠ 0 ∧ ip.nlink = 0 then
        if ip.ref = 1 then do
          let (st2, ip2) ← itrunc st ip
          let ip3 := { ip2 with type := 0 }
          let st3 ← iupdate st2 ip3
          pure (st3, { ip3 with valid := 0 })
        else pure (st, ip)
      else pure (st, ip) : Except Panic (FS × Inode))
    let lk2 := releasesleep lk1 i
    pure (st1, ic.set i { ip1 with ref := int32 (ip1.ref - 1) }, lk2))

/-- Write a new directory entry `(name, inum)` into the directory in slot `d`,
`dirlink`, with the `iput` that takes the sleep-lock of the inode found. -/
def dirlink (lk : Locks) (st : FS) (ic : ICache) (d : Nat) (name : Mem) (inum : Nat) :
    Option (Except Panic (Int × FS × ICache × Locks)) :=
  match dirlookup st ic d name with
  | .error e => some (.error e)
  | .ok (some (i, _), st1, ic1) =>
    match iput lk st1 ic1 i with
    | none => none
    | some r => some (do
      let (st2, ic2, lk2) ← r
      pure (-1, st2, ic2, lk2))
  | .ok (none, st1, ic1) => some (do
    let (st2, dp2, de, off) ←
      dirlinkScan ((ic1 d).size / DIRENT_SIZE + 2) st1 (ic1 d) (fun _ => 0) 0
    let de1 := setDeInum (strncpy de 2 name DIRSIZ) inum
    let (w, st3, dp3) ← writei st2 dp2 de1 off DIRENT_SIZE
    if w ≠ (DIRENT_SIZE : Int) then .error .dirlinkShortWrite
    else pure (0, st3, ic1.set d dp3, lk))

/-- No sleep-lock is held. -/
def unlocked : Locks := fun _ => false

/-- The name ".". -/
def dotName : Mem := nameOf [46]

/-- The sample image and cache after `dirlink(d, ".", 1)` on the fresh
directory in slot 0, which is inode 1: the directory holds the entry "." for
itself, as every directory does. -/
def dotDir : FS × ICache :=
  match OSCD.dirlink fs0 dirCache 0 dotName 1 with
  | .ok (_, st, ic) => (st, ic)
  | .error _ => (fs0, dirCache)

/-- The sleep-locks after the caller of `dirlink` has locked the directory in
slot 0 with `ilock`, as `readi` and `writei` ask ("Caller must hold
ip->lock"). -/
def dotLocks : Locks :=
  match ilock unlocked dotDir.1 dotDir.2 0 with
  | some (.ok (_, lk)) => lk
  | _ => unlocked

end Sleep

end OSCD

/-! # Theorems -/

namespace OSCD

/-! ## Constants and the error monad -/

theorem BSIZE_eq : BSIZE = 512 := rfl
theorem NDIRECT_eq : NDIRECT = 12 := rfl
theorem NINDIRECT_eq : NINDIRECT = 128 := rfl
theorem MAXFILE_eq : MAXFILE = 140 := rfl
theorem DINODE_SIZE_eq : DINODE_SIZE = 64 := rfl
theorem IPB_eq : IPB = 8 := rfl
theorem BPB_eq : BPB = 4096 := rfl
theorem FSSIZE_eq : FSSIZE = 1000 := rfl
theorem U32_eq : U32 = 4294967296 := rfl

@[simp] theorem bind_ok_eq {α β : Type} (a : α) (f : α → Except Panic β) :
    ((Except.ok a : Except Panic α) >>= f) = f a := rfl

@[simp] theorem bind_error_eq {α β : Type} (e : Panic) (f : α → Except Panic β) :
    ((Except.error e : Except Panic α) >>= f) = Except.error e := rfl

@[simp] theorem pure_eq_ok {α : Type} (a : α) : (pure a : Except Panic α) = Except.ok a := rfl

theorem bind_eq_ok {α β : Type} {x : Except Panic α} {f : α → Except Panic β} {r : β}
    (h : (x >>= f) = Except.ok r) : ∃ a, x = Except.ok a ∧ f a = Except.ok r := by
  cases x with
  | error e => simp at h
  | ok a => exact ⟨a, rfl, by simpa using h⟩

/-! ## Block images -/

@[simp] theorem setBlock_sb (st : FS) (dev b : Nat) (d : Mem) : (st.setBlock dev b d).sb = st.sb := rfl
@[simp] theorem setBlock_havedisk1 (st : FS) (dev b : Nat) (d : Mem) :
    (st.setBlock dev b d).havedisk1 = st.havedisk1 := rfl
@[simp] theorem setBlock_devsw (st : FS) (dev b : Nat) (d : Mem) :
    (st.setBlock dev b d).devsw = st.devsw := rfl
@[simp] theorem setBlock_same (st : FS) (dev b : Nat) (d : Mem) :
    (st.setBlock dev b d).disk dev b = d := by simp [FS.setBlock]
theorem setBlock_other (st : FS) (dev b : Nat) (d : Mem) (dev2 b2 : Nat)
    (h : dev2 ≠ dev ∨ b2 ≠ b) : (st.setBlock dev b d).disk dev2 b2 = st.disk dev2 b2 := by
  simp only [FS.setBlock]
  rw [if_neg]
  rintro ⟨h1, h2⟩
  rcases h with h | h
  · exact h h1
  · exact h h2

theorem setBlock_disk (st : FS) (dev b : Nat) (d : Mem) (dev2 b2 : Nat) :
    (st.setBlock dev b d).disk dev2 b2 = if dev2 = dev ∧ b2 = b then d else st.disk dev2 b2 := rfl

theorem bread_ok {st : FS} {dev b : Nat} (hd : dev = 0 ∨ st.havedisk1 = true) (hb : b < FSSIZE) :
    bread st dev b = Except.ok (st.disk dev b) := by
  unfold bread
  rw [if_neg, if_neg]
  · omega
  · rintro ⟨h1, h2⟩
    rcases hd with h | h
    · exact h1 h
    · rw [h] at h2; cases h2

theorem bread_eq_ok {st : FS} {dev b : Nat} {d : Mem} (h : bread st dev b = Except.ok d) :
    d = st.disk dev b ∧ b < FSSIZE ∧ (dev = 0 ∨ st.havedisk1 = true) := by
  unfold bread at h
  split_ifs at h with h1 h2
  simp only [Except.ok.injEq] at h
  refine ⟨h.symm, by omega, ?_⟩
  by_cases hd : dev = 0
  · exact Or.inl hd
  · right
    cases hh : st.havedisk1
    · exact absurd ⟨hd, hh⟩ h1
    · rfl

/-! ## Bits of a bitmap byte -/

set_option maxRecDepth 1000000 in
theorem bit_set_or : ∀ k < 8, ∀ j < 8, ∀ x < 256,
    (((x ||| (1 <<< k)) % 256) &&& (1 <<< j) ≠ 0 ↔ (x &&& (1 <<< j) ≠ 0 ∨ j = k)) := by
  decide!

set_option maxRecDepth 1000000 in
theorem bit_clear_set : ∀ k < 8, ∀ x < 256, x &&& (1 <<< k) = 0 →
    (((x ||| (1 <<< k)) % 256) &&& (4294967296 - 1 - (1 <<< k))) % 256 = x := by
  decide!

/-! ## The bitmap scan of `balloc` -/

theorem ballocScan_some {data : Mem} {size b : Nat} : ∀ (k bi r : Nat),
    ballocScan data size b k bi = some r →
    bi ≤ r ∧ r < BPB ∧ b + r < size ∧ data (r / 8) &&& (1 <<< (r % 8)) = 0 ∧
      ∀ j, bi ≤ j → j < r → data (j / 8) &&& (1 <<< (j % 8)) ≠ 0 := by
  intro k
  induction k with
  | zero => intro bi r h; simp [ballocScan] at h
  | succ k ih =>
    intro bi r h
    unfold ballocScan at h
    split_ifs at h with h1 h2
    · simp only [Option.some.injEq] at h
      subst h
      exact ⟨le_refl _, h1.1, h1.2, h2, fun j hj hj2 => absurd hj2 (by omega)⟩
    · obtain ⟨a1, a2, a3, a4, a5⟩ := ih (bi + 1) r h
      refine ⟨by omega, a2, a3, a4, ?_⟩
      intro j hj hj2
      by_cases hjb : j = bi
      · subst hjb; exact h2
      · exact a5 j (by omega) hj2

theorem ballocScan_none {data : Mem} {size b : Nat} : ∀ (k bi : Nat), BPB ≤ bi + k →
    ballocScan data size b k bi = none →
    ∀ j, bi ≤ j → j < BPB → b + j < size → data (j / 8) &&& (1 <<< (j % 8)) ≠ 0 := by
  intro k
  induction k with
  | zero => intro bi hk _ j hj hj2 _; omega
  | succ k ih =>
    intro bi hk h j hj hj2 hj3
    unfold ballocScan at h
    split_ifs at h with h1 h2
    · by_cases hjb : j = bi
      · subst hjb; exact h2
      · exact ih (bi + 1) (by omega) h j (by omega) hj2 hj3
    · exfalso; apply h1; constructor <;> omega

theorem bitSet_block (st : FS) (dev q j : Nat) (hj : j < BPB) :
    bitSet st dev (BPB * q + j) ↔
      st.disk dev (BBLOCK (BPB * q) st.sb) (j / 8) &&& (1 <<< (j % 8)) ≠ 0 := by
  unfold bitSet BBLOCK
  simp only [BPB_eq] at *
  have h1 : (4096 * q + j) / 4096 = 4096 * q / 4096 := by omega
  have h2 : (4096 * q + j) % 4096 / 8 = j / 8 := by omega
  have h3 : (4096 * q + j) % 8 = j % 8 := by omega
  rw [h1, h2, h3]

theorem BBLOCK_block (sb : SuperBlock) (q j : Nat) (hj : j < BPB) :
    BBLOCK (BPB * q + j) sb = BBLOCK (BPB * q) sb := by
  unfold BBLOCK
  simp only [BPB_eq] at *
  have h1 : (4096 * q + j) / 4096 = 4096 * q / 4096 := by omega
  rw [h1]

theorem markUsed_block (st : FS) (dev q j : Nat) (hj : j < BPB) :
    markUsed st dev (BPB * q + j) = st.setBlock dev (BBLOCK (BPB * q) st.sb)
      (fun i => if i = j / 8
        then (st.disk dev (BBLOCK (BPB * q) st.sb) (j / 8) ||| (1 <<< (j % 8))) % 256
        else st.disk dev (BBLOCK (BPB * q) st.sb) i) := by
  unfold markUsed
  rw [BBLOCK_block st.sb q j hj]
  simp only [BPB_eq] at *
  have h2 : (4096 * q + j) % 4096 / 8 = j / 8 := by omega
  have h3 : (4096 * q + j) % 8 = j % 8 := by omega
  rw [h2, h3]

/-- What a successful `ballocLoop` started at bitmap block `q` returns. -/
theorem ballocLoop_ok {st : FS} {dev : Nat} : ∀ (k q r : Nat) (st2 : FS),
    ballocLoop st dev k (BPB * q) = Except.ok (r, st2) →
    BPB * q ≤ r ∧ r < st.sb.size ∧ ¬ bitSet st dev r ∧
      (∀ j, BPB * q ≤ j → j < r → bitSet st dev j) ∧
      bzero (markUsed st dev r) dev r = Except.ok st2 := by
  intro k
  induction k with
  | zero => intro q r st2 h; simp [ballocLoop] at h
  | succ k ih =>
    intro q r st2 h
    unfold ballocLoop log_write at h
    split_ifs at h with h1
    obtain ⟨data, hd, h⟩ := bind_eq_ok h
    obtain ⟨hdata, -, -⟩ := bread_eq_ok hd
    cases hs : ballocScan data st.sb.size (BPB * q) BPB 0 with
    | none =>
      rw [hs] at h
      simp only at h
      have hq : BPB * q + BPB = BPB * (q + 1) := by ring
      rw [hq] at h
      obtain ⟨a1, a2, a3, a4, a5⟩ := ih (q + 1) r st2 h
      refine ⟨by nlinarith, a2, a3, ?_, a5⟩
      intro j hj1 hj2
      by_cases hj3 : BPB * (q + 1) ≤ j
      · exact a4 j hj3 hj2
      · have hj4 : j - BPB * q < BPB := by
          have : BPB * (q + 1) = BPB * q + BPB := by ring
          omega
        have hj5 : j = BPB * q + (j - BPB * q) := by omega
        rw [hj5, bitSet_block st dev q _ hj4, ← hdata]
        exact ballocScan_none BPB 0 (by omega) hs _ (Nat.zero_le _) hj4 (by omega)
    | some bi =>
      rw [hs] at h
      simp only at h
      obtain ⟨st3, hz, h⟩ := bind_eq_ok h
      simp only [pure_eq_ok, Except.ok.injEq, Prod.mk.injEq] at h
      obtain ⟨hr, hst⟩ := h
      subst hr hst
      obtain ⟨-, b2, b3, b4, b5⟩ := ballocScan_some BPB 0 bi hs
      refine ⟨by omega, b3, ?_, ?_, ?_⟩
      · rw [bitSet_block st dev q bi b2, ← hdata]
        exact not_not.mpr b4
      · intro j hj1 hj2
        have hj4 : j - BPB * q < BPB := by omega
        have hj5 : j = BPB * q + (j - BPB * q) := by omega
        rw [hj5, bitSet_block st dev q _ hj4, ← hdata]
        exact b5 _ (Nat.zero_le _) (by omega)
      · rw [markUsed_block st dev q bi b2, ← hdata]
        exact hz

/-! ## `balloc` on a well-formed file system -/

theorem FsOk.bmap_block_lt {st : FS} {dev : Nat} (hfs : FsOk st dev) {b : Nat}
    (hb : b / BPB ≤ st.sb.size / BPB) :
    BBLOCK b st.sb = st.sb.bmapstart + b / BPB ∧ BBLOCK b st.sb < dataStart st.sb ∧
      BBLOCK b st.sb < FSSIZE ∧ 2 ≤ BBLOCK b st.sb := by
  have h1 := hfs.size_le
  have h2 := hfs.data_in_image
  have h3 := hfs.inodes_after_super
  have h4 := hfs.bitmap_after_inodes
  unfold dataStart at h2 ⊢
  unfold BBLOCK
  simp only [BPB_eq, FSSIZE_eq, U32_eq] at *
  omega

theorem FsOk.clear_is_data {st : FS} {dev : Nat} (hfs : FsOk st dev) {r : Nat}
    (hc : ¬ bitSet st dev r) : dataStart st.sb ≤ r := by
  by_contra h
  exact hc (hfs.meta_used r (by omega))

theorem bzero_ok {st : FS} {dev b : Nat} (hd : dev = 0 ∨ st.havedisk1 = true) (hb : b < FSSIZE) :
    bzero st dev b = Except.ok (st.setBlock dev b (memset (st.disk dev b) 0 0 BSIZE)) := by
  unfold bzero log_write
  rw [bread_ok hd hb]
  rfl

theorem markUsed_sb (st : FS) (dev r : Nat) : (markUsed st dev r).sb = st.sb := rfl
theorem markUsed_havedisk1 (st : FS) (dev r : Nat) : (markUsed st dev r).havedisk1 = st.havedisk1 := rfl
theorem allocated_sb (st : FS) (dev r : Nat) : (allocated st dev r).sb = st.sb := rfl
theorem allocated_havedisk1 (st : FS) (dev r : Nat) :
    (allocated st dev r).havedisk1 = st.havedisk1 := rfl
theorem allocated_devsw (st : FS) (dev r : Nat) : (allocated st dev r).devsw = st.devsw := rfl

theorem balloc_step {st : FS} {dev r : Nat} (hfs : FsOk st dev) (hr : r < st.sb.size) :
    bzero (markUsed st dev r) dev r = Except.ok (allocated st dev r) := by
  have h1 := hfs.size_le
  rw [bzero_ok (by simpa [markUsed_havedisk1] using hfs.disk_present) (by omega)]
  rfl

/-- A successful `balloc` returns the smallest block whose bit is clear and
leaves the state `allocated`. -/
theorem balloc_eq_ok {st : FS} {dev r : Nat} {st2 : FS} (hfs : FsOk st dev)
    (h : balloc st dev = Except.ok (r, st2)) :
    r < st.sb.size ∧ ¬ bitSet st dev r ∧ (∀ j, j < r → bitSet st dev j) ∧
      st2 = allocated st dev r := by
  unfold balloc at h
  have h0 : (0 : Nat) = BPB * 0 := by simp
  rw [h0] at h
  obtain ⟨-, a2, a3, a4, a5⟩ := ballocLoop_ok _ 0 r st2 h
  refine ⟨a2, a3, fun j hj => a4 j (by simp) hj, ?_⟩
  rw [balloc_step hfs a2] at a5
  simpa using a5.symm

theorem ballocLoop_error {st : FS} {dev : Nat} (hfs : FsOk st dev) : ∀ (k q : Nat) (e : Panic),
    st.sb.size ≤ BPB * (q + k) → ballocLoop st dev k (BPB * q) = Except.error e →
    e = Panic.ballocOutOfBlocks ∧ ∀ j, BPB * q ≤ j → j < st.sb.size → bitSet st dev j := by
  intro k
  induction k with
  | zero =>
    intro q e hk h
    simp only [ballocLoop, Except.error.injEq] at h
    exact ⟨h.symm, fun j hj1 hj2 => absurd hj2 (by simp at hk; omega)⟩
  | succ k ih =>
    intro q e hk h
    unfold ballocLoop log_write at h
    split_ifs at h with h1
    · have hq : BPB * q / BPB ≤ st.sb.size / BPB := Nat.div_le_div_right (le_of_lt h1)
      obtain ⟨-, -, hlt, -⟩ := hfs.bmap_block_lt hq
      rw [bread_ok hfs.disk_present hlt] at h
      simp only [bind_ok_eq] at h
      cases hs : ballocScan (st.disk dev (BBLOCK (BPB * q) st.sb)) st.sb.size (BPB * q) BPB 0 with
      | none =>
        rw [hs] at h
        simp only at h
        have hq2 : BPB * q + BPB = BPB * (q + 1) := by ring
        rw [hq2] at h
        obtain ⟨a1, a2⟩ := ih (q + 1) e (by rw [show q + 1 + k = q + (k + 1) by ring]; exact hk) h
        refine ⟨a1, ?_⟩
        intro j hj1 hj2
        by_cases hj3 : BPB * (q + 1) ≤ j
        · exact a2 j hj3 hj2
        · have hj4 : j - BPB * q < BPB := by
            have : BPB * (q + 1) = BPB * q + BPB := by ring
            omega
          have hj5 : j = BPB * q + (j - BPB * q) := by omega
          rw [hj5, bitSet_block st dev q _ hj4]
          exact ballocScan_none BPB 0 (by omega) hs _ (Nat.zero_le _) hj4 (by omega)
      | some bi =>
        rw [hs] at h
        simp only at h
        obtain ⟨-, b2, b3, -, -⟩ := ballocScan_some BPB 0 bi hs
        have hm := markUsed_block st dev q bi b2
        rw [← hm, balloc_step hfs b3] at h
        simp at h
    · simp only [Except.error.injEq] at h
      exact ⟨h.symm, fun j hj1 hj2 => absurd hj2 (by omega)⟩

/-- On a well-formed file system `balloc` fails only with "out of blocks", and
then no block of the image has a clear bit. -/
theorem balloc_eq_error {st : FS} {dev : Nat} {e : Panic} (hfs : FsOk st dev)
    (h : balloc st dev = Except.error e) :
    e = Panic.ballocOutOfBlocks ∧ ∀ j, j < st.sb.size → bitSet st dev j := by
  unfold balloc at h
  have h0 : (0 : Nat) = BPB * 0 := by simp
  rw [h0] at h
  have hk : st.sb.size ≤ BPB * (0 + (st.sb.size / BPB + 1)) := by
    simp only [BPB_eq]; omega
  obtain ⟨a1, a2⟩ := ballocLoop_error hfs _ 0 e hk h
  exact ⟨a1, fun j hj => a2 j (by simp) hj⟩

/-- The smallest block with a clear bit is the one `balloc` returns. -/
theorem balloc_least {st : FS} {dev r : Nat} (hfs : FsOk st dev) (hr : r < st.sb.size)
    (hc : ¬ bitSet st dev r) (hl : ∀ j, j < r → bitSet st dev j) :
    balloc st dev = Except.ok (r, allocated st dev r) := by
  cases h : balloc st dev with
  | error e => exact absurd ((balloc_eq_error hfs h).2 r hr) hc
  | ok p =>
    obtain ⟨r2, st2⟩ := p
    obtain ⟨a1, a2, a3, a4⟩ := balloc_eq_ok hfs h
    have : r2 = r := by
      rcases Nat.lt_trichotomy r2 r with h1 | h1 | h1
      · exact absurd (hl r2 h1) a2
      · exact h1
      · exact absurd (a3 r h1) hc
    subst this
    rw [a4]

/-! ## The state after an allocation -/

theorem allocated_block {st : FS} {dev r : Nat} (i : Nat) :
    (allocated st dev r).disk dev r i =
      if i < BSIZE then 0 else (markUsed st dev r).disk dev r i := by
  unfold allocated
  rw [setBlock_same]
  unfold memset
  by_cases hi : i < BSIZE
  · simp [hi]
  · simp [hi]

theorem allocated_zero {st : FS} {dev r : Nat} (i : Nat) (hi : i < BSIZE) :
    (allocated st dev r).disk dev r i = 0 := by
  rw [allocated_block, if_pos hi]

theorem allocated_other_dev {st : FS} {dev r : Nat} (dev2 b : Nat) (h : dev2 ≠ dev) :
    (allocated st dev r).disk dev2 b = st.disk dev2 b := by
  unfold allocated markUsed
  rw [setBlock_other _ _ _ _ _ _ (Or.inl h), setBlock_other _ _ _ _ _ _ (Or.inl h)]

theorem allocated_other {st : FS} {dev r : Nat} (b : Nat) (h1 : b ≠ r)
    (h2 : b ≠ BBLOCK r st.sb) : (allocated st dev r).disk dev b = st.disk dev b := by
  unfold allocated markUsed
  rw [setBlock_other _ _ _ _ _ _ (Or.inr h1), setBlock_other _ _ _ _ _ _ (Or.inr h2)]

theorem allocated_bitmap {st : FS} {dev r : Nat} (h : BBLOCK r st.sb ≠ r) (i : Nat) :
    (allocated st dev r).disk dev (BBLOCK r st.sb) i =
      if i = r % BPB / 8
      then (st.disk dev (BBLOCK r st.sb) (r % BPB / 8) ||| (1 <<< (r % 8))) % 256
      else st.disk dev (BBLOCK r st.sb) i := by
  unfold allocated
  rw [setBlock_other _ _ _ _ _ _ (Or.inr h)]
  unfold markUsed
  rw [setBlock_same]

/-- After the allocation of a free block `r` the bit of `r` is set and the bit
of every other block covered by the bitmap is as before. -/
theorem allocated_bitSet {st : FS} {dev r : Nat} (hfs : FsOk st dev) (hr : r < st.sb.size)
    (hc : ¬ bitSet st dev r) (b : Nat) (hb : b / BPB ≤ st.sb.size / BPB) :
    bitSet (allocated st dev r) dev b ↔ (bitSet st dev b ∨ b = r) := by
  have hrd := hfs.clear_is_data hc
  have hrq : r / BPB ≤ st.sb.size / BPB := Nat.div_le_div_right (le_of_lt hr)
  obtain ⟨r1, r2, r3, r4⟩ := hfs.bmap_block_lt hrq
  obtain ⟨b1, b2, b3, b4⟩ := hfs.bmap_block_lt hb
  have hne : BBLOCK r st.sb ≠ r := by omega
  unfold bitSet
  rw [allocated_sb]
  by_cases hbl : BBLOCK b st.sb = BBLOCK r st.sb
  · rw [hbl, allocated_bitmap hne]
    by_cases hby : b % BPB / 8 = r % BPB / 8
    · rw [if_pos hby]
      have hx : st.disk dev (BBLOCK r st.sb) (r % BPB / 8) < 256 := by
        rw [r1]; exact hfs.bitmap_bytes _ _ hrq
      have hk : r % 8 < 8 := Nat.mod_lt _ (by norm_num)
      have hj : b % 8 < 8 := Nat.mod_lt _ (by norm_num)
      rw [bit_set_or (r % 8) hk (b % 8) hj _ hx, hby]
      have hq : b / BPB = r / BPB := by omega
      simp only [BPB_eq] at hby hq
      constructor
      · rintro (h | h)
        · exact Or.inl h
        · right; omega
      · rintro (h | h)
        · exact Or.inl h
        · right; omega
    · rw [if_neg hby]
      constructor
      · intro h; exact Or.inl h
      · rintro (h | h)
        · exact h
        · exact absurd (by rw [h]) hby
  · have hbr : BBLOCK b st.sb ≠ r := by omega
    rw [allocated_other _ hbr hbl]
    constructor
    · intro h; exact Or.inl h
    · rintro (h | h)
      · exact h
      · exact absurd (by rw [h]) hbl

theorem allocated_fsOk {st : FS} {dev r : Nat} (hfs : FsOk st dev) (hr : r < st.sb.size)
    (hc : ¬ bitSet st dev r) : FsOk (allocated st dev r) dev := by
  have hrd := hfs.clear_is_data hc
  have hrq : r / BPB ≤ st.sb.size / BPB := Nat.div_le_div_right (le_of_lt hr)
  obtain ⟨r1, r2, r3, r4⟩ := hfs.bmap_block_lt hrq
  have hds := hfs.data_in_image
  have h2 := hfs.inodes_after_super
  have h3 := hfs.bitmap_after_inodes
  refine ⟨hfs.disk_present, hfs.size_le, hfs.inodes_after_super, hfs.bitmap_after_inodes,
    hfs.data_in_image, ?_, ?_, ?_⟩
  · rw [allocated_sb, allocated_other 1 (by unfold dataStart at hrd; omega) (by omega)]
    exact hfs.sb_on_disk
  · intro b hb
    rw [allocated_sb] at hb
    have hbq : b / BPB ≤ st.sb.size / BPB :=
      Nat.div_le_div_right (by omega)
    exact (allocated_bitSet hfs hr hc b hbq).mpr (Or.inl (hfs.meta_used b hb))
  · intro k i hk
    rw [allocated_sb] at hk ⊢
    have hkr : st.sb.bmapstart + k ≠ r := by unfold dataStart at hrd; omega
    by_cases hkb : st.sb.bmapstart + k = BBLOCK r st.sb
    · rw [hkb, allocated_bitmap (by omega)]
      split_ifs
      · exact Nat.mod_lt _ (by norm_num)
      · rw [← hkb]; exact hfs.bitmap_bytes k i hk
    · rw [allocated_other _ hkr hkb]
      exact hfs.bitmap_bytes k i hk

theorem balloc_fsOk {st : FS} {dev r : Nat} {st2 : FS} (hfs : FsOk st dev)
    (h : balloc st dev = Except.ok (r, st2)) : FsOk st2 dev := by
  obtain ⟨a1, a2, -, a4⟩ := balloc_eq_ok hfs h
  rw [a4]
  exact allocated_fsOk hfs a1 a2

/-! ## `bfree` -/

theorem readsb_ok {st : FS} {dev : Nat} (hfs : FsOk st dev) : readsb st dev = Except.ok st := by
  have h1 := hfs.size_le
  have h2 := hfs.data_in_image
  have h3 := hfs.inodes_after_super
  have h4 := hfs.bitmap_after_inodes
  unfold readsb
  rw [bread_ok hfs.disk_present (by simp only [FSSIZE_eq]; omega)]
  simp only [bind_ok_eq, pure_eq_ok, hfs.sb_on_disk]

/-- Freeing a block whose bit is set succeeds and clears that bit. -/
theorem bfree_ok {st : FS} {dev b : Nat} (hfs : FsOk st dev) (hb : b < st.sb.size)
    (hs : bitSet st dev b) : bfree st dev b = Except.ok (markFree st dev b) := by
  have hq : b / BPB ≤ st.sb.size / BPB := Nat.div_le_div_right (le_of_lt hb)
  obtain ⟨-, -, hlt, -⟩ := hfs.bmap_block_lt hq
  unfold bfree log_write
  rw [readsb_ok hfs]
  simp only [bind_ok_eq]
  rw [bread_ok hfs.disk_present hlt]
  simp only [bind_ok_eq]
  have h8 : b % BPB % 8 = b % 8 := by simp only [BPB_eq]; omega
  rw [h8, if_neg hs]
  rfl

/-- Freeing a block whose bit is clear is the panic "freeing free block". -/
theorem bfree_free {st : FS} {dev b : Nat} (hfs : FsOk st dev) (hb : b < st.sb.size)
    (hs : ¬ bitSet st dev b) : bfree st dev b = Except.error Panic.freeingFreeBlock := by
  have hq : b / BPB ≤ st.sb.size / BPB := Nat.div_le_div_right (le_of_lt hb)
  obtain ⟨-, -, hlt, -⟩ := hfs.bmap_block_lt hq
  unfold bfree log_write
  rw [readsb_ok hfs]
  simp only [bind_ok_eq]
  rw [bread_ok hfs.disk_present hlt]
  simp only [bind_ok_eq]
  have h8 : b % BPB % 8 = b % 8 := by simp only [BPB_eq]; omega
  rw [h8, if_pos (not_not.mp hs)]

theorem markFree_allocated {st : FS} {dev r : Nat} (hfs : FsOk st dev) (hr : r < st.sb.size)
    (hc : ¬ bitSet st dev r) (b : Nat) (hb : b ≠ r) :
    (markFree (allocated st dev r) dev r).disk dev b = st.disk dev b := by
  have hrd := hfs.clear_is_data hc
  have hrq : r / BPB ≤ st.sb.size / BPB := Nat.div_le_div_right (le_of_lt hr)
  obtain ⟨r1, r2, r3, r4⟩ := hfs.bmap_block_lt hrq
  have hne : BBLOCK r st.sb ≠ r := by omega
  unfold markFree
  rw [allocated_sb]
  by_cases hbb : b = BBLOCK r st.sb
  · subst hbb
    rw [setBlock_same]
    funext i
    rw [allocated_bitmap hne, allocated_bitmap hne]
    simp only [if_true]
    by_cases hi : i = r % BPB / 8
    · rw [if_pos hi, hi]
      have hx : st.disk dev (BBLOCK r st.sb) (r % BPB / 8) < 256 := by
        rw [r1]; exact hfs.bitmap_bytes _ _ hrq
      exact bit_clear_set (r % 8) (Nat.mod_lt _ (by norm_num)) _ hx (not_not.mp hc)
    · rw [if_neg hi, if_neg hi]
  · rw [setBlock_other _ _ _ _ _ _ (Or.inr hbb), allocated_other _ hb hbb]

/-! ## The sample image is well formed -/

theorem fs0_ok : FsOk fs0 1 := by
  refine ⟨Or.inr rfl, by decide, by decide, by decide, by decide, by decide, by decide, ?_⟩
  intro k i hk
  have hk0 : k = 0 := by
    have : fs0.sb.size / BPB = 0 := by decide
    omega
  subst hk0
  show disk0 1 58 i < 256
  simp only [disk0]
  norm_num
  split_ifs <;> norm_num

theorem balloc_fs0 : balloc fs0 1 = Except.ok (59, allocated fs0 1 59) :=
  balloc_least fs0_ok (by decide) (by decide) (by decide)

/-! ## Words of the indirect block -/

theorem getU32_setU32_same (d : Mem) (i v : Nat) (hv : v < U32) : getU32 (setU32 d i v) i = v := by
  unfold getU32 setU32 encU32
  simp only [U32_eq] at hv
  have e0 : 4 * i ≤ 4 * i ∧ 4 * i < 4 * i + 4 := by omega
  have e1 : 4 * i ≤ 4 * i + 1 ∧ 4 * i + 1 < 4 * i + 4 := by omega
  have e2 : 4 * i ≤ 4 * i + 2 ∧ 4 * i + 2 < 4 * i + 4 := by omega
  have e3 : 4 * i ≤ 4 * i + 3 ∧ 4 * i + 3 < 4 * i + 4 := by omega
  rw [if_pos e0, if_pos e1, if_pos e2, if_pos e3]
  have s0 : 4 * i - 4 * i = 0 := by omega
  have s1 : 4 * i + 1 - 4 * i = 1 := by omega
  have s2 : 4 * i + 2 - 4 * i = 2 := by omega
  have s3 : 4 * i + 3 - 4 * i = 3 := by omega
  rw [s0, s1, s2, s3]
  norm_num
  omega

theorem getU32_setU32_other (d : Mem) (i j v : Nat) (h : j ≠ i) :
    getU32 (setU32 d i v) j = getU32 d j := by
  unfold getU32 setU32
  have e0 : ¬ (4 * i ≤ 4 * j ∧ 4 * j < 4 * i + 4) := by omega
  have e1 : ¬ (4 * i ≤ 4 * j + 1 ∧ 4 * j + 1 < 4 * i + 4) := by omega
  have e2 : ¬ (4 * i ≤ 4 * j + 2 ∧ 4 * j + 2 < 4 * i + 4) := by omega
  have e3 : ¬ (4 * i ≤ 4 * j + 3 ∧ 4 * j + 3 < 4 * i + 4) := by omega
  rw [if_neg e0, if_neg e1, if_neg e2, if_neg e3]

theorem getU32_zero (d : Mem) (i : Nat) (hi : i < NINDIRECT) (hz : ∀ k, k < BSIZE → d k = 0) :
    getU32 d i = 0 := by
  unfold getU32
  simp only [NINDIRECT_eq, BSIZE_eq] at *
  rw [hz _ (by omega), hz _ (by omega), hz _ (by omega), hz _ (by omega)]

/-! ## The block map -/

theorem blockAt_direct (st : FS) (ip : Inode) (bn : Nat) (h : bn < NDIRECT) :
    blockAt st ip bn = ip.addrs bn := by
  unfold blockAt; rw [if_pos h]

theorem blockAt_indirect (st : FS) (ip : Inode) (bn : Nat) (h : NDIRECT ≤ bn)
    (hi : ip.addrs NDIRECT ≠ 0) :
    blockAt st ip bn = getU32 (st.disk ip.dev (ip.addrs NDIRECT)) (bn - NDIRECT) := by
  unfold blockAt; rw [if_neg (by omega), if_neg hi]

theorem blockAt_no_indirect (st : FS) (ip : Inode) (bn : Nat) (h : NDIRECT ≤ bn)
    (hi : ip.addrs NDIRECT = 0) : blockAt st ip bn = 0 := by
  unfold blockAt; rw [if_neg (by omega), if_pos hi]

theorem FsOk.dataStart_pos {st : FS} {dev : Nat} (hfs : FsOk st dev) : 3 ≤ dataStart st.sb := by
  have h3 := hfs.inodes_after_super
  have h4 := hfs.bitmap_after_inodes
  have h5 := Nat.zero_le (st.sb.size / BPB)
  unfold dataStart; omega

/-- Allocation of a free block leaves the block map of a well-formed inode as
it was, keeps the inode well formed, and the new block is fresh. -/
theorem alloc_fresh {st : FS} {ip : Inode} {r : Nat} (hok : InodeOk st ip)
    (hr : r < st.sb.size) (hc : ¬ bitSet st ip.dev r) :
    (∀ bn, blockAt (allocated st ip.dev r) ip bn = blockAt st ip bn) ∧
      InodeOk (allocated st ip.dev r) ip ∧ Fresh (allocated st ip.dev r) ip r := by
  have hfs := hok.fs
  have hrd := hfs.clear_is_data hc
  have hrq : r / BPB ≤ st.sb.size / BPB := Nat.div_le_div_right (le_of_lt hr)
  obtain ⟨r1, r2, r3, r4⟩ := hfs.bmap_block_lt hrq
  have hbs : ∀ b, b < st.sb.size → bitSet st ip.dev b → bitSet (allocated st ip.dev r) ip.dev b :=
    fun b hb hs => (allocated_bitSet hfs hr hc b (Nat.div_le_div_right (le_of_lt hb))).mpr (Or.inl hs)
  have hblk : ∀ bn, blockAt (allocated st ip.dev r) ip bn = blockAt st ip bn := by
    intro bn
    unfold blockAt
    by_cases h1 : bn < NDIRECT
    · rw [if_pos h1, if_pos h1]
    · rw [if_neg h1, if_neg h1]
      by_cases h2 : ip.addrs NDIRECT = 0
      · rw [if_pos h2, if_pos h2]
      · rw [if_neg h2, if_neg h2]
        obtain ⟨i1, i2, i3⟩ := hok.ind_data h2
        rw [allocated_other _ (fun h => hc (by rw [← h]; exact i3)) (by omega)]
  refine ⟨hblk, ?_, ?_⟩
  · refine ⟨allocated_fsOk hfs hr hc, hok.record_in_area, hok.size_le, ?_, ?_, ?_, ?_⟩
    · intro h
      obtain ⟨i1, i2, i3⟩ := hok.ind_data h
      exact ⟨i1, i2, hbs _ i2 i3⟩
    · intro bn hbn h
      rw [hblk] at h ⊢
      obtain ⟨i1, i2, i3⟩ := hok.blk_data bn hbn h
      exact ⟨i1, i2, hbs _ i2 i3⟩
    · intro bn bn2 hbn hbn2 h he
      rw [hblk] at h he
      rw [hblk] at he
      exact hok.blk_inj bn bn2 hbn hbn2 h he
    · intro bn hbn h
      rw [hblk] at h ⊢
      exact hok.blk_ne_ind bn hbn h
  · refine ⟨hrd, hr, (allocated_bitSet hfs hr hc r hrq).mpr (Or.inr rfl), ?_, ?_⟩
    · intro bn hbn h
      rw [hblk] at h
      have h0 : blockAt st ip bn ≠ 0 := by
        have := hfs.dataStart_pos
        omega
      exact hc (by rw [← h]; exact (hok.blk_data bn hbn h0).2.2)
    · intro h
      have h0 : ip.addrs NDIRECT ≠ 0 := by
        have := hfs.dataStart_pos
        omega
      exact hc (by rw [← h]; exact (hok.ind_data h0).2.2)

/-! ## Stores that leave the bitmap and the super block alone -/

theorem bitSet_setBlock {st : FS} {dev b2 : Nat} {d : Mem} (hfs : FsOk st dev)
    (hnb : ∀ k, k ≤ st.sb.size / BPB → b2 ≠ st.sb.bmapstart + k) (b : Nat)
    (hb : b / BPB ≤ st.sb.size / BPB) :
    bitSet (st.setBlock dev b2 d) dev b ↔ bitSet st dev b := by
  obtain ⟨b1, -, -, -⟩ := hfs.bmap_block_lt hb
  unfold bitSet
  rw [setBlock_sb, setBlock_other _ _ _ _ _ _ (Or.inr (by rw [b1]; exact (hnb _ hb).symm))]

theorem fsOk_setBlock {st : FS} {dev b2 : Nat} {d : Mem} (hfs : FsOk st dev) (h1 : b2 ≠ 1)
    (hnb : ∀ k, k ≤ st.sb.size / BPB → b2 ≠ st.sb.bmapstart + k) :
    FsOk (st.setBlock dev b2 d) dev := by
  refine ⟨hfs.disk_present, hfs.size_le, hfs.inodes_after_super, hfs.bitmap_after_inodes,
    hfs.data_in_image, ?_, ?_, ?_⟩
  · rw [setBlock_sb, setBlock_other _ _ _ _ _ _ (Or.inr (Ne.symm h1))]
    exact hfs.sb_on_disk
  · intro b hb
    rw [setBlock_sb] at hb
    have hbq : b / BPB ≤ st.sb.size / BPB := by
      have := hfs.data_in_image
      exact Nat.div_le_div_right (by omega)
    exact (bitSet_setBlock hfs hnb b hbq).mpr (hfs.meta_used b hb)
  · intro k i hk
    rw [setBlock_sb] at hk ⊢
    rw [setBlock_other _ _ _ _ _ _ (Or.inr (hnb k hk).symm)]
    exact hfs.bitmap_bytes k i hk

theorem not_bitmap_of_data {st : FS} {b2 : Nat} (h : dataStart st.sb ≤ b2) :
    ∀ k, k ≤ st.sb.size / BPB → b2 ≠ st.sb.bmapstart + k := by
  intro k hk
  unfold dataStart at h
  omega

theorem not_bitmap_of_lt {st : FS} {b2 : Nat} (h : b2 < st.sb.bmapstart) :
    ∀ k, k ≤ st.sb.size / BPB → b2 ≠ st.sb.bmapstart + k := by
  intro k _
  omega

/-- A store into a block that is neither the super block, nor a bitmap block,
nor the indirect block of the inode keeps the inode well formed and its block
map as it was. -/
theorem inodeOk_setBlock {st : FS} {ip : Inode} {b2 : Nat} {d : Mem} (hok : InodeOk st ip)
    (h1 : b2 ≠ 1) (hnb : ∀ k, k ≤ st.sb.size / BPB → b2 ≠ st.sb.bmapstart + k)
    (hni : ip.addrs NDIRECT ≠ 0 → b2 ≠ ip.addrs NDIRECT) :
    (∀ bn, blockAt (st.setBlock ip.dev b2 d) ip bn = blockAt st ip bn) ∧
      InodeOk (st.setBlock ip.dev b2 d) ip := by
  have hfs := hok.fs
  have hbs : ∀ b, b < st.sb.size → bitSet st ip.dev b → bitSet (st.setBlock ip.dev b2 d) ip.dev b :=
    fun b hb hs => (bitSet_setBlock hfs hnb b (Nat.div_le_div_right (le_of_lt hb))).mpr hs
  have hblk : ∀ bn, blockAt (st.setBlock ip.dev b2 d) ip bn = blockAt st ip bn := by
    intro bn
    unfold blockAt
    by_cases h1 : bn < NDIRECT
    · rw [if_pos h1, if_pos h1]
    · rw [if_neg h1, if_neg h1]
      by_cases h2 : ip.addrs NDIRECT = 0
      · rw [if_pos h2, if_pos h2]
      · rw [if_neg h2, if_neg h2, setBlock_other _ _ _ _ _ _ (Or.inr (hni h2).symm)]
  refine ⟨hblk, fsOk_setBlock hfs h1 hnb, hok.record_in_area, hok.size_le, ?_, ?_, ?_, ?_⟩
  · intro h
    obtain ⟨i1, i2, i3⟩ := hok.ind_data h
    exact ⟨i1, i2, hbs _ i2 i3⟩
  · intro bn hbn h
    rw [hblk] at h ⊢
    obtain ⟨i1, i2, i3⟩ := hok.blk_data bn hbn h
    exact ⟨i1, i2, hbs _ i2 i3⟩
  · intro bn bn2 hbn hbn2 h he
    rw [hblk] at h he
    rw [hblk] at he
    exact hok.blk_inj bn bn2 hbn hbn2 h he
  · intro bn hbn h
    rw [hblk] at h ⊢
    exact hok.blk_ne_ind bn hbn h

theorem fresh_setBlock {st : FS} {ip : Inode} {b2 r : Nat} {d : Mem} (hok : InodeOk st ip)
    (hf : Fresh st ip r)
    (h1 : b2 ≠ 1) (hnb : ∀ k, k ≤ st.sb.size / BPB → b2 ≠ st.sb.bmapstart + k)
    (hni : ip.addrs NDIRECT ≠ 0 → b2 ≠ ip.addrs NDIRECT) :
    Fresh (st.setBlock ip.dev b2 d) ip r := by
  obtain ⟨hblk, -⟩ := inodeOk_setBlock (d := d) hok h1 hnb hni
  refine ⟨hf.data, hf.lt_size, ?_, ?_, hf.not_ind⟩
  · exact (bitSet_setBlock hok.fs hnb r (Nat.div_le_div_right (le_of_lt hf.lt_size))).mpr hf.used
  · intro bn hbn
    rw [hblk]
    exact hf.not_blk bn hbn

/-! ## The three stores of `bmap` -/

@[simp] theorem setAddr_dev (ip : Inode) (i a : Nat) : (ip.setAddr i a).dev = ip.dev := rfl
@[simp] theorem setAddr_inum (ip : Inode) (i a : Nat) : (ip.setAddr i a).inum = ip.inum := rfl
@[simp] theorem setAddr_size (ip : Inode) (i a : Nat) : (ip.setAddr i a).size = ip.size := rfl
@[simp] theorem setAddr_type (ip : Inode) (i a : Nat) : (ip.setAddr i a).type = ip.type := rfl
theorem setAddr_addrs (ip : Inode) (i a j : Nat) :
    (ip.setAddr i a).addrs j = if j = i then a else ip.addrs j := rfl

/-- The store `ip->addrs[bn] = r` of a fresh block into a free direct entry. -/
theorem setDirect_ok {st : FS} {ip : Inode} {r bn : Nat} (hok : InodeOk st ip)
    (hf : Fresh st ip r) (hbn : bn < NDIRECT) :
    (∀ x, blockAt st (ip.setAddr bn r) x = if x = bn then r else blockAt st ip x) ∧
      InodeOk st (ip.setAddr bn r) := by
  have hr0 : r ≠ 0 := by have := hok.fs.dataStart_pos; have := hf.data; omega
  have hblk : ∀ x, blockAt st (ip.setAddr bn r) x = if x = bn then r else blockAt st ip x := by
    intro x
    unfold blockAt
    simp only [setAddr_addrs, setAddr_dev]
    by_cases h1 : x < NDIRECT
    · rw [if_pos h1, if_pos h1]
    · rw [if_neg h1, if_neg h1, if_neg (by omega : ¬ NDIRECT = bn), if_neg (by omega : ¬ x = bn)]
  have hind : (ip.setAddr bn r).addrs NDIRECT = ip.addrs NDIRECT := by
    rw [setAddr_addrs, if_neg (by omega)]
  refine ⟨hblk, hok.fs, hok.record_in_area, hok.size_le, ?_, ?_, ?_, ?_⟩
  · rw [hind]; exact hok.ind_data
  · intro x hx h
    rw [hblk] at h ⊢
    by_cases hxb : x = bn
    · rw [if_pos hxb]; exact ⟨hf.data, hf.lt_size, hf.used⟩
    · rw [if_neg hxb] at h ⊢; exact hok.blk_data x hx h
  · intro x y hx hy h he
    rw [hblk] at h he
    rw [hblk] at he
    by_cases hxb : x = bn
    · by_cases hyb : y = bn
      · rw [hxb, hyb]
      · rw [if_pos hxb, if_neg hyb] at he
        exact absurd he.symm (hf.not_blk y hy)
    · by_cases hyb : y = bn
      · rw [if_neg hxb, if_pos hyb] at he
        exact absurd he (hf.not_blk x hx)
      · rw [if_neg hxb] at h
        rw [if_neg hxb, if_neg hyb] at he
        exact hok.blk_inj x y hx hy h he
  · intro x hx h
    rw [hblk] at h ⊢
    rw [hind]
    by_cases hxb : x = bn
    · rw [if_pos hxb]; exact hf.not_ind.symm
    · rw [if_neg hxb] at h ⊢; exact hok.blk_ne_ind x hx h

/-- The store `ip->addrs[NDIRECT] = a` of a fresh zeroed block as indirect block. -/
theorem setIndirectPtr_ok {st : FS} {ip : Inode} {a : Nat} (hok : InodeOk st ip)
    (hf : Fresh st ip a) (h0 : ip.addrs NDIRECT = 0)
    (hz : ∀ i, i < BSIZE → st.disk ip.dev a i = 0) :
    (∀ x, x < MAXFILE → blockAt st (ip.setAddr NDIRECT a) x = blockAt st ip x) ∧
      InodeOk st (ip.setAddr NDIRECT a) := by
  have ha0 : a ≠ 0 := by have := hok.fs.dataStart_pos; have := hf.data; omega
  have hind : (ip.setAddr NDIRECT a).addrs NDIRECT = a := by
    rw [setAddr_addrs, if_pos rfl]
  have hblk : ∀ x, x < MAXFILE → blockAt st (ip.setAddr NDIRECT a) x = blockAt st ip x := by
    intro x hx
    by_cases h1 : x < NDIRECT
    · rw [blockAt_direct _ _ _ h1, blockAt_direct _ _ _ h1, setAddr_addrs, if_neg (by omega)]
    · rw [blockAt_no_indirect st ip x (by omega) h0,
        blockAt_indirect _ _ _ (by omega) (by rw [hind]; exact ha0), hind, setAddr_dev]
      exact getU32_zero _ _ (by simp only [MAXFILE_eq, NDIRECT_eq, NINDIRECT_eq] at *; omega) hz
  refine ⟨hblk, hok.fs, hok.record_in_area, hok.size_le, ?_, ?_, ?_, ?_⟩
  · intro _
    rw [hind]; exact ⟨hf.data, hf.lt_size, hf.used⟩
  · intro x hx h
    rw [hblk x hx] at h ⊢
    exact hok.blk_data x hx h
  · intro x y hx hy h he
    rw [hblk x hx] at h he
    rw [hblk y hy] at he
    exact hok.blk_inj x y hx hy h he
  · intro x hx h
    rw [hblk x hx] at h ⊢
    rw [hind]
    exact hf.not_blk x hx

/-- The store `a[bn - NDIRECT] = r` of a fresh block into a free entry of the
indirect block. -/
theorem setIndirectEntry_ok {st : FS} {ip : Inode} {r bn : Nat} (hok : InodeOk st ip)
    (hf : Fresh st ip r) (hi : ip.addrs NDIRECT ≠ 0) (h1 : NDIRECT ≤ bn) :
    (∀ x, x < MAXFILE → blockAt (setEntry st ip.dev (ip.addrs NDIRECT) (bn - NDIRECT) r) ip x =
        if x = bn then r else blockAt st ip x) ∧
      InodeOk (setEntry st ip.dev (ip.addrs NDIRECT) (bn - NDIRECT) r) ip := by
  obtain ⟨i1, i2, i3⟩ := hok.ind_data hi
  have hfs := hok.fs
  have hds := hfs.dataStart_pos
  have hnb := @not_bitmap_of_data st _ i1
  have hrU : r < U32 := by
    have := hf.lt_size; have := hfs.size_le
    simp only [U32_eq, FSSIZE_eq] at *; omega
  have hfs2 : FsOk (setEntry st ip.dev (ip.addrs NDIRECT) (bn - NDIRECT) r) ip.dev :=
    fsOk_setBlock hfs (by omega) hnb
  have hbs : ∀ b, b < st.sb.size → bitSet st ip.dev b →
      bitSet (setEntry st ip.dev (ip.addrs NDIRECT) (bn - NDIRECT) r) ip.dev b :=
    fun b hb hs => (bitSet_setBlock hfs hnb b (Nat.div_le_div_right (le_of_lt hb))).mpr hs
  have hblk : ∀ x, x < MAXFILE →
      blockAt (setEntry st ip.dev (ip.addrs NDIRECT) (bn - NDIRECT) r) ip x =
        if x = bn then r else blockAt st ip x := by
    intro x hx
    by_cases hx1 : x < NDIRECT
    · rw [blockAt_direct _ _ _ hx1, blockAt_direct _ _ _ hx1, if_neg (by omega)]
    · rw [blockAt_indirect _ _ _ (by omega) hi, blockAt_indirect _ _ _ (by omega) hi]
      unfold setEntry
      rw [setBlock_same]
      by_cases hxb : x = bn
      · rw [if_pos hxb, hxb, getU32_setU32_same _ _ _ hrU]
      · rw [if_neg hxb, getU32_setU32_other _ _ _ _ (by omega)]
  refine ⟨hblk, hfs2, hok.record_in_area, hok.size_le, ?_, ?_, ?_, ?_⟩
  · intro _
    exact ⟨i1, i2, hbs _ i2 i3⟩
  · intro x hx h
    rw [hblk x hx] at h ⊢
    by_cases hxb : x = bn
    · rw [if_pos hxb]; exact ⟨hf.data, hf.lt_size, hbs _ hf.lt_size hf.used⟩
    · rw [if_neg hxb] at h ⊢
      obtain ⟨j1, j2, j3⟩ := hok.blk_data x hx h
      exact ⟨j1, j2, hbs _ j2 j3⟩
  · intro x y hx hy h he
    rw [hblk x hx] at h he
    rw [hblk y hy] at he
    by_cases hxb : x = bn
    · by_cases hyb : y = bn
      · rw [hxb, hyb]
      · rw [if_pos hxb, if_neg hyb] at he
        exact absurd he.symm (hf.not_blk y hy)
    · by_cases hyb : y = bn
      · rw [if_neg hxb, if_pos hyb] at he
        exact absurd he (hf.not_blk x hx)
      · rw [if_neg hxb] at h
        rw [if_neg hxb, if_neg hyb] at he
        exact hok.blk_inj x y hx hy h he
  · intro x hx h
    rw [hblk x hx] at h ⊢
    by_cases hxb : x = bn
    · rw [if_pos hxb]; exact hf.not_ind.symm
    · rw [if_neg hxb] at h ⊢; exact hok.blk_ne_ind x hx h

/-! ## `bmap` -/

theorem allocated_keeps {st : FS} {dev r : Nat} (hfs : FsOk st dev) (hr : r < st.sb.size)
    (b : Nat) (hb : dataStart st.sb ≤ b) (hne : b ≠ r) :
    (allocated st dev r).disk dev b = st.disk dev b := by
  have hrq : r / BPB ≤ st.sb.size / BPB := Nat.div_le_div_right (le_of_lt hr)
  obtain ⟨r1, r2, r3, r4⟩ := hfs.bmap_block_lt hrq
  exact allocated_other b hne (by omega)

theorem inode_eta (ip : Inode) : ip = { ip with addrs := ip.addrs } := rfl

/-- A block that is already mapped is returned by `bmap` without any change
of state. -/
theorem bmap_mapped {st : FS} {ip : Inode} {bn : Nat} (hok : InodeOk st ip) (hbn : bn < MAXFILE)
    (hm : blockAt st ip bn ≠ 0) : bmap st ip bn = Except.ok (blockAt st ip bn, st, ip) := by
  unfold bmap log_write
  by_cases h1 : bn < NDIRECT
  · rw [blockAt_direct _ _ _ h1] at hm ⊢
    rw [if_pos h1, if_neg hm]
    rfl
  · have hi : ip.addrs NDIRECT ≠ 0 := by
      intro h0
      exact hm (blockAt_no_indirect st ip bn (by omega) h0)
    rw [blockAt_indirect _ _ _ (by omega) hi] at hm ⊢
    obtain ⟨i1, i2, i3⟩ := hok.ind_data hi
    have hlt : ip.addrs NDIRECT < FSSIZE := by have := hok.fs.size_le; omega
    rw [if_neg h1]
    simp only [MAXFILE_eq, NDIRECT_eq] at hbn h1
    simp only [NDIRECT_eq, NINDIRECT_eq] at hi hm hlt ⊢
    rw [if_pos (by omega), if_neg hi]
    simp only [pure_eq_ok, bind_ok_eq]
    rw [bread_ok hok.fs.disk_present hlt]
    simp only [bind_ok_eq]
    rw [if_neg hm]

theorem newlyOwned_self (st : FS) (ip : Inode) (b : Nat) : ¬ newlyOwned st ip st ip b := by
  rintro ⟨hb, ⟨x, -, h1, h2⟩ | ⟨h1, h2⟩⟩
  · exact hb (by rw [← h2, h1])
  · exact hb (by rw [← h2, h1])

/-- The blocks acquired by a `bmap` that had to map block `bn`: the block it
returns and, when there was none, the indirect block. -/
theorem newlyOwned_bmap {st : FS} {ip : Inode} {st2 : FS} {ip2 : Inode} {bn a : Nat}
    (hbn : bn < MAXFILE) (hm0 : blockAt st ip bn = 0) (ha : a ≠ 0)
    (haddr : blockAt st2 ip2 bn = a)
    (hothers : ∀ x, x < MAXFILE → x ≠ bn → blockAt st2 ip2 x = blockAt st ip x) (b : Nat) :
    newlyOwned st ip st2 ip2 b ↔
      (b = a ∨ (b ≠ 0 ∧ ip.addrs NDIRECT = 0 ∧ ip2.addrs NDIRECT = b)) := by
  constructor
  · rintro ⟨hb, ⟨x, hx, h1, h2⟩ | ⟨h1, h2⟩⟩
    · by_cases hxb : x = bn
      · left; rw [← h2, hxb, haddr]
      · exact absurd (by rw [← h2, hothers x hx hxb, h1]) hb
    · right; exact ⟨hb, h1, h2⟩
  · rintro (h | ⟨hb, h1, h2⟩)
    · exact ⟨by rw [h]; exact ha, Or.inl ⟨bn, hbn, hm0, by rw [h]; exact haddr⟩⟩
    · exact ⟨hb, Or.inr ⟨h1, h2⟩⟩

theorem allocated_bits {st : FS} {dev r : Nat} (hfs : FsOk st dev) (hr : r < st.sb.size)
    (hc : ¬ bitSet st dev r) (b : Nat) (hb : b < st.sb.size) :
    bitSet (allocated st dev r) dev b ↔ (bitSet st dev b ∨ b = r) :=
  allocated_bitSet hfs hr hc b (Nat.div_le_div_right (le_of_lt hb))

/-- The effect of a successful `bmap` on a well-formed inode. -/
theorem bmap_post {st : FS} {ip : Inode} {bn a : Nat} {st2 : FS} {ip2 : Inode}
    (hok : InodeOk st ip) (hbn : bn < MAXFILE)
    (h : bmap st ip bn = Except.ok (a, st2, ip2)) : BmapPost st ip bn a st2 ip2 := by
  have hfs := hok.fs
  have hds := hfs.dataStart_pos
  by_cases hm : blockAt st ip bn ≠ 0
  · rw [bmap_mapped hok hbn hm] at h
    simp only [Except.ok.injEq, Prod.mk.injEq] at h
    obtain ⟨rfl, rfl, rfl⟩ := h
    exact { ok := hok, addr := rfl, addr_ne := hm, others := fun _ _ _ => rfl,
            fields := inode_eta _, sb := rfl, content := fun _ _ _ => rfl,
            mapped := fun _ => ⟨rfl, rfl⟩, zeroed := fun h0 => absurd h0 hm,
            ind_kept := fun _ => rfl, ind_direct := fun _ => rfl,
            bits := fun b _ => ⟨fun h => Or.inl h,
              fun h => h.elim id (fun h2 => absurd h2 (newlyOwned_self _ _ b))⟩ }
  · have hm0 : blockAt st ip bn = 0 := not_not.mp hm
    unfold bmap log_write at h
    by_cases h1 : bn < NDIRECT
    · rw [if_pos h1] at h
      have h2 : ip.addrs bn = 0 := by rw [← blockAt_direct st ip bn h1]; exact hm0
      rw [if_pos h2] at h
      obtain ⟨⟨r, s⟩, hb, h⟩ := bind_eq_ok h
      simp only [pure_eq_ok, Except.ok.injEq, Prod.mk.injEq] at h
      obtain ⟨rfl, rfl, rfl⟩ := h
      obtain ⟨b1, b2, b3, b4⟩ := balloc_eq_ok hfs hb
      subst b4
      obtain ⟨c1, c2, c3⟩ := alloc_fresh hok b1 b2
      obtain ⟨d1, d2⟩ := setDirect_ok c2 c3 h1
      have hrd := hfs.clear_is_data b2
      refine { ok := d2, addr := by rw [d1, if_pos rfl], addr_ne := by omega,
               others := ?_, fields := rfl, sb := rfl, content := ?_,
               mapped := fun h => absurd h hm, zeroed := ?_, ind_kept := ?_, ind_direct := ?_,
               bits := ?_ }
      · intro x _ hx
        rw [d1, if_neg hx, c1]
      · intro x hx hxm
        obtain ⟨j1, j2, j3⟩ := hok.blk_data x hx hxm
        exact allocated_keeps hfs b1 _ j1 (fun he => b2 (by rw [← he]; exact j3))
      · intro _ i hi
        exact allocated_zero i hi
      · intro _
        rw [setAddr_addrs, if_neg (by omega)]
      · intro _
        rw [setAddr_addrs, if_neg (by omega)]
      · intro b hb
        have hind : (ip.setAddr bn r).addrs NDIRECT = ip.addrs NDIRECT := by
          rw [setAddr_addrs, if_neg (by omega)]
        rw [allocated_bits hfs b1 b2 b hb, @newlyOwned_bmap st ip _ _ bn r hbn hm0 (by omega)
          (by rw [d1, if_pos rfl]) (fun x _ hx => by rw [d1, if_neg hx, c1]) b, hind]
        constructor
        · rintro (h | h)
          · exact Or.inl h
          · exact Or.inr (Or.inl h)
        · rintro (h | h | ⟨h3, h4, h5⟩)
          · exact Or.inl h
          · exact Or.inr h
          · exact absurd (by rw [← h5, h4]) h3
    · rw [if_neg h1] at h
      have hbn1 : bn - NDIRECT < NINDIRECT := by
        simp only [MAXFILE_eq, NDIRECT_eq, NINDIRECT_eq] at *; omega
      simp only [] at h
      rw [if_pos hbn1] at h
      by_cases hi : ip.addrs NDIRECT = 0
      · -- the indirect block and the entry are both allocated
        rw [if_pos hi] at h
        obtain ⟨⟨a1, s1, ip1⟩, hb, h⟩ := bind_eq_ok h
        obtain ⟨⟨r, s⟩, hb1, hb⟩ := bind_eq_ok hb
        simp only [pure_eq_ok, Except.ok.injEq, Prod.mk.injEq] at hb
        obtain ⟨rfl, rfl, rfl⟩ := hb
        obtain ⟨b1, b2, b3, b4⟩ := balloc_eq_ok hfs hb1
        subst b4
        obtain ⟨c1, c2, c3⟩ := alloc_fresh hok b1 b2
        obtain ⟨d1, d2⟩ := setIndirectPtr_ok c2 c3 hi (fun i hi2 => allocated_zero i hi2)
        have hrd := hfs.clear_is_data b2
        simp only [setAddr_dev] at h
        have hlt : r < FSSIZE := by have := hfs.size_le; omega
        rw [bread_ok (by simpa [allocated_havedisk1] using hfs.disk_present) hlt] at h
        simp only [bind_ok_eq] at h
        have hz : getU32 ((allocated st ip.dev r).disk ip.dev r) (bn - NDIRECT) = 0 :=
          getU32_zero _ _ hbn1 (fun i hi2 => allocated_zero i hi2)
        rw [if_pos hz] at h
        obtain ⟨⟨r2, s2⟩, hb2, h⟩ := bind_eq_ok h
        simp only [pure_eq_ok, Except.ok.injEq, Prod.mk.injEq] at h
        obtain ⟨rfl, rfl, rfl⟩ := h
        have hfs1 : FsOk (allocated st ip.dev r) ip.dev := d2.fs
        obtain ⟨e1, e2, e3, e4⟩ := balloc_eq_ok hfs1 hb2
        subst e4
        have e1b : r2 < st.sb.size := e1
        obtain ⟨f1, f2, f3⟩ := @alloc_fresh _ (ip.setAddr NDIRECT r) _ d2 e1 e2
        have hind : (ip.setAddr NDIRECT r).addrs NDIRECT = r := by
          rw [setAddr_addrs, if_pos rfl]
        have hr0 : r ≠ 0 := by omega
        obtain ⟨g1, g2⟩ := @setIndirectEntry_ok _ _ _ bn f2 f3 (by rw [hind]; exact hr0) (by omega)
        rw [hind] at g1 g2
        simp only [setAddr_dev] at g1 g2 f1 f3
        unfold setEntry at g1 g2
        have hr2d := hfs1.clear_is_data e2
        have hr2d2 : dataStart st.sb ≤ r2 := hr2d
        have hne : r2 ≠ r := fun he => f3.not_ind (by rw [hind]; exact he.symm)
        refine { ok := g2, addr := by rw [g1 bn hbn, if_pos rfl], addr_ne := by omega,
                 others := ?_, fields := rfl, sb := rfl, content := ?_,
                 mapped := fun h => absurd h hm, zeroed := ?_, ind_kept := fun h => absurd hi h,
                 ind_direct := fun h => absurd h h1, bits := ?_ }
        · intro x hx hxb
          rw [g1 x hx, if_neg hxb, f1, d1 x hx, c1]
        · intro x hx hxm
          obtain ⟨j1, j2, j3⟩ := hok.blk_data x hx hxm
          have n1 : blockAt st ip x ≠ r := fun he => b2 (by rw [← he]; exact j3)
          have n2 : blockAt st ip x ≠ r2 := by
            intro he
            apply e2
            rw [← he]
            have hh := (c2.blk_data x hx (by rw [c1]; exact hxm)).2.2
            rw [c1] at hh
            exact hh
          rw [setBlock_other _ _ _ _ _ _ (Or.inr n1), allocated_keeps hfs1 e1 _ j1 n2,
            allocated_keeps hfs b1 _ j1 n1]
        · intro _ i hi2
          rw [setBlock_other _ _ _ _ _ _ (Or.inr hne)]
          exact allocated_zero i hi2
        · intro b hb
          have hnb := @not_bitmap_of_data (allocated (allocated st ip.dev r) ip.dev r2) r hrd
          have hfs2 : FsOk (allocated (allocated st ip.dev r) ip.dev r2) ip.dev := f2.fs
          rw [bitSet_setBlock hfs2 hnb b (Nat.div_le_div_right (le_of_lt hb)),
            allocated_bits hfs1 e1 e2 b hb, allocated_bits hfs b1 b2 b hb,
            @newlyOwned_bmap st ip _ _ bn r2 hbn hm0 (by omega) (by rw [g1 bn hbn, if_pos rfl])
              (fun x hx hxb => by rw [g1 x hx, if_neg hxb, f1, d1 x hx, c1]) b, hind]
          constructor
          · rintro ((h | h) | h)
            · exact Or.inl h
            · exact Or.inr (Or.inr ⟨by omega, hi, h.symm⟩)
            · exact Or.inr (Or.inl h)
          · rintro (h | h | ⟨h3, h4, h5⟩)
            · exact Or.inl (Or.inl h)
            · exact Or.inr h
            · exact Or.inl (Or.inr h5.symm)
      · -- only the entry is allocated
        rw [if_neg hi] at h
        simp only [pure_eq_ok, bind_ok_eq] at h
        obtain ⟨i1, i2, i3⟩ := hok.ind_data hi
        have hlt : ip.addrs NDIRECT < FSSIZE := by have := hfs.size_le; omega
        rw [bread_ok hfs.disk_present hlt] at h
        simp only [bind_ok_eq] at h
        have hz : getU32 (st.disk ip.dev (ip.addrs NDIRECT)) (bn - NDIRECT) = 0 := by
          rw [← blockAt_indirect st ip bn (by omega) hi]; exact hm0
        rw [if_pos hz] at h
        obtain ⟨⟨r, s⟩, hb, h⟩ := bind_eq_ok h
        simp only [pure_eq_ok, Except.ok.injEq, Prod.mk.injEq] at h
        obtain ⟨rfl, rfl, rfl⟩ := h
        obtain ⟨b1, b2, b3, b4⟩ := balloc_eq_ok hfs hb
        subst b4
        obtain ⟨c1, c2, c3⟩ := alloc_fresh hok b1 b2
        obtain ⟨g1, g2⟩ := @setIndirectEntry_ok _ _ _ bn c2 c3 hi (by omega)
        unfold setEntry at g1 g2
        have hrd := hfs.clear_is_data b2
        have hne : r ≠ ip.addrs NDIRECT := fun he => c3.not_ind he.symm
        refine { ok := g2, addr := by rw [g1 bn hbn, if_pos rfl], addr_ne := by omega,
                 others := ?_, fields := inode_eta _, sb := rfl, content := ?_,
                 mapped := fun h => absurd h hm, zeroed := ?_, ind_kept := fun _ => rfl,
                 ind_direct := fun _ => rfl, bits := ?_ }
        · intro x hx hxb
          rw [g1 x hx, if_neg hxb, c1]
        · intro x hx hxm
          obtain ⟨j1, j2, j3⟩ := hok.blk_data x hx hxm
          have n1 : blockAt st ip x ≠ r := fun he => b2 (by rw [← he]; exact j3)
          rw [setBlock_other _ _ _ _ _ _ (Or.inr (hok.blk_ne_ind x hx hxm)),
            allocated_keeps hfs b1 _ j1 n1]
        · intro _ i hi2
          rw [setBlock_other _ _ _ _ _ _ (Or.inr hne)]
          exact allocated_zero i hi2
        · intro b hb
          have hnb := @not_bitmap_of_data (allocated st ip.dev r) (ip.addrs NDIRECT) i1
          rw [bitSet_setBlock c2.fs hnb b (Nat.div_le_div_right (le_of_lt hb)),
            allocated_bits hfs b1 b2 b hb,
            @newlyOwned_bmap st ip _ _ bn r hbn hm0 (by omega) (by rw [g1 bn hbn, if_pos rfl])
              (fun x hx hxb => by rw [g1 x hx, if_neg hxb, c1]) b]
          constructor
          · rintro (h | h)
            · exact Or.inl h
            · exact Or.inr (Or.inl h)
          · rintro (h | h | ⟨-, h4, -⟩)
            · exact Or.inl h
            · exact Or.inr h
            · exact absurd h4 hi

/-! ## One iteration of the copy loop of `writei` -/

theorem BmapPost.dev_eq {st : FS} {ip : Inode} {bn a : Nat} {st2 : FS} {ip2 : Inode}
    (h : BmapPost st ip bn a st2 ip2) : ip2.dev = ip.dev := by
  rw [h.fields]

theorem BmapPost.size_eq {st : FS} {ip : Inode} {bn a : Nat} {st2 : FS} {ip2 : Inode}
    (h : BmapPost st ip bn a st2 ip2) : ip2.size = ip.size := by
  rw [h.fields]

theorem BmapPost.kept {st : FS} {ip : Inode} {bn a : Nat} {st2 : FS} {ip2 : Inode}
    (h : BmapPost st ip bn a st2 ip2) (x : Nat) (hx : x < MAXFILE) (hm : blockAt st ip x ≠ 0) :
    blockAt st2 ip2 x = blockAt st ip x := by
  by_cases hxb : x = bn
  · subst hxb
    obtain ⟨e1, e2⟩ := h.mapped hm
    rw [e1, e2]
  · exact h.others x hx hxb

theorem BmapPost.addr_data {st : FS} {ip : Inode} {bn a : Nat} {st2 : FS} {ip2 : Inode}
    (h : BmapPost st ip bn a st2 ip2) (hbn : bn < MAXFILE) :
    dataStart st2.sb ≤ a ∧ a < st2.sb.size ∧ a < FSSIZE ∧ a ≠ 1 ∧
      (ip2.addrs NDIRECT ≠ 0 → a ≠ ip2.addrs NDIRECT) := by
  have h1 := h.ok.blk_data bn hbn (by rw [h.addr]; exact h.addr_ne)
  have h2 := h.ok.blk_ne_ind bn hbn (by rw [h.addr]; exact h.addr_ne)
  rw [h.addr] at h1 h2
  have h3 := h.ok.fs.size_le
  have h4 := h.ok.fs.dataStart_pos
  exact ⟨h1.1, h1.2.1, by omega, by omega, fun _ => h2⟩

/-- The effect of `bmap` followed by a store of `m` bytes at offset `o` of the
block it returned. -/
theorem write_step {st : FS} {ip : Inode} {bn a : Nat} {st1 : FS} {ip1 : Inode}
    (hok : InodeOk st ip) (hbn : bn < MAXFILE) (hb : bmap st ip bn = Except.ok (a, st1, ip1))
    (o m tot : Nat) (src : Mem) :
    InodeOk (st1.setBlock ip1.dev a (memmove (st1.disk ip1.dev a) o src tot m)) ip1 ∧
    (∀ x, x < MAXFILE → blockAt st ip x ≠ 0 →
      blockAt (st1.setBlock ip1.dev a (memmove (st1.disk ip1.dev a) o src tot m)) ip1 x =
        blockAt st ip x) ∧
    (∀ x, x < MAXFILE → x ≠ bn →
      blockAt (st1.setBlock ip1.dev a (memmove (st1.disk ip1.dev a) o src tot m)) ip1 x =
        blockAt st ip x) ∧
    blockAt (st1.setBlock ip1.dev a (memmove (st1.disk ip1.dev a) o src tot m)) ip1 bn ≠ 0 ∧
    (∀ p, p / BSIZE = bn → o ≤ p % BSIZE → p % BSIZE < o + m →
      fileByte (st1.setBlock ip1.dev a (memmove (st1.disk ip1.dev a) o src tot m)) ip1 p =
        src (tot + (p % BSIZE - o))) ∧
    (∀ p, p / BSIZE < MAXFILE → blockAt st ip (p / BSIZE) ≠ 0 →
      (p / BSIZE = bn → (p % BSIZE < o ∨ o + m ≤ p % BSIZE)) →
      fileByte (st1.setBlock ip1.dev a (memmove (st1.disk ip1.dev a) o src tot m)) ip1 p =
        fileByte st ip p) ∧
    (∀ b, b < st.sb.size →
      (bitSet (st1.setBlock ip1.dev a (memmove (st1.disk ip1.dev a) o src tot m)) ip.dev b ↔
        (bitSet st ip.dev b ∨ newlyOwned st ip
          (st1.setBlock ip1.dev a (memmove (st1.disk ip1.dev a) o src tot m)) ip1 b))) := by
  have hp := bmap_post hok hbn hb
  obtain ⟨a1, a2, a3, a4, a5⟩ := hp.addr_data hbn
  obtain ⟨hblk, hok2⟩ := inodeOk_setBlock (d := memmove (st1.disk ip1.dev a) o src tot m)
    hp.ok a4 (not_bitmap_of_data a1) a5
  have hdev := hp.dev_eq
  refine ⟨hok2, ?_, ?_, ?_, ?_, ?_, ?_⟩
  · intro x hx hm
    rw [hblk, hp.kept x hx hm]
  · intro x hx hxb
    rw [hblk, hp.others x hx hxb]
  · rw [hblk, hp.addr]; exact hp.addr_ne
  · intro p hpb ho1 ho2
    unfold fileByte
    rw [hblk, hpb, hp.addr, setBlock_same]
    unfold memmove
    rw [if_pos ⟨ho1, ho2⟩]
  · intro p hpx hm hout
    unfold fileByte
    rw [hblk, hp.kept _ hpx hm, hdev]
    by_cases hpb : p / BSIZE = bn
    · obtain ⟨e1, e2⟩ := hp.mapped (by rw [← hpb]; exact hm)
      have ha : blockAt st ip (p / BSIZE) = a := by
        rw [← hp.addr, e1, e2, hpb]
      rw [ha, ← hdev, setBlock_same, e1, e2]
      unfold memmove
      rw [if_neg (by have := hout hpb; omega)]
    · have hne : blockAt st ip (p / BSIZE) ≠ a := by
        intro he
        apply hpb
        have h1 := hp.kept _ hpx hm
        exact hp.ok.blk_inj _ _ hpx hbn (by rw [h1]; exact hm) (by rw [h1, he, hp.addr])
      rw [← hdev, setBlock_other _ _ _ _ _ _ (Or.inr hne), hdev]
      rw [hp.content _ hpx hm]
  · intro b hb
    have hb1 : b < st1.sb.size := by rw [hp.sb]; exact hb
    have e1 := bitSet_setBlock (d := memmove (st1.disk ip1.dev a) o src tot m) hp.ok.fs
      (not_bitmap_of_data a1) b (Nat.div_le_div_right (le_of_lt hb1))
    have e2 := hp.bits b hb
    rw [← hdev] at e2 ⊢
    rw [e1, e2]
    unfold newlyOwned
    simp only [hblk]

/-! ## The copy loop of `writei` -/

theorem writePost_refl {st : FS} {ip : Inode} (src : Mem) {tot n : Nat} (off : Nat)
    (hok : InodeOk st ip) (hle : n ≤ tot) : WritePost st ip src tot off n st ip off :=
  { ok := hok, off_eq := by omega, fields := inode_eta _, sb := rfl,
    written := fun i h1 h2 => absurd h2 (by omega),
    kept_map := fun _ _ _ => rfl, outside_map := fun _ _ _ => rfl,
    kept_data := fun _ _ _ _ => rfl, ind_direct := fun _ => rfl, ind_kept := fun _ => rfl,
    bits := fun b _ => ⟨fun h => Or.inl h,
      fun h => h.elim id (fun h2 => absurd h2 (newlyOwned_self _ _ b))⟩,
    nothing := fun _ => ⟨rfl, rfl⟩ }

/-- The blocks acquired over two steps are those acquired in the first or in
the second, when neither step unmaps or remaps a block. -/
theorem newlyOwned_trans {st st1 st2 : FS} {ip ip1 ip2 : Inode}
    (k1 : ∀ x, x < MAXFILE → blockAt st ip x ≠ 0 → blockAt st1 ip1 x = blockAt st ip x)
    (k2 : ∀ x, x < MAXFILE → blockAt st1 ip1 x ≠ 0 → blockAt st2 ip2 x = blockAt st1 ip1 x)
    (i1 : ip.addrs NDIRECT ≠ 0 → ip1.addrs NDIRECT = ip.addrs NDIRECT)
    (i2 : ip1.addrs NDIRECT ≠ 0 → ip2.addrs NDIRECT = ip1.addrs NDIRECT) (b : Nat) :
    newlyOwned st ip st2 ip2 b ↔ (newlyOwned st ip st1 ip1 b ∨ newlyOwned st1 ip1 st2 ip2 b) := by
  constructor
  · rintro ⟨hb, ⟨x, hx, h1, h2⟩ | ⟨h1, h2⟩⟩
    · by_cases hm : blockAt st1 ip1 x = 0
      · exact Or.inr ⟨hb, Or.inl ⟨x, hx, hm, h2⟩⟩
      · exact Or.inl ⟨hb, Or.inl ⟨x, hx, h1, by rw [← k2 x hx hm, h2]⟩⟩
    · by_cases hm : ip1.addrs NDIRECT = 0
      · exact Or.inr ⟨hb, Or.inr ⟨hm, h2⟩⟩
      · exact Or.inl ⟨hb, Or.inr ⟨h1, by rw [← i2 hm, h2]⟩⟩
  · rintro (⟨hb, ⟨x, hx, h1, h2⟩ | ⟨h1, h2⟩⟩ | ⟨hb, ⟨x, hx, h1, h2⟩ | ⟨h1, h2⟩⟩)
    · exact ⟨hb, Or.inl ⟨x, hx, h1, by rw [k2 x hx (by rw [h2]; exact hb), h2]⟩⟩
    · exact ⟨hb, Or.inr ⟨h1, by rw [i2 (by rw [h2]; exact hb), h2]⟩⟩
    · refine ⟨hb, Or.inl ⟨x, hx, ?_, h2⟩⟩
      by_contra hm
      exact hm (by rw [← k1 x hx hm, h1])
    · refine ⟨hb, Or.inr ⟨?_, h2⟩⟩
      by_contra hm
      exact hm (by rw [← i1 hm, h1])

theorem inode_fields_trans {ip ip1 ip2 : Inode} (h1 : ip1 = { ip with addrs := ip1.addrs })
    (h2 : ip2 = { ip1 with addrs := ip2.addrs }) : ip2 = { ip with addrs := ip2.addrs } := by
  rw [h2, h1]

theorem writeiLoop_post {src : Mem} {n : Nat} : ∀ (k : Nat) (st : FS) (ip : Inode)
    (tot off : Nat) (st2 : FS) (ip2 : Inode) (off2 : Nat),
    InodeOk st ip → n - tot ≤ k → off + (n - tot) ≤ MAXFILE * BSIZE →
    writeiLoop src n k st ip tot off = Except.ok (st2, ip2, off2) →
    WritePost st ip src tot off n st2 ip2 off2 := by
  intro k
  induction k with
  | zero =>
    intro st ip tot off st2 ip2 off2 hok hk hoff h
    have hle : n ≤ tot := by omega
    simp only [writeiLoop, if_neg (by omega : ¬ tot < n), Except.ok.injEq, Prod.mk.injEq] at h
    obtain ⟨rfl, rfl, rfl⟩ := h
    exact writePost_refl src off hok hle
  | succ k ih =>
    intro st ip tot off st2 ip2 off2 hok hk hoff h
    unfold writeiLoop log_write at h
    by_cases hlt : tot < n
    · rw [if_pos hlt] at h
      obtain ⟨⟨a, st1, ip1⟩, hb, h⟩ := bind_eq_ok h
      simp only at h
      obtain ⟨data, hd, h⟩ := bind_eq_ok h
      obtain ⟨hdata, -, -⟩ := bread_eq_ok hd
      subst hdata
      obtain ⟨m, hm⟩ : ∃ m, m = min (n - tot) (BSIZE - off % BSIZE) := ⟨_, rfl⟩
      rw [← hm] at h
      have hm1 : 1 ≤ m := by simp only [BSIZE_eq] at hm; omega
      have hm2 : m ≤ n - tot := by omega
      have hm3 : off % 512 + m ≤ 512 := by simp only [BSIZE_eq] at hm; omega
      have hoff2 : off + (n - tot) ≤ 140 * 512 := by
        simpa only [MAXFILE_eq, BSIZE_eq] using hoff
      have hbn : off / BSIZE < MAXFILE := by
        simp only [MAXFILE_eq, BSIZE_eq]; omega
      obtain ⟨s1, s2, s3, s4, s5, s6, s7⟩ := write_step hok hbn hb (off % BSIZE) m tot src
      have hp := bmap_post hok hbn hb
      have hih := ih _ ip1 (tot + m) (off + m) st2 ip2 off2 s1 (by omega)
        (by simp only [MAXFILE_eq, BSIZE_eq]; omega) h
      refine { ok := hih.ok, off_eq := ?_, fields := inode_fields_trans hp.fields hih.fields,
               sb := ?_, written := ?_, kept_map := ?_, outside_map := ?_, kept_data := ?_,
               ind_direct := ?_, ind_kept := ?_, bits := ?_,
               nothing := fun hle => absurd hlt (by omega) }
      · rw [hih.off_eq]; omega
      · rw [hih.sb, setBlock_sb, hp.sb]
      · intro i hi1 hi2
        by_cases hi3 : i < tot + m
        · have hpb : (off + (i - tot)) / BSIZE = off / BSIZE := by
            simp only [BSIZE_eq]; omega
          have hpm : (off + (i - tot)) % BSIZE = off % BSIZE + (i - tot) := by
            simp only [BSIZE_eq]; omega
          have hmap : blockAt st2 ip2 (off / BSIZE) ≠ 0 := by
            rw [hih.kept_map _ hbn s4]; exact s4
          refine ⟨by rw [hpb]; exact hmap, ?_⟩
          rw [hih.kept_data (off + (i - tot)) (by simp only [MAXFILE_eq, BSIZE_eq]; omega)
            (Or.inl (by omega)) (by rw [hpb]; exact s4)]
          rw [s5 _ hpb (by rw [hpm]; omega) (by rw [hpm]; omega), hpm]
          congr 1
          omega
        · have he : off + m + (i - (tot + m)) = off + (i - tot) := by omega
          have hw := hih.written i (by omega) hi2
          rw [he] at hw
          exact hw
      · intro x hx hxm
        rw [hih.kept_map x hx (by rw [s2 x hx hxm]; exact hxm), s2 x hx hxm]
      · intro x hx hout
        have hxb : x ≠ off / BSIZE := by
          have := hout tot (le_refl _) hlt
          intro he
          apply this
          rw [he]
          simp
        rw [hih.outside_map x hx ?_, s3 x hx hxb]
        intro i hi1 hi2
        have he : off + m + (i - (tot + m)) = off + (i - tot) := by omega
        rw [he]
        exact hout i (by omega) hi2
      · intro p hp1 hp2 hpm
        have hpx : p / BSIZE < MAXFILE := by
          simp only [MAXFILE_eq, BSIZE_eq] at hp1 ⊢; omega
        rw [hih.kept_data p hp1 (by omega) (by rw [s2 _ hpx hpm]; exact hpm)]
        apply s6 p hpx hpm
        intro hpb
        simp only [BSIZE_eq] at hpb ⊢
        omega
      · intro hnd
        have hnd2 : off + (n - tot) ≤ 12 * 512 := by
          simpa only [NDIRECT_eq, BSIZE_eq] using hnd
        rw [hih.ind_direct (by simp only [NDIRECT_eq, BSIZE_eq]; omega)]
        exact hp.ind_direct (by simp only [NDIRECT_eq, BSIZE_eq]; omega)
      · intro hi
        have e1 := hp.ind_kept hi
        rw [hih.ind_kept (by rw [e1]; exact hi), e1]
      · intro b hb
        have hb1 : b < (st1.setBlock ip1.dev a
            (memmove (st1.disk ip1.dev a) (off % BSIZE) src tot m)).sb.size := by
          rw [setBlock_sb, hp.sb]; exact hb
        have e1 := hih.bits b hb1
        have e7 := s7 b hb
        rw [← hp.dev_eq] at e7 ⊢
        rw [e1, e7, newlyOwned_trans s2 hih.kept_map hp.ind_kept hih.ind_kept b]
        tauto
    · rw [if_neg hlt] at h
      simp only [Except.ok.injEq, Prod.mk.injEq] at h
      obtain ⟨rfl, rfl, rfl⟩ := h
      exact writePost_refl src off hok (by omega)

/-! ## `iupdate` and `writei` -/

theorem toInt32_small (n : Nat) (h : n < 2147483648) : toInt32 n = (n : Int) := by
  unfold toInt32
  have h1 : n % U32 = n := Nat.mod_eq_of_lt (by simp only [U32_eq]; omega)
  rw [h1, if_pos h]

theorem inodeOk_size {st : FS} {ip : Inode} (hok : InodeOk st ip) (s : Nat)
    (hs : s ≤ MAXFILE * BSIZE) : InodeOk st { ip with size := s } :=
  { fs := hok.fs, record_in_area := hok.record_in_area, size_le := hs,
    ind_data := hok.ind_data, blk_data := hok.blk_data, blk_inj := hok.blk_inj,
    blk_ne_ind := hok.blk_ne_ind }

theorem InodeOk.iblock {st : FS} {ip : Inode} (hok : InodeOk st ip) :
    IBLOCK ip.inum st.sb = ip.inum / IPB + st.sb.inodestart ∧
      IBLOCK ip.inum st.sb < st.sb.bmapstart ∧ IBLOCK ip.inum st.sb < FSSIZE ∧
      2 ≤ IBLOCK ip.inum st.sb := by
  have h1 := hok.record_in_area
  have h2 := hok.fs.size_le
  have h3 := hok.fs.data_in_image
  have h4 := hok.fs.inodes_after_super
  have h5 := Nat.zero_le (st.sb.size / BPB)
  unfold dataStart at h3
  unfold IBLOCK
  simp only [FSSIZE_eq, U32_eq, BPB_eq, IPB_eq] at *
  omega

/-- On a well-formed inode `iupdate` succeeds, stores only into the block of
the inode record, and so leaves the block map and the content of the file. -/
theorem iupdate_ok {st : FS} {ip : Inode} (hok : InodeOk st ip) :
    ∃ st2, iupdate st ip = Except.ok st2 ∧ InodeOk st2 ip ∧ st2.sb = st.sb ∧
      (∀ bn, blockAt st2 ip bn = blockAt st ip bn) ∧
      (∀ b, b ≠ IBLOCK ip.inum st.sb → st2.disk ip.dev b = st.disk ip.dev b) ∧
      (∀ b, b < st.sb.size → (bitSet st2 ip.dev b ↔ bitSet st ip.dev b)) := by
  obtain ⟨i1, i2, i3, i4⟩ := hok.iblock
  unfold iupdate log_write
  rw [bread_ok hok.fs.disk_present i3]
  simp only [bind_ok_eq, pure_eq_ok]
  refine ⟨_, rfl, ?_, rfl, ?_, ?_, fun b hb => bitSet_setBlock hok.fs (not_bitmap_of_lt i2) b
    (Nat.div_le_div_right (le_of_lt hb))⟩
  · refine (inodeOk_setBlock hok (by omega) (not_bitmap_of_lt i2) ?_).2
    intro hi
    have := (hok.ind_data hi).1
    unfold dataStart at this
    simp only [BPB_eq] at this
    omega
  · refine (inodeOk_setBlock hok (by omega) (not_bitmap_of_lt i2) ?_).1
    intro hi
    have := (hok.ind_data hi).1
    unfold dataStart at this
    simp only [BPB_eq] at this
    omega
  · intro b hb
    rw [setBlock_other _ _ _ _ _ _ (Or.inr hb)]

theorem fileByte_congr {st st2 : FS} {ip ip2 : Inode} (p : Nat) (hd : ip2.dev = ip.dev)
    (hb : blockAt st2 ip2 (p / BSIZE) = blockAt st ip (p / BSIZE))
    (hc : st2.disk ip.dev (blockAt st ip (p / BSIZE)) = st.disk ip.dev (blockAt st ip (p / BSIZE))) :
    fileByte st2 ip2 p = fileByte st ip p := by
  unfold fileByte
  rw [hb, hd, hc]

/-- The guard of `writei`: a regular inode, an offset beyond the end, a sum that
wraps, or an end beyond the largest file give -1 and no change. -/
theorem writei_reject (st : FS) (ip : Inode) (src : Mem) (off n : Nat) (ht : ip.type ≠ T_DEV)
    (hoff : off < U32) (hn : n < U32)
    (hg : off > ip.size ∨ U32 ≤ off + n ∨ off + n > MAXFILE * BSIZE) :
    writei st ip src off n = Except.ok (-1, st, ip) := by
  unfold writei
  rw [if_neg ht]
  by_cases h1 : off > ip.size ∨ (off + n) % U32 < off
  · rw [if_pos h1]
  · rw [if_neg h1]
    have h2 : (off + n) % U32 > MAXFILE * BSIZE := by
      simp only [U32_eq, MAXFILE_eq, BSIZE_eq] at *
      omega
    rw [if_pos h2]

/-- A call of `writei` on a well-formed regular inode that passes the guard and
returns: it returns `n` and establishes `WriteiPost`. -/
theorem writei_post {st : FS} {ip : Inode} {src : Mem} {off n : Nat} {r : Int} {st2 : FS}
    {ip2 : Inode} (hok : InodeOk st ip) (ht : ip.type ≠ T_DEV) (hoff : off ≤ ip.size)
    (hn : off + n ≤ MAXFILE * BSIZE)
    (h : writei st ip src off n = Except.ok (r, st2, ip2)) :
    r = (n : Int) ∧ WriteiPost st ip src off n st2 ip2 := by
  have hsz := hok.size_le
  have hn2 : off + n ≤ 140 * 512 := by simpa only [MAXFILE_eq, BSIZE_eq] using hn
  have hmod : (off + n) % U32 = off + n := Nat.mod_eq_of_lt (by simp only [U32_eq]; omega)
  unfold writei at h
  rw [if_neg ht, hmod, if_neg (by omega), if_neg (by omega)] at h
  obtain ⟨⟨st1, ip1, off1⟩, hl, h⟩ := bind_eq_ok h
  have hp := writeiLoop_post n st ip 0 off st1 ip1 off1 hok (by omega) (by simpa using hn) hl
  have hoff1 : off1 = off + n := by rw [hp.off_eq]; omega
  have hsize1 : ip1.size = ip.size := by rw [hp.fields]
  have hdev1 : ip1.dev = ip.dev := by rw [hp.fields]
  have hti : toInt32 n = (n : Int) := toInt32_small n (by omega)
  simp only at h
  by_cases hext : n > 0 ∧ off1 > ip1.size
  · rw [if_pos hext] at h
    obtain ⟨st3, hu, h⟩ := bind_eq_ok h
    simp only [pure_eq_ok, Except.ok.injEq, Prod.mk.injEq] at h
    obtain ⟨rfl, rfl, rfl⟩ := h
    have hok2 : InodeOk st1 { ip1 with size := off1 } :=
      inodeOk_size hp.ok off1 (by rw [hoff1]; exact hn)
    obtain ⟨st4, hu2, u1, u2, u3, u4, u5⟩ := iupdate_ok hok2
    rw [hu2] at hu
    simp only [Except.ok.injEq] at hu
    subst hu
    obtain ⟨b1, b2, b3, b4⟩ := hp.ok.iblock
    have hds : ∀ x, x < MAXFILE → blockAt st1 ip1 x ≠ 0 →
        st4.disk ip1.dev (blockAt st1 ip1 x) = st1.disk ip1.dev (blockAt st1 ip1 x) := by
      intro x hx hm
      apply u4
      have := (hp.ok.blk_data x hx hm).1
      unfold dataStart at this
      simp only [BPB_eq] at this
      show blockAt st1 ip1 x ≠ IBLOCK ip1.inum st1.sb
      omega
    have hfb : ∀ p, p / BSIZE < MAXFILE → blockAt st1 ip1 (p / BSIZE) ≠ 0 →
        fileByte st4 { ip1 with size := off1 } p = fileByte st1 ip1 p := by
      intro p hp1 hp2
      exact fileByte_congr p rfl (u3 _) (hds _ hp1 hp2)
    refine ⟨hti, { ok := u1, size := ?_, fields := ?_, sb := by rw [u2, hp.sb],
                   written := ?_, kept_map := ?_, outside_map := ?_, kept_data := ?_,
                   ind_direct := ?_, ind_kept := hp.ind_kept, bits := ?_,
                   nothing := fun h0 => absurd hext.1 (by omega) }⟩
    · show off1 = max ip.size (off + n)
      rw [hsize1] at hext
      omega
    · show ({ ip1 with size := off1 } : Inode) = { ip with addrs := ip1.addrs, size := off1 }
      rw [hp.fields]
    · intro i hi
      have hw := hp.written i (Nat.zero_le _) hi
      simp only [Nat.sub_zero] at hw
      refine ⟨by rw [u3]; exact hw.1, ?_⟩
      rw [hfb _ (by simp only [MAXFILE_eq, BSIZE_eq]; omega) hw.1]
      exact hw.2
    · intro x hx hm
      rw [u3]; exact hp.kept_map x hx hm
    · intro x hx hout
      rw [u3]
      exact hp.outside_map x hx (fun i _ hi => by simpa using hout i hi)
    · intro p hp1 hp2 hp3
      have hpx : p / BSIZE < MAXFILE := by
        simp only [MAXFILE_eq, BSIZE_eq] at hp1 ⊢; omega
      rw [hfb p hpx (by rw [hp.kept_map _ hpx hp3]; exact hp3)]
      exact hp.kept_data p hp1 (by omega) hp3
    · intro hnd
      exact hp.ind_direct (by omega)
    · intro b hb
      have e1 : bitSet st4 ip.dev b ↔ bitSet st1 ip.dev b := by
        have := u5 b (by rw [hp.sb]; exact hb)
        rw [← hdev1]
        exact this
      have hbl : ∀ x, blockAt st4 { ip1 with size := off1 } x = blockAt st1 ip1 x :=
        fun x => u3 x
      rw [e1, hp.bits b hb]
      unfold newlyOwned
      simp only [hbl]
  · rw [if_neg hext] at h
    simp only [pure_eq_ok, Except.ok.injEq, Prod.mk.injEq] at h
    obtain ⟨rfl, rfl, rfl⟩ := h
    refine ⟨hti, { ok := hp.ok, size := ?_, fields := ?_, sb := hp.sb,
                   written := ?_, kept_map := hp.kept_map, outside_map := ?_, kept_data := ?_,
                   ind_direct := ?_, ind_kept := hp.ind_kept, bits := hp.bits, nothing := ?_ }⟩
    · rw [hsize1]
      rw [hsize1] at hext
      by_cases h0 : n = 0
      · subst h0; simp; omega
      · have : ¬ off1 > ip.size := fun hh => hext ⟨by omega, hh⟩
        omega
    · rw [hp.fields]
    · intro i hi
      have hw := hp.written i (Nat.zero_le _) hi
      simpa only [Nat.sub_zero] using hw
    · intro x hx hout
      exact hp.outside_map x hx (fun i _ hi => by simpa using hout i hi)
    · intro p hp1 hp2 hp3
      exact hp.kept_data p hp1 (by omega) hp3
    · intro hnd
      exact hp.ind_direct (by omega)
    · intro h0
      exact hp.nothing (by omega)

/-! ## The copy loop of `readi` -/

/-- On mapped blocks the copy loop of `readi` returns, changes neither the
state nor the inode, and copies the bytes of the file into the buffer. -/
theorem readiLoop_mapped {n : Nat} : ∀ (k : Nat) (st : FS) (ip : Inode) (dst : Mem)
    (tot off : Nat), InodeOk st ip → n - tot ≤ k → off + (n - tot) ≤ MAXFILE * BSIZE →
    (∀ i, tot ≤ i → i < n → blockAt st ip ((off + (i - tot)) / BSIZE) ≠ 0) →
    readiLoop n k st ip dst tot off = Except.ok (st, ip,
      fun i => if tot ≤ i ∧ i < n then fileByte st ip (off + (i - tot)) else dst i) := by
  intro k
  induction k with
  | zero =>
    intro st ip dst tot off hok hk hoff hmap
    have hle : ¬ tot < n := by omega
    simp only [readiLoop, if_neg hle, Except.ok.injEq, Prod.mk.injEq, true_and]
    funext i
    rw [if_neg (by omega)]
  | succ k ih =>
    intro st ip dst tot off hok hk hoff hmap
    unfold readiLoop
    by_cases hlt : tot < n
    · rw [if_pos hlt]
      have hoff2 : off + (n - tot) ≤ 140 * 512 := by
        simpa only [MAXFILE_eq, BSIZE_eq] using hoff
      have hbn : off / BSIZE < MAXFILE := by
        simp only [MAXFILE_eq, BSIZE_eq]; omega
      have hm0 : blockAt st ip (off / BSIZE) ≠ 0 := by
        have := hmap tot (le_refl _) hlt
        simpa using this
      rw [bmap_mapped hok hbn hm0]
      simp only [bind_ok_eq]
      obtain ⟨j1, j2, j3⟩ := hok.blk_data _ hbn hm0
      rw [bread_ok hok.fs.disk_present (by have := hok.fs.size_le; omega)]
      simp only [bind_ok_eq]
      obtain ⟨m, hm⟩ : ∃ m, m = min (n - tot) (BSIZE - off % BSIZE) := ⟨_, rfl⟩
      rw [← hm]
      have hm1 : 1 ≤ m := by simp only [BSIZE_eq] at hm; omega
      have hm2 : m ≤ n - tot := by omega
      have hm3 : off % 512 + m ≤ 512 := by simp only [BSIZE_eq] at hm; omega
      rw [ih st ip _ (tot + m) (off + m) hok (by omega)
        (by simp only [MAXFILE_eq, BSIZE_eq]; omega) ?_]
      · simp only [Except.ok.injEq, Prod.mk.injEq, true_and]
        funext i
        by_cases hi1 : tot + m ≤ i ∧ i < n
        · rw [if_pos hi1, if_pos (by omega)]
          congr 1
          omega
        · rw [if_neg hi1]
          unfold memmove
          by_cases hi2 : tot ≤ i ∧ i < tot + m
          · rw [if_pos hi2, if_pos (by omega)]
            unfold fileByte
            have hpb : (off + (i - tot)) / BSIZE = off / BSIZE := by
              simp only [BSIZE_eq]; omega
            have hpm : (off + (i - tot)) % BSIZE = off % BSIZE + (i - tot) := by
              simp only [BSIZE_eq]; omega
            rw [hpb, hpm]
          · rw [if_neg hi2, if_neg (by omega)]
      · intro i hi1 hi2
        have he : off + m + (i - (tot + m)) = off + (i - tot) := by omega
        rw [he]
        exact hmap i (by omega) hi2
    · rw [if_neg hlt]
      simp only [Except.ok.injEq, Prod.mk.injEq, true_and]
      funext i
      rw [if_neg (by omega)]

/-- The guard of `readi`: an offset beyond the end or a sum that wraps give -1
and no change. -/
theorem readi_reject (st : FS) (ip : Inode) (dst : Mem) (off n : Nat) (ht : ip.type ≠ T_DEV)
    (hoff : off < U32) (hn : n < U32) (hg : off > ip.size ∨ U32 ≤ off + n) :
    readi st ip dst off n = Except.ok (-1, st, ip, dst) := by
  unfold readi
  rw [if_neg ht]
  have h1 : off > ip.size ∨ (off + n) % U32 < off := by
    simp only [U32_eq] at *
    omega
  rw [if_pos h1]

/-- A read inside a well-formed file without holes: `readi` returns the smaller
of `n` and `size - off`, changes nothing, and the buffer holds the file's
bytes from `off` on. -/
theorem readi_ok {st : FS} {ip : Inode} (dst : Mem) {off n : Nat} (hok : InodeOk st ip)
    (ht : ip.type ≠ T_DEV) (hoff : off ≤ ip.size) (hn : off + n < U32)
    (hmap : ∀ i, i < min n (ip.size - off) → blockAt st ip ((off + i) / BSIZE) ≠ 0) :
    readi st ip dst off n = Except.ok (((min n (ip.size - off) : Nat) : Int), st, ip,
      fun i => if i < min n (ip.size - off) then fileByte st ip (off + i) else dst i) := by
  have hsz := hok.size_le
  have hsz2 : ip.size ≤ 140 * 512 := by simpa only [MAXFILE_eq, BSIZE_eq] using hsz
  have hmod : (off + n) % U32 = off + n := Nat.mod_eq_of_lt hn
  unfold readi
  rw [if_neg ht, hmod, if_neg (by omega)]
  obtain ⟨n1, hn1⟩ : ∃ n1, n1 = (if off + n > ip.size then ip.size - off else n) := ⟨_, rfl⟩
  have hn1b : n1 = min n (ip.size - off) := by
    rw [hn1]; split_ifs <;> omega
  simp only
  rw [← hn1, hn1b]
  rw [readiLoop_mapped _ st ip dst 0 off hok (by omega)
    (by simp only [MAXFILE_eq, BSIZE_eq]; omega)
    (fun i _ hi => by simpa using hmap i hi)]
  simp only [bind_ok_eq, pure_eq_ok, Nat.sub_zero, Nat.zero_le, true_and]
  rw [toInt32_small _ (by omega)]

/-! ## Sample inodes -/

theorem retOf_eq_some {α : Type} {x : Except Panic (Int × α)} {r : Int}
    (h : retOf x = some r) : ∃ a, x = Except.ok (r, a) := by
  cases x with
  | error e => simp [retOf] at h
  | ok p =>
    obtain ⟨r2, a⟩ := p
    simp only [retOf, Option.some.injEq] at h
    exact ⟨a, by rw [h]⟩

theorem blockAt_no_addrs (st : FS) (ip : Inode) (h : ∀ i, i ≤ NDIRECT → ip.addrs i = 0)
    (bn : Nat) : blockAt st ip bn = 0 := by
  unfold blockAt
  split_ifs with h1 h2
  · exact h bn (by omega)
  · rfl
  · exact absurd (h NDIRECT (le_refl _)) h2

/-- An inode without blocks whose record lies in the inode area is well formed
in a well-formed file system. -/
theorem inodeOk_no_addrs {st : FS} {ip : Inode} (hfs : FsOk st ip.dev)
    (hrec : ip.inum / IPB + st.sb.inodestart < st.sb.bmapstart)
    (hsz : ip.size ≤ MAXFILE * BSIZE) (h : ∀ i, i ≤ NDIRECT → ip.addrs i = 0) :
    InodeOk st ip :=
  { fs := hfs, record_in_area := hrec, size_le := hsz,
    ind_data := fun hi => absurd (h NDIRECT (le_refl _)) hi,
    blk_data := fun bn _ hm => absurd (blockAt_no_addrs st ip h bn) hm,
    blk_inj := fun bn _ _ _ hm _ => absurd (blockAt_no_addrs st ip h bn) hm,
    blk_ne_ind := fun bn _ hm => absurd (blockAt_no_addrs st ip h bn) hm }

theorem freshFile_ok : InodeOk fs0 (freshFile 2) :=
  inodeOk_no_addrs fs0_ok (by decide) (by decide) (fun _ _ => rfl)

theorem freshFile_type (i : Nat) : (freshFile i).type ≠ T_DEV := by
  show T_FILE ≠ T_DEV
  decide

set_option maxRecDepth 100000 in
theorem writei_hello_ret :
    retOf (writei fs0 (freshFile 2) (memOf [104, 101, 108, 108, 111]) 0 5) = some 5 := by
  decide!

/-! ## Calls that are sure to return -/

/-- With a free block in the image `balloc` returns. -/
theorem balloc_total {st : FS} {dev b : Nat} (hfs : FsOk st dev) (hb : b < st.sb.size)
    (hc : ¬ bitSet st dev b) :
    ∃ r, balloc st dev = Except.ok (r, allocated st dev r) ∧ r < st.sb.size ∧
      ¬ bitSet st dev r := by
  cases h : balloc st dev with
  | error e => exact absurd ((balloc_eq_error hfs h).2 b hb) hc
  | ok p =>
    obtain ⟨r, st2⟩ := p
    obtain ⟨a1, a2, -, a4⟩ := balloc_eq_ok hfs h
    exact ⟨r, by rw [a4], a1, a2⟩

/-- With two free blocks in the image `bmap` returns for every block number
below `MAXFILE`. -/
theorem bmap_total {st : FS} {ip : Inode} {bn b1 b2 : Nat} (hok : InodeOk st ip)
    (hbn : bn < MAXFILE) (h1 : b1 < st.sb.size) (h2 : b2 < st.sb.size) (hne : b1 ≠ b2)
    (hc1 : ¬ bitSet st ip.dev b1) (hc2 : ¬ bitSet st ip.dev b2) :
    ∃ a st2 ip2, bmap st ip bn = Except.ok (a, st2, ip2) := by
  have hfs := hok.fs
  by_cases hm : blockAt st ip bn ≠ 0
  · exact ⟨_, _, _, bmap_mapped hok hbn hm⟩
  · have hm0 : blockAt st ip bn = 0 := not_not.mp hm
    obtain ⟨r, hr, hr1, hr2⟩ := balloc_total hfs h1 hc1
    unfold bmap log_write
    by_cases hd : bn < NDIRECT
    · have h0 : ip.addrs bn = 0 := by rw [← blockAt_direct st ip bn hd]; exact hm0
      rw [if_pos hd, if_pos h0, hr]
      exact ⟨_, _, _, rfl⟩
    · have hbn1 : bn - NDIRECT < NINDIRECT := by
        simp only [MAXFILE_eq, NDIRECT_eq, NINDIRECT_eq] at *; omega
      rw [if_neg hd]
      simp only
      rw [if_pos hbn1]
      by_cases hi : ip.addrs NDIRECT = 0
      · rw [if_pos hi, hr]
        simp only [bind_ok_eq, pure_eq_ok, setAddr_dev]
        have hlt : r < FSSIZE := by have := hfs.size_le; omega
        rw [bread_ok (by simpa [allocated_havedisk1] using hfs.disk_present) hlt]
        simp only [bind_ok_eq]
        have hz : getU32 ((allocated st ip.dev r).disk ip.dev r) (bn - NDIRECT) = 0 :=
          getU32_zero _ _ hbn1 (fun i hi2 => allocated_zero i hi2)
        rw [if_pos hz]
        have hfs1 := allocated_fsOk hfs hr1 hr2
        have hfree : ∃ b, b < st.sb.size ∧ ¬ bitSet (allocated st ip.dev r) ip.dev b := by
          by_cases hb : b1 = r
          · refine ⟨b2, h2, ?_⟩
            rw [allocated_bitSet hfs hr1 hr2 b2 (Nat.div_le_div_right (le_of_lt h2))]
            rintro (h | h)
            · exact hc2 h
            · exact hne (by rw [hb, h])
          · refine ⟨b1, h1, ?_⟩
            rw [allocated_bitSet hfs hr1 hr2 b1 (Nat.div_le_div_right (le_of_lt h1))]
            rintro (h | h)
            · exact hc1 h
            · exact hb h
        obtain ⟨b, hb1, hb2⟩ := hfree
        obtain ⟨r2, hr2a, -, -⟩ := balloc_total hfs1 hb1 hb2
        rw [hr2a]
        exact ⟨_, _, _, rfl⟩
      · rw [if_neg hi]
        simp only [bind_ok_eq, pure_eq_ok]
        obtain ⟨i1, i2, i3⟩ := hok.ind_data hi
        have hlt : ip.addrs NDIRECT < FSSIZE := by have := hfs.size_le; omega
        rw [bread_ok hfs.disk_present hlt]
        simp only [bind_ok_eq]
        have hz : getU32 (st.disk ip.dev (ip.addrs NDIRECT)) (bn - NDIRECT) = 0 := by
          rw [← blockAt_indirect st ip bn (by omega) hi]; exact hm0
        rw [if_pos hz, hr]
        exact ⟨_, _, _, rfl⟩

theorem writeiLoop_done (src : Mem) {n tot : Nat} (k : Nat) (st : FS) (ip : Inode) (off : Nat)
    (h : n ≤ tot) : writeiLoop src n k st ip tot off = Except.ok (st, ip, off) := by
  cases k with
  | zero => simp only [writeiLoop, if_neg (by omega : ¬ tot < n)]
  | succ k => simp only [writeiLoop, if_neg (by omega : ¬ tot < n)]

/-- A write that stays inside one block returns as soon as `bmap` does. -/
theorem writeiLoop_one_block {st : FS} {ip : Inode} {src : Mem} {off n a : Nat} {st1 : FS}
    {ip1 : Inode} (hok : InodeOk st ip) (hbn : off / BSIZE < MAXFILE) (hn : 0 < n)
    (hfit : n ≤ BSIZE - off % BSIZE) (hb : bmap st ip (off / BSIZE) = Except.ok (a, st1, ip1)) :
    ∃ st2, writeiLoop src n n st ip 0 off = Except.ok (st2, ip1, off + n) := by
  have hp := bmap_post hok hbn hb
  obtain ⟨a1, a2, a3, a4, a5⟩ := hp.addr_data hbn
  obtain ⟨k, rfl⟩ : ∃ k, n = k + 1 := ⟨n - 1, by omega⟩
  unfold writeiLoop log_write
  rw [if_pos (by omega), hb]
  simp only [bind_ok_eq]
  rw [bread_ok hp.ok.fs.disk_present a3]
  simp only [bind_ok_eq, Nat.sub_zero, Nat.zero_add]
  rw [min_eq_left hfit, writeiLoop_done src k _ ip1 _ (le_refl _)]
  exact ⟨_, rfl⟩

/-- A call of `writei` that passes the guard returns `n` as soon as its copy
loop returns. -/
theorem writei_total_of_loop {st : FS} {ip : Inode} {src : Mem} {off n : Nat} {st1 : FS}
    {ip1 : Inode} {off1 : Nat} (hok : InodeOk st ip) (ht : ip.type ≠ T_DEV)
    (hoff : off ≤ ip.size) (hn : off + n ≤ MAXFILE * BSIZE)
    (hl : writeiLoop src n n st ip 0 off = Except.ok (st1, ip1, off1)) :
    ∃ st2 ip2, writei st ip src off n = Except.ok ((n : Int), st2, ip2) := by
  have hsz := hok.size_le
  have hn2 : off + n ≤ 140 * 512 := by simpa only [MAXFILE_eq, BSIZE_eq] using hn
  have hmod : (off + n) % U32 = off + n := Nat.mod_eq_of_lt (by simp only [U32_eq]; omega)
  have hp := writeiLoop_post n st ip 0 off st1 ip1 off1 hok (by omega) (by simpa using hn) hl
  have hoff1 : off1 = off + n := by rw [hp.off_eq]; omega
  have hti : toInt32 n = (n : Int) := toInt32_small n (by omega)
  unfold writei
  rw [if_neg ht, hmod, if_neg (by omega), if_neg (by omega), hl]
  simp only [bind_ok_eq]
  by_cases hext : n > 0 ∧ off1 > ip1.size
  · rw [if_pos hext]
    have hok2 : InodeOk st1 { ip1 with size := off1 } :=
      inodeOk_size hp.ok off1 (by rw [hoff1]; exact hn)
    obtain ⟨st4, hu2, -⟩ := iupdate_ok hok2
    rw [hu2, hti]
    exact ⟨_, _, rfl⟩
  · rw [if_neg hext, hti]
    exact ⟨_, _, rfl⟩

/-! ## Panics and fields, without any assumption on the state -/

theorem bind_eq_error {α β : Type} {x : Except Panic α} {f : α → Except Panic β} {e : Panic}
    (h : (x >>= f) = Except.error e) :
    x = Except.error e ∨ ∃ a, x = Except.ok a ∧ f a = Except.error e := by
  cases x with
  | error e2 => left; simpa using h
  | ok a => right; exact ⟨a, rfl, by simpa using h⟩

theorem bread_error {st : FS} {dev b : Nat} {e : Panic} (h : bread st dev b = Except.error e) :
    IoPanic e := by
  unfold bread at h
  split_ifs at h <;> simp only [Except.error.injEq] at h <;> subst h
  · exact Or.inr (Or.inr rfl)
  · exact Or.inr (Or.inl rfl)

theorem bzero_error {st : FS} {dev b : Nat} {e : Panic} (h : bzero st dev b = Except.error e) :
    IoPanic e := by
  unfold bzero log_write at h
  rcases bind_eq_error h with h1 | ⟨a, -, h2⟩
  · exact bread_error h1
  · simp at h2

theorem ballocLoop_error_any {st : FS} {dev : Nat} : ∀ (k b : Nat) (e : Panic),
    ballocLoop st dev k b = Except.error e → IoPanic e := by
  intro k
  induction k with
  | zero =>
    intro b e h
    simp only [ballocLoop, Except.error.injEq] at h
    exact Or.inl h.symm
  | succ k ih =>
    intro b e h
    unfold ballocLoop log_write at h
    split_ifs at h with h1
    · rcases bind_eq_error h with h2 | ⟨data, -, h2⟩
      · exact bread_error h2
      · cases hs : ballocScan data st.sb.size b BPB 0 with
        | none => rw [hs] at h2; exact ih _ e h2
        | some bi =>
          rw [hs] at h2
          simp only at h2
          rcases bind_eq_error h2 with h3 | ⟨a, -, h3⟩
          · exact bzero_error h3
          · simp at h3
    · simp only [Except.error.injEq] at h
      exact Or.inl h.symm

theorem balloc_error_any {st : FS} {dev : Nat} {e : Panic}
    (h : balloc st dev = Except.error e) : IoPanic e :=
  ballocLoop_error_any _ _ e h

/-- Whatever the state, `bmap` with a block number below `MAXFILE` changes only
the addresses of the inode when it returns, and panics only for want of a free
block or in the disk driver. -/
theorem bmap_any {st : FS} {ip : Inode} {bn : Nat} (hbn : bn < MAXFILE) :
    (∀ a st2 ip2, bmap st ip bn = Except.ok (a, st2, ip2) → ip2 = { ip with addrs := ip2.addrs }) ∧
      (∀ e, bmap st ip bn = Except.error e → IoPanic e) := by
  unfold bmap log_write
  by_cases h1 : bn < NDIRECT
  · rw [if_pos h1]
    by_cases h2 : ip.addrs bn = 0
    · rw [if_pos h2]
      constructor
      · intro a st2 ip2 h
        obtain ⟨⟨r, s⟩, -, h⟩ := bind_eq_ok h
        simp only [pure_eq_ok, Except.ok.injEq, Prod.mk.injEq] at h
        obtain ⟨-, -, rfl⟩ := h
        rfl
      · intro e h
        rcases bind_eq_error h with h3 | ⟨a, -, h3⟩
        · exact balloc_error_any h3
        · simp at h3
    · rw [if_neg h2]
      constructor
      · intro a st2 ip2 h
        simp only [pure_eq_ok, Except.ok.injEq, Prod.mk.injEq] at h
        obtain ⟨-, -, rfl⟩ := h
        rfl
      · intro e h
        simp at h
  · have hbn1 : bn - NDIRECT < NINDIRECT := by
      simp only [MAXFILE_eq, NDIRECT_eq, NINDIRECT_eq] at *; omega
    rw [if_neg h1]
    simp only
    rw [if_pos hbn1]
    constructor
    · intro a st2 ip2 h
      obtain ⟨⟨a1, s1, ip1⟩, hfst, h⟩ := bind_eq_ok h
      have hip1 : ip1 = { ip with addrs := ip1.addrs } := by
        by_cases hi : ip.addrs NDIRECT = 0
        · rw [if_pos hi] at hfst
          obtain ⟨⟨r, s⟩, -, hfst⟩ := bind_eq_ok hfst
          simp only [pure_eq_ok, Except.ok.injEq, Prod.mk.injEq] at hfst
          obtain ⟨-, -, rfl⟩ := hfst
          rfl
        · rw [if_neg hi] at hfst
          simp only [pure_eq_ok, Except.ok.injEq, Prod.mk.injEq] at hfst
          obtain ⟨-, -, rfl⟩ := hfst
          rfl
      simp only at h
      obtain ⟨data, -, h⟩ := bind_eq_ok h
      split_ifs at h
      · obtain ⟨⟨r, s⟩, -, h⟩ := bind_eq_ok h
        simp only [pure_eq_ok, Except.ok.injEq, Prod.mk.injEq] at h
        obtain ⟨-, -, rfl⟩ := h
        exact hip1
      · simp only [pure_eq_ok, Except.ok.injEq, Prod.mk.injEq] at h
        obtain ⟨-, -, rfl⟩ := h
        exact hip1
    · intro e h
      rcases bind_eq_error h with h3 | ⟨⟨a1, s1, ip1⟩, -, h3⟩
      · by_cases hi : ip.addrs NDIRECT = 0
        · rw [if_pos hi] at h3
          rcases bind_eq_error h3 with h4 | ⟨a, -, h4⟩
          · exact balloc_error_any h4
          · simp at h4
        · rw [if_neg hi] at h3
          simp at h3
      · simp only at h3
        rcases bind_eq_error h3 with h4 | ⟨data, -, h4⟩
        · exact bread_error h4
        · split_ifs at h4
          · rcases bind_eq_error h4 with h5 | ⟨a, -, h5⟩
            · exact balloc_error_any h5
            · simp at h5
          · simp at h4

/-- Whatever the state, the copy loop of `writei` inside the largest file
changes only the addresses of the inode, ends at offset `off + (n - tot)`, and
panics only for want of a free block or in the disk driver. -/
theorem writeiLoop_any {src : Mem} {n : Nat} : ∀ (k : Nat) (st : FS) (ip : Inode)
    (tot off : Nat), n - tot ≤ k → off + (n - tot) ≤ MAXFILE * BSIZE →
    (∀ st2 ip2 off2, writeiLoop src n k st ip tot off = Except.ok (st2, ip2, off2) →
      ip2 = { ip with addrs := ip2.addrs } ∧ off2 = off + (n - tot)) ∧
    (∀ e, writeiLoop src n k st ip tot off = Except.error e → IoPanic e) := by
  intro k
  induction k with
  | zero =>
    intro st ip tot off hk hoff
    have hle : ¬ tot < n := by omega
    simp only [writeiLoop, if_neg hle]
    constructor
    · intro st2 ip2 off2 h
      simp only [Except.ok.injEq, Prod.mk.injEq] at h
      obtain ⟨-, rfl, rfl⟩ := h
      exact ⟨rfl, by omega⟩
    · intro e h
      simp at h
  | succ k ih =>
    intro st ip tot off hk hoff
    unfold writeiLoop log_write
    by_cases hlt : tot < n
    · rw [if_pos hlt]
      have hoff2 : off + (n - tot) ≤ 140 * 512 := by
        simpa only [MAXFILE_eq, BSIZE_eq] using hoff
      have hbn : off / BSIZE < MAXFILE := by
        simp only [MAXFILE_eq, BSIZE_eq]; omega
      obtain ⟨hb1, hb2⟩ := @bmap_any st ip (off / BSIZE) hbn
      obtain ⟨m, hm⟩ : ∃ m, m = min (n - tot) (BSIZE - off % BSIZE) := ⟨_, rfl⟩
      have hm1 : 1 ≤ m := by simp only [BSIZE_eq] at hm; omega
      have hm2 : m ≤ n - tot := by omega
      constructor
      · intro st2 ip2 off2 h
        obtain ⟨⟨a, st1, ip1⟩, hb, h⟩ := bind_eq_ok h
        simp only at h
        obtain ⟨data, -, h⟩ := bind_eq_ok h
        rw [← hm] at h
        obtain ⟨i1, i2⟩ := (ih _ ip1 (tot + m) (off + m) (by omega)
          (by simp only [MAXFILE_eq, BSIZE_eq]; omega)).1 st2 ip2 off2 h
        exact ⟨inode_fields_trans (hb1 a st1 ip1 hb) i1, by omega⟩
      · intro e h
        rcases bind_eq_error h with h3 | ⟨⟨a, st1, ip1⟩, -, h3⟩
        · exact hb2 e h3
        · simp only at h3
          rcases bind_eq_error h3 with h4 | ⟨data, -, h4⟩
          · exact bread_error h4
          · rw [← hm] at h4
            exact (ih _ ip1 (tot + m) (off + m) (by omega)
              (by simp only [MAXFILE_eq, BSIZE_eq]; omega)).2 e h4
    · rw [if_neg hlt]
      constructor
      · intro st2 ip2 off2 h
        simp only [Except.ok.injEq, Prod.mk.injEq] at h
        obtain ⟨-, rfl, rfl⟩ := h
        exact ⟨rfl, by omega⟩
      · intro e h
        simp at h

/-- Whatever the state, a call of `writei` on a regular inode keeps the type,
leaves a size that is the old one or the end of the write (at most
`MAXFILE * BSIZE`), and panics only for want of a free block or in the disk
driver. -/
theorem writei_any (st : FS) (ip : Inode) (src : Mem) (off n : Nat) (ht : ip.type ≠ T_DEV)
    (hoff : off < U32) (hn : n < U32) :
    (∀ r st2 ip2, writei st ip src off n = Except.ok (r, st2, ip2) →
      ip2.type = ip.type ∧ (ip.size ≤ MAXFILE * BSIZE → ip2.size ≤ MAXFILE * BSIZE)) ∧
    (∀ e, writei st ip src off n = Except.error e → IoPanic e) := by
  unfold writei
  rw [if_neg ht]
  by_cases h1 : off > ip.size ∨ (off + n) % U32 < off
  · rw [if_pos h1]
    constructor
    · intro r st2 ip2 h
      simp only [Except.ok.injEq, Prod.mk.injEq] at h
      obtain ⟨-, -, rfl⟩ := h
      exact ⟨rfl, fun h => h⟩
    · intro e h; simp at h
  · rw [if_neg h1]
    by_cases h2 : (off + n) % U32 > MAXFILE * BSIZE
    · rw [if_pos h2]
      constructor
      · intro r st2 ip2 h
        simp only [Except.ok.injEq, Prod.mk.injEq] at h
        obtain ⟨-, -, rfl⟩ := h
        exact ⟨rfl, fun h => h⟩
      · intro e h; simp at h
    · rw [if_neg h2]
      have hsum : off + n ≤ MAXFILE * BSIZE := by
        simp only [U32_eq, MAXFILE_eq, BSIZE_eq] at *
        omega
      obtain ⟨l1, l2⟩ := @writeiLoop_any src n n st ip 0 off (by omega) (by simpa using hsum)
      constructor
      · intro r st2 ip2 h
        obtain ⟨⟨st1, ip1, off1⟩, hl, h⟩ := bind_eq_ok h
        obtain ⟨f1, f2⟩ := l1 st1 ip1 off1 hl
        have ht1 : ip1.type = ip.type := by rw [f1]
        have hs1 : ip1.size = ip.size := by rw [f1]
        simp only at h
        split_ifs at h
        · obtain ⟨st3, -, h⟩ := bind_eq_ok h
          simp only [pure_eq_ok, Except.ok.injEq, Prod.mk.injEq] at h
          obtain ⟨-, -, rfl⟩ := h
          exact ⟨ht1, fun _ => by show off1 ≤ MAXFILE * BSIZE; omega⟩
        · simp only [pure_eq_ok, Except.ok.injEq, Prod.mk.injEq] at h
          obtain ⟨-, -, rfl⟩ := h
          exact ⟨ht1, fun h => by rw [hs1]; exact h⟩
      · intro e h
        rcases bind_eq_error h with h3 | ⟨⟨st1, ip1, off1⟩, -, h3⟩
        · exact l2 e h3
        · simp only at h3
          split_ifs at h3
          · rcases bind_eq_error h3 with h4 | ⟨a, -, h4⟩
            · unfold iupdate log_write at h4
              rcases bind_eq_error h4 with h5 | ⟨a, -, h5⟩
              · exact bread_error h5
              · simp at h5
            · simp at h4
          · simp at h3

theorem okAnd_true {α : Type} {p : α → Bool} {x : Except Panic α} (e : okAnd p x = true) :
    ∃ a, x = Except.ok a ∧ p a = true := by
  cases x with
  | error _ => simp [okAnd] at e
  | ok a => exact ⟨a, rfl, e⟩

/-! ## The scan of `iget` -/

theorem ICache.set_same (ic : ICache) (i : Nat) (ip : Inode) : (ic.set i ip) i = ip := by
  simp [ICache.set]

theorem ICache.set_other (ic : ICache) (i j : Nat) (ip : Inode) (h : j ≠ i) :
    (ic.set i ip) j = ic j := by
  simp [ICache.set, h]

/-- The scan stops at the first slot in use that holds `(dev, inum)`. -/
theorem igetScan_hit {ic : ICache} {dev inum : Nat} : ∀ (k i m : Nat) (empty : Option Nat),
    i ≤ m → m < i + k →
    (0 < (ic m).ref ∧ (ic m).dev = dev ∧ (ic m).inum = inum) →
    (∀ j, i ≤ j → j < m → ¬ (0 < (ic j).ref ∧ (ic j).dev = dev ∧ (ic j).inum = inum)) →
    igetScan ic dev inum k i empty = Sum.inl m := by
  intro k
  induction k with
  | zero => intro i m empty h1 h2; omega
  | succ k ih =>
    intro i m empty h1 h2 hm hfirst
    unfold igetScan
    by_cases him : i = m
    · subst him
      rw [if_pos hm]
    · rw [if_neg (hfirst i (le_refl _) (by omega))]
      exact ih (i + 1) m _ (by omega) (by omega) hm (fun j hj1 hj2 => hfirst j (by omega) hj2)

/-- With no slot in use holding `(dev, inum)`, the scan ends with the empty slot
seen first. -/
theorem igetScan_miss {ic : ICache} {dev inum : Nat} : ∀ (k i : Nat) (empty : Option Nat),
    (∀ j, i ≤ j → j < i + k → ¬ (0 < (ic j).ref ∧ (ic j).dev = dev ∧ (ic j).inum = inum)) →
    (∀ e, empty = some e → igetScan ic dev inum k i empty = Sum.inr (some e)) ∧
    (empty = none → (∀ j, i ≤ j → j < i + k → (ic j).ref ≠ 0) →
      igetScan ic dev inum k i empty = Sum.inr none) ∧
    (empty = none → ∀ z, i ≤ z → z < i + k → (ic z).ref = 0 →
      (∀ j, i ≤ j → j < z → (ic j).ref ≠ 0) →
      igetScan ic dev inum k i empty = Sum.inr (some z)) := by
  intro k
  induction k with
  | zero =>
    intro i empty _
    refine ⟨fun e he => by rw [he]; rfl, fun he _ => by rw [he]; rfl, fun _ z h1 h2 => by omega⟩
  | succ k ih =>
    intro i empty hno
    have hi := hno i (le_refl _) (by omega)
    have hrest : ∀ j, i + 1 ≤ j → j < i + 1 + k →
        ¬ (0 < (ic j).ref ∧ (ic j).dev = dev ∧ (ic j).inum = inum) :=
      fun j h1 h2 => hno j (by omega) (by omega)
    refine ⟨?_, ?_, ?_⟩
    · intro e he
      unfold igetScan
      rw [if_neg hi, he, if_neg (by simp)]
      exact (ih (i + 1) (some e) hrest).1 e rfl
    · intro he hall
      unfold igetScan
      rw [if_neg hi, he, if_neg (fun h => hall i (le_refl _) (by omega) h.2)]
      exact (ih (i + 1) none hrest).2.1 rfl (fun j h1 h2 => hall j (by omega) (by omega))
    · intro he z hz1 hz2 hz hbefore
      unfold igetScan
      rw [if_neg hi, he]
      by_cases hiz : i = z
      · subst hiz
        rw [if_pos ⟨rfl, hz⟩]
        exact (ih (i + 1) (some i) hrest).1 i rfl
      · rw [if_neg (fun h => hbefore i (le_refl _) (by omega) h.2)]
        exact (ih (i + 1) none hrest).2.2 rfl z (by omega) (by omega) hz
          (fun j h1 h2 => hbefore j (by omega) h2)

/-- The three outcomes of `iget`: a hit on the first slot in use that holds
the inode; on a miss the first empty slot; and the panic when there is none. -/
theorem iget_hit {ic : ICache} {dev inum m : Nat} (hm : m < NINODE)
    (h : 0 < (ic m).ref ∧ (ic m).dev = dev ∧ (ic m).inum = inum)
    (hfirst : ∀ j, j < m → ¬ (0 < (ic j).ref ∧ (ic j).dev = dev ∧ (ic j).inum = inum)) :
    iget ic dev inum = Except.ok (m, ic.set m { ic m with ref := int32 ((ic m).ref + 1) }) := by
  unfold iget
  rw [igetScan_hit NINODE 0 m none (Nat.zero_le _) (by omega) h (fun j _ hj => hfirst j hj)]

theorem iget_miss {ic : ICache} {dev inum z : Nat} (hz : z < NINODE)
    (hno : ∀ j, j < NINODE → ¬ (0 < (ic j).ref ∧ (ic j).dev = dev ∧ (ic j).inum = inum))
    (h0 : (ic z).ref = 0) (hfirst : ∀ j, j < z → (ic j).ref ≠ 0) :
    iget ic dev inum = Except.ok (z,
      ic.set z { ic z with dev := dev, inum := inum, ref := 1, valid := 0 }) := by
  unfold iget
  rw [(igetScan_miss NINODE 0 none (fun j _ hj => hno j (by omega))).2.2 rfl z (Nat.zero_le _)
    (by omega) h0 (fun j _ hj => hfirst j hj)]

theorem iget_full {ic : ICache} {dev inum : Nat}
    (hno : ∀ j, j < NINODE → ¬ (0 < (ic j).ref ∧ (ic j).dev = dev ∧ (ic j).inum = inum))
    (hall : ∀ j, j < NINODE → (ic j).ref ≠ 0) :
    iget ic dev inum = Except.error Panic.igetNoInodes := by
  unfold iget
  rw [(igetScan_miss NINODE 0 none (fun j _ hj => hno j (by omega))).2.1 rfl
    (fun j _ hj => hall j (by omega))]

/-- The least number below `n` with a decidable property, when there is one. -/
theorem exists_least {p : Nat → Prop} [DecidablePred p] {n m : Nat} (hm : m < n) (hp : p m) :
    ∃ z, z < n ∧ p z ∧ ∀ j, j < z → ¬ p j :=
  ⟨Nat.find ⟨m, hp⟩, lt_of_le_of_lt (Nat.find_min' _ hp) hm, Nat.find_spec ⟨m, hp⟩,
    fun _ hj => Nat.find_min ⟨m, hp⟩ hj⟩

/-- Every return of `iget` is one of the two: a hit or a claim. -/
theorem iget_cases {ic : ICache} {dev inum i : Nat} {ic2 : ICache}
    (h : iget ic dev inum = Except.ok (i, ic2)) :
    i < NINODE ∧
    ((0 < (ic i).ref ∧ (ic i).dev = dev ∧ (ic i).inum = inum ∧
        (∀ j, j < i → ¬ (0 < (ic j).ref ∧ (ic j).dev = dev ∧ (ic j).inum = inum)) ∧
        ic2 = ic.set i { ic i with ref := int32 ((ic i).ref + 1) }) ∨
     ((∀ j, j < NINODE → ¬ (0 < (ic j).ref ∧ (ic j).dev = dev ∧ (ic j).inum = inum)) ∧
        (ic i).ref = 0 ∧ (∀ j, j < i → (ic j).ref ≠ 0) ∧
        ic2 = ic.set i { ic i with dev := dev, inum := inum, ref := 1, valid := 0 })) := by
  by_cases hex : ∃ m, m < NINODE ∧ 0 < (ic m).ref ∧ (ic m).dev = dev ∧ (ic m).inum = inum
  · obtain ⟨m, hm, hp⟩ := hex
    obtain ⟨z, hz, hpz, hfirst⟩ := exists_least
      (p := fun j => 0 < (ic j).ref ∧ (ic j).dev = dev ∧ (ic j).inum = inum) hm hp
    rw [iget_hit hz hpz hfirst] at h
    simp only [Except.ok.injEq, Prod.mk.injEq] at h
    obtain ⟨rfl, rfl⟩ := h
    exact ⟨hz, Or.inl ⟨hpz.1, hpz.2.1, hpz.2.2, hfirst, rfl⟩⟩
  · have hno : ∀ j, j < NINODE →
        ¬ (0 < (ic j).ref ∧ (ic j).dev = dev ∧ (ic j).inum = inum) :=
      fun j hj hp => hex ⟨j, hj, hp⟩
    by_cases hz : ∃ z, z < NINODE ∧ (ic z).ref = 0
    · obtain ⟨z0, hz0, hp0⟩ := hz
      obtain ⟨z, hz, hpz, hfirst⟩ := exists_least (p := fun j => (ic j).ref = 0) hz0 hp0
      rw [iget_miss hz hno hpz hfirst] at h
      simp only [Except.ok.injEq, Prod.mk.injEq] at h
      obtain ⟨rfl, rfl⟩ := h
      exact ⟨hz, Or.inr ⟨hno, hpz, hfirst, rfl⟩⟩
    · rw [iget_full hno (fun j hj h0 => hz ⟨j, hj, h0⟩)] at h
      exact Except.noConfusion h

/-! ## The invariant of the inode cache -/

theorem int32_small (x : Int) (h1 : -2147483648 ≤ x) (h2 : x < 2147483648) : int32 x = x := by
  unfold int32
  omega

theorem ilock_ident {st : FS} {ip ip2 : Inode} (h : ilock st ip = Except.ok ip2) :
    ip2.dev = ip.dev ∧ ip2.inum = ip.inum ∧ ip2.ref = ip.ref := by
  unfold ilock at h
  split_ifs at h with h1 h2
  · obtain ⟨data, -, h⟩ := bind_eq_ok h
    simp only at h
    split_ifs at h
    simp only [pure_eq_ok, Except.ok.injEq] at h
    subst h
    exact ⟨rfl, rfl, rfl⟩
  · simp only [pure_eq_ok, Except.ok.injEq] at h
    subst h
    exact ⟨rfl, rfl, rfl⟩

theorem itruncDirect_ident : ∀ (k : Nat) (st : FS) (ip : Inode) (i : Nat) (st2 : FS)
    (ip2 : Inode), itruncDirect k st ip i = Except.ok (st2, ip2) →
    ip2 = { ip with addrs := ip2.addrs } := by
  intro k
  induction k with
  | zero =>
    intro st ip i st2 ip2 h
    simp only [itruncDirect, Except.ok.injEq, Prod.mk.injEq] at h
    rw [← h.2]
  | succ k ih =>
    intro st ip i st2 ip2 h
    unfold itruncDirect at h
    split_ifs at h
    · obtain ⟨st1, -, h⟩ := bind_eq_ok h
      have := ih _ _ _ _ _ h
      rw [this]
      rfl
    · exact ih _ _ _ _ _ h

theorem itrunc_ident {st : FS} {ip : Inode} {st2 : FS} {ip2 : Inode}
    (h : itrunc st ip = Except.ok (st2, ip2)) :
    ip2 = { ip with addrs := ip2.addrs, size := 0 } := by
  unfold itrunc at h
  obtain ⟨⟨st1, ip1⟩, h1, h⟩ := bind_eq_ok h
  have e1 := itruncDirect_ident _ _ _ _ _ _ h1
  obtain ⟨⟨s2, i2⟩, h2, h⟩ := bind_eq_ok h
  obtain ⟨s3, -, h⟩ := bind_eq_ok h
  simp only [pure_eq_ok, Except.ok.injEq, Prod.mk.injEq] at h
  have e2 : i2 = { ip1 with addrs := i2.addrs } := by
    split_ifs at h2
    · obtain ⟨_, -, h2⟩ := bind_eq_ok h2
      obtain ⟨_, -, h2⟩ := bind_eq_ok h2
      obtain ⟨_, -, h2⟩ := bind_eq_ok h2
      simp only [pure_eq_ok, Except.ok.injEq, Prod.mk.injEq] at h2
      rw [← h2.2]
      rfl
    · simp only [pure_eq_ok, Except.ok.injEq, Prod.mk.injEq] at h2
      rw [← h2.2]
  rw [← h.2, e2, e1]

/-- The slot after `iput`: the same inode with one reference less; the other
slots are not touched. -/
theorem iput_ident {st : FS} {ic : ICache} {i : Nat} {st2 : FS} {ic2 : ICache}
    (h : iput st ic i = Except.ok (st2, ic2)) :
    (ic2 i).dev = (ic i).dev ∧ (ic2 i).inum = (ic i).inum ∧
      (ic2 i).ref = int32 ((ic i).ref - 1) ∧ ∀ j, j ≠ i → ic2 j = ic j := by
  unfold iput at h
  obtain ⟨⟨st1, ip1⟩, h1, h⟩ := bind_eq_ok h
  simp only [pure_eq_ok, Except.ok.injEq, Prod.mk.injEq] at h
  obtain ⟨-, rfl⟩ := h
  have e : ip1.dev = (ic i).dev ∧ ip1.inum = (ic i).inum ∧ ip1.ref = (ic i).ref := by
    split_ifs at h1
    · obtain ⟨⟨s2, i2⟩, ht, h1⟩ := bind_eq_ok h1
      obtain ⟨s3, -, h1⟩ := bind_eq_ok h1
      simp only [pure_eq_ok, Except.ok.injEq, Prod.mk.injEq] at h1
      have := itrunc_ident ht
      rw [← h1.2, this]
      exact ⟨rfl, rfl, rfl⟩
    · simp only [pure_eq_ok, Except.ok.injEq, Prod.mk.injEq] at h1
      rw [← h1.2]
      exact ⟨rfl, rfl, rfl⟩
    · simp only [pure_eq_ok, Except.ok.injEq, Prod.mk.injEq] at h1
      rw [← h1.2]
      exact ⟨rfl, rfl, rfl⟩
  refine ⟨?_, ?_, ?_, fun j hj => ICache.set_other _ _ _ _ hj⟩
  · rw [ICache.set_same]; exact e.1
  · rw [ICache.set_same]; exact e.2.1
  · rw [ICache.set_same]
    show int32 (ip1.ref - 1) = _
    rw [e.2.2]

theorem count_le_length_nat (i : Nat) (l : List Nat) : l.count i ≤ l.length :=
  List.count_le_length i l

/-- The invariant is kept when the slots keep their inodes and the reference
counts follow the references. -/
theorem iinv_of_same {s : ISys} {ic2 : ICache} {held2 : List Nat} {st2 : FS} (hinv : IInv s)
    (hs : ∀ i, i ∈ held2 → i < NINODE)
    (hn : ∀ i, i < NINODE → (ic2 i).dev = (s.ic i).dev ∧ (ic2 i).inum = (s.ic i).inum)
    (hc : ∀ i, i < NINODE → (ic2 i).ref = (held2.count i : Int))
    (hp : ∀ i, i < NINODE → 0 < (ic2 i).ref → 0 < (s.ic i).ref) :
    IInv { fs := st2, ic := ic2, held := held2 } :=
  { slots := hs
    count := hc
    uniq := fun i j hi hj hne h1 h2 => by
      show ¬ ((ic2 i).dev = (ic2 j).dev ∧ (ic2 i).inum = (ic2 j).inum)
      rw [(hn i hi).1, (hn i hi).2, (hn j hj).1, (hn j hj).2]
      exact hinv.uniq i j hi hj hne (hp i hi h1) (hp j hj h2) }

/-- A call that does not panic keeps the invariant and adds at most one
reference. -/
theorem istep_inv {s s2 : ISys} {e : IEv} (hinv : IInv s)
    (hlen : s.held.length + 1 < 2147483648) (h : istep s e = Except.ok s2) :
    IInv s2 ∧ s2.held.length ≤ s.held.length + 1 := by
  have hcl : ∀ i, (s.held.count i : Int) + 1 < 2147483648 := by
    intro i
    have := count_le_length_nat i s.held
    omega
  cases e with
  | iget dev inum =>
    simp only [istep] at h
    obtain ⟨⟨i, ic⟩, hg, h⟩ := bind_eq_ok h
    simp only [pure_eq_ok, Except.ok.injEq] at h
    subst h
    refine ⟨?_, by simp⟩
    obtain ⟨hi, hc | hc⟩ := iget_cases hg
    · obtain ⟨c1, c2, c3, -, rfl⟩ := hc
      refine iinv_of_same hinv ?_ ?_ ?_ ?_
      · intro j hj
        rcases List.mem_cons.mp hj with e | e
        · rw [e]; exact hi
        · exact hinv.slots j e
      · intro j _
        by_cases hji : j = i
        · rw [hji, ICache.set_same]; exact ⟨rfl, rfl⟩
        · rw [ICache.set_other _ _ _ _ hji]; exact ⟨rfl, rfl⟩
      · intro j hj
        by_cases hji : j = i
        · rw [hji, ICache.set_same, List.count_cons_self]
          show int32 ((s.ic i).ref + 1) = _
          rw [hinv.count i hi, int32_small _ (by omega) (hcl i)]
          push_cast
          rfl
        · rw [ICache.set_other _ _ _ _ hji, List.count_cons_of_ne hji, hinv.count j hj]
      · intro j _ hp
        by_cases hji : j = i
        · rw [hji]; exact c1
        · rw [ICache.set_other _ _ _ _ hji] at hp; exact hp
    · obtain ⟨hno, h0, -, rfl⟩ := hc
      have hci : s.held.count i = 0 := by
        have := hinv.count i hi
        rw [h0] at this
        exact_mod_cast this.symm
      refine { slots := ?_, count := ?_, uniq := ?_ }
      · intro j hj
        rcases List.mem_cons.mp hj with e | e
        · rw [e]; exact hi
        · exact hinv.slots j e
      · intro j hj
        show ((s.ic.set i _) j).ref = ((i :: s.held).count j : Int)
        by_cases hji : j = i
        · rw [hji, ICache.set_same, List.count_cons_self, hci]
          rfl
        · rw [ICache.set_other _ _ _ _ hji, List.count_cons_of_ne hji, hinv.count j hj]
      · intro a b ha hb hne h1 h2
        show ¬ (((s.ic.set i _) a).dev = ((s.ic.set i _) b).dev ∧
          ((s.ic.set i _) a).inum = ((s.ic.set i _) b).inum)
        have h1' : 0 < ((s.ic.set i _) a).ref := h1
        have h2' : 0 < ((s.ic.set i _) b).ref := h2
        by_cases hai : a = i
        · have hbi : b ≠ i := fun e => hne (by rw [hai, e])
          rw [hai, ICache.set_same, ICache.set_other _ _ _ _ hbi]
          rw [ICache.set_other _ _ _ _ hbi] at h2'
          exact fun x => hno b hb ⟨h2', x.1.symm, x.2.symm⟩
        · rw [ICache.set_other _ _ _ _ hai] at h1' ⊢
          by_cases hbi : b = i
          · rw [hbi, ICache.set_same]
            exact fun x => hno a ha ⟨h1', x.1, x.2⟩
          · rw [ICache.set_other _ _ _ _ hbi] at h2' ⊢
            exact hinv.uniq a b ha hb hne h1' h2'
  | idup i =>
    simp only [istep] at h
    split_ifs at h with hm
    simp only [Except.ok.injEq] at h
    subst h
    have hi := hinv.slots i hm
    refine ⟨iinv_of_same hinv ?_ ?_ ?_ ?_, by simp⟩
    · intro j hj
      rcases List.mem_cons.mp hj with e | e
      · rw [e]; exact hi
      · exact hinv.slots j e
    · intro j _
      unfold idup
      by_cases hji : j = i
      · rw [hji, ICache.set_same]; exact ⟨rfl, rfl⟩
      · rw [ICache.set_other _ _ _ _ hji]; exact ⟨rfl, rfl⟩
    · intro j hj
      unfold idup
      by_cases hji : j = i
      · rw [hji, ICache.set_same, List.count_cons_self]
        show int32 ((s.ic i).ref + 1) = _
        rw [hinv.count i hi, int32_small _ (by omega) (hcl i)]
        push_cast
        rfl
      · rw [ICache.set_other _ _ _ _ hji, List.count_cons_of_ne hji, hinv.count j hj]
    · intro j hj hp
      unfold idup at hp
      by_cases hji : j = i
      · rw [hji, hinv.count i hi]
        have := List.count_pos_iff.mpr hm
        exact_mod_cast this
      · rw [ICache.set_other _ _ _ _ hji] at hp; exact hp
  | ilock i =>
    simp only [istep] at h
    split_ifs at h with hm
    obtain ⟨ip, hl, h⟩ := bind_eq_ok h
    simp only [pure_eq_ok, Except.ok.injEq] at h
    subst h
    obtain ⟨e1, e2, e3⟩ := ilock_ident hl
    refine ⟨iinv_of_same hinv hinv.slots ?_ ?_ ?_, by simp⟩
    · intro j _
      by_cases hji : j = i
      · rw [hji, ICache.set_same]; exact ⟨e1, e2⟩
      · rw [ICache.set_other _ _ _ _ hji]; exact ⟨rfl, rfl⟩
    · intro j hj
      by_cases hji : j = i
      · rw [hji, ICache.set_same, e3]; exact hinv.count i (hji ▸ hj)
      · rw [ICache.set_other _ _ _ _ hji]; exact hinv.count j hj
    · intro j _ hp
      by_cases hji : j = i
      · rw [hji, ICache.set_same, e3] at hp
        rw [hji]; exact hp
      · rw [ICache.set_other _ _ _ _ hji] at hp; exact hp
  | iput i =>
    simp only [istep] at h
    split_ifs at h with hm
    obtain ⟨⟨st, ic⟩, hp, h⟩ := bind_eq_ok h
    simp only [pure_eq_ok, Except.ok.injEq] at h
    subst h
    have hi := hinv.slots i hm
    obtain ⟨e1, e2, e3, e4⟩ := iput_ident hp
    have hpos : 0 < s.held.count i := List.count_pos_iff.mpr hm
    have href : (ic i).ref = ((s.held.erase i).count i : Int) := by
      rw [e3, hinv.count i hi, int32_small _ (by omega) (by have := hcl i; omega),
        List.count_erase_self]
      omega
    refine ⟨iinv_of_same hinv (fun j hj => hinv.slots j (List.mem_of_mem_erase hj)) ?_ ?_ ?_, ?_⟩
    · intro j _
      by_cases hji : j = i
      · rw [hji]; exact ⟨e1, e2⟩
      · rw [e4 j hji]; exact ⟨rfl, rfl⟩
    · intro j hj
      by_cases hji : j = i
      · rw [hji]; exact href
      · rw [e4 j hji, List.count_erase_of_ne hji]; exact hinv.count j hj
    · intro j hj hp2
      by_cases hji : j = i
      · rw [hji, hinv.count i hi]
        exact_mod_cast hpos
      · rw [e4 j hji] at hp2; exact hp2
    · show (s.held.erase i).length ≤ _
      rw [List.length_erase_of_mem hm]
      omega

theorem irun_inv : ∀ (evs : List IEv) (s s2 : ISys), IInv s →
    s.held.length + evs.length < 2147483648 → irun s evs = Except.ok s2 →
    IInv s2 ∧ s2.held.length ≤ s.held.length + evs.length := by
  intro evs
  induction evs with
  | nil =>
    intro s s2 hinv _ h
    simp only [irun, Except.ok.injEq] at h
    subst h
    exact ⟨hinv, by simp⟩
  | cons e es ih =>
    intro s s2 hinv hlen h
    simp only [irun] at h
    obtain ⟨s1, hs, h⟩ := bind_eq_ok h
    simp only [List.length_cons] at hlen ⊢
    obtain ⟨i1, i2⟩ := istep_inv hinv (by omega) hs
    obtain ⟨j1, j2⟩ := ih s1 s2 i1 (by omega) h
    exact ⟨j1, by omega⟩

/-! ## `ialloc` -/

theorem getShort_enc (data : Mem) (o : Nat) (x : Int) (h1 : -32768 ≤ x) (h2 : x < 32768)
    (e0 : data o = encShort x 0) (e1 : data (o + 1) = encShort x 1) : getShort data o = x := by
  obtain ⟨m, hm⟩ : ∃ m : Nat, (m : Int) = x % 65536 :=
    ⟨(x % 65536).toNat, Int.toNat_of_nonneg (Int.emod_nonneg _ (by decide))⟩
  have hm2 : (x % 65536).toNat = m := by rw [← hm]; exact Int.toNat_natCast m
  have hlt : m < 65536 := by omega
  unfold getShort
  rw [e0, e1]
  unfold encShort
  rw [hm2]
  have hu : m / 256 ^ 0 % 256 + 256 * (m / 256 ^ 1 % 256) = m := by
    simp only [pow_zero, pow_one, Nat.div_one]
    omega
  simp only [hu]
  split_ifs <;> omega

theorem getShort_zero (data : Mem) (o : Nat) (e0 : data o = 0) (e1 : data (o + 1) = 0) :
    getShort data o = 0 := by
  unfold getShort
  rw [e0, e1]
  rfl

theorem getU32_zero_bytes (data : Mem) (w : Nat)
    (h : ∀ k, 4 * w ≤ k → k < 4 * w + 4 → data k = 0) : getU32 data w = 0 := by
  unfold getU32
  rw [h _ (le_refl _) (by omega), h (4 * w + 1) (by omega) (by omega),
    h (4 * w + 2) (by omega) (by omega), h (4 * w + 3) (by omega) (by omega)]

/-- The block of an inode below `sb.ninodes` in a well-formed file system. -/
theorem iblock_lt {st : FS} {dev : Nat} (hfs : FsOk st dev) (har : InodeArea st) {inum : Nat}
    (hi : inum < st.sb.ninodes) :
    IBLOCK inum st.sb = inum / IPB + st.sb.inodestart ∧ IBLOCK inum st.sb < FSSIZE ∧
      IBLOCK inum st.sb < st.sb.bmapstart ∧ 2 ≤ IBLOCK inum st.sb := by
  have h1 := har inum hi
  have h2 := hfs.size_le
  have h3 := hfs.data_in_image
  have h4 := hfs.inodes_after_super
  unfold dataStart at h3
  simp only [FSSIZE_eq, BPB_eq, IPB_eq] at h1 h2 h3 ⊢
  have e : IBLOCK inum st.sb = inum / 8 + st.sb.inodestart := by
    unfold IBLOCK
    simp only [IPB_eq]
    apply Nat.mod_eq_of_lt
    simp only [U32_eq]
    omega
  rw [e]
  omega

theorem iallocLoop_ok {st : FS} {dev : Nat} {type : Int} (hfs : FsOk st dev)
    (har : InodeArea st) {inum : Nat} (hi : inum < st.sb.ninodes)
    (hfree : (readDinode st dev inum).type = 0) : ∀ (k s : Nat), s ≤ inum → inum - s < k →
    (∀ j, s ≤ j → j < inum → (readDinode st dev j).type ≠ 0) →
    iallocLoop st dev type k s = Except.ok (inum, claimed st dev inum type) := by
  intro k
  induction k with
  | zero => intro s _ h; omega
  | succ k ih =>
    intro s hs hk hused
    unfold iallocLoop log_write
    by_cases hsi : s = inum
    · subst hsi
      have hfree2 : getShort (st.disk dev (IBLOCK s st.sb)) (DINODE_SIZE * (s % IPB)) = 0 :=
        hfree
      rw [if_pos hi, bread_ok hfs.disk_present (iblock_lt hfs har hi).2.1]
      simp only [bind_ok_eq]
      rw [if_pos hfree2]
      rfl
    · have hs2 : s < st.sb.ninodes := by omega
      have hu2 : getShort (st.disk dev (IBLOCK s st.sb)) (DINODE_SIZE * (s % IPB)) ≠ 0 :=
        hused s (le_refl _) (by omega)
      rw [if_pos hs2, bread_ok hfs.disk_present (iblock_lt hfs har hs2).2.1]
      simp only [bind_ok_eq]
      rw [if_neg hu2]
      exact ih (s + 1) (by omega) (by omega) (fun j h1 h2 => hused j (by omega) h2)

theorem iallocLoop_none {st : FS} {dev : Nat} {type : Int} (hfs : FsOk st dev)
    (har : InodeArea st) : ∀ (k s : Nat), st.sb.ninodes - s < k →
    (∀ j, s ≤ j → j < st.sb.ninodes → (readDinode st dev j).type ≠ 0) →
    iallocLoop st dev type k s = Except.error Panic.iallocNoInodes := by
  intro k
  induction k with
  | zero => intro s h; omega
  | succ k ih =>
    intro s hk hused
    unfold iallocLoop
    by_cases hs2 : s < st.sb.ninodes
    · have hu2 : getShort (st.disk dev (IBLOCK s st.sb)) (DINODE_SIZE * (s % IPB)) ≠ 0 :=
        hused s (le_refl _) hs2
      rw [if_pos hs2, bread_ok hfs.disk_present (iblock_lt hfs har hs2).2.1]
      simp only [bind_ok_eq]
      rw [if_neg hu2]
      exact ih (s + 1) (by omega) (fun j h1 h2 => hused j (by omega) h2)
    · rw [if_neg hs2]

/-- The record of a claimed inode and the rest of the disk. -/
theorem claimed_spec (st : FS) (dev inum : Nat) (type : Int) (h1 : -32768 ≤ type)
    (h2 : type < 32768) :
    (claimed st dev inum type).sb = st.sb ∧
    (readDinode (claimed st dev inum type) dev inum).type = type ∧
    (readDinode (claimed st dev inum type) dev inum).major = 0 ∧
    (readDinode (claimed st dev inum type) dev inum).minor = 0 ∧
    (readDinode (claimed st dev inum type) dev inum).nlink = 0 ∧
    (readDinode (claimed st dev inum type) dev inum).size = 0 ∧
    (∀ i, i ≤ NDIRECT → (readDinode (claimed st dev inum type) dev inum).addrs i = 0) ∧
    (∀ d b k, ¬ (d = dev ∧ b = IBLOCK inum st.sb ∧ DINODE_SIZE * (inum % IPB) ≤ k ∧
        k < DINODE_SIZE * (inum % IPB) + DINODE_SIZE) →
      (claimed st dev inum type).disk d b k = st.disk d b k) := by
  have hblk : (claimed st dev inum type).disk dev (IBLOCK inum st.sb) =
      claimDinode (st.disk dev (IBLOCK inum st.sb)) inum type := by
    unfold claimed
    rw [setBlock_same]
  have hbyte : ∀ k, DINODE_SIZE * (inum % IPB) ≤ k → k < DINODE_SIZE * (inum % IPB) + DINODE_SIZE →
      claimDinode (st.disk dev (IBLOCK inum st.sb)) inum type k =
        if k < DINODE_SIZE * (inum % IPB) + 2 then encShort type (k - DINODE_SIZE * (inum % IPB))
        else 0 := by
    intro k k1 k2
    unfold claimDinode
    rw [if_pos ⟨k1, k2⟩]
  have hz : ∀ k, DINODE_SIZE * (inum % IPB) + 2 ≤ k →
      k < DINODE_SIZE * (inum % IPB) + DINODE_SIZE →
      claimDinode (st.disk dev (IBLOCK inum st.sb)) inum type k = 0 := by
    intro k k1 k2
    rw [hbyte k (by omega) k2, if_neg (by omega)]
  have hshort0 : ∀ a, 2 ≤ a → a + 1 < DINODE_SIZE →
      getShort (claimDinode (st.disk dev (IBLOCK inum st.sb)) inum type)
        (DINODE_SIZE * (inum % IPB) + a) = 0 := by
    intro a a1 a2
    exact getShort_zero _ _ (hz _ (by omega) (by omega)) (hz _ (by omega) (by omega))
  have hword0 : ∀ w, 2 ≤ w → w < 16 →
      getU32 (claimDinode (st.disk dev (IBLOCK inum st.sb)) inum type)
        (DINODE_SIZE / 4 * (inum % IPB) + w) = 0 := by
    intro w w1 w2
    apply getU32_zero_bytes
    intro k k1 k2
    apply hz k
    · simp only [DINODE_SIZE_eq] at *; omega
    · simp only [DINODE_SIZE_eq] at *; omega
  refine ⟨rfl, ?_, ?_, ?_, ?_, ?_, ?_, ?_⟩
  · show getShort ((claimed st dev inum type).disk dev (IBLOCK inum st.sb)) _ = type
    rw [hblk]
    apply getShort_enc _ _ _ h1 h2
    · rw [hbyte _ (le_refl _) (by simp only [DINODE_SIZE_eq]; omega), if_pos (by omega),
        Nat.sub_self]
    · rw [hbyte _ (by omega) (by simp only [DINODE_SIZE_eq]; omega), if_pos (by omega)]
      congr 1
      omega
  · show getShort ((claimed st dev inum type).disk dev (IBLOCK inum st.sb)) _ = 0
    rw [hblk]
    exact hshort0 2 (le_refl _) (by decide)
  · show getShort ((claimed st dev inum type).disk dev (IBLOCK inum st.sb)) _ = 0
    rw [hblk]
    exact hshort0 4 (by decide) (by decide)
  · show getShort ((claimed st dev inum type).disk dev (IBLOCK inum st.sb)) _ = 0
    rw [hblk]
    exact hshort0 6 (by decide) (by decide)
  · show getU32 ((claimed st dev inum type).disk dev (IBLOCK inum st.sb)) _ = 0
    rw [hblk]
    have := hword0 2 (le_refl _) (by decide)
    have e : (DINODE_SIZE * (inum % IPB) + 8) / 4 = DINODE_SIZE / 4 * (inum % IPB) + 2 := by
      simp only [DINODE_SIZE_eq]; omega
    rw [e]; exact this
  · intro i hi2
    show (if i ≤ NDIRECT then
      getU32 ((claimed st dev inum type).disk dev (IBLOCK inum st.sb)) _ else 0) = 0
    rw [if_pos hi2, hblk]
    have := hword0 (3 + i) (by omega) (by simp only [NDIRECT_eq] at hi2; omega)
    have e : (DINODE_SIZE * (inum % IPB) + 12) / 4 + i =
        DINODE_SIZE / 4 * (inum % IPB) + (3 + i) := by
      simp only [DINODE_SIZE_eq]; omega
    rw [e]; exact this
  · intro d b k hne
    unfold claimed
    by_cases hdb : d = dev ∧ b = IBLOCK inum st.sb
    · rw [hdb.1, hdb.2, setBlock_same]
      unfold claimDinode
      rw [if_neg (fun x => hne ⟨hdb.1, hdb.2, x.1, x.2⟩)]
    · rw [setBlock_other _ _ _ _ _ _ (by
        by_cases hd : d = dev
        · exact Or.inr (fun e => hdb ⟨hd, e⟩)
        · exact Or.inl hd)]

theorem getShort_congr {d1 d2 : Mem} {o : Nat} (e0 : d1 o = d2 o) (e1 : d1 (o + 1) = d2 (o + 1)) :
    getShort d1 o = getShort d2 o := by
  unfold getShort
  rw [e0, e1]

theorem getU32_congr {d1 d2 : Mem} {w : Nat} (e : ∀ k, 4 * w ≤ k → k < 4 * w + 4 → d1 k = d2 k) :
    getU32 d1 w = getU32 d2 w := by
  unfold getU32
  rw [e _ (le_refl _) (by omega), e (4 * w + 1) (by omega) (by omega),
    e (4 * w + 2) (by omega) (by omega), e (4 * w + 3) (by omega) (by omega)]

/-- Two states with the same super block in which the 64 bytes of a record
agree give the same on-disk inode. -/
theorem readDinode_congr {st st2 : FS} {dev inum : Nat} (hsb : st2.sb = st.sb)
    (h : ∀ k, DINODE_SIZE * (inum % IPB) ≤ k → k < DINODE_SIZE * (inum % IPB) + DINODE_SIZE →
      st2.disk dev (IBLOCK inum st.sb) k = st.disk dev (IBLOCK inum st.sb) k) :
    readDinode st2 dev inum = readDinode st dev inum := by
  unfold readDinode
  simp only [hsb]
  have hs : ∀ a, a + 1 < DINODE_SIZE →
      getShort (st2.disk dev (IBLOCK inum st.sb)) (DINODE_SIZE * (inum % IPB) + a) =
      getShort (st.disk dev (IBLOCK inum st.sb)) (DINODE_SIZE * (inum % IPB) + a) :=
    fun a ha => getShort_congr (h _ (by omega) (by omega)) (h _ (by omega) (by omega))
  have hw : ∀ w, 2 ≤ w → w < 16 →
      getU32 (st2.disk dev (IBLOCK inum st.sb)) (DINODE_SIZE / 4 * (inum % IPB) + w) =
      getU32 (st.disk dev (IBLOCK inum st.sb)) (DINODE_SIZE / 4 * (inum % IPB) + w) := by
    intro w w1 w2
    apply getU32_congr
    intro k k1 k2
    apply h k
    · simp only [DINODE_SIZE_eq] at *; omega
    · simp only [DINODE_SIZE_eq] at *; omega
  have e8 : (DINODE_SIZE * (inum % IPB) + 8) / 4 = DINODE_SIZE / 4 * (inum % IPB) + 2 := by
    simp only [DINODE_SIZE_eq]; omega
  have e12 : ∀ i, (DINODE_SIZE * (inum % IPB) + 12) / 4 + i =
      DINODE_SIZE / 4 * (inum % IPB) + (3 + i) := by
    intro i; simp only [DINODE_SIZE_eq]; omega
  have h0 := hs 0 (by decide)
  rw [Nat.add_zero] at h0
  rw [h0, hs 2 (by decide), hs 4 (by decide), hs 6 (by decide), e8, hw 2 (le_refl _) (by decide)]
  congr 1
  funext i
  by_cases hi : i ≤ NDIRECT
  · rw [if_pos hi, if_pos hi, e12, hw (3 + i) (by omega) (by simp only [NDIRECT_eq] at hi; omega)]
  · rw [if_neg hi, if_neg hi]

/-- Claiming an inode leaves every other on-disk inode as it was. -/
theorem claimed_others {st : FS} {dev : Nat} (hfs : FsOk st dev) (inum : Nat) (type : Int)
    (hi : inum < U32) (d j : Nat) (hj : j < U32) (hne : d ≠ dev ∨ j ≠ inum) :
    readDinode (claimed st dev inum type) d j = readDinode st d j := by
  refine @readDinode_congr st (claimed st dev inum type) d j rfl ?_
  intro k k1 k2
  unfold claimed
  by_cases hdb : d = dev ∧ IBLOCK j st.sb = IBLOCK inum st.sb
  · rw [hdb.1, hdb.2, setBlock_same]
    unfold claimDinode
    rw [if_neg]
    intro hk
    have h2 := hfs.size_le
    have h3 := hfs.data_in_image
    have h4 := hfs.bitmap_after_inodes
    unfold dataStart at h3
    have hq := hdb.2
    unfold IBLOCK at hq
    simp only [FSSIZE_eq, BPB_eq, IPB_eq, U32_eq, DINODE_SIZE_eq] at *
    rw [Nat.mod_eq_of_lt (by omega), Nat.mod_eq_of_lt (by omega)] at hq
    rcases hne with h | h
    · exact h hdb.1
    · omega
  · rw [setBlock_other _ _ _ _ _ _ (by
      by_cases hd : d = dev
      · exact Or.inr (fun e => hdb ⟨hd, e⟩)
      · exact Or.inl hd)]

/-- The inode that `iget` returns has the number asked for. -/
theorem iget_inum {ic : ICache} {dev inum i : Nat} {ic2 : ICache}
    (h : iget ic dev inum = Except.ok (i, ic2)) : (ic2 i).dev = dev ∧ (ic2 i).inum = inum := by
  obtain ⟨-, hc | hc⟩ := iget_cases h
  · obtain ⟨-, c2, c3, -, rfl⟩ := hc
    rw [ICache.set_same]
    exact ⟨c2, c3⟩
  · obtain ⟨-, -, -, rfl⟩ := hc
    rw [ICache.set_same]
    exact ⟨rfl, rfl⟩

theorem iget_error {ic : ICache} {dev inum : Nat} {e : Panic}
    (h : iget ic dev inum = Except.error e) : e = Panic.igetNoInodes := by
  unfold iget at h
  split at h
  · exact Except.noConfusion h
  · simp only [Except.error.injEq] at h
    exact h.symm
  · exact Except.noConfusion h

/-! ## Freeing blocks -/

set_option maxRecDepth 1000000 in
theorem bit_clear_and : ∀ k < 8, ∀ j < 8, ∀ x < 256,
    (((x &&& (4294967296 - 1 - (1 <<< k))) % 256) &&& (1 <<< j) ≠ 0 ↔
      (x &&& (1 <<< j) ≠ 0 ∧ j ≠ k)) := by
  decide!

theorem markFree_sb (st : FS) (dev b : Nat) : (markFree st dev b).sb = st.sb := rfl

theorem markFree_other (st : FS) (dev b : Nat) (dev2 x : Nat)
    (h : dev2 ≠ dev ∨ x ≠ BBLOCK b st.sb) : (markFree st dev b).disk dev2 x = st.disk dev2 x := by
  unfold markFree
  rw [setBlock_other _ _ _ _ _ _ h]

/-- After `bfree` of block `r` the bit of `r` is clear and the bit of every
other block covered by the bitmap is as before. -/
theorem markFree_bitSet {st : FS} {dev r : Nat} (hfs : FsOk st dev) (hr : r < st.sb.size)
    (b : Nat) (hb : b / BPB ≤ st.sb.size / BPB) :
    bitSet (markFree st dev r) dev b ↔ (bitSet st dev b ∧ b ≠ r) := by
  have hrq : r / BPB ≤ st.sb.size / BPB := Nat.div_le_div_right (le_of_lt hr)
  obtain ⟨r1, r2, r3, r4⟩ := hfs.bmap_block_lt hrq
  obtain ⟨b1, b2, b3, b4⟩ := hfs.bmap_block_lt hb
  unfold bitSet
  rw [markFree_sb]
  by_cases hbl : BBLOCK b st.sb = BBLOCK r st.sb
  · rw [hbl]
    unfold markFree
    rw [setBlock_same]
    by_cases hby : b % BPB / 8 = r % BPB / 8
    · rw [if_pos hby]
      have hx : st.disk dev (BBLOCK r st.sb) (r % BPB / 8) < 256 := by
        rw [r1]; exact hfs.bitmap_bytes _ _ hrq
      have hk : r % 8 < 8 := Nat.mod_lt _ (by norm_num)
      have hj : b % 8 < 8 := Nat.mod_lt _ (by norm_num)
      have hq : b / BPB = r / BPB := by omega
      simp only [U32_eq]
      rw [bit_clear_and (r % 8) hk (b % 8) hj _ hx, hby]
      simp only [BPB_eq] at hby hq
      constructor
      · rintro ⟨h1, h2⟩
        exact ⟨h1, fun e => h2 (by rw [e])⟩
      · rintro ⟨h1, h2⟩
        exact ⟨h1, fun e => h2 (by omega)⟩
    · rw [if_neg hby]
      constructor
      · intro h
        exact ⟨h, fun e => hby (by rw [e])⟩
      · exact fun h => h.1
  · rw [markFree_other _ _ _ _ _ (Or.inr hbl)]
    constructor
    · intro h
      exact ⟨h, fun e => hbl (by rw [e])⟩
    · exact fun h => h.1

theorem Freed.refl {st : FS} {dev : Nat} (hfs : FsOk st dev) :
    Freed st dev (fun _ => False) st :=
  ⟨hfs, rfl, fun _ _ => ⟨fun h => ⟨h, fun f => f⟩, fun h => h.1⟩, fun _ _ => rfl⟩

theorem Freed.congr {st st2 : FS} {dev : Nat} {S T : Nat → Prop} (h : Freed st dev S st2)
    (e : ∀ b, S b ↔ T b) : Freed st dev T st2 :=
  ⟨h.fs, h.sb, fun b hb => by rw [h.bits b hb, e b], h.other⟩

theorem Freed.trans {st st1 st2 : FS} {dev : Nat} {S T : Nat → Prop} (h1 : Freed st dev S st1)
    (h2 : Freed st1 dev T st2) : Freed st dev (fun b => S b ∨ T b) st2 := by
  refine ⟨h2.fs, by rw [h2.sb, h1.sb], ?_, ?_⟩
  · intro b hb
    rw [h2.bits b (by rw [h1.sb]; exact hb), h1.bits b hb]
    constructor
    · rintro ⟨⟨a1, a2⟩, a3⟩
      exact ⟨a1, fun h => h.elim a2 a3⟩
    · rintro ⟨a1, a2⟩
      exact ⟨⟨a1, fun h => a2 (Or.inl h)⟩, fun h => a2 (Or.inr h)⟩
  · intro x hx
    rw [h2.other x (by rw [h1.sb]; exact hx), h1.other x hx]

/-- A call of `bfree` on a data block marked in use returns and clears the bit
of that block only. -/
theorem bfree_freed {st : FS} {dev b : Nat} (hfs : FsOk st dev) (hd : dataStart st.sb ≤ b)
    (hb : b < st.sb.size) (hs : bitSet st dev b) :
    bfree st dev b = Except.ok (markFree st dev b) ∧
      Freed st dev (fun x => x = b) (markFree st dev b) := by
  have hbq : b / BPB ≤ st.sb.size / BPB := Nat.div_le_div_right (le_of_lt hb)
  obtain ⟨r1, r2, r3, r4⟩ := hfs.bmap_block_lt hbq
  refine ⟨bfree_ok hfs hb hs, ⟨hfs.disk_present, hfs.size_le, hfs.inodes_after_super,
    hfs.bitmap_after_inodes, hfs.data_in_image, ?_, ?_, ?_⟩, rfl,
    fun x hx => markFree_bitSet hfs hb x hx, ?_⟩
  · rw [markFree_sb, markFree_other _ _ _ _ _ (Or.inr (by omega))]
    exact hfs.sb_on_disk
  · intro x hx
    rw [markFree_sb] at hx
    have hxq : x / BPB ≤ st.sb.size / BPB :=
      Nat.div_le_div_right (by have := hfs.data_in_image; omega)
    exact (markFree_bitSet hfs hb x hxq).mpr ⟨hfs.meta_used x hx, by omega⟩
  · intro k i hk
    rw [markFree_sb] at hk ⊢
    by_cases hkb : st.sb.bmapstart + k = BBLOCK b st.sb
    · rw [hkb]
      unfold markFree
      rw [setBlock_same]
      split_ifs
      · exact Nat.mod_lt _ (by norm_num)
      · rw [← hkb]; exact hfs.bitmap_bytes k i hk
    · rw [markFree_other _ _ _ _ _ (Or.inr hkb)]
      exact hfs.bitmap_bytes k i hk
  · intro x hx
    exact markFree_other _ _ _ _ _ (Or.inr (by rw [r1]; exact hx _ hbq))

/-! ## The loops of `itrunc` -/

/-- The first loop of `itrunc` on direct entries that are distinct data blocks
marked in use: it returns, the entries are zeroed and their blocks freed. -/
theorem itruncDirect_freed : ∀ (k i : Nat) (st : FS) (ip : Inode), FsOk st ip.dev →
    (∀ j, i ≤ j → j < i + k → ip.addrs j ≠ 0 →
      dataStart st.sb ≤ ip.addrs j ∧ ip.addrs j < st.sb.size ∧ bitSet st ip.dev (ip.addrs j)) →
    (∀ j j2, i ≤ j → j < j2 → j2 < i + k → ip.addrs j ≠ 0 → ip.addrs j ≠ ip.addrs j2) →
    ∃ st2, itruncDirect k st ip i = Except.ok (st2,
        { ip with addrs := fun j => if i ≤ j ∧ j < i + k then 0 else ip.addrs j }) ∧
      Freed st ip.dev (fun b => ∃ j, i ≤ j ∧ j < i + k ∧ ip.addrs j ≠ 0 ∧ ip.addrs j = b) st2 := by
  intro k
  induction k with
  | zero =>
    intro i st ip hfs _ _
    refine ⟨st, ?_, (Freed.refl hfs).congr (fun b => ⟨fun f => f.elim, ?_⟩)⟩
    · unfold itruncDirect
      have e : (fun j => if i ≤ j ∧ j < i + 0 then 0 else ip.addrs j) = ip.addrs := by
        funext j
        rw [if_neg (by omega)]
      rw [e]
    · rintro ⟨j, j1, j2, -⟩
      omega
  | succ k ih =>
    intro i st ip hfs hblk hinj
    unfold itruncDirect
    by_cases ha : ip.addrs i ≠ 0
    · obtain ⟨a1, a2, a3⟩ := hblk i (le_refl _) (by omega) ha
      obtain ⟨hb, hf1⟩ := bfree_freed hfs a1 a2 a3
      rw [if_pos ha, hb]
      simp only [bind_ok_eq]
      have hother : ∀ j, i + 1 ≤ j → (ip.setAddr i 0).addrs j = ip.addrs j := by
        intro j hj
        rw [setAddr_addrs, if_neg (by omega)]
      obtain ⟨st2, h2, hf2⟩ := ih (i + 1) (markFree st ip.dev (ip.addrs i)) (ip.setAddr i 0)
        hf1.fs
        (fun j j1 j2 j3 => by
          rw [hother j j1] at j3 ⊢
          obtain ⟨c1, c2, c3⟩ := hblk j (by omega) (by omega) j3
          refine ⟨c1, c2, (hf1.bits _ (Nat.div_le_div_right (le_of_lt c2))).mpr ⟨c3, ?_⟩⟩
          exact fun e => hinj i j (le_refl _) (by omega) (by omega) ha e.symm)
        (fun j j2 j1 j3 j4 j5 => by
          rw [hother j j1] at j5 ⊢
          rw [hother j2 (by omega)]
          exact hinj j j2 (by omega) j3 (by omega) j5)
      refine ⟨st2, ?_, (hf1.trans hf2).congr ?_⟩
      · rw [h2]
        have e : (fun j => if i + 1 ≤ j ∧ j < i + 1 + k then 0 else (ip.setAddr i 0).addrs j) =
            (fun j => if i ≤ j ∧ j < i + (k + 1) then 0 else ip.addrs j) := by
          funext j
          by_cases hj : i + 1 ≤ j
          · rw [hother j hj]
            by_cases hj2 : j < i + 1 + k
            · rw [if_pos ⟨hj, hj2⟩, if_pos ⟨by omega, by omega⟩]
            · rw [if_neg (fun h => hj2 h.2), if_neg (fun h => hj2 (by omega))]
          · rw [if_neg (fun h => hj h.1), setAddr_addrs]
            by_cases hji : j = i
            · rw [if_pos hji, if_pos ⟨by omega, by omega⟩]
            · rw [if_neg hji, if_neg (fun h => hj (by omega))]
        show Except.ok (st2, { ip with addrs := _ }) = _
        rw [e]
      · intro b
        constructor
        · rintro (h | ⟨j, j1, j2, j3, j4⟩)
          · exact ⟨i, le_refl _, by omega, ha, h.symm⟩
          · rw [hother j j1] at j3 j4
            exact ⟨j, by omega, by omega, j3, j4⟩
        · rintro ⟨j, j1, j2, j3, j4⟩
          by_cases hji : j = i
          · left; rw [← j4, hji]
          · right
            refine ⟨j, by omega, by omega, ?_, ?_⟩
            · rw [hother j (by omega)]; exact j3
            · rw [hother j (by omega)]; exact j4
    · have ha0 : ip.addrs i = 0 := not_not.mp ha
      rw [if_neg ha]
      obtain ⟨st2, h2, hf2⟩ := ih (i + 1) st ip hfs
        (fun j j1 j2 j3 => hblk j (by omega) (by omega) j3)
        (fun j j2 j1 j3 j4 j5 => hinj j j2 (by omega) j3 (by omega) j5)
      refine ⟨st2, ?_, hf2.congr ?_⟩
      · rw [h2]
        have e : (fun j => if i + 1 ≤ j ∧ j < i + 1 + k then 0 else ip.addrs j) =
            (fun j => if i ≤ j ∧ j < i + (k + 1) then 0 else ip.addrs j) := by
          funext j
          by_cases hj : i + 1 ≤ j
          · by_cases hj2 : j < i + 1 + k
            · rw [if_pos ⟨hj, hj2⟩, if_pos ⟨by omega, by omega⟩]
            · rw [if_neg (fun h => hj2 h.2), if_neg (fun h => hj2 (by omega))]
          · rw [if_neg (fun h => hj h.1)]
            by_cases hji : j = i
            · rw [if_pos ⟨by omega, by omega⟩, hji, ha0]
            · rw [if_neg (fun h => hj (by omega))]
        rw [e]
      · intro b
        constructor
        · rintro ⟨j, j1, j2, j3, j4⟩
          exact ⟨j, by omega, by omega, j3, j4⟩
        · rintro ⟨j, j1, j2, j3, j4⟩
          have hji : j ≠ i := fun e => j3 (by rw [e]; exact ha0)
          exact ⟨j, by omega, by omega, j3, j4⟩

/-- The second loop of `itrunc` on an indirect block, itself a data block,
whose entries are distinct data blocks marked in use: it returns and the blocks
of the entries are freed. -/
theorem itruncIndirect_freed {dev ind : Nat} : ∀ (k j : Nat) (st : FS), FsOk st dev →
    (∀ x, x ≤ st.sb.size / BPB → ind ≠ st.sb.bmapstart + x) →
    (∀ m, j ≤ m → m < j + k → getU32 (st.disk dev ind) m ≠ 0 →
      dataStart st.sb ≤ getU32 (st.disk dev ind) m ∧ getU32 (st.disk dev ind) m < st.sb.size ∧
        bitSet st dev (getU32 (st.disk dev ind) m)) →
    (∀ m m2, j ≤ m → m < m2 → m2 < j + k → getU32 (st.disk dev ind) m ≠ 0 →
      getU32 (st.disk dev ind) m ≠ getU32 (st.disk dev ind) m2) →
    ∃ st2, itruncIndirect dev ind k st j = Except.ok st2 ∧
      Freed st dev (fun b => ∃ m, j ≤ m ∧ m < j + k ∧ getU32 (st.disk dev ind) m ≠ 0 ∧
        getU32 (st.disk dev ind) m = b) st2 := by
  intro k
  induction k with
  | zero =>
    intro j st hfs _ _ _
    refine ⟨st, rfl, (Freed.refl hfs).congr (fun b => ⟨fun f => f.elim, ?_⟩)⟩
    rintro ⟨m, m1, m2, -⟩
    omega
  | succ k ih =>
    intro j st hfs hind hblk hinj
    unfold itruncIndirect
    by_cases ha : getU32 (st.disk dev ind) j ≠ 0
    · obtain ⟨a1, a2, a3⟩ := hblk j (le_refl _) (by omega) ha
      obtain ⟨hb, hf1⟩ := bfree_freed hfs a1 a2 a3
      rw [if_pos ha, hb]
      simp only [bind_ok_eq]
      have hdisk : (markFree st dev (getU32 (st.disk dev ind) j)).disk dev ind = st.disk dev ind :=
        hf1.other ind hind
      obtain ⟨st2, h2, hf2⟩ := ih (j + 1) (markFree st dev (getU32 (st.disk dev ind) j)) hf1.fs
        hind
        (fun m m1 m2 m3 => by
          rw [hdisk] at m3 ⊢
          obtain ⟨c1, c2, c3⟩ := hblk m (by omega) (by omega) m3
          refine ⟨c1, c2, (hf1.bits _ (Nat.div_le_div_right (le_of_lt c2))).mpr ⟨c3, ?_⟩⟩
          exact fun e => hinj j m (le_refl _) (by omega) (by omega) ha e.symm)
        (fun m m2 m1 m3 m4 m5 => by
          rw [hdisk] at m5 ⊢
          exact hinj m m2 (by omega) m3 (by omega) m5)
      rw [hdisk] at hf2
      refine ⟨st2, h2, (hf1.trans hf2).congr ?_⟩
      intro b
      constructor
      · rintro (h | ⟨m, m1, m2, m3, m4⟩)
        · exact ⟨j, le_refl _, by omega, ha, h.symm⟩
        · exact ⟨m, by omega, by omega, m3, m4⟩
      · rintro ⟨m, m1, m2, m3, m4⟩
        by_cases hmj : m = j
        · left; rw [← m4, hmj]
        · right
          exact ⟨m, by omega, by omega, m3, m4⟩
    · have ha0 : getU32 (st.disk dev ind) j = 0 := not_not.mp ha
      rw [if_neg ha]
      obtain ⟨st2, h2, hf2⟩ := ih (j + 1) st hfs hind
        (fun m m1 m2 m3 => hblk m (by omega) (by omega) m3)
        (fun m m2 m1 m3 m4 m5 => hinj m m2 (by omega) m3 (by omega) m5)
      refine ⟨st2, h2, hf2.congr ?_⟩
      intro b
      constructor
      · rintro ⟨m, m1, m2, m3, m4⟩
        exact ⟨m, by omega, by omega, m3, m4⟩
      · rintro ⟨m, m1, m2, m3, m4⟩
        have hmj : m ≠ j := fun e => m3 (by rw [e]; exact ha0)
        exact ⟨m, by omega, by omega, m3, m4⟩

/-! ## `itrunc` -/

/-- On a well-formed inode `itrunc` returns: the thirteen addresses and the
size are zero, the bitmap bit of every block the inode referred to is clear
and every other bit is as before, and the truncated inode is well formed. -/
theorem itrunc_spec {st : FS} {ip : Inode} (hok : InodeOk st ip) :
    ∃ st3, itrunc st ip = Except.ok (st3,
        { ip with size := 0, addrs := fun j => if j ≤ NDIRECT then 0 else ip.addrs j }) ∧
      st3.sb = st.sb ∧
      InodeOk st3 { ip with size := 0, addrs := fun j => if j ≤ NDIRECT then 0 else ip.addrs j } ∧
      ∀ b, b < st.sb.size → (bitSet st3 ip.dev b ↔ (bitSet st ip.dev b ∧ ¬ refersTo st ip b)) := by
  have hfs := hok.fs
  obtain ⟨st1, h1, hf1⟩ := itruncDirect_freed NDIRECT 0 st ip hfs
    (fun j _ j2 j3 => by
      have hb := blockAt_direct st ip j (by omega)
      rw [← hb] at j3 ⊢
      exact hok.blk_data j (by simp only [MAXFILE_eq, NDIRECT_eq] at j2 ⊢; omega) j3)
    (fun j j2 _ j3 j4 j5 e => by
      have hb := blockAt_direct st ip j (by omega)
      have hb2 := blockAt_direct st ip j2 (by omega)
      rw [← hb] at j5 e
      rw [← hb2] at e
      have := hok.blk_inj j j2 (by simp only [MAXFILE_eq, NDIRECT_eq] at j4 ⊢; omega)
        (by simp only [MAXFILE_eq, NDIRECT_eq] at j4 ⊢; omega) j5 e
      omega)
  obtain ⟨ip1, hip1⟩ : ∃ ip1 : Inode, ip1 =
      { ip with addrs := fun j => if 0 ≤ j ∧ j < 0 + NDIRECT then 0 else ip.addrs j } := ⟨_, rfl⟩
  rw [← hip1] at h1
  have hdev1 : ip1.dev = ip.dev := by rw [hip1]
  have hind1 : ip1.addrs NDIRECT = ip.addrs NDIRECT := by
    rw [hip1]
    show (if 0 ≤ NDIRECT ∧ NDIRECT < 0 + NDIRECT then 0 else ip.addrs NDIRECT) = _
    rw [if_neg (by omega)]
  have hrec : ip.inum / IPB + st.sb.inodestart < st.sb.bmapstart := hok.record_in_area
  -- the part of `itrunc` on the indirect block
  have hmid : ∃ st2, (if ip1.addrs NDIRECT ≠ 0 then do
        let _ ← bread st1 ip1.dev (ip1.addrs NDIRECT)
        let s2 ← itruncIndirect ip1.dev (ip1.addrs NDIRECT) NINDIRECT st1 0
        let s3 ← bfree s2 ip1.dev (ip1.addrs NDIRECT)
        pure (s3, ip1.setAddr NDIRECT 0)
      else pure (st1, ip1) : Except Panic (FS × Inode)) = Except.ok (st2,
        { ip with addrs := fun j => if j ≤ NDIRECT then 0 else ip.addrs j }) ∧
      Freed st ip.dev (refersTo st ip) st2 := by
    by_cases hi : ip.addrs NDIRECT ≠ 0
    · obtain ⟨i1, i2, i3⟩ := hok.ind_data hi
      have hnb : ∀ x, x ≤ st.sb.size / BPB → ip.addrs NDIRECT ≠ st.sb.bmapstart + x :=
        not_bitmap_of_data i1
      have hdisk : st1.disk ip.dev (ip.addrs NDIRECT) = st.disk ip.dev (ip.addrs NDIRECT) :=
        hf1.other _ hnb
      have hent : ∀ m, m < NINDIRECT →
          getU32 (st.disk ip.dev (ip.addrs NDIRECT)) m = blockAt st ip (NDIRECT + m) := by
        intro m _
        rw [blockAt_indirect st ip (NDIRECT + m) (by omega) hi]
        congr 1
        omega
      have hmax : ∀ m, m < NINDIRECT → NDIRECT + m < MAXFILE := by
        intro m hm
        simp only [MAXFILE_eq, NDIRECT_eq, NINDIRECT_eq] at hm ⊢
        omega
      obtain ⟨s2, h2, hf2⟩ := @itruncIndirect_freed ip.dev (ip.addrs NDIRECT)
        NINDIRECT 0 st1 hf1.fs (by rw [hf1.sb]; exact hnb)
        (fun m _ m2 m3 => by
          rw [hdisk] at m3 ⊢
          rw [hent m (by omega)] at m3 ⊢
          obtain ⟨c1, c2, c3⟩ := hok.blk_data _ (hmax m (by omega)) m3
          rw [hf1.sb]
          refine ⟨c1, c2, (hf1.bits _ (Nat.div_le_div_right (le_of_lt c2))).mpr ⟨c3, ?_⟩⟩
          rintro ⟨j, -, j2, j3, j4⟩
          rw [← blockAt_direct st ip j (by omega)] at j4
          have := hok.blk_inj _ _ (hmax m (by omega)) (by
            simp only [MAXFILE_eq, NDIRECT_eq] at j2 ⊢; omega) m3 j4.symm
          omega)
        (fun m m2 _ m3 m4 m5 e => by
          rw [hdisk] at m5 e
          rw [hent m (by omega)] at m5 e
          rw [hent m2 (by omega)] at e
          have := hok.blk_inj _ _ (hmax m (by omega)) (hmax m2 (by omega)) m5 e
          omega)
      rw [hdisk] at hf2
      have hf12 := hf1.trans hf2
      have hs2 : bitSet s2 ip.dev (ip.addrs NDIRECT) := by
        refine (hf12.bits _ (Nat.div_le_div_right (le_of_lt i2))).mpr ⟨i3, ?_⟩
        rintro (⟨j, -, j2, j3, j4⟩ | ⟨m, -, m2, m3, m4⟩)
        · rw [← blockAt_direct st ip j (by omega)] at j3 j4
          exact hok.blk_ne_ind j (by simp only [MAXFILE_eq, NDIRECT_eq] at j2 ⊢; omega) j3 j4
        · rw [hent m (by omega)] at m3 m4
          exact hok.blk_ne_ind _ (hmax m (by omega)) m3 m4
      obtain ⟨hb3, hf3⟩ := bfree_freed hf12.fs (by rw [hf12.sb]; exact i1)
        (by rw [hf12.sb]; exact i2) hs2
      have hlt : ip.addrs NDIRECT < FSSIZE := by have := hfs.size_le; omega
      refine ⟨markFree s2 ip.dev (ip.addrs NDIRECT), ?_, (hf12.trans hf3).congr ?_⟩
      · rw [if_pos (by rw [hind1]; exact hi), hdev1, hind1,
          bread_ok hf1.fs.disk_present hlt]
        simp only [bind_ok_eq]
        rw [h2]
        simp only [bind_ok_eq]
        rw [hb3]
        simp only [bind_ok_eq, pure_eq_ok]
        rw [hip1]
        unfold Inode.setAddr
        simp only [Except.ok.injEq, Prod.mk.injEq, true_and]
        congr 1
        funext j
        by_cases hj : j = NDIRECT
        · rw [if_pos hj, if_pos (by omega)]
        · rw [if_neg hj]
          by_cases hj2 : j < NDIRECT
          · rw [if_pos ⟨by omega, by omega⟩, if_pos (by omega)]
          · rw [if_neg (fun h => hj2 (by omega)), if_neg (by omega)]
      · intro b
        unfold refersTo
        constructor
        · rintro ((⟨j, -, j2, j3, j4⟩ | ⟨m, -, m2, m3, m4⟩) | h)
          · rw [← blockAt_direct st ip j (by omega)] at j3 j4
            exact ⟨by rw [← j4]; exact j3, Or.inl ⟨j, by
              simp only [MAXFILE_eq, NDIRECT_eq] at j2 ⊢; omega, j4⟩⟩
          · rw [hent m (by omega)] at m3 m4
            exact ⟨by rw [← m4]; exact m3, Or.inl ⟨_, hmax m (by omega), m4⟩⟩
          · exact ⟨by rw [h]; exact hi, Or.inr h.symm⟩
        · rintro ⟨hb0, ⟨bn, bn1, bn2⟩ | h⟩
          · by_cases hd : bn < NDIRECT
            · rw [blockAt_direct st ip bn hd] at bn2
              exact Or.inl (Or.inl ⟨bn, Nat.zero_le _, by omega, by rw [bn2]; exact hb0, bn2⟩)
            · have hm : bn - NDIRECT < NINDIRECT := by
                simp only [MAXFILE_eq, NDIRECT_eq, NINDIRECT_eq] at bn1 hd ⊢
                omega
              have e := hent (bn - NDIRECT) hm
              have e2 : NDIRECT + (bn - NDIRECT) = bn := by omega
              rw [e2, bn2] at e
              exact Or.inl (Or.inr ⟨bn - NDIRECT, Nat.zero_le _, by omega, by rw [e]; exact hb0,
                e⟩)
          · exact Or.inr h.symm
    · have hi0 : ip.addrs NDIRECT = 0 := not_not.mp hi
      refine ⟨st1, ?_, hf1.congr ?_⟩
      · rw [if_neg (by rw [hind1]; exact hi), hip1]
        simp only [pure_eq_ok, Except.ok.injEq, Prod.mk.injEq, true_and]
        congr 1
        funext j
        by_cases hj2 : j < NDIRECT
        · rw [if_pos ⟨by omega, by omega⟩, if_pos (by omega)]
        · rw [if_neg (fun h => hj2 (by omega))]
          by_cases hj : j = NDIRECT
          · rw [if_pos (by omega), hj, hi0]
          · rw [if_neg (by omega)]
      · intro b
        unfold refersTo
        constructor
        · rintro ⟨j, -, j2, j3, j4⟩
          rw [← blockAt_direct st ip j (by omega)] at j3 j4
          exact ⟨by rw [← j4]; exact j3, Or.inl ⟨j, by
            simp only [MAXFILE_eq, NDIRECT_eq] at j2 ⊢; omega, j4⟩⟩
        · rintro ⟨hb0, ⟨bn, bn1, bn2⟩ | h⟩
          · by_cases hd : bn < NDIRECT
            · rw [blockAt_direct st ip bn hd] at bn2
              exact ⟨bn, Nat.zero_le _, by omega, by rw [bn2]; exact hb0, bn2⟩
            · rw [blockAt_no_indirect st ip bn (by omega) hi0] at bn2
              exact absurd bn2.symm hb0
          · rw [hi0] at h
            exact absurd h.symm hb0
  obtain ⟨st2, h2, hf⟩ := hmid
  have hok3 : InodeOk st2
      { ip with size := 0, addrs := fun j => if j ≤ NDIRECT then 0 else ip.addrs j } :=
    inodeOk_no_addrs hf.fs (by rw [hf.sb]; exact hrec) (Nat.zero_le _)
      (fun i hi => if_pos hi)
  obtain ⟨st3, h3, hok4, hsb, -, -, hbits⟩ := iupdate_ok hok3
  refine ⟨st3, ?_, by rw [hsb, hf.sb], hok4, ?_⟩
  · unfold itrunc
    rw [h1]
    simp only [bind_ok_eq]
    rw [h2]
    simp only [bind_ok_eq]
    rw [h3]
    rfl
  · intro b hb
    have := hbits b (by rw [hf.sb]; exact hb)
    have hdev : ({ ip with size := 0,
                           addrs := fun j => if j ≤ NDIRECT then 0 else ip.addrs j } : Inode).dev =
        ip.dev := rfl
    rw [hdev] at this
    rw [this, hf.bits b (Nat.div_le_div_right (le_of_lt hb))]

/-! ## `iput` -/

/-- Well-formedness of an inode only looks at its device, number, size and
addresses. -/
theorem inodeOk_congr {st : FS} {ip ip2 : Inode} (hok : InodeOk st ip) (hd : ip2.dev = ip.dev)
    (hi : ip2.inum = ip.inum) (hs : ip2.size = ip.size) (ha : ip2.addrs = ip.addrs) :
    InodeOk st ip2 := by
  have hb : ∀ bn, blockAt st ip2 bn = blockAt st ip bn := by
    intro bn
    unfold blockAt
    rw [ha, hd]
  refine ⟨by rw [hd]; exact hok.fs, by rw [hi]; exact hok.record_in_area,
    by rw [hs]; exact hok.size_le, ?_, ?_, ?_, ?_⟩
  · rw [ha, hd]; exact hok.ind_data
  · intro bn hbn
    rw [hb, hd]
    exact hok.blk_data bn hbn
  · intro bn bn2 h1 h2
    rw [hb, hb]
    exact hok.blk_inj bn bn2 h1 h2
  · intro bn hbn
    rw [hb, ha]
    exact hok.blk_ne_ind bn hbn

/-- On a well-formed inode whose type is a `short`, `iupdate` returns and the
on-disk inode has the type of the in-memory inode. -/
theorem iupdate_type {st : FS} {ip : Inode} (hok : InodeOk st ip) (h1 : -32768 ≤ ip.type)
    (h2 : ip.type < 32768) :
    ∃ st2, iupdate st ip = Except.ok st2 ∧ InodeOk st2 ip ∧ st2.sb = st.sb ∧
      (∀ b, b < st.sb.size → (bitSet st2 ip.dev b ↔ bitSet st ip.dev b)) ∧
      (readDinode st2 ip.dev ip.inum).type = ip.type := by
  obtain ⟨st2, h, hok2, hsb, -, -, hbits⟩ := iupdate_ok hok
  refine ⟨st2, h, hok2, hsb, hbits, ?_⟩
  obtain ⟨i1, i2, i3, i4⟩ := hok.iblock
  unfold iupdate log_write at h
  rw [bread_ok hok.fs.disk_present i3] at h
  simp only [bind_ok_eq, pure_eq_ok, Except.ok.injEq] at h
  rw [← h]
  unfold readDinode
  simp only [setBlock_sb, setBlock_same]
  apply getShort_enc _ _ _ h1 h2
  · rw [if_pos ⟨le_refl _, by simp only [DINODE_SIZE_eq]; omega⟩, Nat.sub_self]
    rfl
  · rw [if_pos ⟨by omega, by simp only [DINODE_SIZE_eq]; omega⟩]
    have : DINODE_SIZE * (ip.inum % IPB) + 1 - DINODE_SIZE * (ip.inum % IPB) = 1 := by omega
    rw [this]
    rfl

/-- The blocks an inode refers to are data blocks inside the image. -/
theorem refersTo_lt {st : FS} {ip : Inode} (hok : InodeOk st ip) {b : Nat}
    (h : refersTo st ip b) : b < st.sb.size := by
  obtain ⟨h0, ⟨bn, bn1, bn2⟩ | h⟩ := h
  · rw [← bn2] at h0 ⊢
    exact (hok.blk_data bn bn1 h0).2.1
  · rw [← h] at h0 ⊢
    exact (hok.ind_data h0).2.1

set_option maxRecDepth 1000000 in
theorem helloFile_fields : helloFile.2.ref = 1 ∧ helloFile.2.valid = 1 ∧ helloFile.2.dev = 1 ∧
    helloFile.2.inum = 2 ∧ blockAt helloFile.1 helloFile.2 0 = 59 ∧ helloFile.1.sb.size = 1000 ∧
    bitSet helloFile.1 1 59 := by
  decide!

/-! ## The in-memory inode and its disk record -/

/-- Four bytes that hold the little-endian image of `v` read back as `v`. -/
theorem getU32_enc (d : Mem) (w v : Nat) (hv : v < U32)
    (h : ∀ j, j < 4 → d (4 * w + j) = encU32 v j) : getU32 d w = v := by
  rw [← getU32_setU32_same d w v hv]
  apply getU32_congr
  intro k k1 k2
  unfold setU32
  rw [if_pos ⟨k1, k2⟩]
  have := h (k - 4 * w) (by omega)
  have e : 4 * w + (k - 4 * w) = k := by omega
  rw [e] at this
  exact this

/-- The addresses of a well-formed inode are block numbers of the image. -/
theorem InodeOk.addrs_lt {st : FS} {ip : Inode} (hok : InodeOk st ip) (i : Nat)
    (hi : i ≤ NDIRECT) : ip.addrs i < U32 := by
  have hsz := hok.fs.size_le
  simp only [FSSIZE_eq] at hsz
  by_cases h0 : ip.addrs i = 0
  · rw [h0]; decide
  · by_cases hd : i < NDIRECT
    · have hb := blockAt_direct st ip i hd
      rw [← hb] at h0 ⊢
      have := (hok.blk_data i (by simp only [MAXFILE_eq, NDIRECT_eq] at hd ⊢; omega) h0).2.1
      simp only [U32_eq]
      omega
    · have e : i = NDIRECT := by omega
      rw [e] at h0 ⊢
      have := (hok.ind_data h0).2.1
      simp only [U32_eq]
      omega

/-- After `iupdate` the on-disk inode has the fields of the in-memory inode. -/
theorem iupdate_mirror {st : FS} {ip : Inode} {st2 : FS} (hok : InodeOk st ip)
    (hs : ShortFields ip) (h : iupdate st ip = Except.ok st2) : Mirror st2 ip := by
  obtain ⟨i1, i2, i3, i4⟩ := hok.iblock
  have hsize : ip.size < U32 := by
    have := hok.size_le
    simp only [MAXFILE_eq, BSIZE_eq] at this
    simp only [U32_eq]
    omega
  unfold iupdate log_write at h
  rw [bread_ok hok.fs.disk_present i3] at h
  simp only [bind_ok_eq, pure_eq_ok, Except.ok.injEq] at h
  rw [← h]
  obtain ⟨o, ho⟩ : ∃ o, o = DINODE_SIZE * (ip.inum % IPB) := ⟨_, rfl⟩
  obtain ⟨D, hD⟩ : ∃ D : Mem, D = fun i =>
      if o ≤ i ∧ i < o + DINODE_SIZE then dinodeByte ip (i - o)
      else st.disk ip.dev (IBLOCK ip.inum st.sb) i := ⟨_, rfl⟩
  have hbyte : ∀ k, k < 64 → D (o + k) = dinodeByte ip k := by
    intro k hk
    rw [hD]
    simp only
    rw [if_pos ⟨by omega, by simp only [DINODE_SIZE_eq]; omega⟩]
    congr 1
    omega
  have hshort : ∀ (a : Nat) (x : Int), a + 1 < 64 → -32768 ≤ x → x < 32768 →
      dinodeByte ip a = encShort x 0 → dinodeByte ip (a + 1) = encShort x 1 →
      getShort D (o + a) = x := by
    intro a x ha x1 x2 e0 e1
    apply getShort_enc _ _ _ x1 x2
    · rw [hbyte a (by omega), e0]
    · rw [Nat.add_assoc, hbyte (a + 1) ha, e1]
  have hword : ∀ (w v : Nat), 2 ≤ w → w < 16 → v < U32 →
      (∀ j, j < 4 → dinodeByte ip (4 * w + j) = encU32 v j) →
      getU32 D (o / 4 + w) = v := by
    intro w v w1 w2 hv hj
    apply getU32_enc _ _ _ hv
    intro j hj4
    have e : 4 * (o / 4 + w) + j = o + (4 * w + j) := by
      rw [ho]
      simp only [DINODE_SIZE_eq]
      omega
    rw [e, hbyte _ (by omega), hj j hj4]
  have e8 : (o + 8) / 4 = o / 4 + 2 := by rw [ho]; simp only [DINODE_SIZE_eq]; omega
  have e12 : ∀ i, (o + 12) / 4 + i = o / 4 + (3 + i) := by
    intro i; rw [ho]; simp only [DINODE_SIZE_eq]; omega
  obtain ⟨⟨t1, t2⟩, ⟨m1, m2⟩, ⟨n1, n2⟩, ⟨l1, l2⟩⟩ := hs
  unfold Mirror readDinode
  simp only [setBlock_sb, setBlock_same]
  rw [← ho, ← hD]
  refine ⟨?_, ?_, ?_, ?_, ?_, ?_⟩
  · have := hshort 0 ip.type (by decide) t1 t2 rfl rfl
    rw [Nat.add_zero] at this
    exact this.symm
  · exact (hshort 2 ip.major (by decide) m1 m2 rfl rfl).symm
  · exact (hshort 4 ip.minor (by decide) n1 n2 rfl rfl).symm
  · exact (hshort 6 ip.nlink (by decide) l1 l2 rfl rfl).symm
  · rw [e8]
    refine (hword 2 ip.size (le_refl _) (by decide) hsize ?_).symm
    intro j hj
    unfold dinodeByte
    rw [if_neg (by omega), if_neg (by omega), if_neg (by omega), if_neg (by omega),
      if_pos (by omega)]
    congr 1
    omega
  · intro i hi
    simp only [NDIRECT_eq] at hi
    rw [if_pos (by simp only [NDIRECT_eq]; omega), e12]
    refine (hword (3 + i) (ip.addrs i) (by omega) (by omega)
      (hok.addrs_lt i (by simp only [NDIRECT_eq]; omega)) ?_).symm
    intro j hj
    unfold dinodeByte
    rw [if_neg (by omega), if_neg (by omega), if_neg (by omega), if_neg (by omega),
      if_neg (by omega)]
    have a1 : (4 * (3 + i) + j - 12) / 4 = i := by omega
    have a2 : (4 * (3 + i) + j - 12) % 4 = j := by omega
    rw [a1, a2]

/-- What `ilock` read from disk mirrors the disk. -/
theorem ilock_mirror {st : FS} {ip ip2 : Inode} (hpre : ip.valid = 0 ∨ Mirror st ip)
    (h : ilock st ip = Except.ok ip2) : Mirror st ip2 := by
  unfold ilock at h
  split_ifs at h with h1 h2
  · obtain ⟨data, hb, h⟩ := bind_eq_ok h
    obtain ⟨hd, -, -⟩ := bread_eq_ok hb
    simp only at h
    split_ifs at h with h3
    simp only [pure_eq_ok, Except.ok.injEq] at h
    rw [← h, hd]
    unfold Mirror readDinode
    refine ⟨rfl, rfl, rfl, rfl, rfl, ?_⟩
    intro i hi
    simp only
    rw [if_pos (by omega), if_pos (by omega)]
  · simp only [pure_eq_ok, Except.ok.injEq] at h
    rw [← h]
    rcases hpre with hv | hm
    · exact absurd hv h2
    · exact hm

/-! ## Calls that keep the mirror -/

/-- On mapped blocks the copy loop of `writei` returns and leaves the inode,
its block map and every block in front of the data blocks as they were. -/
theorem writeiLoop_mapped {src : Mem} {n : Nat} : ∀ (k : Nat) (st : FS) (ip : Inode)
    (tot off : Nat), InodeOk st ip → n - tot ≤ k → off + (n - tot) ≤ MAXFILE * BSIZE →
    (∀ i, tot ≤ i → i < n → blockAt st ip ((off + (i - tot)) / BSIZE) ≠ 0) →
    ∃ st2, writeiLoop src n k st ip tot off = Except.ok (st2, ip, off + (n - tot)) ∧
      st2.sb = st.sb ∧ InodeOk st2 ip ∧ (∀ bn, blockAt st2 ip bn = blockAt st ip bn) ∧
      ∀ b, b < dataStart st.sb → st2.disk ip.dev b = st.disk ip.dev b := by
  intro k
  induction k with
  | zero =>
    intro st ip tot off hok hk hoff hmap
    have hle : ¬ tot < n := by omega
    refine ⟨st, ?_, rfl, hok, fun _ => rfl, fun _ _ => rfl⟩
    simp only [writeiLoop, if_neg hle, Except.ok.injEq, Prod.mk.injEq, true_and]
    omega
  | succ k ih =>
    intro st ip tot off hok hk hoff hmap
    unfold writeiLoop log_write
    by_cases hlt : tot < n
    · rw [if_pos hlt]
      have hoff2 : off + (n - tot) ≤ 140 * 512 := by
        simpa only [MAXFILE_eq, BSIZE_eq] using hoff
      have hbn : off / BSIZE < MAXFILE := by
        simp only [MAXFILE_eq, BSIZE_eq]; omega
      have hm0 : blockAt st ip (off / BSIZE) ≠ 0 := by
        have := hmap tot (le_refl _) hlt
        simpa using this
      rw [bmap_mapped hok hbn hm0]
      simp only [bind_ok_eq]
      obtain ⟨j1, j2, j3⟩ := hok.blk_data _ hbn hm0
      rw [bread_ok hok.fs.disk_present (by have := hok.fs.size_le; omega)]
      simp only [bind_ok_eq]
      obtain ⟨m, hm⟩ : ∃ m, m = min (n - tot) (BSIZE - off % BSIZE) := ⟨_, rfl⟩
      rw [← hm]
      have hm1 : 1 ≤ m := by simp only [BSIZE_eq] at hm; omega
      have hm2 : m ≤ n - tot := by omega
      have h1 : blockAt st ip (off / BSIZE) ≠ 1 := by
        have := hok.fs.dataStart_pos
        omega
      obtain ⟨hblk, hok2⟩ := inodeOk_setBlock
        (d := memmove (st.disk ip.dev (blockAt st ip (off / BSIZE))) (off % BSIZE) src tot m)
        hok h1 (not_bitmap_of_data j1) (fun _ => hok.blk_ne_ind _ hbn hm0)
      obtain ⟨st2, h2, s1, s2, s3, s4⟩ := ih _ ip (tot + m) (off + m) hok2 (by omega)
        (by simp only [MAXFILE_eq, BSIZE_eq]; omega)
        (fun i hi1 hi2 => by
          have he : off + m + (i - (tot + m)) = off + (i - tot) := by omega
          rw [he, hblk]
          exact hmap i (by omega) hi2)
      refine ⟨st2, ?_, by rw [s1]; rfl, s2, fun bn => by rw [s3, hblk], ?_⟩
      · rw [h2]
        have : off + m + (n - (tot + m)) = off + (n - tot) := by omega
        rw [this]
      · intro b hb
        rw [s4 b hb, setBlock_other _ _ _ _ _ _ (Or.inr (by omega))]
    · rw [if_neg hlt]
      refine ⟨st, ?_, rfl, hok, fun _ => rfl, fun _ _ => rfl⟩
      simp only [Except.ok.injEq, Prod.mk.injEq, true_and]
      omega

/-- A state that agrees with `st` on the super block and on the blocks in front
of the bitmap has the same on-disk inodes there. -/
theorem mirror_frame {st st2 : FS} {ip : Inode} (hok : InodeOk st ip) (hm : Mirror st ip)
    (hsb : st2.sb = st.sb) (h : ∀ b, b < st.sb.bmapstart → st2.disk ip.dev b = st.disk ip.dev b) :
    Mirror st2 ip := by
  obtain ⟨i1, i2, i3, i4⟩ := hok.iblock
  have e : readDinode st2 ip.dev ip.inum = readDinode st ip.dev ip.inum :=
    readDinode_congr hsb (fun k _ _ => by rw [h _ i2])
  unfold Mirror at hm ⊢
  rw [e]
  exact hm

/-- A file without holes has none after a `writei` that returned. -/
theorem writeiPost_noHoles {st : FS} {ip : Inode} {src : Mem} {off n : Nat} {st2 : FS}
    {ip2 : Inode} (hok : InodeOk st ip) (hnh : NoHoles st ip) (hoff : off ≤ ip.size)
    (hp : WriteiPost st ip src off n st2 ip2) : NoHoles st2 ip2 := by
  have hsz := hok.size_le
  simp only [MAXFILE_eq, BSIZE_eq] at hsz
  intro bn hlt
  rw [hp.size] at hlt
  simp only [BSIZE_eq] at hlt
  by_cases hold : bn * BSIZE < ip.size
  · rw [hp.kept_map bn (by simp only [MAXFILE_eq, BSIZE_eq] at hold ⊢; omega) (hnh bn hold)]
    exact hnh bn hold
  · simp only [BSIZE_eq] at hold
    have hi : bn * 512 - off < n := by omega
    have hw := (hp.written (bn * 512 - off) hi).1
    have e : (off + (bn * 512 - off)) / BSIZE = bn := by
      have : off + (bn * 512 - off) = bn * 512 := by omega
      rw [this]
      simp only [BSIZE_eq]
      omega
    rw [e] at hw
    exact hw

/-- A `writei` that returned, on a well-formed inode without holes: the inode
is well formed and without holes, and mirrors the disk if it did before. -/
theorem writei_mirror {st : FS} {ip : Inode} {src : Mem} {off n : Nat} {r : Int} {st2 : FS}
    {ip2 : Inode} (hok : InodeOk st ip) (hnh : NoHoles st ip) (hs : ShortFields ip)
    (hoff : off < U32) (hn : n < U32) (h : writei st ip src off n = Except.ok (r, st2, ip2)) :
    (Mirror st ip → Mirror st2 ip2) ∧ ip2.valid = ip.valid ∧ InodeOk st2 ip2 ∧
      NoHoles st2 ip2 ∧ ShortFields ip2 := by
  have hsame : st2 = st ∧ ip2 = ip → (Mirror st ip → Mirror st2 ip2) ∧ ip2.valid = ip.valid ∧
      InodeOk st2 ip2 ∧ NoHoles st2 ip2 ∧ ShortFields ip2 := by
    rintro ⟨rfl, rfl⟩
    exact ⟨fun h => h, rfl, hok, hnh, hs⟩
  by_cases ht : ip.type = T_DEV
  · apply hsame
    unfold writei at h
    rw [if_pos ht] at h
    split_ifs at h
    · simp only [Except.ok.injEq, Prod.mk.injEq] at h
      exact ⟨h.2.1.symm, h.2.2.symm⟩
    · split at h
      · simp only [Except.ok.injEq, Prod.mk.injEq] at h
        exact ⟨h.2.1.symm, h.2.2.symm⟩
      · simp only [Except.ok.injEq, Prod.mk.injEq] at h
        exact ⟨h.2.1.symm, h.2.2.symm⟩
  by_cases hg : off > ip.size ∨ U32 ≤ off + n ∨ off + n > MAXFILE * BSIZE
  · apply hsame
    rw [writei_reject st ip src off n ht hoff hn hg] at h
    simp only [Except.ok.injEq, Prod.mk.injEq] at h
    exact ⟨h.2.1.symm, h.2.2.symm⟩
  have hoff2 : off ≤ ip.size := by omega
  have hn2 : off + n ≤ MAXFILE * BSIZE := by omega
  obtain ⟨-, hp⟩ := writei_post hok ht hoff2 hn2 h
  have hval : ip2.valid = ip.valid := by rw [hp.fields]
  have hs2 : ShortFields ip2 := by rw [hp.fields]; exact hs
  refine ⟨?_, hval, hp.ok, writeiPost_noHoles hok hnh hoff2 hp, hs2⟩
  intro hm
  have hsz := hok.size_le
  have hn3 : off + n ≤ 140 * 512 := by simpa only [MAXFILE_eq, BSIZE_eq] using hn2
  have hmod : (off + n) % U32 = off + n := Nat.mod_eq_of_lt (by simp only [U32_eq]; omega)
  unfold writei at h
  rw [if_neg ht, hmod, if_neg (by omega), if_neg (by omega)] at h
  obtain ⟨⟨st1, ip1, off1⟩, hl, h⟩ := bind_eq_ok h
  have hq := writeiLoop_post n st ip 0 off st1 ip1 off1 hok (by omega) (by simpa using hn2) hl
  have hoff1 : off1 = off + n := by rw [hq.off_eq]; omega
  have hsize1 : ip1.size = ip.size := by rw [hq.fields]
  simp only at h
  by_cases hext : n > 0 ∧ off1 > ip1.size
  · rw [if_pos hext] at h
    obtain ⟨st3, hu, h⟩ := bind_eq_ok h
    simp only [pure_eq_ok, Except.ok.injEq, Prod.mk.injEq] at h
    obtain ⟨-, rfl, rfl⟩ := h
    have hok2 : InodeOk st1 { ip1 with size := off1 } :=
      inodeOk_size hq.ok off1 (by rw [hoff1]; exact hn2)
    exact iupdate_mirror hok2 hs2 hu
  · rw [if_neg hext] at h
    simp only [pure_eq_ok, Except.ok.injEq, Prod.mk.injEq] at h
    obtain ⟨-, rfl, rfl⟩ := h
    have hin : off + n ≤ ip.size := by
      rw [hsize1, hoff1] at hext
      by_cases h0 : n = 0
      · omega
      · have : ¬ off + n > ip.size := fun hh => hext ⟨by omega, hh⟩
        omega
    obtain ⟨stL, hL, l1, -, -, l4⟩ := @writeiLoop_mapped src n n st ip 0 off hok
      (by omega) (by simpa using hn2)
      (fun i _ hi => by
        apply hnh
        have := Nat.div_mul_le_self (off + (i - 0)) BSIZE
        omega)
    rw [hL] at hl
    simp only [Except.ok.injEq, Prod.mk.injEq] at hl
    obtain ⟨rfl, rfl, -⟩ := hl
    refine mirror_frame hok hm l1 (fun b hb => l4 b ?_)
    unfold dataStart
    exact Nat.lt_succ_of_le (Nat.le_add_right_of_le (le_of_lt hb))

/-- A `readi` on a well-formed inode without holes returns and changes neither
the disk nor the inode. -/
theorem readi_same {st : FS} {ip : Inode} (hok : InodeOk st ip) (hnh : NoHoles st ip)
    (dst : Mem) {off n : Nat} (hoff : off < U32) (hn : n < U32) :
    ∃ r dst2, readi st ip dst off n = Except.ok (r, st, ip, dst2) := by
  by_cases ht : ip.type = T_DEV
  · unfold readi
    rw [if_pos ht]
    split_ifs
    · exact ⟨_, _, rfl⟩
    · split
      · exact ⟨_, _, rfl⟩
      · exact ⟨_, _, rfl⟩
  by_cases hg : off > ip.size ∨ U32 ≤ off + n
  · exact ⟨_, _, readi_reject st ip dst off n ht hoff hn hg⟩
  · refine ⟨_, _, readi_ok dst hok ht (by omega) (by omega) ?_⟩
    intro i hi
    apply hnh
    have := Nat.div_mul_le_self (off + i) BSIZE
    omega

/-! ## Names -/

theorem DIRSIZ_eq : DIRSIZ = 14 := rfl
theorem DIRENT_SIZE_eq : DIRENT_SIZE = 16 := rfl

/-- The comparison looks at `n` characters of the second string from `i` on. -/
theorem strncmp_congr {p q q2 : Mem} : ∀ (n i : Nat), (∀ t, i ≤ t → t < i + n → q t = q2 t) →
    strncmp p q n i = strncmp p q2 n i := by
  intro n
  induction n with
  | zero => intro i _; rfl
  | succ n ih =>
    intro i h
    unfold strncmp
    rw [h i (le_refl _) (by omega), ih (i + 1) (fun t t1 t2 => h t (by omega) (by omega))]

/-- A name compares equal to its copy by `strncpy`. -/
theorem strncmp_copy {name q : Mem} : ∀ (n i : Nat),
    (∀ j, j < i → name j ≠ 0) →
    (∀ t, i ≤ t → t < i + n →
      q t = if (List.range (t + 1)).all (fun j => decide (name j ≠ 0)) then name t else 0) →
    strncmp name q n i = 0 := by
  intro n
  induction n with
  | zero => intro i _ _; rfl
  | succ n ih =>
    intro i hpre hq
    unfold strncmp
    have hqi := hq i (le_refl _) (by omega)
    by_cases h0 : name i = 0
    · have hall : (List.range (i + 1)).all (fun j => decide (name j ≠ 0)) = false := by
        rw [List.all_eq_false]
        exact ⟨i, List.mem_range.mpr (by omega), by simp [h0]⟩
      rw [hall] at hqi
      rw [if_neg (fun h => h.1 h0), h0, hqi]
      rfl
    · have hall : (List.range (i + 1)).all (fun j => decide (name j ≠ 0)) = true := by
        rw [List.all_eq_true]
        intro j hj
        have hj2 := List.mem_range.mp hj
        by_cases hji : j = i
        · rw [hji]; simp [h0]
        · simp [hpre j (by omega)]
      rw [hall] at hqi
      simp only [if_true] at hqi
      rw [if_pos ⟨h0, hqi.symm⟩]
      apply ih (i + 1)
      · intro j hj
        by_cases hji : j = i
        · rw [hji]; exact h0
        · exact hpre j (by omega)
      · intro t t1 t2
        exact hq t (by omega) (by omega)

/-- The entry that `dirlink` builds: its number is `inum` and its name
compares equal to `name`. -/
theorem built_entry (de name : Mem) (inum : Nat) (h1 : inum < 65536) :
    deInum (setDeInum (strncpy de 2 name DIRSIZ) inum) = inum ∧
      namecmp name (deName (setDeInum (strncpy de 2 name DIRSIZ) inum)) = 0 := by
  constructor
  · unfold deInum setDeInum
    simp only [if_true, if_neg (by decide : (1 : Nat) ≠ 0)]
    omega
  · unfold namecmp
    apply strncmp_copy DIRSIZ 0 (fun j hj => absurd hj (Nat.not_lt_zero _))
    intro t _ t2
    unfold deName setDeInum strncpy
    simp only [DIRSIZ_eq] at t2 ⊢
    rw [if_neg (by omega), if_neg (by omega), if_pos ⟨by omega, by omega⟩]
    have : 2 + t - 2 = t := by omega
    rw [this]

theorem ICache.set_self (ic : ICache) (i : Nat) : ic.set i (ic i) = ic := by
  funext j
  unfold ICache.set
  split_ifs with h
  · rw [h]
  · rfl

/-! ## Reading the entries of a directory -/

theorem DirOk.not_dev {st : FS} {dp : Inode} (hd : DirOk st dp) : dp.type ≠ T_DEV := by
  rw [hd.isDir]; decide

theorem DirOk.size_le {st : FS} {dp : Inode} (hd : DirOk st dp) : dp.size ≤ 71680 := by
  have := hd.ok.size_le
  simpa only [MAXFILE_eq, BSIZE_eq] using this

/-- Reading one entry of a well-formed directory returns 16, changes nothing
and delivers the 16 bytes of the entry. -/
theorem readi_entry {st : FS} {dp : Inode} (hd : DirOk st dp) (de : Mem) {off : Nat}
    (ho : off % DIRENT_SIZE = 0) (hlt : off < dp.size) :
    readi st dp de off DIRENT_SIZE = Except.ok ((DIRENT_SIZE : Int), st, dp,
      fun i => if i < DIRENT_SIZE then fileByte st dp (off + i) else de i) := by
  have hsz := hd.size_le
  have hw := hd.whole
  simp only [DIRENT_SIZE_eq] at ho hw ⊢
  have hmin : min 16 (dp.size - off) = 16 := by omega
  have h := readi_ok de hd.ok hd.not_dev (le_of_lt hlt)
    (by simp only [U32_eq]; omega : off + 16 < U32)
    (fun i hi => hd.noHoles _ (by
      rw [hmin] at hi
      have := Nat.div_mul_le_self (off + i) BSIZE
      omega))
  rw [hmin] at h
  exact h

theorem deInum_read (st : FS) (dp : Inode) (de : Mem) (off : Nat) :
    deInum (fun i => if i < DIRENT_SIZE then fileByte st dp (off + i) else de i) =
      deInum (dirent st dp off) := by
  unfold deInum dirent
  simp only [DIRENT_SIZE_eq]
  rfl

theorem namecmp_read (st : FS) (dp : Inode) (de name : Mem) (off : Nat) :
    namecmp name (deName (fun i => if i < DIRENT_SIZE then fileByte st dp (off + i) else de i)) =
      namecmp name (deName (dirent st dp off)) := by
  unfold namecmp
  apply strncmp_congr
  intro t _ t2
  unfold deName dirent
  simp only [DIRENT_SIZE_eq, DIRSIZ_eq] at t2 ⊢
  rw [if_pos (by omega), if_pos (by omega)]

/-- The loop of `dirlookup` on a well-formed directory: it returns, changes
nothing, and finds the first entry in use that carries the name. -/
theorem dirlookupLoop_scan {st : FS} {dp : Inode} {name : Mem} (hd : DirOk st dp) :
    ∀ (k off : Nat) (de : Mem), off % DIRENT_SIZE = 0 → (dp.size - off) / DIRENT_SIZE < k →
    ((∀ o, o % DIRENT_SIZE = 0 → off ≤ o → o < dp.size → ¬ entNamed st dp name o) →
      dirlookupLoop name k st dp de off = Except.ok (none, st, dp)) ∧
    (∀ t, t % DIRENT_SIZE = 0 → off ≤ t → t < dp.size → entNamed st dp name t →
      (∀ o, o % DIRENT_SIZE = 0 → off ≤ o → o < t → ¬ entNamed st dp name o) →
      dirlookupLoop name k st dp de off =
        Except.ok (some (t, deInum (dirent st dp t)), st, dp)) := by
  have hsz := hd.size_le
  have hw := hd.whole
  intro k
  induction k with
  | zero => intro off de _ h; exact absurd h (Nat.not_lt_zero _)
  | succ k ih =>
    intro off de ho hk
    simp only [DIRENT_SIZE_eq] at ho hk hw
    have hstep : off < dp.size → (off + DIRENT_SIZE) % U32 = off + 16 ∧
        (off + 16) % DIRENT_SIZE = 0 ∧ (dp.size - (off + 16)) / DIRENT_SIZE < k := by
      intro hlt
      simp only [DIRENT_SIZE_eq, U32_eq]
      omega
    constructor
    · intro hno
      unfold dirlookupLoop
      by_cases hlt : off < dp.size
      · obtain ⟨s1, s2, s3⟩ := hstep hlt
        rw [if_pos hlt, readi_entry hd de (by simpa only [DIRENT_SIZE_eq] using ho) hlt]
        simp only [bind_ok_eq, ne_eq, not_true_eq_false, if_false]
        rw [deInum_read, namecmp_read, s1]
        have hrec := (ih (off + 16) (fun i => if i < DIRENT_SIZE then fileByte st dp (off + i)
          else de i) s2 s3).1 (fun o o1 o2 o3 => hno o o1 (by omega) o3)
        by_cases hz : deInum (dirent st dp off) = 0
        · rw [if_pos hz]; exact hrec
        · rw [if_neg hz]
          have hn := hno off (by simpa only [DIRENT_SIZE_eq] using ho) (le_refl _) hlt
          rw [if_neg (fun hc => hn ⟨hz, hc⟩)]
          exact hrec
      · rw [if_neg hlt]
        rfl
    · intro t t1 t2 t3 hnamed hfirst
      unfold dirlookupLoop
      have hlt : off < dp.size := by omega
      obtain ⟨s1, s2, s3⟩ := hstep hlt
      rw [if_pos hlt, readi_entry hd de (by simpa only [DIRENT_SIZE_eq] using ho) hlt]
      simp only [bind_ok_eq, ne_eq, not_true_eq_false, if_false]
      rw [deInum_read, namecmp_read, s1]
      by_cases hot : off = t
      · subst hot
        rw [if_neg hnamed.1, if_pos hnamed.2]
        rfl
      · simp only [DIRENT_SIZE_eq] at t1
        have hrec := (ih (off + 16) (fun i => if i < DIRENT_SIZE then fileByte st dp (off + i)
          else de i) s2 s3).2 t (by simpa only [DIRENT_SIZE_eq] using t1) (by omega) t3 hnamed
          (fun o o1 o2 o3 => hfirst o o1 (by omega) o3)
        by_cases hz : deInum (dirent st dp off) = 0
        · rw [if_pos hz]; exact hrec
        · rw [if_neg hz]
          have hn := hfirst off (by simpa only [DIRENT_SIZE_eq] using ho) (le_refl _)
            (by omega)
          rw [if_neg (fun hc => hn ⟨hz, hc⟩)]
          exact hrec

/-- The loop of `dirlink` that looks for an empty entry, on a well-formed
directory: it returns, changes nothing, and stops at the first entry with
`inum == 0`, or at the end. -/
theorem dirlinkScan_scan {st : FS} {dp : Inode} (hd : DirOk st dp) :
    ∀ (k off : Nat) (de : Mem) (t : Nat), off % DIRENT_SIZE = 0 →
    (dp.size - off) / DIRENT_SIZE < k → off ≤ t → firstFree st dp t →
    ∃ de2, dirlinkScan k st dp de off = Except.ok (st, dp, de2, t) := by
  have hsz := hd.size_le
  have hw := hd.whole
  intro k
  induction k with
  | zero => intro off de t _ h; exact absurd h (Nat.not_lt_zero _)
  | succ k ih =>
    intro off de t ho hk hot hfree
    obtain ⟨f1, f2, f3, f4⟩ := hfree
    simp only [DIRENT_SIZE_eq] at ho hk hw f1
    unfold dirlinkScan
    by_cases hlt : off < dp.size
    · rw [if_pos hlt, readi_entry hd de (by simpa only [DIRENT_SIZE_eq] using ho) hlt]
      simp only [bind_ok_eq, ne_eq, not_true_eq_false, if_false]
      rw [deInum_read]
      by_cases hoff : off = t
      · subst hoff
        rw [if_pos (f3 hlt)]
        exact ⟨_, rfl⟩
      · have hnz := f4 off (by simpa only [DIRENT_SIZE_eq] using ho) (by omega)
        rw [if_neg hnz]
        have e : (off + DIRENT_SIZE) % U32 = off + 16 := by
          simp only [DIRENT_SIZE_eq, U32_eq]; omega
        rw [e]
        exact ih (off + 16) _ t (by simp only [DIRENT_SIZE_eq]; omega)
          (by simp only [DIRENT_SIZE_eq]; omega) (by omega) ⟨by simpa only [DIRENT_SIZE_eq] using f1,
            f2, f3, f4⟩
    · rw [if_neg hlt]
      have : off = t := by omega
      rw [this]
      exact ⟨_, rfl⟩

/-! ## `dirlookup` and `dirlink` -/

/-- With no entry in use that carries the name, `dirlookup` returns 0 and
changes nothing. -/
theorem dirlookup_none {st : FS} {ic : ICache} {d : Nat} {name : Mem} (hd : DirOk st (ic d))
    (hno : ∀ o, o % DIRENT_SIZE = 0 → o < (ic d).size → ¬ entNamed st (ic d) name o) :
    dirlookup st ic d name = Except.ok (none, st, ic) := by
  unfold dirlookup
  rw [if_neg (not_not.mpr hd.isDir),
    (dirlookupLoop_scan hd ((ic d).size / DIRENT_SIZE + 2) 0 (fun _ => 0) (Nat.zero_mod _)
      (by simp only [DIRENT_SIZE_eq]; omega)).1 (fun o o1 _ o3 => hno o o1 o3)]
  simp only [bind_ok_eq, pure_eq_ok]
  rw [ICache.set_self]

/-- With `t` the first entry in use that carries the name, `dirlookup` returns
what `iget` returns for the inode number of the entry, and `t`. -/
theorem dirlookup_found {st : FS} {ic : ICache} {d : Nat} {name : Mem} (hd : DirOk st (ic d))
    {t : Nat} (t1 : t % DIRENT_SIZE = 0) (t2 : t < (ic d).size)
    (hnamed : entNamed st (ic d) name t)
    (hfirst : ∀ o, o % DIRENT_SIZE = 0 → o < t → ¬ entNamed st (ic d) name o) :
    dirlookup st ic d name =
      (iget ic (ic d).dev (deInum (dirent st (ic d) t)) >>= fun r =>
        pure (some (r.1, t), st, r.2)) := by
  unfold dirlookup
  rw [if_neg (not_not.mpr hd.isDir),
    (dirlookupLoop_scan hd ((ic d).size / DIRENT_SIZE + 2) 0 (fun _ => 0) (Nat.zero_mod _)
      (by simp only [DIRENT_SIZE_eq]; omega)).2 t t1 (Nat.zero_le _) t2 hnamed
      (fun o o1 _ o3 => hfirst o o1 o3)]
  simp only [bind_ok_eq]
  rw [ICache.set_self]

/-- An `iput` that does not free the inode only takes one reference away. -/
theorem iput_keep (st : FS) (ic : ICache) (i : Nat)
    (h : ¬ ((ic i).valid ≠ 0 ∧ (ic i).nlink = 0 ∧ (ic i).ref = 1)) :
    iput st ic i = Except.ok (st, ic.set i { ic i with ref := int32 ((ic i).ref - 1) }) := by
  unfold iput
  simp only
  by_cases h1 : (ic i).valid ≠ 0 ∧ (ic i).nlink = 0
  · rw [if_pos h1, if_neg (fun h2 => h ⟨h1.1, h1.2, h2⟩)]
    rfl
  · rw [if_neg h1]
    rfl

/-- A reference taken by `iget` and given back at once by `iput`: the disk and
the reference counts are as before, and so are the slots that were in use. -/
theorem iget_iput {st : FS} {ic : ICache} {dev inum i : Nat} {ic1 : ICache}
    (hcap : ∀ j, j < NINODE → (ic j).ref ≤ 2147483647)
    (hg : iget ic dev inum = Except.ok (i, ic1)) :
    ∃ ic2, iput st ic1 i = Except.ok (st, ic2) ∧ (∀ j, (ic2 j).ref = (ic j).ref) ∧
      (∀ j, 0 < (ic j).ref → ic2 j = ic j) ∧ (∀ j, j ≠ i → ic2 j = ic j) := by
  obtain ⟨hi, hc | hc⟩ := iget_cases hg
  · obtain ⟨c1, -, -, -, rfl⟩ := hc
    have hmax := hcap i hi
    have hne : int32 ((ic i).ref + 1) ≠ 1 := by
      unfold int32
      omega
    have hback : int32 (int32 ((ic i).ref + 1) - 1) = (ic i).ref := by
      unfold int32
      omega
    have hslot : (ic.set i { ic i with ref := int32 ((ic i).ref + 1) }) i =
      { ic i with ref := int32 ((ic i).ref + 1) } := by rw [ICache.set_same]
    refine ⟨ic, ?_, fun _ => rfl, fun _ _ => rfl, fun _ _ => rfl⟩
    rw [iput_keep _ _ _ (by
      rw [hslot]
      exact fun hx => hne hx.2.2)]
    congr 1
    congr 1
    funext j
    by_cases hj : j = i
    · rw [hj, ICache.set_same, hslot]
      show { ic i with ref := int32 (int32 ((ic i).ref + 1) - 1) } = ic i
      rw [hback]
    · rw [ICache.set_other _ _ _ _ hj, ICache.set_other _ _ _ _ hj]
  · obtain ⟨-, h0, -, rfl⟩ := hc
    refine ⟨_, iput_keep _ _ _ (by
      rw [ICache.set_same]
      exact fun hx => hx.1 rfl), ?_, ?_, ?_⟩
    · intro j
      by_cases hj : j = i
      · rw [hj, ICache.set_same, ICache.set_same, h0]
        rfl
      · rw [ICache.set_other _ _ _ _ hj, ICache.set_other _ _ _ _ hj]
    · intro j hpos
      have hj : j ≠ i := by
        intro e
        rw [e, h0] at hpos
        exact absurd hpos (lt_irrefl _)
      rw [ICache.set_other _ _ _ _ hj, ICache.set_other _ _ _ _ hj]
    · intro j hj
      rw [ICache.set_other _ _ _ _ hj, ICache.set_other _ _ _ _ hj]

/-- With an empty slot in the cache `iget` returns. -/
theorem iget_total {ic : ICache} (dev inum : Nat) (hroom : ∃ z, z < NINODE ∧ (ic z).ref = 0) :
    ∃ i ic1, iget ic dev inum = Except.ok (i, ic1) := by
  by_cases hex : ∃ m, m < NINODE ∧ 0 < (ic m).ref ∧ (ic m).dev = dev ∧ (ic m).inum = inum
  · obtain ⟨m, hm, hp⟩ := hex
    obtain ⟨z, hz, hpz, hfirst⟩ := exists_least
      (p := fun j => 0 < (ic j).ref ∧ (ic j).dev = dev ∧ (ic j).inum = inum) hm hp
    exact ⟨_, _, iget_hit hz hpz hfirst⟩
  · obtain ⟨z0, hz0, hp0⟩ := hroom
    obtain ⟨z, hz, hpz, hfirst⟩ := exists_least (p := fun j => (ic j).ref = 0) hz0 hp0
    exact ⟨_, _, iget_miss hz (fun j hj hp => hex ⟨j, hj, hp⟩) hpz hfirst⟩

/-! ## Adding an entry to a directory -/

theorem entNamed_congr {st st2 : FS} {dp dp2 : Inode} {name : Mem} {o : Nat}
    (h : dirent st2 dp2 o = dirent st dp o) :
    entNamed st2 dp2 name o ↔ entNamed st dp name o := by
  unfold entNamed
  rw [h]

/-- The write of `dirlink`, 16 bytes at the offset of the first free entry or
at the end of a well-formed directory, when it returned 16: the directory is
well formed afterwards, the other entries are as before and the entry written
holds the 16 bytes. -/
theorem dirlink_write_post {st : FS} {dp : Inode} (de1 : Mem) {t : Nat} {r : Int} {st3 : FS}
    {dp3 : Inode} (hd : DirOk st dp) (t1 : t % DIRENT_SIZE = 0) (t2 : t ≤ dp.size)
    (hwr : writei st dp de1 t DIRENT_SIZE = Except.ok (r, st3, dp3))
    (hr : r = (DIRENT_SIZE : Int)) :
    WriteiPost st dp de1 t DIRENT_SIZE st3 dp3 ∧ DirOk st3 dp3 ∧
      (∀ o, o % DIRENT_SIZE = 0 → o < dp.size → o ≠ t → dirent st3 dp3 o = dirent st dp o) ∧
      (∀ i, i < DIRENT_SIZE → dirent st3 dp3 t i = de1 i) := by
  have hsz := hd.size_le
  have hw := hd.whole
  simp only [DIRENT_SIZE_eq] at t1 hw
  have hn : t + DIRENT_SIZE ≤ MAXFILE * BSIZE := by
    by_contra hc
    rw [writei_reject st dp de1 t DIRENT_SIZE hd.not_dev (by simp only [U32_eq]; omega)
      (by decide) (Or.inr (Or.inr (by omega)))] at hwr
    simp only [Except.ok.injEq, Prod.mk.injEq] at hwr
    rw [← hwr.1] at hr
    exact absurd hr (by decide)
  have hend : t + 16 ≤ 71680 := by
    simpa only [DIRENT_SIZE_eq, MAXFILE_eq, BSIZE_eq] using hn
  obtain ⟨-, hp⟩ := writei_post hd.ok hd.not_dev t2 hn hwr
  have hsize : dp3.size = max dp.size (t + 16) := hp.size
  have hkept : ∀ o, o % DIRENT_SIZE = 0 → o < dp.size → o ≠ t →
      dirent st3 dp3 o = dirent st dp o := by
    intro o o1 o2 o3
    simp only [DIRENT_SIZE_eq] at o1
    funext i
    unfold dirent
    by_cases hi : i < DIRENT_SIZE
    · rw [if_pos hi, if_pos hi]
      simp only [DIRENT_SIZE_eq] at hi
      apply hp.kept_data
      · simp only [MAXFILE_eq, BSIZE_eq]; omega
      · simp only [DIRENT_SIZE_eq]; omega
      · apply hd.noHoles
        have := Nat.div_mul_le_self (o + i) BSIZE
        omega
    · rw [if_neg hi, if_neg hi]
  refine ⟨hp, ⟨hp.ok, writeiPost_noHoles hd.ok hd.noHoles t2 hp, ?_, ?_⟩, hkept, ?_⟩
  · rw [hp.fields]
    exact hd.isDir
  · simp only [DIRENT_SIZE_eq]
    omega
  · intro i hi
    unfold dirent
    rw [if_pos hi]
    exact (hp.written i hi).2

/-- The write of `dirlink` returns 16 when the directory can take the entry. -/
theorem dirlink_write_total {st : FS} {dp : Inode} (de1 : Mem) {t : Nat} (hd : DirOk st dp)
    (t1 : t % DIRENT_SIZE = 0) (t2 : t ≤ dp.size)
    (hroom : t = dp.size → dp.size + DIRENT_SIZE ≤ MAXFILE * BSIZE ∧
      (dp.size % BSIZE ≠ 0 ∨ ∃ b1 b2, b1 < st.sb.size ∧ b2 < st.sb.size ∧ b1 ≠ b2 ∧
        ¬ bitSet st dp.dev b1 ∧ ¬ bitSet st dp.dev b2)) :
    ∃ st3 dp3, writei st dp de1 t DIRENT_SIZE = Except.ok ((DIRENT_SIZE : Int), st3, dp3) := by
  have hsz := hd.size_le
  have hw := hd.whole
  simp only [DIRENT_SIZE_eq, MAXFILE_eq, BSIZE_eq] at t1 hw hroom
  have hend : t + 16 ≤ 71680 := by
    by_cases e : t = dp.size
    · have := (hroom e).1; omega
    · omega
  have hbn : t / BSIZE < MAXFILE := by
    simp only [MAXFILE_eq, BSIZE_eq]; omega
  have hmapped : t < dp.size ∨ dp.size % 512 ≠ 0 → blockAt st dp (t / BSIZE) ≠ 0 := by
    intro h
    apply hd.noHoles
    simp only [BSIZE_eq]
    have := Nat.div_mul_le_self t 512
    rcases h with h | h
    · omega
    · by_cases e : t = dp.size
      · rw [e]
        have := Nat.div_add_mod dp.size 512
        omega
      · omega
  have hb : ∃ a st1 ip1, bmap st dp (t / BSIZE) = Except.ok (a, st1, ip1) := by
    by_cases e : t < dp.size ∨ dp.size % 512 ≠ 0
    · exact ⟨_, _, _, bmap_mapped hd.ok hbn (hmapped e)⟩
    · have e2 : t = dp.size := by omega
      rcases (hroom e2).2 with h | ⟨b1, b2, k1, k2, k3, k4, k5⟩
      · exact absurd (Or.inr h) e
      · exact bmap_total hd.ok hbn k1 k2 k3 k4 k5
  obtain ⟨a, st1, ip1, hb⟩ := hb
  obtain ⟨stl, hl⟩ := @writeiLoop_one_block st dp de1 t DIRENT_SIZE a st1 ip1 hd.ok hbn
    (by decide) (by simp only [DIRENT_SIZE_eq, BSIZE_eq]; omega) hb
  have hn : t + DIRENT_SIZE ≤ MAXFILE * BSIZE := by
    simp only [DIRENT_SIZE_eq, MAXFILE_eq, BSIZE_eq]; omega
  exact writei_total_of_loop hd.ok hd.not_dev t2 hn hl

/-- With a name that no entry in use carries, `dirlink` on a well-formed
directory comes down to its `writei` at the first free offset. -/
theorem dirlink_new_eq {st : FS} {ic : ICache} {d : Nat} {name : Mem} (inum : Nat) {t : Nat}
    (hd : DirOk st (ic d))
    (hno : ∀ o, o % DIRENT_SIZE = 0 → o < (ic d).size → ¬ entNamed st (ic d) name o)
    (hfree : firstFree st (ic d) t) :
    ∃ de2, dirlink st ic d name inum =
      (writei st (ic d) (setDeInum (strncpy de2 2 name DIRSIZ) inum) t DIRENT_SIZE >>= fun r =>
        if r.1 ≠ (DIRENT_SIZE : Int) then Except.error Panic.dirlinkShortWrite
        else pure (0, r.2.1, ic.set d r.2.2)) := by
  obtain ⟨de2, hscan⟩ := dirlinkScan_scan hd ((ic d).size / DIRENT_SIZE + 2) 0 (fun _ => 0) t
    (Nat.zero_mod _) (by simp only [DIRENT_SIZE_eq]; omega) (Nat.zero_le _) hfree
  refine ⟨de2, ?_⟩
  unfold dirlink
  rw [dirlookup_none hd hno]
  simp only [bind_ok_eq]
  rw [hscan]
  simp only [bind_ok_eq]

/-- What the entry written by `dirlink` reads as: it is in use, has the number
and the name, and is the first of that name. -/
theorem dirlink_entry {st : FS} {dp : Inode} {name de2 : Mem} {inum t : Nat} {st3 : FS}
    {dp3 : Inode}
    (hno : ∀ o, o % DIRENT_SIZE = 0 → o < dp.size → ¬ entNamed st dp name o)
    (h1 : 1 ≤ inum) (h2 : inum < 65536) (t2 : t ≤ dp.size)
    (hkept : ∀ o, o % DIRENT_SIZE = 0 → o < dp.size → o ≠ t → dirent st3 dp3 o = dirent st dp o)
    (hnew : ∀ i, i < DIRENT_SIZE →
      dirent st3 dp3 t i = setDeInum (strncpy de2 2 name DIRSIZ) inum i) :
    deInum (dirent st3 dp3 t) = inum ∧ entNamed st3 dp3 name t ∧
      ∀ o, o % DIRENT_SIZE = 0 → o < t → ¬ entNamed st3 dp3 name o := by
  obtain ⟨b1, b2⟩ := built_entry de2 name inum h2
  have hin : deInum (dirent st3 dp3 t) = inum := by
    rw [← b1]
    unfold deInum
    rw [hnew 0 (by decide), hnew 1 (by decide)]
  have hnm : namecmp name (deName (dirent st3 dp3 t)) = 0 := by
    rw [← b2]
    unfold namecmp
    apply strncmp_congr
    intro i _ i2
    unfold deName
    simp only [DIRSIZ_eq] at i2
    exact hnew (2 + i) (by simp only [DIRENT_SIZE_eq]; omega)
  refine ⟨hin, ⟨by rw [hin]; omega, hnm⟩, ?_⟩
  intro o o1 o2
  rw [entNamed_congr (hkept o o1 (by omega) (by omega))]
  exact hno o o1 (by omega)

/-- A call of `dirlink` that returned, with a name that no entry in use
carried, on a well-formed directory: it returned 0, the entry is written at the
first free offset, the other entries are as before, and the entry written is
the first in use that carries the name. -/
theorem dirlink_new_post {st : FS} {ic : ICache} {d : Nat} {name : Mem} {inum t : Nat}
    {r : Int} {st3 : FS} {ic3 : ICache} (hd : DirOk st (ic d))
    (hno : ∀ o, o % DIRENT_SIZE = 0 → o < (ic d).size → ¬ entNamed st (ic d) name o)
    (h1 : 1 ≤ inum) (h2 : inum < 65536) (hfree : firstFree st (ic d) t)
    (h : dirlink st ic d name inum = Except.ok (r, st3, ic3)) :
    r = 0 ∧ ∃ dp3, ic3 = ic.set d dp3 ∧
      dp3.size = max (ic d).size (t + DIRENT_SIZE) ∧
      dp3 = { ic d with addrs := dp3.addrs, size := dp3.size } ∧
      DirOk st3 dp3 ∧
      (∀ o, o % DIRENT_SIZE = 0 → o < (ic d).size → o ≠ t →
        dirent st3 dp3 o = dirent st (ic d) o) ∧
      deInum (dirent st3 dp3 t) = inum ∧ entNamed st3 dp3 name t ∧
      (∀ o, o % DIRENT_SIZE = 0 → o < t → ¬ entNamed st3 dp3 name o) := by
  obtain ⟨de2, he⟩ := dirlink_new_eq inum hd hno hfree
  rw [he] at h
  obtain ⟨⟨w, s3, d3⟩, hwr, h⟩ := bind_eq_ok h
  simp only at h
  split_ifs at h with hw
  simp only [pure_eq_ok, Except.ok.injEq, Prod.mk.injEq] at h
  obtain ⟨rfl, rfl, rfl⟩ := h
  obtain ⟨hp, hd3, hkept, hnew⟩ := dirlink_write_post _ hd hfree.1 hfree.2.1 hwr
    (not_not.mp hw)
  obtain ⟨e1, e2, e3⟩ := dirlink_entry hno h1 h2 hfree.2.1 hkept hnew
  exact ⟨rfl, d3, rfl, hp.size, hp.fields, hd3, hkept, e1, e2, e3⟩

/-- The panics of such a call of `dirlink`: its own, when the write is short,
that of `balloc`, or one of the disk driver. -/
theorem dirlink_new_error {st : FS} {ic : ICache} {d : Nat} {name : Mem} {inum t : Nat}
    {e : Panic} (hd : DirOk st (ic d))
    (hno : ∀ o, o % DIRENT_SIZE = 0 → o < (ic d).size → ¬ entNamed st (ic d) name o)
    (hfree : firstFree st (ic d) t)
    (h : dirlink st ic d name inum = Except.error e) :
    e = Panic.dirlinkShortWrite ∨ IoPanic e := by
  have hsz := hd.size_le
  obtain ⟨de2, he⟩ := dirlink_new_eq inum hd hno hfree
  rw [he] at h
  cases hwr : writei st (ic d) (setDeInum (strncpy de2 2 name DIRSIZ) inum) t DIRENT_SIZE with
  | error e2 =>
    rw [hwr] at h
    simp only [bind_error_eq, Except.error.injEq] at h
    rw [← h]
    exact Or.inr ((writei_any st (ic d) _ t DIRENT_SIZE hd.not_dev
      (by have := hfree.2.1; simp only [U32_eq]; omega) (by decide)).2 e2 hwr)
  | ok p =>
    rw [hwr] at h
    simp only [bind_ok_eq] at h
    split_ifs at h
    · simp only [Except.error.injEq] at h
      exact Or.inl h.symm
    · exact Except.noConfusion h

/-- A call of `dirlink` with a name that no entry in use carries, on a
well-formed directory that can take the entry: it returns 0, the entry is
written at the first free offset, the other entries are as before, and the
entry written is the first in use that carries the name. -/
theorem dirlink_new {st : FS} {ic : ICache} {d : Nat} {name : Mem} {inum t : Nat}
    (hd : DirOk st (ic d))
    (hno : ∀ o, o % DIRENT_SIZE = 0 → o < (ic d).size → ¬ entNamed st (ic d) name o)
    (h1 : 1 ≤ inum) (h2 : inum < 65536) (hfree : firstFree st (ic d) t)
    (hroom : t = (ic d).size → (ic d).size + DIRENT_SIZE ≤ MAXFILE * BSIZE ∧
      ((ic d).size % BSIZE ≠ 0 ∨ ∃ b1 b2, b1 < st.sb.size ∧ b2 < st.sb.size ∧ b1 ≠ b2 ∧
        ¬ bitSet st (ic d).dev b1 ∧ ¬ bitSet st (ic d).dev b2)) :
    ∃ st3 dp3, dirlink st ic d name inum = Except.ok (0, st3, ic.set d dp3) ∧
      dp3.size = max (ic d).size (t + DIRENT_SIZE) ∧
      dp3 = { ic d with addrs := dp3.addrs, size := dp3.size } ∧
      DirOk st3 dp3 ∧
      (∀ o, o % DIRENT_SIZE = 0 → o < (ic d).size → o ≠ t →
        dirent st3 dp3 o = dirent st (ic d) o) ∧
      deInum (dirent st3 dp3 t) = inum ∧ entNamed st3 dp3 name t ∧
      (∀ o, o % DIRENT_SIZE = 0 → o < t → ¬ entNamed st3 dp3 name o) := by
  obtain ⟨de2, he⟩ := dirlink_new_eq inum hd hno hfree
  obtain ⟨st3, dp3, hwr⟩ := dirlink_write_total (setDeInum (strncpy de2 2 name DIRSIZ) inum) hd
    hfree.1 hfree.2.1 hroom
  have h : dirlink st ic d name inum = Except.ok (0, st3, ic.set d dp3) := by
    rw [he, hwr]
    simp only [bind_ok_eq, ne_eq, not_true_eq_false, if_false]
    rfl
  obtain ⟨-, dp4, e0, e1, e2, e3, e4, e5, e6, e7⟩ := dirlink_new_post hd hno h1 h2 hfree h
  have hdp : dp4 = dp3 := by
    have := congrFun e0 d
    rw [ICache.set_same, ICache.set_same] at this
    exact this.symm
  subst hdp
  exact ⟨st3, dp4, h, e1, e2, e3, e4, e5, e6, e7⟩

/-- The lookup of a name whose first entry in use is at `t`, on a well-formed
directory: when it returns it returns the inode the entry names, with `t`, and
changes nothing on disk; it returns when the cache has a slot to spare; and
its only panic is that of `iget`. -/
theorem dirlookup_at {st : FS} {ic : ICache} {d : Nat} {name : Mem} {t : Nat}
    (hd : DirOk st (ic d)) (t1 : t % DIRENT_SIZE = 0) (t2 : t < (ic d).size)
    (hnamed : entNamed st (ic d) name t)
    (hfirst : ∀ o, o % DIRENT_SIZE = 0 → o < t → ¬ entNamed st (ic d) name o) :
    ((∃ z, z < NINODE ∧ (ic z).ref = 0) → ∃ i ic4,
      dirlookup st ic d name = Except.ok (some (i, t), st, ic4)) ∧
    (∀ res st4 ic4, dirlookup st ic d name = Except.ok (res, st4, ic4) →
      ∃ i, res = some (i, t) ∧ st4 = st ∧ (ic4 i).dev = (ic d).dev ∧
        (ic4 i).inum = deInum (dirent st (ic d) t)) ∧
    (∀ e, dirlookup st ic d name = Except.error e → e = Panic.igetNoInodes) := by
  have he := dirlookup_found hd t1 t2 hnamed hfirst
  refine ⟨?_, ?_, ?_⟩
  · intro hslot
    obtain ⟨i, ic4, hg⟩ := @iget_total ic (ic d).dev (deInum (dirent st (ic d) t)) hslot
    refine ⟨i, ic4, ?_⟩
    rw [he, hg]
    rfl
  · intro res st4 ic4 h
    rw [he] at h
    obtain ⟨⟨i, ic5⟩, hg, h⟩ := bind_eq_ok h
    simp only [pure_eq_ok, Except.ok.injEq, Prod.mk.injEq] at h
    obtain ⟨rfl, rfl, rfl⟩ := h
    exact ⟨i, rfl, rfl, iget_inum hg⟩
  · intro e h
    rw [he] at h
    cases hg : iget ic (ic d).dev (deInum (dirent st (ic d) t)) with
    | error e2 =>
      rw [hg] at h
      simp only [bind_error_eq, Except.error.injEq] at h
      rw [← h]
      exact iget_error hg
    | ok p =>
      rw [hg] at h
      exact Except.noConfusion h

/-! ## The sample directory -/

theorem freshDir_ok : DirOk fs0 (dirCache 0) :=
  { ok := inodeOk_no_addrs fs0_ok (by decide) (by decide) (fun _ _ => rfl)
    noHoles := fun bn h => absurd h (Nat.not_lt_zero _)
    isDir := rfl
    whole := rfl }

theorem freshDir_free : firstFree fs0 (dirCache 0) 0 :=
  ⟨rfl, Nat.zero_le _, fun h => absurd h (Nat.not_lt_zero _),
    fun _ _ h => absurd h (Nat.not_lt_zero _)⟩

theorem freshDir_room : (0 : Nat) = (dirCache 0).size →
    (dirCache 0).size + DIRENT_SIZE ≤ MAXFILE * BSIZE ∧
      ((dirCache 0).size % BSIZE ≠ 0 ∨ ∃ b1 b2, b1 < fs0.sb.size ∧ b2 < fs0.sb.size ∧ b1 ≠ b2 ∧
        ¬ bitSet fs0 (dirCache 0).dev b1 ∧ ¬ bitSet fs0 (dirCache 0).dev b2) :=
  fun _ => ⟨by decide, Or.inr ⟨59, 60, by decide, by decide, by decide, by decide, by decide⟩⟩

/-- The sample directory after `dirlink(d, "foo", 7)`: a well-formed directory
of one entry, in use and named "foo", held once in slot 0 of the cache. -/
theorem fooDir_spec : DirOk fooDir.1 (fooDir.2 0) ∧ (fooDir.2 0).size = 16 ∧
    entNamed fooDir.1 (fooDir.2 0) fooName 0 ∧ (fooDir.2 0).ref = 1 ∧
    ∀ j, j ≠ 0 → fooDir.2 j = icache0 j := by
  obtain ⟨st3, dp3, h, hsize, hfields, hd3, -, -, hnamed, -⟩ :=
    @dirlink_new fs0 dirCache 0 fooName 7 0 freshDir_ok
      (fun _ _ h => absurd h (Nat.not_lt_zero _)) (by decide) (by decide) freshDir_free
      freshDir_room
  have e : fooDir = (st3, dirCache.set 0 dp3) := by
    unfold fooDir
    rw [h]
  rw [e]
  simp only [ICache.set_same]
  refine ⟨hd3, hsize, hnamed, ?_, ?_⟩
  · rw [hfields]
    rfl
  · intro j hj
    rw [ICache.set_other _ _ _ _ hj]
    exact ICache.set_other _ _ _ _ hj

/-! ## `writei` as a splice -/

/-- A call of `writei` that returns its count passed the guard. -/
theorem writei_ret_guard {st : FS} {ip : Inode} {src : Mem} {off n : Nat} {st2 : FS}
    {ip2 : Inode} (ht : ip.type ≠ T_DEV) (hoff : off < U32) (hn : n < U32)
    (h : writei st ip src off n = Except.ok ((n : Int), st2, ip2)) :
    off ≤ ip.size ∧ off + n ≤ MAXFILE * BSIZE := by
  by_cases hg : off > ip.size ∨ U32 ≤ off + n ∨ off + n > MAXFILE * BSIZE
  · rw [writei_reject st ip src off n ht hoff hn hg] at h
    simp only [Except.ok.injEq, Prod.mk.injEq] at h
    omega
  · omega

/-- A `writei` that extended the file flushed the inode: the on-disk inode has
the fields of the in-memory one, the new size among them. -/
theorem writei_extend_mirror {st : FS} {ip : Inode} {src : Mem} {off n : Nat} {r : Int}
    {st2 : FS} {ip2 : Inode} (hok : InodeOk st ip) (hs : ShortFields ip) (ht : ip.type ≠ T_DEV)
    (hoff : off ≤ ip.size) (hn : off + n ≤ MAXFILE * BSIZE) (hext : ip.size < off + n)
    (h : writei st ip src off n = Except.ok (r, st2, ip2)) : Mirror st2 ip2 := by
  obtain ⟨-, hp⟩ := writei_post hok ht hoff hn h
  have hs2 : ShortFields ip2 := by rw [hp.fields]; exact hs
  have hsz := hok.size_le
  have hn3 : off + n ≤ 140 * 512 := by simpa only [MAXFILE_eq, BSIZE_eq] using hn
  have hmod : (off + n) % U32 = off + n := Nat.mod_eq_of_lt (by simp only [U32_eq]; omega)
  unfold writei at h
  rw [if_neg ht, hmod, if_neg (by omega), if_neg (by omega)] at h
  obtain ⟨⟨st1, ip1, off1⟩, hl, h⟩ := bind_eq_ok h
  have hq := writeiLoop_post n st ip 0 off st1 ip1 off1 hok (by omega) (by simpa using hn) hl
  have hoff1 : off1 = off + n := by rw [hq.off_eq]; omega
  have hsize1 : ip1.size = ip.size := by rw [hq.fields]
  simp only at h
  rw [if_pos ⟨by omega, by rw [hoff1, hsize1]; exact hext⟩] at h
  obtain ⟨st3, hu, h⟩ := bind_eq_ok h
  simp only [pure_eq_ok, Except.ok.injEq, Prod.mk.injEq] at h
  obtain ⟨-, rfl, rfl⟩ := h
  have hok2 : InodeOk st1 { ip1 with size := off1 } :=
    inodeOk_size hq.ok off1 (by rw [hoff1]; exact hn)
  exact iupdate_mirror hok2 hs2 hu

/-- A sequence of `writei` calls on a well-formed inode without holes leaves a
well-formed inode without holes. -/
theorem writeiSeq_noHoles : ∀ (calls : List (Mem × Nat × Nat)) (st : FS) (ip : Inode),
    InodeOk st ip → NoHoles st ip → ShortFields ip →
    (∀ c, c ∈ calls → c.2.1 < U32 ∧ c.2.2 < U32) →
    ∀ st2 ip2, writeiSeq st ip calls = Except.ok (st2, ip2) →
      InodeOk st2 ip2 ∧ NoHoles st2 ip2 ∧ ShortFields ip2 := by
  intro calls
  induction calls with
  | nil =>
    intro st ip hok hnh hs _ st2 ip2 h
    simp only [writeiSeq, Except.ok.injEq, Prod.mk.injEq] at h
    obtain ⟨rfl, rfl⟩ := h
    exact ⟨hok, hnh, hs⟩
  | cons c cs ih =>
    intro st ip hok hnh hs hc st2 ip2 h
    unfold writeiSeq at h
    obtain ⟨⟨r, st1, ip1⟩, hw, h⟩ := bind_eq_ok h
    obtain ⟨-, -, a, b, d⟩ := writei_mirror hok hnh hs (hc c (List.mem_cons_self _ _)).1
      (hc c (List.mem_cons_self _ _)).2 hw
    exact ih st1 ip1 a b d (fun x hx => hc x (List.mem_cons_of_mem _ hx)) st2 ip2 h

/-- A fresh inode, of size 0, has no holes. -/
theorem noHoles_of_size_zero {st : FS} {ip : Inode} (h : ip.size = 0) : NoHoles st ip := by
  intro bn hlt
  rw [h] at hlt
  exact absurd hlt (Nat.not_lt_zero _)

/-! ## Paths -/

theorem skipSlashes_eq (path : List Nat) :
    skipSlashes path = path.dropWhile (fun c => decide (c = 47)) := by
  induction path with
  | nil => rfl
  | cons c cs ih =>
    unfold skipSlashes
    by_cases h : c = 47
    · rw [if_pos h, ih, List.dropWhile_cons_of_pos (by simpa using h)]
    · rw [if_neg h, List.dropWhile_cons_of_neg (by simpa using h)]

theorem skipName_eq (path : List Nat) (hz : ∀ c, c ∈ path → c ≠ 0) :
    skipName path = path.dropWhile (fun c => decide (c ≠ 47)) := by
  induction path with
  | nil => rfl
  | cons c cs ih =>
    have hc : c ≠ 0 := hz c (List.mem_cons_self _ _)
    unfold skipName
    by_cases h : c = 47
    · rw [if_neg (fun hh => hh.1 h), List.dropWhile_cons_of_neg (by simpa using h)]
    · rw [if_pos ⟨h, hc⟩, ih (fun x hx => hz x (List.mem_cons_of_mem _ hx)),
        List.dropWhile_cons_of_pos (by simpa using h)]

/-- What `skipelem` computes, in terms of the leading slashes, the first
element and the slashes after it. -/
theorem skipelem_eq (path : List Nat) (name : Mem) (hz : ∀ c, c ∈ path → c ≠ 0)
    (hlen : path.length < 2147483648) :
    ((∀ c, c ∈ path → c = 47) → skipelem path name = (none, name)) ∧
    (¬ (∀ c, c ∈ path → c = 47) →
      (skipelem path name).1 = some ((((path.dropWhile (fun c => decide (c = 47))).dropWhile
        (fun c => decide (c ≠ 47))).dropWhile (fun c => decide (c = 47)))) ∧
      ((path.dropWhile (fun c => decide (c = 47))).takeWhile (fun c => decide (c ≠ 47))) ≠ [] ∧
      ∀ i, (skipelem path name).2 i =
        if i < min ((path.dropWhile (fun c => decide (c = 47))).takeWhile
            (fun c => decide (c ≠ 47))).length DIRSIZ
        then ((path.dropWhile (fun c => decide (c = 47))).takeWhile
            (fun c => decide (c ≠ 47))).getD i 0
        else if i = ((path.dropWhile (fun c => decide (c = 47))).takeWhile
            (fun c => decide (c ≠ 47))).length ∧ i < DIRSIZ then 0
        else name i) := by
  have hsuf : path.dropWhile (fun c => decide (c = 47)) <:+ path := List.dropWhile_suffix _
  have hz1 : ∀ c, c ∈ path.dropWhile (fun c => decide (c = 47)) → c ≠ 0 :=
    fun c hc => hz c (hsuf.subset hc)
  have hl1 : (path.dropWhile (fun c => decide (c = 47))).length ≤ path.length := hsuf.length_le
  constructor
  · intro hall
    have : path.dropWhile (fun c => decide (c = 47)) = [] :=
      List.dropWhile_eq_nil_iff.mpr (fun c hc => by simpa using hall c hc)
    unfold skipelem
    simp only [skipSlashes_eq, this]
    rfl
  · intro hnot
    generalize hp1 : path.dropWhile (fun c => decide (c = 47)) = p1 at hz1 hl1
    have hne : p1 ≠ [] := by
      intro h
      rw [h] at hp1
      exact hnot (fun c hc => by simpa using List.dropWhile_eq_nil_iff.mp hp1 c hc)
    obtain ⟨c, cs, rfl⟩ := List.exists_cons_of_ne_nil hne
    have hc47 : c ≠ 47 := by
      have := List.head_dropWhile_not (fun c => decide (c = 47)) path (by rw [hp1]; exact hne)
      simp only [hp1, List.head_cons] at this
      exact of_decide_eq_false this
    have hc0 : c ≠ 0 := hz1 c (List.mem_cons_self _ _)
    have htake : (c :: cs).takeWhile (fun c => decide (c ≠ 47)) =
        c :: cs.takeWhile (fun c => decide (c ≠ 47)) :=
      List.takeWhile_cons_of_pos (by simpa using hc47)
    have hsplit := List.takeWhile_append_dropWhile (fun c => decide (c ≠ 47)) (c :: cs)
    have hlen2 : (c :: cs).length - ((c :: cs).dropWhile (fun c => decide (c ≠ 47))).length =
        ((c :: cs).takeWhile (fun c => decide (c ≠ 47))).length := by
      have := congrArg List.length hsplit
      rw [List.length_append] at this
      omega
    have hle : ((c :: cs).takeWhile (fun c => decide (c ≠ 47))).length ≤ (c :: cs).length := by
      have := congrArg List.length hsplit
      rw [List.length_append] at this
      omega
    have hget : ∀ i, i < ((c :: cs).takeWhile (fun c => decide (c ≠ 47))).length →
        (c :: cs).getD i 0 = ((c :: cs).takeWhile (fun c => decide (c ≠ 47))).getD i 0 := by
      intro i hi
      conv_lhs => rw [← hsplit]
      rw [List.getD_append _ _ _ _ hi]
    generalize he : (c :: cs).takeWhile (fun c => decide (c ≠ 47)) = e at htake hlen2 hle hget
    have hchar : charAt (c :: cs) ≠ 0 := hc0
    unfold skipelem
    simp only [skipSlashes_eq, hp1, if_neg hchar, skipName_eq (c :: cs) hz1, hlen2]
    rw [toInt32_small _ (by omega)]
    refine ⟨trivial, by rw [htake]; exact List.cons_ne_nil _ _, ?_⟩
    intro i
    simp only [DIRSIZ_eq]
    by_cases hlong : (e.length : Int) ≥ ((14 : Nat) : Int)
    · have hl : 14 ≤ e.length := by exact_mod_cast hlong
      rw [if_pos hlong]
      unfold memmove
      by_cases hi : i < 14
      · rw [if_pos ⟨Nat.zero_le _, by omega⟩, if_pos (by omega), Nat.zero_add, Nat.sub_zero]
        exact hget i (by omega)
      · rw [if_neg (by omega), if_neg (by omega), if_neg (by omega)]
    · have hl : e.length < 14 := by
        have : ¬ (14 ≤ e.length) := fun h => hlong (by exact_mod_cast h)
        omega
      rw [if_neg hlong, Int.toNat_natCast]
      unfold memmove
      by_cases hi : i < e.length
      · rw [if_neg (by omega), if_pos ⟨Nat.zero_le _, by omega⟩, if_pos (by omega), Nat.zero_add,
          Nat.sub_zero]
        exact hget i hi
      · by_cases hi2 : i = e.length
        · rw [if_pos hi2, if_neg (by omega), if_pos ⟨hi2, by omega⟩]
        · rw [if_neg hi2, if_neg (by omega), if_neg (by omega), if_neg (fun h => hi2 h.1)]

/-! ## Pipes -/

theorem PIPESIZE_eq : PIPESIZE = 512 := rfl

theorem bytesOf_self (addr : Mem) (i : Nat) : bytesOf addr i i = [] := by
  unfold bytesOf
  rw [Nat.sub_self]
  rfl

theorem bytesOf_cons (addr : Mem) {i j : Nat} (h : i < j) :
    bytesOf addr i j = addr i :: bytesOf addr (i + 1) j := by
  unfold bytesOf
  obtain ⟨m, hm⟩ : ∃ m, j - i = m + 1 := ⟨j - i - 1, by omega⟩
  have hm2 : j - (i + 1) = m := by omega
  rw [hm, hm2, List.range_succ_eq_map, List.map_cons, List.map_map]
  congr 1
  apply List.map_congr_left
  intro k _
  show addr (i + (k + 1)) = addr (i + 1 + k)
  congr 1
  omega

theorem bytesOf_length (addr : Mem) (i j : Nat) : (bytesOf addr i j).length = j - i := by
  unfold bytesOf
  rw [List.length_map, List.length_range]

theorem bytesOf_getD (addr : Mem) (i j k : Nat) (h : k < j - i) :
    (bytesOf addr i j).getD k 0 = addr (i + k) := by
  unfold bytesOf
  rw [List.getD_eq_getElem _ _ (by rw [List.length_map, List.length_range]; exact h)]
  simp

/-- The state after one byte was stored: the invariant holds again. -/
theorem pinv_store {s : PSys} (hinv : PInv s) (b : Nat)
    (hfull : s.pipe.nwrite ≠ (s.pipe.nread + PIPESIZE) % U32) :
    PInv { pipe := { s.pipe with
                     data := fun j => if j = s.pipe.nwrite % PIPESIZE then b else s.pipe.data j,
                     nwrite := (s.pipe.nwrite + 1) % U32 },
           stored := s.stored ++ [b], delivered := s.delivered } := by
  obtain ⟨h1, h2, h3, h4, h5, h6⟩ := hinv
  simp only [PIPESIZE_eq, U32_eq] at h1 h2 h4 hfull
  have hlt : s.stored.length < s.delivered.length + 512 := by
    rcases Nat.lt_or_ge s.stored.length (s.delivered.length + 512) with h | h
    · exact h
    · exfalso
      apply hfull
      have : s.stored.length = s.delivered.length + 512 := by omega
      rw [h1, h2, this]
      omega
  refine ⟨?_, h2, ?_, ?_, ?_, ?_⟩
  · show (s.pipe.nwrite + 1) % U32 = (s.stored ++ [b]).length % U32
    rw [List.length_append, List.length_singleton, h1]
    simp only [U32_eq]
    omega
  · show s.delivered.length ≤ (s.stored ++ [b]).length
    rw [List.length_append]
    omega
  · show (s.stored ++ [b]).length ≤ s.delivered.length + PIPESIZE
    rw [List.length_append, List.length_singleton]
    simp only [PIPESIZE_eq]
    omega
  · show s.delivered = (s.stored ++ [b]).take s.delivered.length
    rw [List.take_append_of_le_length h3]
    exact h5
  · intro j j1 j2
    simp only [List.length_append, List.length_singleton] at j2
    have j3 : s.delivered.length ≤ j := j1
    show (if j % PIPESIZE = s.pipe.nwrite % PIPESIZE then b else s.pipe.data (j % PIPESIZE)) =
      (s.stored ++ [b]).getD j 0
    by_cases hj : j = s.stored.length
    · rw [if_pos (by rw [h1, hj]; simp only [PIPESIZE_eq]; omega),
        List.getD_append_right _ _ _ _ (by omega), hj, Nat.sub_self]
      rfl
    · rw [if_neg (by rw [h1]; simp only [PIPESIZE_eq]; omega),
        List.getD_append _ _ _ _ (by omega)]
      exact h6 j j1 (by omega)

/-- A run of `pipewrite` keeps the invariant, the bytes it stored being
`addr[i]` up to the final count. -/
theorem pipewriteFrom_inv (addr : Mem) (n : Int) (killed : Bool) : ∀ (k : Nat) (s : PSys)
    (i : Nat), PInv s →
    PInv { s with pipe := (pipewriteFrom addr n killed k s.pipe i).pipe,
                  stored := s.stored ++
                    bytesOf addr i (pipewriteFrom addr n killed k s.pipe i).count } ∧
      i ≤ (pipewriteFrom addr n killed k s.pipe i).count ∧
      (pipewriteFrom addr n killed k s.pipe i).count ≤ i + k := by
  intro k
  induction k with
  | zero =>
    intro s i hinv
    unfold pipewriteFrom
    simp only [WriteEnd.pipe, WriteEnd.count, bytesOf_self, List.append_nil]
    exact ⟨hinv, le_refl _, le_refl _⟩
  | succ k ih =>
    intro s i hinv
    unfold pipewriteFrom
    by_cases hfull : s.pipe.nwrite = (s.pipe.nread + PIPESIZE) % U32
    · rw [if_pos hfull]
      split_ifs
      · simp only [WriteEnd.pipe, WriteEnd.count, bytesOf_self, List.append_nil]
        exact ⟨hinv, le_refl _, by omega⟩
      · simp only [WriteEnd.pipe, WriteEnd.count, bytesOf_self, List.append_nil]
        exact ⟨hinv, le_refl _, by omega⟩
    · rw [if_neg hfull]
      obtain ⟨a1, a2, a3⟩ := ih _ (i + 1) (pinv_store hinv (addr i) hfull)
      simp only at a1 a2 a3
      refine ⟨?_, by omega, by omega⟩
      rw [bytesOf_cons addr (by omega : i < _)]
      simpa only [List.append_assoc, List.singleton_append] using a1

/-- In a state that satisfies the invariant the pipe is empty exactly when the
two counters are equal. -/
theorem PInv.empty_iff {s : PSys} (hinv : PInv s) :
    s.pipe.nread = s.pipe.nwrite ↔ s.delivered.length = s.stored.length := by
  obtain ⟨h1, h2, h3, h4, -, -⟩ := hinv
  simp only [PIPESIZE_eq, U32_eq] at h1 h2 h4
  rw [h1, h2]
  constructor
  · intro h; omega
  · intro h; rw [h]

/-- The state after one byte was handed to a reader: the invariant holds
again. -/
theorem pinv_take {s : PSys} (hinv : PInv s) (hne : s.pipe.nread ≠ s.pipe.nwrite) :
    s.pipe.data (s.pipe.nread % PIPESIZE) = s.stored.getD s.delivered.length 0 ∧
    PInv { pipe := { s.pipe with nread := (s.pipe.nread + 1) % U32 }, stored := s.stored,
           delivered := s.delivered ++ [s.stored.getD s.delivered.length 0] } := by
  have hlt : s.delivered.length < s.stored.length := by
    have := hinv.le
    have := mt hinv.empty_iff.mpr hne
    omega
  obtain ⟨h1, h2, h3, h4, h5, h6⟩ := hinv
  simp only [PIPESIZE_eq, U32_eq] at h1 h2 h4
  constructor
  · rw [← h6 _ (le_refl _) hlt, h2]
    congr 1
    simp only [PIPESIZE_eq, U32_eq]
    omega
  refine ⟨h1, ?_, ?_, ?_, ?_, ?_⟩
  · show (s.pipe.nread + 1) % U32 = (s.delivered ++ [_]).length % U32
    rw [List.length_append, List.length_singleton, h2]
    simp only [U32_eq]
    omega
  · show (s.delivered ++ [_]).length ≤ s.stored.length
    rw [List.length_append, List.length_singleton]
    omega
  · show s.stored.length ≤ (s.delivered ++ [_]).length + PIPESIZE
    rw [List.length_append, List.length_singleton]
    simp only [PIPESIZE_eq]
    omega
  · show s.delivered ++ [_] = s.stored.take (s.delivered ++ [_]).length
    rw [List.length_append, List.length_singleton, List.take_succ, ← h5,
      List.getD_eq_getElem _ _ hlt, List.getElem?_eq_getElem hlt]
    rfl
  · intro j j1 j2
    simp only [List.length_append, List.length_singleton] at j1
    exact h6 j (by omega) j2

/-- The copy loop of `piperead` in a state that satisfies the invariant: it
hands over the oldest bytes, as many as asked for and buffered, and keeps the
invariant. -/
theorem pipereadCopy_inv : ∀ (k : Nat) (s : PSys) (addr : Mem) (i : Nat), PInv s →
    (pipereadCopy k s.pipe addr i).2.2 = i + min k (s.stored.length - s.delivered.length) ∧
    (∀ j, (pipereadCopy k s.pipe addr i).2.1 j =
      if i ≤ j ∧ j < i + min k (s.stored.length - s.delivered.length)
      then s.stored.getD (s.delivered.length + (j - i)) 0 else addr j) ∧
    PInv { pipe := (pipereadCopy k s.pipe addr i).1, stored := s.stored,
           delivered := s.delivered ++
             bytesOf (pipereadCopy k s.pipe addr i).2.1 i (pipereadCopy k s.pipe addr i).2.2 } ∧
    (pipereadCopy k s.pipe addr i).1.writeopen = s.pipe.writeopen ∧
    (pipereadCopy k s.pipe addr i).1.readopen = s.pipe.readopen ∧
    (pipereadCopy k s.pipe addr i).1.nwrite = s.pipe.nwrite := by
  intro k
  induction k with
  | zero =>
    intro s addr i hinv
    unfold pipereadCopy
    refine ⟨by rw [Nat.zero_min]; rfl, fun j => by rw [Nat.zero_min, if_neg (by omega)], ?_,
      rfl, rfl, rfl⟩
    show PInv { pipe := s.pipe, stored := s.stored, delivered := s.delivered ++ bytesOf addr i i }
    rw [bytesOf_self, List.append_nil]
    exact hinv
  | succ k ih =>
    intro s addr i hinv
    unfold pipereadCopy
    by_cases he : s.pipe.nread = s.pipe.nwrite
    · have h0 : s.stored.length - s.delivered.length = 0 := by
        have := hinv.empty_iff.mp he
        omega
      rw [if_pos he, h0]
      refine ⟨by rw [Nat.min_zero]; rfl, fun j => by rw [Nat.min_zero, if_neg (by omega)], ?_,
        rfl, rfl, rfl⟩
      show PInv { pipe := s.pipe, stored := s.stored,
                  delivered := s.delivered ++ bytesOf addr i i }
      rw [bytesOf_self, List.append_nil]
      exact hinv
    · have hlt : s.delivered.length < s.stored.length := by
        have := hinv.le
        have := mt hinv.empty_iff.mpr he
        omega
      rw [if_neg he]
      obtain ⟨hb, hinv2⟩ := pinv_take hinv he
      obtain ⟨r1, r2, r3, r4, r5, r6⟩ := ih _
        (fun j => if j = i then s.pipe.data (s.pipe.nread % PIPESIZE) else addr j) (i + 1) hinv2
      simp only [List.length_append, List.length_singleton] at r1 r2 r3
      have hmin : 1 + min k (s.stored.length - (s.delivered.length + 1)) =
          min (k + 1) (s.stored.length - s.delivered.length) := by omega
      refine ⟨by rw [r1]; omega, ?_, ?_, r4, r5, r6⟩
      · intro j
        rw [r2 j]
        by_cases hj : j = i
        · rw [if_neg (by omega), if_pos hj, if_pos (by omega), hb, hj, Nat.sub_self]
          rfl
        · rw [if_neg hj]
          by_cases hj2 : i + 1 ≤ j ∧ j < i + 1 + min k (s.stored.length - (s.delivered.length + 1))
          · rw [if_pos hj2, if_pos (by omega)]
            congr 1
            omega
          · rw [if_neg hj2, if_neg (by omega)]
      · rw [bytesOf_cons _ (by rw [r1]; omega), r2 i, if_neg (by omega), if_pos rfl]
        rw [List.append_assoc, ← hb] at r3
        exact r3

/-- Every step of an interleaving keeps the invariant. -/
theorem pstep_inv {s : PSys} (hinv : PInv s) (e : PEv) : PInv (pstep s e) := by
  cases e with
  | write addr n i killed =>
    exact (pipewriteFrom_inv addr n killed (n.toNat - i) s i hinv).1
  | read addr n killed =>
    show PInv (match piperead s.pipe addr n killed with
      | .ret r p addr1 =>
        { s with pipe := p, delivered := s.delivered ++ bytesOf addr1 0 r.toNat }
      | .sleep p => { s with pipe := p })
    unfold piperead
    by_cases h1 : s.pipe.nread = s.pipe.nwrite ∧ s.pipe.writeopen ≠ 0
    · rw [if_pos h1]
      by_cases h2 : killed = true
      · rw [if_pos h2]
        show PInv { pipe := s.pipe, stored := s.stored,
                    delivered := s.delivered ++ bytesOf addr 0 (Int.toNat (-1)) }
        rw [show Int.toNat (-1) = 0 from rfl, bytesOf_self, List.append_nil]
        exact hinv
      · rw [if_neg h2]
        exact hinv
    · rw [if_neg h1]
      obtain ⟨-, -, r3, -⟩ := pipereadCopy_inv n.toNat s addr 0 hinv
      show PInv { pipe := (pipereadCopy n.toNat s.pipe addr 0).1, stored := s.stored,
                  delivered := s.delivered ++ bytesOf (pipereadCopy n.toNat s.pipe addr 0).2.1 0
                    (Int.toNat ((pipereadCopy n.toNat s.pipe addr 0).2.2 : Int)) }
      rw [Int.toNat_natCast]
      exact r3
  | close writable =>
    show PInv { s with pipe := pipeclose s.pipe writable }
    unfold pipeclose
    split_ifs
    · exact ⟨hinv.nwrite, hinv.nread, hinv.le, hinv.room, hinv.fifo, hinv.ring⟩
    · exact ⟨hinv.nwrite, hinv.nread, hinv.le, hinv.room, hinv.fifo, hinv.ring⟩

theorem pinit_inv (data : Mem) : PInv (pinit data) :=
  ⟨rfl, rfl, le_refl _, Nat.zero_le _, rfl, fun _ _ h => absurd h (Nat.not_lt_zero _)⟩

/-- Every state reached from `pipealloc` satisfies the invariant. -/
theorem prun_inv : ∀ (evs : List PEv) (s : PSys), PInv s → PInv (prun s evs) := by
  intro evs
  induction evs with
  | nil => exact fun _ h => h
  | cons e es ih => exact fun s h => ih _ (pstep_inv h e)

theorem prun_append : ∀ (a b : List PEv) (s : PSys), prun s (a ++ b) = prun (prun s a) b := by
  intro a
  induction a with
  | nil => exact fun _ _ => rfl
  | cons e es ih => exact fun b s => ih b (pstep s e)

/-- A state is full exactly when the write counter equals the read counter
plus `PIPESIZE` in 32-bit arithmetic. -/
theorem PInv.full_iff {s : PSys} (hinv : PInv s) :
    s.pipe.nwrite = (s.pipe.nread + PIPESIZE) % U32 ↔
      s.stored.length = s.delivered.length + PIPESIZE := by
  obtain ⟨h1, h2, h3, h4, -, -⟩ := hinv
  simp only [PIPESIZE_eq, U32_eq] at h1 h2 h4 ⊢
  rw [h1, h2]
  constructor
  · intro h; omega
  · intro h; rw [h]; omega

/-- A run of `pipewrite` stores bytes until it has stored all of them or the
pipe is full. -/
theorem pipewriteFrom_count (addr : Mem) (n : Int) (killed : Bool) : ∀ (k : Nat) (s : PSys)
    (i : Nat), PInv s →
    (pipewriteFrom addr n killed k s.pipe i).count =
      i + min k (s.delivered.length + PIPESIZE - s.stored.length) := by
  intro k
  induction k with
  | zero =>
    intro s i _
    unfold pipewriteFrom
    rw [Nat.zero_min]
    rfl
  | succ k ih =>
    intro s i hinv
    unfold pipewriteFrom
    by_cases hfull : s.pipe.nwrite = (s.pipe.nread + PIPESIZE) % U32
    · rw [if_pos hfull]
      have h0 : s.delivered.length + PIPESIZE - s.stored.length = 0 := by
        rw [hinv.full_iff.mp hfull, Nat.sub_self]
      rw [h0, Nat.min_zero]
      split_ifs <;> rfl
    · rw [if_neg hfull]
      have hlt : s.stored.length < s.delivered.length + PIPESIZE := by
        have := hinv.room
        have := mt hinv.full_iff.mpr hfull
        omega
      have := ih _ (i + 1) (pinv_store hinv (addr i) hfull)
      simp only [List.length_append, List.length_singleton] at this
      rw [this]
      omega

/-- A call of `pipewrite` that returns, returns `n` with every byte stored, or
-1. -/
theorem pipewriteFrom_ret (addr : Mem) (n : Int) (killed : Bool) : ∀ (k : Nat) (p : Pipe)
    (i : Nat) (r : Int) (p2 : Pipe) (i2 : Nat),
    pipewriteFrom addr n killed k p i = .ret r p2 i2 →
    (r = n ∧ i2 = i + k) ∨ (r = -1 ∧ (p2.readopen = 0 ∨ killed = true)) := by
  intro k
  induction k with
  | zero =>
    intro p i r p2 i2 h
    unfold pipewriteFrom at h
    cases h
    exact Or.inl ⟨rfl, rfl⟩
  | succ k ih =>
    intro p i r p2 i2 h
    unfold pipewriteFrom at h
    split_ifs at h with h1 h2
    · cases h
      exact Or.inr ⟨rfl, h2⟩
    · rcases ih _ _ _ _ _ h with ⟨a, b⟩ | ⟨a, b⟩
      · exact Or.inl ⟨a, by omega⟩
      · exact Or.inr ⟨a, b⟩

/-- The step of a writer: it appends to the stored bytes as many bytes as it
was asked for and the pipe has room for. -/
theorem pstep_write_len {s : PSys} (hinv : PInv s) (addr : Mem) (n : Int) (i : Nat)
    (killed : Bool) :
    (pstep s (.write addr n i killed)).stored.length =
      s.stored.length + min (n.toNat - i) (s.delivered.length + PIPESIZE - s.stored.length) ∧
    (pstep s (.write addr n i killed)).delivered = s.delivered := by
  refine ⟨?_, rfl⟩
  show (s.stored ++ bytesOf addr i (pipewriteFrom addr n killed (n.toNat - i) s.pipe i).count).length
    = _
  rw [List.length_append, bytesOf_length, pipewriteFrom_count addr n killed _ s i hinv]
  omega

/-- A call of `piperead` on a pipe that holds unread bytes returns the oldest
ones, as many as asked for and held. -/
theorem piperead_some {s : PSys} (hinv : PInv s) (hk : s.delivered.length < s.stored.length)
    (addr : Mem) (n : Int) (killed : Bool) :
    ∃ p2 addr2, piperead s.pipe addr n killed =
        .ret ((min n.toNat (s.stored.length - s.delivered.length) : Nat) : Int) p2 addr2 ∧
      (∀ j, addr2 j = if j < min n.toNat (s.stored.length - s.delivered.length)
        then s.stored.getD (s.delivered.length + j) 0 else addr j) ∧
      PInv { pipe := p2, stored := s.stored,
             delivered := s.delivered ++
               bytesOf addr2 0 (min n.toNat (s.stored.length - s.delivered.length)) } := by
  have hne : ¬(s.pipe.nread = s.pipe.nwrite ∧ s.pipe.writeopen ≠ 0) := by
    intro h
    have := hinv.empty_iff.mp h.1
    omega
  obtain ⟨r1, r2, r3, -⟩ := pipereadCopy_inv n.toNat s addr 0 hinv
  rw [Nat.zero_add] at r1
  refine ⟨(pipereadCopy n.toNat s.pipe addr 0).1, (pipereadCopy n.toNat s.pipe addr 0).2.1,
    ?_, ?_, ?_⟩
  · unfold piperead
    rw [if_neg hne]
    show ReadEnd.ret _ _ _ = _
    rw [r1]
  · intro j
    rw [r2 j]
    simp only [Nat.zero_le, true_and, Nat.zero_add, Nat.sub_zero]
  · rw [r1] at r3
    exact r3

/-- The step of a reader on a pipe that holds unread bytes. -/
theorem pstep_read_len {s : PSys} (hinv : PInv s) (hk : s.delivered.length < s.stored.length)
    (addr : Mem) (n : Int) (killed : Bool) :
    (pstep s (.read addr n killed)).delivered.length =
      s.delivered.length + min n.toNat (s.stored.length - s.delivered.length) ∧
    (pstep s (.read addr n killed)).stored = s.stored := by
  obtain ⟨p2, addr2, h1, -, -⟩ := piperead_some hinv hk addr n killed
  show (match piperead s.pipe addr n killed with
      | .ret r p addr1 =>
        { s with pipe := p, delivered := s.delivered ++ bytesOf addr1 0 r.toNat }
      | .sleep p => { s with pipe := p }).delivered.length = _ ∧
    (match piperead s.pipe addr n killed with
      | .ret r p addr1 =>
        { s with pipe := p, delivered := s.delivered ++ bytesOf addr1 0 r.toNat }
      | .sleep p => { s with pipe := p }).stored = _
  rw [h1]
  refine ⟨?_, rfl⟩
  show (s.delivered ++ bytesOf addr2 0 (Int.toNat (min n.toNat _ : Nat))).length = _
  rw [Int.toNat_natCast, List.length_append, bytesOf_length]
  omega

/-- A call of `piperead` on an empty pipe whose write end is closed returns 0
and changes nothing. -/
theorem piperead_eof (p : Pipe) (addr : Mem) (n : Int) (killed : Bool)
    (he : p.nread = p.nwrite) (hw : p.writeopen = 0) :
    piperead p addr n killed = .ret 0 p addr := by
  unfold piperead
  rw [if_neg (fun h => h.2 hw)]
  have : pipereadCopy n.toNat p addr 0 = (p, addr, 0) := by
    cases n.toNat with
    | zero => rfl
    | succ k =>
      unfold pipereadCopy
      rw [if_pos he]
  rw [this]
  rfl

/-- The run `pingPong k` from a state with an empty pipe passes `k` bytes
through it. -/
theorem pingPong_len : ∀ (k : Nat) (s : PSys), PInv s →
    s.delivered.length = s.stored.length →
    PInv (prun s (pingPong k)) ∧
    (prun s (pingPong k)).stored.length = s.stored.length + k ∧
    (prun s (pingPong k)).delivered.length = s.stored.length + k := by
  intro k
  induction k with
  | zero => exact fun s h1 h2 => ⟨h1, rfl, h2⟩
  | succ k ih =>
    intro s h1 h2
    have w1 := pstep_write_len h1 zeroBuf 1 0 false
    have i1 := pstep_inv h1 (.write zeroBuf 1 0 false)
    have hw : (pstep s (.write zeroBuf 1 0 false)).stored.length = s.stored.length + 1 := by
      rw [w1.1, h2, show Int.toNat 1 = 1 from rfl]
      simp only [PIPESIZE_eq]
      omega
    have hlt : (pstep s (.write zeroBuf 1 0 false)).delivered.length <
        (pstep s (.write zeroBuf 1 0 false)).stored.length := by
      rw [hw, w1.2, h2]
      omega
    have r1 := pstep_read_len i1 hlt zeroBuf 1 false
    have i2 := pstep_inv i1 (.read zeroBuf 1 false)
    have hr : (pstep (pstep s (.write zeroBuf 1 0 false)) (.read zeroBuf 1 false)).delivered.length
        = s.stored.length + 1 := by
      rw [r1.1, hw, w1.2, h2, show Int.toNat 1 = 1 from rfl]
      omega
    have hs : (pstep (pstep s (.write zeroBuf 1 0 false)) (.read zeroBuf 1 false)).stored.length
        = s.stored.length + 1 := by
      rw [r1.2, hw]
    obtain ⟨a, b, c⟩ := ih _ i2 (by rw [hr, hs])
    refine ⟨a, ?_, ?_⟩
    · show (prun (pstep (pstep s _) _) (pingPong k)).stored.length = _
      rw [b, hs]
      omega
    · show (prun (pstep (pstep s _) _) (pingPong k)).delivered.length = _
      rw [c, hs]
      omega

/-- The state `wrapRun` reaches: 2^32 bytes were stored and 2^32 - 1 handed
over. -/
theorem wrapRun_len (data : Mem) :
    PInv (prun (pinit data) wrapRun) ∧
    (prun (pinit data) wrapRun).stored.length = 4294967296 ∧
    (prun (pinit data) wrapRun).delivered.length = 4294967295 := by
  obtain ⟨a, b, c⟩ := pingPong_len 4294967295 (pinit data) (pinit_inv data) rfl
  have b1 : (prun (pinit data) (pingPong 4294967295)).stored.length = 4294967295 := by
    rw [b]
    exact Nat.zero_add _
  have c1 : (prun (pinit data) (pingPong 4294967295)).delivered.length = 4294967295 := by
    rw [c]
    exact Nat.zero_add _
  unfold wrapRun
  rw [prun_append]
  generalize prun (pinit data) (pingPong 4294967295) = s at a b1 c1
  show PInv (pstep s (.write zeroBuf 1 0 false)) ∧
    (pstep s (.write zeroBuf 1 0 false)).stored.length = 4294967296 ∧
    (pstep s (.write zeroBuf 1 0 false)).delivered.length = 4294967295
  have w1 := pstep_write_len a zeroBuf 1 0 false
  refine ⟨pstep_inv a _, ?_, ?_⟩
  · rw [w1.1, b1, c1, show Int.toNat 1 = 1 from rfl]
    simp only [PIPESIZE_eq]
    omega
  · rw [w1.2, c1]

/-! ## `filewrite` -/

theorem fwMax_eq : fwMax = 1536 := by decide

/-- The panics of `ilock`: no reference, no type on disk, or the disk driver. -/
theorem ilock_error {st : FS} {ip : Inode} {e : Panic} (h : ilock st ip = Except.error e) :
    e = Panic.ilockNoRef ∨ e = Panic.ilockNoType ∨ IoPanic e := by
  unfold ilock at h
  by_cases h1 : ip.ref < 1
  · rw [if_pos h1] at h
    cases h
    exact Or.inl rfl
  · rw [if_neg h1] at h
    by_cases h2 : ip.valid = 0
    · rw [if_pos h2] at h
      rcases hb : bread st ip.dev (IBLOCK ip.inum st.sb) with e2 | data
      · rw [hb] at h
        simp only [bind_error_eq, Except.error.injEq] at h
        rw [← h]
        exact Or.inr (Or.inr (bread_error hb))
      · rw [hb] at h
        simp only [bind_ok_eq] at h
        split_ifs at h
        · cases h
          exact Or.inr (Or.inl rfl)
        · cases h
    · rw [if_neg h2] at h
      cases h

/-- A call of `writei` with `uint` arguments does not use up the iteration
budget of the model. -/
theorem writei_not_diverged (st : FS) (ip : Inode) (src : Mem) (off n : Nat) (hoff : off < U32)
    (hn : n < U32) : writei st ip src off n ≠ Except.error Panic.diverged := by
  intro h
  by_cases ht : ip.type = T_DEV
  · unfold writei at h
    rw [if_pos ht] at h
    split_ifs at h
    split at h <;> cases h
  · rcases (writei_any st ip src off n ht hoff hn).2 _ h with h1 | h1 | h1 <;> cases h1

/-- The loop of `filewrite`, entered with `0 <= i <= n`: a return is `n` or -1,
the record grows by transactions that each hold one `writei` of at most 1536
bytes at the offset of the file, the offset advances by what each `writei`
returned, and the iteration budget of the model is not used up. -/
theorem filewriteLoop_spec (addr : Mem) (n : Int) (hn : n < 2147483648) :
    ∀ (k : Nat) (s : FwState) (i : Int), 0 ≤ i → i ≤ n →
    (∀ r s2, filewriteLoop addr n k s i = Except.ok (r, s2) →
      (r = n ∨ r = -1) ∧
      ∃ tr, s2.trace = s.trace ++ tr ∧ chunksFrom s.f.off tr = some s2.f.off) ∧
    (s.f.off < U32 → (n - i).toNat < k →
      filewriteLoop addr n k s i ≠ Except.error Panic.diverged) := by
  intro k
  induction k with
  | zero =>
    intro s i _ _
    refine ⟨fun r s2 h => ?_, fun _ h => absurd h (Nat.not_lt_zero _)⟩
    simp [filewriteLoop] at h
  | succ k ih =>
    intro s i hi0 hin
    unfold filewriteLoop
    by_cases hlt : i < n
    · rw [if_pos hlt]
      have hsub : int32 (n - i) = n - i := int32_small _ (by omega) (by omega)
      rw [hsub, fwMax_eq]
      generalize hn1 : (if n - i > 1536 then (1536 : Int) else n - i) = n1
      have hn1a : 0 < n1 ∧ n1 ≤ 1536 ∧ n1 ≤ n - i := by
        rw [← hn1]
        split_ifs <;> omega
      have hmod : n1 % (U32 : Int) = n1 := Int.emod_eq_of_lt (by omega)
        (by simp only [U32_eq]; push_cast; omega)
      have hconv : (n1 % (U32 : Int)).toNat ≤ 1536 := by
        rw [hmod]
        omega
      simp only
      constructor
      · intro r s2 h
        obtain ⟨ip, -, h⟩ := bind_eq_ok h
        obtain ⟨⟨rr, st1, ip1⟩, -, h⟩ := bind_eq_ok h
        obtain ⟨u, -, h⟩ := bind_eq_ok h
        simp only at h
        by_cases h1 : rr < 0
        · rw [if_pos h1, if_neg (ne_of_lt hlt)] at h
          simp only [pure_eq_ok, Except.ok.injEq, Prod.mk.injEq] at h
          obtain ⟨rfl, rfl⟩ := h
          refine ⟨Or.inr rfl, _, rfl, ?_⟩
          simp only [chunksFrom]
          rw [if_pos ⟨trivial, hconv⟩]
        · rw [if_neg h1] at h
          by_cases h3 : rr ≠ n1
          · rw [if_pos h3] at h
            cases h
          · rw [if_neg h3] at h
            have hr : rr = n1 := not_not.mp h3
            have hadd : int32 (i + rr) = i + rr := int32_small _ (by omega) (by omega)
            rw [hadd] at h
            obtain ⟨a, tr, b, c⟩ := (ih _ (i + rr) (by omega) (by omega)).1 r s2 h
            refine ⟨a, FwEv.beginOp :: FwEv.writei s.f.off (n1 % (U32 : Int)).toNat rr ::
              FwEv.endOp :: tr, ?_, ?_⟩
            · rw [b]
              simp only [List.append_assoc, List.cons_append, List.nil_append]
            · simp only [chunksFrom]
              rw [if_pos ⟨trivial, hconv⟩]
              exact c
      · intro hoff hk h
        rcases hil : ilock s.st (s.ic s.f.ip) with e | ip
        · rw [hil] at h
          simp only [bind_error_eq, Except.error.injEq] at h
          rw [h] at hil
          rcases ilock_error hil with h1 | h1 | h1 | h1 | h1 <;> cases h1
        · rw [hil] at h
          simp only [bind_ok_eq] at h
          rcases hw : writei s.st ip (fun j => addr (i.toNat + j)) s.f.off
              (n1 % (U32 : Int)).toNat with e | ⟨rr, st1, ip1⟩
          · rw [hw] at h
            simp only [bind_error_eq, Except.error.injEq] at h
            rw [h] at hw
            exact writei_not_diverged _ _ _ _ _ hoff (by simp only [U32_eq]; omega) hw
          · rw [hw] at h
            simp only [bind_ok_eq] at h
            rcases hu : iunlock ip1 with e | u
            · rw [hu] at h
              simp only [bind_error_eq, Except.error.injEq] at h
              unfold iunlock at hu
              split_ifs at hu
              cases hu
              cases h
            · rw [hu] at h
              simp only [bind_ok_eq] at h
              by_cases h1 : rr < 0
              · rw [if_pos h1] at h
                cases h
              · rw [if_neg h1] at h
                by_cases h3 : rr ≠ n1
                · rw [if_pos h3] at h
                  cases h
                · rw [if_neg h3] at h
                  have hr : rr = n1 := not_not.mp h3
                  have hadd : int32 (i + rr) = i + rr := int32_small _ (by omega) (by omega)
                  rw [hadd] at h
                  refine (ih _ (i + rr) (by omega) (by omega)).2 ?_ (by omega) h
                  show (if rr > 0 then (((s.f.off : Int) + rr) % (U32 : Int)).toNat
                    else s.f.off) < U32
                  rw [if_pos (by omega)]
                  have h5 := Int.emod_lt_of_pos ((s.f.off : Int) + rr)
                    (show (0 : Int) < (U32 : Int) by simp only [U32_eq]; decide)
                  have h6 := Int.emod_nonneg ((s.f.off : Int) + rr)
                    (show (U32 : Int) ≠ 0 by simp only [U32_eq]; decide)
                  omega
    · rw [if_neg hlt]
      have : i = n := by omega
      refine ⟨fun r s2 h => ?_, fun _ _ h => by simp [pure_eq_ok] at h⟩
      simp only [pure_eq_ok, Except.ok.injEq, Prod.mk.injEq] at h
      obtain ⟨rfl, rfl⟩ := h
      rw [if_pos this]
      exact ⟨Or.inl rfl, [], by rw [List.append_nil], rfl⟩

/-! ## Path resolution -/

theorem ICache.set_set (ic : ICache) (i : Nat) (a b : Inode) :
    (ic.set i a).set i b = ic.set i b := by
  funext j
  unfold ICache.set
  split_ifs <;> rfl

/-- An inode that `ilock` returned has a reference and was read. -/
theorem ilock_held {st : FS} {ip ip2 : Inode} (h : ilock st ip = Except.ok ip2) :
    1 ≤ ip2.ref ∧ ip2.valid ≠ 0 ∧ 1 ≤ ip.ref := by
  have hid := ilock_ident h
  unfold ilock at h
  by_cases h1 : ip.ref < 1
  · rw [if_pos h1] at h
    cases h
  · rw [if_neg h1] at h
    refine ⟨by rw [hid.2.2]; omega, ?_, by omega⟩
    by_cases h2 : ip.valid = 0
    · rw [if_pos h2] at h
      obtain ⟨data, -, h⟩ := bind_eq_ok h
      simp only at h
      split_ifs at h
      simp only [pure_eq_ok, Except.ok.injEq] at h
      rw [← h]
      show (1 : Int) ≠ 0
      decide
    · rw [if_neg h2] at h
      cases h
      exact h2

/-- Unlocking and putting an inode that is held and is not freed takes one
reference away and changes nothing else. -/
theorem iunlockput_keep (st : FS) (ic : ICache) (i : Nat) (href : 1 ≤ (ic i).ref)
    (h : ¬ ((ic i).valid ≠ 0 ∧ (ic i).nlink = 0 ∧ (ic i).ref = 1)) :
    iunlockput st ic i =
      Except.ok (st, ic.set i { ic i with ref := int32 ((ic i).ref - 1) }) := by
  unfold iunlockput iunlock
  rw [if_neg (by omega)]
  simp only [bind_ok_eq]
  exact iput_keep st ic i h

/-! ### The reference counts -/

/-- When `bmap` returns it has changed only the addresses of the inode. -/
theorem bmap_fields {st : FS} {ip : Inode} {bn a : Nat} {st2 : FS} {ip2 : Inode}
    (h : bmap st ip bn = Except.ok (a, st2, ip2)) : ip2 = { ip with addrs := ip2.addrs } := by
  by_cases hbn : bn < MAXFILE
  · exact (bmap_any hbn).1 a st2 ip2 h
  · have h1 : ¬ bn < NDIRECT := by
      simp only [MAXFILE_eq, NDIRECT_eq] at *
      omega
    have h2 : ¬ bn - NDIRECT < NINDIRECT := by
      simp only [MAXFILE_eq, NDIRECT_eq, NINDIRECT_eq] at *
      omega
    unfold bmap at h
    rw [if_neg h1] at h
    simp only at h
    rw [if_neg h2] at h
    cases h

/-- When the copy loop of `readi` returns it has changed only the addresses of
the inode. -/
theorem readiLoop_fields {n : Nat} : ∀ (k : Nat) (st : FS) (ip : Inode) (dst : Mem)
    (tot off : Nat) (st2 : FS) (ip2 : Inode) (dst2 : Mem),
    readiLoop n k st ip dst tot off = Except.ok (st2, ip2, dst2) →
    ip2 = { ip with addrs := ip2.addrs } := by
  intro k
  induction k with
  | zero =>
    intro st ip dst tot off st2 ip2 dst2 h
    unfold readiLoop at h
    split_ifs at h
    simp only [Except.ok.injEq, Prod.mk.injEq] at h
    rw [← h.2.1]
  | succ k ih =>
    intro st ip dst tot off st2 ip2 dst2 h
    unfold readiLoop at h
    split_ifs at h
    · obtain ⟨⟨a, st1, ip1⟩, hb, h⟩ := bind_eq_ok h
      obtain ⟨data, -, h⟩ := bind_eq_ok h
      have e1 := bmap_fields hb
      have e2 := ih _ _ _ _ _ _ _ _ h
      rw [e2, e1]
    · simp only [Except.ok.injEq, Prod.mk.injEq] at h
      rw [← h.2.1]

/-- When `readi` returns it has changed only the addresses of the inode. -/
theorem readi_fields {st : FS} {ip : Inode} {dst : Mem} {off n : Nat} {r : Int} {st2 : FS}
    {ip2 : Inode} {dst2 : Mem} (h : readi st ip dst off n = Except.ok (r, st2, ip2, dst2)) :
    ip2 = { ip with addrs := ip2.addrs } := by
  unfold readi at h
  by_cases ht : ip.type = T_DEV
  · rw [if_pos ht] at h
    split_ifs at h
    · simp only [Except.ok.injEq, Prod.mk.injEq] at h
      rw [← h.2.2.1]
    · split at h <;> simp only [Except.ok.injEq, Prod.mk.injEq] at h <;> rw [← h.2.2.1]
  · rw [if_neg ht] at h
    by_cases hg : off > ip.size ∨ (off + n) % U32 < off
    · rw [if_pos hg] at h
      simp only [Except.ok.injEq, Prod.mk.injEq] at h
      rw [← h.2.2.1]
    · rw [if_neg hg] at h
      simp only at h
      generalize (if (off + n) % U32 > ip.size then ip.size - off else n) = n1 at h
      obtain ⟨⟨st1, ip1, dst1⟩, hl, h⟩ := bind_eq_ok h
      simp only [pure_eq_ok, Except.ok.injEq, Prod.mk.injEq] at h
      rw [← h.2.2.1]
      exact readiLoop_fields _ _ _ _ _ _ _ _ _ hl

/-- When the loop of `dirlookup` returns it has changed only the addresses of
the inode. -/
theorem dirlookupLoop_fields {name : Mem} : ∀ (k : Nat) (st : FS) (dp : Inode) (de : Mem)
    (off : Nat) (r : Option (Nat × Nat)) (st2 : FS) (dp2 : Inode),
    dirlookupLoop name k st dp de off = Except.ok (r, st2, dp2) →
    dp2 = { dp with addrs := dp2.addrs } := by
  intro k
  induction k with
  | zero =>
    intro st dp de off r st2 dp2 h
    simp [dirlookupLoop] at h
  | succ k ih =>
    intro st dp de off r st2 dp2 h
    unfold dirlookupLoop at h
    split_ifs at h with h1
    · obtain ⟨⟨r1, st1, dp1, de1⟩, hr, h⟩ := bind_eq_ok h
      have e1 := readi_fields hr
      have hsz : dp1.size = dp.size := by rw [e1]
      simp only at h
      split_ifs at h
      · have e2 := ih _ _ _ _ _ _ _ h
        rw [e2, e1]
      · simp only [pure_eq_ok, Except.ok.injEq, Prod.mk.injEq] at h
        rw [← h.2.2]
        exact e1
      · have e2 := ih _ _ _ _ _ _ _ h
        rw [e2, e1]
    · simp only [pure_eq_ok, Except.ok.injEq, Prod.mk.injEq] at h
      rw [← h.2.2]

/-- The reference counts after `iget`: one more on the slot returned. -/
theorem iget_refs {ic : ICache} {dev inum i : Nat} {ic2 : ICache}
    (h : iget ic dev inum = Except.ok (i, ic2)) :
    ∀ j, (ic2 j).ref = if j = i then int32 ((ic j).ref + 1) else (ic j).ref := by
  intro j
  obtain ⟨-, hc⟩ := iget_cases h
  rcases hc with ⟨-, -, -, -, e⟩ | ⟨-, h0, -, e⟩
  · rw [e]
    by_cases hj : j = i
    · rw [if_pos hj, hj, ICache.set_same]
    · rw [if_neg hj, ICache.set_other _ _ _ _ hj]
  · rw [e]
    by_cases hj : j = i
    · rw [if_pos hj, hj, ICache.set_same, h0]
      rfl
    · rw [if_neg hj, ICache.set_other _ _ _ _ hj]

/-- The reference counts after `dirlookup`: as before when it returns 0, one
more on the slot returned otherwise. -/
theorem dirlookup_refs {st : FS} {ic : ICache} {d : Nat} {name : Mem}
    {res : Option (Nat × Nat)} {st2 : FS} {ic2 : ICache}
    (h : dirlookup st ic d name = Except.ok (res, st2, ic2)) :
    ∀ j, (ic2 j).ref =
      if (res.map Prod.fst) = some j then int32 ((ic j).ref + 1) else (ic j).ref := by
  unfold dirlookup at h
  split_ifs at h
  obtain ⟨⟨r, st1, dp1⟩, hl, h⟩ := bind_eq_ok h
  have e1 := dirlookupLoop_fields _ _ _ _ _ _ _ _ hl
  have hset : ∀ j, ((ic.set d dp1) j).ref = (ic j).ref := by
    intro j
    by_cases hj : j = d
    · rw [hj, ICache.set_same, e1]
    · rw [ICache.set_other _ _ _ _ hj]
  simp only at h
  cases r with
  | none =>
    simp only [pure_eq_ok, Except.ok.injEq, Prod.mk.injEq] at h
    obtain ⟨rfl, -, rfl⟩ := h
    intro j
    rw [hset j]
    simp
  | some p =>
    obtain ⟨off, inum⟩ := p
    simp only at h
    obtain ⟨⟨i, ic3⟩, hg, h⟩ := bind_eq_ok h
    simp only [pure_eq_ok, Except.ok.injEq, Prod.mk.injEq] at h
    obtain ⟨rfl, -, rfl⟩ := h
    intro j
    rw [iget_refs hg j, hset j]
    simp only [Option.map_some', Option.some.injEq]
    by_cases hj : j = i
    · rw [if_pos hj, if_pos hj.symm]
    · rw [if_neg hj, if_neg (fun e => hj e.symm)]

/-- The reference counts after `iunlockput`: one less on the slot. -/
theorem iunlockput_refs {st : FS} {ic : ICache} {i : Nat} {st2 : FS} {ic2 : ICache}
    (h : iunlockput st ic i = Except.ok (st2, ic2)) :
    ∀ j, (ic2 j).ref = if j = i then int32 ((ic j).ref - 1) else (ic j).ref := by
  unfold iunlockput at h
  obtain ⟨u, -, h⟩ := bind_eq_ok h
  obtain ⟨-, -, a, b⟩ := iput_ident h
  intro j
  by_cases hj : j = i
  · rw [if_pos hj, hj, a]
  · rw [if_neg hj, b j hj]

/-- The loop of `namex` entered with one reference on the current inode on top
of the counts `r0`: when it returns, the counts are `r0` with one more on the
slot returned, if any. -/
theorem namexLoop_refs (np : Int) (r0 : Nat → Int)
    (hr0 : ∀ j, 0 ≤ r0 j ∧ r0 j ≤ 2147483645) :
    ∀ (k : Nat) (st : FS) (ic : ICache) (ip : Nat) (path : List Nat) (name : Mem),
    (∀ j, (ic j).ref = r0 j + (if j = ip then 1 else 0)) →
    ∀ r st2 ic2 name2, namexLoop np k st ic ip path name = Except.ok (r, st2, ic2, name2) →
    ∀ j, (ic2 j).ref = r0 j + (if r = some j then 1 else 0) := by
  intro k
  induction k with
  | zero =>
    intro st ic ip path name _ r st2 ic2 name2 h
    simp [namexLoop] at h
  | succ k ih =>
    intro st ic ip path name hbal r st2 ic2 name2 h
    have hput : ∀ (ic1 : ICache) (s3 : FS) (ic3 : ICache),
        (∀ j, (ic1 j).ref = r0 j + (if j = ip then 1 else 0)) →
        (∀ j, (ic3 j).ref = if j = ip then int32 ((ic1 j).ref - 1) else (ic1 j).ref) →
        ∀ j, (ic3 j).ref = r0 j + (if (none : Option Nat) = some j then 1 else 0) := by
      intro ic1 s3 ic3 h1 h3 j
      have := hr0 j
      have hnone : (if (none : Option Nat) = some j then (1 : Int) else 0) = 0 := by simp
      rw [h3 j, h1 j, hnone]
      by_cases hj : j = ip
      · rw [if_pos hj, if_pos hj, int32_small _ (by omega) (by omega)]
        omega
      · rw [if_neg hj, if_neg hj]
    unfold namexLoop at h
    rcases hsk : skipelem path name with ⟨_ | path1, name1⟩
    · rw [hsk] at h
      simp only at h
      by_cases hnp : np ≠ 0
      · rw [if_pos hnp] at h
        obtain ⟨⟨st1, ic1⟩, hi, h⟩ := bind_eq_ok h
        simp only [pure_eq_ok, Except.ok.injEq, Prod.mk.injEq] at h
        obtain ⟨rfl, -, rfl, -⟩ := h
        obtain ⟨-, -, a, b⟩ := iput_ident hi
        refine hput ic st1 ic1 hbal (fun j => ?_)
        by_cases hj : j = ip
        · rw [if_pos hj, hj, a]
        · rw [if_neg hj, b j hj]
      · rw [if_neg hnp] at h
        simp only [pure_eq_ok, Except.ok.injEq, Prod.mk.injEq] at h
        obtain ⟨rfl, -, rfl, -⟩ := h
        intro j
        rw [hbal j]
        simp only [Option.some.injEq]
        by_cases hj : j = ip
        · rw [if_pos hj, if_pos hj.symm]
        · rw [if_neg hj, if_neg (fun e => hj e.symm)]
    · rw [hsk] at h
      simp only at h
      obtain ⟨ip1, hl, h⟩ := bind_eq_ok h
      have hid := ilock_ident hl
      have hbal1 : ∀ j, ((ic.set ip ip1) j).ref = r0 j + (if j = ip then 1 else 0) := by
        intro j
        by_cases hj : j = ip
        · rw [hj, ICache.set_same, hid.2.2, hbal ip]
        · rw [ICache.set_other _ _ _ _ hj, hbal j]
      by_cases ht : ip1.type ≠ T_DIR
      · rw [if_pos ht] at h
        obtain ⟨⟨st3, ic3⟩, hu, h⟩ := bind_eq_ok h
        simp only [pure_eq_ok, Except.ok.injEq, Prod.mk.injEq] at h
        obtain ⟨rfl, -, rfl, -⟩ := h
        exact hput _ st3 ic3 hbal1 (iunlockput_refs hu)
      · rw [if_neg ht] at h
        by_cases hstop : np ≠ 0 ∧ charAt path1 = 0
        · rw [if_pos hstop] at h
          obtain ⟨u, -, h⟩ := bind_eq_ok h
          simp only [pure_eq_ok, Except.ok.injEq, Prod.mk.injEq] at h
          obtain ⟨rfl, -, rfl, -⟩ := h
          intro j
          rw [hbal1 j]
          simp only [Option.some.injEq]
          by_cases hj : j = ip
          · rw [if_pos hj, if_pos hj.symm]
          · rw [if_neg hj, if_neg (fun e => hj e.symm)]
        · rw [if_neg hstop] at h
          obtain ⟨⟨res, st2a, ic2a⟩, hd, h⟩ := bind_eq_ok h
          have hdr := dirlookup_refs hd
          simp only at h
          cases res with
          | none =>
            simp only at h
            obtain ⟨⟨st3, ic3⟩, hu, h⟩ := bind_eq_ok h
            simp only [pure_eq_ok, Except.ok.injEq, Prod.mk.injEq] at h
            obtain ⟨rfl, -, rfl, -⟩ := h
            refine hput ic2a st3 ic3 (fun j => ?_) (iunlockput_refs hu)
            rw [hdr j, hbal1 j]
            simp
          | some p =>
            obtain ⟨next, off⟩ := p
            simp only at h
            obtain ⟨⟨st3, ic3⟩, hu, h⟩ := bind_eq_ok h
            refine ih st3 ic3 next path1 name1 (fun j => ?_) r st2 ic2 name2 h
            have := hr0 j
            rw [iunlockput_refs hu j, hdr j, hbal1 j]
            simp only [Option.map_some', Option.some.injEq]
            by_cases hj : j = ip
            · by_cases hn : next = j
              · rw [if_pos hj, if_pos hn, if_pos hj, if_pos hn.symm,
                  int32_small (r0 j + 1 + 1) (by omega) (by omega),
                  int32_small _ (by omega) (by omega)]
                omega
              · rw [if_pos hj, if_neg hn, if_pos hj, if_neg (fun e => hn e.symm),
                  int32_small _ (by omega) (by omega)]
                omega
            · by_cases hn : next = j
              · rw [if_neg hj, if_pos hn, if_neg hj, if_pos hn.symm,
                  int32_small _ (by omega) (by omega)]
                omega
              · rw [if_neg hj, if_neg hn, if_neg hj, if_neg (fun e => hn e.symm)]

/-! ### The elements of a path -/

theorem elemsAux_acc : ∀ (cs cur : List Nat), cur ≠ [] →
    elemsAux cs cur = (cur.reverse ++ cs.takeWhile (fun c => decide (c ≠ 47))) ::
      elemsAux (cs.dropWhile (fun c => decide (c ≠ 47))) [] := by
  intro cs
  induction cs with
  | nil =>
    intro cur hc
    simp only [elemsAux, if_neg hc, List.takeWhile_nil, List.append_nil, List.dropWhile_nil]
    rfl
  | cons c cs ih =>
    intro cur hc
    by_cases h : c = 47
    · rw [List.takeWhile_cons_of_neg (by simpa using h),
        List.dropWhile_cons_of_neg (by simpa using h), List.append_nil]
      simp only [elemsAux, if_pos h, if_neg hc]
      rfl
    · rw [List.takeWhile_cons_of_pos (by simpa using h),
        List.dropWhile_cons_of_pos (by simpa using h)]
      have := ih (c :: cur) (List.cons_ne_nil _ _)
      simp only [elemsAux, if_neg h]
      rw [this, List.reverse_cons, List.append_assoc, List.singleton_append]

/-- Leading slashes do not count. -/
theorem elems_dropSlashes (path : List Nat) :
    elems path = elems (path.dropWhile (fun c => decide (c = 47))) := by
  induction path with
  | nil => rfl
  | cons c cs ih =>
    by_cases h : c = 47
    · rw [List.dropWhile_cons_of_pos (by simpa using h), ← ih]
      unfold elems
      simp only [elemsAux, if_pos h]
      rfl
    · rw [List.dropWhile_cons_of_neg (by simpa using h)]

/-- A path that starts with another character than '/' starts with an
element. -/
theorem elems_cons (c : Nat) (cs : List Nat) (h : c ≠ 47) :
    elems (c :: cs) = (c :: cs).takeWhile (fun c => decide (c ≠ 47)) ::
      elems ((c :: cs).dropWhile (fun c => decide (c ≠ 47))) := by
  rw [List.takeWhile_cons_of_pos (by simpa using h),
    List.dropWhile_cons_of_pos (by simpa using h)]
  unfold elems
  simp only [elemsAux, if_neg h]
  rw [elemsAux_acc cs [c] (List.cons_ne_nil _ _)]
  rfl

/-- What `skipelem` does in terms of the elements of the path: null when there
is none, else the first element is copied and the path with the other elements
returned; what is returned is shorter, free of NULs, and empty exactly when no
element is left. -/
theorem skipelem_elems (path : List Nat) (name : Mem) (hz : ∀ c, c ∈ path → c ≠ 0)
    (hlen : path.length < 2147483648) :
    ((skipelem path name).1 = none → elems path = []) ∧
    (∀ rest, (skipelem path name).1 = some rest →
      ∃ e, elems path = e :: elems rest ∧ e ≠ [] ∧ (∀ c, c ∈ e → c ≠ 0) ∧
        rest.length < path.length ∧ (∀ c, c ∈ rest → c ≠ 0) ∧
        (charAt rest = 0 ↔ elems rest = []) ∧
        (∀ i, i < min e.length DIRSIZ → (skipelem path name).2 i = e.getD i 0) ∧
        (e.length < DIRSIZ → (skipelem path name).2 e.length = 0)) := by
  obtain ⟨h1, h2⟩ := skipelem_eq path name hz hlen
  have hsuf : path.dropWhile (fun c => decide (c = 47)) <:+ path := List.dropWhile_suffix _
  constructor
  · intro hn
    by_cases hall : ∀ c, c ∈ path → c = 47
    · rw [elems_dropSlashes,
        List.dropWhile_eq_nil_iff.mpr (fun c hc => by simpa using hall c hc)]
      rfl
    · rw [(h2 hall).1] at hn
      exact absurd hn (by simp)
  · intro rest hr
    have hall : ¬ ∀ c, c ∈ path → c = 47 := by
      intro hall
      rw [h1 hall] at hr
      exact absurd hr (by simp)
    obtain ⟨a, b, c⟩ := h2 hall
    rw [a] at hr
    simp only [Option.some.injEq] at hr
    have hne : path.dropWhile (fun c => decide (c = 47)) ≠ [] := by
      intro h0
      exact hall (fun c hc => by simpa using List.dropWhile_eq_nil_iff.mp h0 c hc)
    have hhead := List.head_dropWhile_not (fun c => decide (c = 47)) path hne
    generalize hp1 : path.dropWhile (fun c => decide (c = 47)) = p1 at hr b c hsuf hne hhead
    obtain ⟨x, xs, rfl⟩ := List.exists_cons_of_ne_nil hne
    have hx : x ≠ 47 := by
      simp only [List.head_cons] at hhead
      exact of_decide_eq_false hhead
    have hsplit := List.takeWhile_append_dropWhile (fun c => decide (c ≠ 47)) (x :: xs)
    have hsuf2 : (x :: xs).dropWhile (fun c => decide (c ≠ 47)) <:+ x :: xs :=
      List.dropWhile_suffix _
    have hsuf3 : rest <:+ (x :: xs).dropWhile (fun c => decide (c ≠ 47)) := by
      rw [← hr]
      exact List.dropWhile_suffix _
    have hrest_sub : rest <:+ path := hsuf3.trans (hsuf2.trans hsuf)
    have hlen_e : 0 < ((x :: xs).takeWhile (fun c => decide (c ≠ 47))).length :=
      List.length_pos.mpr b
    refine ⟨(x :: xs).takeWhile (fun c => decide (c ≠ 47)), ?_, b, ?_, ?_, ?_, ?_, ?_, ?_⟩
    · rw [elems_dropSlashes, hp1, elems_cons x xs hx, elems_dropSlashes
        ((x :: xs).dropWhile (fun c => decide (c ≠ 47))), hr]
    · intro y hy
      have hpre := List.takeWhile_prefix (fun c => decide (c ≠ 47)) (l := x :: xs)
      exact hz y (hsuf.subset (hpre.subset hy))
    · have l1 := hsuf.length_le
      have l2 := hsuf3.length_le
      have l3 := congrArg List.length hsplit
      rw [List.length_append] at l3
      omega
    · intro y hy
      exact hz y (hrest_sub.subset hy)
    · rcases hrest : rest with _ | ⟨y, ys⟩
      · exact ⟨fun _ => rfl, fun _ => rfl⟩
      · have hy0 : y ≠ 0 := hz y (hrest_sub.subset (by rw [hrest]; exact List.mem_cons_self _ _))
        have hne3 : ((x :: xs).dropWhile (fun c => decide (c ≠ 47))).dropWhile
            (fun c => decide (c = 47)) ≠ [] := by
          rw [hr, hrest]
          exact List.cons_ne_nil _ _
        have hh := List.head_dropWhile_not (fun c => decide (c = 47)) _ hne3
        simp only [hr, hrest, List.head_cons] at hh
        have hy47 : y ≠ 47 := of_decide_eq_false hh
        constructor
        · intro h0
          exact absurd h0 hy0
        · intro h0
          rw [elems_cons y ys hy47] at h0
          exact absurd h0 (List.cons_ne_nil _ _)
    · intro i hi
      rw [c i, if_pos hi]
    · intro hl
      rw [c _, if_neg (by omega), if_pos ⟨rfl, hl⟩]

/-! ### Names -/

/-- The comparison looks at the first string up to its first NUL only. -/
theorem strncmp_left {p p2 q : Mem} : ∀ (n i : Nat),
    (∀ t, i ≤ t → t < i + n → (∀ u, i ≤ u → u < t → p u ≠ 0) → p t = p2 t) →
    strncmp p q n i = strncmp p2 q n i := by
  intro n
  induction n with
  | zero => intro i _; rfl
  | succ n ih =>
    intro i h
    have h0 : p i = p2 i := h i (le_refl _) (by omega) (fun u u1 u2 => absurd u2 (by omega))
    unfold strncmp
    rw [← h0]
    by_cases hc : p i ≠ 0 ∧ p i = q i
    · rw [if_pos hc, if_pos hc]
      apply ih
      intro t t1 t2 t3
      apply h t (by omega) (by omega)
      intro u u1 u2
      by_cases hu : u = i
      · rw [hu]; exact hc.1
      · exact t3 u (by omega) u2
    · rw [if_neg hc, if_neg hc]

/-- The name that `skipelem` left compares as the element does. -/
theorem namecmp_elem (name : Mem) (e : List Nat) (q : Mem)
    (h1 : ∀ i, i < min e.length DIRSIZ → name i = e.getD i 0)
    (h2 : e.length < DIRSIZ → name e.length = 0) :
    namecmp name q = namecmp (nameOf e) q := by
  unfold namecmp
  apply strncmp_left
  intro t _ t2 t3
  simp only [DIRSIZ_eq] at *
  unfold nameOf
  by_cases ht : t < e.length
  · exact h1 t (by omega)
  · by_cases ht2 : t = e.length
    · rw [ht2, h2 (by omega), List.getD_eq_default _ _ (le_refl _)]
    · exact absurd (h2 (by omega)) (t3 e.length (Nat.zero_le _) (by omega))

/-! ### The scan of a directory on disk -/

/-- What the scan finds: nothing when no entry in use carries the name, else
the number in the first such entry. -/
theorem dscan_spec (st : FS) (dp : Inode) (name : Mem) : ∀ (k off : Nat),
    off % DIRENT_SIZE = 0 → (dp.size + 15 - off) / 16 ≤ k →
    (dscan st dp name k off = none →
      ∀ o, o % DIRENT_SIZE = 0 → off ≤ o → o < dp.size → ¬ entNamed st dp name o) ∧
    (∀ i, dscan st dp name k off = some i →
      ∃ t, t % DIRENT_SIZE = 0 ∧ off ≤ t ∧ t < dp.size ∧ entNamed st dp name t ∧
        (∀ o, o % DIRENT_SIZE = 0 → off ≤ o → o < t → ¬ entNamed st dp name o) ∧
        i = deInum (dirent st dp t)) := by
  intro k
  induction k with
  | zero =>
    intro off _ hk
    simp only [dscan]
    refine ⟨fun _ o _ o2 o3 => ?_, fun i h => by simp at h⟩
    omega
  | succ k ih =>
    intro off hoff hk
    unfold dscan
    simp only [DIRENT_SIZE_eq] at *
    by_cases hlt : off < dp.size
    · rw [if_pos hlt]
      by_cases hn : deInum (dirent st dp off) ≠ 0 ∧ namecmp name (deName (dirent st dp off)) = 0
      · rw [if_pos hn]
        refine ⟨fun h => by simp at h, fun i h => ?_⟩
        simp only [Option.some.injEq] at h
        exact ⟨off, hoff, le_refl _, hlt, hn, fun o _ o2 o3 => absurd o3 (by omega), h.symm⟩
      · rw [if_neg hn]
        obtain ⟨a, b⟩ := ih (off + 16) (by omega) (by omega)
        constructor
        · intro h o o1 o2 o3
          by_cases ho : o = off
          · rw [ho]; exact hn
          · exact a h o o1 (by omega) o3
        · intro i h
          obtain ⟨t, t1, t2, t3, t4, t5, t6⟩ := b i h
          refine ⟨t, t1, by omega, t3, t4, fun o o1 o2 o3 => ?_, t6⟩
          by_cases ho : o = off
          · rw [ho]; exact hn
          · exact t5 o o1 (by omega) o3
    · rw [if_neg hlt]
      exact ⟨fun _ o _ o2 o3 => absurd o3 (by omega), fun i h => by simp at h⟩

/-- What `dfind` finds. -/
theorem dfind_spec (st : FS) (dp : Inode) (name : Mem) :
    (dfind st dp name = none →
      ∀ o, o % DIRENT_SIZE = 0 → o < dp.size → ¬ entNamed st dp name o) ∧
    (∀ i, dfind st dp name = some i →
      ∃ t, t % DIRENT_SIZE = 0 ∧ t < dp.size ∧ entNamed st dp name t ∧
        (∀ o, o % DIRENT_SIZE = 0 → o < t → ¬ entNamed st dp name o) ∧
        i = deInum (dirent st dp t)) := by
  obtain ⟨a, b⟩ := dscan_spec st dp name (dp.size / DIRENT_SIZE + 1) 0 rfl
    (by simp only [DIRENT_SIZE_eq]; omega)
  constructor
  · intro h o o1 o2
    exact a h o o1 (Nat.zero_le _) o2
  · intro i h
    obtain ⟨t, t1, -, t3, t4, t5, t6⟩ := b i h
    exact ⟨t, t1, t3, t4, fun o o1 o2 => t5 o o1 (Nat.zero_le _) o2, t6⟩

/-! ### An inode in the cache and its record on disk -/

theorem blockAt_congr {st : FS} {ip ip2 : Inode} (hd : ip2.dev = ip.dev)
    (ha : ∀ i, i ≤ NDIRECT → ip2.addrs i = ip.addrs i) (bn : Nat) :
    blockAt st ip2 bn = blockAt st ip bn := by
  unfold blockAt
  rw [ha NDIRECT (le_refl _), hd]
  by_cases h : bn < NDIRECT
  · rw [if_pos h, if_pos h, ha bn (le_of_lt h)]
  · rw [if_neg h, if_neg h]

theorem dirent_congr {st : FS} {ip ip2 : Inode} (hd : ip2.dev = ip.dev)
    (ha : ∀ i, i ≤ NDIRECT → ip2.addrs i = ip.addrs i) (off : Nat) :
    dirent st ip2 off = dirent st ip off := by
  funext i
  unfold dirent fileByte
  rw [hd, blockAt_congr hd ha]

/-- Well-formedness of an inode only looks at its device, number, size and
its thirteen addresses. -/
theorem inodeOk_same {st : FS} {ip ip2 : Inode} (hok : InodeOk st ip) (hd : ip2.dev = ip.dev)
    (hi : ip2.inum = ip.inum) (hs : ip2.size = ip.size)
    (ha : ∀ i, i ≤ NDIRECT → ip2.addrs i = ip.addrs i) : InodeOk st ip2 := by
  have hb := @blockAt_congr st ip ip2 hd ha
  have hn := ha NDIRECT (le_refl _)
  refine ⟨by rw [hd]; exact hok.fs, by rw [hi]; exact hok.record_in_area,
    by rw [hs]; exact hok.size_le, ?_, ?_, ?_, ?_⟩
  · rw [hn, hd]
    exact hok.ind_data
  · intro bn h1 h2
    rw [hb bn] at h2 ⊢
    rw [hd]
    exact hok.blk_data bn h1 h2
  · intro bn bn2 h1 h2 h3 h4
    rw [hb bn] at h3 h4
    rw [hb bn2] at h4
    exact hok.blk_inj bn bn2 h1 h2 h3 h4
  · intro bn h1 h2
    rw [hb bn] at h2 ⊢
    rw [hn]
    exact hok.blk_ne_ind bn h1 h2

/-- A well-formed directory stays one under a change of the fields that the
block map does not look at. -/
theorem dirOk_same {st : FS} {ip ip2 : Inode} (h : DirOk st ip) (hd : ip2.dev = ip.dev)
    (hi : ip2.inum = ip.inum) (ht : ip2.type = ip.type) (hs : ip2.size = ip.size)
    (ha : ∀ i, i ≤ NDIRECT → ip2.addrs i = ip.addrs i) : DirOk st ip2 := by
  refine ⟨inodeOk_same h.ok hd hi hs ha, ?_, by rw [ht]; exact h.isDir,
    by rw [hs]; exact h.whole⟩
  intro bn hbn
  rw [blockAt_congr hd ha]
  rw [hs] at hbn
  exact h.noHoles bn hbn

/-- An inode that mirrors its record has the fields of `diskInode`. -/
theorem mirror_disk {st : FS} {x : Inode} (hm : Mirror st x) :
    x.dev = (diskInode st x.dev x.inum).dev ∧ x.inum = (diskInode st x.dev x.inum).inum ∧
    x.type = (readDinode st x.dev x.inum).type ∧
    x.nlink = (readDinode st x.dev x.inum).nlink ∧
    x.size = (diskInode st x.dev x.inum).size ∧
    ∀ i, i ≤ NDIRECT → x.addrs i = (diskInode st x.dev x.inum).addrs i := by
  obtain ⟨m1, -, -, m4, m5, m6⟩ := hm
  exact ⟨rfl, rfl, m1, m4, m5, fun i hi => m6 i (by omega)⟩

/-- With a reference, and a record that can be read and has a type when the
inode was not read yet, `ilock` returns. -/
theorem ilock_total {st : FS} {x : Inode} (href : 1 ≤ x.ref)
    (hd : x.dev = 0 ∨ st.havedisk1 = true)
    (hv : x.valid = 0 → IBLOCK x.inum st.sb < FSSIZE ∧ (readDinode st x.dev x.inum).type ≠ 0) :
    ∃ x1, ilock st x = Except.ok x1 := by
  unfold ilock
  rw [if_neg (by omega)]
  by_cases h2 : x.valid = 0
  · rw [if_pos h2, bread_ok hd (hv h2).1]
    simp only [bind_ok_eq]
    have ht : ¬ getShort (st.disk x.dev (IBLOCK x.inum st.sb)) (DINODE_SIZE * (x.inum % IPB)) = 0 :=
      (hv h2).2
    rw [if_neg ht]
    exact ⟨_, rfl⟩
  · rw [if_neg h2]
    exact ⟨_, rfl⟩

/-- The current inode of the walk can be locked; locked it mirrors its record,
and the state of the walk is otherwise as before. -/
theorem walk_lock {st : FS} {r0 : Nat → Int} {ic : ICache} {ip cur : Nat}
    (hfs : st.havedisk1 = true) (hr0 : ∀ j, 0 ≤ r0 j ∧ r0 j ≤ 2147483645)
    (hw : Walking st r0 ic ip cur) (hn : NodeOk st cur) :
    ∃ x1, ilock st (ic ip) = Except.ok x1 ∧ Walking st r0 (ic.set ip x1) ip cur ∧
      Mirror st x1 ∧ x1.valid ≠ 0 ∧ x1.ref = r0 ip + 1 ∧ x1.dev = ROOTDEV ∧ x1.inum = cur := by
  have href : (ic ip).ref = r0 ip + 1 := by rw [hw.bal ip, if_pos rfl]
  have hpos := hr0 ip
  obtain ⟨x1, hl⟩ := @ilock_total st (ic ip) (by omega) (Or.inr hfs)
    (fun _ => by rw [hw.dev, hw.inum]; exact ⟨hn.block, hn.type⟩)
  obtain ⟨i1, i2, i3⟩ := ilock_ident hl
  obtain ⟨-, hval, -⟩ := ilock_held hl
  have hm : Mirror st x1 := by
    apply ilock_mirror _ hl
    by_cases hv : (ic ip).valid = 0
    · exact Or.inl hv
    · exact Or.inr (hw.cache ip (by omega) hv)
  refine ⟨x1, hl, ⟨?_, ?_, ?_, ?_⟩, hm, hval, by rw [i3, href], by rw [i1, hw.dev],
    by rw [i2, hw.inum]⟩
  · intro j
    by_cases hj : j = ip
    · rw [hj, ICache.set_same, i3, hw.bal ip]
    · rw [ICache.set_other _ _ _ _ hj, hw.bal j]
  · intro j h1 h2
    by_cases hj : j = ip
    · rw [hj, ICache.set_same]
      exact hm
    · rw [ICache.set_other _ _ _ _ hj] at h1 h2 ⊢
      exact hw.cache j h1 h2
  · rw [ICache.set_same, i1, hw.dev]
  · rw [ICache.set_same, i2, hw.inum]

/-- Putting the current inode of the walk, locked or not, takes its reference
away and changes nothing else: the inode has a link. -/
theorem walk_put {st : FS} {r0 : Nat → Int} {ic : ICache} {ip cur : Nat}
    (hr0 : ∀ j, 0 ≤ r0 j ∧ r0 j ≤ 2147483645)
    (hw : Walking st r0 ic ip cur) (hn : NodeOk st cur) :
    iput st ic ip = Except.ok (st, ic.set ip { ic ip with ref := r0 ip }) ∧
    iunlockput st ic ip = Except.ok (st, ic.set ip { ic ip with ref := r0 ip }) ∧
    CacheOk st (ic.set ip { ic ip with ref := r0 ip }) := by
  have href : (ic ip).ref = r0 ip + 1 := by rw [hw.bal ip, if_pos rfl]
  have hpos := hr0 ip
  have hkeep : ¬ ((ic ip).valid ≠ 0 ∧ (ic ip).nlink = 0 ∧ (ic ip).ref = 1) := by
    intro h
    have hm := hw.cache ip (by omega) h.1
    have := (mirror_disk hm).2.2.2.1
    rw [hw.dev, hw.inum] at this
    exact hn.nlink (by rw [← this]; exact h.2.1)
  have hsub : int32 ((ic ip).ref - 1) = r0 ip := by
    rw [href, int32_small _ (by omega) (by omega)]
    omega
  refine ⟨?_, ?_, ?_⟩
  · rw [iput_keep st ic ip hkeep, hsub]
  · rw [iunlockput_keep st ic ip (by omega) hkeep, hsub]
  · intro j h1 h2
    by_cases hj : j = ip
    · rw [hj, ICache.set_same] at h1 h2 ⊢
      exact hw.cache ip (by omega) h2
    · rw [ICache.set_other _ _ _ _ hj] at h1 h2 ⊢
      exact hw.cache j h1 h2

/-- The lookup in the current directory of the walk, locked: it finds what the
scan of the directory on disk finds, and hands the inode number to `iget`. -/
theorem walk_dirlookup {st : FS} {ic : ICache} {ip cur : Nat} {name1 e : Mem}
    (hm : Mirror st (ic ip)) (hdev : (ic ip).dev = ROOTDEV) (hinum : (ic ip).inum = cur)
    (hd : DirOk st (diskInode st ROOTDEV cur))
    (hname : ∀ q, namecmp name1 q = namecmp e q) :
    (dfind st (diskInode st ROOTDEV cur) e = none →
      dirlookup st ic ip name1 = Except.ok (none, st, ic)) ∧
    (∀ i, dfind st (diskInode st ROOTDEV cur) e = some i →
      ∃ t, dirlookup st ic ip name1 =
        (iget ic ROOTDEV i >>= fun r => pure (some (r.1, t), st, r.2))) := by
  obtain ⟨-, -, m3, -, m5, m6⟩ := mirror_disk hm
  rw [hdev, hinum] at m3 m5 m6
  have m1 : (ic ip).dev = (diskInode st ROOTDEV cur).dev := hdev
  have m2 : (ic ip).inum = (diskInode st ROOTDEV cur).inum := hinum
  have hd2 : DirOk st (ic ip) := dirOk_same hd m1 m2 (by rw [m3]; rfl) m5 m6
  have hent : ∀ o, dirent st (ic ip) o = dirent st (diskInode st ROOTDEV cur) o :=
    fun o => dirent_congr m1 m6 o
  have hnamed : ∀ o, entNamed st (ic ip) name1 o ↔
      entNamed st (diskInode st ROOTDEV cur) e o := by
    intro o
    unfold entNamed
    rw [hent o, hname]
  obtain ⟨a, b⟩ := dfind_spec st (diskInode st ROOTDEV cur) e
  constructor
  · intro h
    apply dirlookup_none hd2
    intro o o1 o2
    rw [hnamed o]
    rw [m5] at o2
    exact a h o o1 o2
  · intro i h
    obtain ⟨t, t1, t2, t3, t4, t5⟩ := b i h
    refine ⟨t, ?_⟩
    rw [dirlookup_found hd2 t1 (by rw [m5]; exact t2) ((hnamed t).mpr t3)
      (fun o o1 o2 => by rw [hnamed o]; exact t4 o o1 o2), hdev, hent t, ← t5]

/-- The step of the walk to the inode that `iget` returned: the old current
inode is put, its slot keeps its inode unless that was its last reference, and
the walk goes on in the same state with the new current inode; there is room
again if there was. -/
theorem walk_found {st : FS} {r0 : Nat → Int} {ic : ICache} {ip cur i next : Nat}
    {ic2 : ICache} (hr0 : ∀ j, 0 ≤ r0 j ∧ r0 j ≤ 2147483645)
    (hw : Walking st r0 ic ip cur) (hn : NodeOk st cur)
    (hg : iget ic ROOTDEV i = Except.ok (next, ic2)) :
    iunlockput st ic2 ip =
      Except.ok (st, ic2.set ip { ic2 ip with ref := int32 ((ic2 ip).ref - 1) }) ∧
    Walking st r0 (ic2.set ip { ic2 ip with ref := int32 ((ic2 ip).ref - 1) }) next i ∧
    (Room ic ip → Room (ic2.set ip { ic2 ip with ref := int32 ((ic2 ip).ref - 1) }) next) := by
  have href : (ic ip).ref = r0 ip + 1 := by rw [hw.bal ip, if_pos rfl]
  have hpos := hr0 ip
  obtain ⟨hlt, hc⟩ := iget_cases hg
  obtain ⟨gd, gi⟩ := iget_inum hg
  have hrefs := iget_refs hg
  -- the slot of the old current inode holds the same inode
  have hsame : ic2 ip = { ic ip with ref := (ic2 ip).ref } := by
    rcases hc with ⟨-, -, -, -, e⟩ | ⟨-, h0, -, e⟩
    · by_cases hj : ip = next
      · rw [e, hj, ICache.set_same]
      · rw [e, ICache.set_other _ _ _ _ hj]
    · have hj : ip ≠ next := by
        intro hj
        rw [← hj, href] at h0
        omega
      rw [e, ICache.set_other _ _ _ _ hj]
  have href2 : (ic2 ip).ref = r0 ip + 1 + (if ip = next then 1 else 0) := by
    rw [hrefs ip, href]
    by_cases hj : ip = next
    · rw [if_pos hj, if_pos hj, int32_small _ (by omega) (by omega)]
    · rw [if_neg hj, if_neg hj]
      omega
  have hkeep : ¬ ((ic2 ip).valid ≠ 0 ∧ (ic2 ip).nlink = 0 ∧ (ic2 ip).ref = 1) := by
    intro h
    rw [hsame] at h
    have hm := hw.cache ip (by omega) h.1
    have := (mirror_disk hm).2.2.2.1
    rw [hw.dev, hw.inum] at this
    exact hn.nlink (by rw [← this]; exact h.2.1)
  have hbal3 : ∀ j, ((ic2.set ip { ic2 ip with ref := int32 ((ic2 ip).ref - 1) }) j).ref =
      r0 j + (if j = next then 1 else 0) := by
    intro j
    have := hr0 j
    by_cases hj : j = ip
    · rw [hj, ICache.set_same]
      show int32 ((ic2 ip).ref - 1) = _
      rw [href2]
      by_cases hn2 : ip = next
      · rw [if_pos hn2, int32_small _ (by omega) (by omega)]
        omega
      · rw [if_neg hn2, int32_small _ (by omega) (by omega)]
        omega
    · rw [ICache.set_other _ _ _ _ hj, hrefs j, hw.bal j, if_neg hj]
      by_cases hn2 : j = next
      · rw [if_pos hn2, if_pos hn2, int32_small _ (by omega) (by omega)]
        omega
      · rw [if_neg hn2, if_neg hn2]
  refine ⟨iunlockput_keep st ic2 ip (by rw [href2]; split_ifs <;> omega) hkeep,
    ⟨hbal3, ?_, ?_, ?_⟩, ?_⟩
  · intro j h1 h2
    by_cases hj : j = ip
    · rw [hj, ICache.set_same] at h2 ⊢
      rw [hsame] at h2 ⊢
      exact hw.cache ip (by omega) h2
    · rw [ICache.set_other _ _ _ _ hj] at h1 h2 ⊢
      rcases hc with ⟨c1, -, -, -, e⟩ | ⟨-, -, -, e⟩
      · by_cases hn2 : j = next
        · rw [e, hn2, ICache.set_same] at h2 ⊢
          exact hw.cache next c1 h2
        · rw [e, ICache.set_other _ _ _ _ hn2] at h1 h2 ⊢
          exact hw.cache j h1 h2
      · by_cases hn2 : j = next
        · rw [e, hn2, ICache.set_same] at h2
          exact absurd rfl h2
        · rw [e, ICache.set_other _ _ _ _ hn2] at h1 h2 ⊢
          exact hw.cache j h1 h2
  · by_cases hj : next = ip
    · rw [hj, ICache.set_same]
      show (ic2 ip).dev = ROOTDEV
      rw [← hj]
      exact gd
    · rw [ICache.set_other _ _ _ _ hj]
      exact gd
  · by_cases hj : next = ip
    · rw [hj, ICache.set_same]
      show (ic2 ip).inum = i
      rw [← hj]
      exact gi
    · rw [ICache.set_other _ _ _ _ hj]
      exact gi
  · intro hroom
    have hfree : ∀ z, (ic z).ref = 0 → r0 z = 0 ∧ z ≠ ip := by
      intro z hz
      have := hr0 z
      rw [hw.bal z] at hz
      by_cases hj : z = ip
      · rw [if_pos hj] at hz
        omega
      · rw [if_neg hj] at hz
        exact ⟨by omega, hj⟩
    rcases hroom with ⟨z1, z2, a1, a2, a3, a4, a5⟩ | ⟨b1, b2, z, b3, b4⟩
    · obtain ⟨f1, -⟩ := hfree z1 a4
      obtain ⟨f2, -⟩ := hfree z2 a5
      by_cases h1 : z1 = next
      · refine Or.inr ⟨hlt, ?_, z2, a2, ?_⟩
        · rw [hbal3 next, if_pos rfl, ← h1, f1]
          rfl
        · rw [hbal3 z2, if_neg (fun h => a3 (h1.trans h.symm)), f2]
          rfl
      · by_cases h2 : z2 = next
        · refine Or.inr ⟨hlt, ?_, z1, a1, ?_⟩
          · rw [hbal3 next, if_pos rfl, ← h2, f2]
            rfl
          · rw [hbal3 z1, if_neg h1, f1]
            rfl
        · refine Or.inl ⟨z1, z2, a1, a2, a3, ?_, ?_⟩
          · rw [hbal3 z1, if_neg h1, f1]
            rfl
          · rw [hbal3 z2, if_neg h2, f2]
            rfl
    · obtain ⟨f1, f2⟩ := hfree z b4
      have f0 : r0 ip = 0 := by omega
      by_cases h1 : next = ip
      · refine Or.inr ⟨hlt, ?_, z, b3, ?_⟩
        · rw [hbal3 next, if_pos rfl, h1, f0]
          rfl
        · rw [hbal3 z, if_neg (fun h => f2 (h.trans h1)), f1]
          rfl
      · by_cases h2 : z = next
        · refine Or.inr ⟨hlt, ?_, ip, b1, ?_⟩
          · rw [hbal3 next, if_pos rfl, ← h2, f1]
            rfl
          · rw [hbal3 ip, if_neg (fun h => h1 h.symm), f0]
            rfl
        · refine Or.inl ⟨ip, z, b1, b3, fun h => f2 h.symm, ?_, ?_⟩
          · rw [hbal3 ip, if_neg (fun h => h1 h.symm), f0]
            rfl
          · rw [hbal3 z, if_neg h2, f1]
            rfl

/-! ### The walk -/

theorem room_congr {ic ic2 : ICache} {ip : Nat} (h : ∀ j, (ic2 j).ref = (ic j).ref)
    (hr : Room ic ip) : Room ic2 ip := by
  rcases hr with ⟨z1, z2, a1, a2, a3, a4, a5⟩ | ⟨b1, b2, z, b3, b4⟩
  · exact Or.inl ⟨z1, z2, a1, a2, a3, by rw [h, a4], by rw [h, a5]⟩
  · exact Or.inr ⟨b1, by rw [h, b2], z, b3, by rw [h, b4]⟩

theorem room_free {ic : ICache} {ip : Nat} (hr : Room ic ip) :
    ∃ z, z < NINODE ∧ (ic z).ref = 0 := by
  rcases hr with ⟨z1, -, a1, -, -, a4, -⟩ | ⟨-, -, z, b3, b4⟩
  · exact ⟨z1, a1, a4⟩
  · exact ⟨z, b3, b4⟩

/-- A walk that stops at an inode that is not a directory, or at a name that
is missing, resolves to nothing. -/
theorem resolved_none {st : FS} {np : Int} {cur : Nat} {path : List Nat} {e : List Nat}
    {es : List (List Nat)} {ic2 : ICache} {name2 : Mem} (he : elems path = e :: es)
    (hes : np ≠ 0 → es ≠ [] ∨ (readDinode st ROOTDEV cur).type ≠ T_DIR)
    (h : (readDinode st ROOTDEV cur).type ≠ T_DIR ∨
      dfind st (diskInode st ROOTDEV cur) (nameOf e) = none) :
    Resolved st np cur path none ic2 name2 := by
  refine ⟨fun s hs => (by cases hs), fun _ => ?_, fun hnp => ⟨?_, fun hh => absurd rfl hh⟩⟩
  · rw [he, List.map_cons]
    unfold resolve
    by_cases ht : (readDinode st ROOTDEV cur).type ≠ T_DIR
    · rw [if_pos ht]
      rfl
    · rw [if_neg ht]
      rcases h with h | h
      · exact absurd h ht
      · rw [h]
        rfl
  · rw [he, List.map_cons]
    by_cases ht : (readDinode st ROOTDEV cur).type ≠ T_DIR
    · cases es with
      | nil =>
        simp only [List.map_nil, resolveParent, if_pos ht]
        rfl
      | cons e2 es2 =>
        simp only [List.map_cons, resolveParent, if_pos ht]
        rfl
    · rcases hes hnp with h2 | h2
      · obtain ⟨e2, es2, rfl⟩ := List.exists_cons_of_ne_nil h2
        rcases h with h | h
        · exact absurd h ht
        · simp only [List.map_cons, resolveParent, if_neg ht, h]
          rfl
      · exact absurd h2 ht

/-- A walk that steps into the directory entry found resolves to what the rest
of the walk resolves to. -/
theorem resolved_step {st : FS} {np : Int} {cur i : Nat} {path path1 : List Nat}
    {e : List Nat} {r : Option Nat} {ic2 : ICache} {name2 : Mem}
    (he : elems path = e :: elems path1)
    (hes : np ≠ 0 → elems path1 ≠ [])
    (ht : (readDinode st ROOTDEV cur).type = T_DIR)
    (hf : dfind st (diskInode st ROOTDEV cur) (nameOf e) = some i)
    (h : Resolved st np i path1 r ic2 name2) : Resolved st np cur path r ic2 name2 := by
  obtain ⟨h1, h2, h3⟩ := h
  refine ⟨h1, fun hnp => ?_, fun hnp => ?_⟩
  · rw [h2 hnp, he, List.map_cons]
    simp only [resolve, if_neg (not_not.mpr ht), hf]
  · obtain ⟨e2, es2, hes2⟩ := List.exists_cons_of_ne_nil (hes hnp)
    obtain ⟨h4, h5⟩ := h3 hnp
    constructor
    · rw [h4, he, hes2, List.map_cons, List.map_cons]
      simp only [resolveParent, if_neg (not_not.mpr ht), hf]
    · intro hr ek hek
      apply h5 hr ek
      rw [he, hes2, List.getLast?_cons_cons] at hek
      rw [hes2]
      exact hek

/-- The loop of `namex` on a walk through inodes that are in use and sound:
every return leaves the disk as it was and the cache in agreement with it, and
is the resolution of the path; the only panic is that of `iget`; and with room
in the cache the loop returns. -/
theorem namexLoop_walk (np : Int) (st : FS) (r0 : Nat → Int) (hfs : st.havedisk1 = true)
    (hr0 : ∀ j, 0 ≤ r0 j ∧ r0 j ≤ 2147483645) :
    ∀ (k : Nat) (ic : ICache) (ip cur : Nat) (path : List Nat) (name : Mem),
    path.length < k → (∀ c, c ∈ path → c ≠ 0) → path.length < 2147483648 →
    Walking st r0 ic ip cur → WalkOk st cur ((elems path).map nameOf) →
    (∀ r st2 ic2 name2, namexLoop np k st ic ip path name = Except.ok (r, st2, ic2, name2) →
      st2 = st ∧ CacheOk st ic2 ∧ Resolved st np cur path r ic2 name2) ∧
    (∀ e, namexLoop np k st ic ip path name = Except.error e → e = Panic.igetNoInodes) ∧
    (Room ic ip → ∃ res, namexLoop np k st ic ip path name = Except.ok res) := by
  intro k
  induction k with
  | zero =>
    intro ic ip cur path name hk
    exact absurd hk (Nat.not_lt_zero _)
  | succ k ih =>
    intro ic ip cur path name hk hz hlen hw hwalk
    obtain ⟨se1, se2⟩ := skipelem_elems path name hz hlen
    rcases hsk : skipelem path name with ⟨_ | path1, name1⟩
    · -- no element is left
      have hel : elems path = [] := se1 (by rw [hsk])
      rw [hel] at hwalk
      have hnode : NodeOk st cur := hwalk
      by_cases hnp : np ≠ 0
      · obtain ⟨p1, -, p3⟩ := walk_put hr0 hw hnode
        have heq : namexLoop np (k + 1) st ic ip path name =
            Except.ok (none, st, ic.set ip { ic ip with ref := r0 ip }, name1) := by
          unfold namexLoop
          rw [hsk]
          simp only [if_pos hnp, p1, bind_ok_eq, pure_eq_ok]
        rw [heq]
        refine ⟨fun r st2 ic2 name2 h => ?_, fun e h => (by cases h), fun _ => ⟨_, rfl⟩⟩
        simp only [Except.ok.injEq, Prod.mk.injEq] at h
        obtain ⟨rfl, rfl, rfl, rfl⟩ := h
        refine ⟨rfl, p3, fun s hs => (by cases hs), fun h0 => absurd h0 hnp, fun _ => ⟨?_, ?_⟩⟩
        · rw [hel]
          rfl
        · intro hh
          exact absurd rfl hh
      · have hnp0 : np = 0 := not_not.mp hnp
        have heq : namexLoop np (k + 1) st ic ip path name =
            Except.ok (some ip, st, ic, name1) := by
          unfold namexLoop
          rw [hsk]
          simp only [if_neg hnp, pure_eq_ok]
        rw [heq]
        refine ⟨fun r st2 ic2 name2 h => ?_, fun e h => (by cases h), fun _ => ⟨_, rfl⟩⟩
        simp only [Except.ok.injEq, Prod.mk.injEq] at h
        obtain ⟨rfl, rfl, rfl, rfl⟩ := h
        refine ⟨rfl, hw.cache, fun s hs => ?_, fun _ => ?_, fun h0 => absurd hnp0 h0⟩
        · simp only [Option.some.injEq] at hs
          rw [← hs]
          exact hw.dev
        · rw [hel]
          show some (ic ip).inum = some cur
          rw [hw.inum]
    · -- the element `e` is to be looked up in the current inode
      obtain ⟨e, he1, -, -, hlen1, hz1, hchar, hn1, hn2⟩ := se2 path1 (by rw [hsk])
      rw [hsk] at hn1 hn2
      have hwalk2 := hwalk
      rw [he1, List.map_cons] at hwalk2
      obtain ⟨hnode, hnext⟩ := hwalk2
      obtain ⟨x1, hl, hw1, hm, hval, href1, hdev1, hinum1⟩ := walk_lock hfs hr0 hw hnode
      have hposip := hr0 ip
      have htype : x1.type = (readDinode st ROOTDEV cur).type := by
        have := (mirror_disk hm).2.2.1
        rw [hdev1, hinum1] at this
        exact this
      have hrefs1 : ∀ j, ((ic.set ip x1) j).ref = (ic j).ref := by
        intro j
        rw [hw1.bal j, hw.bal j]
      obtain ⟨-, p2, p3⟩ := walk_put hr0 hw1 hnode
      by_cases ht : (readDinode st ROOTDEV cur).type ≠ T_DIR
      · -- not a directory
        have heq : namexLoop np (k + 1) st ic ip path name =
            Except.ok (none, st, (ic.set ip x1).set ip { (ic.set ip x1) ip with ref := r0 ip },
              name1) := by
          unfold namexLoop
          rw [hsk]
          simp only [hl, bind_ok_eq, htype, if_pos ht, p2, pure_eq_ok]
        rw [heq]
        refine ⟨fun r st2 ic2 name2 h => ?_, fun e h => (by cases h), fun _ => ⟨_, rfl⟩⟩
        simp only [Except.ok.injEq, Prod.mk.injEq] at h
        obtain ⟨rfl, rfl, rfl, rfl⟩ := h
        exact ⟨rfl, p3, resolved_none he1 (fun _ => Or.inr ht) (Or.inl ht)⟩
      · have htd : (readDinode st ROOTDEV cur).type = T_DIR := not_not.mp ht
        have hdir : DirOk st (diskInode st ROOTDEV cur) := hnode.dir htd
        by_cases hstop : np ≠ 0 ∧ charAt path1 = 0
        · -- `nameiparent` stops one level early
          have hel1 : elems path1 = [] := hchar.mp hstop.2
          have hu : iunlock x1 = Except.ok () := by
            unfold iunlock
            rw [if_neg (by omega)]
          have heq : namexLoop np (k + 1) st ic ip path name =
              Except.ok (some ip, st, ic.set ip x1, name1) := by
            unfold namexLoop
            rw [hsk]
            simp only [hl, bind_ok_eq, htype, if_neg ht, if_pos hstop, hu, pure_eq_ok]
          rw [heq]
          refine ⟨fun r st2 ic2 name2 h => ?_, fun e h => (by cases h), fun _ => ⟨_, rfl⟩⟩
          simp only [Except.ok.injEq, Prod.mk.injEq] at h
          obtain ⟨rfl, rfl, rfl, rfl⟩ := h
          refine ⟨rfl, hw1.cache, fun s hs => ?_, fun h0 => absurd h0 hstop.1, fun _ => ⟨?_, ?_⟩⟩
          · simp only [Option.some.injEq] at hs
            rw [← hs]
            exact hw1.dev
          · rw [he1, hel1]
            show some ((ic.set ip x1) ip).inum = resolveParent st cur [nameOf e]
            rw [hw1.inum]
            simp only [resolveParent, if_neg ht]
          · intro _ ek hek
            rw [he1, hel1] at hek
            simp only [List.getLast?_singleton, Option.some.injEq] at hek
            rw [← hek]
            exact ⟨hn1, hn2⟩
        · have hes : np ≠ 0 → elems path1 ≠ [] := by
            intro hnp hel1
            exact hstop ⟨hnp, hchar.mpr hel1⟩
          have hname : ∀ q, namecmp name1 q = namecmp (nameOf e) q :=
            fun q => namecmp_elem name1 e q hn1 hn2
          have hm1 : Mirror st ((ic.set ip x1) ip) := by
            rw [ICache.set_same]
            exact hm
          obtain ⟨dl1, dl2⟩ := walk_dirlookup hm1 hw1.dev hw1.inum hdir hname
          rcases hdf : dfind st (diskInode st ROOTDEV cur) (nameOf e) with _ | i
          · -- the name is missing
            have heq : namexLoop np (k + 1) st ic ip path name =
                Except.ok (none, st,
                  (ic.set ip x1).set ip { (ic.set ip x1) ip with ref := r0 ip }, name1) := by
              unfold namexLoop
              rw [hsk]
              simp only [hl, bind_ok_eq, htype, if_neg ht, if_neg hstop, dl1 hdf, p2, pure_eq_ok]
            rw [heq]
            refine ⟨fun r st2 ic2 name2 h => ?_, fun e h => (by cases h), fun _ => ⟨_, rfl⟩⟩
            simp only [Except.ok.injEq, Prod.mk.injEq] at h
            obtain ⟨rfl, rfl, rfl, rfl⟩ := h
            refine ⟨rfl, p3, resolved_none he1 (fun hnp => Or.inl (hes hnp)) (Or.inr hdf)⟩
          · obtain ⟨t, hdl⟩ := dl2 i hdf
            rcases hg : iget (ic.set ip x1) ROOTDEV i with err | ⟨next, ic2a⟩
            · -- the cache is full
              have heq : namexLoop np (k + 1) st ic ip path name = Except.error err := by
                unfold namexLoop
                rw [hsk]
                simp only [hl, bind_ok_eq, htype, if_neg ht, if_neg hstop, hdl, hg,
                  bind_error_eq]
              rw [heq]
              refine ⟨fun r st2 ic2 name2 h => (by cases h), fun e h => ?_, fun hroom => ?_⟩
              · simp only [Except.error.injEq] at h
                rw [← h]
                exact iget_error hg
              · obtain ⟨z, z1, z2⟩ := room_free (room_congr hrefs1 hroom)
                obtain ⟨i2, ic3, h3⟩ := @iget_total (ic.set ip x1) ROOTDEV i ⟨z, z1, z2⟩
                rw [h3] at hg
                cases hg
            · obtain ⟨f1, f2, f3⟩ := walk_found hr0 hw1 hnode hg
              have heq : namexLoop np (k + 1) st ic ip path name =
                  namexLoop np k st
                    (ic2a.set ip { ic2a ip with ref := int32 ((ic2a ip).ref - 1) }) next path1
                    name1 := by
                conv_lhs => unfold namexLoop
                rw [hsk]
                simp only [hl, bind_ok_eq, htype, if_neg ht, if_neg hstop, hdl, hg, pure_eq_ok,
                  f1]
              rw [heq]
              obtain ⟨g1, g2, g3⟩ := ih _ next i path1 name1 (by omega) hz1 (by omega) f2
                (hnext i htd hdf)
              refine ⟨fun r st2 ic2 name2 h => ?_, g2, fun hroom => ?_⟩
              · obtain ⟨a, b, c⟩ := g1 r st2 ic2 name2 h
                exact ⟨a, b, resolved_step he1 hes htd hdf c⟩
              · exact g3 (f3 (room_congr hrefs1 hroom))

/-- The reference counts after `namex` returned: one more on the slot
returned, if any, as long as no count is within two of `INT_MAX`. -/
theorem namex_refs (st : FS) (ic : ICache) (cwd : Nat) (path : List Nat) (np : Int)
    (name : Mem) (hr : ∀ j, 0 ≤ (ic j).ref ∧ (ic j).ref ≤ 2147483645) :
    ∀ r st2 ic2 name2, namex st ic cwd path np name = Except.ok (r, st2, ic2, name2) →
    ∀ j, (ic2 j).ref = (ic j).ref + (if r = some j then 1 else 0) := by
  intro r st2 ic2 name2 h
  unfold namex at h
  by_cases habs : charAt path = 47
  · rw [if_pos habs] at h
    obtain ⟨⟨ip, ic1⟩, hg, h⟩ := bind_eq_ok h
    refine namexLoop_refs np (fun j => (ic j).ref) hr _ st ic1 ip path name (fun j => ?_)
      r st2 ic2 name2 h
    have := hr j
    rw [iget_refs hg j]
    by_cases hj : j = ip
    · rw [if_pos hj, if_pos hj, int32_small _ (by omega) (by omega)]
    · rw [if_neg hj, if_neg hj]
      exact (add_zero _).symm
  · rw [if_neg habs] at h
    refine namexLoop_refs np (fun j => (ic j).ref) hr _ st (idup ic cwd) cwd path name
      (fun j => ?_) r st2 ic2 name2 h
    have := hr j
    unfold idup
    by_cases hj : j = cwd
    · rw [hj, ICache.set_same, if_pos rfl]
      show int32 ((ic cwd).ref + 1) = _
      rw [hj] at this
      rw [int32_small _ (by omega) (by omega)]
    · rw [ICache.set_other _ _ _ _ hj, if_neg hj]
      exact (add_zero _).symm

/-- A call of `namex` with an absolute path, on a cache that agrees with the
disk, the inodes visited being in use and sound: every return leaves the disk
as it was and the cache in agreement with it, and is the resolution of the
path from the root inode; the only panic is that of `iget`; and with two empty
slots in the cache the call returns. -/
theorem namex_walk (np : Int) (st : FS) (ic : ICache) (cwd : Nat) (path : List Nat)
    (name : Mem) (hfs : st.havedisk1 = true) (habs : charAt path = 47)
    (hz : ∀ c, c ∈ path → c ≠ 0) (hlen : path.length < 2147483648) (hc : CacheOk st ic)
    (hr : ∀ j, 0 ≤ (ic j).ref ∧ (ic j).ref ≤ 2147483645)
    (hwalk : WalkOk st ROOTINO ((elems path).map nameOf)) :
    (∀ r st2 ic2 name2, namex st ic cwd path np name = Except.ok (r, st2, ic2, name2) →
      st2 = st ∧ CacheOk st ic2 ∧ Resolved st np ROOTINO path r ic2 name2) ∧
    (∀ e, namex st ic cwd path np name = Except.error e → e = Panic.igetNoInodes) ∧
    ((∃ z1 z2, z1 < NINODE ∧ z2 < NINODE ∧ z1 ≠ z2 ∧ (ic z1).ref = 0 ∧ (ic z2).ref = 0) →
      ∃ res, namex st ic cwd path np name = Except.ok res) := by
  unfold namex
  rw [if_pos habs]
  rcases hg : iget ic ROOTDEV ROOTINO with err | ⟨ip, ic1⟩
  · simp only [bind_error_eq]
    refine ⟨fun r st2 ic2 name2 h => (by cases h), fun e h => ?_, fun hroom => ?_⟩
    · simp only [Except.error.injEq] at h
      rw [← h]
      exact iget_error hg
    · obtain ⟨z1, -, a1, -, -, a4, -⟩ := hroom
      obtain ⟨i2, ic3, h3⟩ := @iget_total ic ROOTDEV ROOTINO ⟨z1, a1, a4⟩
      rw [h3] at hg
      cases hg
  · simp only [bind_ok_eq]
    obtain ⟨hlt, hcase⟩ := iget_cases hg
    obtain ⟨gd, gi⟩ := iget_inum hg
    have hbal : ∀ j, (ic1 j).ref = (ic j).ref + (if j = ip then 1 else 0) := by
      intro j
      have := hr j
      rw [iget_refs hg j]
      by_cases hj : j = ip
      · rw [if_pos hj, if_pos hj, int32_small _ (by omega) (by omega)]
      · rw [if_neg hj, if_neg hj]
        omega
    have hw : Walking st (fun j => (ic j).ref) ic1 ip ROOTINO := by
      refine ⟨hbal, ?_, gd, gi⟩
      intro j h1 h2
      rcases hcase with ⟨c1, -, -, -, e⟩ | ⟨-, -, -, e⟩
      · by_cases hj : j = ip
        · rw [e, hj, ICache.set_same] at h2 ⊢
          exact hc ip c1 h2
        · rw [e, ICache.set_other _ _ _ _ hj] at h1 h2 ⊢
          exact hc j h1 h2
      · by_cases hj : j = ip
        · rw [e, hj, ICache.set_same] at h2
          exact absurd rfl h2
        · rw [e, ICache.set_other _ _ _ _ hj] at h1 h2 ⊢
          exact hc j h1 h2
    obtain ⟨g1, g2, g3⟩ := namexLoop_walk np st (fun j => (ic j).ref) hfs hr (path.length + 1)
      ic1 ip ROOTINO path name (Nat.lt_succ_self _) hz hlen hw hwalk
    refine ⟨g1, g2, fun hroom => g3 ?_⟩
    obtain ⟨z1, z2, a1, a2, a3, a4, a5⟩ := hroom
    by_cases h1 : z1 = ip
    · refine Or.inr ⟨hlt, ?_, z2, a2, ?_⟩
      · rw [hbal ip, if_pos rfl, ← h1, a4]
        rfl
      · rw [hbal z2, if_neg (fun h => a3 (h1.trans h.symm)), a5]
        rfl
    · by_cases h2 : z2 = ip
      · refine Or.inr ⟨hlt, ?_, z1, a1, ?_⟩
        · rw [hbal ip, if_pos rfl, ← h2, a5]
          rfl
        · rw [hbal z1, if_neg h1, a4]
          rfl
      · refine Or.inl ⟨z1, z2, a1, a2, a3, ?_, ?_⟩
        · rw [hbal z1, if_neg h1, a4]
          rfl
        · rw [hbal z2, if_neg h2, a5]
          rfl

/-! ### The sample tree -/

/-- An inode whose only block is its first direct block is well formed when
that block is a data block marked in use. -/
theorem inodeOk_one_block {st : FS} {ip : Inode} (hfs : FsOk st ip.dev)
    (hrec : ip.inum / IPB + st.sb.inodestart < st.sb.bmapstart)
    (hsz : ip.size ≤ MAXFILE * BSIZE)
    (h0 : dataStart st.sb ≤ ip.addrs 0 ∧ ip.addrs 0 < st.sb.size ∧
      bitSet st ip.dev (ip.addrs 0))
    (hrest : ∀ i, i < NDIRECT → ip.addrs (i + 1) = 0) : InodeOk st ip := by
  have hind : ip.addrs NDIRECT = 0 := hrest 11 (by decide)
  have hb : ∀ bn, blockAt st ip bn ≠ 0 → bn = 0 ∧ blockAt st ip bn = ip.addrs 0 := by
    intro bn h
    by_cases h1 : bn < NDIRECT
    · rw [blockAt_direct st ip bn h1] at h ⊢
      by_cases h2 : bn = 0
      · rw [h2]
        exact ⟨rfl, rfl⟩
      · have := hrest (bn - 1) (by omega)
        rw [show bn - 1 + 1 = bn by omega] at this
        exact absurd this h
    · exact absurd (blockAt_no_indirect st ip bn (by omega) hind) h
  refine ⟨hfs, hrec, hsz, fun h => absurd hind h, ?_, ?_, ?_⟩
  · intro bn _ h
    rw [(hb bn h).2]
    exact h0
  · intro bn bn2 _ _ h h2
    rw [(hb bn h).1]
    rw [h2] at h
    rw [(hb bn2 h).1]
  · intro bn _ h
    rw [hind]
    exact h

set_option maxRecDepth 1000000 in
theorem treeFs_ok : FsOk treeFs 1 := by
  refine ⟨Or.inr rfl, by decide, by decide, by decide, by decide, by decide!, by decide!, ?_⟩
  intro k i hk
  have hk0 : k = 0 := by
    have : treeFs.sb.size / BPB = 0 := by decide
    omega
  subst hk0
  show (if i < 7 then 255 else if i = 7 then 31 else 0) < 256
  split_ifs <;> decide

set_option maxRecDepth 1000000 in
/-- The root directory and the directory "/a" of the sample tree are well
formed. -/
theorem treeFs_dirs : DirOk treeFs (diskInode treeFs ROOTDEV 1) ∧
    DirOk treeFs (diskInode treeFs ROOTDEV 2) := by
  constructor
  · refine ⟨inodeOk_one_block treeFs_ok (by decide) (by decide!) (by decide!) (by decide!), ?_,
      by decide!, by decide!⟩
    intro bn hbn
    have hsz : (diskInode treeFs ROOTDEV 1).size = 32 := by decide!
    rw [hsz] at hbn
    simp only [BSIZE_eq] at hbn
    have : bn = 0 := by omega
    rw [this]
    decide!
  · refine ⟨inodeOk_one_block treeFs_ok (by decide) (by decide!) (by decide!) (by decide!), ?_,
      by decide!, by decide!⟩
    intro bn hbn
    have hsz : (diskInode treeFs ROOTDEV 2).size = 16 := by decide!
    rw [hsz] at hbn
    simp only [BSIZE_eq] at hbn
    have : bn = 0 := by omega
    rw [this]
    decide!

set_option maxRecDepth 1000000 in
/-- The inodes 1, 2, 3 and 9 of the sample tree are in use and sound. -/
theorem treeFs_nodes : NodeOk treeFs 1 ∧ NodeOk treeFs 2 ∧ NodeOk treeFs 3 ∧ NodeOk treeFs 9 :=
  ⟨⟨by decide, by decide!, by decide!, fun _ => treeFs_dirs.1⟩,
    ⟨by decide, by decide!, by decide!, fun _ => treeFs_dirs.2⟩,
    ⟨by decide, by decide!, by decide!, fun h => absurd h (by decide!)⟩,
    ⟨by decide, by decide!, by decide!, fun h => absurd h (by decide!)⟩⟩

set_option maxRecDepth 1000000 in
/-- The walks "/a/b" and "/f/x" on the sample tree visit inodes that are in
use and sound. -/
theorem treeFs_walks : WalkOk treeFs ROOTINO [nameOf [97], nameOf [98]] ∧
    WalkOk treeFs ROOTINO [nameOf [102], nameOf [120]] := by
  obtain ⟨n1, n2, n3, n9⟩ := treeFs_nodes
  have fa : dfind treeFs (diskInode treeFs ROOTDEV ROOTINO) (nameOf [97]) = some 2 := by decide!
  have fb : dfind treeFs (diskInode treeFs ROOTDEV 2) (nameOf [98]) = some 9 := by decide!
  have ff : dfind treeFs (diskInode treeFs ROOTDEV ROOTINO) (nameOf [102]) = some 3 := by
    decide!
  have t3 : (readDinode treeFs ROOTDEV 3).type ≠ T_DIR := by decide!
  constructor
  · refine ⟨n1, fun i _ hi => ?_⟩
    rw [fa] at hi
    simp only [Option.some.injEq] at hi
    rw [← hi]
    refine ⟨n2, fun i2 _ hi2 => ?_⟩
    rw [fb] at hi2
    simp only [Option.some.injEq] at hi2
    rw [← hi2]
    exact n9
  · refine ⟨n1, fun i _ hi => ?_⟩
    rw [ff] at hi
    simp only [Option.some.injEq] at hi
    rw [← hi]
    exact ⟨n3, fun i2 h _ => absurd h t3⟩

theorem icache0_ok (st : FS) : CacheOk st icache0 ∧
    (∀ j, 0 ≤ (icache0 j).ref ∧ (icache0 j).ref ≤ 2147483645) ∧
    ∃ z1 z2, z1 < NINODE ∧ z2 < NINODE ∧ z1 ≠ z2 ∧ (icache0 z1).ref = 0 ∧ (icache0 z2).ref = 0 :=
  ⟨fun _ h => absurd h (show ¬ (0 : Int) < 0 by decide),
    fun _ => ⟨show (0 : Int) ≤ 0 by decide, show (0 : Int) ≤ 2147483645 by decide⟩,
    0, 1, by decide, by decide, by decide, rfl, rfl⟩

namespace Bio

/-! ## The buffer cache -/

theorem find_agree {p q : Nat → Bool} : ∀ (l : List Nat), (∀ x, x ∈ l → p x = q x) →
    l.find? p = l.find? q := by
  intro l
  induction l with
  | nil => intro _; rfl
  | cons x xs ih =>
    intro h
    simp only [List.find?_cons]
    rw [h x (List.mem_cons_self _ _), ih (fun y hy => h y (List.mem_cons_of_mem _ hy))]

theorem find_erase {p : Nat → Bool} {v : Nat} (hv : p v = false) : ∀ (l : List Nat),
    (l.erase v).find? p = l.find? p := by
  intro l
  induction l with
  | nil => rfl
  | cons x xs ih =>
    by_cases hx : x = v
    · subst hx
      rw [List.erase_cons_head, List.find?_cons, hv]
    · rw [List.erase_cons_tail (by simpa using hx)]
      simp only [List.find?_cons]
      rw [ih]

/-- A predicate switched off at `v` finds the same element, when that element
is not `v`. -/
theorem find_off {p q : Nat → Bool} {v a : Nat} (hq : q v = false)
    (hpq : ∀ x, x ≠ v → q x = p x) (hav : a ≠ v) : ∀ (l : List Nat),
    l.find? p = some a → l.find? q = some a := by
  intro l
  induction l with
  | nil => intro h; simp at h
  | cons x xs ih =>
    intro h
    simp only [List.find?_cons] at h ⊢
    by_cases hx : x = v
    · subst hx
      rw [hq]
      cases hp : p x with
      | true => rw [hp] at h; simp only [Option.some.injEq] at h; exact absurd h.symm hav
      | false => rw [hp] at h; exact ih h
    · rw [hpq x hx]
      cases hp : p x with
      | true => rw [hp] at h; exact h
      | false => rw [hp] at h; exact ih h

/-- The only element of the list satisfying the predicate is the one found. -/
theorem find_only {p : Nat → Bool} {v : Nat} (hp : p v = true) : ∀ (l : List Nat), v ∈ l →
    (∀ x, x ∈ l → x ≠ v → p x = false) → l.find? p = some v := by
  intro l
  induction l with
  | nil => intro h; simp at h
  | cons x xs ih =>
    intro hv hall
    simp only [List.find?_cons]
    by_cases hx : x = v
    · subst hx; rw [hp]
    · rw [hall x (List.mem_cons_self _ _) hx]
      have hv2 : v ∈ xs := by
        rcases List.mem_cons.mp hv with h | h
        · exact absurd h.symm hx
        · exact h
      exact ih hv2 (fun y hy => hall y (List.mem_cons_of_mem _ hy))

theorem find_mem {p : Nat → Bool} {a : Nat} : ∀ (l : List Nat), l.find? p = some a →
    a ∈ l ∧ p a = true := by
  intro l
  induction l with
  | nil => intro h; simp at h
  | cons x xs ih =>
    intro h
    simp only [List.find?_cons] at h
    cases hp : p x with
    | true =>
      rw [hp] at h
      simp only [Option.some.injEq] at h
      subst h
      exact ⟨List.mem_cons_self _ _, hp⟩
    | false =>
      rw [hp] at h
      obtain ⟨h1, h2⟩ := ih h
      exact ⟨List.mem_cons_of_mem _ h1, h2⟩

theorem find_none {p : Nat → Bool} : ∀ (l : List Nat), l.find? p = none →
    ∀ x, x ∈ l → p x = false := by
  intro l
  induction l with
  | nil => intro _ x hx; simp at hx
  | cons y ys ih =>
    intro h x hx
    simp only [List.find?_cons] at h
    cases hp : p y with
    | true => rw [hp] at h; simp at h
    | false =>
      rw [hp] at h
      rcases List.mem_cons.mp hx with h1 | h1
      · rw [h1]; exact hp
      · exact ih h x h1

theorem countP_erase_hold {p : Hold → Bool} {h : Hold} : ∀ (l : List Hold), h ∈ l →
    (l.erase h).countP p + (if p h = true then 1 else 0) = l.countP p := by
  intro l
  induction l with
  | nil => intro hm; simp at hm
  | cons x xs ih =>
    intro hm
    by_cases hx : x = h
    · subst hx
      rw [List.erase_cons_head, List.countP_cons]
    · have hm2 : h ∈ xs := by
        rcases List.mem_cons.mp hm with h1 | h1
        · exact absurd h1.symm hx
        · exact h1
      rw [List.erase_cons_tail (by simpa using hx), List.countP_cons, List.countP_cons, ← ih hm2]
      omega

theorem countP_pos_of_mem {p : Hold → Bool} {h : Hold} : ∀ (l : List Hold), h ∈ l →
    p h = true → 0 < l.countP p := by
  intro l hm hp
  exact List.countP_pos_iff.mpr ⟨h, hm, hp⟩

theorem countP_zero_not {p : Hold → Bool} {h : Hold} {l : List Hold} (hz : l.countP p = 0)
    (hm : h ∈ l) : p h = false := by
  cases hp : p h with
  | false => rfl
  | true =>
    have := countP_pos_of_mem l hm hp
    omega

theorem setBuf_lru (c : BCache) (i : Nat) (b : Buf) : (c.setBuf i b).lru = c.lru := rfl
theorem setBuf_same (c : BCache) (i : Nat) (b : Buf) : (c.setBuf i b).buf i = b := by
  simp [BCache.setBuf]
theorem setBuf_other (c : BCache) (i j : Nat) (b : Buf) (h : j ≠ i) :
    (c.setBuf i b).buf j = c.buf j := by
  simp [BCache.setBuf, h]

theorem binit_lru (disk : Nat → Nat → Mem) (hd : Bool) :
    (binit disk hd).lru = [29, 28, 27, 26, 25, 24, 23, 22, 21, 20, 19, 18, 17, 16, 15, 14, 13,
      12, 11, 10, 9, 8, 7, 6, 5, 4, 3, 2, 1, 0] := rfl

theorem init_inv (disk : Nat → Nat → Mem) (hd : Bool) : Inv (init disk hd) :=
  { nodup := by
      show (binit disk hd).lru.Nodup
      rw [binit_lru]
      decide
    holds := fun h hm => absurd hm (by simp [init])
    count := fun i _ => by simp [init, binit] }

theorem countP_le_length_hold (p : Hold → Bool) (l : List Hold) : l.countP p ≤ l.length :=
  List.countP_le_length p

/-- The invariant depends on the list order and on the device, block number and
reference count of the buffers only. -/
theorem inv_of_same {s : Sys} {c2 : BCache} (hinv : Inv s) (hl : c2.lru = s.cache.lru)
    (hb : ∀ i, (c2.buf i).dev = (s.cache.buf i).dev ∧
      (c2.buf i).blockno = (s.cache.buf i).blockno ∧
      (c2.buf i).refcnt = (s.cache.buf i).refcnt) :
    Inv { cache := c2, held := s.held } := by
  have hn : ∀ d b, names c2 d b = names s.cache d b := by
    intro d b
    funext i
    unfold names
    rw [(hb i).1, (hb i).2.1]
  refine { nodup := by show c2.lru.Nodup; rw [hl]; exact hinv.nodup, holds := ?_, count := ?_ }
  · intro h hm
    show h.idx ∈ c2.lru ∧ c2.lru.find? (names c2 h.dev h.blockno) = some h.idx
    rw [hl, hn]
    exact hinv.holds h hm
  · intro i hi
    show (c2.buf i).refcnt = _
    rw [(hb i).2.2]
    exact hinv.count i (by rw [← hl]; exact hi)

theorem iderw_same {c c2 : BCache} {i : Nat} (h : iderw c i = Except.ok c2) :
    c2.lru = c.lru ∧ ∀ j, (c2.buf j).dev = (c.buf j).dev ∧
      (c2.buf j).blockno = (c.buf j).blockno ∧ (c2.buf j).refcnt = (c.buf j).refcnt := by
  unfold iderw at h
  simp only at h
  split_ifs at h <;> simp only [Except.ok.injEq] at h <;> subst h
  · refine ⟨rfl, fun j => ?_⟩
    by_cases hj : j = i
    · subst hj
      show ((c.setBuf j _).buf j).dev = _ ∧ ((c.setBuf j _).buf j).blockno = _ ∧
        ((c.setBuf j _).buf j).refcnt = _
      rw [setBuf_same]
      exact ⟨rfl, rfl, rfl⟩
    · show ((c.setBuf i _).buf j).dev = _ ∧ ((c.setBuf i _).buf j).blockno = _ ∧
        ((c.setBuf i _).buf j).refcnt = _
      rw [setBuf_other _ _ _ _ hj]
      exact ⟨rfl, rfl, rfl⟩
  · refine ⟨rfl, fun j => ?_⟩
    by_cases hj : j = i
    · subst hj
      show ((c.setBuf j _).buf j).dev = _ ∧ ((c.setBuf j _).buf j).blockno = _ ∧
        ((c.setBuf j _).buf j).refcnt = _
      rw [setBuf_same]
      exact ⟨rfl, rfl, rfl⟩
    · show ((c.setBuf i _).buf j).dev = _ ∧ ((c.setBuf i _).buf j).blockno = _ ∧
        ((c.setBuf i _).buf j).refcnt = _
      rw [setBuf_other _ _ _ _ hj]
      exact ⟨rfl, rfl, rfl⟩

/-- The critical section of `bget` keeps the invariant, the new `bread` call
counted. -/
theorem bget_inv {s : Sys} {dev blockno i : Nat} {c : BCache} (hinv : Inv s)
    (hlen : s.held.length + 1 < U32) (h : bget s.cache dev blockno = Except.ok (i, c)) :
    Inv { cache := c, held := { dev := dev, blockno := blockno, idx := i } :: s.held } := by
  unfold bget at h
  cases hf : s.cache.lru.find? (names s.cache dev blockno) with
  | some a =>
    rw [hf] at h
    simp only [Except.ok.injEq, Prod.mk.injEq] at h
    obtain ⟨rfl, rfl⟩ := h
    obtain ⟨ha1, ha2⟩ := find_mem _ hf
    have hn : ∀ d b, names (s.cache.setBuf a
        { s.cache.buf a with refcnt := ((s.cache.buf a).refcnt + 1) % U32 }) d b =
        names s.cache d b := by
      intro d b
      funext j
      unfold names
      by_cases hj : j = a
      · subst hj; rw [setBuf_same]
      · rw [setBuf_other _ _ _ _ hj]
    refine { nodup := hinv.nodup, holds := ?_, count := ?_ }
    · intro h hm
      show h.idx ∈ s.cache.lru ∧ s.cache.lru.find? (names _ h.dev h.blockno) = some h.idx
      rw [hn]
      rcases List.mem_cons.mp hm with h1 | h1
      · subst h1
        exact ⟨ha1, hf⟩
      · exact hinv.holds h h1
    · intro j hj
      have hj2 : j ∈ s.cache.lru := hj
      have hc := hinv.count j hj2
      have hle := countP_le_length_hold (fun h => decide (h.idx = j)) s.held
      show ((s.cache.setBuf a _).buf j).refcnt = _
      rw [List.countP_cons]
      by_cases hja : j = a
      · subst hja
        rw [setBuf_same]
        simp only [decide_True, if_true]
        rw [hc, Nat.mod_eq_of_lt (by omega)]
      · rw [setBuf_other _ _ _ _ hja, hc]
        have : decide (a = j) = false := by simpa using (fun h => hja h.symm)
        simp only [this]
        simp
  | none =>
    rw [hf] at h
    simp only at h
    cases hv : s.cache.lru.reverse.find? (reclaimable s.cache) with
    | none => rw [hv] at h; simp at h
    | some v =>
      rw [hv] at h
      simp only [Except.ok.injEq, Prod.mk.injEq] at h
      obtain ⟨rfl, rfl⟩ := h
      obtain ⟨hv1, hv2⟩ := find_mem _ hv
      have hvl : v ∈ s.cache.lru := List.mem_reverse.mp hv1
      have href : (s.cache.buf v).refcnt = 0 := by
        unfold reclaimable at hv2
        simp only [decide_eq_true_eq] at hv2
        exact hv2.1
      have hnone := find_none _ hf
      have hcv : s.held.countP (fun h => decide (h.idx = v)) = 0 := by
        rw [← hinv.count v hvl, href]
      have hnov : ∀ h, h ∈ s.held → h.idx ≠ v := by
        intro h hm he
        have := countP_zero_not hcv hm
        simp only [decide_eq_false_iff_not] at this
        exact this he
      refine { nodup := hinv.nodup, holds := ?_, count := ?_ }
      · intro h hm
        show h.idx ∈ s.cache.lru ∧ s.cache.lru.find? (names _ h.dev h.blockno) = some h.idx
        rcases List.mem_cons.mp hm with h1 | h1
        · subst h1
          refine ⟨hvl, find_only ?_ _ hvl ?_⟩
          · unfold names
            rw [setBuf_same]
            simp
          · intro x hx hxv
            unfold names
            rw [setBuf_other _ _ _ _ hxv]
            exact hnone x hx
        · obtain ⟨g1, g2⟩ := hinv.holds h h1
          refine ⟨g1, find_off ?_ ?_ (hnov h h1) _ g2⟩
          · unfold names
            rw [setBuf_same]
            obtain ⟨-, g3⟩ := find_mem _ g2
            have g4 := hnone h.idx g1
            unfold names at g3 g4
            simp only [decide_eq_true_eq] at g3
            simp only [decide_eq_false_iff_not] at g4 ⊢
            intro hk
            apply g4
            rw [g3.1, g3.2]
            exact ⟨hk.1.symm, hk.2.symm⟩
          · intro x hx
            unfold names
            rw [setBuf_other _ _ _ _ hx]
      · intro j hj
        have hj2 : j ∈ s.cache.lru := hj
        show ((s.cache.setBuf v _).buf j).refcnt = _
        rw [List.countP_cons]
        by_cases hjv : j = v
        · subst hjv
          rw [setBuf_same, hcv]
          simp
        · rw [setBuf_other _ _ _ _ hjv, hinv.count j hj2]
          have : decide (v = j) = false := by simpa using (fun h => hjv h.symm)
          simp only [this]
          simp

/-- A successful `bread` keeps the invariant, the new call counted. -/
theorem bread_inv {s : Sys} {dev blockno i : Nat} {c : BCache} (hinv : Inv s)
    (hlen : s.held.length + 1 < U32) (h : bread s.cache dev blockno = Except.ok (i, c)) :
    Inv { cache := c, held := { dev := dev, blockno := blockno, idx := i } :: s.held } := by
  unfold bread at h
  obtain ⟨⟨i1, c1⟩, hg, h⟩ := bind_eq_ok h
  have h1 := bget_inv hinv hlen hg
  simp only at h
  split_ifs at h
  · obtain ⟨c2, hi, h⟩ := bind_eq_ok h
    simp only [pure_eq_ok, Except.ok.injEq, Prod.mk.injEq] at h
    obtain ⟨rfl, rfl⟩ := h
    obtain ⟨e1, e2⟩ := iderw_same hi
    exact inv_of_same h1 e1 e2
  · simp only [pure_eq_ok, Except.ok.injEq, Prod.mk.injEq] at h
    obtain ⟨rfl, rfl⟩ := h
    exact h1

/-- A `brelse` by an unreleased `bread` keeps the invariant. -/
theorem brelse_inv {s : Sys} {h : Hold} (hinv : Inv s) (hlen : s.held.length < U32)
    (hm : h ∈ s.held) : Inv { cache := brelse s.cache h.idx, held := s.held.erase h } := by
  obtain ⟨hi1, hi2⟩ := hinv.holds h hm
  have hc := hinv.count h.idx hi1
  have hle := countP_le_length_hold (fun x => decide (x.idx = h.idx)) s.held
  have hpos : 0 < s.held.countP (fun x => decide (x.idx = h.idx)) :=
    countP_pos_of_mem _ hm (by simp)
  have hce : ∀ j, (s.held.erase h).countP (fun x => decide (x.idx = j)) +
      (if h.idx = j then 1 else 0) = s.held.countP (fun x => decide (x.idx = j)) := by
    intro j
    have := @countP_erase_hold (fun x => decide (x.idx = j)) h s.held hm
    simpa using this
  have hnew : ((s.cache.buf h.idx).refcnt + U32 - 1) % U32 =
      (s.held.erase h).countP (fun x => decide (x.idx = h.idx)) := by
    have := hce h.idx
    simp only [if_true] at this
    rw [hc]
    have e : s.held.countP (fun x => decide (x.idx = h.idx)) + U32 - 1 =
        (s.held.erase h).countP (fun x => decide (x.idx = h.idx)) + U32 * 1 := by omega
    rw [e, Nat.add_mul_mod_self_left, Nat.mod_eq_of_lt (by omega)]
  obtain ⟨c1, hc1⟩ : ∃ c1, c1 = s.cache.setBuf h.idx
      { s.cache.buf h.idx with refcnt := ((s.cache.buf h.idx).refcnt + U32 - 1) % U32 } :=
    ⟨_, rfl⟩
  have hlru : c1.lru = s.cache.lru := by rw [hc1]; rfl
  have hn : ∀ d b, names c1 d b = names s.cache d b := by
    intro d b
    funext j
    unfold names
    rw [hc1]
    by_cases hj : j = h.idx
    · rw [hj, setBuf_same]
    · rw [setBuf_other _ _ _ _ hj]
  have hcount : ∀ j, j ∈ s.cache.lru →
      (c1.buf j).refcnt = (s.held.erase h).countP (fun x => decide (x.idx = j)) := by
    intro j hj
    rw [hc1]
    by_cases hji : j = h.idx
    · rw [hji, setBuf_same]
      exact hnew
    · rw [setBuf_other _ _ _ _ hji, hinv.count j hj]
      have := hce j
      rw [if_neg (fun he => hji he.symm)] at this
      omega
  unfold brelse
  simp only
  rw [← hc1]
  by_cases hz : (c1.buf h.idx).refcnt = 0
  · rw [if_pos hz]
    have hz2 : (s.held.erase h).countP (fun x => decide (x.idx = h.idx)) = 0 := by
      rw [← hcount h.idx hi1]; exact hz
    refine { nodup := ?_, holds := ?_, count := ?_ }
    · show (h.idx :: c1.lru.erase h.idx).Nodup
      rw [hlru]
      exact List.nodup_cons.mpr ⟨fun hmem => ((List.Nodup.mem_erase_iff hinv.nodup).mp hmem).1 rfl,
        hinv.nodup.erase _⟩
    · intro g hg
      have hg2 : g ∈ s.held := List.mem_of_mem_erase hg
      have hgi : g.idx ≠ h.idx := by
        intro he
        have := countP_zero_not hz2 hg
        simp only [decide_eq_false_iff_not] at this
        exact this he
      obtain ⟨g1, g2⟩ := hinv.holds g hg2
      show g.idx ∈ (h.idx :: c1.lru.erase h.idx) ∧
        (h.idx :: c1.lru.erase h.idx).find? (names c1 g.dev g.blockno) = some g.idx
      rw [hn, hlru]
      have hoff : names s.cache g.dev g.blockno h.idx = false := by
        cases hp : names s.cache g.dev g.blockno h.idx with
        | false => rfl
        | true =>
          exfalso
          obtain ⟨-, k1⟩ := find_mem _ hi2
          have hsame : names s.cache g.dev g.blockno = names s.cache h.dev h.blockno := by
            unfold names at hp k1 ⊢
            simp only [decide_eq_true_eq] at hp k1
            funext j
            rw [← hp.1, ← hp.2, ← k1.1, ← k1.2]
          rw [hsame, hi2] at g2
          simp only [Option.some.injEq] at g2
          exact hgi g2.symm
      refine ⟨List.mem_cons_of_mem _ ((List.mem_erase_of_ne hgi).mpr g1), ?_⟩
      rw [List.find?_cons, hoff, find_erase hoff]
      exact g2
    · intro j hj
      have hj1 : j ∈ (h.idx :: c1.lru.erase h.idx) := hj
      rw [hlru] at hj1
      have hj2 : j ∈ s.cache.lru := by
        rcases List.mem_cons.mp hj1 with h1 | h1
        · rw [h1]; exact hi1
        · exact List.mem_of_mem_erase h1
      exact hcount j hj2
  · rw [if_neg hz]
    refine { nodup := by show c1.lru.Nodup; rw [hlru]; exact hinv.nodup, holds := ?_,
             count := ?_ }
    · intro g hg
      have hg2 : g ∈ s.held := List.mem_of_mem_erase hg
      show g.idx ∈ c1.lru ∧ c1.lru.find? (names c1 g.dev g.blockno) = some g.idx
      rw [hn, hlru]
      exact hinv.holds g hg2
    · intro j hj
      have hj1 : j ∈ c1.lru := hj
      rw [hlru] at hj1
      exact hcount j hj1

/-- A step that does not panic keeps the invariant and adds at most one
unreleased call. -/
theorem step_inv {s s2 : Sys} {e : Ev} (hinv : Inv s) (hlen : s.held.length + 1 < U32)
    (h : step s e = Except.ok s2) : Inv s2 ∧ s2.held.length ≤ s.held.length + 1 := by
  cases e with
  | bread dev blockno =>
    simp only [step] at h
    obtain ⟨⟨i, c⟩, hb, h⟩ := bind_eq_ok h
    simp only [pure_eq_ok, Except.ok.injEq] at h
    subst h
    exact ⟨bread_inv hinv hlen hb, by simp⟩
  | store g data =>
    simp only [step] at h
    split_ifs at h with hm
    simp only [Except.ok.injEq] at h
    subst h
    refine ⟨inv_of_same hinv rfl (fun j => ?_), by simp⟩
    by_cases hj : j = g.idx
    · rw [hj, setBuf_same]
      exact ⟨rfl, rfl, rfl⟩
    · rw [setBuf_other _ _ _ _ hj]
      exact ⟨rfl, rfl, rfl⟩
  | bwrite g =>
    simp only [step] at h
    split_ifs at h with hm
    obtain ⟨c, hw, h⟩ := bind_eq_ok h
    simp only [pure_eq_ok, Except.ok.injEq] at h
    subst h
    obtain ⟨e1, e2⟩ := iderw_same hw
    refine ⟨inv_of_same hinv e1 (fun j => ?_), by simp⟩
    rw [(e2 j).1, (e2 j).2.1, (e2 j).2.2]
    by_cases hj : j = g.idx
    · rw [hj, setBuf_same]
      exact ⟨rfl, rfl, rfl⟩
    · rw [setBuf_other _ _ _ _ hj]
      exact ⟨rfl, rfl, rfl⟩
  | brelse g =>
    simp only [step] at h
    split_ifs at h with hm
    simp only [Except.ok.injEq] at h
    subst h
    refine ⟨brelse_inv hinv (by omega) hm, ?_⟩
    show (s.held.erase g).length ≤ _
    rw [List.length_erase_of_mem hm]
    omega

theorem run_inv : ∀ (evs : List Ev) (s s2 : Sys), Inv s → s.held.length + evs.length < U32 →
    run s evs = Except.ok s2 → Inv s2 := by
  intro evs
  induction evs with
  | nil =>
    intro s s2 hinv _ h
    simp only [run, Except.ok.injEq] at h
    subst h
    exact hinv
  | cons e es ih =>
    intro s s2 hinv hlen h
    simp only [run] at h
    obtain ⟨s1, hs, h⟩ := bind_eq_ok h
    simp only [List.length_cons] at hlen
    obtain ⟨i1, i2⟩ := step_inv hinv (by omega) hs
    exact ih s1 s2 i1 (by omega) h

/-- Under the invariant the unreleased calls for one block hold one buffer,
whose reference count is their number. -/
theorem inv_holders {s : Sys} (hinv : Inv s) (h : Hold) (hm : h ∈ s.held) :
    (∀ g, g ∈ s.held → g.dev = h.dev → g.blockno = h.blockno → g.idx = h.idx) ∧
      (s.cache.buf h.idx).dev = h.dev ∧ (s.cache.buf h.idx).blockno = h.blockno ∧
      (s.cache.buf h.idx).refcnt = holders s h.dev h.blockno := by
  obtain ⟨h1, h2⟩ := hinv.holds h hm
  obtain ⟨-, h3⟩ := find_mem _ h2
  unfold names at h3
  simp only [decide_eq_true_eq] at h3
  have hsame : ∀ g, g ∈ s.held → g.dev = h.dev → g.blockno = h.blockno → g.idx = h.idx := by
    intro g hg e1 e2
    obtain ⟨-, g2⟩ := hinv.holds g hg
    rw [e1, e2, h2] at g2
    simp only [Option.some.injEq] at g2
    exact g2.symm
  refine ⟨hsame, h3.1, h3.2, ?_⟩
  rw [hinv.count h.idx h1]
  unfold holders
  apply List.countP_congr
  intro g hg
  simp only [decide_eq_true_eq]
  constructor
  · intro he
    obtain ⟨-, g2⟩ := hinv.holds g hg
    obtain ⟨-, g3⟩ := find_mem _ g2
    unfold names at g3
    simp only [decide_eq_true_eq] at g3
    rw [he] at g3
    exact ⟨by rw [← g3.1, h3.1], by rw [← g3.2, h3.2]⟩
  · rintro ⟨e1, e2⟩
    exact hsame g hg e1 e2

/-! ## At most one valid buffer for a block -/

theorem flags_done_valid (f : Nat) : ((f ||| B_VALID) &&& (U32 - 1 - B_DIRTY)) &&& B_VALID ≠ 0 := by
  have e : ((f ||| B_VALID) &&& (U32 - 1 - B_DIRTY)) &&& B_VALID = B_VALID := by
    rw [Nat.and_assoc]
    have : (U32 - 1 - B_DIRTY) &&& B_VALID = B_VALID := by decide
    rw [this]
    apply Nat.eq_of_testBit_eq
    intro i
    simp only [Nat.testBit_and, Nat.testBit_or]
    cases f.testBit i <;> cases B_VALID.testBit i <;> rfl
  rw [e]
  decide

theorem flags_done_clean (f : Nat) : ((f ||| B_VALID) &&& (U32 - 1 - B_DIRTY)) &&& B_DIRTY = 0 := by
  rw [Nat.and_assoc]
  have : (U32 - 1 - B_DIRTY) &&& B_DIRTY = 0 := by decide
  rw [this]
  exact Nat.and_zero _

/-- What `iderw` does to the buffers: buffer `i` becomes valid and clean, and
the other buffers are not touched. -/
theorem iderw_bufs {c c2 : BCache} {i : Nat} (h : iderw c i = Except.ok c2) :
    (c2.buf i).flags &&& B_VALID ≠ 0 ∧ (c2.buf i).flags &&& B_DIRTY = 0 ∧
      ∀ j, j ≠ i → c2.buf j = c.buf j := by
  unfold iderw at h
  simp only at h
  split_ifs at h <;> simp only [Except.ok.injEq] at h <;> subst h
  · refine ⟨?_, ?_, fun j hj => ?_⟩
    · show ((c.setBuf i _).buf i).flags &&& B_VALID ≠ 0
      rw [setBuf_same]
      exact flags_done_valid _
    · show ((c.setBuf i _).buf i).flags &&& B_DIRTY = 0
      rw [setBuf_same]
      exact flags_done_clean _
    · show (c.setBuf i _).buf j = _
      rw [setBuf_other _ _ _ _ hj]
  · refine ⟨?_, ?_, fun j hj => ?_⟩
    · show ((c.setBuf i _).buf i).flags &&& B_VALID ≠ 0
      rw [setBuf_same]
      exact flags_done_valid _
    · show ((c.setBuf i _).buf i).flags &&& B_DIRTY = 0
      rw [setBuf_same]
      exact flags_done_clean _
    · show (c.setBuf i _).buf j = _
      rw [setBuf_other _ _ _ _ hj]

/-- What a successful `bread` does to the buffers: the buffer returned is on
the list, names the block and is valid; the list and the other buffers stay;
the buffer was the first on the list to name the block, or no buffer named it. -/
theorem bread_bufs {c c2 : BCache} {dev blockno i : Nat}
    (h : bread c dev blockno = Except.ok (i, c2)) :
    i ∈ c.lru ∧ c2.lru = c.lru ∧ (c2.buf i).flags &&& B_VALID ≠ 0 ∧
      (c2.buf i).dev = dev ∧ (c2.buf i).blockno = blockno ∧
      (∀ j, j ≠ i → c2.buf j = c.buf j) ∧
      (c.lru.find? (names c dev blockno) = some i ∨
        c.lru.find? (names c dev blockno) = none) := by
  unfold bread at h
  obtain ⟨⟨i1, c1⟩, hg, h⟩ := bind_eq_ok h
  have hget : i1 ∈ c.lru ∧ c1.lru = c.lru ∧ (c1.buf i1).dev = dev ∧
      (c1.buf i1).blockno = blockno ∧ (∀ j, j ≠ i1 → c1.buf j = c.buf j) ∧
      (c.lru.find? (names c dev blockno) = some i1 ∨
        c.lru.find? (names c dev blockno) = none) := by
    unfold bget at hg
    cases hf : c.lru.find? (names c dev blockno) with
    | some a =>
      rw [hf] at hg
      simp only [Except.ok.injEq, Prod.mk.injEq] at hg
      obtain ⟨rfl, rfl⟩ := hg
      obtain ⟨ha1, ha2⟩ := find_mem _ hf
      unfold names at ha2
      simp only [decide_eq_true_eq] at ha2
      refine ⟨ha1, rfl, ?_, ?_, fun j hj => setBuf_other _ _ _ _ hj, Or.inl rfl⟩
      · rw [setBuf_same]; exact ha2.1
      · rw [setBuf_same]; exact ha2.2
    | none =>
      rw [hf] at hg
      simp only at hg
      cases hv : c.lru.reverse.find? (reclaimable c) with
      | none => rw [hv] at hg; simp at hg
      | some v =>
        rw [hv] at hg
        simp only [Except.ok.injEq, Prod.mk.injEq] at hg
        obtain ⟨rfl, rfl⟩ := hg
        obtain ⟨hv1, -⟩ := find_mem _ hv
        refine ⟨List.mem_reverse.mp hv1, rfl, ?_, ?_, fun j hj => setBuf_other _ _ _ _ hj,
          Or.inr rfl⟩
        · rw [setBuf_same]
        · rw [setBuf_same]
  obtain ⟨g1, g2, g3, g4, g5, g6⟩ := hget
  simp only at h
  split_ifs at h with hv
  · obtain ⟨c3, hi, h⟩ := bind_eq_ok h
    simp only [pure_eq_ok, Except.ok.injEq, Prod.mk.injEq] at h
    obtain ⟨rfl, rfl⟩ := h
    obtain ⟨e1, e2⟩ := iderw_same hi
    obtain ⟨f1, -, f3⟩ := iderw_bufs hi
    refine ⟨g1, by rw [e1, g2], f1, by rw [(e2 i1).1, g3], by rw [(e2 i1).2.1, g4], ?_, g6⟩
    intro j hj
    rw [f3 j hj, g5 j hj]
  · simp only [pure_eq_ok, Except.ok.injEq, Prod.mk.injEq] at h
    obtain ⟨rfl, rfl⟩ := h
    exact ⟨g1, g2, hv, g3, g4, g5, g6⟩

/-- A relation between the buffers of a list without repetition, changed at
the first element `a` that satisfies `p`: it is enough to look at the pairs
that do not end in `a` and at the elements in front of `a`. -/
theorem pairwise_upd {R S : Nat → Nat → Prop} {p : Nat → Bool} {a : Nat} : ∀ (l : List Nat),
    l.Nodup → l.find? p = some a → l.Pairwise R →
    (∀ x y, x ∈ l → y ∈ l → y ≠ a → R x y → S x y) →
    (∀ x, x ∈ l → p x = false → S x a) → l.Pairwise S := by
  intro l
  induction l with
  | nil => intro _ _ _ _ _; exact List.Pairwise.nil
  | cons b t ih =>
    intro hnd hf hR h1 h2
    obtain ⟨hb, hndt⟩ := List.nodup_cons.mp hnd
    obtain ⟨hRb, hRt⟩ := List.pairwise_cons.mp hR
    rw [List.find?_cons] at hf
    cases hp : p b with
    | true =>
      rw [hp] at hf
      simp only [Option.some.injEq] at hf
      subst hf
      refine List.pairwise_cons.mpr ⟨fun y hy => ?_, ?_⟩
      · exact h1 b y (List.mem_cons_self _ _) (List.mem_cons_of_mem _ hy)
          (fun e => hb (e ▸ hy)) (hRb y hy)
      · exact hRt.imp_of_mem (fun {x y} hx hy r =>
          h1 x y (List.mem_cons_of_mem _ hx) (List.mem_cons_of_mem _ hy)
            (fun e => hb (e ▸ hy)) r)
    | false =>
      rw [hp] at hf
      refine List.pairwise_cons.mpr ⟨fun y hy => ?_, ?_⟩
      · by_cases hya : y = a
        · rw [hya]
          exact h2 b (List.mem_cons_self _ _) hp
        · exact h1 b y (List.mem_cons_self _ _) (List.mem_cons_of_mem _ hy) hya (hRb y hy)
      · exact ih hndt hf hRt
          (fun x y hx hy => h1 x y (List.mem_cons_of_mem _ hx) (List.mem_cons_of_mem _ hy))
          (fun x hx => h2 x (List.mem_cons_of_mem _ hx))

theorem Uniq.nodup {s : Sys} (hu : Uniq s) : s.cache.lru.Nodup :=
  (List.Perm.nodup_iff hu.perm).mpr (List.nodup_range NBUF)

/-- A successful `bread` keeps the invariant. -/
theorem bread_uniq {s : Sys} {dev blockno i : Nat} {c : BCache} (hu : Uniq s)
    (h : bread s.cache dev blockno = Except.ok (i, c)) :
    Uniq { cache := c, held := { dev := dev, blockno := blockno, idx := i } :: s.held } := by
  obtain ⟨b1, b2, b3, b4, b5, b6, b7⟩ := bread_bufs h
  have hsame : ∀ x y, x ≠ i → y ≠ i → (sameBlock c x y ↔ sameBlock s.cache x y) := by
    intro x y hx hy
    unfold sameBlock
    rw [b6 x hx, b6 y hy]
  refine { perm := ?_, held := ?_, fresh := ?_, order := ?_ }
  · show c.lru.Perm _
    rw [b2]; exact hu.perm
  · intro g hg
    show g.idx ∈ c.lru ∧ (c.buf g.idx).flags &&& B_VALID ≠ 0
    rw [b2]
    rcases List.mem_cons.mp hg with e | e
    · subst e
      exact ⟨b1, b3⟩
    · obtain ⟨g1, g2⟩ := hu.held g e
      refine ⟨g1, ?_⟩
      by_cases hgi : g.idx = i
      · rw [hgi]; exact b3
      · rw [b6 _ hgi]; exact g2
  · intro j hj
    have hj2 : j ∈ s.cache.lru := by rw [← b2]; exact hj
    show (c.buf j).flags &&& B_VALID ≠ 0 ∨ untouched c j
    by_cases hji : j = i
    · rw [hji]; exact Or.inl b3
    · unfold untouched
      rw [b6 _ hji]
      exact hu.fresh j hj2
  · show c.lru.Pairwise _
    rw [b2]
    rcases b7 with hf | hf
    · obtain ⟨-, hni⟩ := find_mem _ hf
      unfold names at hni
      simp only [decide_eq_true_eq] at hni
      refine pairwise_upd _ hu.nodup hf hu.order ?_ ?_
      · intro x y hx hy hyi r hs
        rw [b6 y hyi]
        apply r
        by_cases hxi : x = i
        · subst hxi
          unfold sameBlock at hs ⊢
          rw [b6 y hyi, b4, b5] at hs
          rw [hni.1, hni.2]
          exact hs
        · exact (hsame x y hxi hyi).mp hs
      · intro x hx hpx hs
        exfalso
        have hxi : x ≠ i := by
          intro e
          subst e
          obtain ⟨-, hp⟩ := find_mem _ hf
          rw [hp] at hpx
          exact Bool.noConfusion hpx
        unfold sameBlock at hs
        rw [b6 x hxi, b4, b5] at hs
        unfold names at hpx
        simp only [decide_eq_false_iff_not] at hpx
        exact hpx hs
    · have hnone := find_none _ hf
      have hno : ∀ x, x ∈ s.cache.lru → x ≠ i → ¬ sameBlock c x i ∧ ¬ sameBlock c i x := by
        intro x hx hxi
        have := hnone x hx
        unfold names at this
        simp only [decide_eq_false_iff_not] at this
        unfold sameBlock
        rw [b6 x hxi, b4, b5]
        exact ⟨this, fun hs => this ⟨hs.1.symm, hs.2.symm⟩⟩
      refine (hu.nodup.and hu.order).imp_of_mem ?_
      intro x y hx hy hr hs
      obtain ⟨hne, r⟩ := hr
      by_cases hxi : x = i
      · subst hxi
        exact absurd hs (hno y hy (fun e => hne e.symm)).2
      · by_cases hyi : y = i
        · subst hyi
          exact absurd hs (hno x hx hxi).1
        · rw [b6 y hyi]
          exact r ((hsame x y hxi hyi).mp hs)

/-- The invariant is kept by a change of the buffers that leaves the list,
the names and the buffers that are not valid alone, and keeps valid buffers
valid. -/
theorem uniq_congr {s : Sys} {c2 : BCache} {held2 : List Hold} (hu : Uniq s)
    (hl : c2.lru = s.cache.lru)
    (hn : ∀ i, (c2.buf i).dev = (s.cache.buf i).dev ∧
      (c2.buf i).blockno = (s.cache.buf i).blockno)
    (hv : ∀ i, (s.cache.buf i).flags &&& B_VALID ≠ 0 → (c2.buf i).flags &&& B_VALID ≠ 0)
    (hk : ∀ i, i ∈ s.cache.lru → (s.cache.buf i).flags &&& B_VALID = 0 →
      (c2.buf i).flags = (s.cache.buf i).flags ∧ (c2.buf i).refcnt = (s.cache.buf i).refcnt)
    (hh : ∀ h, h ∈ held2 → h ∈ s.held) :
    Uniq { cache := c2, held := held2 } := by
  refine { perm := ?_, held := ?_, fresh := ?_, order := ?_ }
  · show c2.lru.Perm _
    rw [hl]; exact hu.perm
  · intro g hg
    show g.idx ∈ c2.lru ∧ (c2.buf g.idx).flags &&& B_VALID ≠ 0
    rw [hl]
    obtain ⟨g1, g2⟩ := hu.held g (hh g hg)
    exact ⟨g1, hv _ g2⟩
  · intro j hj
    have hj2 : j ∈ s.cache.lru := by rw [← hl]; exact hj
    show (c2.buf j).flags &&& B_VALID ≠ 0 ∨ untouched c2 j
    rcases hu.fresh j hj2 with f | f
    · exact Or.inl (hv j f)
    · right
      have hz : (s.cache.buf j).flags &&& B_VALID = 0 := by rw [f.1]; rfl
      obtain ⟨k1, k2⟩ := hk j hj2 hz
      unfold untouched
      rw [k1, k2, (hn j).1, (hn j).2]
      exact f
  · show c2.lru.Pairwise _
    rw [hl]
    refine hu.order.imp_of_mem ?_
    intro x y hx hy r hs
    have hz : (s.cache.buf y).flags &&& B_VALID = 0 := by
      apply r
      unfold sameBlock at hs ⊢
      rw [(hn x).1, (hn x).2, (hn y).1, (hn y).2] at hs
      exact hs
    rw [(hk y hy hz).1]
    exact hz

/-- A `brelse` by an unreleased `bread` keeps the invariant. -/
theorem brelse_uniq {s : Sys} {h : Hold} (hu : Uniq s) (hm : h ∈ s.held) :
    Uniq { cache := brelse s.cache h.idx, held := s.held.erase h } := by
  obtain ⟨hi1, hi2⟩ := hu.held h hm
  obtain ⟨c1, hc1⟩ : ∃ c1, c1 = s.cache.setBuf h.idx
      { s.cache.buf h.idx with refcnt := ((s.cache.buf h.idx).refcnt + U32 - 1) % U32 } :=
    ⟨_, rfl⟩
  have hb : ∀ j, (c1.buf j).dev = (s.cache.buf j).dev ∧
      (c1.buf j).blockno = (s.cache.buf j).blockno ∧
      (c1.buf j).flags = (s.cache.buf j).flags ∧
      (j ≠ h.idx → (c1.buf j).refcnt = (s.cache.buf j).refcnt) := by
    intro j
    rw [hc1]
    by_cases hj : j = h.idx
    · rw [hj, setBuf_same]
      exact ⟨rfl, rfl, rfl, fun e => absurd rfl e⟩
    · rw [setBuf_other _ _ _ _ hj]
      exact ⟨rfl, rfl, rfl, fun _ => rfl⟩
  have hu1 : Uniq { cache := c1, held := s.held.erase h } := by
    refine uniq_congr hu (by rw [hc1]; rfl) (fun i => ⟨(hb i).1, (hb i).2.1⟩) ?_ ?_
      (fun g hg => List.mem_of_mem_erase hg)
    · intro i hv
      rw [(hb i).2.2.1]; exact hv
    · intro i _ hz
      refine ⟨(hb i).2.2.1, (hb i).2.2.2 ?_⟩
      intro e
      rw [e] at hz
      exact hi2 hz
  unfold brelse
  simp only
  rw [← hc1]
  by_cases hz : (c1.buf h.idx).refcnt = 0
  · rw [if_pos hz]
    have hi3 : h.idx ∈ c1.lru := by rw [hc1]; exact hi1
    have hv3 : (c1.buf h.idx).flags &&& B_VALID ≠ 0 := by rw [(hb _).2.2.1]; exact hi2
    have hsym : ∀ x, x ∈ c1.lru → ∀ y, y ∈ c1.lru → x ≠ y →
        (sameBlock c1 x y → (c1.buf y).flags &&& B_VALID = 0) ∨
        (sameBlock c1 y x → (c1.buf x).flags &&& B_VALID = 0) := by
      have hp : c1.lru.Pairwise (fun x y =>
          (sameBlock c1 x y → (c1.buf y).flags &&& B_VALID = 0) ∨
          (sameBlock c1 y x → (c1.buf x).flags &&& B_VALID = 0)) :=
        hu1.order.imp (fun r => Or.inl r)
      exact fun x hx y hy hne => hp.forall (fun a b r => r.symm) hx hy hne
    refine { perm := ?_, held := ?_, fresh := ?_, order := ?_ }
    · show (h.idx :: c1.lru.erase h.idx).Perm _
      exact (List.perm_cons_erase hi3).symm.trans hu1.perm
    · intro g hg
      obtain ⟨g1, g2⟩ := hu1.held g hg
      exact ⟨(List.perm_cons_erase hi3).subset g1, g2⟩
    · intro j hj
      exact hu1.fresh j ((List.perm_cons_erase hi3).symm.subset hj)
    · show (h.idx :: c1.lru.erase h.idx).Pairwise _
      refine List.pairwise_cons.mpr ⟨?_, hu1.order.sublist (List.erase_sublist _ _)⟩
      intro y hy hs
      have hy2 : y ∈ c1.lru := List.mem_of_mem_erase hy
      have hne : h.idx ≠ y := by
        intro e
        rw [← e] at hy
        exact (List.Nodup.mem_erase_iff hu1.nodup).mp hy |>.1 rfl
      rcases hsym h.idx hi3 y hy2 hne with r | r
      · exact r hs
      · exact absurd (r ⟨hs.1.symm, hs.2.symm⟩) hv3
  · rw [if_neg hz]
    exact hu1

theorem init_uniq (disk : Nat → Nat → Mem) (hd : Bool) : Uniq (init disk hd) :=
  { perm := by
      show (binit disk hd).lru.Perm _
      rw [binit_lru]
      decide
    held := fun h hm => absurd hm (by simp [init])
    fresh := fun i _ => Or.inr ⟨rfl, rfl, rfl, rfl⟩
    order := List.pairwise_of_forall (fun _ _ _ => Nat.zero_and B_VALID) }

/-- A step that does not panic keeps the invariant. -/
theorem step_uniq {s s2 : Sys} {e : Ev} (hu : Uniq s) (h : step s e = Except.ok s2) :
    Uniq s2 := by
  cases e with
  | bread dev blockno =>
    simp only [step] at h
    obtain ⟨⟨i, c⟩, hb, h⟩ := bind_eq_ok h
    simp only [pure_eq_ok, Except.ok.injEq] at h
    subst h
    exact bread_uniq hu hb
  | store g data =>
    simp only [step] at h
    split_ifs at h with hm
    simp only [Except.ok.injEq] at h
    subst h
    obtain ⟨c, hc⟩ : ∃ c, c = s.cache.setBuf g.idx { s.cache.buf g.idx with data := data } :=
      ⟨_, rfl⟩
    rw [← hc]
    have hb : ∀ j, (c.buf j).dev = (s.cache.buf j).dev ∧
        (c.buf j).blockno = (s.cache.buf j).blockno ∧
        (c.buf j).flags = (s.cache.buf j).flags ∧ (c.buf j).refcnt = (s.cache.buf j).refcnt := by
      intro j
      rw [hc]
      by_cases hj : j = g.idx
      · rw [hj, setBuf_same]
        exact ⟨rfl, rfl, rfl, rfl⟩
      · rw [setBuf_other _ _ _ _ hj]
        exact ⟨rfl, rfl, rfl, rfl⟩
    exact uniq_congr hu (by rw [hc]; rfl) (fun i => ⟨(hb i).1, (hb i).2.1⟩)
      (fun i hv => by rw [(hb i).2.2.1]; exact hv)
      (fun i _ _ => ⟨(hb i).2.2.1, (hb i).2.2.2⟩) (fun _ hg => hg)
  | bwrite g =>
    simp only [step] at h
    split_ifs at h with hm
    obtain ⟨c, hw, h⟩ := bind_eq_ok h
    simp only [pure_eq_ok, Except.ok.injEq] at h
    subst h
    obtain ⟨e1, e2⟩ := iderw_same hw
    obtain ⟨f1, -, f3⟩ := iderw_bufs hw
    obtain ⟨hi1, hi2⟩ := hu.held g hm
    have hb : ∀ j, (c.buf j).dev = (s.cache.buf j).dev ∧
        (c.buf j).blockno = (s.cache.buf j).blockno := by
      intro j
      rw [(e2 j).1, (e2 j).2.1]
      by_cases hj : j = g.idx
      · rw [hj, setBuf_same]
        exact ⟨rfl, rfl⟩
      · rw [setBuf_other _ _ _ _ hj]
        exact ⟨rfl, rfl⟩
    have ho : ∀ j, j ≠ g.idx → c.buf j = s.cache.buf j := by
      intro j hj
      rw [f3 j hj, setBuf_other _ _ _ _ hj]
    refine uniq_congr hu e1 hb ?_ ?_ (fun _ hg => hg)
    · intro i hv
      by_cases hj : i = g.idx
      · rw [hj]; exact f1
      · rw [ho i hj]; exact hv
    · intro i _ hz
      have hj : i ≠ g.idx := by
        intro e
        rw [e] at hz
        exact hi2 hz
      rw [ho i hj]
      exact ⟨rfl, rfl⟩
  | brelse g =>
    simp only [step] at h
    split_ifs at h with hm
    simp only [Except.ok.injEq] at h
    subst h
    exact brelse_uniq hu hm

theorem run_uniq : ∀ (evs : List Ev) (s s2 : Sys), Uniq s → run s evs = Except.ok s2 →
    Uniq s2 := by
  intro evs
  induction evs with
  | nil =>
    intro s s2 hu h
    simp only [run, Except.ok.injEq] at h
    subst h
    exact hu
  | cons e es ih =>
    intro s s2 hu h
    simp only [run] at h
    obtain ⟨s1, hs, h⟩ := bind_eq_ok h
    exact ih s1 s2 (step_uniq hu hs) h

/-- Under the invariant two buffers that name the same block name block 0 of
device 0, and one of them is untouched. -/
theorem uniq_two {s : Sys} (hu : Uniq s) (i j : Nat) (hi : i < NBUF) (hj : j < NBUF)
    (hne : i ≠ j) (hs : sameBlock s.cache i j) :
    ((s.cache.buf i).dev = 0 ∧ (s.cache.buf i).blockno = 0) ∧
      (untouched s.cache i ∨ untouched s.cache j) := by
  have hi2 : i ∈ s.cache.lru := hu.perm.symm.subset (List.mem_range.mpr hi)
  have hj2 : j ∈ s.cache.lru := hu.perm.symm.subset (List.mem_range.mpr hj)
  have hp : s.cache.lru.Pairwise (fun x y =>
      (sameBlock s.cache x y → (s.cache.buf y).flags &&& B_VALID = 0) ∨
      (sameBlock s.cache y x → (s.cache.buf x).flags &&& B_VALID = 0)) :=
    hu.order.imp (fun r => Or.inl r)
  have hun : ∀ x, x ∈ s.cache.lru → (s.cache.buf x).flags &&& B_VALID = 0 →
      untouched s.cache x := by
    intro x hx hz
    rcases hu.fresh x hx with f | f
    · exact absurd hz f
    · exact f
  rcases hp.forall (fun a b r => r.symm) hi2 hj2 hne with r | r
  · have u := hun j hj2 (r hs)
    exact ⟨⟨by rw [hs.1]; exact u.2.2.1, by rw [hs.2]; exact u.2.2.2⟩, Or.inr u⟩
  · have u := hun i hi2 (r ⟨hs.1.symm, hs.2.symm⟩)
    exact ⟨⟨u.2.2.1, u.2.2.2⟩, Or.inl u⟩

/-- The second scan of `bget`: what it finds is the last buffer of the list
that can be recycled. -/
theorem scan_last {p : Nat → Bool} {l : List Nat} {i : Nat}
    (h : l.reverse.find? p = some i) :
    p i = true ∧ ∃ front back, l = front ++ i :: back ∧ ∀ j, j ∈ back → p j = false := by
  obtain ⟨h1, as, bs, h2, h3⟩ := List.find?_eq_some.mp h
  refine ⟨h1, bs.reverse, as.reverse, ?_, ?_⟩
  · have := congrArg List.reverse h2
    simpa using this
  · intro j hj
    have := h3 j (List.mem_reverse.mp hj)
    simpa using this

/-! ## Least recently used -/

/-- The load that `bread` starts for a buffer that `bget` returned with no
flag set. -/
theorem bread_load {c c1 : BCache} {dev blockno v : Nat}
    (hg : bget c dev blockno = Except.ok (v, c1)) (hf : (c1.buf v).flags = 0)
    (hdev : (c1.buf v).dev = dev) (hbn : (c1.buf v).blockno = blockno)
    (hb : blockno < FSSIZE) (hd : dev = 0 ∨ c1.havedisk1 = true) :
    ∃ c2, bread c dev blockno = Except.ok (v, c2) ∧ c2.lru = c1.lru ∧
      c2.loads = c1.loads + 1 ∧ c2.havedisk1 = c1.havedisk1 ∧ c2.disk = c1.disk ∧
      (c2.buf v).flags = B_VALID ∧ (c2.buf v).dev = dev ∧ (c2.buf v).blockno = blockno ∧
      (c2.buf v).refcnt = (c1.buf v).refcnt ∧
      (c2.buf v).data = c1.disk (dev % 2) blockno ∧ ∀ j, j ≠ v → c2.buf j = c1.buf j := by
  obtain ⟨c2, hc2⟩ : ∃ c2 : BCache, c2 = { (c1.setBuf v { c1.buf v with
      flags := ((c1.buf v).flags ||| B_VALID) &&& (U32 - 1 - B_DIRTY),
      data := c1.disk ((c1.buf v).dev % 2) (c1.buf v).blockno }) with loads := c1.loads + 1 } :=
    ⟨_, rfl⟩
  have hi : iderw c1 v = Except.ok c2 := by
    rw [hc2]
    unfold iderw
    simp only
    rw [if_neg (by rw [hf]; decide), if_neg, if_neg (by rw [hbn]; omega),
      if_neg (by rw [hf]; decide)]
    rw [hdev]
    rcases hd with h | h
    · exact fun x => x.1 h
    · rw [h]; exact fun x => Bool.noConfusion x.2
  have hbuf : c2.buf = (c1.setBuf v { c1.buf v with
      flags := ((c1.buf v).flags ||| B_VALID) &&& (U32 - 1 - B_DIRTY),
      data := c1.disk ((c1.buf v).dev % 2) (c1.buf v).blockno }).buf := by rw [hc2]
  refine ⟨c2, ?_, by rw [hc2]; rfl, by rw [hc2], by rw [hc2]; rfl, by rw [hc2]; rfl,
    ?_, ?_, ?_, ?_, ?_, ?_⟩
  · unfold bread
    rw [hg]
    show (if (c1.buf v).flags &&& B_VALID = 0 then _ else _) = _
    rw [if_pos (by rw [hf]; decide), hi]
    rfl
  · rw [hbuf, setBuf_same]
    show ((c1.buf v).flags ||| B_VALID) &&& (U32 - 1 - B_DIRTY) = B_VALID
    rw [hf]; decide
  · rw [hbuf, setBuf_same]; exact hdev
  · rw [hbuf, setBuf_same]; exact hbn
  · rw [hbuf, setBuf_same]
  · rw [hbuf, setBuf_same]
    show c1.disk ((c1.buf v).dev % 2) (c1.buf v).blockno = _
    rw [hdev, hbn]
  · intro j hj
    rw [hbuf, setBuf_other _ _ _ _ hj]

/-- A `bread` that loads the buffer, and the `brelse` that follows at once:
the buffer ends valid, released and at the head of the list. -/
theorem touch_result {c c1 : BCache} {b : Nat × Nat} {v : Nat}
    (hg : bget c b.1 b.2 = Except.ok (v, c1)) (hf : (c1.buf v).flags = 0)
    (hr : (c1.buf v).refcnt = 1)
    (hdev : (c1.buf v).dev = b.1) (hbn : (c1.buf v).blockno = b.2)
    (hl : c1.lru = c.lru) (ho : ∀ j, j ≠ v → c1.buf j = c.buf j)
    (hh : c1.havedisk1 = c.havedisk1) (hlo : c1.loads = c.loads)
    (hb : onDisk c.havedisk1 b) :
    ∃ c3, touch c b = Except.ok c3 ∧ c3.lru = v :: c.lru.erase v ∧
      c3.loads = c.loads + 1 ∧ c3.havedisk1 = c.havedisk1 ∧
      (c3.buf v).flags = B_VALID ∧ (c3.buf v).dev = b.1 ∧ (c3.buf v).blockno = b.2 ∧
      (c3.buf v).refcnt = 0 ∧ ∀ j, j ≠ v → c3.buf j = c.buf j := by
  obtain ⟨c2, k1, k2, k3, k4, -, k6, k7, k8, k9, -, k11⟩ :=
    bread_load hg hf hdev hbn hb.1 (by rw [hh]; exact hb.2)
  have hz : ((c2.setBuf v { c2.buf v with refcnt := ((c2.buf v).refcnt + U32 - 1) % U32 }).buf
      v).refcnt = 0 := by
    rw [setBuf_same]
    show ((c2.buf v).refcnt + U32 - 1) % U32 = 0
    rw [k9, hr]
    decide
  have hbr : brelse c2 v = { (c2.setBuf v
      { c2.buf v with refcnt := ((c2.buf v).refcnt + U32 - 1) % U32 }) with
      lru := v :: c2.lru.erase v } := by
    unfold brelse
    simp only
    rw [if_pos hz]
    rfl
  refine ⟨brelse c2 v, ?_, ?_, ?_, ?_, ?_, ?_, ?_, ?_, ?_⟩
  · unfold touch
    rw [k1]
    rfl
  · rw [hbr]
    show v :: c2.lru.erase v = _
    rw [k2, hl]
  · rw [hbr]
    show c2.loads = _
    rw [k3, hlo]
  · rw [hbr]
    show c2.havedisk1 = _
    rw [k4, hh]
  · rw [hbr]
    show ((c2.setBuf v _).buf v).flags = _
    rw [setBuf_same]
    exact k6
  · rw [hbr]
    show ((c2.setBuf v _).buf v).dev = _
    rw [setBuf_same]
    exact k7
  · rw [hbr]
    show ((c2.setBuf v _).buf v).blockno = _
    rw [setBuf_same]
    exact k8
  · rw [hbr]
    exact hz
  · intro j hj
    rw [hbr]
    show (c2.setBuf v _).buf j = _
    rw [setBuf_other _ _ _ _ hj, k11 j hj, ho j hj]

theorem Quiet.lru_nodup {c : BCache} {hd : Bool} {A P : List Nat} {N : List (Nat × Nat)}
    (hq : Quiet c hd A P N) : (A ++ P).Nodup := by
  rw [← hq.lru]
  exact (List.Perm.nodup_iff hq.perm).mpr (List.nodup_range NBUF)

theorem Quiet.reclaimable {c : BCache} {hd : Bool} {A P : List Nat} {N : List (Nat × Nat)}
    (hq : Quiet c hd A P N) (i : Nat) (hi : i ∈ c.lru) : reclaimable c i = true := by
  unfold Bio.reclaimable
  simp only [decide_eq_true_eq]
  rw [hq.lru] at hi
  rcases List.mem_append.mp hi with h | h
  · exact ⟨(hq.valid i h).2.2, (hq.valid i h).2.1⟩
  · obtain ⟨f1, f2, -, -⟩ := hq.fresh i h
    exact ⟨f2, by rw [f1]; rfl⟩

/-- The buffer that `bget` hands out for a block that no valid buffer of a
quiet cache names: an untouched buffer when there is one, and else the last
buffer of the list. -/
theorem bget_quiet {c : BCache} {hd : Bool} {A P : List Nat} {N : List (Nat × Nat)}
    {b : Nat × Nat} (hq : Quiet c hd A P N) (hn : b ∉ N) :
    ∃ v c1, bget c b.1 b.2 = Except.ok (v, c1) ∧ (c1.buf v).flags = 0 ∧
      (c1.buf v).refcnt = 1 ∧ (c1.buf v).dev = b.1 ∧ (c1.buf v).blockno = b.2 ∧
      c1.lru = c.lru ∧ (∀ j, j ≠ v → c1.buf j = c.buf j) ∧
      c1.havedisk1 = c.havedisk1 ∧ c1.loads = c.loads ∧
      ((∃ P1 P2, P = P1 ++ v :: P2) ∨ (P = [] ∧ ∃ A1, A = A1 ++ [v])) := by
  have hA : ∀ i, i ∈ A → names c b.1 b.2 i = false := by
    intro i hi
    unfold names
    simp only [decide_eq_false_iff_not]
    intro hnm
    apply hn
    rw [← hq.names]
    refine List.mem_map.mpr ⟨i, hi, ?_⟩
    rw [hnm.1, hnm.2]
  unfold bget
  cases hf : c.lru.find? (names c b.1 b.2) with
  | some a =>
    obtain ⟨ha1, ha2⟩ := find_mem _ hf
    rw [hq.lru] at ha1
    have haP : a ∈ P := by
      rcases List.mem_append.mp ha1 with h | h
      · rw [hA a h] at ha2
        exact Bool.noConfusion ha2
      · exact h
    obtain ⟨f1, f2, f3, f4⟩ := hq.fresh a haP
    unfold names at ha2
    simp only [decide_eq_true_eq] at ha2
    refine ⟨a, _, rfl, ?_, ?_, ?_, ?_, rfl, fun j hj => setBuf_other _ _ _ _ hj, rfl, rfl,
      Or.inl (List.append_of_mem haP)⟩
    · rw [setBuf_same]; exact f1
    · rw [setBuf_same]
      show ((c.buf a).refcnt + 1) % U32 = 1
      rw [f2]; decide
    · rw [setBuf_same]; exact ha2.1
    · rw [setBuf_same]; exact ha2.2
  | none =>
    simp only
    cases hv : c.lru.reverse.find? (reclaimable c) with
    | none =>
      exfalso
      have hne : c.lru ≠ [] := by
        intro e
        have := hq.perm.length_eq
        rw [e] at this
        simp [NBUF] at this
      obtain ⟨x, hx⟩ := List.exists_mem_of_ne_nil _ hne
      have := List.find?_eq_none.mp hv x (List.mem_reverse.mpr hx)
      exact this (hq.reclaimable x hx)
    | some v =>
      obtain ⟨-, front, back, h2, h3⟩ := scan_last hv
      have hback : back = [] := by
        cases back with
        | nil => rfl
        | cons y ys =>
          exfalso
          have hy : y ∈ c.lru := by rw [h2]; simp
          have := h3 y (List.mem_cons_self _ _)
          rw [hq.reclaimable y hy] at this
          exact Bool.noConfusion this
      rw [hback] at h2
      refine ⟨v, _, rfl, ?_, ?_, ?_, ?_, rfl, fun j hj => setBuf_other _ _ _ _ hj, rfl, rfl, ?_⟩
      · rw [setBuf_same]
      · rw [setBuf_same]
      · rw [setBuf_same]
      · rw [setBuf_same]
      · rw [hq.lru] at h2
        rcases List.eq_nil_or_concat P with hP | ⟨P1, p, hP⟩
        · right
          refine ⟨hP, front, ?_⟩
          rw [hP, List.append_nil] at h2
          exact h2
        · left
          rw [hP, List.concat_eq_append, ← List.append_assoc] at h2
          have := List.append_inj' h2 rfl
          simp only [List.cons.injEq, and_true] at this
          refine ⟨P1, [], ?_⟩
          rw [hP, List.concat_eq_append, this.2]

/-- Touching a block that no valid buffer of a quiet cache names loads it
once and leaves a quiet cache: the block is the newest; it took an untouched
buffer when there was one, and else the buffer of the oldest block. -/
theorem touch_quiet {c : BCache} {hd : Bool} {A P : List Nat} {N : List (Nat × Nat)}
    {b : Nat × Nat} (hq : Quiet c hd A P N) (hb : onDisk hd b) (hn : b ∉ N) :
    ∃ c3 A3 P3, touch c b = Except.ok c3 ∧ c3.loads = c.loads + 1 ∧
      ((P3.length + 1 = P.length ∧ Quiet c3 hd A3 P3 (b :: N)) ∨
       (P = [] ∧ P3 = [] ∧ Quiet c3 hd A3 [] (b :: N.dropLast))) := by
  obtain ⟨v, c1, g1, g2, g3, g4, g5, g6, g7, g8, g9, g10⟩ := bget_quiet hq hn
  obtain ⟨c3, k1, k2, k3, k4, k5, k6, k7, k8, k9⟩ :=
    touch_result g1 g2 g3 g4 g5 g6 g7 g8 g9 (by rw [hq.disk1]; exact hb)
  have hnd := hq.lru_nodup
  have hvl : v ∈ c.lru := by
    rw [hq.lru]
    rcases g10 with ⟨P1, P2, e⟩ | ⟨-, A1, e⟩
    · rw [e]; simp
    · rw [e]; simp
  have hperm : c3.lru.Perm (List.range NBUF) := by
    rw [k2]
    exact (List.perm_cons_erase hvl).symm.trans hq.perm
  have hvalid : (c3.buf v).flags &&& B_VALID ≠ 0 ∧ (c3.buf v).flags &&& B_DIRTY = 0 ∧
      (c3.buf v).refcnt = 0 := by
    rw [k5]
    exact ⟨by decide, by decide, k8⟩
  have hname : ((c3.buf v).dev, (c3.buf v).blockno) = b := by rw [k6, k7]
  rcases g10 with ⟨P1, P2, e⟩ | ⟨hP, A1, e⟩
  · refine ⟨c3, v :: A, P1 ++ P2, k1, k3, Or.inl ⟨by rw [e]; simp; omega, ?_⟩⟩
    rw [e] at hnd
    have hvA : v ∉ A := fun h => by
      have := (List.nodup_append.mp hnd).2.2
      exact this h (by simp) 
    have hvP1 : v ∉ P1 := fun h => by
      have := (List.nodup_append.mp (List.nodup_append.mp hnd).2.1).2.2
      exact this h (List.mem_cons_self _ _)
    have hvP2 : v ∉ P2 := fun h => by
      have := (List.nodup_append.mp (List.nodup_append.mp hnd).2.1).2.1
      exact (List.nodup_cons.mp this).1 h
    refine { lru := ?_, perm := hperm, disk1 := by rw [k4]; exact hq.disk1, names := ?_,
             valid := ?_, fresh := ?_ }
    · rw [k2, hq.lru, e, List.erase_append_right _ hvA, List.erase_append_right _ hvP1,
        List.erase_cons_head]
      rfl
    · rw [List.map_cons, hname, ← hq.names]
      congr 1
      apply List.map_congr_left
      intro j hj
      rw [k9 j (fun h => hvA (h ▸ hj))]
    · intro j hj
      rcases List.mem_cons.mp hj with h | h
      · rw [h]; exact hvalid
      · rw [k9 j (fun h2 => hvA (h2 ▸ h))]
        exact hq.valid j h
    · intro j hj
      have hjP : j ∈ P := by
        rw [e]
        rcases List.mem_append.mp hj with h | h
        · exact List.mem_append_left _ h
        · exact List.mem_append_right _ (List.mem_cons_of_mem _ h)
      have hjv : j ≠ v := by
        intro h
        rw [h] at hj
        rcases List.mem_append.mp hj with h | h
        · exact hvP1 h
        · exact hvP2 h
      unfold untouched
      rw [k9 j hjv]
      exact hq.fresh j hjP
  · refine ⟨c3, v :: A1, [], k1, k3, Or.inr ⟨hP, rfl, ?_⟩⟩
    rw [hP, e, List.append_nil] at hnd
    have hvA : v ∉ A1 := fun h => by
      have := (List.nodup_append.mp hnd).2.2
      exact this h (List.mem_singleton_self _)
    refine { lru := ?_, perm := hperm, disk1 := by rw [k4]; exact hq.disk1, names := ?_,
             valid := ?_, fresh := fun j hj => absurd hj (List.not_mem_nil _) }
    · rw [k2, hq.lru, hP, e, List.append_nil, List.erase_append_right _ hvA]
      simp
    · rw [List.map_cons, hname, ← hq.names, e, List.map_append, List.map_singleton,
        List.dropLast_concat]
      congr 1
      apply List.map_congr_left
      intro j hj
      rw [k9 j (fun h => hvA (h ▸ hj))]
    · intro j hj
      rcases List.mem_cons.mp hj with h | h
      · rw [h]; exact hvalid
      · rw [k9 j (fun h2 => hvA (h2 ▸ h))]
        exact hq.valid j (by rw [e]; exact List.mem_append_left _ h)

theorem touchAll_append (c : BCache) : ∀ (l1 l2 : List (Nat × Nat)),
    touchAll c (l1 ++ l2) = (touchAll c l1 >>= fun c1 => touchAll c1 l2) := by
  intro l1
  induction l1 generalizing c with
  | nil => intro l2; rfl
  | cons b t ih =>
    intro l2
    show (touch c b >>= fun c1 => touchAll c1 (t ++ l2)) =
      ((touch c b >>= fun c1 => touchAll c1 t) >>= fun c1 => touchAll c1 l2)
    cases touch c b with
    | error e => rfl
    | ok c1 => exact ih c1 l2

/-- Touching different blocks, no more of them than there are untouched
buffers: every one takes an untouched buffer and is loaded once. -/
theorem touchAll_quiet {hd : Bool} : ∀ (bs : List (Nat × Nat)) (c : BCache) (A P : List Nat)
    (N : List (Nat × Nat)), Quiet c hd A P N → bs.Nodup → (∀ b, b ∈ bs → b ∉ N) →
    (∀ b, b ∈ bs → onDisk hd b) → bs.length ≤ P.length →
    ∃ c2 A2 P2, touchAll c bs = Except.ok c2 ∧ Quiet c2 hd A2 P2 (bs.reverse ++ N) ∧
      P2.length + bs.length = P.length ∧ c2.loads = c.loads + bs.length := by
  intro bs
  induction bs with
  | nil =>
    intro c A P N hq _ _ _ _
    exact ⟨c, A, P, rfl, hq, rfl, rfl⟩
  | cons b t ih =>
    intro c A P N hq hnd hn hon hlen
    obtain ⟨hbt, hndt⟩ := List.nodup_cons.mp hnd
    simp only [List.length_cons] at hlen
    obtain ⟨c3, A3, P3, k1, k2, k3⟩ :=
      touch_quiet hq (hon b (List.mem_cons_self _ _)) (hn b (List.mem_cons_self _ _))
    rcases k3 with ⟨k4, k5⟩ | ⟨k4, -, -⟩
    · obtain ⟨c2, A2, P2, m1, m2, m3, m4⟩ := ih c3 A3 P3 (b :: N) k5 hndt
        (fun x hx hxn => by
          rcases List.mem_cons.mp hxn with h | h
          · exact hbt (h ▸ hx)
          · exact hn x (List.mem_cons_of_mem _ hx) h)
        (fun x hx => hon x (List.mem_cons_of_mem _ hx)) (by omega)
      refine ⟨c2, A2, P2, ?_, ?_, by simp only [List.length_cons]; omega,
        by simp only [List.length_cons]; omega⟩
      · show (touch c b >>= fun c1 => touchAll c1 t) = _
        rw [k1]
        exact m1
      · rw [List.reverse_cons, List.append_assoc]
        exact m2
    · rw [k4] at hlen
      simp at hlen

theorem binit_quiet (disk : Nat → Nat → Mem) (hd : Bool) :
    Quiet (binit disk hd) hd [] (binit disk hd).lru [] :=
  { lru := rfl
    perm := (init_uniq disk hd).perm
    disk1 := rfl
    names := rfl
    valid := fun _ hi => absurd hi (List.not_mem_nil _)
    fresh := fun _ _ => ⟨rfl, rfl, rfl, rfl⟩ }

/-- The buffers of a quiet cache with no untouched buffer name the blocks of
the list and nothing else. -/
theorem Quiet.cached_iff {c : BCache} {hd : Bool} {A : List Nat} {N : List (Nat × Nat)}
    (hq : Quiet c hd A [] N) (b : Nat × Nat) :
    (cached c b → b ∈ N) ∧ (b ∈ N → cachedValid c b) := by
  have hmem : ∀ i, i < NBUF ↔ i ∈ A := by
    intro i
    rw [← List.mem_range]
    have := hq.perm.mem_iff (a := i)
    rw [hq.lru, List.append_nil] at this
    exact this.symm
  constructor
  · rintro ⟨i, hi, h1, h2⟩
    rw [← hq.names]
    exact List.mem_map.mpr ⟨i, (hmem i).mp hi, by rw [h1, h2]⟩
  · intro hb
    rw [← hq.names] at hb
    obtain ⟨i, hi, h⟩ := List.mem_map.mp hb
    refine ⟨i, (hmem i).mpr hi, ?_, ?_, (hq.valid i hi).1⟩
    · rw [← h]
    · rw [← h]

/-- A step with the clock is a step of the system. -/
theorem tstep_sys {t t2 : Timed} {e : Ev} (h : tstep t e = Except.ok t2) :
    step t.sys e = Except.ok t2.sys ∧ t2.clock = t.clock + 1 ∧
      t2.released = stamp t e := by
  unfold tstep at h
  obtain ⟨s, hs, h⟩ := bind_eq_ok h
  simp only [pure_eq_ok, Except.ok.injEq] at h
  subst h
  exact ⟨hs, rfl, rfl⟩

/-- The order by the times of release is kept by a change of the buffers that
leaves the list and the times alone and sets no reference count to 0. -/
theorem aged_congr {t t2 : Timed} (ha : Aged t) (hc : t2.clock = t.clock + 1)
    (hr : t2.released = t.released) (hl : t2.sys.cache.lru = t.sys.cache.lru)
    (hz : ∀ j, (t2.sys.cache.buf j).refcnt = 0 → (t.sys.cache.buf j).refcnt = 0) :
    Aged t2 := by
  refine { past := fun i => ?_, order := ?_ }
  · rw [hr, hc]
    exact Nat.le_succ_of_le (ha.past i)
  · rw [hl, hr]
    exact ha.order.imp (fun r h => r (hz _ h))

/-- A step that does not panic keeps the order by the times of release. -/
theorem tstep_aged {t t2 : Timed} {e : Ev} (hinv : Inv t.sys) (ha : Aged t)
    (hlen : t.sys.held.length + 1 < U32) (h : tstep t e = Except.ok t2) : Aged t2 := by
  obtain ⟨hs, hc, hr⟩ := tstep_sys h
  obtain ⟨hinv2, -⟩ := step_inv hinv hlen hs
  cases e with
  | bread dev blockno =>
    simp only [step] at hs
    obtain ⟨⟨i, c⟩, hb, hs⟩ := bind_eq_ok hs
    simp only [pure_eq_ok, Except.ok.injEq] at hs
    obtain ⟨b1, b2, -, -, -, b6, -⟩ := bread_bufs hb
    refine aged_congr ha hc hr (by rw [← hs]; exact b2) ?_
    intro j hj
    by_cases hji : j = i
    · exfalso
      have hcnt := hinv2.count i (by rw [← hs]; show i ∈ c.lru; rw [b2]; exact b1)
      rw [← hji, hj, ← hs] at hcnt
      have hpos : 0 < List.countP (fun h => decide (h.idx = j))
          ({ dev := dev, blockno := blockno, idx := i } :: t.sys.held) :=
        countP_pos_of_mem _ (List.mem_cons_self _ _) (by simp [hji])
      exact absurd hcnt.symm (Nat.pos_iff_ne_zero.mp hpos)
    · rw [← hs] at hj
      have : (c.buf j).refcnt = 0 := hj
      rw [b6 j hji] at this
      exact this
  | store g data =>
    simp only [step] at hs
    split_ifs at hs with hm
    simp only [Except.ok.injEq] at hs
    refine aged_congr ha hc hr (by rw [← hs]; rfl) ?_
    intro j hj
    rw [← hs] at hj
    have hj2 : ((t.sys.cache.setBuf g.idx _).buf j).refcnt = 0 := hj
    by_cases hji : j = g.idx
    · rw [hji, setBuf_same] at hj2
      rw [hji]; exact hj2
    · rw [setBuf_other _ _ _ _ hji] at hj2
      exact hj2
  | bwrite g =>
    simp only [step] at hs
    split_ifs at hs with hm
    obtain ⟨c, hw, hs⟩ := bind_eq_ok hs
    simp only [pure_eq_ok, Except.ok.injEq] at hs
    obtain ⟨e1, e2⟩ := iderw_same hw
    refine aged_congr ha hc hr (by rw [← hs]; exact e1) ?_
    intro j hj
    rw [← hs] at hj
    have hj2 : (c.buf j).refcnt = 0 := hj
    rw [(e2 j).2.2] at hj2
    by_cases hji : j = g.idx
    · rw [hji, setBuf_same] at hj2
      rw [hji]; exact hj2
    · rw [setBuf_other _ _ _ _ hji] at hj2
      exact hj2
  | brelse g =>
    simp only [step] at hs
    split_ifs at hs with hm
    simp only [Except.ok.injEq] at hs
    have hr2 : ∀ i, t2.released i = if i = g.idx then t.clock + 1 else t.released i := by
      intro i; rw [hr]; rfl
    obtain ⟨hi1, -⟩ := hinv.holds g hm
    obtain ⟨c1, hc1⟩ : ∃ c1, c1 = t.sys.cache.setBuf g.idx
        { t.sys.cache.buf g.idx with
          refcnt := ((t.sys.cache.buf g.idx).refcnt + U32 - 1) % U32 } := ⟨_, rfl⟩
    have ho : ∀ j, j ≠ g.idx → (c1.buf j).refcnt = (t.sys.cache.buf j).refcnt := by
      intro j hj
      rw [hc1, setBuf_other _ _ _ _ hj]
    have hcache : t2.sys.cache =
        if (c1.buf g.idx).refcnt = 0 then { c1 with lru := g.idx :: c1.lru.erase g.idx }
        else c1 := by
      rw [← hs, hc1]
      rfl
    have hl1 : c1.lru = t.sys.cache.lru := by rw [hc1]; rfl
    refine { past := fun i => ?_, order := ?_ }
    · rw [hr2, hc]
      by_cases hi : i = g.idx
      · rw [if_pos hi]
      · rw [if_neg hi]
        exact Nat.le_succ_of_le (ha.past i)
    · rw [hcache]
      by_cases hz : (c1.buf g.idx).refcnt = 0
      · rw [if_pos hz]
        show (g.idx :: c1.lru.erase g.idx).Pairwise _
        rw [hl1]
        have hnot : g.idx ∉ t.sys.cache.lru.erase g.idx := fun hmem =>
          ((List.Nodup.mem_erase_iff hinv.nodup).mp hmem).1 rfl
        refine List.pairwise_cons.mpr ⟨?_, ?_⟩
        · intro j hj _
          have hjg : j ≠ g.idx := fun e => hnot (e ▸ hj)
          rw [hr2 j, hr2 g.idx, if_neg hjg, if_pos rfl]
          have := ha.past j
          omega
        · refine ((hinv.nodup.and ha.order).sublist (List.erase_sublist _ _)).imp_of_mem ?_
          intro x y hx hy r h0
          have hxg : x ≠ g.idx := fun e => hnot (e ▸ hx)
          have hyg : y ≠ g.idx := fun e => hnot (e ▸ hy)
          rw [hr2 x, hr2 y, if_neg hxg, if_neg hyg]
          apply r.2
          have h1 : (c1.buf y).refcnt = 0 := h0
          rw [ho y hyg] at h1
          exact h1
      · rw [if_neg hz, hl1]
        refine ha.order.imp ?_
        intro x y r h0
        have hyg : y ≠ g.idx := by
          intro e
          rw [e] at h0
          exact hz h0
        rw [ho y hyg] at h0
        rw [hr2 x, hr2 y, if_neg hyg]
        by_cases hxg : x = g.idx
        · rw [if_pos hxg]
          have := ha.past y
          rcases r h0 with r1 | r1
          · exact Or.inl r1
          · right; have := ha.past x; omega
        · rw [if_neg hxg]
          exact r h0

theorem trun_aged : ∀ (evs : List Ev) (t t2 : Timed), Inv t.sys → Aged t →
    t.sys.held.length + evs.length < U32 → trun t evs = Except.ok t2 →
    Inv t2.sys ∧ Aged t2 := by
  intro evs
  induction evs with
  | nil =>
    intro t t2 hinv ha _ h
    simp only [trun, Except.ok.injEq] at h
    subst h
    exact ⟨hinv, ha⟩
  | cons e es ih =>
    intro t t2 hinv ha hlen h
    simp only [trun] at h
    obtain ⟨t1, hs, h⟩ := bind_eq_ok h
    simp only [List.length_cons] at hlen
    obtain ⟨i1, i2⟩ := step_inv hinv (by omega) (tstep_sys hs).1
    exact ih t1 t2 i1 (tstep_aged hinv ha (by omega) hs) (by omega) h

theorem tinit_aged (disk : Nat → Nat → Mem) (hd : Bool) : Aged (tinit disk hd) :=
  { past := fun _ => Nat.le_refl 0
    order := List.pairwise_of_forall (fun _ _ _ => Or.inl rfl) }

/-- The buffer that a miss recycles was never released, or was released before
every other buffer that could be recycled. -/
theorem aged_victim {t : Timed} (ha : Aged t) {dev blockno v : Nat} {c2 : BCache}
    (hmiss : ∀ j, j ∈ t.sys.cache.lru → names t.sys.cache dev blockno j = false)
    (hg : bget t.sys.cache dev blockno = Except.ok (v, c2)) (r : Nat)
    (hr : r ∈ t.sys.cache.lru) (hrv : r ≠ v) (h0 : (t.sys.cache.buf r).refcnt = 0)
    (hd : (t.sys.cache.buf r).flags &&& B_DIRTY = 0) :
    t.released v = 0 ∨ t.released v < t.released r := by
  have hf : t.sys.cache.lru.find? (names t.sys.cache dev blockno) = none :=
    List.find?_eq_none.mpr (fun x hx => by rw [hmiss x hx]; exact Bool.false_ne_true)
  unfold bget at hg
  rw [hf] at hg
  simp only at hg
  cases hv : t.sys.cache.lru.reverse.find? (reclaimable t.sys.cache) with
  | none => rw [hv] at hg; simp at hg
  | some w =>
    rw [hv] at hg
    simp only [Except.ok.injEq, Prod.mk.injEq] at hg
    obtain ⟨rfl, -⟩ := hg
    obtain ⟨h1, front, back, h2, h3⟩ := scan_last hv
    unfold reclaimable at h1
    simp only [decide_eq_true_eq] at h1
    have hord := ha.order
    rw [h2] at hord hr
    have hrf : r ∈ front := by
      rcases List.mem_append.mp hr with h | h
      · exact h
      · rcases List.mem_cons.mp h with h | h
        · exact absurd h hrv
        · have := h3 r h
          unfold reclaimable at this
          simp only [decide_eq_false_iff_not] at this
          exact absurd ⟨h0, hd⟩ this
    exact (List.pairwise_append.mp hord).2.2 r hrf w (List.mem_cons_self _ _) h1.1

/-! ## Write then read -/

/-- The flags, data and disk after `iderw`: a dirty buffer went to its sector,
a clean one was filled from it. -/
theorem iderw_data {c c2 : BCache} {i : Nat} (h : iderw c i = Except.ok c2) :
    ((c.buf i).flags &&& B_DIRTY ≠ 0 →
      (c2.buf i).data = (c.buf i).data ∧
      ∀ d k, c2.disk d k =
        if d = (c.buf i).dev % 2 ∧ k = (c.buf i).blockno then (c.buf i).data else c.disk d k) ∧
    ((c.buf i).flags &&& B_DIRTY = 0 →
      (c2.buf i).data = c.disk ((c.buf i).dev % 2) (c.buf i).blockno ∧ c2.disk = c.disk) := by
  unfold iderw at h
  simp only at h
  split_ifs at h with h1 h2 h3 h4 <;> simp only [Except.ok.injEq] at h <;> subst h
  · refine ⟨fun _ => ⟨?_, fun d k => rfl⟩, fun hz => absurd hz h4⟩
    show ((c.setBuf i _).buf i).data = _
    rw [setBuf_same]
  · refine ⟨fun hz => absurd (not_not.mp h4) hz, fun _ => ⟨?_, rfl⟩⟩
    show ((c.setBuf i _).buf i).data = _
    rw [setBuf_same]

theorem bget_flags {c c2 : BCache} {dev blockno i : Nat}
    (h : bget c dev blockno = Except.ok (i, c2)) :
    c2.disk = c.disk ∧ ((c2.buf i).flags = (c.buf i).flags ∨ (c2.buf i).flags = 0) ∧
      ((c2.buf i).flags &&& B_VALID ≠ 0 →
        c.lru.find? (names c dev blockno) = some i ∧ (c2.buf i).data = (c.buf i).data ∧
        (c2.buf i).flags = (c.buf i).flags) ∧
      ∀ j, j ≠ i → c2.buf j = c.buf j := by
  unfold bget at h
  cases hf : c.lru.find? (names c dev blockno) with
  | some a =>
    rw [hf] at h
    simp only [Except.ok.injEq, Prod.mk.injEq] at h
    obtain ⟨rfl, rfl⟩ := h
    refine ⟨rfl, Or.inl ?_, fun _ => ⟨rfl, ?_, ?_⟩, fun j hj => setBuf_other _ _ _ _ hj⟩
    · rw [setBuf_same]
    · rw [setBuf_same]
    · rw [setBuf_same]
  | none =>
    rw [hf] at h
    simp only at h
    cases hv : c.lru.reverse.find? (reclaimable c) with
    | none => rw [hv] at h; simp at h
    | some v =>
      rw [hv] at h
      simp only [Except.ok.injEq, Prod.mk.injEq] at h
      obtain ⟨rfl, rfl⟩ := h
      refine ⟨rfl, Or.inr ?_, fun hv => ?_, fun j hj => setBuf_other _ _ _ _ hj⟩
      · rw [setBuf_same]
      · rw [setBuf_same] at hv
        exact absurd (Nat.zero_and B_VALID) hv

/-- The data that a successful `bread` on a clean cache hands out: the sector
of the disk, or the data of a valid buffer that named the block already; the
disk is not written and the cache stays clean. -/
theorem bread_data {c c2 : BCache} {dev blockno i : Nat} (hcl : Clean c)
    (h : bread c dev blockno = Except.ok (i, c2)) :
    c2.disk = c.disk ∧ Clean c2 ∧
      ((c2.buf i).data = c.disk (dev % 2) blockno ∨
        ((c.buf i).dev = dev ∧ (c.buf i).blockno = blockno ∧
          (c.buf i).flags &&& B_VALID ≠ 0 ∧ (c2.buf i).data = (c.buf i).data)) := by
  obtain ⟨b1, b2, b3, b4, b5, b6, b7⟩ := bread_bufs h
  unfold bread at h
  obtain ⟨⟨i1, c1⟩, hg, h⟩ := bind_eq_ok h
  obtain ⟨g1, g2, g3, g4⟩ := bget_flags hg
  have hcl1 : Clean c1 := by
    intro j
    by_cases hj : j = i1
    · rw [hj]
      rcases g2 with e | e
      · rw [e]; exact hcl i1
      · rw [e]; rfl
    · rw [g4 j hj]; exact hcl j
  simp only at h
  split_ifs at h with hv
  · obtain ⟨c3, hi, h⟩ := bind_eq_ok h
    simp only [pure_eq_ok, Except.ok.injEq, Prod.mk.injEq] at h
    obtain ⟨rfl, rfl⟩ := h
    obtain ⟨-, d2⟩ := iderw_data hi
    obtain ⟨e1, e2⟩ := iderw_same hi
    obtain ⟨-, f2, f3⟩ := iderw_bufs hi
    obtain ⟨d3, d4⟩ := d2 (hcl1 i1)
    refine ⟨by rw [d4, g1], ?_, Or.inl ?_⟩
    · intro j
      by_cases hj : j = i1
      · rw [hj]; exact f2
      · rw [f3 j hj]; exact hcl1 j
    · rw [d3, g1, ← (e2 i1).1, ← (e2 i1).2.1, b4, b5]
  · simp only [pure_eq_ok, Except.ok.injEq, Prod.mk.injEq] at h
    obtain ⟨rfl, rfl⟩ := h
    obtain ⟨k1, k2, k3⟩ := g3 hv
    obtain ⟨-, hn⟩ := find_mem _ k1
    unfold names at hn
    simp only [decide_eq_true_eq] at hn
    exact ⟨g1, hcl1, Or.inr ⟨hn.1, hn.2, by rw [← k3]; exact hv, k2⟩⟩

theorem or_and_self (f m : Nat) : (f ||| m) &&& m = m := by
  apply Nat.eq_of_testBit_eq
  intro i
  simp only [Nat.testBit_and, Nat.testBit_or]
  cases f.testBit i <;> cases m.testBit i <;> rfl

/-- What `brelse` leaves alone. -/
theorem brelse_bufs (c : BCache) (i : Nat) :
    (brelse c i).disk = c.disk ∧ (∀ j, j ∈ (brelse c i).lru → j ∈ c.lru ∨ j = i) ∧
      ∀ j, ((brelse c i).buf j).flags = (c.buf j).flags ∧
        ((brelse c i).buf j).dev = (c.buf j).dev ∧
        ((brelse c i).buf j).blockno = (c.buf j).blockno ∧
        ((brelse c i).buf j).data = (c.buf j).data := by
  obtain ⟨c1, hc1⟩ : ∃ c1, c1 = c.setBuf i
      { c.buf i with refcnt := ((c.buf i).refcnt + U32 - 1) % U32 } := ⟨_, rfl⟩
  have hb : ∀ j, (c1.buf j).flags = (c.buf j).flags ∧ (c1.buf j).dev = (c.buf j).dev ∧
      (c1.buf j).blockno = (c.buf j).blockno ∧ (c1.buf j).data = (c.buf j).data := by
    intro j
    rw [hc1]
    by_cases hj : j = i
    · rw [hj, setBuf_same]
      exact ⟨rfl, rfl, rfl, rfl⟩
    · rw [setBuf_other _ _ _ _ hj]
      exact ⟨rfl, rfl, rfl, rfl⟩
  unfold brelse
  simp only
  rw [← hc1]
  split_ifs
  · refine ⟨by rw [hc1]; rfl, fun j hj => ?_, hb⟩
    rcases List.mem_cons.mp hj with h | h
    · exact Or.inr h
    · have := List.mem_of_mem_erase h
      rw [hc1] at this
      exact Or.inl this
  · refine ⟨by rw [hc1]; rfl, fun j hj => Or.inl ?_, hb⟩
    rw [hc1] at hj
    exact hj

/-- A step that does not panic leaves no buffer dirty. -/
theorem step_clean {s s2 : Sys} {e : Ev} (hcl : Clean s.cache) (h : step s e = Except.ok s2) :
    Clean s2.cache := by
  cases e with
  | bread dev blockno =>
    simp only [step] at h
    obtain ⟨⟨i, c⟩, hb, h⟩ := bind_eq_ok h
    simp only [pure_eq_ok, Except.ok.injEq] at h
    subst h
    exact (bread_data hcl hb).2.1
  | store g data =>
    simp only [step] at h
    split_ifs at h with hm
    simp only [Except.ok.injEq] at h
    subst h
    intro j
    show ((s.cache.setBuf g.idx _).buf j).flags &&& B_DIRTY = 0
    by_cases hj : j = g.idx
    · rw [hj, setBuf_same]; exact hcl g.idx
    · rw [setBuf_other _ _ _ _ hj]; exact hcl j
  | bwrite g =>
    simp only [step] at h
    split_ifs at h with hm
    obtain ⟨c, hw, h⟩ := bind_eq_ok h
    simp only [pure_eq_ok, Except.ok.injEq] at h
    subst h
    obtain ⟨-, f2, f3⟩ := iderw_bufs hw
    intro j
    show (c.buf j).flags &&& B_DIRTY = 0
    by_cases hj : j = g.idx
    · rw [hj]; exact f2
    · rw [f3 j hj, setBuf_other _ _ _ _ hj]; exact hcl j
  | brelse g =>
    simp only [step] at h
    split_ifs at h with hm
    simp only [Except.ok.injEq] at h
    subst h
    intro j
    show ((brelse s.cache g.idx).buf j).flags &&& B_DIRTY = 0
    rw [((brelse_bufs s.cache g.idx).2.2 j).1]
    exact hcl j

theorem run_clean : ∀ (evs : List Ev) (s s2 : Sys), Clean s.cache → run s evs = Except.ok s2 →
    Clean s2.cache := by
  intro evs
  induction evs with
  | nil =>
    intro s s2 hcl h
    simp only [run, Except.ok.injEq] at h
    subst h
    exact hcl
  | cons e es ih =>
    intro s s2 hcl h
    simp only [run] at h
    obtain ⟨s1, hs, h⟩ := bind_eq_ok h
    exact ih s1 s2 (step_clean hcl hs) h

theorem step_held_le {s s2 : Sys} {e : Ev} (h : step s e = Except.ok s2) :
    s2.held.length ≤ s.held.length + 1 := by
  cases e with
  | bread dev blockno =>
    simp only [step] at h
    obtain ⟨⟨i, c⟩, hb, h⟩ := bind_eq_ok h
    simp only [pure_eq_ok, Except.ok.injEq] at h
    subst h
    simp
  | store g data =>
    simp only [step] at h
    split_ifs at h with hm
    simp only [Except.ok.injEq] at h
    subst h
    simp
  | bwrite g =>
    simp only [step] at h
    split_ifs at h with hm
    obtain ⟨c, hw, h⟩ := bind_eq_ok h
    simp only [pure_eq_ok, Except.ok.injEq] at h
    subst h
    simp
  | brelse g =>
    simp only [step] at h
    split_ifs at h with hm
    simp only [Except.ok.injEq] at h
    subst h
    show (s.held.erase g).length ≤ _
    rw [List.length_erase_of_mem hm]
    omega

theorem run_held_le : ∀ (evs : List Ev) (s s2 : Sys), run s evs = Except.ok s2 →
    s2.held.length ≤ s.held.length + evs.length := by
  intro evs
  induction evs with
  | nil =>
    intro s s2 h
    simp only [run, Except.ok.injEq] at h
    subst h
    simp
  | cons e es ih =>
    intro s s2 h
    simp only [run] at h
    obtain ⟨s1, hs, h⟩ := bind_eq_ok h
    have h1 := step_held_le hs
    have h2 := ih s1 s2 h
    simp only [List.length_cons]
    omega

/-- A step that does not write the block and does not panic keeps what the
block reads as. -/
theorem step_reads {s s2 : Sys} {e : Ev} {dev k : Nat} {D : Mem} (hinv : Inv s)
    (hcl : Clean s.cache) (hr : ReadsAs s.cache dev k D) (hw : ¬ writesBlock dev k e)
    (h : step s e = Except.ok s2) : ReadsAs s2.cache dev k D := by
  cases e with
  | bread d1 k1 =>
    simp only [step] at h
    obtain ⟨⟨x, c⟩, hb, h⟩ := bind_eq_ok h
    simp only [pure_eq_ok, Except.ok.injEq] at h
    subst h
    obtain ⟨b1, b2, b3, b4, b5, b6, -⟩ := bread_bufs hb
    obtain ⟨d1e, -, d3⟩ := bread_data hcl hb
    refine { disk := ?_, bufs := ?_ }
    · show c.disk (dev % 2) k = D
      rw [d1e]; exact hr.disk
    · intro i hi hdev hbn hv
      have hi2 : i ∈ s.cache.lru := by rw [← b2]; exact hi
      have hdev2 : (c.buf i).dev = dev := hdev
      have hbn2 : (c.buf i).blockno = k := hbn
      have hv2 : (c.buf i).flags &&& B_VALID ≠ 0 := hv
      show (c.buf i).data = D
      by_cases hix : i = x
      · subst hix
        rw [b4] at hdev2
        rw [b5] at hbn2
        rcases d3 with e | ⟨e1, e2, e3, e4⟩
        · rw [e, hdev2, hbn2]; exact hr.disk
        · rw [e4]
          exact hr.bufs i hi2 (by rw [e1, hdev2]) (by rw [e2, hbn2]) e3
      · rw [b6 i hix] at hdev2 hbn2 hv2 ⊢
        exact hr.bufs i hi2 hdev2 hbn2 hv2
  | store g data =>
    simp only [step] at h
    split_ifs at h with hm
    simp only [Except.ok.injEq] at h
    subst h
    obtain ⟨-, n1, n2, -⟩ := inv_holders hinv g hm
    refine { disk := hr.disk, bufs := ?_ }
    intro i hi hdev hbn hv
    have hdev2 : ((s.cache.setBuf g.idx { s.cache.buf g.idx with data := data }).buf i).dev =
      dev := hdev
    have hbn2 : ((s.cache.setBuf g.idx { s.cache.buf g.idx with data := data }).buf i).blockno =
      k := hbn
    have hv2 : ((s.cache.setBuf g.idx { s.cache.buf g.idx with data := data }).buf i).flags &&&
      B_VALID ≠ 0 := hv
    show ((s.cache.setBuf g.idx { s.cache.buf g.idx with data := data }).buf i).data = D
    by_cases hig : i = g.idx
    · exfalso
      rw [hig, setBuf_same] at hdev2 hbn2
      apply hw
      show g.blockno = k ∧ g.dev % 2 = dev % 2
      have e1 : (s.cache.buf g.idx).dev = dev := hdev2
      have e2 : (s.cache.buf g.idx).blockno = k := hbn2
      rw [n1] at e1
      rw [n2] at e2
      exact ⟨e2, by rw [e1]⟩
    · rw [setBuf_other _ _ _ _ hig] at hdev2 hbn2 hv2 ⊢
      exact hr.bufs i hi hdev2 hbn2 hv2
  | bwrite g =>
    simp only [step] at h
    split_ifs at h with hm
    obtain ⟨c, hwr, h⟩ := bind_eq_ok h
    simp only [pure_eq_ok, Except.ok.injEq] at h
    subst h
    obtain ⟨-, n1, n2, -⟩ := inv_holders hinv g hm
    obtain ⟨e1, e2⟩ := iderw_same hwr
    obtain ⟨-, -, f3⟩ := iderw_bufs hwr
    obtain ⟨d1, -⟩ := iderw_data hwr
    have hnot : ¬ (g.blockno = k ∧ g.dev % 2 = dev % 2) := hw
    have hdirty : ((s.cache.setBuf g.idx { s.cache.buf g.idx with
        flags := (s.cache.buf g.idx).flags ||| B_DIRTY }).buf g.idx).flags &&& B_DIRTY ≠ 0 := by
      rw [setBuf_same]
      show ((s.cache.buf g.idx).flags ||| B_DIRTY) &&& B_DIRTY ≠ 0
      rw [or_and_self]
      decide
    obtain ⟨-, d3⟩ := d1 hdirty
    rw [setBuf_same] at d3
    refine { disk := ?_, bufs := ?_ }
    · show c.disk (dev % 2) k = D
      rw [d3, if_neg]
      · exact hr.disk
      · show ¬ (dev % 2 = (s.cache.buf g.idx).dev % 2 ∧ k = (s.cache.buf g.idx).blockno)
        rw [n1, n2]
        exact fun x => hnot ⟨x.2.symm, x.1.symm⟩
    · intro i hi hdev hbn hv
      have hi2 : i ∈ s.cache.lru := by
        have : i ∈ c.lru := hi
        rw [e1] at this
        exact this
      have hdev2 : (c.buf i).dev = dev := hdev
      have hbn2 : (c.buf i).blockno = k := hbn
      have hv2 : (c.buf i).flags &&& B_VALID ≠ 0 := hv
      show (c.buf i).data = D
      by_cases hig : i = g.idx
      · exfalso
        rw [hig, (e2 g.idx).1, setBuf_same] at hdev2
        rw [hig, (e2 g.idx).2.1, setBuf_same] at hbn2
        have k1 : (s.cache.buf g.idx).dev = dev := hdev2
        have k2 : (s.cache.buf g.idx).blockno = k := hbn2
        rw [n1] at k1
        rw [n2] at k2
        exact hnot ⟨k2, by rw [k1]⟩
      · rw [f3 i hig, setBuf_other _ _ _ _ hig] at hdev2 hbn2 hv2 ⊢
        exact hr.bufs i hi2 hdev2 hbn2 hv2
  | brelse g =>
    simp only [step] at h
    split_ifs at h with hm
    simp only [Except.ok.injEq] at h
    subst h
    obtain ⟨r1, r2, r3⟩ := brelse_bufs s.cache g.idx
    obtain ⟨hi1, -⟩ := hinv.holds g hm
    refine { disk := by show (brelse s.cache g.idx).disk (dev % 2) k = D; rw [r1]; exact hr.disk,
             bufs := ?_ }
    intro i hi hdev hbn hv
    have hi2 : i ∈ s.cache.lru := by
      rcases r2 i hi with h | h
      · exact h
      · rw [h]; exact hi1
    have hdev2 : ((brelse s.cache g.idx).buf i).dev = dev := hdev
    have hbn2 : ((brelse s.cache g.idx).buf i).blockno = k := hbn
    have hv2 : ((brelse s.cache g.idx).buf i).flags &&& B_VALID ≠ 0 := hv
    show ((brelse s.cache g.idx).buf i).data = D
    rw [(r3 i).2.1] at hdev2
    rw [(r3 i).2.2.1] at hbn2
    rw [(r3 i).1] at hv2
    rw [(r3 i).2.2.2]
    exact hr.bufs i hi2 hdev2 hbn2 hv2

theorem run_reads {dev k : Nat} {D : Mem} : ∀ (evs : List Ev) (s s2 : Sys), Inv s →
    Clean s.cache → ReadsAs s.cache dev k D → s.held.length + evs.length < U32 →
    (∀ e, e ∈ evs → ¬ writesBlock dev k e) → run s evs = Except.ok s2 →
    Clean s2.cache ∧ ReadsAs s2.cache dev k D := by
  intro evs
  induction evs with
  | nil =>
    intro s s2 _ hcl hr _ _ h
    simp only [run, Except.ok.injEq] at h
    subst h
    exact ⟨hcl, hr⟩
  | cons e es ih =>
    intro s s2 hinv hcl hr hlen hw h
    simp only [run] at h
    obtain ⟨s1, hs, h⟩ := bind_eq_ok h
    simp only [List.length_cons] at hlen
    obtain ⟨i1, i2⟩ := step_inv hinv (by omega) hs
    exact ih s1 s2 i1 (step_clean hcl hs)
      (step_reads hinv hcl hr (hw e (List.mem_cons_self _ _)) hs) (by omega)
      (fun x hx => hw x (List.mem_cons_of_mem _ hx)) h

/-- After the `bwrite` of a held buffer its block reads as the data of the
buffer. -/
theorem bwrite_reads {s s2 : Sys} {g : Hold} (hinv : Inv s) (hu : Uniq s) (hm : g ∈ s.held)
    (h : step s (Ev.bwrite g) = Except.ok s2) :
    ReadsAs s2.cache g.dev g.blockno (s.cache.buf g.idx).data := by
  simp only [step] at h
  rw [if_pos hm] at h
  obtain ⟨c, hwr, h⟩ := bind_eq_ok h
  simp only [pure_eq_ok, Except.ok.injEq] at h
  subst h
  obtain ⟨-, n1, n2, -⟩ := inv_holders hinv g hm
  obtain ⟨hi1, hi2⟩ := hu.held g hm
  obtain ⟨e1, e2⟩ := iderw_same hwr
  obtain ⟨-, -, f3⟩ := iderw_bufs hwr
  obtain ⟨d1, -⟩ := iderw_data hwr
  have hdirty : ((s.cache.setBuf g.idx { s.cache.buf g.idx with
      flags := (s.cache.buf g.idx).flags ||| B_DIRTY }).buf g.idx).flags &&& B_DIRTY ≠ 0 := by
    rw [setBuf_same]
    show ((s.cache.buf g.idx).flags ||| B_DIRTY) &&& B_DIRTY ≠ 0
    rw [or_and_self]
    decide
  obtain ⟨d2, d3⟩ := d1 hdirty
  rw [setBuf_same] at d2 d3
  refine { disk := ?_, bufs := ?_ }
  · show c.disk (g.dev % 2) g.blockno = _
    rw [d3, if_pos]
    show g.dev % 2 = (s.cache.buf g.idx).dev % 2 ∧ g.blockno = (s.cache.buf g.idx).blockno
    rw [n1, n2]
    exact ⟨rfl, rfl⟩
  · intro i hi hdev hbn hv
    have hi2' : i ∈ s.cache.lru := by
      have : i ∈ c.lru := hi
      rw [e1] at this
      exact this
    have hdev2 : (c.buf i).dev = g.dev := hdev
    have hbn2 : (c.buf i).blockno = g.blockno := hbn
    have hv2 : (c.buf i).flags &&& B_VALID ≠ 0 := hv
    show (c.buf i).data = _
    by_cases hig : i = g.idx
    · rw [hig]; exact d2
    · exfalso
      rw [f3 i hig, setBuf_other _ _ _ _ hig] at hdev2 hbn2 hv2
      have hlt : ∀ j, j ∈ s.cache.lru → j < NBUF := fun j hj =>
        List.mem_range.mp (hu.perm.subset hj)
      obtain ⟨-, u⟩ := uniq_two hu i g.idx (hlt i hi2') (hlt _ hi1) hig
        ⟨by rw [hdev2, n1], by rw [hbn2, n2]⟩
      rcases u with u | u
      · rw [u.1] at hv2
        exact hv2 (Nat.zero_and _)
      · rw [u.1] at hi2
        exact hi2 (Nat.zero_and _)

end Bio

namespace Cached

/-! ## The buffer cache under `fs.c` -/

theorem flags_pin_valid (f : Nat) (h : f &&& Bio.B_VALID ≠ 0) :
    (f ||| Bio.B_DIRTY) &&& Bio.B_VALID ≠ 0 := by
  have e : (f ||| Bio.B_DIRTY) &&& Bio.B_VALID = f &&& Bio.B_VALID := by
    apply Nat.eq_of_testBit_eq
    intro i
    simp only [Nat.testBit_and, Nat.testBit_or]
    by_cases hi : i = 1
    · subst hi
      have : Bio.B_DIRTY.testBit 1 = false := by decide
      rw [this, Bool.or_false]
    · have : Bio.B_VALID.testBit i = false := by
        show (2 : Nat).testBit i = false
        have h2 : (2 : Nat) = 2 ^ 1 := rfl
        rw [h2, Nat.testBit_two_pow]
        exact decide_eq_false (fun e => hi e.symm)
      rw [this, Bool.and_false, Bool.and_false]
  rw [e]
  exact h

theorem flags_pin_dirty (f : Nat) : (f ||| Bio.B_DIRTY) &&& Bio.B_DIRTY ≠ 0 := by
  rw [Bio.or_and_self]
  decide

/-- The three ways a `bread` returns: the block is cached and valid; it is
cached and not valid, and the driver loads it; it is not cached, the last
buffer of the list that can be recycled is taken and the driver loads it. -/
theorem bread_cases {c c1 : Bio.BCache} {dev b i : Nat}
    (h : Bio.bread c dev b = Except.ok (i, c1)) :
    (c.lru.find? (Bio.names c dev b) = some i ∧ (c.buf i).flags &&& Bio.B_VALID ≠ 0 ∧
      c1 = c.setBuf i { c.buf i with refcnt := ((c.buf i).refcnt + 1) % U32 }) ∨
    (c.lru.find? (Bio.names c dev b) = some i ∧ (c.buf i).flags &&& Bio.B_VALID = 0 ∧
      Bio.iderw (c.setBuf i { c.buf i with refcnt := ((c.buf i).refcnt + 1) % U32 }) i =
        Except.ok c1) ∨
    (c.lru.find? (Bio.names c dev b) = none ∧
      c.lru.reverse.find? (Bio.reclaimable c) = some i ∧
      Bio.iderw (c.setBuf i
        { c.buf i with dev := dev, blockno := b, flags := 0, refcnt := 1 }) i = Except.ok c1) := by
  unfold Bio.bread at h
  obtain ⟨⟨i1, c0⟩, hg, h⟩ := bind_eq_ok h
  unfold Bio.bget at hg
  cases hf : c.lru.find? (Bio.names c dev b) with
  | some a =>
    rw [hf] at hg
    simp only [Except.ok.injEq, Prod.mk.injEq] at hg
    obtain ⟨rfl, rfl⟩ := hg
    simp only at h
    split_ifs at h with hv
    · obtain ⟨c3, hi, h⟩ := bind_eq_ok h
      simp only [pure_eq_ok, Except.ok.injEq, Prod.mk.injEq] at h
      obtain ⟨rfl, rfl⟩ := h
      rw [Bio.setBuf_same] at hv
      exact Or.inr (Or.inl ⟨rfl, hv, hi⟩)
    · simp only [pure_eq_ok, Except.ok.injEq, Prod.mk.injEq] at h
      obtain ⟨rfl, rfl⟩ := h
      rw [Bio.setBuf_same] at hv
      exact Or.inl ⟨rfl, hv, rfl⟩
  | none =>
    rw [hf] at hg
    simp only at hg
    cases hv : c.lru.reverse.find? (Bio.reclaimable c) with
    | none => rw [hv] at hg; simp at hg
    | some v =>
      rw [hv] at hg
      simp only [Except.ok.injEq, Prod.mk.injEq] at hg
      obtain ⟨rfl, rfl⟩ := hg
      simp only at h
      split_ifs at h with hz
      · obtain ⟨c3, hi, h⟩ := bind_eq_ok h
        simp only [pure_eq_ok, Except.ok.injEq, Prod.mk.injEq] at h
        obtain ⟨rfl, rfl⟩ := h
        exact Or.inr (Or.inr ⟨rfl, rfl, hi⟩)
      · exfalso
        apply hz
        rw [Bio.setBuf_same]
        exact Nat.zero_and _

/-- The ways a `bread` panics: `bget` finds the block in no buffer and no
buffer to recycle, or the driver refuses the block. -/
theorem bread_panics {c : Bio.BCache} {dev b : Nat} {e : Panic}
    (hdirty : ∀ i, i ∈ c.lru → (c.buf i).flags &&& Bio.B_DIRTY ≠ 0 →
      (c.buf i).flags &&& Bio.B_VALID ≠ 0)
    (h : Bio.bread c dev b = Except.error e) :
    (e = Panic.bgetNoBuffers ∧ c.lru.find? (Bio.names c dev b) = none ∧
      ∀ k, k ∈ c.lru → Bio.reclaimable c k = false) ∨
    (e ≠ Panic.bgetNoBuffers ∧
      ∀ st : FS, st.havedisk1 = c.havedisk1 → OSCD.bread st dev b = Except.error e) := by
  have hide : ∀ (c0 : Bio.BCache) (i : Nat), c0.havedisk1 = c.havedisk1 →
      (c0.buf i).dev = dev → (c0.buf i).blockno = b → (c0.buf i).flags &&& Bio.B_VALID = 0 →
      (c0.buf i).flags &&& Bio.B_DIRTY = 0 →
      Bio.iderw c0 i = Except.error e →
      e ≠ Panic.bgetNoBuffers ∧
        ∀ st : FS, st.havedisk1 = c.havedisk1 → OSCD.bread st dev b = Except.error e := by
    intro c0 i h0 hdev hbn hval hcl hi
    unfold Bio.iderw at hi
    simp only at hi
    have hnot : ¬ ((c0.buf i).flags &&& (Bio.B_VALID ||| Bio.B_DIRTY) = Bio.B_VALID) := by
      intro hx
      have e1 : (c0.buf i).flags &&& (Bio.B_VALID ||| Bio.B_DIRTY) = 0 := by
        apply Nat.eq_of_testBit_eq
        intro j
        have a1 := congrArg (fun n => Nat.testBit n j) hval
        have a2 := congrArg (fun n => Nat.testBit n j) hcl
        simp only [Nat.testBit_and, Nat.testBit_or, Nat.zero_testBit] at a1 a2 ⊢
        cases hfj : (c0.buf i).flags.testBit j
        · rfl
        · rw [hfj] at a1 a2
          simp only [Bool.true_and] at a1 a2 ⊢
          rw [a1, a2]
          rfl
      rw [e1] at hx
      exact absurd hx (by decide)
    rw [if_neg hnot, hdev, hbn, h0] at hi
    by_cases h1 : dev ≠ 0 ∧ c.havedisk1 = false
    · rw [if_pos h1] at hi
      simp only [Except.error.injEq] at hi
      subst hi
      refine ⟨by decide, fun st hst => ?_⟩
      unfold OSCD.bread
      rw [hst, if_pos h1]
    · rw [if_neg h1] at hi
      by_cases h2 : FSSIZE ≤ b
      · rw [if_pos h2] at hi
        simp only [Except.error.injEq] at hi
        subst hi
        refine ⟨by decide, fun st hst => ?_⟩
        unfold OSCD.bread
        rw [hst, if_neg h1, if_pos h2]
      · rw [if_neg h2] at hi
        split_ifs at hi
  unfold Bio.bread at h
  unfold Bio.bget at h
  cases hf : c.lru.find? (Bio.names c dev b) with
  | some a =>
    rw [hf] at h
    simp only [bind_ok_eq] at h
    obtain ⟨ha1, ha2⟩ := Bio.find_mem _ hf
    unfold Bio.names at ha2
    simp only [decide_eq_true_eq] at ha2
    split_ifs at h with hv
    · rw [Bio.setBuf_same] at hv
      have hv0 : (c.buf a).flags &&& Bio.B_VALID = 0 := hv
      have hcl : (c.buf a).flags &&& Bio.B_DIRTY = 0 := by
        by_contra hd
        exact hdirty a ha1 hd hv0
      refine Or.inr (hide (c.setBuf a
        { c.buf a with refcnt := ((c.buf a).refcnt + 1) % U32 }) a rfl ?_ ?_ ?_ ?_ ?_)
      · rw [Bio.setBuf_same]; exact ha2.1
      · rw [Bio.setBuf_same]; exact ha2.2
      · rw [Bio.setBuf_same]; exact hv0
      · rw [Bio.setBuf_same]; exact hcl
      · cases hi : Bio.iderw (c.setBuf a
            { c.buf a with refcnt := ((c.buf a).refcnt + 1) % U32 }) a with
        | error e2 =>
          rw [hi] at h
          simp only [bind_error_eq, Except.error.injEq] at h
          rw [h]
        | ok c3 =>
          rw [hi] at h
          simp at h
    · simp at h
  | none =>
    rw [hf] at h
    simp only at h
    cases hv : c.lru.reverse.find? (Bio.reclaimable c) with
    | none =>
      rw [hv] at h
      simp only [bind_error_eq, Except.error.injEq] at h
      refine Or.inl ⟨h.symm, rfl, fun k hk => ?_⟩
      exact Bio.find_none _ hv k (List.mem_reverse.mpr hk)
    | some v =>
      rw [hv] at h
      simp only [bind_ok_eq] at h
      split_ifs at h with hz
      · refine Or.inr (hide (c.setBuf v
          { c.buf v with dev := dev, blockno := b, flags := 0, refcnt := 1 }) v rfl ?_ ?_ ?_ ?_ ?_)
        · rw [Bio.setBuf_same]
        · rw [Bio.setBuf_same]
        · rw [Bio.setBuf_same]; exact Nat.zero_and _
        · rw [Bio.setBuf_same]; exact Nat.zero_and _
        · cases hi : Bio.iderw (c.setBuf v
              { c.buf v with dev := dev, blockno := b, flags := 0, refcnt := 1 }) v with
          | error e2 =>
            rw [hi] at h
            simp only [bind_error_eq, Except.error.injEq] at h
            rw [h]
          | ok c3 =>
            rw [hi] at h
            simp at h
      · simp at h

theorem find_first {c : Bio.BCache} {dev b k : Nat} : ∀ (l : List Nat),
    l.Pairwise (fun i j => Bio.sameBlock c i j → (c.buf j).flags &&& Bio.B_VALID = 0) →
    k ∈ l → (c.buf k).dev = dev → (c.buf k).blockno = b →
    (c.buf k).flags &&& Bio.B_VALID ≠ 0 → l.find? (Bio.names c dev b) = some k := by
  intro l
  induction l with
  | nil => intro _ hk; exact absurd hk (List.not_mem_nil _)
  | cons a t ih =>
    intro hp hk hd hb hv
    obtain ⟨hpa, hpt⟩ := List.pairwise_cons.mp hp
    rw [List.find?_cons]
    by_cases hak : a = k
    · subst hak
      have : Bio.names c dev b a = true := by
        unfold Bio.names
        exact decide_eq_true ⟨hd, hb⟩
      rw [this]
    · have hkt : k ∈ t := by
        rcases List.mem_cons.mp hk with h | h
        · exact absurd h.symm hak
        · exact h
      have : Bio.names c dev b a = false := by
        unfold Bio.names
        apply decide_eq_false
        rintro ⟨h1, h2⟩
        exact hv (hpa k hkt ⟨by rw [h1, hd], by rw [h2, hb]⟩)
      rw [this]
      exact ih hpt hkt hd hb hv

/-- The image of a block that a valid buffer of the list names is the data of
that buffer. -/
theorem image_valid {s : Bio.Sys} (hu : Bio.Uniq s) {dev b k : Nat} (hk : k ∈ s.cache.lru)
    (hd : (s.cache.buf k).dev = dev) (hb : (s.cache.buf k).blockno = b)
    (hv : (s.cache.buf k).flags &&& Bio.B_VALID ≠ 0) :
    image s.cache dev b = (s.cache.buf k).data := by
  unfold image
  rw [find_first _ hu.order hk hd hb hv]
  simp only
  rw [if_neg hv]

/-- The image of a block that no valid buffer of the list names is the sector
of the disk. -/
theorem image_disk {c : Bio.BCache} {dev b : Nat}
    (h : ∀ k, k ∈ c.lru → (c.buf k).dev = dev → (c.buf k).blockno = b →
      (c.buf k).flags &&& Bio.B_VALID = 0) :
    image c dev b = c.disk (dev % 2) b := by
  unfold image
  cases hf : c.lru.find? (Bio.names c dev b) with
  | none => rfl
  | some i =>
    obtain ⟨h1, h2⟩ := Bio.find_mem _ hf
    unfold Bio.names at h2
    simp only [decide_eq_true_eq] at h2
    simp only
    rw [if_pos (h i h1 h2.1 h2.2)]

/-- Two caches in which the same valid buffers name the block, with the same
data, and which have the same disk, give the same image of the block. -/
theorem image_congr {s s2 : Bio.Sys} (hu : Bio.Uniq s) (hu2 : Bio.Uniq s2) {dev b : Nat}
    (hdisk : s2.cache.disk = s.cache.disk)
    (h12 : ∀ k, k ∈ s.cache.lru → (s.cache.buf k).dev = dev → (s.cache.buf k).blockno = b →
      (s.cache.buf k).flags &&& Bio.B_VALID ≠ 0 →
      k ∈ s2.cache.lru ∧ (s2.cache.buf k).dev = dev ∧ (s2.cache.buf k).blockno = b ∧
        (s2.cache.buf k).flags &&& Bio.B_VALID ≠ 0 ∧ (s2.cache.buf k).data = (s.cache.buf k).data)
    (h21 : ∀ k, k ∈ s2.cache.lru → (s2.cache.buf k).dev = dev → (s2.cache.buf k).blockno = b →
      (s2.cache.buf k).flags &&& Bio.B_VALID ≠ 0 →
      k ∈ s.cache.lru ∧ (s.cache.buf k).dev = dev ∧ (s.cache.buf k).blockno = b ∧
        (s.cache.buf k).flags &&& Bio.B_VALID ≠ 0) :
    image s2.cache dev b = image s.cache dev b := by
  by_cases hex : ∃ k, k ∈ s.cache.lru ∧ (s.cache.buf k).dev = dev ∧
      (s.cache.buf k).blockno = b ∧ (s.cache.buf k).flags &&& Bio.B_VALID ≠ 0
  · obtain ⟨k, k1, k2, k3, k4⟩ := hex
    obtain ⟨m1, m2, m3, m4, m5⟩ := h12 k k1 k2 k3 k4
    rw [image_valid hu k1 k2 k3 k4, image_valid hu2 m1 m2 m3 m4, m5]
  · have n1 : ∀ k, k ∈ s.cache.lru → (s.cache.buf k).dev = dev → (s.cache.buf k).blockno = b →
        (s.cache.buf k).flags &&& Bio.B_VALID = 0 := by
      intro k k1 k2 k3
      by_contra k4
      exact hex ⟨k, k1, k2, k3, k4⟩
    have n2 : ∀ k, k ∈ s2.cache.lru → (s2.cache.buf k).dev = dev →
        (s2.cache.buf k).blockno = b → (s2.cache.buf k).flags &&& Bio.B_VALID = 0 := by
      intro k k1 k2 k3
      by_contra k4
      obtain ⟨m1, m2, m3, m4⟩ := h21 k k1 k2 k3 k4
      exact hex ⟨k, m1, m2, m3, m4⟩
    rw [image_disk n1, image_disk n2, hdisk]

theorem brelse_other (c : Bio.BCache) {i j : Nat} (h : j ≠ i) :
    (Bio.brelse c i).buf j = c.buf j := by
  unfold Bio.brelse
  simp only
  split_ifs
  · show (c.setBuf i _).buf j = _
    rw [Bio.setBuf_other _ _ _ _ h]
  · rw [Bio.setBuf_other _ _ _ _ h]

theorem brelse_refcnt (c : Bio.BCache) (i : Nat) :
    ((Bio.brelse c i).buf i).refcnt = ((c.buf i).refcnt + U32 - 1) % U32 := by
  unfold Bio.brelse
  simp only
  split_ifs
  · show ((c.setBuf i _).buf i).refcnt = _
    rw [Bio.setBuf_same]
  · rw [Bio.setBuf_same]

theorem brelse_hd (c : Bio.BCache) (i : Nat) : (Bio.brelse c i).havedisk1 = c.havedisk1 := by
  unfold Bio.brelse
  simp only
  split_ifs <;> rfl

theorem brelse_mem (c : Bio.BCache) {i : Nat} (hi : i ∈ c.lru) (j : Nat) :
    j ∈ (Bio.brelse c i).lru ↔ j ∈ c.lru := by
  unfold Bio.brelse
  simp only
  split_ifs
  · show j ∈ i :: (c.setBuf i _).lru.erase i ↔ _
    rw [Bio.setBuf_lru]
    exact (List.perm_cons_erase hi).mem_iff.symm
  · rw [Bio.setBuf_lru]

/-- A load by the driver: the buffer, not dirty, receives the sector; the
driver took the request, so the block is on a disk that is there. -/
theorem iderw_load {c0 c1 : Bio.BCache} {i : Nat} (h : Bio.iderw c0 i = Except.ok c1)
    (hcl : (c0.buf i).flags &&& Bio.B_DIRTY = 0) :
    c1.havedisk1 = c0.havedisk1 ∧ c1.disk = c0.disk ∧ c1.lru = c0.lru ∧
      (c1.buf i).data = c0.disk ((c0.buf i).dev % 2) (c0.buf i).blockno ∧
      (c1.buf i).dev = (c0.buf i).dev ∧ (c1.buf i).blockno = (c0.buf i).blockno ∧
      (c1.buf i).refcnt = (c0.buf i).refcnt ∧
      (c1.buf i).flags &&& Bio.B_VALID ≠ 0 ∧ (c1.buf i).flags &&& Bio.B_DIRTY = 0 ∧
      (∀ j, j ≠ i → c1.buf j = c0.buf j) ∧
      Bio.onDisk c0.havedisk1 ((c0.buf i).dev, (c0.buf i).blockno) := by
  obtain ⟨a1, a2⟩ := Bio.iderw_same h
  obtain ⟨b1, b2, b3⟩ := Bio.iderw_bufs h
  obtain ⟨d1, d2⟩ := (Bio.iderw_data h).2 hcl
  refine ⟨?_, d2, a1, d1, (a2 i).1, (a2 i).2.1, (a2 i).2.2, b1, b2, b3, ?_⟩
  · unfold Bio.iderw at h
    simp only at h
    split_ifs at h <;> simp only [Except.ok.injEq] at h <;> subst h <;> rfl
  · unfold Bio.iderw at h
    simp only at h
    unfold Bio.onDisk
    split_ifs at h with h1 h2 h3 h4
    · exact absurd hcl h4
    · refine ⟨Nat.lt_of_not_le h3, ?_⟩
      by_cases hd : (c0.buf i).dev = 0
      · exact Or.inl hd
      · right
        cases hh : c0.havedisk1 with
        | true => rfl
        | false => exact absurd ⟨hd, hh⟩ h2

/-- Under the invariant a block is named by one valid buffer at most. -/
theorem valid_unique {s : Bio.Sys} (hu : Bio.Uniq s) {i j : Nat} (hi : i ∈ s.cache.lru)
    (hj : j ∈ s.cache.lru) (hs : Bio.sameBlock s.cache i j)
    (vi : (s.cache.buf i).flags &&& Bio.B_VALID ≠ 0)
    (vj : (s.cache.buf j).flags &&& Bio.B_VALID ≠ 0) : i = j := by
  by_contra hne
  have hp : s.cache.lru.Pairwise (fun x y =>
      (Bio.sameBlock s.cache x y → (s.cache.buf y).flags &&& Bio.B_VALID = 0) ∨
      (Bio.sameBlock s.cache y x → (s.cache.buf x).flags &&& Bio.B_VALID = 0)) :=
    hu.order.imp (fun r => Or.inl r)
  rcases hp.forall (fun a b r => r.symm) hi hj hne with r | r
  · exact vj (r hs)
  · exact vi (r ⟨hs.1.symm, hs.2.symm⟩)

/-- What a `bread` that returns does to a cache in good order: the caller holds
a valid buffer that names the block and carries the image of the block; no
image changes; the driver knows the block. -/
theorem bread_kept {c c1 : Bio.BCache} {dev b i : Nat} (hs : Sound c)
    (h : Bio.bread c dev b = Except.ok (i, c1)) :
    Kept { cache := c1, held := [{ dev := dev, blockno := b, idx := i }] } ∧
      image c1 = image c ∧ (c1.buf i).data = image c dev b ∧
      i ∈ c.lru ∧ c1.lru = c.lru ∧ c1.havedisk1 = c.havedisk1 ∧
      (∀ j, j ≠ i → c1.buf j = c.buf j) ∧
      (c1.buf i).dev = dev ∧ (c1.buf i).blockno = b ∧
      Bio.onDisk c.havedisk1 (dev, b) ∧
      (Bio.reclaimable c i = true →
        (c1.buf i).refcnt = 1 ∧ (c1.buf i).flags &&& Bio.B_DIRTY = 0) := by
  have hu1 := Bio.bread_uniq (s := { cache := c, held := [] }) hs.uniq h
  obtain ⟨b1, b2, b3, b4, b5, b6, -⟩ := Bio.bread_bufs h
  -- the facts that depend on the way the buffer was found
  have hway : c1.disk = c.disk ∧ c1.havedisk1 = c.havedisk1 ∧
      (c1.buf i).data = image c dev b ∧ Bio.onDisk c.havedisk1 (dev, b) ∧
      ((c1.buf i).flags &&& Bio.B_DIRTY = 0 →
        (c1.buf i).data = c1.disk ((c1.buf i).dev % 2) (c1.buf i).blockno) ∧
      (((c.buf i).dev = dev ∧ (c.buf i).blockno = b) ∨ Bio.reclaimable c i = true) ∧
      (Bio.reclaimable c i = true →
        (c1.buf i).refcnt = 1 ∧ (c1.buf i).flags &&& Bio.B_DIRTY = 0) := by
    rcases bread_cases h with ⟨hf, hv, rfl⟩ | ⟨hf, hv, hi⟩ | ⟨hf, hr, hi⟩
    · obtain ⟨m1, m2⟩ := Bio.find_mem _ hf
      unfold Bio.names at m2
      simp only [decide_eq_true_eq] at m2
      have hdat : ((c.setBuf i { c.buf i with
          refcnt := ((c.buf i).refcnt + 1) % U32 }).buf i).data = (c.buf i).data := by
        rw [Bio.setBuf_same]
      refine ⟨rfl, rfl, ?_, ?_, ?_, Or.inl m2, ?_⟩
      · rw [hdat]
        exact (image_valid (s := { cache := c, held := [] }) hs.uniq m1 m2.1 m2.2 hv).symm
      · have := hs.ondisk i m1 hv
        rw [m2.1, m2.2] at this
        exact this
      · intro hcl
        rw [Bio.setBuf_same] at hcl ⊢
        exact hs.clean i m1 hv hcl
      · intro hr
        unfold Bio.reclaimable at hr
        simp only [decide_eq_true_eq] at hr
        rw [Bio.setBuf_same]
        refine ⟨?_, hr.2⟩
        show ((c.buf i).refcnt + 1) % U32 = 1
        rw [hr.1]
        rfl
    · obtain ⟨m1, m2⟩ := Bio.find_mem _ hf
      unfold Bio.names at m2
      simp only [decide_eq_true_eq] at m2
      have hcl : (c.buf i).flags &&& Bio.B_DIRTY = 0 := by
        by_contra hd
        exact hs.dirty i m1 hd hv
      have hcl0 : ((c.setBuf i { c.buf i with
          refcnt := ((c.buf i).refcnt + 1) % U32 }).buf i).flags &&& Bio.B_DIRTY = 0 := by
        rw [Bio.setBuf_same]; exact hcl
      obtain ⟨l1, l2, -, l4, l5, l6, l7, -, l9, -, l11⟩ := iderw_load hi hcl0
      rw [Bio.setBuf_same] at l4 l5 l6 l7 l11
      simp only at l4 l5 l6 l7 l11
      have l2c : c1.disk = c.disk := l2
      have l4c : (c1.buf i).data = c.disk ((c.buf i).dev % 2) (c.buf i).blockno := l4
      have l11c : Bio.onDisk c.havedisk1 ((c.buf i).dev, (c.buf i).blockno) := l11
      have himg : image c dev b = c.disk (dev % 2) b := by
        unfold image
        rw [hf]
        simp only
        rw [if_pos hv]
      refine ⟨l2c, l1, ?_, ?_, ?_, Or.inl m2, ?_⟩
      · rw [l4c, himg, m2.1, m2.2]
      · rw [m2.1, m2.2] at l11c
        exact l11c
      · intro _
        rw [l4c, l5, l6, l2c]
      · intro hr
        unfold Bio.reclaimable at hr
        simp only [decide_eq_true_eq] at hr
        refine ⟨?_, l9⟩
        rw [l7, hr.1]
        rfl
    · obtain ⟨m1, m2⟩ := Bio.find_mem _ hr
      have hcl0 : ((c.setBuf i { c.buf i with
          dev := dev, blockno := b, flags := 0, refcnt := 1 }).buf i).flags &&& Bio.B_DIRTY = 0 := by
        rw [Bio.setBuf_same]; exact Nat.zero_and _
      obtain ⟨l1, l2, -, l4, l5, l6, l7, -, l9, -, l11⟩ := iderw_load hi hcl0
      rw [Bio.setBuf_same] at l4 l5 l6 l7 l11
      simp only at l4 l5 l6 l7 l11
      have l2c : c1.disk = c.disk := l2
      have l4c : (c1.buf i).data = c.disk (dev % 2) b := l4
      have l11c : Bio.onDisk c.havedisk1 (dev, b) := l11
      have himg : image c dev b = c.disk (dev % 2) b := by
        unfold image
        rw [hf]
      refine ⟨l2c, l1, ?_, l11c, ?_, Or.inr m2, fun _ => ⟨l7, l9⟩⟩
      · rw [l4c, himg]
      · intro _
        rw [l4c, l5, l6, l2c]
  obtain ⟨w1, w2, w3, w4, w5, w6, w7⟩ := hway
  have hkept : Kept { cache := c1, held := [{ dev := dev, blockno := b, idx := i }] } := by
    refine { uniq := hu1, clean := ?_, dirty := ?_, ondisk := ?_ }
    · intro j hj hv hcl
      show (c1.buf j).data = c1.disk ((c1.buf j).dev % 2) (c1.buf j).blockno
      by_cases hji : j = i
      · subst hji
        exact w5 hcl
      · have hj2 : j ∈ c.lru := by rw [← b2]; exact hj
        have e := b6 j hji
        change (c1.buf j).flags &&& Bio.B_VALID ≠ 0 at hv
        change (c1.buf j).flags &&& Bio.B_DIRTY = 0 at hcl
        rw [e] at hv hcl ⊢
        rw [w1]
        exact hs.clean j hj2 hv hcl
    · intro j hj hd
      change (c1.buf j).flags &&& Bio.B_DIRTY ≠ 0 at hd
      show (c1.buf j).flags &&& Bio.B_VALID ≠ 0
      by_cases hji : j = i
      · subst hji
        exact b3
      · have hj2 : j ∈ c.lru := by rw [← b2]; exact hj
        rw [b6 j hji] at hd ⊢
        exact hs.dirty j hj2 hd
    · intro j hj hv
      change (c1.buf j).flags &&& Bio.B_VALID ≠ 0 at hv
      show Bio.onDisk c1.havedisk1 ((c1.buf j).dev, (c1.buf j).blockno)
      rw [w2]
      by_cases hji : j = i
      · subst hji
        rw [b4, b5]
        exact w4
      · have hj2 : j ∈ c.lru := by rw [← b2]; exact hj
        rw [b6 j hji] at hv ⊢
        exact hs.ondisk j hj2 hv
  have himage : image c1 = image c := by
    funext d k
    by_cases hblk : d = dev ∧ k = b
    · obtain ⟨rfl, rfl⟩ := hblk
      rw [image_valid hu1 (show i ∈ c1.lru by rw [b2]; exact b1) b4 b5 b3]
      exact w3
    · by_cases hold : (c.buf i).dev = d ∧ (c.buf i).blockno = k ∧
          (c.buf i).flags &&& Bio.B_VALID ≠ 0
      · obtain ⟨o1, o2, o3⟩ := hold
        have hrec : Bio.reclaimable c i = true := by
          rcases w6 with hn | hr
          · exact absurd ⟨by rw [← o1, hn.1], by rw [← o2, hn.2]⟩ hblk
          · exact hr
        unfold Bio.reclaimable at hrec
        simp only [decide_eq_true_eq] at hrec
        have e1 : image c d k = c.disk (d % 2) k := by
          rw [image_valid (s := { cache := c, held := [] }) hs.uniq b1 o1 o2 o3,
            hs.clean i b1 o3 hrec.2, o1, o2]
        have e2 : image c1 d k = c1.disk (d % 2) k := by
          apply image_disk
          intro j hj j1 j2
          by_contra jv
          by_cases hji : j = i
          · subst hji
            exact hblk ⟨by rw [← j1, b4], by rw [← j2, b5]⟩
          · have hj2 : j ∈ c.lru := by rw [← b2]; exact hj
            rw [b6 j hji] at j1 j2 jv
            exact hji (valid_unique (s := { cache := c, held := [] }) hs.uniq hj2 b1
              ⟨by rw [j1, o1], by rw [j2, o2]⟩ jv o3)
        rw [e1, e2, w1]
      · refine image_congr (s := { cache := c, held := [] }) hs.uniq hu1 w1 ?_ ?_
        · intro j hj j1 j2 jv
          have hji : j ≠ i := by
            rintro rfl
            exact hold ⟨j1, j2, jv⟩
          have e := b6 j hji
          refine ⟨by show j ∈ c1.lru; rw [b2]; exact hj, ?_, ?_, ?_, ?_⟩
          · show (c1.buf j).dev = d
            rw [e]; exact j1
          · show (c1.buf j).blockno = k
            rw [e]; exact j2
          · show (c1.buf j).flags &&& Bio.B_VALID ≠ 0
            rw [e]; exact jv
          · show (c1.buf j).data = (c.buf j).data
            rw [e]
        · intro j hj j1 j2 jv
          change (c1.buf j).dev = d at j1
          change (c1.buf j).blockno = k at j2
          change (c1.buf j).flags &&& Bio.B_VALID ≠ 0 at jv
          have hji : j ≠ i := by
            rintro rfl
            exact hblk ⟨by rw [← j1, b4], by rw [← j2, b5]⟩
          rw [b6 j hji] at j1 j2 jv
          exact ⟨by show j ∈ c.lru; rw [← b2]; exact hj, j1, j2, jv⟩
  exact ⟨hkept, himage, w3, b1, b2, w2, b6, b4, b5, w4, w7⟩

theorem put_buf (c : Bio.BCache) (i : Nat) (d : Mem) :
    ((log_write (store c i d) i).buf i).flags = (c.buf i).flags ||| Bio.B_DIRTY ∧
    ((log_write (store c i d) i).buf i).dev = (c.buf i).dev ∧
    ((log_write (store c i d) i).buf i).blockno = (c.buf i).blockno ∧
    ((log_write (store c i d) i).buf i).refcnt = (c.buf i).refcnt ∧
    ((log_write (store c i d) i).buf i).data = d ∧
    (∀ j, j ≠ i → (log_write (store c i d) i).buf j = c.buf j) ∧
    (log_write (store c i d) i).lru = c.lru ∧
    (log_write (store c i d) i).disk = c.disk ∧
    (log_write (store c i d) i).havedisk1 = c.havedisk1 := by
  unfold log_write store
  rw [Bio.setBuf_same, Bio.setBuf_same]
  refine ⟨rfl, rfl, rfl, rfl, rfl, fun j hj => ?_, rfl, rfl, rfl⟩
  rw [Bio.setBuf_other _ _ _ _ hj, Bio.setBuf_other _ _ _ _ hj]

/-- A store into the buffer the caller holds, followed by `log_write`: the
buffer carries the new contents, which become the image of its block, and is
pinned; nothing else changes. -/
theorem store_kept {c : Bio.BCache} {dev b i : Nat}
    (hk : Kept { cache := c, held := [{ dev := dev, blockno := b, idx := i }] })
    (hd : (c.buf i).dev = dev) (hb : (c.buf i).blockno = b) (d : Mem) :
    Kept { cache := log_write (store c i d) i,
           held := [{ dev := dev, blockno := b, idx := i }] } ∧
      image (log_write (store c i d) i) =
        (fun d2 k2 => if d2 = dev ∧ k2 = b then d else image c d2 k2) := by
  obtain ⟨p1, p2, p3, p4, p5, p6, p7, p8, p9⟩ := put_buf c i d
  obtain ⟨hi1, hi2⟩ := hk.uniq.held { dev := dev, blockno := b, idx := i }
    (List.mem_singleton.mpr rfl)
  change i ∈ c.lru at hi1
  change (c.buf i).flags &&& Bio.B_VALID ≠ 0 at hi2
  have hv2 : ((log_write (store c i d) i).buf i).flags &&& Bio.B_VALID ≠ 0 := by
    rw [p1]; exact flags_pin_valid _ hi2
  have hu2 : Bio.Uniq ⟨log_write (store c i d) i, [⟨dev, b, i⟩]⟩ := by
    refine Bio.uniq_congr hk.uniq p7 ?_ ?_ ?_ (fun h hh => hh)
    · intro j
      by_cases hj : j = i
      · subst hj; exact ⟨p2, p3⟩
      · rw [p6 j hj]; exact ⟨rfl, rfl⟩
    · intro j hv
      by_cases hj : j = i
      · subst hj; exact hv2
      · rw [p6 j hj]; exact hv
    · intro j _ hz
      by_cases hj : j = i
      · subst hj; exact absurd hz hi2
      · rw [p6 j hj]; exact ⟨rfl, rfl⟩
  refine ⟨{ uniq := hu2, clean := ?_, dirty := ?_, ondisk := ?_ }, ?_⟩
  · intro j hj hv hcl
    change j ∈ (log_write (store c i d) i).lru at hj
    change ((log_write (store c i d) i).buf j).flags &&& Bio.B_VALID ≠ 0 at hv
    change ((log_write (store c i d) i).buf j).flags &&& Bio.B_DIRTY = 0 at hcl
    show ((log_write (store c i d) i).buf j).data = (log_write (store c i d) i).disk
      (((log_write (store c i d) i).buf j).dev % 2) ((log_write (store c i d) i).buf j).blockno
    by_cases hji : j = i
    · subst hji
      rw [p1] at hcl
      exact absurd hcl (flags_pin_dirty _)
    · rw [p7] at hj
      rw [p6 j hji] at hv hcl ⊢
      rw [p8]
      exact hk.clean j hj hv hcl
  · intro j hj hdj
    change j ∈ (log_write (store c i d) i).lru at hj
    change ((log_write (store c i d) i).buf j).flags &&& Bio.B_DIRTY ≠ 0 at hdj
    show ((log_write (store c i d) i).buf j).flags &&& Bio.B_VALID ≠ 0
    by_cases hji : j = i
    · subst hji
      exact hv2
    · rw [p7] at hj
      rw [p6 j hji] at hdj ⊢
      exact hk.dirty j hj hdj
  · intro j hj hv
    change j ∈ (log_write (store c i d) i).lru at hj
    change ((log_write (store c i d) i).buf j).flags &&& Bio.B_VALID ≠ 0 at hv
    show Bio.onDisk (log_write (store c i d) i).havedisk1
      (((log_write (store c i d) i).buf j).dev, ((log_write (store c i d) i).buf j).blockno)
    rw [p9]
    by_cases hji : j = i
    · subst hji
      rw [p2, p3]
      exact hk.ondisk j hi1 hi2
    · rw [p7] at hj
      rw [p6 j hji] at hv ⊢
      exact hk.ondisk j hj hv
  · funext d2 k2
    by_cases hblk : d2 = dev ∧ k2 = b
    · obtain ⟨rfl, rfl⟩ := hblk
      simp only [and_self, if_true]
      rw [image_valid hu2 (show i ∈ (log_write (store c i d) i).lru by rw [p7]; exact hi1)
        (by show ((log_write (store c i d) i).buf i).dev = d2; rw [p2]; exact hd)
        (by show ((log_write (store c i d) i).buf i).blockno = k2; rw [p3]; exact hb) hv2]
      exact p5
    · show _ = if d2 = dev ∧ k2 = b then d else image c d2 k2
      rw [if_neg hblk]
      refine image_congr hk.uniq hu2 p8 ?_ ?_
      · intro j hj j1 j2 jv
        change j ∈ c.lru at hj
        change (c.buf j).dev = d2 at j1
        change (c.buf j).blockno = k2 at j2
        change (c.buf j).flags &&& Bio.B_VALID ≠ 0 at jv
        have hji : j ≠ i := by
          rintro rfl
          exact hblk ⟨by rw [← j1, hd], by rw [← j2, hb]⟩
        have e := p6 j hji
        refine ⟨by show j ∈ (log_write (store c i d) i).lru; rw [p7]; exact hj, ?_, ?_, ?_, ?_⟩
        · show ((log_write (store c i d) i).buf j).dev = d2
          rw [e]; exact j1
        · show ((log_write (store c i d) i).buf j).blockno = k2
          rw [e]; exact j2
        · show ((log_write (store c i d) i).buf j).flags &&& Bio.B_VALID ≠ 0
          rw [e]; exact jv
        · show ((log_write (store c i d) i).buf j).data = (c.buf j).data
          rw [e]
      · intro j hj j1 j2 jv
        change j ∈ (log_write (store c i d) i).lru at hj
        change ((log_write (store c i d) i).buf j).dev = d2 at j1
        change ((log_write (store c i d) i).buf j).blockno = k2 at j2
        change ((log_write (store c i d) i).buf j).flags &&& Bio.B_VALID ≠ 0 at jv
        have hji : j ≠ i := by
          rintro rfl
          rw [p2] at j1
          rw [p3] at j2
          exact hblk ⟨by rw [← j1, hd], by rw [← j2, hb]⟩
        rw [p6 j hji] at j1 j2 jv
        rw [p7] at hj
        exact ⟨hj, j1, j2, jv⟩

/-- The `brelse` of the buffer the caller holds leaves a cache in good order
and changes no image. -/
theorem brelse_kept {c : Bio.BCache} {dev b i : Nat}
    (hk : Kept { cache := c, held := [{ dev := dev, blockno := b, idx := i }] }) :
    Sound (Bio.brelse c i) ∧ image (Bio.brelse c i) = image c ∧
      (Bio.brelse c i).havedisk1 = c.havedisk1 := by
  obtain ⟨hi1, -⟩ := hk.uniq.held { dev := dev, blockno := b, idx := i }
    (List.mem_singleton.mpr rfl)
  change i ∈ c.lru at hi1
  have hu2 : Bio.Uniq { cache := Bio.brelse c i, held := [] } := by
    have := Bio.brelse_uniq hk.uniq (h := { dev := dev, blockno := b, idx := i })
      (List.mem_singleton.mpr rfl)
    simpa using this
  obtain ⟨r1, -, r3⟩ := Bio.brelse_bufs c i
  have hsound : Sound (Bio.brelse c i) := by
    refine { uniq := hu2, clean := ?_, dirty := ?_, ondisk := ?_ }
    · intro j hj hv hcl
      change j ∈ (Bio.brelse c i).lru at hj
      change ((Bio.brelse c i).buf j).flags &&& Bio.B_VALID ≠ 0 at hv
      change ((Bio.brelse c i).buf j).flags &&& Bio.B_DIRTY = 0 at hcl
      show ((Bio.brelse c i).buf j).data = (Bio.brelse c i).disk
        (((Bio.brelse c i).buf j).dev % 2) ((Bio.brelse c i).buf j).blockno
      obtain ⟨f1, f2, f3, f4⟩ := r3 j
      rw [f1] at hv hcl
      rw [f2, f3, f4, r1]
      exact hk.clean j ((brelse_mem c hi1 j).mp hj) hv hcl
    · intro j hj hdj
      change j ∈ (Bio.brelse c i).lru at hj
      change ((Bio.brelse c i).buf j).flags &&& Bio.B_DIRTY ≠ 0 at hdj
      show ((Bio.brelse c i).buf j).flags &&& Bio.B_VALID ≠ 0
      obtain ⟨f1, -, -, -⟩ := r3 j
      rw [f1] at hdj ⊢
      exact hk.dirty j ((brelse_mem c hi1 j).mp hj) hdj
    · intro j hj hv
      change j ∈ (Bio.brelse c i).lru at hj
      change ((Bio.brelse c i).buf j).flags &&& Bio.B_VALID ≠ 0 at hv
      show Bio.onDisk (Bio.brelse c i).havedisk1
        (((Bio.brelse c i).buf j).dev, ((Bio.brelse c i).buf j).blockno)
      obtain ⟨f1, f2, f3, -⟩ := r3 j
      rw [f1] at hv
      rw [f2, f3, brelse_hd]
      exact hk.ondisk j ((brelse_mem c hi1 j).mp hj) hv
  refine ⟨hsound, ?_, brelse_hd c i⟩
  funext d2 k2
  refine image_congr hk.uniq hu2 r1 ?_ ?_
  · intro j hj j1 j2 jv
    obtain ⟨f1, f2, f3, f4⟩ := r3 j
    refine ⟨(brelse_mem c hi1 j).mpr hj, ?_, ?_, ?_, f4⟩
    · show ((Bio.brelse c i).buf j).dev = d2
      rw [f2]; exact j1
    · show ((Bio.brelse c i).buf j).blockno = k2
      rw [f3]; exact j2
    · show ((Bio.brelse c i).buf j).flags &&& Bio.B_VALID ≠ 0
      rw [f1]; exact jv
  · intro j hj j1 j2 jv
    obtain ⟨f1, f2, f3, -⟩ := r3 j
    change ((Bio.brelse c i).buf j).dev = d2 at j1
    change ((Bio.brelse c i).buf j).blockno = k2 at j2
    change ((Bio.brelse c i).buf j).flags &&& Bio.B_VALID ≠ 0 at jv
    rw [f2] at j1
    rw [f3] at j2
    rw [f1] at jv
    exact ⟨(brelse_mem c hi1 j).mp hj, j1, j2, jv⟩

/-- The pattern `bread`, look, `brelse`: the cache stays in good order, no
image changes, a buffer that could be recycled still can. -/
theorem touch_kept {c c1 : Bio.BCache} {dev b i : Nat} (hs : Sound c)
    (h : Bio.bread c dev b = Except.ok (i, c1)) :
    Sound (Bio.brelse c1 i) ∧ image (Bio.brelse c1 i) = image c ∧
      (Bio.brelse c1 i).havedisk1 = c.havedisk1 ∧
      (∀ k, spare c k → spare (Bio.brelse c1 i) k) := by
  obtain ⟨k1, k2, -, k4, k5, k6, k7, -, -, -, k11⟩ := bread_kept hs h
  obtain ⟨r1, r2, r3⟩ := brelse_kept k1
  refine ⟨r1, by rw [r2, k2], by rw [r3, k6], ?_⟩
  rintro k ⟨m1, m2⟩
  have hi1 : i ∈ c1.lru := by rw [k5]; exact k4
  refine ⟨(brelse_mem c1 hi1 k).mpr (by rw [k5]; exact m1), ?_⟩
  unfold Bio.reclaimable at m2 ⊢
  simp only [decide_eq_true_eq] at m2 ⊢
  by_cases hki : k = i
  · subst hki
    obtain ⟨q1, q2⟩ := k11 (by unfold Bio.reclaimable; exact decide_eq_true m2)
    rw [brelse_refcnt, ((Bio.brelse_bufs c1 k).2.2 k).1, q1]
    exact ⟨rfl, q2⟩
  · rw [brelse_other c1 hki, k7 k hki]
    exact m2

/-- The pattern `bread`, store, `log_write`, `brelse`: the cache stays in good
order, the image of the block is the data stored and no other image changes; a
buffer other than the one used that could be recycled still can. -/
theorem put_kept {c c1 : Bio.BCache} {dev b i : Nat} (hs : Sound c)
    (h : Bio.bread c dev b = Except.ok (i, c1)) (d : Mem) :
    Sound (Bio.brelse (log_write (store c1 i d) i) i) ∧
      image (Bio.brelse (log_write (store c1 i d) i) i) =
        (fun d2 k2 => if d2 = dev ∧ k2 = b then d else image c d2 k2) ∧
      (Bio.brelse (log_write (store c1 i d) i) i).havedisk1 = c.havedisk1 ∧
      (∀ k, k ≠ i → spare c k → spare (Bio.brelse (log_write (store c1 i d) i) i) k) := by
  obtain ⟨k1, k2, -, k4, k5, k6, k7, k8, k9, -, -⟩ := bread_kept hs h
  obtain ⟨s1, s2⟩ := store_kept k1 k8 k9 d
  obtain ⟨r1, r2, r3⟩ := brelse_kept s1
  obtain ⟨-, -, -, -, -, p6, p7, -, p9⟩ := put_buf c1 i d
  refine ⟨r1, by rw [r2, s2, k2], by rw [r3, p9, k6], ?_⟩
  rintro k hki ⟨m1, m2⟩
  have hi1 : i ∈ (log_write (store c1 i d) i).lru := by rw [p7, k5]; exact k4
  refine ⟨(brelse_mem _ hi1 k).mpr (by rw [p7, k5]; exact m1), ?_⟩
  unfold Bio.reclaimable at m2 ⊢
  simp only [decide_eq_true_eq] at m2 ⊢
  rw [brelse_other _ hki, p6 k hki, k7 k hki]
  exact m2

/-- With a buffer to recycle `bread` does not end in the panic of `bget`. -/
theorem bread_spare {c : Bio.BCache} {dev b k : Nat} (hs : Sound c) (hk : spare c k) :
    Bio.bread c dev b ≠ Except.error Panic.bgetNoBuffers := by
  intro h
  rcases bread_panics hs.dirty h with ⟨-, -, h3⟩ | ⟨h1, -⟩
  · have := h3 k hk.1
    rw [hk.2] at this
    cases this
  · exact h1 rfl

/-! ## `fs.c` on the cache and `fs.c` on the images -/

theorem fs_ext {st st2 : FS} (h1 : st.sb = st2.sb) (h2 : st.disk = st2.disk)
    (h3 : st.havedisk1 = st2.havedisk1) (h4 : st.devsw = st2.devsw) : st = st2 := by
  cases st
  cases st2
  simp only at h1 h2 h3 h4
  subst h1 h2 h3 h4
  rfl

/-- A `bread` that returns on the cache returns the image on the images. -/
theorem bread_view {c c1 : Bio.BCache} {dev b i : Nat} (hs : Sound c)
    (h : Bio.bread c dev b = Except.ok (i, c1)) (st : FS) (hd : st.disk = image c)
    (hh : st.havedisk1 = c.havedisk1) :
    OSCD.bread st dev b = Except.ok (image c dev b) ∧ (c1.buf i).data = image c dev b := by
  obtain ⟨-, -, k3, -, -, -, -, -, -, k10, -⟩ := bread_kept hs h
  refine ⟨?_, k3⟩
  rw [bread_ok (by rw [hh]; exact k10.2) k10.1, hd]

/-- The call `readsb` on the cache and on the images. -/
theorem readsb_sim (s : State) (dev : Nat) (hs : Sound s.cache) :
    (∀ s1, readsb s dev = Except.ok s1 →
      OSCD.readsb s.fs dev = Except.ok s1.fs ∧ Sound s1.cache ∧
        (∀ k, spare s.cache k → spare s1.cache k)) ∧
    (∀ e, readsb s dev = Except.error e →
      (e = Panic.bgetNoBuffers ∧ ∀ k, ¬ spare s.cache k) ∨
      (e ≠ Panic.bgetNoBuffers ∧ OSCD.readsb s.fs dev = Except.error e)) := by
  unfold readsb OSCD.readsb
  cases hb : Bio.bread s.cache dev 1 with
  | error e =>
    refine ⟨fun s1 h => by simp at h, fun e2 h => ?_⟩
    simp only [bind_error_eq, Except.error.injEq] at h
    subst h
    rcases bread_panics hs.dirty hb with ⟨p1, -, p3⟩ | ⟨p1, p2⟩
    · refine Or.inl ⟨p1, fun k hk => ?_⟩
      have := p3 k hk.1
      rw [hk.2] at this
      cases this
    · refine Or.inr ⟨p1, ?_⟩
      rw [p2 s.fs rfl]
      rfl
  | ok r =>
    obtain ⟨i, c1⟩ := r
    obtain ⟨v1, v2⟩ := bread_view hs hb s.fs rfl rfl
    obtain ⟨t1, t2, t3, t4⟩ := touch_kept hs hb
    refine ⟨fun s1 h => ?_, fun e h => by simp at h⟩
    simp only [bind_ok_eq, pure_eq_ok, Except.ok.injEq] at h
    subst h
    refine ⟨?_, t1, t4⟩
    rw [v1]
    simp only [bind_ok_eq, pure_eq_ok, Except.ok.injEq]
    exact fs_ext (by rw [v2]; rfl) t2.symm t3.symm rfl

/-- The call `bzero` on the cache and on the images. -/
theorem bzero_sim (s : State) (dev bno : Nat) (hs : Sound s.cache) :
    (∀ c2, bzero s.cache dev bno = Except.ok c2 →
      OSCD.bzero s.fs dev bno = Except.ok ({ s with cache := c2 } : State).fs ∧ Sound c2) ∧
    (∀ e, bzero s.cache dev bno = Except.error e →
      (e = Panic.bgetNoBuffers ∧ ∀ k, ¬ spare s.cache k) ∨
      (e ≠ Panic.bgetNoBuffers ∧ OSCD.bzero s.fs dev bno = Except.error e)) := by
  unfold bzero OSCD.bzero
  cases hb : Bio.bread s.cache dev bno with
  | error e =>
    refine ⟨fun s1 h => by simp at h, fun e2 h => ?_⟩
    simp only [bind_error_eq, Except.error.injEq] at h
    subst h
    rcases bread_panics hs.dirty hb with ⟨p1, -, p3⟩ | ⟨p1, p2⟩
    · refine Or.inl ⟨p1, fun k hk => ?_⟩
      have := p3 k hk.1
      rw [hk.2] at this
      cases this
    · refine Or.inr ⟨p1, ?_⟩
      rw [p2 s.fs rfl]
      rfl
  | ok r =>
    obtain ⟨i, c1⟩ := r
    obtain ⟨v1, v2⟩ := bread_view hs hb s.fs rfl rfl
    obtain ⟨t1, t2, t3, -⟩ := put_kept hs hb (memset (c1.buf i).data 0 0 BSIZE)
    refine ⟨fun c2 h => ?_, fun e h => by simp at h⟩
    simp only [bind_ok_eq, pure_eq_ok, Except.ok.injEq] at h
    subst h
    refine ⟨?_, t1⟩
    rw [v1]
    simp only [bind_ok_eq, pure_eq_ok, Except.ok.injEq]
    refine fs_ext rfl ?_ t3.symm rfl
    show _ = image _
    rw [t2, v2]
    rfl

theorem spare_other {c : Bio.BCache} {x y : Nat} (hxy : x ≠ y) (hx : spare c x) (hy : spare c y)
    (i : Nat) : ∃ z, z ≠ i ∧ spare c z := by
  by_cases h : x = i
  · exact ⟨y, fun e => hxy (h.trans e.symm), hy⟩
  · exact ⟨x, h, hx⟩

/-- The loop of `balloc` on the cache and on the images: the same block and
the same images when it returns, the same panic unless it is the panic of
`bget`, which two buffers to recycle rule out. -/
theorem ballocLoop_sim (dev : Nat) : ∀ (k b : Nat) (s : State), Sound s.cache →
    (∀ r c2, ballocLoop s.sb dev k b s.cache = Except.ok (r, c2) →
      OSCD.ballocLoop s.fs dev k b = Except.ok (r, ({ s with cache := c2 } : State).fs) ∧
        Sound c2) ∧
    (∀ e, ballocLoop s.sb dev k b s.cache = Except.error e →
      e = Panic.bgetNoBuffers ∨ OSCD.ballocLoop s.fs dev k b = Except.error e) ∧
    ((∃ x y, x ≠ y ∧ spare s.cache x ∧ spare s.cache y) →
      ballocLoop s.sb dev k b s.cache ≠ Except.error Panic.bgetNoBuffers) := by
  intro k
  induction k with
  | zero =>
    intro b s _
    refine ⟨fun r c2 h => ?_, fun e h => Or.inr ?_, fun _ h => ?_⟩
    · unfold ballocLoop at h
      cases h
    · unfold ballocLoop at h
      unfold OSCD.ballocLoop
      simp only [Except.error.injEq] at h
      rw [h]
    · unfold ballocLoop at h
      cases h
  | succ k ih =>
    intro b s hs
    unfold ballocLoop OSCD.ballocLoop
    have hsb : s.fs.sb = s.sb := rfl
    rw [hsb]
    by_cases hb : b < s.sb.size
    · rw [if_pos hb, if_pos hb]
      cases hbr : Bio.bread s.cache dev (BBLOCK b s.sb) with
      | error e =>
        refine ⟨fun r c2 h => by simp at h, fun e2 h => ?_, fun hx h => ?_⟩
        · simp only [bind_error_eq, Except.error.injEq] at h
          subst h
          rcases bread_panics hs.dirty hbr with ⟨p1, -, -⟩ | ⟨-, p2⟩
          · exact Or.inl p1
          · right
            rw [p2 s.fs rfl]
            rfl
        · simp only [bind_error_eq, Except.error.injEq] at h
          subst h
          obtain ⟨x, y, -, hx1, -⟩ := hx
          exact bread_spare hs hx1 hbr
      | ok p =>
        obtain ⟨i, c1⟩ := p
        obtain ⟨v1, v2⟩ := bread_view hs hbr s.fs rfl rfl
        simp only [bind_ok_eq]
        rw [v1]
        simp only [bind_ok_eq]
        rw [v2]
        cases hsc : ballocScan (image s.cache dev (BBLOCK b s.sb)) s.sb.size b BPB 0 with
        | some bi =>
          simp only
          obtain ⟨t1, t2, t3, t4⟩ := put_kept hs hbr
            (fun j => if j = bi / 8
              then (image s.cache dev (BBLOCK b s.sb) (bi / 8) ||| 1 <<< (bi % 8)) % 256
              else image s.cache dev (BBLOCK b s.sb) j)
          have hfs : ({ s with cache := Bio.brelse (log_write (store c1 i
              (fun j => if j = bi / 8
                then (image s.cache dev (BBLOCK b s.sb) (bi / 8) ||| 1 <<< (bi % 8)) % 256
                else image s.cache dev (BBLOCK b s.sb) j)) i) i } : State).fs =
              OSCD.log_write s.fs dev (BBLOCK b s.sb)
                (fun j => if j = bi / 8
                  then (image s.cache dev (BBLOCK b s.sb) (bi / 8) ||| 1 <<< (bi % 8)) % 256
                  else image s.cache dev (BBLOCK b s.sb) j) := by
            refine fs_ext rfl ?_ t3 rfl
            show image _ = _
            rw [t2]
            rfl
          obtain ⟨z1, z2⟩ := bzero_sim ({ s with cache := Bio.brelse (log_write (store c1 i
              (fun j => if j = bi / 8
                then (image s.cache dev (BBLOCK b s.sb) (bi / 8) ||| 1 <<< (bi % 8)) % 256
                else image s.cache dev (BBLOCK b s.sb) j)) i) i } : State) dev (b + bi) t1
          rw [hfs] at z1 z2
          refine ⟨fun r c2 h => ?_, fun e h => ?_, fun hx h => ?_⟩
          · obtain ⟨c4, h4, h⟩ := bind_eq_ok h
            simp only [pure_eq_ok, Except.ok.injEq, Prod.mk.injEq] at h
            obtain ⟨rfl, rfl⟩ := h
            obtain ⟨y1, y2⟩ := z1 c4 h4
            refine ⟨?_, y2⟩
            have hs0 : (s.fs.disk dev (BBLOCK b s.sb)) = image s.cache dev (BBLOCK b s.sb) := rfl
            rw [y1]
            rfl
          · rcases bind_eq_error h with h4 | ⟨a, -, h⟩
            · rcases z2 e h4 with ⟨q1, -⟩ | ⟨-, q2⟩
              · exact Or.inl q1
              · right
                rw [q2]
                rfl
            · simp at h
          · rcases bind_eq_error h with h4 | ⟨a, -, h⟩
            · obtain ⟨x, y, hxy, hx1, hy1⟩ := hx
              obtain ⟨z, zi, zs⟩ := spare_other hxy hx1 hy1 i
              rcases z2 _ h4 with ⟨-, q2⟩ | ⟨q1, -⟩
              · exact q2 z (t4 z zi zs)
              · exact q1 rfl
            · simp at h
        | none =>
          simp only
          obtain ⟨t1, t2, t3, t4⟩ := touch_kept hs hbr
          have hfs : ({ s with cache := Bio.brelse c1 i } : State).fs = s.fs :=
            fs_ext rfl t2 t3 rfl
          obtain ⟨i1, i2, i3⟩ := ih (b + BPB) ({ s with cache := Bio.brelse c1 i } : State) t1
          rw [hfs] at i1 i2
          refine ⟨fun r c2 h => i1 r c2 h, fun e h => i2 e h, fun hx => i3 ?_⟩
          obtain ⟨x, y, hxy, hx1, hy1⟩ := hx
          exact ⟨x, y, hxy, t4 x hx1, t4 y hy1⟩
    · rw [if_neg hb, if_neg hb]
      refine ⟨fun r c2 h => (by cases h), fun e h => Or.inr ?_, fun _ h => (by cases h)⟩
      simp only [Except.error.injEq] at h
      rw [h]

/-- The call `balloc` on the cache and on the images. -/
theorem balloc_sim (s : State) (dev : Nat) (hs : Sound s.cache) :
    (∀ b s2, balloc s dev = Except.ok (b, s2) →
      OSCD.balloc s.fs dev = Except.ok (b, s2.fs) ∧ Sound s2.cache ∧ s2.sb = s.sb ∧
        s2.devsw = s.devsw) ∧
    (∀ e, balloc s dev = Except.error e →
      e = Panic.bgetNoBuffers ∨ OSCD.balloc s.fs dev = Except.error e) ∧
    ((∃ x y, x ≠ y ∧ spare s.cache x ∧ spare s.cache y) →
      balloc s dev ≠ Except.error Panic.bgetNoBuffers) := by
  obtain ⟨l1, l2, l3⟩ := ballocLoop_sim dev (s.sb.size / BPB + 1) 0 s hs
  unfold balloc OSCD.balloc
  refine ⟨fun b s2 h => ?_, fun e h => ?_, fun hx h => ?_⟩
  · obtain ⟨⟨r, c2⟩, h1, h2⟩ := bind_eq_ok h
    simp only [pure_eq_ok, Except.ok.injEq, Prod.mk.injEq] at h2
    obtain ⟨rfl, rfl⟩ := h2
    obtain ⟨m1, m2⟩ := l1 r c2 h1
    exact ⟨m1, m2, rfl, rfl⟩
  · rcases bind_eq_error h with h1 | ⟨a, -, h2⟩
    · exact l2 e h1
    · simp at h2
  · rcases bind_eq_error h with h1 | ⟨a, -, h2⟩
    · exact l3 hx h1
    · simp at h2

/-- The call `bfree` on the cache and on the images. -/
theorem bfree_sim (s : State) (dev b : Nat) (hs : Sound s.cache) :
    (∀ s2, bfree s dev b = Except.ok s2 →
      OSCD.bfree s.fs dev b = Except.ok s2.fs ∧ Sound s2.cache) ∧
    (∀ e, bfree s dev b = Except.error e →
      e = Panic.bgetNoBuffers ∨ OSCD.bfree s.fs dev b = Except.error e) ∧
    ((∃ x, spare s.cache x) → bfree s dev b ≠ Except.error Panic.bgetNoBuffers) := by
  obtain ⟨r1, r2⟩ := readsb_sim s dev hs
  unfold bfree OSCD.bfree
  cases hr : readsb s dev with
  | error e =>
    refine ⟨fun s2 h => by simp at h, fun e2 h => ?_, fun hx h => ?_⟩
    · simp only [bind_error_eq, Except.error.injEq] at h
      subst h
      rcases r2 e hr with ⟨q1, -⟩ | ⟨-, q2⟩
      · exact Or.inl q1
      · right
        rw [q2]
        rfl
    · simp only [bind_error_eq, Except.error.injEq] at h
      subst h
      obtain ⟨x, hx1⟩ := hx
      rcases r2 _ hr with ⟨-, q2⟩ | ⟨q1, -⟩
      · exact q2 x hx1
      · exact q1 rfl
  | ok s1 =>
    obtain ⟨a1, a2, a3⟩ := r1 s1 hr
    rw [a1]
    simp only [bind_ok_eq]
    have hsb : s1.fs.sb = s1.sb := rfl
    rw [hsb]
    cases hbr : Bio.bread s1.cache dev (BBLOCK b s1.sb) with
    | error e =>
      refine ⟨fun s2 h => by simp at h, fun e2 h => ?_, fun hx h => ?_⟩
      · simp only [bind_error_eq, Except.error.injEq] at h
        subst h
        rcases bread_panics a2.dirty hbr with ⟨p1, -, -⟩ | ⟨-, p2⟩
        · exact Or.inl p1
        · right
          rw [p2 s1.fs rfl]
          rfl
      · simp only [bind_error_eq, Except.error.injEq] at h
        subst h
        obtain ⟨x, hx1⟩ := hx
        exact bread_spare a2 (a3 x hx1) hbr
    | ok p =>
      obtain ⟨i, c1⟩ := p
      obtain ⟨v1, v2⟩ := bread_view a2 hbr s1.fs rfl rfl
      simp only [bind_ok_eq]
      rw [v1]
      simp only [bind_ok_eq]
      rw [v2]
      by_cases hbit : image s1.cache dev (BBLOCK b s1.sb) (b % BPB / 8) &&&
          1 <<< (b % BPB % 8) = 0
      · rw [if_pos hbit, if_pos hbit]
        refine ⟨fun s2 h => (by cases h), fun e h => Or.inr ?_, fun _ h => (by cases h)⟩
        simp only [Except.error.injEq] at h
        rw [h]
      · rw [if_neg hbit, if_neg hbit]
        obtain ⟨t1, t2, t3, -⟩ := put_kept a2 hbr
          (fun j => if j = b % BPB / 8
            then (image s1.cache dev (BBLOCK b s1.sb) (b % BPB / 8) &&&
              (U32 - 1 - 1 <<< (b % BPB % 8))) % 256
            else image s1.cache dev (BBLOCK b s1.sb) j)
        refine ⟨fun s2 h => ?_, fun e h => (by simp at h), fun _ h => (by simp at h)⟩
        simp only [pure_eq_ok, Except.ok.injEq] at h
        subst h
        refine ⟨?_, t1⟩
        simp only [pure_eq_ok, Except.ok.injEq]
        refine fs_ext rfl ?_ t3.symm rfl
        show _ = image _
        rw [t2]
        rfl

/-- The loop of `ialloc` on the cache and on the images; one buffer to recycle
rules out the panic of `bget`. -/
theorem iallocLoop_sim (dev : Nat) (type : Int) : ∀ (k inum : Nat) (s : State), Sound s.cache →
    (∀ r c2, iallocLoop s.sb dev type k inum s.cache = Except.ok (r, c2) →
      OSCD.iallocLoop s.fs dev type k inum =
        Except.ok (r, ({ s with cache := c2 } : State).fs) ∧ Sound c2) ∧
    (∀ e, iallocLoop s.sb dev type k inum s.cache = Except.error e →
      e = Panic.bgetNoBuffers ∨ OSCD.iallocLoop s.fs dev type k inum = Except.error e) ∧
    ((∃ x, spare s.cache x) →
      iallocLoop s.sb dev type k inum s.cache ≠ Except.error Panic.bgetNoBuffers) := by
  intro k
  induction k with
  | zero =>
    intro inum s _
    refine ⟨fun r c2 h => ?_, fun e h => Or.inr ?_, fun _ h => ?_⟩
    · unfold iallocLoop at h
      cases h
    · unfold iallocLoop at h
      unfold OSCD.iallocLoop
      simp only [Except.error.injEq] at h
      rw [h]
    · unfold iallocLoop at h
      cases h
  | succ k ih =>
    intro inum s hs
    unfold iallocLoop OSCD.iallocLoop
    have hsb : s.fs.sb = s.sb := rfl
    rw [hsb]
    by_cases hb : inum < s.sb.ninodes
    · rw [if_pos hb, if_pos hb]
      cases hbr : Bio.bread s.cache dev (IBLOCK inum s.sb) with
      | error e =>
        refine ⟨fun r c2 h => by simp at h, fun e2 h => ?_, fun hx h => ?_⟩
        · simp only [bind_error_eq, Except.error.injEq] at h
          subst h
          rcases bread_panics hs.dirty hbr with ⟨p1, -, -⟩ | ⟨-, p2⟩
          · exact Or.inl p1
          · right
            rw [p2 s.fs rfl]
            rfl
        · simp only [bind_error_eq, Except.error.injEq] at h
          subst h
          obtain ⟨x, hx1⟩ := hx
          exact bread_spare hs hx1 hbr
      | ok p =>
        obtain ⟨i, c1⟩ := p
        obtain ⟨v1, v2⟩ := bread_view hs hbr s.fs rfl rfl
        simp only [bind_ok_eq]
        rw [v1]
        simp only [bind_ok_eq]
        rw [v2]
        by_cases hfree : getShort (image s.cache dev (IBLOCK inum s.sb))
            (DINODE_SIZE * (inum % IPB)) = 0
        · rw [if_pos hfree, if_pos hfree]
          obtain ⟨t1, t2, t3, -⟩ := put_kept hs hbr
            (claimDinode (image s.cache dev (IBLOCK inum s.sb)) inum type)
          refine ⟨fun r c2 h => ?_, fun e h => (by simp at h), fun _ h => (by simp at h)⟩
          simp only [pure_eq_ok, Except.ok.injEq, Prod.mk.injEq] at h
          obtain ⟨rfl, rfl⟩ := h
          refine ⟨?_, t1⟩
          simp only [pure_eq_ok, Except.ok.injEq, Prod.mk.injEq, true_and]
          refine fs_ext rfl ?_ t3.symm rfl
          show _ = image _
          rw [t2]
          rfl
        · rw [if_neg hfree, if_neg hfree]
          obtain ⟨t1, t2, t3, t4⟩ := touch_kept hs hbr
          have hfs : ({ s with cache := Bio.brelse c1 i } : State).fs = s.fs :=
            fs_ext rfl t2 t3 rfl
          obtain ⟨i1, i2, i3⟩ := ih (inum + 1) ({ s with cache := Bio.brelse c1 i } : State) t1
          rw [hfs] at i1 i2
          refine ⟨fun r c2 h => i1 r c2 h, fun e h => i2 e h, fun hx => i3 ?_⟩
          obtain ⟨x, hx1⟩ := hx
          exact ⟨x, t4 x hx1⟩
    · rw [if_neg hb, if_neg hb]
      refine ⟨fun r c2 h => (by cases h), fun e h => Or.inr ?_, fun _ h => (by cases h)⟩
      simp only [Except.error.injEq] at h
      rw [h]

/-- The call `ialloc` on the cache and on the images. -/
theorem ialloc_sim (s : State) (ic : ICache) (dev : Nat) (type : Int) (hs : Sound s.cache) :
    (∀ i s2 ic2, ialloc s ic dev type = Except.ok (i, s2, ic2) →
      OSCD.ialloc s.fs ic dev type = Except.ok (i, s2.fs, ic2) ∧ Sound s2.cache ∧
        s2.sb = s.sb) ∧
    (∀ e, ialloc s ic dev type = Except.error e →
      e = Panic.bgetNoBuffers ∨ OSCD.ialloc s.fs ic dev type = Except.error e) ∧
    ((∃ x, spare s.cache x) → ialloc s ic dev type ≠ Except.error Panic.bgetNoBuffers) := by
  obtain ⟨l1, l2, l3⟩ := iallocLoop_sim dev type (s.sb.ninodes + 1) 1 s hs
  unfold ialloc OSCD.ialloc
  have hsb : s.fs.sb = s.sb := rfl
  rw [hsb]
  cases hl : iallocLoop s.sb dev type (s.sb.ninodes + 1) 1 s.cache with
  | error e =>
    refine ⟨fun i s2 ic2 h => by simp at h, fun e2 h => ?_, fun hx h => ?_⟩
    · simp only [bind_error_eq, Except.error.injEq] at h
      subst h
      rcases l2 e hl with q | q
      · exact Or.inl q
      · right
        rw [q]
        rfl
    · simp only [bind_error_eq, Except.error.injEq] at h
      subst h
      exact l3 hx hl
  | ok p =>
    obtain ⟨inum, c1⟩ := p
    obtain ⟨m1, m2⟩ := l1 inum c1 hl
    rw [m1]
    simp only [bind_ok_eq]
    cases hg : iget ic dev inum with
    | error e =>
      refine ⟨fun i s2 ic2 h => by simp at h, fun e2 h => Or.inr ?_, fun _ h => ?_⟩
      · simp only [bind_error_eq, Except.error.injEq] at h
        rw [h]
        rfl
      · simp only [bind_error_eq, Except.error.injEq] at h
        have := iget_error hg
        rw [h] at this
        cases this
    | ok q =>
      obtain ⟨i, ic1⟩ := q
      refine ⟨fun i2 s2 ic2 h => ?_, fun e h => (by simp at h), fun _ h => (by simp at h)⟩
      simp only [bind_ok_eq, pure_eq_ok, Except.ok.injEq, Prod.mk.injEq] at h
      obtain ⟨rfl, rfl, rfl⟩ := h
      exact ⟨rfl, m2, rfl⟩

/-! ### The sample caches -/

/-- A cache in good order stays so when the buffers held are forgotten. -/
theorem kept_sound {c : Bio.BCache} {held : List Bio.Hold}
    (hk : Kept { cache := c, held := held }) : Sound c :=
  { uniq := Bio.uniq_congr hk.uniq rfl (fun _ => ⟨rfl, rfl⟩) (fun _ h => h)
      (fun _ _ _ => ⟨rfl, rfl⟩) (fun _ hh => absurd hh (List.not_mem_nil _))
    clean := hk.clean
    dirty := hk.dirty
    ondisk := hk.ondisk }

/-- The cache that `binit` leaves is in good order. -/
theorem binit_sound (disk : Nat → Nat → Mem) (hd : Bool) : Sound (Bio.binit disk hd) :=
  { uniq := Bio.init_uniq disk hd
    clean := fun _ _ hv _ => absurd (Nat.zero_and _) hv
    dirty := fun _ _ hv => absurd (Nat.zero_and _) hv
    ondisk := fun _ _ hv => absurd (Nat.zero_and _) hv }

/-- Buffers held by other processes leave the cache in good order and change
no image. -/
theorem pin_sound {c : Bio.BCache} (hs : Sound c) : ∀ n,
    Sound (pin c n) ∧ image (pin c n) = image c ∧ (pin c n).havedisk1 = c.havedisk1 := by
  intro n
  induction n with
  | zero => exact ⟨hs, rfl, rfl⟩
  | succ n ih =>
    obtain ⟨i1, i2, i3⟩ := ih
    unfold pin
    cases hb : Bio.bread (pin c n) 1 (100 + n) with
    | error e => exact ⟨i1, i2, i3⟩
    | ok p =>
      obtain ⟨i, c1⟩ := p
      obtain ⟨k1, k2, -, -, -, k6, -⟩ := bread_kept i1 hb
      exact ⟨kept_sound k1, by rw [← i2, ← k2], by rw [← i3, ← k6]⟩

theorem boot_fs : boot.fs = fs0 := by
  refine fs_ext rfl ?_ rfl rfl
  funext dev b
  show image (Bio.binit disk0 true) dev b = disk0 dev b
  rw [image_disk (fun _ _ _ _ => Nat.zero_and _)]
  rfl

theorem busy_fs (n : Nat) : (busy n).fs = fs0 := by
  obtain ⟨-, p2, p3⟩ := pin_sound (binit_sound disk0 true) n
  rw [← boot_fs]
  exact fs_ext rfl p2 p3 rfl

theorem busy_sound (n : Nat) : Sound (busy n).cache :=
  (pin_sound (binit_sound disk0 true) n).1

theorem panicOf_some {α : Type} {x : Except Panic α} {e : Panic} (h : panicOf x = some e) :
    x = Except.error e := by
  cases x with
  | ok a => cases h
  | error e2 =>
    simp only [panicOf, Option.some.injEq] at h
    rw [h]

end Cached

namespace Sleep

/-! ## The sleep-locks of the inodes -/

theorem relock_free (lk : Locks) (i : Nat) (h : lk i = false) :
    releasesleep (fun j => if j = i then true else lk j) i = lk := by
  funext j
  show (if j = i then false else if j = i then true else lk j) = lk j
  by_cases hj : j = i
  · rw [if_pos hj, hj, h]
  · rw [if_neg hj, if_neg hj]

/-- On a lock that is held `iput` sleeps in `acquiresleep`. -/
theorem iput_asleep (lk : Locks) (st : FS) (ic : ICache) (i : Nat) (h : lk i = true) :
    iput lk st ic i = none := by
  unfold iput acquiresleep
  rw [if_pos h]

/-- On a lock that is free `iput` takes the lock, does what `OSCD.iput` does
and leaves the lock free again. -/
theorem iput_free (lk : Locks) (st : FS) (ic : ICache) (i : Nat) (h : lk i = false) :
    iput lk st ic i = some (OSCD.iput st ic i >>= fun r => pure (r.1, r.2, lk)) := by
  have hn : ¬ (lk i = true) := by rw [h]; decide
  unfold iput acquiresleep OSCD.iput
  rw [if_neg hn]
  simp only [relock_free lk i h, bind_assoc, pure_bind]

/-- On a lock that is free `ilock` takes the lock and does what `OSCD.ilock`
does. -/
theorem ilock_free (lk : Locks) (st : FS) (ic : ICache) (i : Nat) (h : lk i = false)
    (href : 1 ≤ (ic i).ref) :
    ilock lk st ic i = some (OSCD.ilock st (ic i) >>= fun ip =>
      pure (ic.set i ip, fun j => if j = i then true else lk j)) := by
  have hn : ¬ (lk i = true) := by rw [h]; decide
  unfold ilock acquiresleep
  rw [if_neg (not_lt.mpr href), if_neg hn]

/-- What `dirlink` does once `dirlookup` has found the name: the `iput` of the
inode found, then -1. -/
theorem dirlink_present (lk : Locks) {st : FS} {ic : ICache} {d : Nat} {name : Mem} (inum : Nat)
    {i off : Nat} {st1 : FS} {ic1 : ICache}
    (h : dirlookup st ic d name = Except.ok (some (i, off), st1, ic1)) :
    dirlink lk st ic d name inum =
      (iput lk st1 ic1 i).map (fun r => r >>= fun q => pure (-1, q.1, q.2.1, q.2.2)) := by
  unfold dirlink
  rw [h]
  simp only
  cases iput lk st1 ic1 i with
  | none => rfl
  | some r => rfl

/-- The sample directory after `dirlink(d, ".", 1)`: a well-formed directory of
one entry, in use, named "." and naming the directory itself, held once in
slot 0 of the cache. -/
theorem dotDir_spec : DirOk dotDir.1 (dotDir.2 0) ∧ (dotDir.2 0).size = 16 ∧
    entNamed dotDir.1 (dotDir.2 0) dotName 0 ∧ (dotDir.2 0).ref = 1 ∧
    deInum (dirent dotDir.1 (dotDir.2 0) 0) = (dotDir.2 0).inum ∧ (dotDir.2 0).valid = 1 ∧
    ∀ j, j ≠ 0 → dotDir.2 j = icache0 j := by
  obtain ⟨st3, dp3, h, hsize, hfields, hd3, -, hin, hnamed, -⟩ :=
    @dirlink_new fs0 dirCache 0 dotName 1 0 freshDir_ok
      (fun _ _ h => absurd h (Nat.not_lt_zero _)) (by decide) (by decide) freshDir_free
      freshDir_room
  have e : dotDir = (st3, dirCache.set 0 dp3) := by
    unfold dotDir
    rw [h]
  rw [e]
  simp only [ICache.set_same]
  refine ⟨hd3, hsize, hnamed, ?_, ?_, ?_, ?_⟩
  · rw [hfields]
    rfl
  · rw [hin, hfields]
    rfl
  · rw [hfields]
    rfl
  · intro j hj
    rw [ICache.set_other _ _ _ _ hj]
    exact ICache.set_other _ _ _ _ hj

/-- The caller of `dirlink` on the sample directory has locked it: `ilock`
returned with the lock of slot 0 taken and the cache as before. -/
theorem dotLocks_spec :
    ilock unlocked dotDir.1 dotDir.2 0 = some (Except.ok (dotDir.2.set 0 (dotDir.2 0), dotLocks)) ∧
    dotLocks 0 = true ∧ dotDir.2.set 0 (dotDir.2 0) = dotDir.2 := by
  obtain ⟨-, -, -, hr, -, hv, -⟩ := dotDir_spec
  have hil : OSCD.ilock dotDir.1 (dotDir.2 0) = Except.ok (dotDir.2 0) := by
    unfold OSCD.ilock
    rw [if_neg (by rw [hr]; decide), if_neg (by rw [hv]; decide)]
    rfl
  have e := ilock_free unlocked dotDir.1 dotDir.2 0 rfl (by rw [hr])
  rw [hil] at e
  simp only [bind_ok_eq, pure_eq_ok] at e
  have hl : dotLocks = fun j => if j = 0 then true else unlocked j := by
    unfold dotLocks
    rw [e]
  refine ⟨by rw [e, hl], by rw [hl]; rfl, ?_⟩
  funext j
  unfold ICache.set
  by_cases hj : j = 0
  · rw [if_pos hj, hj]
  · rw [if_neg hj]

end Sleep

/-! # The claims -/

/-- C1: on a well-formed regular (non-device) inode, for every source buffer and
every `off`, `n` with `off + n ≤ MAXFILE * BSIZE`: when `writei(ip, buf, off, n)`
returns `n`, the `readi(ip, out, off, n)` that follows returns `n`, changes
neither the disk nor the inode, and `out` equals `buf` byte for byte. -/
theorem writei_readi_roundtrip (st : FS) (ip : Inode) (buf out : Mem) (off n : Nat)
    (st2 : FS) (ip2 : Inode) (hok : InodeOk st ip) (ht : ip.type ≠ T_DEV)
    (hb : off + n ≤ MAXFILE * BSIZE)
    (hw : writei st ip buf off n = Except.ok ((n : Int), st2, ip2)) :
    ∃ out2, readi st2 ip2 out off n = Except.ok ((n : Int), st2, ip2, out2) ∧
      ∀ i, i < n → out2 i = buf i := by
  have hb2 : off + n ≤ 140 * 512 := by simpa only [MAXFILE_eq, BSIZE_eq] using hb
  have hoff : off ≤ ip.size := by
    by_contra hc
    rw [writei_reject st ip buf off n ht (by simp only [U32_eq]; omega)
      (by simp only [U32_eq]; omega) (Or.inl (by omega))] at hw
    simp only [Except.ok.injEq, Prod.mk.injEq] at hw
    omega
  obtain ⟨-, hp⟩ := writei_post hok ht hoff hb hw
  have ht2 : ip2.type ≠ T_DEV := by rw [hp.fields]; exact ht
  have hsz : ip2.size = max ip.size (off + n) := hp.size
  have hmin : min n (ip2.size - off) = n := by omega
  have hr := @readi_ok st2 ip2 out off n hp.ok ht2 (by omega) (by simp only [U32_eq]; omega)
    (fun i hi => (hp.written i (by omega)).1)
  rw [hmin] at hr
  refine ⟨_, hr, ?_⟩
  intro i hi
  simp only [if_pos hi]
  exact (hp.written i hi).2

/-- C1, witness: "hello" written at offset 0 of a fresh inode of the sample
image and read back. -/
theorem writei_readi_roundtrip_witness :
    ∃ st2 ip2 out2, writei fs0 (freshFile 2) (memOf [104, 101, 108, 108, 111]) 0 5 =
        Except.ok (5, st2, ip2) ∧
      readi st2 ip2 (fun _ => 0) 0 5 = Except.ok (5, st2, ip2, out2) ∧
      ∀ i, i < 5 → out2 i = memOf [104, 101, 108, 108, 111] i := by
  obtain ⟨⟨st2, ip2⟩, hw⟩ := retOf_eq_some writei_hello_ret
  obtain ⟨out2, h1, h2⟩ := writei_readi_roundtrip fs0 (freshFile 2)
    (memOf [104, 101, 108, 108, 111]) (fun _ => 0) 0 5 st2 ip2 freshFile_ok (freshFile_type 2)
    (by decide) hw
  exact ⟨st2, ip2, out2, hw, h1, h2⟩

/-- C2, counterexample: on a fresh regular file of the sample image (size 0,
all addresses zero) the write of 1 byte at offset 6144 is rejected by the guard
`off > ip->size`: `writei` returns -1, not 1, and changes nothing. -/
theorem writei_fresh_at_6144_rejected :
    writei fs0 (freshFile 2) (memOf [7]) 6144 1 = Except.ok (-1, fs0, freshFile 2) ∧
      ¬ ∃ st2 ip2, writei fs0 (freshFile 2) (memOf [7]) 6144 1 = Except.ok (1, st2, ip2) := by
  have h : writei fs0 (freshFile 2) (memOf [7]) 6144 1 = Except.ok (-1, fs0, freshFile 2) :=
    writei_reject fs0 (freshFile 2) (memOf [7]) 6144 1 (freshFile_type 2) (by decide)
      (by decide) (Or.inl (by decide))
  refine ⟨h, ?_⟩
  rintro ⟨st2, ip2, h2⟩
  rw [h] at h2
  simp only [Except.ok.injEq, Prod.mk.injEq] at h2
  omega

/-- C2, amended: on a well-formed regular file of size 6144 (so that the offset
is not beyond the end), in an image with two free blocks, the write of 1 byte
at offset 6144 returns 1; afterwards the direct entries are as before (still
zero when they were zero), `addrs[NDIRECT]` is non-zero, slot 0 of the indirect
block is non-zero, and the size is 6145. -/
theorem writei_first_indirect (st : FS) (ip : Inode) (src : Mem) (b1 b2 : Nat)
    (hok : InodeOk st ip) (ht : ip.type ≠ T_DEV) (hsz : ip.size = 6144)
    (h1 : b1 < st.sb.size) (h2 : b2 < st.sb.size) (hne : b1 ≠ b2)
    (hc1 : ¬ bitSet st ip.dev b1) (hc2 : ¬ bitSet st ip.dev b2) :
    ∃ st2 ip2, writei st ip src 6144 1 = Except.ok (1, st2, ip2) ∧
      (∀ i, i < NDIRECT → ip2.addrs i = ip.addrs i) ∧ ip2.addrs NDIRECT ≠ 0 ∧
      getU32 (st2.disk ip.dev (ip2.addrs NDIRECT)) 0 ≠ 0 ∧ ip2.size = 6145 := by
  have hbn : 6144 / BSIZE < MAXFILE := by decide
  have hmax : 6144 + 1 ≤ MAXFILE * BSIZE := by decide
  obtain ⟨a, st1, ip1, hb⟩ := bmap_total hok hbn h1 h2 hne hc1 hc2
  obtain ⟨st1b, hl⟩ := @writeiLoop_one_block st ip src 6144 1 a st1 ip1 hok hbn (by decide)
    (by decide) hb
  obtain ⟨st2, ip2, hw⟩ := writei_total_of_loop hok ht (by omega) hmax hl
  obtain ⟨-, hp⟩ := writei_post hok ht (by omega) hmax hw
  refine ⟨st2, ip2, hw, ?_, ?_, ?_, ?_⟩
  · intro i hi
    have hx : i < MAXFILE := by simp only [MAXFILE_eq, NDIRECT_eq] at *; omega
    have ho := hp.outside_map i hx (by
      intro j hj
      have hj0 : j = 0 := by omega
      subst hj0
      simp only [NDIRECT_eq] at hi
      have : (6144 + 0) / BSIZE = 12 := by decide
      omega)
    rw [blockAt_direct _ _ _ hi, blockAt_direct _ _ _ hi] at ho
    exact ho
  · intro h0
    have hw0 := (hp.written 0 (by omega)).1
    have h12 : (6144 + 0) / BSIZE = NDIRECT := by decide
    rw [h12] at hw0
    exact hw0 (blockAt_no_indirect st2 ip2 NDIRECT (le_refl _) h0)
  · have hw0 := (hp.written 0 (by omega)).1
    have h12 : (6144 + 0) / BSIZE = NDIRECT := by decide
    rw [h12] at hw0
    have hdev : ip2.dev = ip.dev := by rw [hp.fields]
    by_cases h0 : ip2.addrs NDIRECT = 0
    · exact absurd (blockAt_no_indirect st2 ip2 NDIRECT (le_refl _) h0) hw0
    · rw [blockAt_indirect st2 ip2 NDIRECT (le_refl _) h0, hdev, Nat.sub_self] at hw0
      exact hw0
  · rw [hp.size, hsz]
    rfl

/-- C2, witness of the amended statement: the sample image, inode 2 with size
6144 and no blocks, free blocks 59 and 60. -/
theorem writei_first_indirect_witness :
    ∃ st2 ip2, writei fs0 { freshFile 2 with size := 6144 } (memOf [7]) 6144 1 =
        Except.ok (1, st2, ip2) ∧
      (∀ i, i < NDIRECT → ip2.addrs i = 0) ∧ ip2.addrs NDIRECT ≠ 0 ∧
      getU32 (st2.disk 1 (ip2.addrs NDIRECT)) 0 ≠ 0 ∧ ip2.size = 6145 :=
  writei_first_indirect fs0 { freshFile 2 with size := 6144 } (memOf [7]) 59 60
    (inodeOk_no_addrs fs0_ok (by decide) (by decide) (fun _ _ => rfl))
    (by show T_FILE ≠ T_DEV; decide) rfl (by decide) (by decide) (by decide)
    (by decide) (by decide)

set_option maxRecDepth 100000 in
theorem writei_600_ret :
    retOf (writei fs0 (freshFile 2) (fun i => i % 251) 0 600) = some 600 := by
  decide!

/-- C3, counterexample: in the sample image, after 600 bytes (byte `i` holding
`i % 251`) are written at offset 0 of a fresh file, `readi` of 100 bytes at
offset 550 returns 50, not 100, and the first byte it delivers is byte 38 of
block 1 (value 48), not byte 462 of block 0 (value 211). -/
theorem readi_550_not_across_blocks :
    ∃ st2 ip2 out, writei fs0 (freshFile 2) (fun i => i % 251) 0 600 = Except.ok (600, st2, ip2) ∧
      readi st2 ip2 (fun _ => 0) 550 100 = Except.ok (50, st2, ip2, out) ∧
      out 0 = 48 ∧ st2.disk 1 (ip2.addrs 1) 38 = 48 ∧ st2.disk 1 (ip2.addrs 0) 462 = 211 ∧
      out 50 = 0 ∧ st2.disk 1 (ip2.addrs 1) 0 = 10 := by
  obtain ⟨⟨st2, ip2⟩, hw⟩ := retOf_eq_some writei_600_ret
  obtain ⟨-, hp⟩ := writei_post freshFile_ok (freshFile_type 2) (Nat.zero_le _) (by decide) hw
  have ht2 : ip2.type ≠ T_DEV := by rw [hp.fields]; exact freshFile_type 2
  have hsz : ip2.size = 600 := by rw [hp.size]; rfl
  have hdev : ip2.dev = 1 := by rw [hp.fields]; rfl
  have hr := @readi_ok st2 ip2 (fun _ => 0) 550 100 hp.ok ht2 (by omega) (by decide)
    (fun i hi => by
      have := (hp.written (550 + i) (by rw [hsz] at hi; omega)).1
      simpa using this)
  have hmin : min 100 (ip2.size - 550) = 50 := by rw [hsz]; rfl
  rw [hmin] at hr
  have hb1 : ∀ p, 512 ≤ p → p < 600 → fileByte st2 ip2 p = st2.disk 1 (ip2.addrs 1) (p % 512) := by
    intro p h1 h2
    unfold fileByte
    have : p / BSIZE = 1 := by simp only [BSIZE_eq]; omega
    rw [this, blockAt_direct _ _ _ (by decide), hdev]
    rfl
  have hb0 : ∀ p, p < 512 → fileByte st2 ip2 p = st2.disk 1 (ip2.addrs 0) (p % 512) := by
    intro p h1
    unfold fileByte
    have : p / BSIZE = 0 := by simp only [BSIZE_eq]; omega
    rw [this, blockAt_direct _ _ _ (by decide), hdev]
    rfl
  refine ⟨st2, ip2, _, hw, hr, ?_, ?_, ?_, ?_, ?_⟩
  · simp only [show (0 : Nat) < 50 by decide, if_true, Nat.add_zero]
    have := (hp.written 550 (by decide)).2
    simpa using this
  · have := (hp.written 550 (by decide)).2
    rw [Nat.zero_add, hb1 550 (by decide) (by decide)] at this
    exact this
  · have := (hp.written 462 (by decide)).2
    rw [Nat.zero_add, hb0 462 (by decide)] at this
    exact this
  · simp
  · have := (hp.written 512 (by decide)).2
    rw [Nat.zero_add, hb1 512 (by decide) (by decide)] at this
    exact this

/-- C3, amended: after 600 bytes are written at offset 0 of a fresh well-formed
regular file, `readi` of 100 bytes at offset 550 returns 50 (the file ends at
600): the bytes 550 to 599 of the file, which are bytes 38 to 87 of block 1,
the rest of the buffer untouched.  The read that returns the last 50 bytes of
block 0 followed by the first 50 bytes of block 1 is the one of 100 bytes at
offset 462. -/
theorem readi_after_write_600 (st : FS) (ip : Inode) (src dst : Mem) (r : Int) (st2 : FS)
    (ip2 : Inode) (hok : InodeOk st ip) (ht : ip.type ≠ T_DEV) (hsz : ip.size = 0)
    (hw : writei st ip src 0 600 = Except.ok (r, st2, ip2)) :
    (∃ out, readi st2 ip2 dst 550 100 = Except.ok (50, st2, ip2, out) ∧
      (∀ i, i < 50 → out i = st2.disk ip.dev (ip2.addrs 1) (38 + i) ∧ out i = src (550 + i)) ∧
      (∀ i, 50 ≤ i → out i = dst i)) ∧
    (∃ out, readi st2 ip2 dst 462 100 = Except.ok (100, st2, ip2, out) ∧
      (∀ i, i < 50 → out i = st2.disk ip.dev (ip2.addrs 0) (462 + i)) ∧
      (∀ i, i < 50 → out (50 + i) = st2.disk ip.dev (ip2.addrs 1) i)) := by
  obtain ⟨-, hp⟩ := writei_post hok ht (Nat.zero_le _) (by decide) hw
  have ht2 : ip2.type ≠ T_DEV := by rw [hp.fields]; exact ht
  have hsz2 : ip2.size = 600 := by rw [hp.size, hsz]; rfl
  have hdev : ip2.dev = ip.dev := by rw [hp.fields]
  have hb1 : ∀ p, 512 ≤ p → p < 600 →
      fileByte st2 ip2 p = st2.disk ip.dev (ip2.addrs 1) (p - 512) := by
    intro p h1 h2
    unfold fileByte
    have e1 : p / BSIZE = 1 := by simp only [BSIZE_eq]; omega
    have e2 : p % BSIZE = p - 512 := by simp only [BSIZE_eq]; omega
    rw [e1, e2, blockAt_direct _ _ _ (by decide), hdev]
  have hb0 : ∀ p, p < 512 → fileByte st2 ip2 p = st2.disk ip.dev (ip2.addrs 0) p := by
    intro p h1
    unfold fileByte
    have e1 : p / BSIZE = 0 := by simp only [BSIZE_eq]; omega
    have e2 : p % BSIZE = p := by simp only [BSIZE_eq]; omega
    rw [e1, e2, blockAt_direct _ _ _ (by decide), hdev]
  have hmapped : ∀ p, p < 600 → blockAt st2 ip2 (p / BSIZE) ≠ 0 := by
    intro p h1
    have := (hp.written p h1).1
    simpa using this
  constructor
  · have hr := @readi_ok st2 ip2 dst 550 100 hp.ok ht2 (by omega) (by decide)
      (fun i hi => hmapped _ (by rw [hsz2] at hi; omega))
    have hmin : min 100 (ip2.size - 550) = 50 := by rw [hsz2]; rfl
    rw [hmin] at hr
    refine ⟨_, hr, ?_, ?_⟩
    · intro i hi
      simp only [if_pos hi]
      have hw2 := (hp.written (550 + i) (by omega)).2
      rw [Nat.zero_add] at hw2
      refine ⟨?_, hw2⟩
      rw [hb1 _ (by omega) (by omega)]
      have e : 550 + i - 512 = 38 + i := by omega
      rw [e]
    · intro i hi
      simp only [if_neg (by omega : ¬ i < 50)]
  · have hr := @readi_ok st2 ip2 dst 462 100 hp.ok ht2 (by omega) (by decide)
      (fun i hi => hmapped _ (by rw [hsz2] at hi; omega))
    have hmin : min 100 (ip2.size - 462) = 100 := by rw [hsz2]; rfl
    rw [hmin] at hr
    refine ⟨_, hr, ?_, ?_⟩
    · intro i hi
      simp only [if_pos (by omega : i < 100)]
      rw [hb0 _ (by omega)]
    · intro i hi
      simp only [if_pos (by omega : 50 + i < 100)]
      rw [hb1 _ (by omega) (by omega)]
      have e : 462 + (50 + i) - 512 = i := by omega
      rw [e]

/-- C3, witness of the amended statement on the sample image. -/
theorem readi_after_write_600_witness :
    ∃ st2 ip2, writei fs0 (freshFile 2) (fun i => i % 251) 0 600 = Except.ok (600, st2, ip2) ∧
      (∃ out, readi st2 ip2 (fun _ => 0) 550 100 = Except.ok (50, st2, ip2, out) ∧
        (∀ i, i < 50 → out i = st2.disk 1 (ip2.addrs 1) (38 + i) ∧ out i = (550 + i) % 251) ∧
        (∀ i, 50 ≤ i → out i = 0)) ∧
      (∃ out, readi st2 ip2 (fun _ => 0) 462 100 = Except.ok (100, st2, ip2, out) ∧
        (∀ i, i < 50 → out i = st2.disk 1 (ip2.addrs 0) (462 + i)) ∧
        (∀ i, i < 50 → out (50 + i) = st2.disk 1 (ip2.addrs 1) i)) := by
  obtain ⟨⟨st2, ip2⟩, hw⟩ := retOf_eq_some writei_600_ret
  exact ⟨st2, ip2, hw, readi_after_write_600 fs0 (freshFile 2) (fun i => i % 251) (fun _ => 0)
    600 st2 ip2 freshFile_ok (freshFile_type 2) rfl hw⟩

theorem writeiSeq_any : ∀ (calls : List (Mem × Nat × Nat)) (st : FS) (ip : Inode),
    ip.type ≠ T_DEV → (∀ c, c ∈ calls → c.2.1 < U32 ∧ c.2.2 < U32) →
    ip.size ≤ MAXFILE * BSIZE →
    (∀ st2 ip2, writeiSeq st ip calls = Except.ok (st2, ip2) → ip2.size ≤ MAXFILE * BSIZE) ∧
      (∀ e, writeiSeq st ip calls = Except.error e → IoPanic e) := by
  intro calls
  induction calls with
  | nil =>
    intro st ip _ _ hs
    constructor
    · intro st2 ip2 h
      simp only [writeiSeq, Except.ok.injEq, Prod.mk.injEq] at h
      obtain ⟨-, rfl⟩ := h
      exact hs
    · intro e h
      simp [writeiSeq] at h
  | cons c cs ih =>
    intro st ip ht hc hs
    obtain ⟨c1, c2⟩ := hc c (List.mem_cons_self _ _)
    obtain ⟨w1, w2⟩ := writei_any st ip c.1 c.2.1 c.2.2 ht c1 c2
    unfold writeiSeq
    constructor
    · intro st2 ip2 h
      obtain ⟨⟨r, st1, ip1⟩, hw, h⟩ := bind_eq_ok h
      obtain ⟨t1, t2⟩ := w1 r st1 ip1 hw
      exact (ih st1 ip1 (by rw [t1]; exact ht)
        (fun d hd => hc d (List.mem_cons_of_mem _ hd)) (t2 hs)).1 st2 ip2 h
    · intro e h
      rcases bind_eq_error h with h3 | ⟨⟨r, st1, ip1⟩, hw, h3⟩
      · exact w2 e h3
      · obtain ⟨t1, t2⟩ := w1 r st1 ip1 hw
        exact (ih st1 ip1 (by rw [t1]; exact ht)
          (fun d hd => hc d (List.mem_cons_of_mem _ hd)) (t2 hs)).2 e h3

/-- C4: for a non-device inode and 32-bit `off`, `n`, whatever the state,
`writei(ip, src, off, n)` returns -1 and changes nothing when `off > ip.size`,
when `off + n` wraps around 32 bits, or when `off + n > MAXFILE * BSIZE`
(= 71680); consequently after any sequence of `writei` calls on an inode whose
size was at most `(NDIRECT + NINDIRECT) * 512` the size is still at most that,
and no such sequence ends in the panic "bmap: out of range". -/
theorem writei_bounds (st : FS) (ip : Inode) (src : Mem) (off n : Nat)
    (calls : List (Mem × Nat × Nat)) (ht : ip.type ≠ T_DEV) (hoff : off < U32) (hn : n < U32)
    (hc : ∀ c, c ∈ calls → c.2.1 < U32 ∧ c.2.2 < U32)
    (hs : ip.size ≤ (NDIRECT + NINDIRECT) * 512) :
    MAXFILE * BSIZE = 71680 ∧
    ((off > ip.size ∨ (off + n) % U32 < off ∨ (off + n) % U32 > MAXFILE * BSIZE) →
      writei st ip src off n = Except.ok (-1, st, ip)) ∧
    (∀ st2 ip2, writeiSeq st ip calls = Except.ok (st2, ip2) →
      ip2.size ≤ (NDIRECT + NINDIRECT) * 512) ∧
    writeiSeq st ip calls ≠ Except.error Panic.bmapOutOfRange ∧
    writei st ip src off n ≠ Except.error Panic.bmapOutOfRange := by
  have hs2 : ip.size ≤ MAXFILE * BSIZE := hs
  obtain ⟨q1, q2⟩ := writeiSeq_any calls st ip ht hc hs2
  refine ⟨by decide, ?_, fun st2 ip2 h => q1 st2 ip2 h, ?_, ?_⟩
  · intro hg
    apply writei_reject st ip src off n ht hoff hn
    simp only [U32_eq, MAXFILE_eq, BSIZE_eq] at *
    omega
  · intro h
    rcases q2 _ h with h1 | h1 | h1 <;> cases h1
  · intro h
    rcases (writei_any st ip src off n ht hoff hn).2 _ h with h1 | h1 | h1 <;> cases h1

/-- C4, witness: on the sample image a write of 5 bytes at offset 1 of an empty
file is rejected, as is a write that would end beyond block 140; a sequence of
two writes leaves a size of at most 71680. -/
theorem writei_bounds_witness :
    writei fs0 (freshFile 2) (memOf [1, 2, 3, 4, 5]) 1 5 = Except.ok (-1, fs0, freshFile 2) ∧
    writei fs0 (freshFile 2) (memOf []) 0 71681 = Except.ok (-1, fs0, freshFile 2) ∧
    (∀ st2 ip2, writeiSeq fs0 (freshFile 2) [(memOf [1, 2], 0, 2), (memOf [3], 2, 1)] =
      Except.ok (st2, ip2) → ip2.size ≤ (NDIRECT + NINDIRECT) * 512) := by
  have h1 := writei_bounds fs0 (freshFile 2) (memOf [1, 2, 3, 4, 5]) 1 5
    [(memOf [1, 2], 0, 2), (memOf [3], 2, 1)] (freshFile_type 2) (by decide) (by decide)
    (by intro c hc; simp at hc; rcases hc with rfl | rfl <;> exact ⟨by decide, by decide⟩)
    (by decide)
  have h2 := writei_bounds fs0 (freshFile 2) (memOf []) 0 71681 [] (freshFile_type 2)
    (by decide) (by decide) (by intro c hc; simp at hc) (by decide)
  exact ⟨h1.2.1 (Or.inl (by decide)), h2.2.1 (Or.inr (Or.inr (by decide))), h1.2.2.1⟩

theorem helloFile_spec : InodeOk helloFile.1 helloFile.2 ∧ NoHoles helloFile.1 helloFile.2 ∧
    helloFile.2.type ≠ T_DEV ∧ helloFile.2.size = 5 ∧
    ∀ i, i < 5 → fileByte helloFile.1 helloFile.2 i = memOf [104, 101, 108, 108, 111] i := by
  obtain ⟨⟨st2, ip2⟩, hw⟩ := retOf_eq_some writei_hello_ret
  have he : helloFile = (st2, ip2) := by
    unfold helloFile
    rw [hw]
  obtain ⟨-, hp⟩ := writei_post freshFile_ok (freshFile_type 2) (Nat.zero_le _) (by decide) hw
  have hsz : ip2.size = 5 := by rw [hp.size]; rfl
  rw [he]
  refine ⟨hp.ok, ?_, by rw [hp.fields]; exact freshFile_type 2, hsz, ?_⟩
  · intro bn hbn
    simp only [hsz, BSIZE_eq] at hbn
    have h0 : bn = 0 := by omega
    subst h0
    have := (hp.written 0 (by decide)).1
    simpa using this
  · intro i hi
    have := (hp.written i hi).2
    simpa using this

/-- C5: for a well-formed non-device inode and 32-bit `off`, `n`:
`readi(ip, dst, off, n)` returns -1 (changing nothing) when `off > ip.size` or
`off + n` wraps around 32 bits; whenever it returns, the value is -1 exactly in
that case and is `min(n, ip.size - off)` otherwise (0 at `off == size`); and on
a file without holes it does return in the other case, changes neither disk nor
inode, and `dst` receives the bytes `[off, off + result)` of the file in order,
byte `pos` taken from the block `bmap(ip, pos / 512)` at offset `pos % 512`, the
rest of `dst` untouched. -/
theorem readi_bounds (st : FS) (ip : Inode) (dst : Mem) (off n : Nat) (hok : InodeOk st ip)
    (ht : ip.type ≠ T_DEV) (hoff : off < U32) (hn : n < U32) :
    ((off > ip.size ∨ (off + n) % U32 < off) →
      readi st ip dst off n = Except.ok (-1, st, ip, dst)) ∧
    (∀ r st2 ip2 out, readi st ip dst off n = Except.ok (r, st2, ip2, out) →
      (r = -1 ↔ (off > ip.size ∨ (off + n) % U32 < off)) ∧
      (¬ (off > ip.size ∨ (off + n) % U32 < off) → r = ((min n (ip.size - off) : Nat) : Int)) ∧
      (off = ip.size → ¬ (off + n) % U32 < off → r = 0)) ∧
    (NoHoles st ip → ¬ (off > ip.size ∨ (off + n) % U32 < off) →
      ∃ out, readi st ip dst off n = Except.ok (((min n (ip.size - off) : Nat) : Int), st, ip, out) ∧
        (∀ i, i < min n (ip.size - off) → ∃ a, bmap st ip ((off + i) / BSIZE) = Except.ok (a, st, ip) ∧
          out i = st.disk ip.dev a ((off + i) % BSIZE)) ∧
        (∀ i, min n (ip.size - off) ≤ i → out i = dst i)) := by
  have hsz := hok.size_le
  have hsz2 : ip.size ≤ 140 * 512 := by simpa only [MAXFILE_eq, BSIZE_eq] using hsz
  have hrej : (off > ip.size ∨ (off + n) % U32 < off) →
      readi st ip dst off n = Except.ok (-1, st, ip, dst) := by
    intro hg
    apply readi_reject st ip dst off n ht hoff hn
    simp only [U32_eq] at *
    omega
  have hnow : ¬ (off > ip.size ∨ (off + n) % U32 < off) → off ≤ ip.size ∧ off + n < U32 := by
    intro hg
    simp only [U32_eq] at *
    omega
  refine ⟨hrej, ?_, ?_⟩
  · intro r st2 ip2 out h
    by_cases hg : off > ip.size ∨ (off + n) % U32 < off
    · rw [hrej hg] at h
      simp only [Except.ok.injEq, Prod.mk.injEq] at h
      refine ⟨⟨fun _ => hg, fun _ => h.1.symm⟩, fun hng => absurd hg hng, ?_⟩
      intro h1 h2
      rcases hg with hg | hg
      · omega
      · exact absurd hg h2
    · obtain ⟨g1, g2⟩ := hnow hg
      have hmod : (off + n) % U32 = off + n := Nat.mod_eq_of_lt g2
      unfold readi at h
      rw [if_neg ht, if_neg hg] at h
      simp only at h
      obtain ⟨⟨st1, ip1, dst1⟩, -, h⟩ := bind_eq_ok h
      simp only [pure_eq_ok, Except.ok.injEq, Prod.mk.injEq] at h
      obtain ⟨hr, -, -, -⟩ := h
      have hn1 : (if (off + n) % U32 > ip.size then ip.size - off else n) =
          min n (ip.size - off) := by
        rw [hmod]; split_ifs <;> omega
      rw [hn1, toInt32_small _ (by omega)] at hr
      refine ⟨?_, fun _ => hr.symm, ?_⟩
      · constructor
        · intro h1; rw [h1] at hr; omega
        · intro h1; exact absurd h1 hg
      · intro h1 _
        rw [← hr, h1]
        simp
  · intro hnh hg
    obtain ⟨g1, g2⟩ := hnow hg
    have hmapped : ∀ i, i < min n (ip.size - off) → blockAt st ip ((off + i) / BSIZE) ≠ 0 := by
      intro i hi
      apply hnh
      simp only [BSIZE_eq]
      omega
    refine ⟨_, @readi_ok st ip dst off n hok ht g1 g2 hmapped, ?_, ?_⟩
    · intro i hi
      have hbn : (off + i) / BSIZE < MAXFILE := by
        simp only [MAXFILE_eq, BSIZE_eq]; omega
      refine ⟨_, bmap_mapped hok hbn (hmapped i hi), ?_⟩
      simp only [if_pos hi]
      rfl
    · intro i hi
      simp only [if_neg (by omega : ¬ i < min n (ip.size - off))]

/-- C5, witness: reads of the file holding "hello" in the sample image: 100
bytes at offset 0 give 5, 3 bytes at offset 5 give 0, one byte at offset 6
gives -1. -/
theorem readi_bounds_witness :
    (∃ out, readi helloFile.1 helloFile.2 (fun _ => 0) 0 100 =
      Except.ok (5, helloFile.1, helloFile.2, out)) ∧
    retOf (readi helloFile.1 helloFile.2 (fun _ => 0) 5 3) = some 0 ∧
    readi helloFile.1 helloFile.2 (fun _ => 0) 6 1 =
      Except.ok (-1, helloFile.1, helloFile.2, fun _ => 0) := by
  obtain ⟨h1, h2, h3, h4, -⟩ := helloFile_spec
  have a := readi_bounds helloFile.1 helloFile.2 (fun _ => 0) 0 100 h1 h3 (by decide) (by decide)
  have b := readi_bounds helloFile.1 helloFile.2 (fun _ => 0) 5 3 h1 h3 (by decide) (by decide)
  have c := readi_bounds helloFile.1 helloFile.2 (fun _ => 0) 6 1 h1 h3 (by decide) (by decide)
  have e1 : (0 + 100) % U32 = 100 := by decide
  have e2 : (5 + 3) % U32 = 8 := by decide
  refine ⟨?_, ?_, c.1 (Or.inl (by rw [h4]; decide))⟩
  · obtain ⟨out, ho, -⟩ := a.2.2 h2 (by rw [h4, e1]; omega)
    rw [h4] at ho
    exact ⟨out, ho⟩
  · obtain ⟨out, ho, -⟩ := b.2.2 h2 (by rw [h4, e2]; omega)
    rw [ho, h4]
    rfl

/-- C6: on a well-formed regular inode in a well-formed file system, when the
write of 600 bytes at offset 0 of a fresh file (size 0, all addresses zero)
returns, it returns 600 and has allocated exactly two blocks: `addrs[0]` and
`addrs[1]` are non-zero and distinct, `addrs[2..NDIRECT]` are still zero, the
bitmap has gained exactly the bits of these two blocks, and the size is 600.
In general a `writei` of `n > 0` bytes that returns `n` leaves every logical
block of `[off / 512, (off + n - 1) / 512]` mapped, every block mapped before
mapped to the same address, and every logical block outside that range mapped
(or unmapped) as before; the bitmap gains exactly the bits of the blocks the
inode acquired. -/
theorem writei_allocation (st : FS) (ip : Inode) (src : Mem) (off n : Nat) (r : Int)
    (st2 : FS) (ip2 : Inode) (hok : InodeOk st ip) (ht : ip.type ≠ T_DEV)
    (hoff : off < U32) (hn : n < U32) :
    (ip.size = 0 → (∀ i, i ≤ NDIRECT → ip.addrs i = 0) →
      writei st ip src 0 600 = Except.ok (r, st2, ip2) →
      r = 600 ∧ ip2.addrs 0 ≠ 0 ∧ ip2.addrs 1 ≠ 0 ∧ ip2.addrs 0 ≠ ip2.addrs 1 ∧
        (∀ i, 2 ≤ i → i ≤ NDIRECT → ip2.addrs i = 0) ∧ ip2.size = 600 ∧
        (∀ b, b < st.sb.size →
          (bitSet st2 ip.dev b ↔ (bitSet st ip.dev b ∨ b = ip2.addrs 0 ∨ b = ip2.addrs 1)))) ∧
    (0 < n → writei st ip src off n = Except.ok ((n : Int), st2, ip2) →
      (∀ x, x < MAXFILE →
        ((off / BSIZE ≤ x ∧ x ≤ (off + n - 1) / BSIZE) → blockAt st2 ip2 x ≠ 0) ∧
        (blockAt st ip x ≠ 0 → blockAt st2 ip2 x = blockAt st ip x) ∧
        (¬ (off / BSIZE ≤ x ∧ x ≤ (off + n - 1) / BSIZE) →
          blockAt st2 ip2 x = blockAt st ip x)) ∧
      (∀ b, b < st.sb.size →
        (bitSet st2 ip.dev b ↔ (bitSet st ip.dev b ∨ newlyOwned st ip st2 ip2 b)))) := by
  constructor
  · intro hsz hz hw
    obtain ⟨hr, hp⟩ := writei_post hok ht (Nat.zero_le _) (by decide) hw
    have hst : ∀ x, blockAt st ip x = 0 := blockAt_no_addrs st ip hz
    have hout : ∀ x, x < MAXFILE → 2 ≤ x → blockAt st2 ip2 x = 0 := by
      intro x hx h2
      rw [hp.outside_map x hx (by
        intro i hi
        simp only [BSIZE_eq]
        omega)]
      exact hst x
    have h0 : blockAt st2 ip2 0 ≠ 0 := by
      have := (hp.written 0 (by decide)).1
      simpa using this
    have h1 : blockAt st2 ip2 1 ≠ 0 := by
      have := (hp.written 512 (by decide)).1
      simpa using this
    have d0 : blockAt st2 ip2 0 = ip2.addrs 0 := blockAt_direct _ _ _ (by decide)
    have d1 : blockAt st2 ip2 1 = ip2.addrs 1 := blockAt_direct _ _ _ (by decide)
    have hind : ip2.addrs NDIRECT = 0 := by
      rw [hp.ind_direct (by decide)]
      exact hz NDIRECT (le_refl _)
    refine ⟨hr, by rw [← d0]; exact h0, by rw [← d1]; exact h1, ?_, ?_, ?_, ?_⟩
    · intro he
      have := hp.ok.blk_inj 0 1 (by decide) (by decide) h0 (by rw [d0, d1]; exact he)
      omega
    · intro i hi1 hi2
      by_cases hi3 : i = NDIRECT
      · rw [hi3]; exact hind
      · have hi4 : i < NDIRECT := by omega
        rw [← blockAt_direct st2 ip2 i hi4]
        exact hout i (by simp only [MAXFILE_eq, NDIRECT_eq] at *; omega) hi1
    · rw [hp.size, hsz]; rfl
    · intro b hb
      rw [hp.bits b hb]
      constructor
      · rintro (h | ⟨hb0, ⟨x, hx, -, h2⟩ | ⟨-, h2⟩⟩)
        · exact Or.inl h
        · by_cases hx2 : 2 ≤ x
          · exact absurd (by rw [← h2, hout x hx hx2]) hb0
          · have hx3 : x = 0 ∨ x = 1 := by omega
            rcases hx3 with rfl | rfl
            · exact Or.inr (Or.inl (by rw [← h2, d0]))
            · exact Or.inr (Or.inr (by rw [← h2, d1]))
        · exact absurd (by rw [← h2, hind]) hb0
      · rintro (h | h | h)
        · exact Or.inl h
        · exact Or.inr ⟨by rw [h, ← d0]; exact h0,
            Or.inl ⟨0, by decide, hst 0, by rw [h, d0]⟩⟩
        · exact Or.inr ⟨by rw [h, ← d1]; exact h1,
            Or.inl ⟨1, by decide, hst 1, by rw [h, d1]⟩⟩
  · intro hn0 hw
    have hg : off ≤ ip.size ∧ off + n ≤ MAXFILE * BSIZE := by
      by_contra hc
      rw [writei_reject st ip src off n ht hoff hn (by
        simp only [MAXFILE_eq, BSIZE_eq, U32_eq] at *
        omega)] at hw
      simp only [Except.ok.injEq, Prod.mk.injEq] at hw
      omega
    obtain ⟨-, hp⟩ := writei_post hok ht hg.1 hg.2 hw
    refine ⟨?_, hp.bits⟩
    intro x hx
    refine ⟨?_, hp.kept_map x hx, ?_⟩
    · rintro ⟨h1, h2⟩
      have hi : x * 512 - off < n := by
        simp only [BSIZE_eq] at h1 h2
        omega
      have := (hp.written (x * 512 - off) hi).1
      have he : (off + (x * 512 - off)) / BSIZE = x := by
        simp only [BSIZE_eq] at h1 h2 ⊢
        omega
      rw [he] at this
      exact this
    · intro hnot
      apply hp.outside_map x hx
      intro i hi he
      apply hnot
      simp only [BSIZE_eq] at he ⊢
      omega

/-- C6, witness: the write of 600 bytes at offset 0 of the fresh inode 2 of the
sample image. -/
theorem writei_allocation_witness :
    ∃ st2 ip2, writei fs0 (freshFile 2) (fun i => i % 251) 0 600 = Except.ok (600, st2, ip2) ∧
      ip2.addrs 0 ≠ 0 ∧ ip2.addrs 1 ≠ 0 ∧ ip2.addrs 0 ≠ ip2.addrs 1 ∧
      (∀ i, 2 ≤ i → i ≤ NDIRECT → ip2.addrs i = 0) ∧ ip2.size = 600 ∧
      (∀ b, b < 1000 → (bitSet st2 1 b ↔ (bitSet fs0 1 b ∨ b = ip2.addrs 0 ∨ b = ip2.addrs 1))) := by
  obtain ⟨⟨st2, ip2⟩, hw⟩ := retOf_eq_some writei_600_ret
  have h := (writei_allocation fs0 (freshFile 2) (fun i => i % 251) 0 600 600 st2 ip2
    freshFile_ok (freshFile_type 2) (by decide) (by decide)).1 rfl (fun _ _ => rfl) hw
  exact ⟨st2, ip2, hw, h.2⟩

/-- C7: `bmap(ip, bn)` on a well-formed inode.  For `bn < NDIRECT` (12) it
returns `ip.addrs[bn]` when that is non-zero, and otherwise the block `balloc`
hands out, stored into `ip.addrs[bn]`.  For `12 ≤ bn < 12 + NINDIRECT` (140) it
returns entry `bn - 12` of the indirect block `ip.addrs[NDIRECT]` when both are
non-zero; a zero entry is filled with a block from `balloc`; a zero
`ip.addrs[NDIRECT]` is first filled with a block from `balloc`, then the entry.
For `bn ≥ 140` it panics with "bmap: out of range".  When the logical block is
mapped, `bmap` changes no state; so after a `bmap` that returned `a`, a second
call with the same `bn` returns `a` again and changes nothing (no allocation). -/
theorem bmap_spec (st : FS) (ip : Inode) (bn : Nat) (hok : InodeOk st ip) :
    NDIRECT = 12 ∧ NDIRECT + NINDIRECT = 140 ∧
    (bn < NDIRECT → ip.addrs bn ≠ 0 → bmap st ip bn = Except.ok (ip.addrs bn, st, ip)) ∧
    (bn < NDIRECT → ip.addrs bn = 0 → ∀ b st1, balloc st ip.dev = Except.ok (b, st1) →
      ¬ bitSet st ip.dev b ∧ bmap st ip bn = Except.ok (b, st1, ip.setAddr bn b)) ∧
    (NDIRECT ≤ bn → bn < NDIRECT + NINDIRECT → ip.addrs NDIRECT ≠ 0 →
      getU32 (st.disk ip.dev (ip.addrs NDIRECT)) (bn - NDIRECT) ≠ 0 →
      bmap st ip bn =
        Except.ok (getU32 (st.disk ip.dev (ip.addrs NDIRECT)) (bn - NDIRECT), st, ip)) ∧
    (NDIRECT ≤ bn → bn < NDIRECT + NINDIRECT → ip.addrs NDIRECT ≠ 0 →
      getU32 (st.disk ip.dev (ip.addrs NDIRECT)) (bn - NDIRECT) = 0 →
      ∀ b st1, balloc st ip.dev = Except.ok (b, st1) →
        bmap st ip bn =
          Except.ok (b, setEntry st1 ip.dev (ip.addrs NDIRECT) (bn - NDIRECT) b, ip)) ∧
    (NDIRECT ≤ bn → bn < NDIRECT + NINDIRECT → ip.addrs NDIRECT = 0 →
      ∀ a st1 b st2, balloc st ip.dev = Except.ok (a, st1) →
        balloc st1 ip.dev = Except.ok (b, st2) →
        bmap st ip bn =
          Except.ok (b, setEntry st2 ip.dev a (bn - NDIRECT) b, ip.setAddr NDIRECT a)) ∧
    (NDIRECT + NINDIRECT ≤ bn → bmap st ip bn = Except.error Panic.bmapOutOfRange) ∧
    (bn < NDIRECT + NINDIRECT → blockAt st ip bn ≠ 0 →
      bmap st ip bn = Except.ok (blockAt st ip bn, st, ip)) ∧
    (bn < NDIRECT + NINDIRECT → ∀ a st2 ip2, bmap st ip bn = Except.ok (a, st2, ip2) →
      a ≠ 0 ∧ blockAt st2 ip2 bn = a ∧ bmap st2 ip2 bn = Except.ok (a, st2, ip2)) := by
  have hfs := hok.fs
  refine ⟨rfl, rfl, ?_, ?_, ?_, ?_, ?_, ?_, ?_, ?_⟩
  · intro h1 h2
    unfold bmap log_write
    rw [if_pos h1, if_neg h2]
    rfl
  · intro h1 h2 b st1 hb
    refine ⟨(balloc_eq_ok hfs hb).2.1, ?_⟩
    unfold bmap log_write
    rw [if_pos h1, if_pos h2, hb]
    rfl
  · intro h1 h2 h3 h4
    have hm : blockAt st ip bn ≠ 0 := by
      rw [blockAt_indirect st ip bn h1 h3]; exact h4
    rw [bmap_mapped hok h2 hm, blockAt_indirect st ip bn h1 h3]
  · intro h1 h2 h3 h4 b st1 hb
    obtain ⟨i1, i2, i3⟩ := hok.ind_data h3
    have hlt : ip.addrs NDIRECT < FSSIZE := by have := hfs.size_le; omega
    unfold bmap log_write
    rw [if_neg (by omega)]
    simp only
    rw [if_pos (by omega), if_neg h3]
    simp only [pure_eq_ok, bind_ok_eq]
    rw [bread_ok hfs.disk_present hlt]
    simp only [bind_ok_eq]
    rw [if_pos h4, hb]
    rfl
  · intro h1 h2 h3 a st1 b st2 ha hb
    obtain ⟨a1, a2, -, a4⟩ := balloc_eq_ok hfs ha
    subst a4
    have hlt : a < FSSIZE := by have := hfs.size_le; omega
    have hz : getU32 ((allocated st ip.dev a).disk ip.dev a) (bn - NDIRECT) = 0 :=
      getU32_zero _ _ (by omega) (fun i hi2 => allocated_zero i hi2)
    unfold bmap log_write
    rw [if_neg (by omega)]
    simp only
    rw [if_pos (by omega), if_pos h3, ha]
    simp only [pure_eq_ok, bind_ok_eq, setAddr_dev]
    rw [bread_ok (by simpa [allocated_havedisk1] using hfs.disk_present) hlt]
    simp only [bind_ok_eq]
    rw [if_pos hz, hb]
    rfl
  · intro h1
    unfold bmap log_write
    rw [if_neg (by simp only [NDIRECT_eq, NINDIRECT_eq] at *; omega)]
    simp only
    rw [if_neg (by simp only [NDIRECT_eq, NINDIRECT_eq] at *; omega)]
  · intro h1 h2
    exact bmap_mapped hok h1 h2
  · intro h1 a st2 ip2 h
    have hp := bmap_post hok h1 h
    refine ⟨hp.addr_ne, hp.addr, ?_⟩
    have := bmap_mapped hp.ok h1 (by rw [hp.addr]; exact hp.addr_ne)
    rw [hp.addr] at this
    exact this

/-- C7, witness: on the sample image `bmap` of block 0 of the fresh inode 2
returns the first free block, 59, stored in `addrs[0]`; `bmap` of block 140
panics. -/
theorem bmap_spec_witness :
    bmap fs0 (freshFile 2) 0 =
      Except.ok (59, allocated fs0 1 59, (freshFile 2).setAddr 0 59) ∧
    bmap (allocated fs0 1 59) ((freshFile 2).setAddr 0 59) 0 =
      Except.ok (59, allocated fs0 1 59, (freshFile 2).setAddr 0 59) ∧
    bmap fs0 (freshFile 2) 140 = Except.error Panic.bmapOutOfRange := by
  have h0 := bmap_spec fs0 (freshFile 2) 0 freshFile_ok
  have h140 := bmap_spec fs0 (freshFile 2) 140 freshFile_ok
  have e := (h0.2.2.2.1 (by decide) rfl 59 (allocated fs0 1 59) balloc_fs0).2
  exact ⟨e, (h0.2.2.2.2.2.2.2.2.2 (by decide) _ _ _ e).2.2, h140.2.2.2.2.2.2.2.1 (by decide)⟩

/-- The call `balloc` on the images of the blocks, every `bread` served: on a
well-formed file system, whose bitmap marks every non-data block (boot,
super, log, inode, bitmap) as in use, `balloc(dev)` returns the smallest block
number `b` in `[0, sb.size)` whose bitmap bit (byte `(b % 4096) / 8`, bit
`b % 8`, of block `bmapstart + b / 4096`) is clear; afterwards that bit is set,
the bit of every other block covered by the bitmap is unchanged, and data block
`b` is 512 zero bytes.  It ends in "out of blocks" exactly when no block of
`[0, sb.size)` has a clear bit, and two successive calls never return the same
block.  The panic of `bget` is not in this picture: `Cached.balloc` has it. -/
theorem balloc_spec (st : FS) (dev : Nat) (hfs : FsOk st dev) :
    (∀ b, b < st.sb.size → BBLOCK b st.sb = st.sb.bmapstart + b / 4096 ∧
      (bitSet st dev b ↔
        st.disk dev (st.sb.bmapstart + b / 4096) (b % 4096 / 8) &&& (1 <<< (b % 8)) ≠ 0)) ∧
    (∀ b, b < st.sb.size → ¬ bitSet st dev b → (∀ j, j < b → bitSet st dev j) →
      ∃ st2, balloc st dev = Except.ok (b, st2) ∧ bitSet st2 dev b ∧
        (∀ c, c / BPB ≤ st.sb.size / BPB → c ≠ b → (bitSet st2 dev c ↔ bitSet st dev c)) ∧
        (∀ i, i < 512 → st2.disk dev b i = 0)) ∧
    (∀ b st2, balloc st dev = Except.ok (b, st2) →
      b < st.sb.size ∧ ¬ bitSet st dev b ∧ (∀ j, j < b → bitSet st dev j)) ∧
    ((∃ e, balloc st dev = Except.error e) ↔ ∀ b, b < st.sb.size → bitSet st dev b) ∧
    (∀ e, balloc st dev = Except.error e → e = Panic.ballocOutOfBlocks) ∧
    (∀ b1 st1 b2 st2, balloc st dev = Except.ok (b1, st1) →
      balloc st1 dev = Except.ok (b2, st2) → b1 ≠ b2) := by
  refine ⟨?_, ?_, ?_, ?_, ?_, ?_⟩
  · intro b hb
    obtain ⟨e1, -, -, -⟩ := hfs.bmap_block_lt (Nat.div_le_div_right (le_of_lt hb))
    rw [BPB_eq] at e1
    refine ⟨e1, ?_⟩
    unfold bitSet
    rw [e1, BPB_eq]
  · intro b hb hc hl
    have hq : b / BPB ≤ st.sb.size / BPB := Nat.div_le_div_right (le_of_lt hb)
    refine ⟨allocated st dev b, balloc_least hfs hb hc hl, ?_, ?_, ?_⟩
    · exact (allocated_bitSet hfs hb hc b hq).mpr (Or.inr rfl)
    · intro c hcq hne
      rw [allocated_bitSet hfs hb hc c hcq]
      constructor
      · rintro (h | h)
        · exact h
        · exact absurd h hne
      · intro h; exact Or.inl h
    · intro i hi
      exact allocated_zero i hi
  · intro b st2 h
    obtain ⟨a1, a2, a3, -⟩ := balloc_eq_ok hfs h
    exact ⟨a1, a2, a3⟩
  · constructor
    · rintro ⟨e, he⟩
      exact (balloc_eq_error hfs he).2
    · intro hall
      cases h : balloc st dev with
      | error e => exact ⟨e, rfl⟩
      | ok p =>
        obtain ⟨b, st2⟩ := p
        obtain ⟨a1, a2, -, -⟩ := balloc_eq_ok hfs h
        exact absurd (hall b a1) a2
  · intro e he
    exact (balloc_eq_error hfs he).1
  · intro b1 st1 b2 st2 h1 h2 he
    obtain ⟨a1, a2, -, a4⟩ := balloc_eq_ok hfs h1
    subst a4
    obtain ⟨c1, c2, -, -⟩ := balloc_eq_ok (allocated_fsOk hfs a1 a2) h2
    apply c2
    rw [← he]
    exact (allocated_bitSet hfs a1 a2 b1 (Nat.div_le_div_right (le_of_lt a1))).mpr (Or.inr rfl)

/-- The calls `balloc` then `bfree` on the images of the blocks, every `bread`
served: in a well-formed file system in which `balloc(dev)` returns a block
`b`, the following `bfree(dev, b)` returns and leaves the allocation bitmap
(every bitmap block, byte for byte, hence every bit) as it was before the
`balloc`; the super block and every other block but `b` are as before too.
The panic of `bget` is not in this picture: `Cached.bfree` has it. -/
theorem balloc_bfree_bitmap (st : FS) (dev b : Nat) (st1 : FS) (hfs : FsOk st dev)
    (h : balloc st dev = Except.ok (b, st1)) :
    ∃ st2, bfree st1 dev b = Except.ok st2 ∧
      (∀ k, k ≤ st.sb.size / BPB →
        st2.disk dev (st.sb.bmapstart + k) = st.disk dev (st.sb.bmapstart + k)) ∧
      (∀ c, c < st.sb.size → (bitSet st2 dev c ↔ bitSet st dev c)) ∧
      st2.sb = st.sb ∧ (∀ c, c ≠ b → st2.disk dev c = st.disk dev c) := by
  obtain ⟨a1, a2, -, a4⟩ := balloc_eq_ok hfs h
  subst a4
  have hfs1 := allocated_fsOk hfs a1 a2
  have hq : b / BPB ≤ st.sb.size / BPB := Nat.div_le_div_right (le_of_lt a1)
  have hset : bitSet (allocated st dev b) dev b := (allocated_bitSet hfs a1 a2 b hq).mpr (Or.inr rfl)
  have hrd := hfs.clear_is_data a2
  have hbm : ∀ k, k ≤ st.sb.size / BPB →
      (markFree (allocated st dev b) dev b).disk dev (st.sb.bmapstart + k) =
        st.disk dev (st.sb.bmapstart + k) := by
    intro k hk
    exact markFree_allocated hfs a1 a2 _ (by unfold dataStart at hrd; omega)
  refine ⟨markFree (allocated st dev b) dev b, bfree_ok hfs1 a1 hset, hbm, ?_, rfl,
    fun c hc => markFree_allocated hfs a1 a2 c hc⟩
  intro c hc
  obtain ⟨e1, -, -, -⟩ := hfs.bmap_block_lt (Nat.div_le_div_right (le_of_lt hc))
  unfold bitSet
  have hsb : (markFree (allocated st dev b) dev b).sb = st.sb := rfl
  rw [hsb, e1, hbm _ (Nat.div_le_div_right (le_of_lt hc))]

/-- C15: from a cache with every `ref == 0`, after any sequence of `iget`,
`idup`, `ilock` and `iput` calls that return (`idup`, `ilock` and `iput` on a
reference the caller holds; fewer than 2^31 - 1 calls, so that the `int` count
cannot overflow): the `ref` of each slot is the number of references held to
it, and no two slots with `ref > 0` carry the same `(dev, inum)`.  In such a
state `iget` returns the slot in use that holds `(dev, inum)` with `ref`
incremented, and when there is none it claims the lowest slot with `ref == 0`,
setting `dev`, `inum`, `ref = 1` and `valid = 0`. -/
theorem icache_one_slot_per_inode (st : FS) (ic0 : ICache) (evs : List IEv) (s : ISys)
    (h0 : ∀ i, (ic0 i).ref = 0) (hlen : evs.length < 2147483647)
    (hrun : irun { fs := st, ic := ic0, held := [] } evs = Except.ok s) :
    (∀ i, i < NINODE → (s.ic i).ref = (s.held.count i : Int)) ∧
    (∀ i j, i < NINODE → j < NINODE → i ≠ j → 0 < (s.ic i).ref → 0 < (s.ic j).ref →
      ¬ ((s.ic i).dev = (s.ic j).dev ∧ (s.ic i).inum = (s.ic j).inum)) ∧
    (∀ dev inum i, i < NINODE → 0 < (s.ic i).ref → (s.ic i).dev = dev → (s.ic i).inum = inum →
      iget s.ic dev inum =
        Except.ok (i, s.ic.set i { s.ic i with ref := (s.ic i).ref + 1 })) ∧
    (∀ dev inum z,
      (∀ j, j < NINODE → ¬ (0 < (s.ic j).ref ∧ (s.ic j).dev = dev ∧ (s.ic j).inum = inum)) →
      z < NINODE → (s.ic z).ref = 0 → (∀ j, j < z → (s.ic j).ref ≠ 0) →
      iget s.ic dev inum = Except.ok (z,
        s.ic.set z { s.ic z with dev := dev, inum := inum, ref := 1, valid := 0 })) := by
  have hinit : IInv { fs := st, ic := ic0, held := [] } :=
    { slots := fun i hi => absurd hi (List.not_mem_nil _)
      count := fun i _ => by rw [h0 i]; rfl
      uniq := fun i _ _ _ _ h1 _ => by rw [h0 i] at h1; exact absurd h1 (lt_irrefl _) }
  obtain ⟨hinv, hl⟩ := irun_inv evs _ s hinit (by simp; omega) hrun
  simp only [List.length_nil, Nat.zero_add] at hl
  refine ⟨hinv.count, hinv.uniq, ?_, ?_⟩
  · intro dev inum i hi hpos hdev hinum
    have hfirst : ∀ j, j < i →
        ¬ (0 < (s.ic j).ref ∧ (s.ic j).dev = dev ∧ (s.ic j).inum = inum) := by
      intro j hj hm
      exact hinv.uniq j i (by omega) hi (by omega) hm.1 hpos
        ⟨by rw [hm.2.1, hdev], by rw [hm.2.2, hinum]⟩
    rw [iget_hit hi ⟨hpos, hdev, hinum⟩ hfirst]
    have hc := hinv.count i hi
    have := count_le_length_nat i s.held
    rw [int32_small _ (by omega) (by omega)]
  · intro dev inum z hno hz h0z hfirst
    exact iget_miss hz hno h0z hfirst

set_option maxRecDepth 1000000 in
theorem sample_icache_run :
    okAnd (fun s => decide (s.held = [0, 0, 0] ∧ (s.ic 0).ref = 3 ∧ (s.ic 0).dev = 1 ∧
        (s.ic 0).inum = 1 ∧ (s.ic 1).ref = 0))
      (irun { fs := fs0, ic := icache0, held := [] }
        [IEv.iget 1 1, IEv.iget 1 2, IEv.idup 0, IEv.iput 1, IEv.iget 1 1]) = true := by
  decide!

/-- C15, witness: `iget(1, 1)`, `iget(1, 2)`, `idup` of the first, `iput` of
the second, `iget(1, 1)` again: slot 0 holds inode 1 with three references,
and a further `iget(1, 1)` returns slot 0 with `ref = 4`. -/
theorem icache_one_slot_per_inode_witness :
    ∃ s, irun { fs := fs0, ic := icache0, held := [] }
        [IEv.iget 1 1, IEv.iget 1 2, IEv.idup 0, IEv.iput 1, IEv.iget 1 1] = Except.ok s ∧
      (s.ic 0).ref = 3 ∧
      iget s.ic 1 1 = Except.ok (0, s.ic.set 0 { s.ic 0 with ref := (s.ic 0).ref + 1 }) := by
  obtain ⟨s, h1, h2⟩ := okAnd_true sample_icache_run
  simp only [decide_eq_true_eq] at h2
  have h := icache_one_slot_per_inode fs0 icache0 _ s (fun _ => rfl) (by decide) h1
  exact ⟨s, h1, h2.2.1, h.2.2.1 1 1 0 (by decide) (by rw [h2.2.1]; decide) h2.2.2.1
    h2.2.2.2.1⟩

/-- The call `ialloc` on the images of the blocks, every `bread` served: on a
well-formed file system whose inode blocks lie in front of the bitmap,
`ialloc(dev, type)` with a `short` `type`.  When `inum` is the smallest number
in `[1, sb.ninodes)` whose on-disk inode has `type == 0`, `ialloc` marks it
allocated and then does what `iget(dev, inum)` does, its panic "iget: no
inodes" included: that on-disk inode has the given type, its `major`, `minor`,
`nlink`, `size` and every `addrs` entry are zero, and every other on-disk
inode, and every byte of the disk outside the record, is unchanged.  It ends
in "ialloc: no inodes" exactly when no on-disk inode in that range is free, the
only other panic is that of `iget`, and a returned inode never has number 0.
The panic of `bget` is not in this picture: `Cached.ialloc` has it. -/
theorem ialloc_claims_first_free (st : FS) (ic : ICache) (dev : Nat) (type : Int)
    (hfs : FsOk st dev) (har : InodeArea st) (h1 : -32768 ≤ type) (h2 : type < 32768) :
    (∀ inum, 1 ≤ inum → inum < st.sb.ninodes → (readDinode st dev inum).type = 0 →
      (∀ j, 1 ≤ j → j < inum → (readDinode st dev j).type ≠ 0) →
      ialloc st ic dev type =
        (iget ic dev inum >>= fun r => pure (r.1, claimed st dev inum type, r.2)) ∧
      (readDinode (claimed st dev inum type) dev inum).type = type ∧
      (readDinode (claimed st dev inum type) dev inum).major = 0 ∧
      (readDinode (claimed st dev inum type) dev inum).minor = 0 ∧
      (readDinode (claimed st dev inum type) dev inum).nlink = 0 ∧
      (readDinode (claimed st dev inum type) dev inum).size = 0 ∧
      (∀ i, i ≤ NDIRECT → (readDinode (claimed st dev inum type) dev inum).addrs i = 0) ∧
      (∀ d j, j < U32 → (d ≠ dev ∨ j ≠ inum) →
        readDinode (claimed st dev inum type) d j = readDinode st d j) ∧
      (∀ d b k, ¬ (d = dev ∧ b = IBLOCK inum st.sb ∧ DINODE_SIZE * (inum % IPB) ≤ k ∧
          k < DINODE_SIZE * (inum % IPB) + DINODE_SIZE) →
        (claimed st dev inum type).disk d b k = st.disk d b k)) ∧
    (ialloc st ic dev type = Except.error Panic.iallocNoInodes ↔
      ∀ inum, 1 ≤ inum → inum < st.sb.ninodes → (readDinode st dev inum).type ≠ 0) ∧
    (∀ e, ialloc st ic dev type = Except.error e →
      e = Panic.iallocNoInodes ∨ e = Panic.igetNoInodes) ∧
    (∀ i st1 ic1, ialloc st ic dev type = Except.ok (i, st1, ic1) →
      (ic1 i).dev = dev ∧ 1 ≤ (ic1 i).inum ∧ (ic1 i).inum < st.sb.ninodes ∧
      (readDinode st dev (ic1 i).inum).type = 0 ∧
      (readDinode st1 dev (ic1 i).inum).type = type) := by
  have hsz : st.sb.ninodes < U32 := by
    by_cases h0 : st.sb.ninodes = 0
    · rw [h0]; decide
    · have := har (st.sb.ninodes - 1) (by omega)
      have h3 := hfs.size_le
      have h4 := hfs.data_in_image
      unfold dataStart at h4
      simp only [FSSIZE_eq, BPB_eq, IPB_eq, U32_eq] at *
      omega
  have hrun : ∀ inum, 1 ≤ inum → inum < st.sb.ninodes → (readDinode st dev inum).type = 0 →
      (∀ j, 1 ≤ j → j < inum → (readDinode st dev j).type ≠ 0) →
      ialloc st ic dev type =
        (iget ic dev inum >>= fun r => pure (r.1, claimed st dev inum type, r.2)) := by
    intro inum hi1 hi2 hfree hused
    unfold ialloc
    rw [iallocLoop_ok hfs har hi2 hfree (st.sb.ninodes + 1) 1 hi1 (by omega) hused]
    rfl
  have hleast : (∃ inum, 1 ≤ inum ∧ inum < st.sb.ninodes ∧ (readDinode st dev inum).type = 0) →
      ∃ inum, 1 ≤ inum ∧ inum < st.sb.ninodes ∧ (readDinode st dev inum).type = 0 ∧
        ∀ j, 1 ≤ j → j < inum → (readDinode st dev j).type ≠ 0 := by
    rintro ⟨m, m1, m2, m3⟩
    obtain ⟨z, z1, z2, z3⟩ := exists_least
      (p := fun j => 1 ≤ j ∧ (readDinode st dev j).type = 0) m2 ⟨m1, m3⟩
    exact ⟨z, z2.1, z1, z2.2, fun j j1 j2 hj => z3 j j2 ⟨j1, not_not.mp (fun x => x hj)⟩⟩
  have hnone : (∀ inum, 1 ≤ inum → inum < st.sb.ninodes → (readDinode st dev inum).type ≠ 0) →
      ialloc st ic dev type = Except.error Panic.iallocNoInodes := by
    intro hused
    unfold ialloc
    rw [iallocLoop_none hfs har (st.sb.ninodes + 1) 1 (by omega)
      (fun j j1 j2 => hused j j1 j2)]
    rfl
  refine ⟨?_, ?_, ?_, ?_⟩
  · intro inum hi1 hi2 hfree hused
    obtain ⟨-, c2, c3, c4, c5, c6, c7, c8⟩ := claimed_spec st dev inum type h1 h2
    exact ⟨hrun inum hi1 hi2 hfree hused, c2, c3, c4, c5, c6, c7,
      fun d j hj hne => claimed_others hfs inum type (by omega) d j hj hne, c8⟩
  · constructor
    · intro herr inum hi1 hi2 hfree
      obtain ⟨z, z1, z2, z3, z4⟩ := hleast ⟨inum, hi1, hi2, hfree⟩
      rw [hrun z z1 z2 z3 z4] at herr
      cases hg : iget ic dev z with
      | error e =>
        rw [hg] at herr
        have := iget_error hg
        rw [this] at herr
        exact Panic.noConfusion (Except.error.inj herr)
      | ok r =>
        rw [hg] at herr
        exact Except.noConfusion herr
    · exact hnone
  · intro e herr
    by_cases hex : ∃ inum, 1 ≤ inum ∧ inum < st.sb.ninodes ∧ (readDinode st dev inum).type = 0
    · obtain ⟨z, z1, z2, z3, z4⟩ := hleast hex
      rw [hrun z z1 z2 z3 z4] at herr
      cases hg : iget ic dev z with
      | error e2 =>
        rw [hg] at herr
        have := iget_error hg
        rw [this] at herr
        exact Or.inr (Except.error.inj herr).symm
      | ok r =>
        rw [hg] at herr
        exact Except.noConfusion herr
    · rw [hnone (fun j j1 j2 hj => hex ⟨j, j1, j2, hj⟩)] at herr
      exact Or.inl (Except.error.inj herr).symm
  · intro i st1 ic1 hok
    by_cases hex : ∃ inum, 1 ≤ inum ∧ inum < st.sb.ninodes ∧ (readDinode st dev inum).type = 0
    · obtain ⟨z, z1, z2, z3, z4⟩ := hleast hex
      rw [hrun z z1 z2 z3 z4] at hok
      obtain ⟨⟨i2, ic2⟩, hg, hok⟩ := bind_eq_ok hok
      simp only [pure_eq_ok, Except.ok.injEq, Prod.mk.injEq] at hok
      obtain ⟨rfl, rfl, rfl⟩ := hok
      obtain ⟨g1, g2⟩ := iget_inum hg
      rw [g2]
      exact ⟨g1, z1, z2, z3, (claimed_spec st dev z type h1 h2).2.1⟩
    · exfalso
      rw [hnone (fun j j1 j2 hj => hex ⟨j, j1, j2, hj⟩)] at hok
      exact Except.noConfusion hok

theorem fs0_inodeArea : InodeArea fs0 := by
  intro inum hi
  have hi2 : inum < 200 := hi
  show inum / IPB + 32 < 58
  simp only [IPB_eq]
  omega

/-- The call `iput` once it has the sleep-lock of the inode, on a held reference
(`1 <= ref`) to a well-formed inode with `valid` 0 or 1: it returns and
decrements `ref` by exactly 1, touching no other slot of the cache.  When
`valid == 1`, `nlink == 0` and `ref == 1` on entry the inode is freed: the
bitmap bit of every block the inode referred to (a non-zero direct entry, a
non-zero entry of the indirect block, the indirect block itself) is clear and
every other bit is as before, the thirteen addresses are 0, `size` is 0, `type`
is 0 in memory and in the on-disk inode, and `valid` is 0.  In every other case
the disk is unchanged and so is the inode but for `ref`.  The wait for the
sleep-lock is not in this picture: `Sleep.iput` has it. -/
theorem iput_frees_or_keeps (st : FS) (ic : ICache) (i : Nat) (hok : InodeOk st (ic i))
    (href : 1 ≤ (ic i).ref) (hmax : (ic i).ref ≤ 2147483647)
    (hv : (ic i).valid = 0 ∨ (ic i).valid = 1) :
    ∃ st2 ic2, iput st ic i = Except.ok (st2, ic2) ∧ (ic2 i).ref = (ic i).ref - 1 ∧
      (∀ j, j ≠ i → ic2 j = ic j) ∧
      (((ic i).valid = 1 ∧ (ic i).nlink = 0 ∧ (ic i).ref = 1) →
        (∀ b, refersTo st (ic i) b → ¬ bitSet st2 (ic i).dev b) ∧
        (∀ b, b < st.sb.size → ¬ refersTo st (ic i) b →
          (bitSet st2 (ic i).dev b ↔ bitSet st (ic i).dev b)) ∧
        (∀ j, j ≤ NDIRECT → (ic2 i).addrs j = 0) ∧ (ic2 i).size = 0 ∧ (ic2 i).type = 0 ∧
        (ic2 i).valid = 0 ∧ (readDinode st2 (ic i).dev (ic i).inum).type = 0) ∧
      (¬ ((ic i).valid = 1 ∧ (ic i).nlink = 0 ∧ (ic i).ref = 1) →
        st2 = st ∧ ic2 i = { ic i with ref := (ic i).ref - 1 }) := by
  have hr : int32 ((ic i).ref - 1) = (ic i).ref - 1 := int32_small _ (by omega) (by omega)
  by_cases hc : (ic i).valid = 1 ∧ (ic i).nlink = 0 ∧ (ic i).ref = 1
  · obtain ⟨c1, c2, c3⟩ := hc
    obtain ⟨st3, h3, hsb3, hok3, hbits3⟩ := itrunc_spec hok
    have hok4 : InodeOk st3 { ic i with
        size := 0, type := 0, addrs := fun j => if j ≤ NDIRECT then 0 else (ic i).addrs j } :=
      inodeOk_congr hok3 rfl rfl rfl rfl
    obtain ⟨st4, h4, -, hsb4, hbits4, htype⟩ := iupdate_type hok4
      (show (-32768 : Int) ≤ 0 by decide) (show (0 : Int) < 32768 by decide)
    have hbits : ∀ b, b < st.sb.size →
        (bitSet st4 (ic i).dev b ↔ (bitSet st (ic i).dev b ∧ ¬ refersTo st (ic i) b)) := by
      intro b hb
      rw [← hbits3 b hb]
      exact hbits4 b (by rw [hsb3]; exact hb)
    refine ⟨st4, ic.set i { ic i with
        size := 0, type := 0, valid := 0, ref := int32 ((ic i).ref - 1),
        addrs := fun j => if j ≤ NDIRECT then 0 else (ic i).addrs j }, ?_, ?_,
      fun j hj => ICache.set_other _ _ _ _ hj,
      fun _ => ⟨?_, ?_, ?_, ?_, ?_, ?_, ?_⟩, fun hn => absurd ⟨c1, c2, c3⟩ hn⟩
    · unfold iput
      simp only
      rw [if_pos ⟨by rw [c1]; decide, c2⟩, if_pos c3, h3]
      simp only [bind_ok_eq]
      rw [h4]
      rfl
    · rw [ICache.set_same]
      exact hr
    · intro b hb
      exact fun hs => ((hbits b (refersTo_lt hok hb)).mp hs).2 hb
    · intro b hb hn
      rw [hbits b hb]
      exact ⟨fun h => h.1, fun h => ⟨h, hn⟩⟩
    · intro j hj
      rw [ICache.set_same]
      exact if_pos hj
    · rw [ICache.set_same]
    · rw [ICache.set_same]
    · rw [ICache.set_same]
    · exact htype
  · refine ⟨st, ic.set i { ic i with ref := int32 ((ic i).ref - 1) },
      iput_keep st ic i (fun h => ?_), ?_, fun j hj => ICache.set_other _ _ _ _ hj,
      fun h => absurd h hc, fun _ => ⟨rfl, ?_⟩⟩
    · rcases hv with hv | hv
      · exact h.1 hv
      · exact hc ⟨hv, h.2⟩
    · rw [ICache.set_same]
      exact hr
    · rw [ICache.set_same, hr]

set_option maxRecDepth 1000000 in
theorem holey_readi_run :
    okAnd (fun ip => decide (ip.valid = 1 ∧ ip.type = T_FILE ∧ ip.size = 512 ∧
        Mirror holeyFs ip) &&
      okAnd (fun r => decide (r.1 = 1 ∧ r.2.2.1.valid = 1 ∧ r.2.2.1.addrs 0 = 59 ∧
          (readDinode r.2.1 1 2).addrs 0 = 0 ∧ r.2.2.1.dev = 1 ∧ r.2.2.1.inum = 2))
        (readi holeyFs ip (fun _ => 0) 0 1))
      (ilock holeyFs holeyRef) = true := by
  decide!

set_option maxRecDepth 1000000 in
theorem holey_writei_run :
    okAnd (fun ip =>
      okAnd (fun r => decide (r.1 = 1 ∧ r.2.2.valid = 1 ∧ r.2.2.addrs 0 = 59 ∧
          (readDinode r.2.1 1 2).addrs 0 = 0 ∧ r.2.2.dev = 1 ∧ r.2.2.inum = 2))
        (writei holeyFs ip (fun _ => 120) 0 1))
      (ilock holeyFs holeyRef) = true := by
  decide!

/-- C18: inode 2 of the image `holeyFs` is a regular file of size 512 with no
block mapped.  `ilock` reads it from disk, and the in-memory inode mirrors the
record.  `readi(ip, dst, 0, 1)` then returns 1 with `valid == 1`, yet `bmap`
has stored block 59 into `ip.addrs[0]` while the on-disk record still has
`addrs[0] == 0`: the in-memory inode does not mirror its disk record when the
call returns, and no `iupdate` has flushed the address that `bmap` stored.
The same happens with `writei(ip, src, 0, 1)`, which does not grow the file and
so skips its `iupdate`. -/
theorem mirror_broken_by_bmap :
    ∃ ip, ilock holeyFs holeyRef = Except.ok ip ∧ ip.valid = 1 ∧ Mirror holeyFs ip ∧
      (∃ st2 ip2 dst2, readi holeyFs ip (fun _ => 0) 0 1 = Except.ok (1, st2, ip2, dst2) ∧
        ip2.valid = 1 ∧ ip2.addrs 0 = 59 ∧ (readDinode st2 ip2.dev ip2.inum).addrs 0 = 0 ∧
        ¬ Mirror st2 ip2) ∧
      (∃ st2 ip2, writei holeyFs ip (fun _ => 120) 0 1 = Except.ok (1, st2, ip2) ∧
        ip2.valid = 1 ∧ ip2.addrs 0 = 59 ∧ (readDinode st2 ip2.dev ip2.inum).addrs 0 = 0 ∧
        ¬ Mirror st2 ip2) := by
  obtain ⟨ip, h1, h2⟩ := okAnd_true holey_readi_run
  obtain ⟨ip1, k1, k2⟩ := okAnd_true holey_writei_run
  rw [h1] at k1
  have e : ip1 = ip := by
    simp only [Except.ok.injEq] at k1
    exact k1.symm
  subst e
  simp only [Bool.and_eq_true, decide_eq_true_eq] at h2
  obtain ⟨⟨v, -, -, hm⟩, h3⟩ := h2
  obtain ⟨⟨r, st2, ip2, dst2⟩, h4, h5⟩ := okAnd_true h3
  simp only [decide_eq_true_eq] at h5
  obtain ⟨r1, r2, r3, r4, r5, r6⟩ := h5
  obtain ⟨⟨w, st3, ip3⟩, k4, k5⟩ := okAnd_true k2
  simp only [decide_eq_true_eq] at k5
  obtain ⟨w1, w2, w3, w4, w5, w6⟩ := k5
  refine ⟨ip1, h1, v, hm, ⟨st2, ip2, dst2, ?_, r2, r3, ?_, ?_⟩, ⟨st3, ip3, ?_, w2, w3, ?_, ?_⟩⟩
  · rw [h4, r1]
  · rw [r5, r6]; exact r4
  · intro hmir
    have := hmir.2.2.2.2.2 0 (by decide)
    rw [r5, r6, r3, r4] at this
    exact absurd this (by decide)
  · rw [k4, w1]
  · rw [w5, w6]; exact w4
  · intro hmir
    have := hmir.2.2.2.2.2 0 (by decide)
    rw [w5, w6, w3, w4] at this
    exact absurd this (by decide)

/-- Where `bmap` has nothing to allocate, or `writei` grows the file, the mirror
is kept: an in-memory inode that mirrors its disk record, or has `valid == 0`,
mirrors it after `ilock` returned.  If moreover the inode is well formed, its
file has no holes (every block below `size` is mapped) and its `short` fields
hold `short`s, then `readi` returns and changes neither the inode nor the disk,
and after a `writei` that returned, `valid == 1` implies that the inode mirrors
its record again, and the inode is again well formed and without holes.
`writei` ends in no other panic than that of `balloc` or of the disk driver. -/
theorem mirror_kept_without_holes (st : FS) (ip : Inode) (hpre : ip.valid = 0 ∨ Mirror st ip) :
    (∀ ip2, ilock st ip = Except.ok ip2 → Mirror st ip2) ∧
    (InodeOk st ip → NoHoles st ip → ShortFields ip →
      (∀ dst off n, off < U32 → n < U32 →
        ∃ r dst2, readi st ip dst off n = Except.ok (r, st, ip, dst2)) ∧
      (∀ src off n, off < U32 → n < U32 →
        (∀ r st2 ip2, writei st ip src off n = Except.ok (r, st2, ip2) →
          (ip2.valid = 1 → Mirror st2 ip2) ∧ InodeOk st2 ip2 ∧ NoHoles st2 ip2 ∧
            ShortFields ip2) ∧
        (∀ e, writei st ip src off n = Except.error e → IoPanic e))) := by
  refine ⟨fun ip2 h => ilock_mirror hpre h, fun hok hnh hs =>
    ⟨fun dst off n hoff hn => readi_same hok hnh dst hoff hn, fun src off n hoff hn => ⟨?_, ?_⟩⟩⟩
  · intro r st2 ip2 h
    obtain ⟨m1, m2, m3, m4, m5⟩ := writei_mirror hok hnh hs hoff hn h
    refine ⟨fun hv => ?_, m3, m4, m5⟩
    rcases hpre with h0 | hm
    · rw [m2, h0] at hv
      exact absurd hv (by decide)
    · exact m1 hm
  · intro e h
    by_cases ht : ip.type = T_DEV
    · unfold writei at h
      rw [if_pos ht] at h
      split_ifs at h
      split at h
      · exact Except.noConfusion h
      · exact Except.noConfusion h
    · exact (writei_any st ip src off n ht hoff hn).2 e h

/-- C19: for a well-formed directory `dp` (type `T_DIR`, size a multiple of 16,
no holes) held in slot `d` of the inode cache, a name that no entry in use
carries and an inode number from 1 to 65535, with `t` the offset of the first
entry that has `inum == 0`, or the size when there is none.  Whenever
`dirlink(dp, name, inum)` returns, it returns 0; the new entry is at `t` and
holds `inum`; the size is the larger of the old size and `t + 16`, so that the
directory grows by exactly 16 bytes when there was no free entry and not at
all otherwise; all other entries are unchanged; and whenever
`dirlookup(dp, name, &off)` then returns, it returns an inode `(dp.dev, inum)`
with `off = t` and leaves the disk alone.  `dirlink` does return when the
directory can take the entry: when it has to grow, it stays within the largest
file size, and its last block has room or two blocks are free; otherwise it
panics, in "dirlink", in `balloc` or in the disk driver.  `dirlookup` does
return when the inode cache has a slot to spare, and otherwise panics in
`iget`. -/
theorem dirlink_then_dirlookup (st : FS) (ic : ICache) (d : Nat) (name : Mem) (inum t : Nat)
    (hd : DirOk st (ic d))
    (hno : ∀ o, o % DIRENT_SIZE = 0 → o < (ic d).size → ¬ entNamed st (ic d) name o)
    (h1 : 1 ≤ inum) (h2 : inum ≤ 65535) (hfree : firstFree st (ic d) t) :
    ((t = (ic d).size → (ic d).size + DIRENT_SIZE ≤ MAXFILE * BSIZE ∧
        ((ic d).size % BSIZE ≠ 0 ∨ ∃ b1 b2, b1 < st.sb.size ∧ b2 < st.sb.size ∧ b1 ≠ b2 ∧
          ¬ bitSet st (ic d).dev b1 ∧ ¬ bitSet st (ic d).dev b2)) →
      ∃ st3 dp3, dirlink st ic d name inum = Except.ok (0, st3, ic.set d dp3)) ∧
    (∀ e, dirlink st ic d name inum = Except.error e →
      e = Panic.dirlinkShortWrite ∨ IoPanic e) ∧
    (∀ r st3 ic3, dirlink st ic d name inum = Except.ok (r, st3, ic3) →
      r = 0 ∧ ∃ dp3, ic3 = ic.set d dp3 ∧
        dp3.size = max (ic d).size (t + DIRENT_SIZE) ∧
        (t = (ic d).size → dp3.size = (ic d).size + 16) ∧
        (t < (ic d).size → dp3.size = (ic d).size) ∧
        (∀ o, o % DIRENT_SIZE = 0 → o < (ic d).size → o ≠ t →
          dirent st3 dp3 o = dirent st (ic d) o) ∧
        deInum (dirent st3 dp3 t) = inum ∧
        ((∃ z, z < NINODE ∧ z ≠ d ∧ (ic z).ref = 0) → ∃ i ic4,
          dirlookup st3 ic3 d name = Except.ok (some (i, t), st3, ic4)) ∧
        (∀ res st4 ic4, dirlookup st3 ic3 d name = Except.ok (res, st4, ic4) →
          ∃ i, res = some (i, t) ∧ st4 = st3 ∧ (ic4 i).dev = (ic d).dev ∧ (ic4 i).inum = inum) ∧
        (∀ e, dirlookup st3 ic3 d name = Except.error e → e = Panic.igetNoInodes)) := by
  refine ⟨fun hroom => ?_, fun e h => dirlink_new_error hd hno hfree h, ?_⟩
  · obtain ⟨st3, dp3, h, -⟩ := dirlink_new hd hno h1 (by omega) hfree hroom
    exact ⟨st3, dp3, h⟩
  intro r st3 ic3 h
  obtain ⟨hr, dp3, rfl, hsize, hfields, hd3, hkept, hin, hnamed, hfirst⟩ :=
    dirlink_new_post hd hno h1 (by omega) hfree h
  have hw := hd.whole
  have hsize2 := hsize
  have ht := hfree.1
  have ht2 := hfree.2.1
  simp only [DIRENT_SIZE_eq] at hsize2 hw ht
  have hd4 : DirOk st3 ((ic.set d dp3) d) := by rw [ICache.set_same]; exact hd3
  have hlt : t < ((ic.set d dp3) d).size := by
    rw [ICache.set_same, hsize2]
    omega
  have hdev : dp3.dev = (ic d).dev := by rw [hfields]
  obtain ⟨l1, l2, l3⟩ := dirlookup_at hd4 hfree.1 hlt (by rw [ICache.set_same]; exact hnamed)
    (by rw [ICache.set_same]; exact hfirst)
  refine ⟨hr, dp3, rfl, hsize, fun e => by omega, fun e => by omega, hkept, hin, ?_, ?_, l3⟩
  · rintro ⟨z, z1, z2, z3⟩
    exact l1 ⟨z, z1, by rw [ICache.set_other _ _ _ _ z2]; exact z3⟩
  · intro res st4 ic4 hl
    obtain ⟨i, r1, r2, r3, r4⟩ := l2 res st4 ic4 hl
    rw [ICache.set_same, hdev] at r3
    rw [ICache.set_same, hin] at r4
    exact ⟨i, r1, r2, r3, r4⟩

/-- C19, witness: in the fresh empty directory of the sample image,
`dirlink(d, "foo", 7)` returns 0, the directory grows to 16 bytes and the
lookup of "foo" gives an inode with `inum == 7` at `off == 0`. -/
theorem dirlink_then_dirlookup_witness :
    ∃ st3 dp3, dirlink fs0 dirCache 0 fooName 7 = Except.ok (0, st3, dirCache.set 0 dp3) ∧
      dp3.size = 16 ∧
      ∃ i ic4, dirlookup st3 (dirCache.set 0 dp3) 0 fooName = Except.ok (some (i, 0), st3, ic4) ∧
        (ic4 i).dev = 1 ∧ (ic4 i).inum = 7 := by
  obtain ⟨htot, -, hpost⟩ := dirlink_then_dirlookup fs0 dirCache 0 fooName 7 0 freshDir_ok
    (fun _ _ h => absurd h (Nat.not_lt_zero _)) (by decide) (by decide) freshDir_free
  obtain ⟨st3, dp3, h⟩ := htot freshDir_room
  obtain ⟨-, dp4, e0, -, hs, -, -, -, hl, hl2, -⟩ := hpost 0 st3 _ h
  have hdp : dp4 = dp3 := by
    have := congrFun e0 0
    rw [ICache.set_same, ICache.set_same] at this
    exact this.symm
  subst hdp
  obtain ⟨i, ic4, hlook⟩ := hl ⟨1, by decide, by decide, rfl⟩
  obtain ⟨j, j1, -, j3, j4⟩ := hl2 _ _ _ hlook
  simp only [Option.some.injEq, Prod.mk.injEq] at j1
  rw [← j1.1] at j3 j4
  exact ⟨st3, dp4, h, hs rfl, i, ic4, hlook, j3, j4⟩

/-! ## Paths -/

set_option maxRecDepth 1000000 in
/-- C21: for a path (a NUL-terminated string shorter than 2^31 bytes),
`skipelem(path, name)` returns null exactly when the path is empty or consists
of '/' characters only, and then leaves `name` untouched.  Otherwise, with `e`
the maximal '/'-free run after the leading slashes, `name` receives the first
`min(|e|, 14)` bytes of `e`, followed by a 0 exactly when `|e| < 14`, and is
untouched elsewhere; the result is what follows `e` with the slashes right
after `e` removed: the path is slashes, `e`, slashes, result; the result is a
strictly shorter suffix of the path that does not start with '/'.  The sample
calls: "a/bb/c" gives "bb/c" with name "a"; "///a//bb" gives "bb" with name
"a"; "a" gives "" with name "a"; "" and "////" give null; an element of 15
characters is cut to 14 without terminator. -/
theorem skipelem_spec (path : List Nat) (name : Mem) (hz : ∀ c, c ∈ path → c ≠ 0)
    (hlen : path.length < 2147483648) :
    ((skipelem path name).1 = none ↔ ∀ c, c ∈ path → c = 47) ∧
    ((skipelem path name).1 = none → (skipelem path name).2 = name) ∧
    (∀ rest e, (skipelem path name).1 = some rest →
      e = (path.dropWhile (fun c => decide (c = 47))).takeWhile (fun c => decide (c ≠ 47)) →
      e ≠ [] ∧
      (∀ i, i < min e.length DIRSIZ → (skipelem path name).2 i = e.getD i 0) ∧
      (e.length < DIRSIZ → (skipelem path name).2 e.length = 0) ∧
      (∀ i, min e.length DIRSIZ ≤ i → ¬ (i = e.length ∧ i < DIRSIZ) →
        (skipelem path name).2 i = name i) ∧
      (∃ l m, path = l ++ e ++ m ++ rest ∧ (∀ c, c ∈ l → c = 47) ∧ (∀ c, c ∈ e → c ≠ 47) ∧
        (∀ c, c ∈ m → c = 47) ∧ (m = [] → rest = [])) ∧
      rest <:+ path ∧ rest.length < path.length ∧ rest.head? ≠ some 47) ∧
    (skipelem [97, 47, 98, 98, 47, 99] (fun _ => 255)).1 = some [98, 98, 47, 99] ∧
    (List.range 3).map (skipelem [97, 47, 98, 98, 47, 99] (fun _ => 255)).2 = [97, 0, 255] ∧
    (skipelem [47, 47, 47, 97, 47, 47, 98, 98] (fun _ => 255)).1 = some [98, 98] ∧
    (List.range 3).map (skipelem [47, 47, 47, 97, 47, 47, 98, 98] (fun _ => 255)).2 =
      [97, 0, 255] ∧
    (skipelem [97] (fun _ => 255)).1 = some [] ∧
    (List.range 3).map (skipelem [97] (fun _ => 255)).2 = [97, 0, 255] ∧
    (skipelem [] name).1 = none ∧ (skipelem [47, 47, 47, 47] name).1 = none ∧
    (skipelem [97, 98, 99, 100, 101, 102, 103, 104, 105, 106, 107, 108, 109, 110, 111, 47, 120]
      (fun _ => 255)).1 = some [120] ∧
    (List.range 16).map (skipelem
      [97, 98, 99, 100, 101, 102, 103, 104, 105, 106, 107, 108, 109, 110, 111, 47, 120]
      (fun _ => 255)).2 =
      [97, 98, 99, 100, 101, 102, 103, 104, 105, 106, 107, 108, 109, 110, 255, 255] := by
  obtain ⟨h1, h2⟩ := skipelem_eq path name hz hlen
  refine ⟨?_, ?_, ?_, by decide!, by decide!, by decide!, by decide!, by decide!, by decide!,
    rfl, rfl, by decide!, by decide!⟩
  · constructor
    · intro hn
      by_contra hall
      rw [(h2 hall).1] at hn
      exact absurd hn (by simp)
    · intro hall
      rw [h1 hall]
  · intro hn
    by_cases hall : ∀ c, c ∈ path → c = 47
    · rw [h1 hall]
    · rw [(h2 hall).1] at hn
      exact absurd hn (by simp)
  · intro rest e hr he
    have hall : ¬ ∀ c, c ∈ path → c = 47 := by
      intro hall
      rw [h1 hall] at hr
      exact absurd hr (by simp)
    obtain ⟨a, b, c⟩ := h2 hall
    rw [a] at hr
    simp only [Option.some.injEq] at hr
    rw [← he] at b c
    have s1 := List.takeWhile_append_dropWhile (fun c => decide (c = 47)) path
    have s2 := List.takeWhile_append_dropWhile (fun c => decide (c ≠ 47))
      (path.dropWhile (fun c => decide (c = 47)))
    have s3 := List.takeWhile_append_dropWhile (fun c => decide (c = 47))
      ((path.dropWhile (fun c => decide (c = 47))).dropWhile (fun c => decide (c ≠ 47)))
    have k1 : ∀ hx : (path.dropWhile (fun c => decide (c = 47))).dropWhile
        (fun c => decide (c ≠ 47)) ≠ [],
        ((path.dropWhile (fun c => decide (c = 47))).dropWhile
          (fun c => decide (c ≠ 47))).head hx = 47 := by
      intro hx
      have := List.head_dropWhile_not (fun c => decide (c ≠ 47))
        (path.dropWhile (fun c => decide (c = 47))) hx
      simpa using this
    rw [← he] at s2
    generalize hq : (path.dropWhile (fun c => decide (c = 47))).dropWhile
      (fun c => decide (c ≠ 47)) = q at s2 s3 hr k1
    have k2 : ∀ hx : rest ≠ [], rest.head hx ≠ 47 := by
      intro hx
      have := List.head_dropWhile_not (fun c => decide (c = 47)) q (by rw [hr]; exact hx)
      simp only [hr] at this
      exact of_decide_eq_false this
    rw [hr] at s3
    generalize hm : q.takeWhile (fun c => decide (c = 47)) = m at s3
    have hdec : path = path.takeWhile (fun c => decide (c = 47)) ++ e ++ m ++ rest := by
      conv_lhs => rw [← s1, ← s2, ← s3]
      simp only [List.append_assoc]
    have hlen_e : 0 < e.length := List.length_pos.mpr b
    have hlen_p : path.length = (path.takeWhile (fun c => decide (c = 47))).length + e.length +
        m.length + rest.length := by
      conv_lhs => rw [hdec]
      simp only [List.length_append]
    refine ⟨b, ?_, ?_, ?_, ⟨_, _, hdec, ?_, ?_, ?_, ?_⟩, ?_, by omega, ?_⟩
    · intro i hi
      rw [c i, if_pos hi]
    · intro hl
      rw [c e.length, if_neg (by omega), if_pos ⟨rfl, hl⟩]
    · intro i hi hi2
      rw [c i, if_neg (by omega), if_neg hi2]
    · intro x hx
      simpa using List.mem_takeWhile_imp hx
    · intro x hx
      rw [he] at hx
      simpa using List.mem_takeWhile_imp hx
    · intro x hx
      rw [← hm] at hx
      simpa using List.mem_takeWhile_imp hx
    · intro hm0
      rw [hm0, List.nil_append] at s3
      by_contra hne
      have h47 := k1 (by rw [← s3]; exact hne)
      exact k2 hne (by simp only [s3]; exact h47)
    · rw [hdec]
      exact List.suffix_append _ _
    · intro hh
      rcases hrest : rest with _ | ⟨x, xs⟩
      · rw [hrest] at hh
        exact absurd hh (by simp)
      · rw [hrest] at hh
        simp only [List.head?_cons, Option.some.injEq] at hh
        have := k2 (by rw [hrest]; exact List.cons_ne_nil _ _)
        simp only [hrest, List.head_cons] at this
        exact this hh

/-- C21, witness: on the path "/usr//bin" the call returns "bin" and leaves "usr"
and a terminator in `name`. -/
theorem skipelem_spec_witness :
    (skipelem [47, 117, 115, 114, 47, 47, 98, 105, 110] (fun _ => 255)).1 ≠ none ∧
    ∀ rest, (skipelem [47, 117, 115, 114, 47, 47, 98, 105, 110] (fun _ => 255)).1 = some rest →
      rest <:+ [47, 117, 115, 114, 47, 47, 98, 105, 110] ∧ rest.length < 9 ∧
      (skipelem [47, 117, 115, 114, 47, 47, 98, 105, 110] (fun _ => 255)).2 3 = 0 := by
  obtain ⟨h1, -, h3, -⟩ := skipelem_spec [47, 117, 115, 114, 47, 47, 98, 105, 110]
    (fun _ => 255) (by decide) (by decide)
  refine ⟨fun h => ?_, fun rest hr => ?_⟩
  · exact absurd (h1.mp h 117 (by decide)) (by decide)
  · obtain ⟨-, -, a, -, -, b, c, -⟩ := h3 rest _ hr rfl
    exact ⟨b, c, a (by decide)⟩

theorem option_pair {r : Option Nat} {ic2 : ICache} {x : Option Nat}
    (hd : ∀ s, r = some s → (ic2 s).dev = ROOTDEV)
    (hi : r.map (fun s => (ic2 s).inum) = x) :
    r.map (fun s => ((ic2 s).dev, (ic2 s).inum)) = x.map (fun i => (ROOTDEV, i)) := by
  cases r with
  | none =>
    rw [← hi]
    rfl
  | some s =>
    rw [← hi]
    simp only [Option.map_some', Option.some.injEq, Prod.mk.injEq, and_true]
    exact hd s rfl

set_option maxRecDepth 1000000 in
/-- C22, counterexample: on the sample tree the path "/f/x" has the elements
"f" and "x", and "f" is reached from the root: it is inode 3, a regular file.
`nameiparent("/f/x", out)` does not return that inode but the null pointer. -/
theorem nameiparent_file_parent_null :
    elems [47, 102, 47, 120] = [[102], [120]] ∧
    resolve treeFs ROOTINO [nameOf [102]] = some 3 ∧
    (readDinode treeFs ROOTDEV 3).type = T_FILE ∧
    namexSummary (nameiparent treeFs icache0 0 [47, 102, 47, 120] (fun _ => 255)) =
      some (none, [120, 0, 255]) := by
  decide!

set_option maxRecDepth 1000000 in
/-- C22 (amended): for an absolute path (a NUL-terminated string shorter than
2^31 bytes) with elements `e1..ek`, on a disk where the inodes visited are in
use and sound and with a cache that agrees with the disk and whose reference
counts are not within two of `INT_MAX`: every return of `namei` leaves the
disk as it was and is the inode of the root device reached from `ROOTINO` by
looking up `e1..ek` one after the other, each in a directory, and null if a
lookup fails or the inode to look in is not a directory; on any other such
cache, as after the call, it names the same `(dev, inum)`.  Every return of
`nameiparent` is the inode reached by `e1..e(k-1)` if that is a directory,
`ek` not being looked up, with `ek` copied to `name` (cut at `DIRSIZ`), and
null if it is not a directory, if a lookup fails, or if the path has no
element.  Both calls return when two slots of the cache are empty, and their
only panic is that of `iget` on a full cache.  On the sample tree, with "/a"
holding "b" (inode 9): `namei("/a/b")` and `namei("/a/b/")` give inode 9, and
`nameiparent("/a/b", out)` gives inode 2, that of "/a", with "b" in `out`. -/
theorem namei_resolves (st : FS) (ic ic3 : ICache) (cwd : Nat) (path : List Nat) (name : Mem)
    (hfs : st.havedisk1 = true) (habs : charAt path = 47) (hz : ∀ c, c ∈ path → c ≠ 0)
    (hlen : path.length < 2147483648) (hc : CacheOk st ic)
    (hr : ∀ j, 0 ≤ (ic j).ref ∧ (ic j).ref ≤ 2147483645) (hc3 : CacheOk st ic3)
    (hr3 : ∀ j, 0 ≤ (ic3 j).ref ∧ (ic3 j).ref ≤ 2147483645)
    (hwalk : WalkOk st ROOTINO ((elems path).map nameOf)) :
    (∀ r st2 ic2 name2, namei st ic cwd path name = Except.ok (r, st2, ic2, name2) →
      st2 = st ∧ CacheOk st ic2 ∧ (∀ s, r = some s → (ic2 s).dev = ROOTDEV) ∧
      r.map (fun s => (ic2 s).inum) = resolve st ROOTINO ((elems path).map nameOf) ∧
      ∀ r3 st4 ic4 name4, namei st ic3 cwd path name = Except.ok (r3, st4, ic4, name4) →
        r3.map (fun s => ((ic4 s).dev, (ic4 s).inum)) =
          r.map (fun s => ((ic2 s).dev, (ic2 s).inum))) ∧
    (∀ r st2 ic2 name2, nameiparent st ic cwd path name = Except.ok (r, st2, ic2, name2) →
      st2 = st ∧ CacheOk st ic2 ∧ (∀ s, r = some s → (ic2 s).dev = ROOTDEV) ∧
      r.map (fun s => (ic2 s).inum) = resolveParent st ROOTINO ((elems path).map nameOf) ∧
      (elems path = [] → r = none) ∧
      (r ≠ none → ∀ ek, (elems path).getLast? = some ek → HoldsName name2 ek)) ∧
    (∀ e, namei st ic cwd path name = Except.error e → e = Panic.igetNoInodes) ∧
    (∀ e, nameiparent st ic cwd path name = Except.error e → e = Panic.igetNoInodes) ∧
    ((∃ z1 z2, z1 < NINODE ∧ z2 < NINODE ∧ z1 ≠ z2 ∧ (ic z1).ref = 0 ∧ (ic z2).ref = 0) →
      (∃ res, namei st ic cwd path name = Except.ok res) ∧
      (∃ res, nameiparent st ic cwd path name = Except.ok res)) ∧
    namexSummary (namei treeFs icache0 0 [47, 97, 47, 98] (fun _ => 255)) =
      some (some (1, 9), [98, 0, 255]) ∧
    namexSummary (namei treeFs icache0 0 [47, 97, 47, 98, 47] (fun _ => 255)) =
      some (some (1, 9), [98, 0, 255]) ∧
    namexSummary (nameiparent treeFs icache0 0 [47, 97, 47, 98] (fun _ => 255)) =
      some (some (1, 2), [98, 0, 255]) := by
  obtain ⟨a1, a2, a3⟩ := namex_walk 0 st ic cwd path name hfs habs hz hlen hc hr hwalk
  obtain ⟨b1, -, -⟩ := namex_walk 0 st ic3 cwd path name hfs habs hz hlen hc3 hr3 hwalk
  obtain ⟨c1, c2, c3⟩ := namex_walk 1 st ic cwd path name hfs habs hz hlen hc hr hwalk
  refine ⟨?_, ?_, a2, c2, fun hroom => ⟨a3 hroom, c3 hroom⟩, by decide!, by decide!, by decide!⟩
  · intro r st2 ic2 name2 h
    obtain ⟨e1, e2, e3, e4, -⟩ := a1 r st2 ic2 name2 h
    refine ⟨e1, e2, e3, e4 rfl, ?_⟩
    intro r3 st4 ic4 name4 h3
    obtain ⟨-, -, f3, f4, -⟩ := b1 r3 st4 ic4 name4 h3
    rw [option_pair f3 (f4 rfl), option_pair e3 (e4 rfl)]
  · intro r st2 ic2 name2 h
    obtain ⟨e1, e2, e3, -, e5⟩ := c1 r st2 ic2 name2 h
    obtain ⟨e6, e7⟩ := e5 (by decide)
    refine ⟨e1, e2, e3, e6, ?_, e7⟩
    intro hel
    rw [hel] at e6
    cases r with
    | none => rfl
    | some s => cases e6

set_option maxRecDepth 1000000 in
/-- C22, witness: on the sample tree and an empty cache `namei("/a/b")` returns
a slot that holds inode 9 of device 1, and leaves the disk as it was. -/
theorem namei_resolves_witness :
    ∃ s ic2 name2, namei treeFs icache0 0 [47, 97, 47, 98] (fun _ => 255) =
        Except.ok (some s, treeFs, ic2, name2) ∧ (ic2 s).dev = 1 ∧ (ic2 s).inum = 9 := by
  obtain ⟨k1, k2, k3⟩ := icache0_ok treeFs
  have he : elems [47, 97, 47, 98] = [[97], [98]] := by decide
  have hw : WalkOk treeFs ROOTINO ((elems [47, 97, 47, 98]).map nameOf) := by
    rw [he]
    exact treeFs_walks.1
  obtain ⟨h1, -, -, -, h5, -⟩ := namei_resolves treeFs icache0 icache0 0 [47, 97, 47, 98]
    (fun _ => 255) rfl (by decide) (by decide) (by decide) k1 k2 k1 k2 hw
  obtain ⟨⟨r, st2, ic2, name2⟩, hres⟩ := (h5 k3).1
  obtain ⟨a, -, c, d, -⟩ := h1 r st2 ic2 name2 hres
  have hv : resolve treeFs ROOTINO ((elems [47, 97, 47, 98]).map nameOf) = some 9 := by decide!
  rw [hv] at d
  cases r with
  | none => cases d
  | some s =>
    simp only [Option.map_some', Option.some.injEq] at d
    rw [a] at hres
    exact ⟨s, ic2, name2, hres, c s rfl, d⟩

/-- C29: a call of `namex` (through `namei` or `nameiparent`, the path absolute
or not) that returns inode `r` leaves the reference count of every slot of the
inode cache as it was before the call, except that of the slot of `r`, which is
one higher; a call that returns the null pointer leaves every reference count
as it was.  This holds for every path and every state of the disk, the counts
being non-negative and not within two of `INT_MAX`.  (With an absolute path
and inodes on the way that are in use and sound the call returns when two
slots of the cache are empty.) -/
theorem namex_reference_balance (st : FS) (ic : ICache) (cwd : Nat) (path : List Nat)
    (np : Int) (name : Mem) (hr : ∀ j, 0 ≤ (ic j).ref ∧ (ic j).ref ≤ 2147483645) :
    (∀ r st2 ic2 name2, namex st ic cwd path np name = Except.ok (r, st2, ic2, name2) →
      ∀ j, (ic2 j).ref = (ic j).ref + (if r = some j then 1 else 0)) ∧
    (st.havedisk1 = true → charAt path = 47 → (∀ c, c ∈ path → c ≠ 0) →
      path.length < 2147483648 → CacheOk st ic →
      WalkOk st ROOTINO ((elems path).map nameOf) →
      (∃ z1 z2, z1 < NINODE ∧ z2 < NINODE ∧ z1 ≠ z2 ∧ (ic z1).ref = 0 ∧ (ic z2).ref = 0) →
      ∃ res, namex st ic cwd path np name = Except.ok res) :=
  ⟨namex_refs st ic cwd path np name hr,
    fun hfs habs hz hlen hc hwalk hroom =>
      (namex_walk np st ic cwd path name hfs habs hz hlen hc hr hwalk).2.2 hroom⟩

set_option maxRecDepth 1000000 in
/-- C29, witness: on the sample tree and an empty cache `namex("/a/b")` returns,
and leaves one reference, on the slot returned; `namex("/f/x")` returns the null
pointer and leaves no reference. -/
theorem namex_reference_balance_witness :
    (∃ r st2 ic2 name2, namex treeFs icache0 0 [47, 97, 47, 98] 0 (fun _ => 255) =
        Except.ok (r, st2, ic2, name2) ∧ r ≠ none ∧
      ∀ j, (ic2 j).ref = if r = some j then 1 else 0) ∧
    (∃ st2 ic2 name2, namex treeFs icache0 0 [47, 102, 47, 120] 0 (fun _ => 255) =
        Except.ok (none, st2, ic2, name2) ∧ ∀ j, (ic2 j).ref = 0) := by
  obtain ⟨k1, k2, k3⟩ := icache0_ok treeFs
  have he : elems [47, 97, 47, 98] = [[97], [98]] := by decide
  have he2 : elems [47, 102, 47, 120] = [[102], [120]] := by decide
  obtain ⟨h1, h2⟩ := namex_reference_balance treeFs icache0 0 [47, 97, 47, 98] 0
    (fun _ => 255) k2
  obtain ⟨h3, h4⟩ := namex_reference_balance treeFs icache0 0 [47, 102, 47, 120] 0
    (fun _ => 255) k2
  constructor
  · obtain ⟨⟨r, st2, ic2, name2⟩, hres⟩ := h2 rfl (by decide) (by decide) (by decide) k1
      (by rw [he]; exact treeFs_walks.1) k3
    have hs : namexSummary (namex treeFs icache0 0 [47, 97, 47, 98] 0 (fun _ => 255)) =
        some (some (1, 9), [98, 0, 255]) := by decide!
    refine ⟨r, st2, ic2, name2, hres, ?_, fun j => ?_⟩
    · rw [hres] at hs
      intro h0
      rw [h0] at hs
      simp [namexSummary] at hs
    · rw [h1 r st2 ic2 name2 hres j]
      exact zero_add _
  · obtain ⟨⟨r, st2, ic2, name2⟩, hres⟩ := h4 rfl (by decide) (by decide) (by decide) k1
      (by rw [he2]; exact treeFs_walks.2) k3
    have hs : namexSummary (namex treeFs icache0 0 [47, 102, 47, 120] 0 (fun _ => 255)) =
        some (none, [120, 0, 255]) := by decide!
    have hr : r = none := by
      rw [hres] at hs
      cases r with
      | none => rfl
      | some s => simp [namexSummary] at hs
    subst hr
    refine ⟨st2, ic2, name2, hres, fun j => ?_⟩
    rw [h3 none st2 ic2 name2 hres j]
    simp
    rfl

set_option maxRecDepth 1000000 in
/-- C23, counterexample: on the sample tree inode 3, "/f", is a regular file;
`namei("/f/x")` has the element "x" to process with that inode current, and it
returns the null pointer: it does not panic. -/
theorem namex_file_in_path_returns_null :
    (readDinode treeFs ROOTDEV 3).type = T_FILE ∧
    resolve treeFs ROOTINO [nameOf [102]] = some 3 ∧
    namexSummary (namei treeFs icache0 0 [47, 102, 47, 120] (fun _ => 255)) =
      some (none, [120, 0, 255]) := by
  decide!

/-- C23 (amended): during path resolution, when `namex` has another path element
to process and the current inode, once locked, is not a directory, it unlocks
and puts the inode (`iunlockput`) and returns the null pointer, a recoverable
error; unless that was the last reference to an inode without links, this only
takes one reference away, and there is no panic. -/
theorem namex_non_directory (np : Int) (k : Nat) (st : FS) (ic : ICache) (ip : Nat)
    (path : List Nat) (name : Mem) (path1 : List Nat) (name1 : Mem)
    (hs : skipelem path name = (some path1, name1)) :
    ∀ ip1, ilock st (ic ip) = Except.ok ip1 → ip1.type ≠ T_DIR →
      namexLoop np (k + 1) st ic ip path name =
        (iunlockput st (ic.set ip ip1) ip >>= fun r => pure (none, r.1, r.2, name1)) ∧
      (¬ (ip1.nlink = 0 ∧ ip1.ref = 1) →
        namexLoop np (k + 1) st ic ip path name =
          Except.ok (none, st, ic.set ip { ip1 with ref := int32 (ip1.ref - 1) }, name1)) := by
  intro ip1 hl ht
  have e : namexLoop np (k + 1) st ic ip path name =
      (iunlockput st (ic.set ip ip1) ip >>= fun r => pure (none, r.1, r.2, name1)) := by
    unfold namexLoop
    rw [hs]
    simp only [hl, bind_ok_eq, if_pos ht]
  refine ⟨e, fun hn => ?_⟩
  obtain ⟨h1, -, -⟩ := ilock_held hl
  rw [e, iunlockput_keep st (ic.set ip ip1) ip (by rw [ICache.set_same]; exact h1)
    (by rw [ICache.set_same]; exact fun h => hn ⟨h.2.1, h.2.2⟩)]
  simp only [bind_ok_eq, pure_eq_ok, ICache.set_same, ICache.set_set]

set_option maxRecDepth 1000000 in
/-- C23, witness: on the sample tree, with the regular file "/f" (inode 3)
current in slot 0 and the element "x" still to process, the loop of `namex`
returns the null pointer, leaves the disk as it was and gives the reference to
inode 3 back. -/
theorem namex_non_directory_witness :
    ∃ ic2, namexLoop 0 2 treeFs
        (icache0.set 0 { icache0 0 with dev := 1, inum := 3, ref := 1 }) 0 [120]
        (fun _ => 255) =
      Except.ok (none, treeFs, ic2, (skipelem [120] (fun _ => 255)).2) ∧ (ic2 0).ref = 0 := by
  have hrun : okAnd (fun ip1 => decide (ip1.type = T_FILE ∧ ip1.nlink = 1 ∧ ip1.ref = 1))
      (ilock treeFs ((icache0.set 0 { icache0 0 with dev := 1, inum := 3, ref := 1 }) 0)) =
      true := by decide!
  obtain ⟨ip1, hl, hp⟩ := okAnd_true hrun
  obtain ⟨h1, h2, h3⟩ := of_decide_eq_true hp
  obtain ⟨-, h⟩ := namex_non_directory 0 1 treeFs
    (icache0.set 0 { icache0 0 with dev := 1, inum := 3, ref := 1 }) 0 [120] (fun _ => 255)
    [] (skipelem [120] (fun _ => 255)).2 (Prod.ext (by decide!) rfl) ip1 hl
    (by rw [h1]; decide)
  refine ⟨_, h (fun hh => ?_), ?_⟩
  · rw [h2] at hh
    exact absurd hh.1 (by decide)
  · rw [ICache.set_same]
    show int32 (ip1.ref - 1) = 0
    rw [h3]
    decide

/-! ## Files -/

/-- C24: for every open file and every `n >= 0` (an `int`), a call
`filewrite(f, addr, n)` that returns, returns `n` or -1, and so does every run
of `pipewrite`, resumed after a sleep or not; with `f.writable == 0` it returns
-1 and changes nothing; for an inode-backed file what it adds to the record of
transactions is a sequence of `begin_op`, one `writei` of at most
`((MAXOPBLOCKS-1-1-2) / 2) * 512 = 1536` bytes at the offset of the file,
`end_op`, with `f.off` advanced after each by what that `writei` returned; and
the call does not use up the iteration budget of the model. -/
theorem filewrite_all_or_nothing (s : FwState) (addr : Mem) (n : Int) (killed : Bool)
    (hn0 : 0 ≤ n) (hn1 : n < 2147483648) :
    (∀ r s2, filewrite s addr n killed = Except.ok (.ret r s2) → r = n ∨ r = -1) ∧
    (∀ k p i r p2 i2, pipewriteFrom addr n killed k p i = .ret r p2 i2 → r = n ∨ r = -1) ∧
    (s.f.writable = 0 → filewrite s addr n killed = Except.ok (.ret (-1) s)) ∧
    (s.f.type = .FD_INODE → ∀ e, filewrite s addr n killed = Except.ok e →
      ∃ tr, e.state.trace = s.trace ++ tr ∧ chunksFrom s.f.off tr = some e.state.f.off) ∧
    (s.f.off < U32 → filewrite s addr n killed ≠ Except.error Panic.diverged) ∧
    fwMax = 1536 := by
  have hpipe : ∀ k p i r p2 i2, pipewriteFrom addr n killed k p i = .ret r p2 i2 →
      r = n ∨ r = -1 := by
    intro k p i r p2 i2 h
    rcases pipewriteFrom_ret addr n killed k p i r p2 i2 h with ⟨a, -⟩ | ⟨a, -⟩
    · exact Or.inl a
    · exact Or.inr a
  have hloop := filewriteLoop_spec addr n hn1 (n.toNat + 1) s 0 (le_refl _) hn0
  refine ⟨?_, hpipe, ?_, ?_, ?_, fwMax_eq⟩
  · intro r s2 h
    unfold filewrite at h
    by_cases hw : s.f.writable = 0
    · rw [if_pos hw] at h
      simp only [Except.ok.injEq, FwEnd.ret.injEq] at h
      exact Or.inr h.1.symm
    · rw [if_neg hw] at h
      by_cases hp : s.f.type = .FD_PIPE
      · rw [if_pos hp] at h
        rcases hpw : pipewrite s.f.pipe addr n killed with ⟨r1, p1, i1⟩ | ⟨p1, i1⟩
        · rw [hpw] at h
          simp only [Except.ok.injEq, FwEnd.ret.injEq] at h
          rw [← h.1]
          exact hpipe _ _ _ _ _ _ hpw
        · rw [hpw] at h
          simp only [Except.ok.injEq] at h
          cases h
      · rw [if_neg hp] at h
        by_cases hi : s.f.type = .FD_INODE
        · rw [if_pos hi] at h
          obtain ⟨⟨r1, s1⟩, hl, h⟩ := bind_eq_ok h
          simp only [pure_eq_ok, Except.ok.injEq, FwEnd.ret.injEq] at h
          rw [← h.1]
          exact (hloop.1 r1 s1 hl).1
        · rw [if_neg hi] at h
          cases h
  · intro hw
    unfold filewrite
    rw [if_pos hw]
  · intro hi e h
    unfold filewrite at h
    by_cases hw : s.f.writable = 0
    · rw [if_pos hw] at h
      simp only [Except.ok.injEq] at h
      rw [← h]
      exact ⟨[], by rw [List.append_nil]; rfl, rfl⟩
    · rw [if_neg hw, if_neg (by rw [hi]; decide), if_pos hi] at h
      obtain ⟨⟨r1, s1⟩, hl, h⟩ := bind_eq_ok h
      simp only [pure_eq_ok, Except.ok.injEq] at h
      rw [← h]
      exact (hloop.1 r1 s1 hl).2
  · intro hoff h
    unfold filewrite at h
    split_ifs at h with h1 h2 h3
    · split at h <;> cases h
    · rcases hl : filewriteLoop addr n (n.toNat + 1) s 0 with e | ⟨r1, s1⟩
      · rw [hl] at h
        simp only [bind_error_eq, Except.error.injEq] at h
        rw [h] at hl
        exact hloop.2 hoff (by rw [Int.sub_zero]; omega) hl
      · rw [hl] at h
        cases h
    · cases h

set_option maxRecDepth 1000000 in
/-- C24, witness: on the sample image a `filewrite` of 1600 bytes to the fresh
inode 2 returns 1600 after two transactions, one `writei` of 1536 bytes at
offset 0 and one of 64 bytes at offset 1536, and leaves `f.off = 1600`; with
`writable == 0` the call returns -1 and changes nothing. -/
theorem filewrite_all_or_nothing_witness :
    fwSummary (filewrite fw0 (fun i => i % 251) 1600 false) =
      some (1600, [.beginOp, .writei 0 1536 1536, .endOp, .beginOp, .writei 1536 64 64, .endOp],
        1600) ∧
    filewrite { fw0 with f := { file0 with writable := 0 } } (fun i => i % 251) 1600 false =
      Except.ok (.ret (-1) { fw0 with f := { file0 with writable := 0 } }) :=
  ⟨by decide!,
    (filewrite_all_or_nothing { fw0 with f := { file0 with writable := 0 } } (fun i => i % 251)
      1600 false (by decide) (by decide)).2.2.1 rfl⟩

/-! ## Pipes -/

/-- C25, counterexample: the run that passes 2^32 - 1 bytes through a pipe one
at a time and then writes one more byte ends with `nwrite = 0` (the counter
wrapped) and `nread = 2^32 - 1`, so `nread <= nwrite` is false there. -/
theorem pipe_counters_wrap :
    (prun (pinit zeroBuf) wrapRun).pipe.nwrite = 0 ∧
    (prun (pinit zeroBuf) wrapRun).pipe.nread = 4294967295 ∧
    ¬ (prun (pinit zeroBuf) wrapRun).pipe.nread ≤ (prun (pinit zeroBuf) wrapRun).pipe.nwrite := by
  obtain ⟨a, b, c⟩ := wrapRun_len zeroBuf
  have h1 := a.nwrite
  have h2 := a.nread
  rw [b] at h1
  rw [c] at h2
  have e1 : (prun (pinit zeroBuf) wrapRun).pipe.nwrite = 0 := h1
  have e2 : (prun (pinit zeroBuf) wrapRun).pipe.nread = 4294967295 := h2
  refine ⟨e1, e2, ?_⟩
  rw [e1, e2]
  omega

/-- C25 (amended): in every state reachable from `pipealloc` through steps of
`pipewrite`, `piperead` and `pipeclose` in which fewer than 2^32 bytes have
been written to the pipe so far, the counters satisfy
`nread <= nwrite <= nread + PIPESIZE`. -/
theorem pipe_counters_before_wrap (data : Mem) (evs : List PEv)
    (h : (prun (pinit data) evs).stored.length < U32) :
    (prun (pinit data) evs).pipe.nread ≤ (prun (pinit data) evs).pipe.nwrite ∧
    (prun (pinit data) evs).pipe.nwrite ≤ (prun (pinit data) evs).pipe.nread + PIPESIZE := by
  obtain ⟨h1, h2, h3, h4, -, -⟩ := prun_inv evs (pinit data) (pinit_inv data)
  rw [h1, h2]
  simp only [PIPESIZE_eq, U32_eq] at h h4 ⊢
  omega

set_option maxRecDepth 1000000 in
/-- C25, witness: after "abcdefghij" was written and 4 bytes were read,
`nread = 4` and `nwrite = 10`. -/
theorem pipe_counters_before_wrap_witness :
    (prun (pinit zeroBuf) [.write abcBuf 10 0 false, .read zeroBuf 4 false]).pipe.nread = 4 ∧
    (prun (pinit zeroBuf) [.write abcBuf 10 0 false, .read zeroBuf 4 false]).pipe.nwrite = 10 ∧
    (prun (pinit zeroBuf) [.write abcBuf 10 0 false, .read zeroBuf 4 false]).pipe.nread ≤
      (prun (pinit zeroBuf) [.write abcBuf 10 0 false, .read zeroBuf 4 false]).pipe.nwrite ∧
    (prun (pinit zeroBuf) [.write abcBuf 10 0 false, .read zeroBuf 4 false]).pipe.nwrite ≤
      (prun (pinit zeroBuf) [.write abcBuf 10 0 false, .read zeroBuf 4 false]).pipe.nread +
        PIPESIZE :=
  ⟨by decide!, by decide!,
    pipe_counters_before_wrap zeroBuf [.write abcBuf 10 0 false, .read zeroBuf 4 false]
      (by decide!)⟩

set_option maxRecDepth 1000000 in
/-- C26: in every state reached from `pipealloc` by an interleaving of steps of
`pipewrite`, `piperead` and `pipeclose`, the bytes handed to readers are a
prefix of the bytes stored by writers. There a `piperead(n)`, `n >= 0`, on a
pipe that holds `k > 0` unread bytes returns `min(n, k)` with the `min(n, k)`
oldest unread bytes in `addr[0 ..]`, and on an empty pipe whose write end is
closed it returns 0. The sample run: a write of "abcdefghij" returns 10, and
after the write end was closed reads of 4, of 10 and then of any size return
"abcd", "efghij" (6 bytes) and 0. -/
theorem pipe_fifo (data : Mem) (evs : List PEv) (addr : Mem) (n : Int) (killed : Bool)
    (hn : 0 ≤ n) :
    (prun (pinit data) evs).delivered <+: (prun (pinit data) evs).stored ∧
    ((prun (pinit data) evs).delivered.length < (prun (pinit data) evs).stored.length →
      ∃ p2 addr2, piperead (prun (pinit data) evs).pipe addr n killed =
          .ret (min n (((prun (pinit data) evs).stored.length -
            (prun (pinit data) evs).delivered.length : Nat) : Int)) p2 addr2 ∧
        (∀ j : Nat, (j : Int) < min n (((prun (pinit data) evs).stored.length -
            (prun (pinit data) evs).delivered.length : Nat) : Int) →
          addr2 j = (prun (pinit data) evs).stored.getD
            ((prun (pinit data) evs).delivered.length + j) 0) ∧
        (pstep (prun (pinit data) evs) (.read addr n killed)).delivered =
          (prun (pinit data) evs).stored.take ((prun (pinit data) evs).delivered.length +
            min n.toNat ((prun (pinit data) evs).stored.length -
              (prun (pinit data) evs).delivered.length))) ∧
    ((prun (pinit data) evs).delivered.length = (prun (pinit data) evs).stored.length →
      (prun (pinit data) evs).pipe.writeopen = 0 →
      piperead (prun (pinit data) evs).pipe addr n killed =
        .ret 0 (prun (pinit data) evs).pipe addr) ∧
    (pipewrite (pipealloc zeroBuf) abcBuf 10 false).result = some 10 ∧
    (piperead abcPipe zeroBuf 4 false).result = some (4, [97, 98, 99, 100]) ∧
    (piperead abcPipe1 zeroBuf 10 false).result = some (6, [101, 102, 103, 104, 105, 106]) ∧
    (piperead abcPipe2 addr n killed).result = some (0, []) := by
  have hinv := prun_inv evs (pinit data) (pinit_inv data)
  have hcast : ((min n.toNat ((prun (pinit data) evs).stored.length -
      (prun (pinit data) evs).delivered.length) : Nat) : Int) =
      min n (((prun (pinit data) evs).stored.length -
        (prun (pinit data) evs).delivered.length : Nat) : Int) := by
    rw [Nat.cast_min, Int.toNat_of_nonneg hn]
  refine ⟨?_, ?_, ?_, by decide!, by decide!, by decide!, ?_⟩
  · rw [hinv.fifo]
    exact List.take_prefix _ _
  · intro hk
    obtain ⟨p2, addr2, h1, h2, h3⟩ := piperead_some hinv hk addr n killed
    refine ⟨p2, addr2, by rw [← hcast]; exact h1, ?_, ?_⟩
    · intro j hj
      rw [← hcast] at hj
      rw [h2 j, if_pos (by exact_mod_cast hj)]
    · have e : (pstep (prun (pinit data) evs) (.read addr n killed)).delivered =
          (prun (pinit data) evs).delivered ++ bytesOf addr2 0
            (min n.toNat ((prun (pinit data) evs).stored.length -
              (prun (pinit data) evs).delivered.length)) := by
        show (match piperead (prun (pinit data) evs).pipe addr n killed with
          | .ret r p addr1 =>
            { (prun (pinit data) evs) with
              pipe := p
              delivered := (prun (pinit data) evs).delivered ++ bytesOf addr1 0 r.toNat }
          | .sleep p => { (prun (pinit data) evs) with pipe := p }).delivered = _
        rw [h1]
        show _ ++ bytesOf addr2 0 (Int.toNat ((min n.toNat _ : Nat) : Int)) = _
        rw [Int.toNat_natCast]
      rw [e]
      have h4 := h3.fifo
      have h5 : ((prun (pinit data) evs).delivered ++ bytesOf addr2 0
            (min n.toNat ((prun (pinit data) evs).stored.length -
              (prun (pinit data) evs).delivered.length))).length =
          (prun (pinit data) evs).delivered.length +
            min n.toNat ((prun (pinit data) evs).stored.length -
              (prun (pinit data) evs).delivered.length) := by
        rw [List.length_append, bytesOf_length, Nat.sub_zero]
      rw [← h5]
      exact h4
  · intro hk hw
    exact piperead_eof _ addr n killed (hinv.empty_iff.mpr hk) hw
  · have e1 : abcPipe2.nread = abcPipe2.nwrite := by decide!
    have e2 : abcPipe2.writeopen = 0 := by decide!
    rw [piperead_eof _ addr n killed e1 e2]
    rfl

set_option maxRecDepth 1000000 in
/-- C26, witness: after the run that writes "abcdefghij", closes the write end
and reads 4 bytes, 6 bytes are unread; a read of 10 returns 6, the bytes
"efghij", and leaves all 10 bytes handed over in the order stored. -/
theorem pipe_fifo_witness :
    ∃ p2 addr2, piperead
        (prun (pinit zeroBuf) [.write abcBuf 10 0 false, .close 1, .read zeroBuf 4 false]).pipe
        zeroBuf 10 false = .ret 6 p2 addr2 ∧
      [addr2 0, addr2 1, addr2 2, addr2 3, addr2 4, addr2 5] = [101, 102, 103, 104, 105, 106] ∧
      (pstep (prun (pinit zeroBuf) [.write abcBuf 10 0 false, .close 1, .read zeroBuf 4 false])
        (.read zeroBuf 10 false)).delivered = [97, 98, 99, 100, 101, 102, 103, 104, 105, 106] := by
  have hs : (prun (pinit zeroBuf)
      [.write abcBuf 10 0 false, .close 1, .read zeroBuf 4 false]).stored =
      [97, 98, 99, 100, 101, 102, 103, 104, 105, 106] := by decide!
  have hd : (prun (pinit zeroBuf)
      [.write abcBuf 10 0 false, .close 1, .read zeroBuf 4 false]).delivered =
      [97, 98, 99, 100] := by decide!
  obtain ⟨-, h, -⟩ := pipe_fifo zeroBuf
    [.write abcBuf 10 0 false, .close 1, .read zeroBuf 4 false] zeroBuf 10 false (by decide)
  obtain ⟨p2, addr2, h1, h2, h3⟩ := h (by rw [hs, hd]; decide)
  rw [hs, hd] at h1 h2 h3
  refine ⟨p2, addr2, h1, ?_, h3⟩
  rw [h2 0 (by decide), h2 1 (by decide), h2 2 (by decide), h2 3 (by decide),
    h2 4 (by decide), h2 5 (by decide)]
  rfl

/-- C30: in every state reached from `pipealloc` by steps of `pipewrite`,
`piperead` and `pipeclose`, however many bytes have passed, the counters are
the numbers of bytes stored and handed over modulo 2^32, the number of buffered
bytes `(nwrite - nread) mod 2^32` is the true number and at most `PIPESIZE`, the
slot index `counter % PIPESIZE` of either counter advances by one modulo
`PIPESIZE` when the counter is incremented in 32-bit arithmetic (also from
2^32 - 1 to 0), every unread byte is in the slot of its sequence number, and
the bytes handed over are the first bytes stored, in order. -/
theorem pipe_counters_modular (data : Mem) (evs : List PEv) :
    (prun (pinit data) evs).pipe.nwrite = (prun (pinit data) evs).stored.length % U32 ∧
    (prun (pinit data) evs).pipe.nread = (prun (pinit data) evs).delivered.length % U32 ∧
    ((prun (pinit data) evs).pipe.nwrite + U32 - (prun (pinit data) evs).pipe.nread) % U32 =
      (prun (pinit data) evs).stored.length - (prun (pinit data) evs).delivered.length ∧
    ((prun (pinit data) evs).pipe.nwrite + U32 - (prun (pinit data) evs).pipe.nread) % U32 ≤
      PIPESIZE ∧
    (((prun (pinit data) evs).pipe.nwrite + 1) % U32) % PIPESIZE =
      ((prun (pinit data) evs).pipe.nwrite % PIPESIZE + 1) % PIPESIZE ∧
    (((prun (pinit data) evs).pipe.nread + 1) % U32) % PIPESIZE =
      ((prun (pinit data) evs).pipe.nread % PIPESIZE + 1) % PIPESIZE ∧
    (∀ j, (prun (pinit data) evs).delivered.length ≤ j →
      j < (prun (pinit data) evs).stored.length →
      (prun (pinit data) evs).pipe.data (j % PIPESIZE) =
        (prun (pinit data) evs).stored.getD j 0) ∧
    (prun (pinit data) evs).delivered =
      (prun (pinit data) evs).stored.take (prun (pinit data) evs).delivered.length := by
  obtain ⟨h1, h2, h3, h4, h5, h6⟩ := prun_inv evs (pinit data) (pinit_inv data)
  refine ⟨h1, h2, ?_, ?_, ?_, ?_, h6, h5⟩
  · rw [h1, h2]
    simp only [PIPESIZE_eq, U32_eq] at h4 ⊢
    omega
  · rw [h1, h2]
    simp only [PIPESIZE_eq, U32_eq] at h4 ⊢
    omega
  · simp only [PIPESIZE_eq, U32_eq]
    omega
  · simp only [PIPESIZE_eq, U32_eq]
    omega

/-- C30, witness: after the run that passes 2^32 - 1 bytes through a pipe and
then writes one more byte, `nwrite` has wrapped to 0 and `nread` is 2^32 - 1;
one byte is buffered, it is in slot `(2^32 - 1) % 512 = 511`, and the next
write goes to slot 0. -/
theorem pipe_counters_modular_witness :
    ((prun (pinit zeroBuf) wrapRun).pipe.nwrite + U32 - (prun (pinit zeroBuf) wrapRun).pipe.nread)
      % U32 = 1 ∧
    (prun (pinit zeroBuf) wrapRun).pipe.nread % PIPESIZE = 511 ∧
    (prun (pinit zeroBuf) wrapRun).pipe.nwrite % PIPESIZE = 0 ∧
    (prun (pinit zeroBuf) wrapRun).pipe.data 511 =
      (prun (pinit zeroBuf) wrapRun).stored.getD 4294967295 0 := by
  obtain ⟨-, b, c⟩ := wrapRun_len zeroBuf
  obtain ⟨h1, h2, h3, -, -, -, h7, -⟩ := pipe_counters_modular zeroBuf wrapRun
  generalize prun (pinit zeroBuf) wrapRun = s at b c h1 h2 h3 h7 ⊢
  rw [b] at h1
  rw [c] at h2
  rw [b, c] at h3 h7
  have h8 := h7 4294967295 (le_refl _) (by omega)
  rw [show 4294967295 % PIPESIZE = 511 from rfl] at h8
  refine ⟨h3, ?_, ?_, h8⟩
  · rw [h2]
    rfl
  · rw [h1]
    rfl

/-- C27: on a well-formed regular inode whose file has no holes, a
`writei(ip, src, off, n)` that returns `n` leaves `ip.size` equal to
`max(old size, off + n)`, the bytes `[off, off + n)` of the file equal to `src`,
every byte of the file below the old size and outside `[off, off + n)` as it
was, and the file without holes; when `off + n` exceeds the old size the
on-disk inode has the fields of the in-memory inode, the new size among them;
with `n == 0` neither the disk nor the inode changes. -/
theorem writei_splice (st : FS) (ip : Inode) (src : Mem) (off n : Nat) (st2 : FS) (ip2 : Inode)
    (hok : InodeOk st ip) (hnh : NoHoles st ip) (hs : ShortFields ip) (ht : ip.type ≠ T_DEV)
    (hoff : off < U32) (hn : n < U32)
    (h : writei st ip src off n = Except.ok ((n : Int), st2, ip2)) :
    ip2.size = max ip.size (off + n) ∧
    (∀ i, i < n → fileByte st2 ip2 (off + i) = src i) ∧
    (∀ p, p < ip.size → (p < off ∨ off + n ≤ p) → fileByte st2 ip2 p = fileByte st ip p) ∧
    NoHoles st2 ip2 ∧
    (ip.size < off + n → Mirror st2 ip2 ∧
      (readDinode st2 ip2.dev ip2.inum).size = max ip.size (off + n)) ∧
    (n = 0 → st2 = st ∧ ip2 = ip) := by
  obtain ⟨g1, g2⟩ := writei_ret_guard ht hoff hn h
  obtain ⟨-, hp⟩ := writei_post hok ht g1 g2 h
  refine ⟨hp.size, fun i hi => (hp.written i hi).2, ?_, writeiPost_noHoles hok hnh g1 hp, ?_,
    hp.nothing⟩
  · intro p hp1 hp2
    have hsz := hok.size_le
    refine hp.kept_data p (by omega) hp2 (hnh _ ?_)
    have := Nat.div_mul_le_self p BSIZE
    omega
  · intro hext
    have hm := writei_extend_mirror hok hs ht g1 g2 hext h
    exact ⟨hm, by rw [← hm.2.2.2.2.1, hp.size]⟩

set_option maxRecDepth 1000000 in
/-- C27, witness: on the sample image, writing "hello" at offset 0 of the fresh
inode 2 returns 5 and leaves size 5, the five bytes in the file, and size 5 in
the on-disk inode. -/
theorem writei_splice_witness :
    ∃ st2 ip2, writei fs0 (freshFile 2) (memOf [104, 101, 108, 108, 111]) 0 5 =
        Except.ok (5, st2, ip2) ∧ ip2.size = 5 ∧
      (∀ i, i < 5 → fileByte st2 ip2 i = memOf [104, 101, 108, 108, 111] i) ∧
      (readDinode st2 ip2.dev ip2.inum).size = 5 := by
  obtain ⟨⟨st2, ip2⟩, hw⟩ := retOf_eq_some writei_hello_ret
  obtain ⟨a, b, -, -, d, -⟩ := writei_splice fs0 (freshFile 2) (memOf [104, 101, 108, 108, 111])
    0 5 st2 ip2 freshFile_ok (noHoles_of_size_zero rfl) (by decide) (freshFile_type 2)
    (by decide) (by decide) hw
  refine ⟨st2, ip2, hw, a, fun i hi => ?_, (d (by decide)).2⟩
  have := b i hi
  rw [Nat.zero_add] at this
  exact this

/-- C28: in a well-formed file system, an inode that starts fresh, with size 0
and all addresses zero, has after every sequence of `writei` calls that
returned every logical block below `ceil(size / 512)` mapped to a non-zero
address (and is well formed); and on every well-formed inode with this
property `readi` returns and leaves the disk (the bitmap and the indirect block
with it) and the inode, `ip.addrs` included, unchanged. -/
theorem writei_keeps_no_holes (st : FS) (ip : Inode) (calls : List (Mem × Nat × Nat))
    (hfs : FsOk st ip.dev) (hrec : ip.inum / IPB + st.sb.inodestart < st.sb.bmapstart)
    (hs : ShortFields ip) (hsize : ip.size = 0)
    (haddrs : ∀ i, i ≤ NDIRECT → ip.addrs i = 0)
    (hc : ∀ c, c ∈ calls → c.2.1 < U32 ∧ c.2.2 < U32) :
    (∀ st2 ip2, writeiSeq st ip calls = Except.ok (st2, ip2) →
      (∀ bn, bn < (ip2.size + 511) / 512 → blockAt st2 ip2 bn ≠ 0) ∧ InodeOk st2 ip2) ∧
    (∀ (st3 : FS) (ip3 : Inode), InodeOk st3 ip3 →
      (∀ bn, bn < (ip3.size + 511) / 512 → blockAt st3 ip3 bn ≠ 0) →
      ∀ dst off n, off < U32 → n < U32 →
        ∃ r dst2, readi st3 ip3 dst off n = Except.ok (r, st3, ip3, dst2)) := by
  have hok : InodeOk st ip :=
    inodeOk_no_addrs hfs hrec (by rw [hsize]; exact Nat.zero_le _) haddrs
  constructor
  · intro st2 ip2 h
    obtain ⟨a, b, -⟩ := writeiSeq_noHoles calls st ip hok (noHoles_of_size_zero hsize) hs hc
      st2 ip2 h
    refine ⟨fun bn hbn => b bn ?_, a⟩
    simp only [BSIZE_eq]
    omega
  · intro st3 ip3 hok3 hnh dst off n hoff hn
    refine readi_same hok3 (fun bn hbn => hnh bn ?_) dst hoff hn
    simp only [BSIZE_eq] at hbn
    omega

set_option maxRecDepth 1000000 in
/-- C28, witness: on the sample image, after writes of 2 bytes at offset 0 and
of 600 bytes at offset 2 of the fresh inode 2 the size is 602 and blocks 0 and 1
are mapped; a `readi` of the whole file leaves disk and inode unchanged. -/
theorem writei_keeps_no_holes_witness :
    ∃ st2 ip2, writeiSeq fs0 (freshFile 2) [(memOf [1, 2], 0, 2), (fun i => i % 251, 2, 600)] =
        Except.ok (st2, ip2) ∧ ip2.size = 602 ∧ blockAt st2 ip2 0 ≠ 0 ∧ blockAt st2 ip2 1 ≠ 0 ∧
      ∃ r dst2, readi st2 ip2 (fun _ => 0) 0 602 = Except.ok (r, st2, ip2, dst2) := by
  have hrun : okAnd (fun r => decide (r.2.size = 602))
      (writeiSeq fs0 (freshFile 2) [(memOf [1, 2], 0, 2), (fun i => i % 251, 2, 600)]) = true := by
    decide!
  obtain ⟨⟨st2, ip2⟩, hw, hsz⟩ := okAnd_true hrun
  have hsz2 : ip2.size = 602 := of_decide_eq_true hsz
  obtain ⟨h1, h2⟩ := writei_keeps_no_holes fs0 (freshFile 2)
    [(memOf [1, 2], 0, 2), (fun i => i % 251, 2, 600)] fs0_ok (by decide) (by decide) rfl
    (fun _ _ => rfl)
    (by intro c hc; simp at hc; rcases hc with rfl | rfl <;> exact ⟨by decide, by decide⟩)
  obtain ⟨a, b⟩ := h1 st2 ip2 hw
  exact ⟨st2, ip2, hw, hsz2, a 0 (by rw [hsz2]; decide), a 1 (by rw [hsz2]; decide),
    h2 st2 ip2 b a (fun _ => 0) 0 602 (by decide) (by decide)⟩

namespace Bio

theorem outcome_eq_some {x : Except Panic Sys} {h : List Hold} {l : List Nat}
    (e : outcome x = some (h, l)) : ∃ s, x = Except.ok s ∧ s.held = h ∧ s.cache.lru = l := by
  cases x with
  | error _ => simp [outcome] at e
  | ok s =>
    simp only [outcome, Option.some.injEq, Prod.mk.injEq] at e
    exact ⟨s, rfl, e.1, e.2⟩

/-- C10: with the critical sections of `bget` and `brelse` as atomic steps, after
every interleaved sequence of `bread` and `brelse` calls (and of stores into
held buffers and `bwrite` calls) started from `binit`
(fewer than 2^32 of them, so that the 32-bit count cannot wrap): all `bread`
calls for the same `(dev, blockno)` that have not been released yet received
the same buffer, that buffer names `(dev, blockno)`, and its `refcnt` is the
number of these unreleased calls. -/
theorem bread_unreleased_share_buffer (disk : Nat → Nat → Mem) (hd : Bool) (evs : List Ev)
    (s : Sys) (h : Hold) (hlen : evs.length < U32)
    (hrun : run (init disk hd) evs = Except.ok s) (hm : h ∈ s.held) :
    (∀ g, g ∈ s.held → g.dev = h.dev → g.blockno = h.blockno → g.idx = h.idx) ∧
      (s.cache.buf h.idx).dev = h.dev ∧ (s.cache.buf h.idx).blockno = h.blockno ∧
      (s.cache.buf h.idx).refcnt = holders s h.dev h.blockno :=
  inv_holders (run_inv evs (init disk hd) s (init_inv disk hd) (by simpa [init] using hlen) hrun)
    h hm

set_option maxRecDepth 100000 in
theorem sample_run_outcome :
    outcome (run (init (fun _ _ _ => 0) true)
      [Ev.bread 1 5, Ev.bread 1 5, Ev.bread 1 7, Ev.brelse ⟨1, 7, 1⟩, Ev.bread 1 5]) =
      some ([⟨1, 5, 0⟩, ⟨1, 5, 0⟩, ⟨1, 5, 0⟩],
        [1, 29, 28, 27, 26, 25, 24, 23, 22, 21, 20, 19, 18, 17, 16, 15, 14, 13, 12, 11, 10, 9,
          8, 7, 6, 5, 4, 3, 2, 0]) := by
  decide!

/-- C10, witness: three unreleased `bread(1, 5)` among five steps all hold
buffer 0, whose `refcnt` is 3. -/
theorem bread_unreleased_share_buffer_witness :
    ∃ s, run (init (fun _ _ _ => 0) true)
        [Ev.bread 1 5, Ev.bread 1 5, Ev.bread 1 7, Ev.brelse ⟨1, 7, 1⟩, Ev.bread 1 5] =
          Except.ok s ∧
      s.held = [⟨1, 5, 0⟩, ⟨1, 5, 0⟩, ⟨1, 5, 0⟩] ∧ (s.cache.buf 0).refcnt = 3 := by
  obtain ⟨s, h1, h2, -⟩ := outcome_eq_some sample_run_outcome
  have h3 := bread_unreleased_share_buffer (fun _ _ _ => 0) true _ s ⟨1, 5, 0⟩ (by decide) h1
    (by rw [h2]; decide)
  refine ⟨s, h1, h2, ?_⟩
  have h4 := h3.2.2.2
  unfold holders at h4
  rw [h2] at h4
  exact h4

set_option maxRecDepth 100000 in
theorem sample_run_names :
    okAnd (fun s => decide ((s.cache.buf 1).dev = (s.cache.buf 2).dev ∧
        (s.cache.buf 1).blockno = (s.cache.buf 2).blockno))
      (run (init (fun _ _ _ => 0) true) [Ev.bread 0 7, Ev.brelse ⟨0, 7, 0⟩]) = true := by
  decide!

/-- C11, counterexample: `binit` leaves all the buffers with `dev = 0` and
`blockno = 0`, and after a `bread(0, 7)` and its `brelse` the different buffers
1 and 2 still name the same pair. -/
theorem buffers_share_name_after_binit :
    ∃ s, run (init (fun _ _ _ => 0) true) [Ev.bread 0 7, Ev.brelse ⟨0, 7, 0⟩] = Except.ok s ∧
      1 < NBUF ∧ 2 < NBUF ∧ (s.cache.buf 1).dev = (s.cache.buf 2).dev ∧
      (s.cache.buf 1).blockno = (s.cache.buf 2).blockno := by
  obtain ⟨s, h1, h2⟩ := okAnd_true sample_run_names
  simp only [decide_eq_true_eq] at h2
  exact ⟨s, h1, by decide, by decide, h2.1, h2.2⟩

/-- C11, amended: in every state reached from `binit` through `bread`, stores
into held buffers, `bwrite` and `brelse`, two different buffers among the
`NBUF` that name the same `(dev, blockno)` name block 0 of device 0, and one of
the two is as `binit` left it (`flags = 0`, `refcnt = 0`).  So at most one
buffer names any other pair, and at most one valid or referenced buffer names
any pair. -/
theorem one_valid_buffer_per_block (disk : Nat → Nat → Mem) (hd : Bool) (evs : List Ev)
    (s : Sys) (hrun : run (init disk hd) evs = Except.ok s) (i j : Nat) (hi : i < NBUF)
    (hj : j < NBUF) (hne : i ≠ j) (hs : sameBlock s.cache i j) :
    ((s.cache.buf i).dev = 0 ∧ (s.cache.buf i).blockno = 0) ∧
      (untouched s.cache i ∨ untouched s.cache j) :=
  uniq_two (run_uniq evs (init disk hd) s (init_uniq disk hd) hrun) i j hi hj hne hs

/-- C11, witness: after `bread(0, 7)` and its `brelse`, buffers 1 and 2 name
block 0 of device 0 and one of them is untouched. -/
theorem one_valid_buffer_per_block_witness :
    ∃ s, run (init (fun _ _ _ => 0) true) [Ev.bread 0 7, Ev.brelse ⟨0, 7, 0⟩] = Except.ok s ∧
      ((s.cache.buf 1).dev = 0 ∧ (s.cache.buf 1).blockno = 0) ∧
      (untouched s.cache 1 ∨ untouched s.cache 2) := by
  obtain ⟨s, h1, h2⟩ := okAnd_true sample_run_names
  simp only [decide_eq_true_eq] at h2
  exact ⟨s, h1, one_valid_buffer_per_block _ _ _ s h1 1 2 (by decide) (by decide) (by decide) h2⟩

/-- C12: `bget` on any cache.  When no buffer of the list names `(dev,
blockno)` and `bget` returns, the buffer it returns has `refcnt == 0` and
`B_DIRTY` clear and is the first such buffer met from the LRU end; it gets the
new name, `flags = 0` and `refcnt = 1`, and nothing else changes.  Whenever
`bget` returns, the `dev`, `blockno`, `flags` and `data` of every buffer with
`refcnt > 0` or `B_DIRTY` set are as before.  `bget` panics if and only if no
buffer names `(dev, blockno)` and every buffer has `refcnt > 0` or `B_DIRTY`
set, and the panic is "bget: no buffers". -/
theorem bget_recycles_unpinned (c : BCache) (dev blockno : Nat) :
    (∀ i c2, (∀ j, j ∈ c.lru → names c dev blockno j = false) →
      bget c dev blockno = Except.ok (i, c2) →
        ((c.buf i).refcnt = 0 ∧ (c.buf i).flags &&& B_DIRTY = 0) ∧
        (∃ front back, c.lru = front ++ i :: back ∧
          ∀ j, j ∈ back → ¬ ((c.buf j).refcnt = 0 ∧ (c.buf j).flags &&& B_DIRTY = 0)) ∧
        c2.buf i = { c.buf i with dev := dev, blockno := blockno, flags := 0, refcnt := 1 } ∧
        (∀ j, j ≠ i → c2.buf j = c.buf j) ∧
        c2.lru = c.lru ∧ c2.disk = c.disk ∧ c2.loads = c.loads) ∧
    (∀ i c2, bget c dev blockno = Except.ok (i, c2) →
      ∀ j, (0 < (c.buf j).refcnt ∨ (c.buf j).flags &&& B_DIRTY ≠ 0) →
        (c2.buf j).dev = (c.buf j).dev ∧ (c2.buf j).blockno = (c.buf j).blockno ∧
        (c2.buf j).flags = (c.buf j).flags ∧ (c2.buf j).data = (c.buf j).data) ∧
    ((∃ e, bget c dev blockno = Except.error e) ↔
      (∀ j, j ∈ c.lru → ¬ ((c.buf j).dev = dev ∧ (c.buf j).blockno = blockno)) ∧
      (∀ j, j ∈ c.lru → 0 < (c.buf j).refcnt ∨ (c.buf j).flags &&& B_DIRTY ≠ 0)) ∧
    (∀ e, bget c dev blockno = Except.error e → e = Panic.bgetNoBuffers) := by
  have hrec : ∀ j, reclaimable c j = false ↔
      (0 < (c.buf j).refcnt ∨ (c.buf j).flags &&& B_DIRTY ≠ 0) := by
    intro j
    unfold reclaimable
    simp only [decide_eq_false_iff_not, not_and_or]
    constructor
    · rintro (h | h)
      · exact Or.inl (Nat.pos_of_ne_zero h)
      · exact Or.inr h
    · rintro (h | h)
      · exact Or.inl (Nat.pos_iff_ne_zero.mp h)
      · exact Or.inr h
  refine ⟨?_, ?_, ?_, ?_⟩
  · intro i c2 hmiss h
    have hf : c.lru.find? (names c dev blockno) = none :=
      List.find?_eq_none.mpr (fun x hx => by rw [hmiss x hx]; exact Bool.false_ne_true)
    unfold bget at h
    rw [hf] at h
    simp only at h
    cases hv : c.lru.reverse.find? (reclaimable c) with
    | none => rw [hv] at h; simp at h
    | some v =>
      rw [hv] at h
      simp only [Except.ok.injEq, Prod.mk.injEq] at h
      obtain ⟨rfl, rfl⟩ := h
      obtain ⟨h1, front, back, h2, h3⟩ := scan_last hv
      unfold reclaimable at h1
      simp only [decide_eq_true_eq] at h1
      refine ⟨h1, ⟨front, back, h2, fun j hj => ?_⟩, setBuf_same _ _ _,
        fun j hj => setBuf_other _ _ _ _ hj, rfl, rfl, rfl⟩
      have := h3 j hj
      unfold reclaimable at this
      simpa only [decide_eq_false_iff_not] using this
  · intro i c2 h j hpin
    unfold bget at h
    cases hf : c.lru.find? (names c dev blockno) with
    | some a =>
      rw [hf] at h
      simp only [Except.ok.injEq, Prod.mk.injEq] at h
      obtain ⟨rfl, rfl⟩ := h
      by_cases hj : j = a
      · rw [hj, setBuf_same]
        exact ⟨rfl, rfl, rfl, rfl⟩
      · rw [setBuf_other _ _ _ _ hj]
        exact ⟨rfl, rfl, rfl, rfl⟩
    | none =>
      rw [hf] at h
      simp only at h
      cases hv : c.lru.reverse.find? (reclaimable c) with
      | none => rw [hv] at h; simp at h
      | some v =>
        rw [hv] at h
        simp only [Except.ok.injEq, Prod.mk.injEq] at h
        obtain ⟨rfl, rfl⟩ := h
        have hjv : j ≠ v := by
          intro e
          have h1 := List.find?_some hv
          rw [← e] at h1
          have := (hrec j).mpr hpin
          rw [this] at h1
          exact Bool.noConfusion h1
        rw [setBuf_other _ _ _ _ hjv]
        exact ⟨rfl, rfl, rfl, rfl⟩
  · constructor
    · rintro ⟨e, h⟩
      unfold bget at h
      cases hf : c.lru.find? (names c dev blockno) with
      | some a => rw [hf] at h; simp at h
      | none =>
        rw [hf] at h
        simp only at h
        cases hv : c.lru.reverse.find? (reclaimable c) with
        | some v => rw [hv] at h; simp at h
        | none =>
          refine ⟨fun j hj => ?_, fun j hj => ?_⟩
          · have := find_none _ hf j hj
            unfold names at this
            simpa only [decide_eq_false_iff_not] using this
          · apply (hrec j).mp
            have := List.find?_eq_none.mp hv j (List.mem_reverse.mpr hj)
            simpa using this
    · rintro ⟨h1, h2⟩
      refine ⟨Panic.bgetNoBuffers, ?_⟩
      have hf : c.lru.find? (names c dev blockno) = none := by
        apply List.find?_eq_none.mpr
        intro x hx
        unfold names
        simpa using h1 x hx
      have hv : c.lru.reverse.find? (reclaimable c) = none := by
        apply List.find?_eq_none.mpr
        intro x hx
        rw [(hrec x).mpr (h2 x (List.mem_reverse.mp hx))]
        exact Bool.false_ne_true
      unfold bget
      rw [hf]
      simp only
      rw [hv]
  · intro e h
    unfold bget at h
    cases hf : c.lru.find? (names c dev blockno) with
    | some a => rw [hf] at h; simp at h
    | none =>
      rw [hf] at h
      simp only at h
      cases hv : c.lru.reverse.find? (reclaimable c) with
      | some v => rw [hv] at h; simp at h
      | none =>
        rw [hv] at h
        simp only [Except.error.injEq] at h
        exact h.symm

/-- C12, witness: on the cache that `binit` leaves, `bget(1, 5)` misses and
recycles buffer 0, the last of the list. -/
theorem bget_recycles_unpinned_witness :
    ∃ c2, bget (binit (fun _ _ _ => 0) true) 1 5 = Except.ok (0, c2) ∧
      (c2.buf 0).dev = 1 ∧ (c2.buf 0).blockno = 5 ∧ (c2.buf 0).flags = 0 ∧
      (c2.buf 0).refcnt = 1 ∧ c2.buf 1 = (binit (fun _ _ _ => 0) true).buf 1 := by
  have h : bget (binit (fun _ _ _ => 0) true) 1 5 = Except.ok (0,
      (binit (fun _ _ _ => 0) true).setBuf 0
        { (binit (fun _ _ _ => 0) true).buf 0 with
          dev := 1, blockno := 5, flags := 0, refcnt := 1 }) := rfl
  have hmiss : ∀ j, j ∈ (binit (fun _ _ _ => 0) true).lru →
      names (binit (fun _ _ _ => 0) true) 1 5 j = false := fun j _ => rfl
  obtain ⟨-, -, h3, h4, -⟩ :=
    (bget_recycles_unpinned (binit (fun _ _ _ => 0) true) 1 5).1 0 _ hmiss h
  refine ⟨_, h, ?_, ?_, ?_, ?_, h4 1 (by decide)⟩
  · rw [h3]
  · rw [h3]
  · rw [h3]
  · rw [h3]

/-- C13: from the cache that `binit` leaves, `bread` then `brelse` on each of
`NBUF + 1` pairwise distinct blocks `b0, rest` of the disk in order returns,
and afterwards no buffer names `b0`, every block of `rest` is named by a valid
buffer, and a following `bread(b0)` completes exactly one load by `iderw`.  And
in every state reached from `binit` (by fewer than 2^32 steps, so that no
reference count wraps), a `bget` that misses recycles the buffer that was
never released or was released before every other buffer with `refcnt == 0`
and `B_DIRTY` clear. -/
theorem lru_evicts_least_recent (disk : Nat → Nat → Mem) (hd : Bool) (b0 : Nat × Nat)
    (rest : List (Nat × Nat)) (hlen : rest.length = NBUF) (hnd : (b0 :: rest).Nodup)
    (hon : ∀ b, b ∈ b0 :: rest → onDisk hd b) :
    (∃ c, touchAll (binit disk hd) (b0 :: rest) = Except.ok c ∧ ¬ cached c b0 ∧
      (∀ b, b ∈ rest → cachedValid c b) ∧
      ∃ i c2, bread c b0.1 b0.2 = Except.ok (i, c2) ∧ c2.loads = c.loads + 1) ∧
    (∀ (evs : List Ev) (t : Timed), evs.length < U32 →
      trun (tinit disk hd) evs = Except.ok t →
      ∀ dev blockno v c2,
        (∀ j, j < NBUF → ¬ ((t.sys.cache.buf j).dev = dev ∧
          (t.sys.cache.buf j).blockno = blockno)) →
        bget t.sys.cache dev blockno = Except.ok (v, c2) →
        ∀ r, r < NBUF → r ≠ v → (t.sys.cache.buf r).refcnt = 0 →
          (t.sys.cache.buf r).flags &&& B_DIRTY = 0 →
          t.released v = 0 ∨ t.released v < t.released r) := by
  constructor
  · rcases List.eq_nil_or_concat rest with e | ⟨mid, last, e⟩
    · rw [e] at hlen
      exact absurd hlen (by decide)
    rw [List.concat_eq_append] at e
    have hmid : mid.length = 29 := by
      rw [e] at hlen
      simp [NBUF] at hlen
      exact hlen
    have hsplit : b0 :: rest = (b0 :: mid) ++ [last] := by rw [e]; rfl
    have hnd2 := hnd
    rw [hsplit] at hnd2
    obtain ⟨n1, -, n3⟩ := List.nodup_append.mp hnd2
    have hlast : last ∉ b0 :: mid := fun h => n3 h (List.mem_singleton_self _)
    obtain ⟨c1, A1, P1, k1, k2, k3, -⟩ := touchAll_quiet (b0 :: mid) (binit disk hd) []
      (binit disk hd).lru [] (binit_quiet disk hd) n1 (fun _ _ h => absurd h (List.not_mem_nil _))
      (fun b hb => hon b (by rw [hsplit]; exact List.mem_append_left _ hb))
      (by rw [binit_lru]; simp [hmid])
    have hP1 : P1 = [] := by
      rw [binit_lru] at k3
      simpa [hmid] using k3
    rw [hP1, List.append_nil] at k2
    obtain ⟨c3, A3, P3, m1, -, m3⟩ := touch_quiet k2
      (hon last (by rw [hsplit]; exact List.mem_append_right _ (List.mem_singleton_self _)))
      (fun h => hlast (List.mem_reverse.mp h))
    have hq : Quiet c3 hd A3 [] (last :: mid.reverse) := by
      rcases m3 with ⟨m4, -⟩ | ⟨-, -, m5⟩
      · simp at m4
      · rw [List.reverse_cons, List.dropLast_concat] at m5
        exact m5
    have hb0 : b0 ∉ last :: mid.reverse := by
      intro h
      rcases List.mem_cons.mp h with h | h
      · exact hlast (h ▸ List.mem_cons_self _ _)
      · exact (List.nodup_cons.mp n1).1 (List.mem_reverse.mp h)
    refine ⟨c3, ?_, fun h => hb0 ((hq.cached_iff b0).1 h), ?_, ?_⟩
    · rw [hsplit, touchAll_append, k1]
      show (touch c1 last >>= fun c => Except.ok c) = _
      rw [m1]
      rfl
    · intro b hb
      apply (hq.cached_iff b).2
      rw [e] at hb
      rcases List.mem_append.mp hb with h | h
      · exact List.mem_cons_of_mem _ (List.mem_reverse.mpr h)
      · rw [List.mem_singleton.mp h]
        exact List.mem_cons_self _ _
    · obtain ⟨v, c4, g1, g2, -, g4, g5, -, -, g8, g9, -⟩ := bget_quiet hq hb0
      obtain ⟨c5, j1, -, j3, -⟩ := bread_load g1 g2 g4 g5
        (hon b0 (List.mem_cons_self _ _)).1
        (by rw [g8, hq.disk1]; exact (hon b0 (List.mem_cons_self _ _)).2)
      exact ⟨v, c5, j1, by rw [j3, g9]⟩
  · intro evs t hlen2 hrun dev blockno v c2 hmiss hg r hr hrv h0 hdirty
    obtain ⟨-, ha⟩ := trun_aged evs (tinit disk hd) t (init_inv disk hd) (tinit_aged disk hd)
      (by simpa [tinit, init] using hlen2) hrun
    have hu : Uniq t.sys := by
      have hrun2 : ∀ (es : List Ev) (a b : Timed), trun a es = Except.ok b →
          run a.sys es = Except.ok b.sys := by
        intro es
        induction es with
        | nil =>
          intro a b h
          simp only [trun, Except.ok.injEq] at h
          subst h
          rfl
        | cons e es ih =>
          intro a b h
          simp only [trun] at h
          obtain ⟨t1, hs, h⟩ := bind_eq_ok h
          simp only [run]
          rw [(tstep_sys hs).1]
          exact ih t1 b h
      exact run_uniq evs _ _ (init_uniq disk hd) (hrun2 evs _ _ hrun)
    have hmem : ∀ j, j ∈ t.sys.cache.lru ↔ j < NBUF := by
      intro j
      rw [← List.mem_range]
      exact hu.perm.mem_iff
    refine aged_victim ha ?_ hg r ((hmem r).mpr hr) hrv h0 hdirty
    intro j hj
    unfold names
    simp only [decide_eq_false_iff_not]
    exact hmiss j ((hmem j).mp hj)

/-- C13, witness: the blocks 0 to 30 of disk 1 touched in order; block 0 is
not cached afterwards and block 30 is. -/
theorem lru_evicts_least_recent_witness :
    ∃ c, touchAll (binit (fun _ _ _ => 0) true)
        ((1, 0) :: (List.range' 1 30).map (fun k => (1, k))) = Except.ok c ∧
      ¬ cached c (1, 0) ∧ cachedValid c (1, 30) := by
  obtain ⟨c, h1, h2, h3, -⟩ := (lru_evicts_least_recent (fun _ _ _ => 0) true (1, 0)
    ((List.range' 1 30).map (fun k => (1, k))) (by decide) (by decide)
    (by decide)).1
  exact ⟨c, h1, h2, h3 (1, 30) (by decide)⟩

/-- C14: with `iderw` as the driver contract, in a state reached from `binit`
a caller holds a buffer `g` for block `(dev, k)` with data `D`; it calls
`bwrite` and `brelse`; any steps follow that do not write block `k` of that
disk (all together fewer than 2^32 steps, so that no reference count wraps).
Then a `bread(dev, k)` that returns hands out a buffer whose data is `D`,
be it a hit or a reload after the buffer was recycled. -/
theorem bwrite_then_bread_reads_back (disk : Nat → Nat → Mem) (hd : Bool) (evs0 evs1 : List Ev)
    (g : Hold) (s0 s1 : Sys) (i : Nat) (c2 : BCache)
    (hlen : evs0.length + evs1.length + 2 < U32)
    (h0 : run (init disk hd) evs0 = Except.ok s0) (hm : g ∈ s0.held)
    (h1 : run s0 (Ev.bwrite g :: Ev.brelse g :: evs1) = Except.ok s1)
    (hw : ∀ e, e ∈ evs1 → ¬ writesBlock g.dev g.blockno e)
    (hb : bread s1.cache g.dev g.blockno = Except.ok (i, c2)) :
    (c2.buf i).data = (s0.cache.buf g.idx).data := by
  have hinv0 := run_inv evs0 _ _ (init_inv disk hd) (by simp [init]; omega) h0
  have hu0 := run_uniq evs0 _ _ (init_uniq disk hd) h0
  have hcl0 : Clean s0.cache := run_clean evs0 _ _ (fun _ => Nat.zero_and _) h0
  have hl0 := run_held_le evs0 _ _ h0
  simp only [init, List.length_nil, Nat.zero_add] at hl0
  simp only [run] at h1
  obtain ⟨sa, ha, h1⟩ := bind_eq_ok h1
  obtain ⟨sb, hbr, h1⟩ := bind_eq_ok h1
  obtain ⟨inva, la⟩ := step_inv hinv0 (by omega) ha
  obtain ⟨invb, lb⟩ := step_inv inva (by omega) hbr
  have hra := bwrite_reads hinv0 hu0 hm ha
  have hcla := step_clean hcl0 ha
  have hrb := step_reads inva hcla hra (e := Ev.brelse g) (fun x => x) hbr
  have hclb := step_clean hcla hbr
  obtain ⟨hcl1, hr1⟩ := run_reads evs1 sb s1 invb hclb hrb (by omega) hw h1
  obtain ⟨b1, b2, -, b4, b5, -, -⟩ := bread_bufs hb
  obtain ⟨-, -, d3⟩ := bread_data hcl1 hb
  rcases d3 with e | ⟨e1, e2, e3, e4⟩
  · rw [e]; exact hr1.disk
  · rw [e4]
    exact hr1.bufs i b1 e1 e2 e3

set_option maxRecDepth 1000000 in
theorem sample_write_read :
    okAnd (fun s0 => decide ((⟨1, 5, 0⟩ : Hold) ∈ s0.held) &&
        okAnd (fun s1 => okAnd (fun r => decide ((s0.cache.buf 0).data 0 = 7 ∧
            r.1 = 1 ∧ s1.cache.loads = 31 ∧ r.2.loads = 32)) (bread s1.cache 1 5))
          (run s0 (Ev.bwrite ⟨1, 5, 0⟩ :: Ev.brelse ⟨1, 5, 0⟩ ::
            (List.range' 1 30).flatMap (fun j =>
              [Ev.bread 1 (5 + j), Ev.brelse ⟨1, 5 + j, j % 30⟩]))))
      (run (init (fun _ _ _ => 0) true) [Ev.bread 1 5, Ev.store ⟨1, 5, 0⟩ (fun _ => 7)]) =
      true := by
  decide!

/-- C14, witness: block 5 of disk 1 is filled with sevens, written and
released; thirty other blocks are read, which recycles every buffer; the next
`bread(1, 5)` loads the block again and its first byte is 7. -/
theorem bwrite_then_bread_reads_back_witness :
    ∃ s0 s1 i c2,
      run (init (fun _ _ _ => 0) true) [Ev.bread 1 5, Ev.store ⟨1, 5, 0⟩ (fun _ => 7)] =
        Except.ok s0 ∧
      run s0 (Ev.bwrite ⟨1, 5, 0⟩ :: Ev.brelse ⟨1, 5, 0⟩ ::
        (List.range' 1 30).flatMap (fun j =>
          [Ev.bread 1 (5 + j), Ev.brelse ⟨1, 5 + j, j % 30⟩])) = Except.ok s1 ∧
      bread s1.cache 1 5 = Except.ok (i, c2) ∧ c2.loads = s1.cache.loads + 1 ∧
      (c2.buf i).data 0 = 7 := by
  obtain ⟨s0, h0, p0⟩ := okAnd_true sample_write_read
  simp only [Bool.and_eq_true, decide_eq_true_eq] at p0
  obtain ⟨hm, p1⟩ := p0
  obtain ⟨s1, h1, p2⟩ := okAnd_true p1
  obtain ⟨⟨i, c2⟩, hb, p3⟩ := okAnd_true p2
  simp only [decide_eq_true_eq] at p3
  have hw : ∀ e, e ∈ (List.range' 1 30).flatMap (fun j =>
      [Ev.bread 1 (5 + j), Ev.brelse ⟨1, 5 + j, j % 30⟩]) →
      ¬ writesBlock 1 5 e := by
    intro e he
    obtain ⟨j, -, hj⟩ := List.mem_flatMap.mp he
    simp only [List.mem_cons, List.mem_singleton, List.not_mem_nil, or_false] at hj
    rcases hj with hj | hj <;> rw [hj] <;> exact fun x => x
  have h := bwrite_then_bread_reads_back (fun _ _ _ => 0) true _ _ ⟨1, 5, 0⟩ s0 s1 i c2
    (by decide) h0 hm h1 hw hb
  refine ⟨s0, s1, i, c2, h0, h1, hb, ?_, ?_⟩
  · rw [p3.2.2.2, p3.2.2.1]
  · rw [h]; exact p3.1

end Bio

namespace Cached

/-! ## The allocators on the buffer cache -/

set_option maxRecDepth 1000000 in
theorem busy_balloc_runs :
    panicOf (balloc (busy 30) 1) = some Panic.bgetNoBuffers ∧
    okAnd (fun r => decide (r.1 = 59) &&
        decide (panicOf (bfree r.2 1 59) = some Panic.bgetNoBuffers))
      (balloc (busy 28) 1) = true := by
  decide!

/-- C8, counterexample: on the sample image, where block 59 has a clear bit,
with the 30 buffers of the cache held by other processes for other blocks,
`balloc(1)` panics in the `bget` of its first `bread` ("bget: no buffers")
although a bit is clear. -/
theorem balloc_panics_with_clear_bit :
    Sound (busy 30).cache ∧ FsOk (busy 30).fs 1 ∧ 59 < (busy 30).sb.size ∧
      ¬ bitSet (busy 30).fs 1 59 ∧
      balloc (busy 30) 1 = Except.error Panic.bgetNoBuffers := by
  refine ⟨busy_sound 30, ?_, by decide, ?_, panicOf_some busy_balloc_runs.1⟩
  · rw [busy_fs]; exact fs0_ok
  · rw [busy_fs]; decide

/-- C8, amended: on a well-formed file system, whose bitmap marks every
non-data block as in use, seen through a block cache in good order.  Whenever
`balloc(dev)` returns, it returns the smallest block number `b` in
`[0, sb.size)` whose bitmap bit (byte `(b % 4096) / 8`, bit `b % 8`, of block
`bmapstart + b / 4096`) is clear; afterwards that bit is set, the bit of every
other block covered by the bitmap is unchanged, and data block `b` is 512 zero
bytes.  Its panics are "balloc: out of blocks" and the "bget: no buffers" of
the block cache.  It panics "out of blocks" only when no block of
`[0, sb.size)` has a clear bit.  When the cache has two buffers to recycle it
does not panic in `bget`: it returns when a bit is clear and panics "out of
blocks" exactly when none is.  Two successive `balloc` calls never return the
same block. -/
theorem balloc_first_clear_bit (s : State) (dev : Nat) (hc : Sound s.cache)
    (hfs : FsOk s.fs dev) :
    (∀ b, b < s.sb.size → BBLOCK b s.sb = s.sb.bmapstart + b / 4096 ∧
      (bitSet s.fs dev b ↔
        image s.cache dev (s.sb.bmapstart + b / 4096) (b % 4096 / 8) &&& (1 <<< (b % 8)) ≠ 0)) ∧
    (∀ b s2, balloc s dev = Except.ok (b, s2) →
      b < s.sb.size ∧ ¬ bitSet s.fs dev b ∧ (∀ j, j < b → bitSet s.fs dev j) ∧
        bitSet s2.fs dev b ∧
        (∀ c, c / BPB ≤ s.sb.size / BPB → c ≠ b → (bitSet s2.fs dev c ↔ bitSet s.fs dev c)) ∧
        (∀ i, i < 512 → image s2.cache dev b i = 0) ∧ s2.sb = s.sb ∧ Sound s2.cache) ∧
    (∀ e, balloc s dev = Except.error e →
      e = Panic.ballocOutOfBlocks ∨ e = Panic.bgetNoBuffers) ∧
    (balloc s dev = Except.error Panic.ballocOutOfBlocks →
      ∀ b, b < s.sb.size → bitSet s.fs dev b) ∧
    ((∃ x y, x ≠ y ∧ spare s.cache x ∧ spare s.cache y) →
      balloc s dev ≠ Except.error Panic.bgetNoBuffers ∧
      ((∃ b, b < s.sb.size ∧ ¬ bitSet s.fs dev b) → ∃ b s2, balloc s dev = Except.ok (b, s2)) ∧
      (balloc s dev = Except.error Panic.ballocOutOfBlocks ↔
        ∀ b, b < s.sb.size → bitSet s.fs dev b)) ∧
    (∀ b1 s1 b2 s2, balloc s dev = Except.ok (b1, s1) →
      balloc s1 dev = Except.ok (b2, s2) → b1 ≠ b2) := by
  obtain ⟨v1, v2, v3, v4, v5, v6⟩ := balloc_spec s.fs dev hfs
  obtain ⟨m1, m2, m3⟩ := balloc_sim s dev hc
  have hout : balloc s dev = Except.error Panic.ballocOutOfBlocks →
      ∀ b, b < s.sb.size → bitSet s.fs dev b := by
    intro h
    rcases m2 _ h with q | q
    · cases q
    · exact v4.mp ⟨_, q⟩
  refine ⟨v1, ?_, ?_, hout, ?_, ?_⟩
  · intro b s2 h
    obtain ⟨a1, a2, a3, a4⟩ := m1 b s2 h
    obtain ⟨w1, w2, w3⟩ := v3 b s2.fs a1
    obtain ⟨st2, x1, x2, x3, x4⟩ := v2 b w1 w2 w3
    rw [a1] at x1
    simp only [Except.ok.injEq, Prod.mk.injEq, true_and] at x1
    subst x1
    exact ⟨w1, w2, w3, x2, x3, x4, a3, a2⟩
  · intro e h
    rcases m2 e h with q | q
    · exact Or.inr q
    · exact Or.inl (v5 e q)
  · intro hx
    have hno := m3 hx
    have hret : (∃ b, b < s.sb.size ∧ ¬ bitSet s.fs dev b) →
        ∃ b s2, balloc s dev = Except.ok (b, s2) := by
      rintro ⟨b, b1, b2⟩
      cases hr : balloc s dev with
      | ok p => exact ⟨p.1, p.2, rfl⟩
      | error e =>
        exfalso
        rcases m2 e hr with q | q
        · rw [q] at hr
          exact hno hr
        · exact b2 (v4.mp ⟨e, q⟩ b b1)
    refine ⟨hno, hret, hout, fun hall => ?_⟩
    cases hr : balloc s dev with
    | ok p =>
      exfalso
      obtain ⟨a1, -⟩ := m1 p.1 p.2 hr
      obtain ⟨w1, w2, -⟩ := v3 p.1 p.2.fs a1
      exact w2 (hall p.1 w1)
    | error e =>
      rcases m2 e hr with q | q
      · rw [q] at hr
        exact absurd hr hno
      · rw [v5 e q]
  · intro b1 s1 b2 s2 h1 h2
    obtain ⟨a1, a2, a3, -⟩ := m1 b1 s1 h1
    obtain ⟨n1, -, -⟩ := balloc_sim s1 dev a2
    obtain ⟨c1, -⟩ := n1 b2 s2 h2
    exact v6 b1 s1.fs b2 s2.fs a1 c1

theorem boot_spare : spare boot.cache 0 ∧ spare boot.cache 1 ∧ spare boot.cache 2 := by
  refine ⟨⟨?_, rfl⟩, ⟨?_, rfl⟩, ⟨?_, rfl⟩⟩ <;>
  · show _ ∈ (Bio.binit disk0 true).lru
    rw [Bio.binit_lru]
    decide

/-- C8, witness: on the sample image after boot, where blocks 0 to 58 are in
use and the cache has buffers to recycle, `balloc` returns block 59, sets its
bit and zeroes it. -/
theorem balloc_first_clear_bit_witness :
    ∃ s2, balloc boot 1 = Except.ok (59, s2) ∧ bitSet s2.fs 1 59 ∧
      (∀ i, i < 512 → image s2.cache 1 59 i = 0) := by
  have hok : FsOk boot.fs 1 := by rw [boot_fs]; exact fs0_ok
  obtain ⟨-, h2, -, -, h5, -⟩ := balloc_first_clear_bit boot 1 (binit_sound disk0 true) hok
  obtain ⟨-, hret, -⟩ := h5 ⟨0, 1, by decide, boot_spare.1, boot_spare.2.1⟩
  obtain ⟨b, s2, hb⟩ := hret ⟨59, by decide, by rw [boot_fs]; decide⟩
  obtain ⟨a1, a2, a3, a4, -, a6, -⟩ := h2 b s2 hb
  have hb59 : b = 59 := by
    rw [boot_fs] at a2 a3
    by_contra hne
    rcases Nat.lt_or_gt_of_ne hne with hlt | hgt
    · have hm : bitSet fs0 1 b := by
        have : ∀ k, k < 59 → bitSet fs0 1 k := by decide
        exact this b hlt
      exact a2 hm
    · exact absurd (a3 59 hgt) (by decide)
  subst hb59
  exact ⟨s2, hb, a4, a6⟩

/-- C9, counterexample: on the sample image with 28 of the 30 buffers held by
other processes, `balloc(1)` returns block 59, which pins the last two buffers
(the bitmap block and block 59 went through `log_write`), and the following
`bfree(1, 59)` panics in the `bget` of `readsb` ("bget: no buffers"). -/
theorem bfree_after_balloc_panics :
    Sound (busy 28).cache ∧ FsOk (busy 28).fs 1 ∧
      ∃ s1, balloc (busy 28) 1 = Except.ok (59, s1) ∧
        bfree s1 1 59 = Except.error Panic.bgetNoBuffers := by
  refine ⟨busy_sound 28, by rw [busy_fs]; exact fs0_ok, ?_⟩
  obtain ⟨⟨b, s1⟩, h1, h2⟩ := okAnd_true busy_balloc_runs.2
  simp only [Bool.and_eq_true, decide_eq_true_eq] at h2
  obtain ⟨rfl, h3⟩ := h2
  exact ⟨s1, h1, panicOf_some h3⟩

/-- C9, amended: in a well-formed file system seen through a block cache in
good order, when `balloc(dev)` has returned a block `b`, the following
`bfree(dev, b)` panics in no other way than the "bget: no buffers" of the
block cache; it returns when the cache still has a buffer to recycle; and
whenever it returns it leaves the allocation bitmap (every bitmap block, byte
for byte, hence every bit) as it was before the `balloc`, and the super block
and every other block but `b` as before too. -/
theorem bfree_undoes_balloc (s : State) (dev b : Nat) (s1 : State) (hc : Sound s.cache)
    (hfs : FsOk s.fs dev) (h : balloc s dev = Except.ok (b, s1)) :
    (∀ e, bfree s1 dev b = Except.error e → e = Panic.bgetNoBuffers) ∧
    ((∃ x, spare s1.cache x) → ∃ s2, bfree s1 dev b = Except.ok s2) ∧
    (∀ s2, bfree s1 dev b = Except.ok s2 →
      (∀ k, k ≤ s.sb.size / BPB →
        image s2.cache dev (s.sb.bmapstart + k) = image s.cache dev (s.sb.bmapstart + k)) ∧
      (∀ c, c < s.sb.size → (bitSet s2.fs dev c ↔ bitSet s.fs dev c)) ∧
      s2.sb = s.sb ∧ (∀ c, c ≠ b → image s2.cache dev c = image s.cache dev c) ∧
      Sound s2.cache) := by
  obtain ⟨a1, a2, -, -⟩ := (balloc_sim s dev hc).1 b s1 h
  obtain ⟨st2, v1, v2, v3, v4, v5⟩ := balloc_bfree_bitmap s.fs dev b s1.fs hfs a1
  obtain ⟨m1, m2, m3⟩ := bfree_sim s1 dev b a2
  have herr : ∀ e, bfree s1 dev b = Except.error e → e = Panic.bgetNoBuffers := by
    intro e he
    rcases m2 e he with q | q
    · exact q
    · rw [v1] at q
      cases q
  refine ⟨herr, fun hx => ?_, fun s2 h2 => ?_⟩
  · cases hr : bfree s1 dev b with
    | ok s2 => exact ⟨s2, rfl⟩
    | error e =>
      exfalso
      have := herr e hr
      rw [this] at hr
      exact m3 hx hr
  · obtain ⟨n1, n2⟩ := m1 s2 h2
    rw [v1] at n1
    simp only [Except.ok.injEq] at n1
    subst n1
    exact ⟨v2, v3, v4, v5, n2⟩

set_option maxRecDepth 1000000 in
theorem boot_balloc_runs :
    okAnd (fun r => decide (r.1 = 59) && okAnd (fun _ => true) (bfree r.2 1 59))
      (balloc boot 1) = true := by
  decide!

/-- C9, witness: `balloc` then `bfree` on the sample image after boot. -/
theorem bfree_undoes_balloc_witness :
    ∃ s1 s2, balloc boot 1 = Except.ok (59, s1) ∧ bfree s1 1 59 = Except.ok s2 ∧
      image s2.cache 1 58 = image boot.cache 1 58 := by
  have hok : FsOk boot.fs 1 := by rw [boot_fs]; exact fs0_ok
  obtain ⟨⟨b, s1⟩, h1, h2⟩ := okAnd_true boot_balloc_runs
  simp only [Bool.and_eq_true, decide_eq_true_eq] at h2
  obtain ⟨rfl, h3⟩ := h2
  obtain ⟨s2, h4, -⟩ := okAnd_true h3
  obtain ⟨-, -, k3⟩ := bfree_undoes_balloc boot 1 59 s1 (binit_sound disk0 true) hok h1
  exact ⟨s1, s2, h1, h4, (k3 s2 h4).1 0 (Nat.zero_le _)⟩

set_option maxRecDepth 1000000 in
theorem busy_ialloc_runs :
    panicOf (ialloc boot icacheFull 1 T_FILE) = some Panic.igetNoInodes ∧
    panicOf (ialloc (busy 30) icache0 1 T_FILE) = some Panic.bgetNoBuffers := by
  decide!

/-- C16, counterexample: on the sample image inode 1 is free.  With an inode
cache whose 50 slots are all in use for other inodes `ialloc(1, T_FILE)`
panics in the `iget` it ends with ("iget: no inodes"); with the 30 buffers of
the block cache held by other processes it panics in the `bget` of its first
`bread` ("bget: no buffers"). -/
theorem ialloc_panics_though_dinode_free :
    1 < boot.sb.ninodes ∧ (readDinode boot.fs 1 1).type = 0 ∧
      ialloc boot icacheFull 1 T_FILE = Except.error Panic.igetNoInodes ∧
      (busy 30).fs = boot.fs ∧
      ialloc (busy 30) icache0 1 T_FILE = Except.error Panic.bgetNoBuffers := by
  refine ⟨by decide, ?_, panicOf_some busy_ialloc_runs.1, ?_,
    panicOf_some busy_ialloc_runs.2⟩
  · rw [boot_fs]; decide
  · rw [busy_fs, boot_fs]

/-- C16, amended: on a well-formed file system whose inode blocks lie in front
of the bitmap, seen through a block cache in good order, `ialloc(dev, type)`
with a `short` `type`.  When `inum` is the smallest number in
`[1, sb.ninodes)` whose on-disk inode has `type == 0`, `ialloc` panics in the
block cache ("bget: no buffers") or marks `inum` allocated and then does what
`iget(dev, inum)` does, its panic "iget: no inodes" included: that on-disk
inode has the given type, its `major`, `minor`, `nlink`, `size` and every
`addrs` entry are zero, and every other on-disk inode, and every byte of the
disk outside the record, is unchanged.  The panic "ialloc: no inodes" occurs
only when no on-disk inode in that range is free, and exactly then when the
block cache has a buffer to recycle, which rules out the panic of `bget`; the
only other panics are those of `bget` and `iget`; and a returned inode never
has number 0. -/
theorem ialloc_first_free_dinode (s : State) (ic : ICache) (dev : Nat) (type : Int)
    (hc : Sound s.cache) (hfs : FsOk s.fs dev) (har : InodeArea s.fs)
    (h1 : -32768 ≤ type) (h2 : type < 32768) :
    (∀ inum, 1 ≤ inum → inum < s.sb.ninodes → (readDinode s.fs dev inum).type = 0 →
      (∀ j, 1 ≤ j → j < inum → (readDinode s.fs dev j).type ≠ 0) →
      (ialloc s ic dev type = Except.error Panic.bgetNoBuffers ∨
        ∃ c2, Sound c2 ∧ ({ s with cache := c2 } : State).fs = claimed s.fs dev inum type ∧
          ialloc s ic dev type =
            (iget ic dev inum >>= fun r => pure (r.1, ({ s with cache := c2 } : State), r.2))) ∧
      (readDinode (claimed s.fs dev inum type) dev inum).type = type ∧
      (readDinode (claimed s.fs dev inum type) dev inum).major = 0 ∧
      (readDinode (claimed s.fs dev inum type) dev inum).minor = 0 ∧
      (readDinode (claimed s.fs dev inum type) dev inum).nlink = 0 ∧
      (readDinode (claimed s.fs dev inum type) dev inum).size = 0 ∧
      (∀ i, i ≤ NDIRECT → (readDinode (claimed s.fs dev inum type) dev inum).addrs i = 0) ∧
      (∀ d j, j < U32 → (d ≠ dev ∨ j ≠ inum) →
        readDinode (claimed s.fs dev inum type) d j = readDinode s.fs d j) ∧
      (∀ d b k, ¬ (d = dev ∧ b = IBLOCK inum s.sb ∧ DINODE_SIZE * (inum % IPB) ≤ k ∧
          k < DINODE_SIZE * (inum % IPB) + DINODE_SIZE) →
        (claimed s.fs dev inum type).disk d b k = image s.cache d b k)) ∧
    (ialloc s ic dev type = Except.error Panic.iallocNoInodes →
      ∀ inum, 1 ≤ inum → inum < s.sb.ninodes → (readDinode s.fs dev inum).type ≠ 0) ∧
    ((∃ x, spare s.cache x) →
      ialloc s ic dev type ≠ Except.error Panic.bgetNoBuffers ∧
      (ialloc s ic dev type = Except.error Panic.iallocNoInodes ↔
        ∀ inum, 1 ≤ inum → inum < s.sb.ninodes → (readDinode s.fs dev inum).type ≠ 0)) ∧
    (∀ e, ialloc s ic dev type = Except.error e →
      e = Panic.iallocNoInodes ∨ e = Panic.igetNoInodes ∨ e = Panic.bgetNoBuffers) ∧
    (∀ i s2 ic1, ialloc s ic dev type = Except.ok (i, s2, ic1) →
      (ic1 i).dev = dev ∧ 1 ≤ (ic1 i).inum ∧ (ic1 i).inum < s.sb.ninodes ∧
      (readDinode s.fs dev (ic1 i).inum).type = 0 ∧
      (readDinode s2.fs dev (ic1 i).inum).type = type ∧ Sound s2.cache) := by
  obtain ⟨v1, v2, v3, v4⟩ := ialloc_claims_first_free s.fs ic dev type hfs har h1 h2
  obtain ⟨m1, m2, m3⟩ := ialloc_sim s ic dev type hc
  have hnone : ialloc s ic dev type = Except.error Panic.iallocNoInodes →
      ∀ inum, 1 ≤ inum → inum < s.sb.ninodes → (readDinode s.fs dev inum).type ≠ 0 := by
    intro h
    rcases m2 _ h with q | q
    · cases q
    · exact v2.mp q
  refine ⟨?_, hnone, ?_, ?_, ?_⟩
  · intro inum hi1 hi2 hfree hused
    obtain ⟨-, c2, c3, c4, c5, c6, c7, c8, c9⟩ := v1 inum hi1 hi2 hfree hused
    refine ⟨?_, c2, c3, c4, c5, c6, c7, c8, c9⟩
    have hloop := @iallocLoop_ok s.fs dev type hfs har inum hi2 hfree (s.sb.ninodes + 1) 1 hi1
      (by omega) hused
    obtain ⟨l1, l2, -⟩ := iallocLoop_sim dev type (s.sb.ninodes + 1) 1 s hc
    unfold ialloc
    cases hl : iallocLoop s.sb dev type (s.sb.ninodes + 1) 1 s.cache with
    | error e =>
      left
      rcases l2 e hl with q | q
      · rw [q]
        rfl
      · rw [hloop] at q
        cases q
    | ok p =>
      obtain ⟨r, c2⟩ := p
      obtain ⟨n1, n2⟩ := l1 r c2 hl
      rw [hloop] at n1
      simp only [Except.ok.injEq, Prod.mk.injEq] at n1
      obtain ⟨rfl, n3⟩ := n1
      right
      refine ⟨c2, n2, n3.symm, ?_⟩
      simp only [bind_ok_eq]
  · intro hx
    have hno := m3 hx
    refine ⟨hno, hnone, fun hall => ?_⟩
    have hfsr := v2.mpr hall
    cases hr : ialloc s ic dev type with
    | ok p =>
      exfalso
      obtain ⟨a1, -⟩ := m1 p.1 p.2.1 p.2.2 hr
      rw [hfsr] at a1
      cases a1
    | error e =>
      rcases m2 e hr with q | q
      · rw [q] at hr
        exact absurd hr hno
      · rw [hfsr] at q
        simp only [Except.error.injEq] at q
        rw [q]
  · intro e h
    rcases m2 e h with q | q
    · exact Or.inr (Or.inr q)
    · rcases v3 e q with r | r
      · exact Or.inl r
      · exact Or.inr (Or.inl r)
  · intro i s2 ic1 h
    obtain ⟨a1, a2, -⟩ := m1 i s2 ic1 h
    obtain ⟨w1, w2, w3, w4, w5⟩ := v4 i s2.fs ic1 a1
    exact ⟨w1, w2, w3, w4, w5, a2⟩

/-- C16, witness: on the sample image after boot, whose inodes are all free,
with the empty inode cache `ialloc(1, T_FILE)` claims inode 1 in slot 0. -/
theorem ialloc_first_free_dinode_witness :
    ∃ c2, ialloc boot icache0 1 T_FILE = Except.ok (0, ({ boot with cache := c2 } : State),
        icache0.set 0 { icache0 0 with dev := 1, inum := 1, ref := 1, valid := 0 }) ∧
      (readDinode ({ boot with cache := c2 } : State).fs 1 1).type = T_FILE ∧
      (readDinode ({ boot with cache := c2 } : State).fs 1 1).size = 0 := by
  have hok : FsOk boot.fs 1 := by rw [boot_fs]; exact fs0_ok
  have har : InodeArea boot.fs := by rw [boot_fs]; exact fs0_inodeArea
  obtain ⟨k1, -, k3, -, -⟩ := ialloc_first_free_dinode boot icache0 1 T_FILE
    (binit_sound disk0 true) hok har (by decide) (by decide)
  obtain ⟨k4, k5, -, -, -, k9, -⟩ := k1 1 (le_refl _) (by decide) (by rw [boot_fs]; decide)
    (fun j j1 j2 => by omega)
  obtain ⟨hno, -⟩ := k3 ⟨0, boot_spare.1⟩
  rcases k4 with k4 | ⟨c2, -, e2, e3⟩
  · exact absurd k4 hno
  · refine ⟨c2, ?_, ?_, ?_⟩
    · rw [e3]
      rfl
    · rw [e2]; exact k5
    · rw [e2]; exact k9

end Cached

namespace Sleep

/-! ## `iput` and `dirlink` with the sleep-locks -/

/-- C17: `iput` on a held reference (`1 <= ref`) to a well-formed inode with
`valid` 0 or 1.  When the sleep-lock of the inode is held, `iput` sleeps in
`acquiresleep` and has not returned: `ref` is not decremented, and never will
be when the holder is the caller.  When the sleep-lock is free, `iput` returns,
with the lock free again, and decrements `ref` by exactly 1, touching no other
slot of the cache.  When `valid == 1`, `nlink == 0` and
`ref == 1` on entry the inode is freed: the bitmap bit of every block the inode
referred to (a non-zero direct entry, a non-zero entry of the indirect block,
the indirect block itself) is clear and every other bit is as before, the
thirteen addresses are 0, `size` is 0, `type` is 0 in memory and in the on-disk
inode, and `valid` is 0.  In every other case the disk is unchanged and so is
the inode but for `ref`. -/
theorem iput_unlocked_frees_or_keeps (lk : Locks) (st : FS) (ic : ICache) (i : Nat)
    (hok : InodeOk st (ic i)) (href : 1 ≤ (ic i).ref) (hmax : (ic i).ref ≤ 2147483647)
    (hv : (ic i).valid = 0 ∨ (ic i).valid = 1) :
    (lk i = true → iput lk st ic i = none) ∧
    (lk i = false →
      ∃ st2 ic2, iput lk st ic i = some (Except.ok (st2, ic2, lk)) ∧
        (ic2 i).ref = (ic i).ref - 1 ∧
        (∀ j, j ≠ i → ic2 j = ic j) ∧
        (((ic i).valid = 1 ∧ (ic i).nlink = 0 ∧ (ic i).ref = 1) →
          (∀ b, refersTo st (ic i) b → ¬ bitSet st2 (ic i).dev b) ∧
          (∀ b, b < st.sb.size → ¬ refersTo st (ic i) b →
            (bitSet st2 (ic i).dev b ↔ bitSet st (ic i).dev b)) ∧
          (∀ j, j ≤ NDIRECT → (ic2 i).addrs j = 0) ∧ (ic2 i).size = 0 ∧ (ic2 i).type = 0 ∧
          (ic2 i).valid = 0 ∧ (readDinode st2 (ic i).dev (ic i).inum).type = 0) ∧
        (¬ ((ic i).valid = 1 ∧ (ic i).nlink = 0 ∧ (ic i).ref = 1) →
          st2 = st ∧ ic2 i = { ic i with ref := (ic i).ref - 1 })) := by
  refine ⟨iput_asleep lk st ic i, fun hfree => ?_⟩
  obtain ⟨st2, ic2, h, rest⟩ := iput_frees_or_keeps st ic i hok href hmax hv
  refine ⟨st2, ic2, ?_, rest⟩
  rw [iput_free lk st ic i hfree, h]
  rfl

/-- C17, witness: a process holds a reference to the sample directory
(`ref == 1`, `valid == 1`) and has locked it with `ilock`; its call of `iput`
on that reference sleeps in `acquiresleep` on the lock the process holds
itself, and `ref` stays 1.  With the lock free, the last reference to the
sample file "hello", whose last link is gone, is put: `ref` goes from 1 to 0,
the inode is freed, the bit of its one block 59 is clear, and the on-disk inode
has type 0. -/
theorem iput_unlocked_frees_or_keeps_witness :
    (ilock unlocked dotDir.1 dotDir.2 0 = some (Except.ok (dotDir.2, dotLocks)) ∧
      (dotDir.2 0).ref = 1 ∧ (dotDir.2 0).valid = 1 ∧
      iput dotLocks dotDir.1 dotDir.2 0 = none) ∧
    ∃ st2 ic2, iput unlocked helloFile.1 unlinkedHello 0 = some (Except.ok (st2, ic2, unlocked)) ∧
      (ic2 0).ref = 0 ∧ bitSet helloFile.1 1 59 ∧ ¬ bitSet st2 1 59 ∧ (ic2 0).addrs 0 = 0 ∧
      (ic2 0).size = 0 ∧ (ic2 0).valid = 0 ∧ (readDinode st2 1 2).type = 0 := by
  obtain ⟨d1, -, -, d4, -, d6, -⟩ := dotDir_spec
  obtain ⟨l1, l2, l3⟩ := dotLocks_spec
  rw [l3] at l1
  have hdot := (iput_unlocked_frees_or_keeps dotLocks dotDir.1 dotDir.2 0 d1.ok
    (le_of_eq d4.symm) (by rw [d4]; decide) (Or.inr d6)).1 l2
  obtain ⟨f1, f2, f3, f4, f5, -, f7⟩ := helloFile_fields
  have hok : InodeOk helloFile.1 (unlinkedHello 0) :=
    inodeOk_congr helloFile_spec.1 rfl rfl rfl rfl
  have hcond : (unlinkedHello 0).valid = 1 ∧ (unlinkedHello 0).nlink = 0 ∧
      (unlinkedHello 0).ref = 1 := ⟨f2, rfl, f1⟩
  have hdev : (unlinkedHello 0).dev = 1 := f3
  have hinum : (unlinkedHello 0).inum = 2 := f4
  obtain ⟨st2, ic2, h, hr, -, hfree, -⟩ :=
    (iput_unlocked_frees_or_keeps unlocked helloFile.1 unlinkedHello 0 hok
      (le_of_eq hcond.2.2.symm) (by rw [hcond.2.2]; decide) (Or.inr hcond.1)).2 rfl
  obtain ⟨g1, -, g3, g4, -, g6, g7⟩ := hfree hcond
  rw [hdev] at g1
  rw [hdev, hinum] at g7
  refine ⟨⟨l1, d4, d6, hdot⟩, st2, ic2, h, by rw [hr, hcond.2.2]; rfl, f7, g1 59 ?_,
    g3 0 (Nat.zero_le _), g4, g6, g7⟩
  exact ⟨by decide, Or.inl ⟨0, by decide, f5⟩⟩

/-- C20: a well-formed directory `dp`, held in slot `d` of the inode cache
(whose `ref` counts are `int`s), has an entry in use (`inum != 0`) whose name
compares equal to `name` under `namecmp` (`strncmp` over `DIRSIZ = 14` bytes).
The `dirlookup` in `dirlink(dp, name, inum)` returns the inode of such an
entry, with one reference more, or panics in `iget`.  When the sleep-lock of
that inode is free, `dirlink` returns -1, for any `inum`; the disk, and with
it the content of the directory, is unchanged, the in-memory directory inode
with its size is unchanged, every reference count of the inode cache is as
before the call, and the lock is free again.  When the sleep-lock of that
inode is held, `dirlink` sleeps in the `acquiresleep` of `iput` and has not
returned, and the reference is not released.  This is so when the entries of
that name name the directory itself, as "." does, and the caller holds the
lock of the directory, as `dirlink` asks: the caller waits for its own lock. -/
theorem dirlink_existing_name_sleeps (lk : Locks) (st : FS) (ic : ICache) (d : Nat)
    (name : Mem) (inum t : Nat)
    (hd : DirOk st (ic d)) (href : 0 < (ic d).ref)
    (t1 : t % DIRENT_SIZE = 0) (t2 : t < (ic d).size)
    (hlive : deInum (dirent st (ic d) t) ≠ 0)
    (hname : namecmp name (deName (dirent st (ic d) t)) = 0)
    (hcap : ∀ j, j < NINODE → (ic j).ref ≤ 2147483647) :
    ((∃ z, z < NINODE ∧ (ic z).ref = 0) →
      ∃ i off ic1, dirlookup st ic d name = Except.ok (some (i, off), st, ic1)) ∧
    (∀ e, dirlookup st ic d name = Except.error e →
      e = Panic.igetNoInodes ∧ dirlink lk st ic d name inum = some (Except.error e)) ∧
    (∀ r st1 ic1, dirlookup st ic d name = Except.ok (r, st1, ic1) →
      ∃ i off, r = some (i, off) ∧ st1 = st ∧
        (∀ j, (ic1 j).ref = if j = i then int32 ((ic j).ref + 1) else (ic j).ref) ∧
        (lk i = false →
          ∃ ic2, dirlink lk st ic d name inum = some (Except.ok (-1, st, ic2, lk)) ∧
            (∀ j, (ic2 j).ref = (ic j).ref) ∧ ic2 d = ic d ∧
            (∀ j, 0 < (ic j).ref → ic2 j = ic j)) ∧
        (lk i = true → dirlink lk st ic d name inum = none)) ∧
    (d < NINODE →
      (∀ j, j < d → ¬ (0 < (ic j).ref ∧ (ic j).dev = (ic d).dev ∧ (ic j).inum = (ic d).inum)) →
      (∀ o, o % DIRENT_SIZE = 0 → o < (ic d).size → entNamed st (ic d) name o →
        deInum (dirent st (ic d) o) = (ic d).inum) →
      lk d = true → dirlink lk st ic d name inum = none) := by
  classical
  obtain ⟨z, z1, ⟨z2, z3⟩, zfirst⟩ := exists_least
    (p := fun o => o % DIRENT_SIZE = 0 ∧ entNamed st (ic d) name o) (Nat.lt_succ_self t)
    ⟨t1, hlive, hname⟩
  have he := dirlookup_found hd z2 (by omega) z3 (fun o o1 o2 o3 => zfirst o o2 ⟨o1, o3⟩)
  have hfound : ∀ i ic1, iget ic (ic d).dev (deInum (dirent st (ic d) z)) = Except.ok (i, ic1) →
      dirlookup st ic d name = Except.ok (some (i, z), st, ic1) := by
    intro i ic1 hg
    rw [he, hg]
    rfl
  have hasleep : ∀ i ic1, iget ic (ic d).dev (deInum (dirent st (ic d) z)) = Except.ok (i, ic1) →
      lk i = true → dirlink lk st ic d name inum = none := by
    intro i ic1 hg hl
    rw [dirlink_present lk inum (hfound i ic1 hg), iput_asleep lk st ic1 i hl]
    rfl
  refine ⟨?_, ?_, ?_, ?_⟩
  · intro hslot
    obtain ⟨i, ic1, hg⟩ := @iget_total ic (ic d).dev (deInum (dirent st (ic d) z)) hslot
    exact ⟨i, z, ic1, hfound i ic1 hg⟩
  · intro e h
    cases hg : iget ic (ic d).dev (deInum (dirent st (ic d) z)) with
    | error e2 =>
      rw [he, hg] at h
      simp only [bind_error_eq, Except.error.injEq] at h
      subst h
      refine ⟨iget_error hg, ?_⟩
      unfold dirlink
      rw [he, hg]
      rfl
    | ok p =>
      rw [hfound p.1 p.2 hg] at h
      cases h
  · intro r st1 ic1 h
    cases hg : iget ic (ic d).dev (deInum (dirent st (ic d) z)) with
    | error e2 =>
      rw [he, hg] at h
      cases h
    | ok p =>
      obtain ⟨i, ic0⟩ := p
      rw [hfound i ic0 hg] at h
      simp only [Except.ok.injEq, Prod.mk.injEq] at h
      obtain ⟨rfl, rfl, rfl⟩ := h
      refine ⟨i, z, rfl, rfl, iget_refs hg, fun hl => ?_, hasleep i ic0 hg⟩
      obtain ⟨ic2, hp, r1, r2, -⟩ := @iget_iput st ic _ _ _ _ hcap hg
      refine ⟨ic2, ?_, r1, r2 d href, r2⟩
      rw [dirlink_present lk inum (hfound i ic0 hg), iput_free lk st ic0 i hl, hp]
      rfl
  · intro hdn hfirst hself hl
    have hz : deInum (dirent st (ic d) z) = (ic d).inum := hself z z2 (by omega) z3
    have hg := @iget_hit ic (ic d).dev (ic d).inum d hdn ⟨href, rfl, rfl⟩ hfirst
    rw [← hz] at hg
    exact hasleep d _ hg hl

set_option maxRecDepth 1000000 in
theorem dot_lookup_run :
    okAnd (fun r => decide (r.1 = some (0, 0) ∧ (r.2.2 0).ref = 2))
      (dirlookup dotDir.1 dotDir.2 0 dotName) = true := by
  decide!

/-- C20, witness: the sample directory, inode 1 in slot 0, holds "." for
itself, and its caller has locked it.  `dirlookup` of "." returns slot 0 with
`ref == 2`, and `dirlink(dp, ".", 9)` sleeps in the `acquiresleep` of `iput`
on the lock its caller holds: it does not return -1, and the reference is not
released. -/
theorem dirlink_existing_name_sleeps_witness :
    dotLocks 0 = true ∧
    (∃ ic1, dirlookup dotDir.1 dotDir.2 0 dotName = Except.ok (some (0, 0), dotDir.1, ic1) ∧
      (dotDir.2 0).ref = 1 ∧ (ic1 0).ref = 2) ∧
    dirlink dotLocks dotDir.1 dotDir.2 0 dotName 9 = none := by
  obtain ⟨hd, hs, hn, hr, hin, -, hrest⟩ := dotDir_spec
  obtain ⟨-, hl, -⟩ := dotLocks_spec
  obtain ⟨-, -, hpost, hdot⟩ := dirlink_existing_name_sleeps dotLocks dotDir.1 dotDir.2 0
    dotName 9 0 hd (by rw [hr]; decide) rfl (by rw [hs]; decide) hn.1 hn.2
    (fun j _ => by
      by_cases hj : j = 0
      · rw [hj, hr]; decide
      · rw [hrest j hj]; show (0 : Int) ≤ 2147483647; decide)
  have hnone := hdot (by decide) (fun j hj => absurd hj (Nat.not_lt_zero _))
    (fun o o1 o2 _ => by
      have : o = 0 := by
        rw [hs] at o2
        simp only [DIRENT_SIZE_eq] at o1
        omega
      rw [this]
      exact hin) hl
  obtain ⟨⟨r, st1, ic1⟩, hlook, hr2⟩ := okAnd_true dot_lookup_run
  simp only [decide_eq_true_eq] at hr2
  obtain ⟨rfl, hr3⟩ := hr2
  obtain ⟨-, -, -, rfl, -, -, -⟩ := hpost _ _ _ hlook
  exact ⟨hl, ⟨ic1, hlook, hr, hr3⟩, hnone⟩

end Sleep

end OSCD
